import Mathlib

/-!
# aloxotl: a verification development

Shallow embedding of parts of the aloxotl bytecode VM (a Lox-family
interpreter written in C) together with theorems about the embedded code.

Conventions of the embedding
* a C pointer to a heap object is a natural number (its address); `NULL`
  pointers that the code tests for are `Option Nat` with `none`;
* `size` (size_t) and `uint32` quantities are naturals, reduced modulo
  `2^64` / `2^32` at the places where the C arithmetic can wrap;
* an `int32` or `int` variable that receives a `size` value is an integer,
  converted by `int32_of` (the value modulo `2^32` in the signed range);
* loops that the C code writes as `while (1)` take a fuel argument and
  return `none` when the fuel runs out; undefined behaviour (division by a
  zero capacity, reading outside an array) is `none` as well.
-/

namespace Aloxotl

/-! ## value.h -/

/-- The tagged union `value` of value.h.  The payload of `VALUE_NUMBER` is a
C double; it is carried here as its 64-bit pattern, which is all the code
modelled below ever does with it (store, copy, print). -/
inductive value where
  | bool (b : Bool)
  | nil
  | number (n : Nat)
  | obj (o : Nat)
  deriving DecidableEq, Repr

/-- Macro `IS_NIL`. -/
def IS_NIL : value → Bool
  | value.nil => true
  | _ => false

/-- Macro `IS_OBJ`. -/
def IS_OBJ : value → Bool
  | value.obj _ => true
  | _ => false

/-! ## table.c -/

/-- The struct `_table_entry`: a key pointer (`none` is `NULL`) and a value. -/
structure table_entry where
  key : Option Nat
  val : value
  deriving DecidableEq, Repr

/-- The struct `table`. -/
structure table where
  count : Nat
  capacity : Nat
  entries : List table_entry
  deriving DecidableEq, Repr

/-- Function `init_table`: the entries pointer is `NULL`, no slots. -/
def init_table : table :=
  { count := 0, capacity := 0, entries := [] }

/-- Macro `GROW_CAPACITY` of memory.h. -/
def GROW_CAPACITY (capacity : Nat) : Nat :=
  if capacity < 8 then 8 else capacity * 2

/-- The `while (1)` loop of `find_entry`.  `index` is the `uint32` loop
variable, `tombstone` the remembered first tombstone.  The result is the
index of the entry the C function returns a pointer to. -/
def find_entry_loop (entries : List table_entry) (capacity key : Nat) :
    Nat → Nat → Option Nat → Option Nat
  | 0, _, _ => none
  | fuel + 1, index, tombstone =>
    match entries[index]? with
    | none => none
    | some entry =>
      match entry.key with
      | none =>
        if IS_NIL entry.val then
          some (match tombstone with
                | some t => t
                | none => index)
        else
          find_entry_loop entries capacity key fuel (((index + 1) % 2 ^ 32) % capacity)
            (match tombstone with
             | some t => some t
             | none => some index)
      | some k =>
        if k = key then some index
        else find_entry_loop entries capacity key fuel (((index + 1) % 2 ^ 32) % capacity)
          tombstone

/-- Function `find_entry`.  `hashOf key` is the field `key->hash` (a
`uint32`).  A zero capacity makes the C code divide by zero. -/
def find_entry (hashOf : Nat → Nat) (fuel : Nat) (entries : List table_entry)
    (capacity key : Nat) : Option Nat :=
  if capacity = 0 then none
  else find_entry_loop entries capacity key fuel (((hashOf key % 2 ^ 32) % capacity) % 2 ^ 32) none

/-- The second loop of `adjust_capacity`: re-insert every live entry of the
old array (`old`, walked front to back) into the new array. -/
def adjust_capacity_loop (hashOf : Nat → Nat) (fuel capacity : Nat) :
    List table_entry → List table_entry → Nat → Option (List table_entry × Nat)
  | [], entries, count => some (entries, count)
  | entry :: old, entries, count =>
    match entry.key with
    | none => adjust_capacity_loop hashOf fuel capacity old entries count
    | some k =>
      match find_entry hashOf fuel entries capacity k with
      | none => none
      | some dest =>
        adjust_capacity_loop hashOf fuel capacity old
          (entries.set dest { key := entry.key, val := entry.val }) (count + 1)

/-- Function `adjust_capacity`. -/
def adjust_capacity (hashOf : Nat → Nat) (fuel : Nat) (tab : table) (capacity : Nat) :
    Option table :=
  match adjust_capacity_loop hashOf fuel capacity (tab.entries.take tab.capacity)
      (List.replicate capacity { key := none, val := value.nil }) 0 with
  | none => none
  | some (entries, count) => some { count := count, capacity := capacity, entries := entries }

/-- The second half of `set_table` (after the optional resize): find the slot
of the key and store the entry; the flag is the returned `is_new`. -/
def set_table_store (hashOf : Nat → Nat) (fuel : Nat) (tab : table) (key : Nat) (val : value) :
    Option (table × Bool) :=
  match find_entry hashOf fuel tab.entries tab.capacity key with
  | none => none
  | some i =>
    match tab.entries[i]? with
    | none => none
    | some entry =>
      let is_new := entry.key.isNone
      some ({ count := if is_new && IS_NIL entry.val then tab.count + 1 else tab.count,
              capacity := tab.capacity,
              entries := tab.entries.set i { key := some key, val := val } }, is_new)

/-- The load test of `set_table`, `count + 1 > capacity * TABLE_MAX_LOAD`.  The
C code does it in double arithmetic; both sides are exact there (below 2^53),
so it is the integer comparison `4 * (count + 1) > 3 * capacity`. -/
def table_overloaded (tab : table) : Bool :=
  decide (4 * (tab.count + 1) > 3 * tab.capacity)

/-- Function `set_table`; the result carries the updated table and the
returned `is_new`. -/
def set_table (hashOf : Nat → Nat) (fuel : Nat) (tab : table) (key : Nat) (val : value) :
    Option (table × Bool) :=
  match (if table_overloaded tab then
           adjust_capacity hashOf fuel tab (GROW_CAPACITY tab.capacity)
         else some tab) with
  | none => none
  | some tab1 => set_table_store hashOf fuel tab1 key val

/-- Function `get_table`: the outer `Option` is termination, the inner one is
the returned flag together with the value written through `val`. -/
def get_table (hashOf : Nat → Nat) (fuel : Nat) (tab : table) (key : Nat) :
    Option (Option value) :=
  if tab.count = 0 then some none
  else
    match find_entry hashOf fuel tab.entries tab.capacity key with
    | none => none
    | some i =>
      match tab.entries[i]? with
      | none => none
      | some entry =>
        match entry.key with
        | none => some none
        | some _ => some (some entry.val)

/-- Function `delete_table`; the result carries the updated table and the
returned flag. -/
def delete_table (hashOf : Nat → Nat) (fuel : Nat) (tab : table) (key : Nat) :
    Option (table × Bool) :=
  if tab.count = 0 then some (tab, false)
  else
    match find_entry hashOf fuel tab.entries tab.capacity key with
    | none => none
    | some i =>
      match tab.entries[i]? with
      | none => none
      | some entry =>
        match entry.key with
        | none => some (tab, false)
        | some _ =>
          some ({ tab with entries := tab.entries.set i { key := none, val := value.bool true } },
                true)

/-- One call made by a client of the table. -/
inductive table_op where
  | set (key : Nat) (val : value)
  | delete (key : Nat)
  deriving DecidableEq, Repr

/-- Run a sequence of `set_table` / `delete_table` calls on a table. -/
def run_table_ops (hashOf : Nat → Nat) (fuel : Nat) : table → List table_op → Option table
  | tab, [] => some tab
  | tab, table_op.set k v :: ops =>
    match set_table hashOf fuel tab k v with
    | none => none
    | some (tab1, _) => run_table_ops hashOf fuel tab1 ops
  | tab, table_op.delete k :: ops =>
    match delete_table hashOf fuel tab k with
    | none => none
    | some (tab1, _) => run_table_ops hashOf fuel tab1 ops

/-- The key a call is made on. -/
def table_op.key : table_op → Nat
  | table_op.set k _ => k
  | table_op.delete k => k

/-- The last call on key `k` in a sequence of calls, if there is one. -/
def last_call_on (k : Nat) : List table_op → Option table_op
  | [] => none
  | op :: ops =>
    match last_call_on k ops with
    | some o => some o
    | none => if op.key = k then some op else none

/-- The finite map the table is meant to refine, as the specification words
it: a lookup of `k` succeeds iff the last call on `k` was a `set_table`, and
then yields the value given to that call. -/
def spec_get (ops : List table_op) (k : Nat) : Option value :=
  match last_call_on k ops with
  | some (table_op.set _ v) => some v
  | _ => none

/-! ### Invariants of the table (used by the proofs) -/

/-- A slot that holds neither a key nor a tombstone. -/
def table_entry.isEmpty (e : table_entry) : Bool :=
  e.key.isNone && IS_NIL e.val

/-- The index probed `d` steps after the home slot of `key`. -/
def probe (hashOf : Nat → Nat) (cap key d : Nat) : Nat :=
  (hashOf key % 2 ^ 32 + d) % cap

/-- Number of slots that hold a key or a tombstone. -/
def used_slots (entries : List table_entry) : Nat :=
  entries.countP (fun e => !e.isEmpty)

/-- Number of slots that hold a key. -/
def keyed_slots (entries : List table_entry) : Nat :=
  entries.countP (fun e => e.key.isSome)

/-- Well-formedness of an entry array: every key sits on its own probe path
with no empty slot before it, and no key is stored twice. -/
structure entries_wf (hashOf : Nat → Nat) (entries : List table_entry) (cap : Nat) : Prop where
  len : entries.length = cap
  chain : ∀ (i : Nat) (e : table_entry) (k : Nat), entries[i]? = some e → e.key = some k →
    ∃ d, d < cap ∧ probe hashOf cap k d = i ∧
      ∀ d', d' < d → ∀ e' : table_entry,
        entries[probe hashOf cap k d']? = some e' → e'.isEmpty = false
  uniq : ∀ (i j : Nat) (ei ej : table_entry) (k : Nat),
    entries[i]? = some ei → entries[j]? = some ej →
    ei.key = some k → ej.key = some k → i = j

/-- Well-formedness of a table. -/
structure table_wf (hashOf : Nat → Nat) (tab : table) : Prop where
  wf : entries_wf hashOf tab.entries tab.capacity
  count_eq : tab.count = used_slots tab.entries
  load : 4 * tab.count ≤ 3 * tab.capacity
  cap_le : tab.capacity ≤ 2 ^ 32

/-- The table represents the finite map `m`. -/
def table_repr (tab : table) (m : Nat → Option value) : Prop :=
  ∀ k v, m k = some v ↔ ({ key := some k, val := v } : table_entry) ∈ tab.entries

/-- The finite map after one more call. -/
def map_step (m : Nat → Option value) : table_op → Nat → Option value
  | table_op.set k v => fun x => if x = k then some v else m x
  | table_op.delete k => fun x => if x = k then none else m x

/-! ## chunk.h, obj.h, vm.h -/

/-- The struct `value_array`. -/
structure value_array where
  capacity : Nat
  count : Nat
  values : List value

/-- The struct `chunk`; `code` holds the bytes, `lines` the line of each. -/
structure chunk where
  count : Nat
  capacity : Nat
  code : List Nat
  consts : value_array
  lines : List Nat

/-- The part of a heap object after its header, one constructor per struct of
obj.h (`obj_type` is the constructor).  Pointers are addresses, `none` is
`NULL`.  A string carries its `len` bytes (`len` is the length of `data`);
the `upvalues` array of a closure has `upvalue_count` elements; the
`location` of an upvalue is `some i` when it points at `vm.stack[i]` and
`none` when it points at the upvalue's own `closed` field. -/
inductive obj_payload where
  | obj_bound_method (reciever : value) (method : Option Nat)
  | obj_class (name : Option Nat) (methods : table)
  | obj_closure (func : Option Nat) (upvalues : List (Option Nat))
  | obj_func (arity : Nat) (upvalue_count : Nat) (chk : chunk) (name : Option Nat)
  | obj_instance (klass : Option Nat) (fields : table)
  | obj_native (callback : Nat)
  | obj_string (data : List Nat) (hash : Nat)
  | obj_upvalue (location : Option Nat) (closed : value) (next : Option Nat)

/-- A heap object: the header `struct _obj` (`marked`, `next`) and the payload. -/
structure obj where
  marked : Bool
  next : Option Nat
  payload : obj_payload

/-- The struct `call_frame`: `ip` is an offset into the code of the closure's
function, `slots` an index into `vm.stack`. -/
structure call_frame where
  closure : Nat
  ip : Nat
  slots : Nat

/-- What the interpreter has written to standard output: the text
`print_value` produces for a value, a literal text, the bytes of a `%.*s`
argument, the stack dump and disassembled instruction that `run` prints before
every instruction because `DEBUG_TRACE_EXECUTION` is defined in common.h, or
the listing `end_compiler` prints because `DEBUG_PRINT_CODE` is defined (the
last two are text produced by debug.c, not modelled further). -/
inductive out_item where
  | printed (v : value)
  | text (s : String)
  | bytes (b : List Nat)
  | trace
  | disassembly
  deriving DecidableEq

/-- The global `vm` of vm.c together with the memory it points into.
`heap a` is the object allocated at address `a` (`none`: nothing allocated
there, or freed).  `gray_stack` holds the first `gray_count` elements of the
C array, the most recently pushed first, so `gray_count` is its length.
`compilers` stands for the global `current` of compiler.c: the `func` field
of the current compiler and of each enclosing one, innermost first. -/
structure VM where
  frame_count : Nat
  frames : Nat → call_frame
  stack : Nat → value
  stack_top : Nat
  objects : Option Nat
  gray_capacity : Nat
  gray_stack : List Nat
  strings : table
  init_string : Option Nat
  globals : table
  open_upvalues : Option Nat
  heap_size : Nat
  gc_treshold : Nat
  heap : Nat → Option obj
  compilers : List (Option Nat)
  stdout : List out_item

/-- `FRAMES_MAX` of vm.h. -/
def FRAMES_MAX : Nat := 64

/-- `STACK_MAX` of vm.h. -/
def STACK_MAX : Nat := FRAMES_MAX * 256

/-- The `sizeof` of the C types that reach `reallocate`; they depend on the
target and are a parameter of the model. -/
structure sizeofs where
  table_entry : Nat
  value : Nat
  size : Nat
  upvalue_ptr : Nat
  obj_bound_method : Nat
  obj_class : Nat
  obj_closure : Nat
  obj_func : Nat
  obj_instance : Nat
  obj_native : Nat
  obj_string : Nat
  obj_upvalue : Nat

/-- The field `key->hash` of the string object at address `key`. -/
def string_hash (heap : Nat → Option obj) (key : Nat) : Nat :=
  match heap key with
  | some o =>
    match o.payload with
    | obj_payload.obj_string _ hash => hash
    | _ => 0
  | none => 0

/-! ## memory.c -/

/-- The first statement of `reallocate`, `vm.heap_size += new_size - old_size`,
in `size_t` arithmetic. -/
def account (vm : VM) (old_size new_size : Nat) : VM :=
  { vm with heap_size := (vm.heap_size + new_size % 2 ^ 64 + (2 ^ 64 - old_size % 2 ^ 64)) % 2 ^ 64 }

/-- The bytes `free_object` hands back through `FREE` and `FREE_ARRAY` (and
`free_table`, `free_chunk`) for an object. -/
def freed_bytes (sz : sizeofs) : obj_payload → Nat
  | obj_payload.obj_bound_method _ _ => sz.obj_bound_method
  | obj_payload.obj_instance _ fields => sz.table_entry * fields.capacity + sz.obj_instance
  | obj_payload.obj_class _ methods => sz.table_entry * methods.capacity + sz.obj_class
  | obj_payload.obj_string data _ => (data.length + 1) + sz.obj_string
  | obj_payload.obj_func _ _ chk _ =>
    chk.capacity + sz.size * chk.capacity + sz.value * chk.consts.capacity + sz.obj_func
  | obj_payload.obj_native _ => sz.obj_native
  | obj_payload.obj_closure _ upvalues => sz.upvalue_ptr * upvalues.length + sz.obj_closure
  | obj_payload.obj_upvalue _ _ _ => sz.obj_upvalue

/-- Function `free_object` on a non-null pointer: every `reallocate` call it
makes has `new_size = 0`, so none of them collects; the object leaves the
heap and its bytes leave `heap_size`. -/
def free_object (sz : sizeofs) (vm : VM) (a : Nat) : Option VM :=
  match vm.heap a with
  | none => none
  | some o =>
    some { account vm (freed_bytes sz o.payload) 0 with
           heap := Function.update vm.heap a none }

/-- Function `mark_object`. -/
def mark_object (vm : VM) (object : Option Nat) : Option VM :=
  match object with
  | none => some vm
  | some a =>
    match vm.heap a with
    | none => none
    | some o =>
      if o.marked then some vm
      else
        some { vm with
               heap := Function.update vm.heap a (some { o with marked := true }),
               gray_capacity :=
                 if vm.gray_capacity < vm.gray_stack.length + 1 then
                   GROW_CAPACITY vm.gray_capacity
                 else vm.gray_capacity,
               gray_stack := a :: vm.gray_stack }

/-- Function `mark_value`. -/
def mark_value (vm : VM) (val : value) : Option VM :=
  match val with
  | value.obj o => mark_object vm (some o)
  | _ => some vm

/-- The loop of `mark_array` over the first `count` values. -/
def mark_values : VM → List value → Option VM
  | vm, [] => some vm
  | vm, v :: vs =>
    match mark_value vm v with
    | none => none
    | some vm1 => mark_values vm1 vs

/-- Function `mark_array`. -/
def mark_array (vm : VM) (array : value_array) : Option VM :=
  mark_values vm (array.values.take array.count)

/-- The loop of `mark_table` over the entries. -/
def mark_entries : VM → List table_entry → Option VM
  | vm, [] => some vm
  | vm, e :: es =>
    match mark_object vm e.key with
    | none => none
    | some vm1 =>
      match mark_value vm1 e.val with
      | none => none
      | some vm2 => mark_entries vm2 es

/-- Function `mark_table` of table.c. -/
def mark_table (vm : VM) (tab : table) : Option VM :=
  mark_entries vm (tab.entries.take tab.capacity)

/-- The loop of a function that marks a list of object pointers one after the
other (the frame loop of `mark_roots`, `mark_compiler_roots`, the upvalue
loop of `blacken_object`). -/
def mark_objects : VM → List (Option Nat) → Option VM
  | vm, [] => some vm
  | vm, p :: ps =>
    match mark_object vm p with
    | none => none
    | some vm1 => mark_objects vm1 ps

/-- The third loop of `mark_roots`, over the list of open upvalues. -/
def mark_open_upvalues : Nat → VM → Option Nat → Option VM
  | 0, _, _ => none
  | _ + 1, vm, none => some vm
  | fuel + 1, vm, some u =>
    match mark_object vm (some u) with
    | none => none
    | some vm1 =>
      match vm1.heap u with
      | none => none
      | some o =>
        match o.payload with
        | obj_payload.obj_upvalue _ _ next => mark_open_upvalues fuel vm1 next
        | _ => none

/-- Function `mark_compiler_roots` of compiler.c. -/
def mark_compiler_roots (vm : VM) : Option VM :=
  mark_objects vm vm.compilers

/-- Function `mark_roots`. -/
def mark_roots (fuel : Nat) (vm : VM) : Option VM :=
  match mark_values vm ((List.range vm.stack_top).map vm.stack) with
  | none => none
  | some vm1 =>
    match mark_objects vm1 ((List.range vm1.frame_count).map
        (fun i => some (vm1.frames i).closure)) with
    | none => none
    | some vm2 =>
      match mark_open_upvalues fuel vm2 vm2.open_upvalues with
      | none => none
      | some vm3 =>
        match mark_table vm3 vm3.globals with
        | none => none
        | some vm4 =>
          match mark_compiler_roots vm4 with
          | none => none
          | some vm5 => mark_object vm5 vm5.init_string

/-- Function `blacken_object`. -/
def blacken_object (vm : VM) (object : Nat) : Option VM :=
  match vm.heap object with
  | none => none
  | some o =>
    match o.payload with
    | obj_payload.obj_string _ _ => some vm
    | obj_payload.obj_native _ => some vm
    | obj_payload.obj_bound_method reciever method =>
      match mark_value vm reciever with
      | none => none
      | some vm1 => mark_object vm1 method
    | obj_payload.obj_class name methods =>
      match mark_object vm name with
      | none => none
      | some vm1 => mark_table vm1 methods
    | obj_payload.obj_instance klass fields =>
      match mark_object vm klass with
      | none => none
      | some vm1 => mark_table vm1 fields
    | obj_payload.obj_upvalue _ closed _ => mark_value vm closed
    | obj_payload.obj_func _ _ chk name =>
      match mark_object vm name with
      | none => none
      | some vm1 => mark_array vm1 chk.consts
    | obj_payload.obj_closure func upvalues =>
      match mark_object vm func with
      | none => none
      | some vm1 => mark_objects vm1 upvalues

/-- Function `trace_references`. -/
def trace_references : Nat → VM → Option VM
  | 0, _ => none
  | fuel + 1, vm =>
    match vm.gray_stack with
    | [] => some vm
    | object :: rest =>
      match blacken_object { vm with gray_stack := rest } object with
      | none => none
      | some vm1 => trace_references fuel vm1

/-- The loop of `table_remove_white` of table.c from index `i`, with `n`
indices still to visit. -/
def table_remove_white_loop (heap : Nat → Option obj) (fuel : Nat) :
    Nat → Nat → table → Option table
  | 0, _, tab => some tab
  | n + 1, i, tab =>
    match tab.entries[i]? with
    | none => none
    | some entry =>
      match entry.key with
      | none => table_remove_white_loop heap fuel n (i + 1) tab
      | some k =>
        match heap k with
        | none => none
        | some o =>
          if o.marked then table_remove_white_loop heap fuel n (i + 1) tab
          else
            match delete_table (string_hash heap) fuel tab k with
            | none => none
            | some (tab1, _) => table_remove_white_loop heap fuel n (i + 1) tab1

/-- Function `table_remove_white` of table.c. -/
def table_remove_white (heap : Nat → Option obj) (fuel : Nat) (tab : table) : Option table :=
  table_remove_white_loop heap fuel tab.capacity 0 tab

/-- The loop of `sweep`, with the local variables `prev` and `object`. -/
def sweep_loop (sz : sizeofs) : Nat → VM → Option Nat → Option Nat → Option VM
  | 0, _, _, _ => none
  | _ + 1, vm, _, none => some vm
  | fuel + 1, vm, prev, some a =>
    match vm.heap a with
    | none => none
    | some o =>
      if o.marked then
        sweep_loop sz fuel
          { vm with heap := Function.update vm.heap a (some { o with marked := false }) }
          (some a) o.next
      else
        match (match prev with
               | some p =>
                 match vm.heap p with
                 | none => none
                 | some po =>
                   some { vm with
                          heap := Function.update vm.heap p (some { po with next := o.next }) }
               | none => some { vm with objects := o.next }) with
        | none => none
        | some vm1 =>
          match free_object sz vm1 a with
          | none => none
          | some vm2 => sweep_loop sz fuel vm2 prev o.next

/-- Function `sweep`. -/
def sweep (sz : sizeofs) (fuel : Nat) (vm : VM) : Option VM :=
  sweep_loop sz fuel vm none vm.objects

/-- `GC_HEAP_GROW_FACTOR` of memory.c. -/
def GC_HEAP_GROW_FACTOR : Nat := 2

/-- Function `collect_garbage`. -/
def collect_garbage (sz : sizeofs) (fuel : Nat) (vm : VM) : Option VM :=
  match mark_roots fuel vm with
  | none => none
  | some vm1 =>
    match trace_references fuel vm1 with
    | none => none
    | some vm2 =>
      match table_remove_white vm2.heap fuel vm2.strings with
      | none => none
      | some strings =>
        match sweep sz fuel { vm2 with strings := strings } with
        | none => none
        | some vm3 =>
          some { vm3 with gc_treshold := (vm3.heap_size * GC_HEAP_GROW_FACTOR) % 2 ^ 64 }

/-- `DEBUG_STRESS_GC` is defined in common.h. -/
def DEBUG_STRESS_GC : Bool := true

/-- Function `reallocate`, up to the call of the C allocator: the accounting
and the collections it triggers.  (The pointer that `realloc` returns is
chosen by the caller of the model; a failing `realloc` exits the process and
is not modelled.) -/
def reallocate (sz : sizeofs) (fuel : Nat) (vm : VM) (old_size new_size : Nat) : Option VM :=
  let vm1 := account vm old_size new_size
  if new_size > old_size then
    match (if DEBUG_STRESS_GC then collect_garbage sz fuel vm1 else some vm1) with
    | none => none
    | some vm2 =>
      if vm2.heap_size > vm2.gc_treshold then collect_garbage sz fuel vm2 else some vm2
  else some vm1

/-! ### Roots, edges and the object list (used by the statements about the collector) -/

/-- The object a value points to, if it is an object value. -/
def value_ptr : value → Option Nat
  | value.obj o => some o
  | _ => none

/-- The pointers `mark_table` visits: key and value of every entry. -/
def table_ptrs (tab : table) : List (Option Nat) :=
  (tab.entries.take tab.capacity).flatMap (fun e => [e.key, value_ptr e.val])

/-- The per-kind edges of the trace phase, as the specification lists them:
none for strings and natives; receiver and method of a bound method; name and
methods of a class; class and fields of an instance; the closed value of an
upvalue; name and constants of a function; function and upvalue handles of a
closure. -/
def obj_edges : obj_payload → List (Option Nat)
  | obj_payload.obj_string _ _ => []
  | obj_payload.obj_native _ => []
  | obj_payload.obj_bound_method reciever method => [value_ptr reciever, method]
  | obj_payload.obj_class name methods => name :: table_ptrs methods
  | obj_payload.obj_instance klass fields => klass :: table_ptrs fields
  | obj_payload.obj_upvalue _ closed _ => [value_ptr closed]
  | obj_payload.obj_func _ _ chk name =>
    name :: (chk.consts.values.take chk.consts.count).map value_ptr
  | obj_payload.obj_closure func upvalues => func :: upvalues

/-- The root set, as the specification lists it: the values on the stack, the
closures of the call frames, the open upvalues (`ups`), keys and values of the
globals, the functions of the compiler chain, and `init_string`. -/
def root_ptrs (vm : VM) (ups : List Nat) : List (Option Nat) :=
  ((List.range vm.stack_top).map vm.stack).map value_ptr
    ++ (List.range vm.frame_count).map (fun i => some (vm.frames i).closure)
    ++ ups.map some
    ++ table_ptrs vm.globals
    ++ vm.compilers
    ++ [vm.init_string]

/-- An edge of the object graph. -/
def heap_edge (heap : Nat → Option obj) (a b : Nat) : Prop :=
  ∃ o, heap a = some o ∧ some b ∈ obj_edges o.payload

/-- Reachability from the root set through the edges. -/
def reachable (vm : VM) (ups : List Nat) (a : Nat) : Prop :=
  ∃ r, some r ∈ root_ptrs vm ups ∧ Relation.ReflTransGen (heap_edge vm.heap) r a

/-- The intrusive list starting at `p` and linked through the header field
`next` visits exactly the addresses `l`, in this order. -/
def is_list (heap : Nat → Option obj) : Option Nat → List Nat → Prop
  | p, [] => p = none
  | p, a :: l => p = some a ∧ ∃ o, heap a = some o ∧ is_list heap o.next l

/-- The field `next` of the upvalue object at `a`. -/
def upvalue_next (heap : Nat → Option obj) (a : Nat) : Option (Option Nat) :=
  match heap a with
  | some o =>
    match o.payload with
    | obj_payload.obj_upvalue _ _ next => some next
    | _ => none
  | none => none

/-- The list of open upvalues starting at `p` and linked through the upvalue
field `next` visits exactly the addresses `l`, in this order. -/
def is_upvalue_list (heap : Nat → Option obj) : Option Nat → List Nat → Prop
  | p, [] => p = none
  | p, a :: l => p = some a ∧ ∃ n, upvalue_next heap a = some n ∧ is_upvalue_list heap n l

/-- The state in which the mutator hands over to the collector: the object
list `l` is a proper list holding every allocated object, nothing is marked
and the gray stack is empty, `ups` is the list of open upvalues, no root and
no edge dangles, and the intern table is a well-formed table of allocated
objects. -/
structure gc_ready (vm : VM) (l ups : List Nat) : Prop where
  list : is_list vm.heap vm.objects l
  nodup : l.Nodup
  dom : ∀ (a : Nat) (o : obj), vm.heap a = some o → a ∈ l
  white : ∀ (a : Nat) (o : obj), vm.heap a = some o → o.marked = false
  gray : vm.gray_stack = []
  upvalues : is_upvalue_list vm.heap vm.open_upvalues ups
  roots_valid : ∀ b : Nat, some b ∈ root_ptrs vm ups → vm.heap b ≠ none
  edges_valid : ∀ (a : Nat) (o : obj), vm.heap a = some o →
    ∀ b : Nat, some b ∈ obj_edges o.payload → vm.heap b ≠ none
  strings_wf : table_wf (string_hash vm.heap) vm.strings
  strings_valid : ∀ (e : table_entry) (k : Nat), e ∈ vm.strings.entries → e.key = some k →
    vm.heap k ≠ none

/-- The object at `b` is allocated and marked. -/
def is_marked (heap : Nat → Option obj) (b : Nat) : Prop :=
  ∃ o, heap b = some o ∧ o.marked = true

/-- The test `!object->marked` on an allocated object. -/
def unmarked_at (heap : Nat → Option obj) (a : Nat) : Bool :=
  match heap a with
  | some o => !o.marked
  | none => false

/-- Number of unmarked objects among the addresses `l`. -/
def unmarked_count (heap : Nat → Option obj) (l : List Nat) : Nat :=
  l.countP (unmarked_at heap)

/-- The heap `h'` differs from `h` by mark bits that were set. -/
def marks_only (h h' : Nat → Option obj) : Prop :=
  ∀ a, (h a = none ∧ h' a = none) ∨
    ∃ o o', h a = some o ∧ h' a = some o' ∧ o'.next = o.next ∧ o'.payload = o.payload ∧
      (o.marked = true → o'.marked = true)

/-- The tri-colour invariant: a marked object other than `x` is on the gray
stack or has all its edges marked. -/
def tri_colour (x : Option Nat) (vm : VM) : Prop :=
  ∀ (a : Nat) (o : obj), vm.heap a = some o → o.marked = true → some a ≠ x →
    a ∈ vm.gray_stack ∨ ∀ b : Nat, some b ∈ obj_edges o.payload → is_marked vm.heap b

/-- What a marking step from `vm` to `vm'` keeps and establishes. -/
structure mark_ok (l : List Nat) (x : Option Nat) (vm vm' : VM) : Prop where
  frame : vm' = { vm with heap := vm'.heap, gray_stack := vm'.gray_stack,
                          gray_capacity := vm'.gray_capacity }
  shape : marks_only vm.heap vm'.heap
  tri : tri_colour x vm → tri_colour x vm'
  grays : (∀ g ∈ vm.gray_stack, is_marked vm.heap g) →
    ∀ g ∈ vm'.gray_stack, is_marked vm'.heap g
  measure : unmarked_count vm'.heap l + vm'.gray_stack.length
    = unmarked_count vm.heap l + vm.gray_stack.length

/-- The test `object->marked`, false where nothing is allocated. -/
def marked_at (heap : Nat → Option obj) (a : Nat) : Bool :=
  match heap a with
  | some o => o.marked
  | none => false

/-- The entry holds a key whose object is not marked (the test of
`table_remove_white`). -/
def white_entry (heap : Nat → Option obj) (e : table_entry) : Bool :=
  match e.key with
  | some k => !marked_at heap k
  | none => false

/-- The tombstone `delete_table` leaves behind. -/
def tombstone : table_entry :=
  { key := none, val := value.bool true }

/-- The entry holds a key outside the set `M`. -/
def white_key (M : Nat → Bool) (e : table_entry) : Bool :=
  match e.key with
  | some k => !M k
  | none => false

/-- What a complete `collect_garbage` cycle does to a state handed over by the
mutator; `M` is the set of objects the mark phase has marked. -/
structure collected (vm : VM) (l ups : List Nat) (vm' : VM) (M : Nat → Bool) : Prop where
  reach : ∀ a, reachable vm ups a → M a = true
  kept : ∀ a, M a = true →
    ∃ o o', vm.heap a = some o ∧ vm'.heap a = some o' ∧ o'.marked = false ∧
      o'.payload = o.payload
  freed : ∀ a, M a = false → vm'.heap a = none
  closed : ∀ (a : Nat) (o : obj), vm.heap a = some o → M a = true →
    ∀ b : Nat, some b ∈ obj_edges o.payload → M b = true
  list : is_list vm'.heap vm'.objects (l.filter M)
  strings_wf : table_wf (string_hash vm.heap) vm'.strings
  strings_cap : vm'.strings.capacity = vm.strings.capacity
  strings_count : vm'.strings.count = vm.strings.count
  strings_entries : ∀ (j : Nat) (e : table_entry), vm.strings.entries[j]? = some e →
    vm'.strings.entries[j]? = some (if white_key M e = true then tombstone else e)
  frame : vm' = { vm with heap := vm'.heap, objects := vm'.objects,
                          heap_size := vm'.heap_size, gc_treshold := vm'.gc_treshold,
                          strings := vm'.strings, gray_capacity := vm'.gray_capacity }

/-! ## obj.c: strings -/

/-- Function `hash_string`: 32-bit FNV-1a over the bytes (`data[i]` converted
to `uint8`, the multiplication in `uint32`). -/
def hash_string (data : List Nat) : Nat :=
  data.foldl (fun hash c => ((hash ^^^ (c % 256)) * 16777619) % 2 ^ 32) 2166136261

/-- The `while (1)` loop of `table_find_string` of table.c.  The result is
`some none` for `NULL`, `some (some k)` for the key found. -/
def table_find_string_loop (heap : Nat → Option obj) (entries : List table_entry)
    (capacity : Nat) (data : List Nat) (hash : Nat) : Nat → Nat → Option (Option Nat)
  | 0, _ => none
  | fuel + 1, index =>
    match entries[index]? with
    | none => none
    | some entry =>
      match entry.key with
      | none =>
        if IS_NIL entry.val then some none
        else table_find_string_loop heap entries capacity data hash fuel
          (((index + 1) % 2 ^ 32) % capacity)
      | some k =>
        match heap k with
        | none => none
        | some o =>
          match o.payload with
          | obj_payload.obj_string kdata khash =>
            if kdata.length = data.length ∧ khash = hash ∧ kdata = data then some (some k)
            else table_find_string_loop heap entries capacity data hash fuel
              (((index + 1) % 2 ^ 32) % capacity)
          | _ => none

/-- Function `table_find_string` of table.c; `data` are the `len` bytes. -/
def table_find_string (heap : Nat → Option obj) (fuel : Nat) (tab : table) (data : List Nat)
    (hash : Nat) : Option (Option Nat) :=
  if tab.count = 0 then some none
  else if tab.capacity = 0 then none
  else table_find_string_loop heap tab.entries tab.capacity data hash fuel
    (((hash % 2 ^ 32) % tab.capacity) % 2 ^ 32)

/-- Function `allocate_object` together with the initialisation of the fields
that each caller does right after it (no allocation lies in between).  `a` is
the address `realloc` returns; it cannot be the address of a live object. -/
def allocate_object (sz : sizeofs) (fuel : Nat) (vm : VM) (size a : Nat)
    (payload : obj_payload) : Option VM :=
  match reallocate sz fuel vm 0 size with
  | none => none
  | some vm1 =>
    match vm1.heap a with
    | some _ => none
    | none =>
      some { vm1 with
             heap := Function.update vm1.heap a
               (some { marked := false, next := vm1.objects, payload := payload }),
             objects := some a }

/-- Function `push` of vm.c; writing past the end of the stack array is
undefined. -/
def push (vm : VM) (val : value) : Option VM :=
  if vm.stack_top < STACK_MAX then
    some { vm with stack := Function.update vm.stack vm.stack_top val,
                   stack_top := vm.stack_top + 1 }
  else none

/-- Function `pop` of vm.c. -/
def pop (vm : VM) : Option (VM × value) :=
  if 0 < vm.stack_top then
    some ({ vm with stack_top := vm.stack_top - 1 }, vm.stack (vm.stack_top - 1))
  else none

/-- Function `peek` of vm.c. -/
def peek (vm : VM) (dist : Nat) : Option value :=
  if dist < vm.stack_top then some (vm.stack (vm.stack_top - 1 - dist)) else none

/-- The tables a `table *` argument can point at. -/
inductive table_loc where
  | strings
  | globals
  | fields (instance_ : Nat)
  | methods (klass : Nat)

/-- Read the table a `table *` points at. -/
def read_table (vm : VM) : table_loc → Option table
  | table_loc.strings => some vm.strings
  | table_loc.globals => some vm.globals
  | table_loc.fields a =>
    match vm.heap a with
    | some o =>
      match o.payload with
      | obj_payload.obj_instance _ fields => some fields
      | _ => none
    | none => none
  | table_loc.methods a =>
    match vm.heap a with
    | some o =>
      match o.payload with
      | obj_payload.obj_class _ methods => some methods
      | _ => none
    | none => none

/-- Write the table a `table *` points at. -/
def write_table (vm : VM) (tab : table) : table_loc → Option VM
  | table_loc.strings => some { vm with strings := tab }
  | table_loc.globals => some { vm with globals := tab }
  | table_loc.fields a =>
    match vm.heap a with
    | some o =>
      match o.payload with
      | obj_payload.obj_instance klass _ =>
        some { vm with
               heap := Function.update vm.heap a
                 (some { o with payload := obj_payload.obj_instance klass tab }) }
      | _ => none
    | none => none
  | table_loc.methods a =>
    match vm.heap a with
    | some o =>
      match o.payload with
      | obj_payload.obj_class name _ =>
        some { vm with
               heap := Function.update vm.heap a
                 (some { o with payload := obj_payload.obj_class name tab }) }
      | _ => none
    | none => none

/-- Function `set_table` of table.c as it runs inside the VM: the `ALLOCATE`
of `adjust_capacity` goes through `reallocate` and may collect (which rewrites
the intern table) before the entries are re-inserted, and the old array is
released with `FREE_ARRAY`. -/
def vm_set_table (sz : sizeofs) (fuel : Nat) (vm : VM) (loc : table_loc) (key : Nat)
    (val : value) : Option (VM × Bool) :=
  match read_table vm loc with
  | none => none
  | some tab =>
    match (if table_overloaded tab then
             match reallocate sz fuel vm 0 (sz.table_entry * GROW_CAPACITY tab.capacity) with
             | none => none
             | some vm1 =>
               match read_table vm1 loc with
               | none => none
               | some tab1 =>
                 match adjust_capacity (string_hash vm1.heap) fuel tab1
                     (GROW_CAPACITY tab.capacity) with
                 | none => none
                 | some tab2 =>
                   match reallocate sz fuel vm1 (sz.table_entry * tab1.capacity) 0 with
                   | none => none
                   | some vm2 => some (vm2, tab2)
           else some (vm, tab)) with
    | none => none
    | some (vm2, tab2) =>
      match set_table_store (string_hash vm2.heap) fuel tab2 key val with
      | none => none
      | some (tab3, is_new) =>
        match write_table vm2 tab3 loc with
        | none => none
        | some vm3 => some (vm3, is_new)

/-- Function `allocate_string`. -/
def allocate_string (sz : sizeofs) (fuel : Nat) (vm : VM) (data : List Nat) (hash a : Nat) :
    Option (VM × Nat) :=
  match allocate_object sz fuel vm sz.obj_string a (obj_payload.obj_string data hash) with
  | none => none
  | some vm1 =>
    match push vm1 (value.obj a) with
    | none => none
    | some vm2 =>
      match vm_set_table sz fuel vm2 table_loc.strings a value.nil with
      | none => none
      | some (vm3, _) =>
        match pop vm3 with
        | none => none
        | some (vm4, _) => some (vm4, a)

/-- Function `take_string`: `data` holds the `len` bytes of the buffer the
caller hands over; `a` is the address of the string object if one has to be
allocated. -/
def take_string (sz : sizeofs) (fuel : Nat) (vm : VM) (data : List Nat) (a : Nat) :
    Option (VM × Nat) :=
  match table_find_string vm.heap fuel vm.strings data (hash_string data) with
  | none => none
  | some (some interned) =>
    match reallocate sz fuel vm (data.length + 1) 0 with
    | none => none
    | some vm1 => some (vm1, interned)
  | some none => allocate_string sz fuel vm data (hash_string data) a

/-- Function `copy_string`: `data` holds the `len` bytes to copy; `a` is the
address of the string object if one has to be allocated. -/
def copy_string (sz : sizeofs) (fuel : Nat) (vm : VM) (data : List Nat) (a : Nat) :
    Option (VM × Nat) :=
  match reallocate sz fuel vm 0 (data.length + 1) with
  | none => none
  | some vm1 =>
    match table_find_string vm1.heap fuel vm1.strings data (hash_string data) with
    | none => none
    | some (some interned) =>
      match reallocate sz fuel vm1 (data.length + 1) 0 with
      | none => none
      | some vm2 => some (vm2, interned)
    | some none => allocate_string sz fuel vm1 data (hash_string data) a

/-! ## vm.c -/

/-- The arithmetic of the C type `double` on 64-bit patterns; it is a
parameter of the model.  `strtod` is the library function of that name applied
to the C string its argument points at (the end pointer is not asked for). -/
structure fpu where
  add : Nat → Nat → Nat
  sub : Nat → Nat → Nat
  mul : Nat → Nat → Nat
  div : Nat → Nat → Nat
  neg : Nat → Nat
  lt : Nat → Nat → Bool
  gt : Nat → Nat → Bool
  eq : Nat → Nat → Bool
  strtod : List Nat → Nat

/-- The enum `interpret_result`. -/
inductive interpret_result where
  | INTERPRET_OK
  | INTERPRET_COMPILE_ERROR
  | INTERPRET_RUNTIME_ERROR
  deriving DecidableEq, Repr

/-- Function `reset_stack`. -/
def reset_stack (vm : VM) : VM :=
  { vm with stack_top := 0, frame_count := 0, open_upvalues := none }

/-- Function `runtime_error`: the message and the stack trace go to standard
error, which is not modelled; the state change is `reset_stack`. -/
def runtime_error (vm : VM) : VM :=
  reset_stack vm

/-- Function `values_equal` of value.c. -/
def values_equal (fp : fpu) : value → value → Bool
  | value.bool a, value.bool b => a == b
  | value.nil, value.nil => true
  | value.number a, value.number b => fp.eq a b
  | value.obj a, value.obj b => a == b
  | _, _ => false

/-- Function `is_falsey`. -/
def is_falsey : value → Bool
  | value.nil => true
  | value.bool b => !b
  | _ => false

/-- Function `new_instance` of obj.c. -/
def new_instance (sz : sizeofs) (fuel : Nat) (vm : VM) (klass a : Nat) : Option (VM × Nat) :=
  match allocate_object sz fuel vm sz.obj_instance a
      (obj_payload.obj_instance (some klass) init_table) with
  | none => none
  | some vm1 => some (vm1, a)

/-- Function `new_klass` of obj.c. -/
def new_klass (sz : sizeofs) (fuel : Nat) (vm : VM) (name a : Nat) : Option (VM × Nat) :=
  match allocate_object sz fuel vm sz.obj_class a
      (obj_payload.obj_class (some name) init_table) with
  | none => none
  | some vm1 => some (vm1, a)

/-- Function `new_bound_method` of obj.c. -/
def new_bound_method (sz : sizeofs) (fuel : Nat) (vm : VM) (reciever : value)
    (closure a : Nat) : Option (VM × Nat) :=
  match allocate_object sz fuel vm sz.obj_bound_method a
      (obj_payload.obj_bound_method reciever (some closure)) with
  | none => none
  | some vm1 => some (vm1, a)

/-- Function `new_upvalue` of obj.c; the field `next` is set by the caller
(`capture_upvalue`) right after. -/
def new_upvalue (sz : sizeofs) (fuel : Nat) (vm : VM) (slot : Nat) (next : Option Nat)
    (a : Nat) : Option (VM × Nat) :=
  match allocate_object sz fuel vm sz.obj_upvalue a
      (obj_payload.obj_upvalue (some slot) value.nil next) with
  | none => none
  | some vm1 => some (vm1, a)

/-- Function `new_closure` of obj.c: the array of upvalue pointers is
allocated first, then the object. -/
def new_closure (sz : sizeofs) (fuel : Nat) (vm : VM) (func a : Nat) : Option (VM × Nat) :=
  match vm.heap func with
  | none => none
  | some o =>
    match o.payload with
    | obj_payload.obj_func _ upvalue_count _ _ =>
      match reallocate sz fuel vm 0 (sz.upvalue_ptr * upvalue_count) with
      | none => none
      | some vm1 =>
        match allocate_object sz fuel vm1 sz.obj_closure a
            (obj_payload.obj_closure (some func) (List.replicate upvalue_count none)) with
        | none => none
        | some vm2 => some (vm2, a)
    | _ => none

/-- The fields `arity` and `name` of the function of a closure. -/
def closure_func (vm : VM) (closure : Nat) : Option (Nat × Nat × Option Nat) :=
  match vm.heap closure with
  | none => none
  | some oc =>
    match oc.payload with
    | obj_payload.obj_closure (some func) _ =>
      match vm.heap func with
      | none => none
      | some ofn =>
        match ofn.payload with
        | obj_payload.obj_func arity _ _ name => some (func, arity, name)
        | _ => none
    | _ => none

/-- Function `call`.  The flag is the returned `bool`.  (On an arity mismatch
the message reads `func->name->data`, which needs a named function.) -/
def call (vm : VM) (closure argc : Nat) : Option (VM × Bool) :=
  match closure_func vm closure with
  | none => none
  | some (_, arity, name) =>
    if argc ≠ arity then
      match name with
      | none => none
      | some _ => some (runtime_error vm, false)
    else if vm.frame_count = FRAMES_MAX then some (runtime_error vm, false)
    else if vm.stack_top < argc then none
    else
      some ({ vm with
              frames := Function.update vm.frames vm.frame_count
                { closure := closure, ip := 0, slots := vm.stack_top - argc },
              frame_count := vm.frame_count + 1 }, true)

/-- Function `call_value`; `native` runs the callback of a native function on
`argc` and the argument slots, `a` is the address of the instance if one is
allocated. -/
def call_value (sz : sizeofs) (fuel : Nat) (native : Nat → Nat → List value → value) (vm : VM)
    (callee : value) (argc a : Nat) : Option (VM × Bool) :=
  match callee with
  | value.obj c =>
    match vm.heap c with
    | none => none
    | some o =>
      match o.payload with
      | obj_payload.obj_closure _ _ => call vm c argc
      | obj_payload.obj_native callback =>
        if vm.stack_top < argc + 1 then none
        else
          let result := native callback argc
            ((List.range argc).map (fun i => vm.stack (vm.stack_top - argc + i)))
          push { vm with stack_top := vm.stack_top - (argc + 1) } result
            |>.map (fun vm1 => (vm1, true))
      | obj_payload.obj_class _ _ =>
        match new_instance sz fuel vm c a with
        | none => none
        | some (vm1, inst) =>
          if vm1.stack_top < argc + 1 then none
          else
            let vm2 := { vm1 with
              stack := Function.update vm1.stack (vm1.stack_top - argc - 1) (value.obj inst) }
            match read_table vm2 (table_loc.methods c) with
            | none => none
            | some methods =>
              match (match vm2.init_string with
                     | some init => get_table (string_hash vm2.heap) fuel methods init
                     | none => if methods.count = 0 then some none else none) with
              | none => none
              | some (some (value.obj initializer)) => call vm2 initializer argc
              | some (some _) => none
              | some none =>
                if argc ≠ 0 then some (runtime_error vm2, false) else some (vm2, true)
      | obj_payload.obj_bound_method reciever (some method) =>
        if vm.stack_top < argc + 1 then none
        else
          call { vm with
                 stack := Function.update vm.stack (vm.stack_top - argc - 1) reciever,
                 stdout := vm.stdout ++ [out_item.text "bound object: ",
                   out_item.printed reciever, out_item.text "\n"] } method argc
      | obj_payload.obj_bound_method _ none => none
      | _ => some (runtime_error vm, false)
  | _ => some (runtime_error vm, false)

/-- Function `bind_method`; `a` is the address of the bound method. -/
def bind_method (sz : sizeofs) (fuel : Nat) (vm : VM) (klass name a : Nat) :
    Option (VM × Bool) :=
  match read_table vm (table_loc.methods klass) with
  | none => none
  | some methods =>
    match get_table (string_hash vm.heap) fuel methods name with
    | none => none
    | some none => some (runtime_error vm, false)
    | some (some (value.obj method)) =>
      match peek vm 0 with
      | none => none
      | some reciever =>
        match new_bound_method sz fuel vm reciever method a with
        | none => none
        | some (vm1, bound) =>
          match pop vm1 with
          | none => none
          | some (vm2, _) =>
            match push vm2 (value.obj bound) with
            | none => none
            | some vm3 => some (vm3, true)
    | some (some _) => none

/-- The loop of `capture_upvalue`: the values of `prev_upvalue` and `upvalue`
when it ends. -/
def capture_upvalue_loop (heap : Nat → Option obj) (local_ : Nat) :
    Nat → Option Nat → Option Nat → Option (Option Nat × Option Nat)
  | 0, _, _ => none
  | _ + 1, prev, none => some (prev, none)
  | fuel + 1, prev, some u =>
    match heap u with
    | none => none
    | some o =>
      match o.payload with
      | obj_payload.obj_upvalue (some location) _ next =>
        if location > local_ then capture_upvalue_loop heap local_ fuel (some u) next
        else some (prev, some u)
      | _ => none

/-- The field `location` of the upvalue at `u`, when it points into the stack. -/
def upvalue_slot (heap : Nat → Option obj) (u : Nat) : Option Nat :=
  match heap u with
  | none => none
  | some o =>
    match o.payload with
    | obj_payload.obj_upvalue location _ _ => location
    | _ => none

/-- Function `capture_upvalue`; `a` is the address of the upvalue if one is
created. -/
def capture_upvalue (sz : sizeofs) (fuel : Nat) (vm : VM) (local_ a : Nat) :
    Option (VM × Nat) :=
  match capture_upvalue_loop vm.heap local_ fuel none vm.open_upvalues with
  | none => none
  | some (prev_upvalue, upvalue) =>
    match (match upvalue with
           | some u => if upvalue_slot vm.heap u = some local_ then some u else none
           | none => none) with
    | some u => some (vm, u)
    | none =>
      match new_upvalue sz fuel vm local_ upvalue a with
      | none => none
      | some (vm1, created) =>
        match prev_upvalue with
        | none => some ({ vm1 with open_upvalues := some created }, created)
        | some p =>
          match vm1.heap p with
          | none => none
          | some po =>
            match po.payload with
            | obj_payload.obj_upvalue location closed _ =>
              some ({ vm1 with
                      heap := Function.update vm1.heap p
                        (some { po with
                                payload := obj_payload.obj_upvalue location closed
                                  (some created) }) }, created)
            | _ => none

/-- Function `close_upvalues`. -/
def close_upvalues : Nat → VM → Nat → Option VM
  | 0, _, _ => none
  | fuel + 1, vm, last =>
    match vm.open_upvalues with
    | none => some vm
    | some u =>
      match vm.heap u with
      | none => none
      | some o =>
        match o.payload with
        | obj_payload.obj_upvalue (some location) _ next =>
          if location ≥ last then
            close_upvalues fuel
              { vm with
                heap := Function.update vm.heap u
                  (some { o with
                          payload := obj_payload.obj_upvalue none (vm.stack location) next }),
                open_upvalues := next } last
          else some vm
        | _ => none

/-- Function `define_method`. -/
def define_method (sz : sizeofs) (fuel : Nat) (vm : VM) (name : Nat) : Option VM :=
  match peek vm 0, peek vm 1 with
  | some method, some (value.obj klass) =>
    match vm_set_table sz fuel vm (table_loc.methods klass) name method with
    | none => none
    | some (vm1, _) => (pop vm1).map Prod.fst
  | _, _ => none

/-- The bytes of the string object at `s`. -/
def string_data (heap : Nat → Option obj) (s : Nat) : Option (List Nat) :=
  match heap s with
  | none => none
  | some o =>
    match o.payload with
    | obj_payload.obj_string data _ => some data
    | _ => none

/-- Function `concatenate`; `a` is the address of the result if a string
object is allocated. -/
def concatenate (sz : sizeofs) (fuel : Nat) (vm : VM) (a : Nat) : Option VM :=
  match peek vm 0, peek vm 1 with
  | some (value.obj b), some (value.obj a1) =>
    match string_data vm.heap a1, string_data vm.heap b with
    | some adata, some bdata =>
      match reallocate sz fuel vm 0 (adata.length + bdata.length + 1) with
      | none => none
      | some vm1 =>
        match string_data vm1.heap a1, string_data vm1.heap b with
        | some adata1, some bdata1 =>
          match take_string sz fuel vm1 (adata1 ++ bdata1) a with
          | none => none
          | some (vm2, result) =>
            match pop vm2 with
            | none => none
            | some (vm3, _) =>
              match pop vm3 with
              | none => none
              | some (vm4, _) => push vm4 (value.obj result)
        | _, _ => none
    | _, _ => none
  | _, _ => none


/-- The chunk of the function of the closure of a frame. -/
def frame_chunk (vm : VM) (frame : Nat) : Option chunk :=
  match vm.heap (vm.frames frame).closure with
  | none => none
  | some oc =>
    match oc.payload with
    | obj_payload.obj_closure (some func) _ =>
      match vm.heap func with
      | none => none
      | some ofn =>
        match ofn.payload with
        | obj_payload.obj_func _ _ chk _ => some chk
        | _ => none
    | _ => none

/-- Macro `READ_BYTE` of `run`: the byte at `frame->ip`, which is advanced. -/
def READ_BYTE (vm : VM) (frame : Nat) : Option (VM × Nat) :=
  match frame_chunk vm frame with
  | none => none
  | some chk =>
    match chk.code[(vm.frames frame).ip]? with
    | none => none
    | some byte =>
      some ({ vm with
              frames := Function.update vm.frames frame
                { vm.frames frame with ip := (vm.frames frame).ip + 1 } }, byte)

/-- Macro `READ_CONSTANT` of `run`. -/
def READ_CONSTANT (vm : VM) (frame : Nat) : Option (VM × value) :=
  match READ_BYTE vm frame with
  | none => none
  | some (vm1, idx) =>
    match frame_chunk vm1 frame with
    | none => none
    | some chk =>
      match chk.consts.values[idx]? with
      | none => none
      | some v => some (vm1, v)

/-- Macro `READ_STRING` of `run`. -/
def READ_STRING (vm : VM) (frame : Nat) : Option (VM × Nat) :=
  match READ_CONSTANT vm frame with
  | some (vm1, value.obj s) => some (vm1, s)
  | _ => none

/-- Macro `READ_SHORT` of `run`. -/
def READ_SHORT (vm : VM) (frame : Nat) : Option (VM × Nat) :=
  match READ_BYTE vm frame with
  | none => none
  | some (vm1, hi) =>
    match READ_BYTE vm1 frame with
    | none => none
    | some (vm2, lo) => some (vm2, (hi * 256 + lo) % 65536)

/-- Move `frame->ip` of a frame. -/
def set_ip (vm : VM) (frame ip : Nat) : VM :=
  { vm with frames := Function.update vm.frames frame { vm.frames frame with ip := ip } }

/-- What one instruction of `run` leads to: the loop goes on with the local
variable `frame` as given, or `run` returns. -/
inductive step_result where
  | next (vm : VM) (frame : Nat)
  | done (vm : VM) (result : interpret_result)

/-- Macro `BINARY_OP` of `run` with the operation `op` on two numbers. -/
def BINARY_OP (vm : VM) (frame : Nat) (op : Nat → Nat → value) : Option step_result :=
  match peek vm 0, peek vm 1 with
  | some (value.number b), some (value.number a) =>
    match pop vm with
    | none => none
    | some (vm1, _) =>
      match pop vm1 with
      | none => none
      | some (vm2, _) => (push vm2 (op a b)).map (fun vm3 => step_result.next vm3 frame)
  | some _, some _ => some (step_result.done (runtime_error vm) interpret_result.INTERPRET_RUNTIME_ERROR)
  | _, _ => none

/-- The loop of the `OP_CLOSURE` case over the upvalue descriptors; `fresh`
gives the address the allocator returns in a heap. -/
def closure_upvalues (sz : sizeofs) (fuel : Nat) (fresh : (Nat → Option obj) → Nat)
    (frame closure : Nat) : Nat → Nat → VM → Option VM
  | 0, _, vm => some vm
  | n + 1, i, vm =>
    match READ_BYTE vm frame with
    | none => none
    | some (vm1, is_local) =>
      match READ_BYTE vm1 frame with
      | none => none
      | some (vm2, index) =>
        match (if is_local ≠ 0 then
                 match capture_upvalue sz fuel vm2 ((vm2.frames frame).slots + index)
                     (fresh vm2.heap) with
                 | none => none
                 | some (vm3, u) => some (vm3, some u)
               else
                 match vm2.heap (vm2.frames frame).closure with
                 | none => none
                 | some oc =>
                   match oc.payload with
                   | obj_payload.obj_closure _ ups =>
                     match ups[index]? with
                     | none => none
                     | some u => some (vm2, u)
                   | _ => none) with
        | none => none
        | some (vm3, u) =>
          match vm3.heap closure with
          | none => none
          | some o =>
            match o.payload with
            | obj_payload.obj_closure func ups =>
              closure_upvalues sz fuel fresh frame closure n (i + 1)
                { vm3 with
                  heap := Function.update vm3.heap closure
                    (some { o with payload := obj_payload.obj_closure func (ups.set i u) }) }
            | _ => none

/-- The location an upvalue handle of the closure of a frame points at:
`some i` is the stack slot `i`, `none` the upvalue's own `closed` field. -/
def frame_upvalue (vm : VM) (frame slot : Nat) : Option (Nat × Option Nat × value) :=
  match vm.heap (vm.frames frame).closure with
  | none => none
  | some oc =>
    match oc.payload with
    | obj_payload.obj_closure _ ups =>
      match ups[slot]? with
      | some (some u) =>
        match vm.heap u with
        | none => none
        | some ou =>
          match ou.payload with
          | obj_payload.obj_upvalue location closed _ => some (u, location, closed)
          | _ => none
      | _ => none
    | _ => none

/-- The opcodes, numbered as in the enum `opcode` of chunk.h. -/
def OP_ADD : Nat := 0
def OP_CALL : Nat := 1
def OP_CLASS : Nat := 2
def OP_CLOSE_UPVALUE : Nat := 3
def OP_CLOSURE : Nat := 4
def OP_CONSTANT : Nat := 5
def OP_DEFINE_GLOBAL : Nat := 6
def OP_DIVIDE : Nat := 7
def OP_EQUAL : Nat := 8
def OP_FALSE : Nat := 9
def OP_GET_GLOBAL : Nat := 10
def OP_GET_LOCAL : Nat := 11
def OP_GET_PROPERTY : Nat := 12
def OP_GET_UPVALUE : Nat := 13
def OP_GREATER : Nat := 14
def OP_JUMP_IF_FALSE : Nat := 15
def OP_JUMP : Nat := 16
def OP_LESS : Nat := 17
def OP_LOOP : Nat := 18
def OP_METHOD : Nat := 19
def OP_MULTIPLY : Nat := 20
def OP_NEGATE : Nat := 21
def OP_NIL : Nat := 22
def OP_NOT : Nat := 23
def OP_POP : Nat := 24
def OP_PRINT : Nat := 25
def OP_RETURN : Nat := 26
def OP_SET_GLOBAL : Nat := 27
def OP_SET_LOCAL : Nat := 28
def OP_SET_PROPERTY : Nat := 29
def OP_SET_UPVALUE : Nat := 30
def OP_SUBTRACT : Nat := 31
def OP_TRUE : Nat := 32

/-- Push a value and go on with the next instruction. -/
def push_next (vm : VM) (frame : Nat) (v : value) : Option step_result :=
  (push vm v).map (fun vm1 => step_result.next vm1 frame)

/-- The `return INTERPRET_RUNTIME_ERROR` after a `runtime_error` call. -/
def fail (vm : VM) : Option step_result :=
  some (step_result.done (runtime_error vm) interpret_result.INTERPRET_RUNTIME_ERROR)

/-- The case `OP_GET_PROPERTY` of `run`; `a` is the address of the bound
method if one is allocated. -/
def op_get_property (sz : sizeofs) (fuel : Nat) (vm : VM) (frame a : Nat) :
    Option step_result :=
  match peek vm 0 with
  | none => none
  | some v =>
    match (match v with
           | value.obj i =>
             match vm.heap i with
             | none => none
             | some o =>
               match o.payload with
               | obj_payload.obj_instance klass fields => some (some (i, klass, fields))
               | _ => some none
           | _ => some none) with
    | none => none
    | some none => fail vm
    | some (some (_, klass, fields)) =>
      match READ_STRING vm frame with
      | none => none
      | some (vm1, name) =>
        match get_table (string_hash vm1.heap) fuel fields name with
        | none => none
        | some (some val) =>
          match pop vm1 with
          | none => none
          | some (vm2, _) => push_next vm2 frame val
        | some none =>
          match klass with
          | none => none
          | some k =>
            match bind_method sz fuel vm1 k name a with
            | none => none
            | some (vm2, false) =>
              some (step_result.done vm2 interpret_result.INTERPRET_RUNTIME_ERROR)
            | some (vm2, true) => fail vm2

/-- One turn of the `while (1)` loop of `run`: the trace output, then the
instruction at `frame->ip`.  `native` runs native callbacks, `fresh` gives
the address the allocator returns in a heap. -/
def run_step (sz : sizeofs) (fp : fpu) (fuel : Nat) (native : Nat → Nat → List value → value)
    (fresh : (Nat → Option obj) → Nat) (vm0 : VM) (frame : Nat) : Option step_result := do
  let vmt := { vm0 with stdout := vm0.stdout ++ [out_item.trace] }
  let (vm, instruction) ← READ_BYTE vmt frame
  if instruction = OP_CONSTANT then
    let (vm1, constant) ← READ_CONSTANT vm frame
    let vm2 ← push vm1 constant
    some (step_result.next
      { vm2 with stdout := vm2.stdout ++ [out_item.printed constant, out_item.text "\n"] }
      frame)
  else if instruction = OP_NIL then push_next vm frame value.nil
  else if instruction = OP_TRUE then push_next vm frame (value.bool true)
  else if instruction = OP_FALSE then push_next vm frame (value.bool false)
  else if instruction = OP_NEGATE then
    match ← peek vm 0 with
    | value.number n =>
      let (vm1, _) ← pop vm
      push_next vm1 frame (value.number (fp.neg n))
    | _ => fail vm
  else if instruction = OP_ADD then
    match ← peek vm 0, ← peek vm 1 with
    | value.number b, value.number a =>
      let (vm1, _) ← pop vm
      let (vm2, _) ← pop vm1
      push_next vm2 frame (value.number (fp.add a b))
    | value.obj b, value.obj a =>
      match string_data vm.heap b, string_data vm.heap a with
      | some _, some _ =>
        let vm1 ← concatenate sz fuel vm (fresh vm.heap)
        some (step_result.next vm1 frame)
      | _, _ => fail vm
    | _, _ => fail vm
  else if instruction = OP_SUBTRACT then
    BINARY_OP vm frame (fun a b => value.number (fp.sub a b))
  else if instruction = OP_MULTIPLY then
    BINARY_OP vm frame (fun a b => value.number (fp.mul a b))
  else if instruction = OP_DIVIDE then
    BINARY_OP vm frame (fun a b => value.number (fp.div a b))
  else if instruction = OP_NOT then
    let (vm1, v) ← pop vm
    push_next vm1 frame (value.bool (is_falsey v))
  else if instruction = OP_EQUAL then
    let (vm1, b) ← pop vm
    let (vm2, a) ← pop vm1
    push_next vm2 frame (value.bool (values_equal fp a b))
  else if instruction = OP_GREATER then
    BINARY_OP vm frame (fun a b => value.bool (fp.gt a b))
  else if instruction = OP_LESS then
    BINARY_OP vm frame (fun a b => value.bool (fp.lt a b))
  else if instruction = OP_POP then
    let (vm1, _) ← pop vm
    some (step_result.next vm1 frame)
  else if instruction = OP_DEFINE_GLOBAL then
    let (vm1, name) ← READ_STRING vm frame
    let v ← peek vm1 0
    let (vm2, _) ← vm_set_table sz fuel vm1 table_loc.globals name v
    let (vm3, _) ← pop vm2
    some (step_result.next vm3 frame)
  else if instruction = OP_GET_GLOBAL then
    let (vm1, name) ← READ_STRING vm frame
    match ← get_table (string_hash vm1.heap) fuel vm1.globals name with
    | none => fail vm1
    | some val => push_next vm1 frame val
  else if instruction = OP_SET_GLOBAL then
    let (vm1, name) ← READ_STRING vm frame
    let v ← peek vm1 0
    let (vm2, is_new) ← vm_set_table sz fuel vm1 table_loc.globals name v
    if is_new then
      let (globals, _) ← delete_table (string_hash vm2.heap) fuel vm2.globals name
      fail { vm2 with globals := globals }
    else some (step_result.next vm2 frame)
  else if instruction = OP_GET_LOCAL then
    let (vm1, slot) ← READ_BYTE vm frame
    push_next vm1 frame (vm1.stack ((vm1.frames frame).slots + slot))
  else if instruction = OP_SET_LOCAL then
    let (vm1, slot) ← READ_BYTE vm frame
    let v ← peek vm1 0
    some (step_result.next
      { vm1 with stack := Function.update vm1.stack ((vm1.frames frame).slots + slot) v } frame)
  else if instruction = OP_JUMP_IF_FALSE then
    let (vm1, offset) ← READ_SHORT vm frame
    let v ← peek vm1 0
    if is_falsey v then
      some (step_result.next (set_ip vm1 frame ((vm1.frames frame).ip + offset)) frame)
    else some (step_result.next vm1 frame)
  else if instruction = OP_JUMP then
    let (vm1, offset) ← READ_SHORT vm frame
    some (step_result.next (set_ip vm1 frame ((vm1.frames frame).ip + offset)) frame)
  else if instruction = OP_LOOP then
    let (vm1, offset) ← READ_SHORT vm frame
    if (vm1.frames frame).ip < offset then none
    else some (step_result.next (set_ip vm1 frame ((vm1.frames frame).ip - offset)) frame)
  else if instruction = OP_PRINT then
    let (vm1, v) ← pop vm
    some (step_result.next
      { vm1 with stdout := vm1.stdout ++ [out_item.printed v, out_item.text "\n"] } frame)
  else if instruction = OP_CALL then
    let (vm1, argc) ← READ_BYTE vm frame
    let callee ← peek vm1 argc
    let (vm2, ok) ← call_value sz fuel native vm1 callee argc (fresh vm1.heap)
    if ok then
      if vm2.frame_count = 0 then none
      else some (step_result.next vm2 (vm2.frame_count - 1))
    else some (step_result.done vm2 interpret_result.INTERPRET_RUNTIME_ERROR)
  else if instruction = OP_CLOSURE then
    match ← READ_CONSTANT vm frame with
    | (vm1, value.obj func) =>
      let (vm2, closure) ← new_closure sz fuel vm1 func (fresh vm1.heap)
      let vm3 ← push vm2 (value.obj closure)
      match vm3.heap closure with
      | some oc =>
        match oc.payload with
        | obj_payload.obj_closure _ ups =>
          let vm4 ← closure_upvalues sz fuel fresh frame closure ups.length 0 vm3
          some (step_result.next vm4 frame)
        | _ => none
      | none => none
    | _ => none
  else if instruction = OP_GET_UPVALUE then
    let (vm1, slot) ← READ_BYTE vm frame
    let (_, location, closed) ← frame_upvalue vm1 frame slot
    match location with
    | some i => push_next vm1 frame (vm1.stack i)
    | none => push_next vm1 frame closed
  else if instruction = OP_SET_UPVALUE then
    let (vm1, slot) ← READ_BYTE vm frame
    let (u, location, _) ← frame_upvalue vm1 frame slot
    let v ← peek vm1 0
    match location with
    | some i =>
      some (step_result.next { vm1 with stack := Function.update vm1.stack i v } frame)
    | none =>
      match vm1.heap u with
      | some ou =>
        match ou.payload with
        | obj_payload.obj_upvalue loc _ next =>
          some (step_result.next
            { vm1 with
              heap := Function.update vm1.heap u
                (some { ou with payload := obj_payload.obj_upvalue loc v next }) } frame)
        | _ => none
      | none => none
  else if instruction = OP_CLOSE_UPVALUE then
    if vm.stack_top = 0 then none
    else
      let vm1 ← close_upvalues fuel vm (vm.stack_top - 1)
      let (vm2, _) ← pop vm1
      some (step_result.next vm2 frame)
  else if instruction = OP_CLASS then
    let (vm1, name) ← READ_STRING vm frame
    let (vm2, klass) ← new_klass sz fuel vm1 name (fresh vm1.heap)
    push_next vm2 frame (value.obj klass)
  else if instruction = OP_GET_PROPERTY then
    op_get_property sz fuel vm frame (fresh vm.heap)
  else if instruction = OP_SET_PROPERTY then
    match ← peek vm 1 with
    | value.obj i =>
      match vm.heap i with
      | none => none
      | some o =>
        match o.payload with
        | obj_payload.obj_instance _ _ =>
          let (vm1, name) ← READ_STRING vm frame
          let v ← peek vm1 0
          let (vm2, _) ← vm_set_table sz fuel vm1 (table_loc.fields i) name v
          let (vm3, val) ← pop vm2
          let (vm4, _) ← pop vm3
          push_next vm4 frame val
        | _ => fail vm
    | _ => fail vm
  else if instruction = OP_METHOD then
    let (vm1, name) ← READ_STRING vm frame
    let vm2 ← define_method sz fuel vm1 name
    some (step_result.next vm2 frame)
  else if instruction = OP_RETURN then
    let (vm1, result) ← pop vm
    let vm2 ← close_upvalues fuel vm1 (vm1.frames frame).slots
    if vm2.frame_count = 0 then none
    else
      let vm3 := { vm2 with frame_count := vm2.frame_count - 1 }
      if vm3.frame_count = 0 then
        let (vm4, _) ← pop vm3
        some (step_result.done vm4 interpret_result.INTERPRET_OK)
      else if (vm3.frames frame).slots = 0 then none
      else
        let vm4 ← push { vm3 with stack_top := (vm3.frames frame).slots - 1 } result
        some (step_result.next vm4 (vm4.frame_count - 1))
  else some (step_result.next vm frame)

/-- Function `run`: the loop, started with `frame = &vm.frames[vm.frame_count - 1]`. -/
def run_loop (sz : sizeofs) (fp : fpu) (fuel : Nat) (native : Nat → Nat → List value → value)
    (fresh : (Nat → Option obj) → Nat) : Nat → VM → Nat → Option (VM × interpret_result)
  | 0, _, _ => none
  | steps + 1, vm, frame =>
    match run_step sz fp fuel native fresh vm frame with
    | none => none
    | some (step_result.done vm1 result) => some (vm1, result)
    | some (step_result.next vm1 frame1) => run_loop sz fp fuel native fresh steps vm1 frame1

/-- Function `run`. -/
def run (sz : sizeofs) (fp : fpu) (fuel : Nat) (native : Nat → Nat → List value → value)
    (fresh : (Nat → Option obj) → Nat) (steps : Nat) (vm : VM) :
    Option (VM × interpret_result) :=
  if vm.frame_count = 0 then none
  else run_loop sz fp fuel native fresh steps vm (vm.frame_count - 1)

/-- Function `free_table` of table.c on the table a `table *` points at. -/
def free_table (sz : sizeofs) (fuel : Nat) (vm : VM) (loc : table_loc) : Option VM :=
  match read_table vm loc with
  | none => none
  | some tab =>
    match reallocate sz fuel vm (sz.table_entry * tab.capacity) 0 with
    | none => none
    | some vm1 => write_table vm1 init_table loc

/-- Function `free_objects` of memory.c.  The loop over the object list is
commented out in the source; what is left is `free (vm.gray_stack)`, which
releases the array of the gray stack and changes no field of `vm`. -/
def free_objects (vm : VM) : VM :=
  vm

/-- Function `free_vm`. -/
def free_vm (sz : sizeofs) (fuel : Nat) (vm : VM) : Option VM :=
  match free_table sz fuel vm table_loc.strings with
  | none => none
  | some vm1 =>
    match free_table sz fuel vm1 table_loc.globals with
    | none => none
    | some vm2 => some (free_objects { vm2 with init_string := none })

/-! ### The intern invariant (used by the statements about string interning) -/

/-- The string object `k` is a key of the intern table and its bytes are `d`. -/
def interned (vm : VM) (k : Nat) (d : List Nat) : Prop :=
  (∃ e ∈ vm.strings.entries, e.key = some k) ∧ string_data vm.heap k = some d

/-- The invariant of string interning on top of `gc_ready`: every key of the
intern table is a string object that carries the hash of its bytes, no two
distinct keys have equal bytes, and the capacity of the table is within the
budget of `n` insertions made so far. -/
structure intern_inv (vm : VM) (l ups : List Nat) (n : Nat) : Prop where
  ready : gc_ready vm l ups
  hashed : ∀ (e : table_entry) (k : Nat), e ∈ vm.strings.entries → e.key = some k →
    ∃ (o : obj) (d : List Nat), vm.heap k = some o ∧
      o.payload = obj_payload.obj_string d (hash_string d)
  unique : ∀ (k1 k2 : Nat) (d : List Nat), interned vm k1 d → interned vm k2 d → k1 = k2
  cap_budget : 3 * vm.strings.capacity ≤ 8 * n + 24
  count_budget : vm.strings.count ≤ n

/-- What a step made of collections and of accounting keeps: the root set
and every path from a root, reachable interned strings stay interned, no string
becomes interned, free addresses stay free, payloads do not change, and the
fields the mutator owns are untouched. -/
structure gc_step (vm vm' : VM) (ups : List Nat) : Prop where
  paths : ∀ r a, some r ∈ root_ptrs vm ups → Relation.ReflTransGen (heap_edge vm.heap) r a →
    Relation.ReflTransGen (heap_edge vm'.heap) r a
  roots : root_ptrs vm' ups = root_ptrs vm ups
  keep : ∀ (k : Nat) (d : List Nat), interned vm k d → reachable vm ups k → interned vm' k d
  no_new : ∀ (k : Nat) (d : List Nat), interned vm' k d → interned vm k d
  fresh : ∀ a, vm.heap a = none → vm'.heap a = none
  payload : ∀ (a : Nat) (o' : obj), vm'.heap a = some o' →
    ∃ o, vm.heap a = some o ∧ o'.payload = o.payload
  fields : vm' = { vm with heap := vm'.heap, objects := vm'.objects,
                           heap_size := vm'.heap_size, gc_treshold := vm'.gc_treshold,
                           strings := vm'.strings, gray_capacity := vm'.gray_capacity }
  cap : vm'.strings.capacity = vm.strings.capacity
  count : vm'.strings.count = vm.strings.count

/-- The string object `allocate_object` and `allocate_string` initialise. -/
def string_obj (next : Option Nat) (data : List Nat) : obj :=
  { marked := false, next := next, payload := obj_payload.obj_string data (hash_string data) }

/-- The state after `allocate_object` has linked the new string object `a`
and `allocate_string` has pushed it. -/
def with_string (vm1 : VM) (a : Nat) (data : List Nat) : VM :=
  { vm1 with
    heap := Function.update vm1.heap a (some (string_obj vm1.objects data)),
    objects := some a,
    stack := Function.update vm1.stack vm1.stack_top (value.obj a),
    stack_top := vm1.stack_top + 1 }

/-- The state after `set_table` has stored the entry and `allocate_string` has
popped the string. -/
def stored (vm : VM) (tab : table) : VM :=
  { vm with strings := tab, stack_top := vm.stack_top - 1 }

/-- What a call of a string constructor keeps: every path from a root, the
root set itself, the reachable interned strings, the stack below `stack_top`,
the call frames, standard output and the payload of every reachable object. -/
structure intern_step (vm vm' : VM) (ups : List Nat) : Prop where
  paths : ∀ r a, some r ∈ root_ptrs vm ups → Relation.ReflTransGen (heap_edge vm.heap) r a →
    Relation.ReflTransGen (heap_edge vm'.heap) r a
  roots : root_ptrs vm' ups = root_ptrs vm ups
  keep : ∀ (k : Nat) (d : List Nat), interned vm k d → reachable vm ups k → interned vm' k d
  top : vm'.stack_top = vm.stack_top
  below : ∀ i, i < vm.stack_top → vm'.stack i = vm.stack i
  frames : vm'.frames = vm.frames
  frame_count : vm'.frame_count = vm.frame_count
  stdout : vm'.stdout = vm.stdout
  payload : ∀ x, reachable vm ups x →
    ∃ o o', vm.heap x = some o ∧ vm'.heap x = some o' ∧ o'.payload = o.payload
/-! ## scanner.c -/

/-- The bytes of a string literal of the C source. -/
def bytes_of (s : String) : List Nat :=
  s.data.map Char.toNat

/-- The C string a `char *` points at, given the bytes that follow the
pointer: it ends before the first NUL. -/
def c_string (bytes : List Nat) : List Nat :=
  bytes.takeWhile (fun c => c != 0)

/-- Modelled from the spec: the enum `token_type` of scanner.h, a header that
is not among the sources.  The constructors are the names scanner.c and
compiler.c use; their numbering is never relied on (the rule table of
compiler.c is written with designated initialisers). -/
inductive token_type where
  | TOKEN_AND | TOKEN_BANG_EQUAL | TOKEN_BANG | TOKEN_CLASS | TOKEN_COMMA | TOKEN_DOT
  | TOKEN_ELSE | TOKEN_EOF | TOKEN_EQUAL_EQUAL | TOKEN_EQUAL | TOKEN_ERROR | TOKEN_FALSE
  | TOKEN_FOR | TOKEN_FUN | TOKEN_GREATER_EQUAL | TOKEN_GREATER | TOKEN_IDENTIFIER | TOKEN_IF
  | TOKEN_LEFT_BRACE | TOKEN_LEFT_PAREN | TOKEN_LESS_EQUAL | TOKEN_LESS | TOKEN_MINUS
  | TOKEN_NIL | TOKEN_NUMBER | TOKEN_OR | TOKEN_PLUS | TOKEN_PRINT | TOKEN_RETURN
  | TOKEN_RIGHT_BRACE | TOKEN_RIGHT_PAREN | TOKEN_SEMICOLON | TOKEN_SLASH | TOKEN_STAR
  | TOKEN_STRING | TOKEN_SUPER | TOKEN_THIS | TOKEN_TRUE | TOKEN_VAR | TOKEN_WHILE
  deriving DecidableEq

open token_type

/-- Modelled from the spec: the struct `token` of scanner.h (`{kind,
lexeme_ptr, lexeme_len, line, column}`), with the field names `make_token`
uses.  The pointer `start` is represented by the bytes it points at, up to
the terminating NUL of the buffer it points into; the lexeme is the first
`len` of them. -/
structure token where
  type : token_type
  start : List Nat
  len : Nat
  line : Nat
  column : Nat
  deriving DecidableEq

/-- The global `scanner`; the pointers `start` and `current` into the source
are represented by the bytes from the pointer to the end of the source. -/
structure scanner_t where
  start : List Nat
  current : List Nat
  line : Nat
  column : Nat
  deriving DecidableEq

/-- Function `init_scanner`; `source` holds the bytes of the C string. -/
def init_scanner (source : List Nat) : scanner_t :=
  { start := c_string source, current := c_string source, line := 1, column := 1 }

/-- Function `is_digit`. -/
def is_digit (c : Nat) : Bool :=
  decide (48 ≤ c ∧ c ≤ 57)

/-- Function `is_alpha`. -/
def is_alpha (c : Nat) : Bool :=
  decide ((97 ≤ c ∧ c ≤ 122) ∨ (65 ≤ c ∧ c ≤ 90) ∨ c = 95)

/-- Function `peek` of scanner.c: `*scanner.current`, the NUL at the end. -/
def scanner.peek (sc : scanner_t) : Nat :=
  sc.current.headD 0

/-- Function `is_at_end`. -/
def scanner.is_at_end (sc : scanner_t) : Bool :=
  scanner.peek sc == 0

/-- Function `make_token`; the length is a difference of pointers into the
source, in `size` arithmetic. -/
def make_token (sc : scanner_t) (type : token_type) : token :=
  { type := type, start := sc.start,
    len := (sc.start.length - sc.current.length + 2 ^ 64
      - (if type = TOKEN_STRING then 1 else 0)) % 2 ^ 64,
    line := sc.line, column := sc.column }

/-- Function `error_token`: the formatted message `msg` is written to a buffer
of `len + 1` bytes obtained from `reallocate`, where `len` is the number of
bytes the format produces. -/
def error_token (sz : sizeofs) (fuel : Nat) (vm : VM) (sc : scanner_t) (msg : List Nat) :
    Option (VM × token) :=
  match reallocate sz fuel vm 0 (msg.length + 1) with
  | none => none
  | some vm1 =>
    some (vm1, { type := TOKEN_ERROR, start := c_string msg, len := msg.length,
                 line := sc.line, column := sc.column })

/-- Function `advance` of scanner.c; it is never called at the end of the
source. -/
def scanner.advance (sc : scanner_t) : Option (scanner_t × Nat) :=
  match sc.current with
  | [] => none
  | c :: rest =>
    if c = 10 then
      some ({ sc with current := rest, line := (sc.line + 1) % 2 ^ 64, column := 1 }, c)
    else some ({ sc with current := rest, column := (sc.column + 1) % 2 ^ 64 }, c)

/-- Function `match` of scanner.c. -/
def scanner.match_ (sc : scanner_t) (expected : Nat) : scanner_t × Bool :=
  if scanner.is_at_end sc then (sc, false)
  else if scanner.peek sc ≠ expected then (sc, false)
  else ({ sc with current := sc.current.tail }, true)

/-- Function `peek_next`. -/
def scanner.peek_next (sc : scanner_t) : Nat :=
  if scanner.is_at_end sc then 0 else sc.current.tail.headD 0

/-- The inner loop of `skip_whitespace` that runs to the end of a comment
line. -/
def skip_comment : Nat → scanner_t → Option scanner_t
  | 0, _ => none
  | fuel + 1, sc =>
    if scanner.peek sc ≠ 10 ∧ !scanner.is_at_end sc then
      match scanner.advance sc with
      | none => none
      | some (sc1, _) => skip_comment fuel sc1
    else some sc

/-- Function `skip_whitespace`. -/
def skip_whitespace : Nat → scanner_t → Option scanner_t
  | 0, _ => none
  | fuel + 1, sc =>
    let c := scanner.peek sc
    if c = 32 ∨ c = 13 ∨ c = 10 ∨ c = 9 then
      match scanner.advance sc with
      | none => none
      | some (sc1, _) => skip_whitespace fuel sc1
    else if c = 47 then
      if scanner.peek_next sc = 47 then
        match skip_comment (fuel + 1) sc with
        | none => none
        | some sc1 => skip_whitespace fuel sc1
      else some sc
    else some sc

/-- The loop `while (peek () != '"' && !is_at_end ()) advance ();` of
`string`. -/
def string_loop : Nat → scanner_t → Option scanner_t
  | 0, _ => none
  | fuel + 1, sc =>
    if scanner.peek sc ≠ 34 ∧ !scanner.is_at_end sc then
      match scanner.advance sc with
      | none => none
      | some (sc1, _) => string_loop fuel sc1
    else some sc

/-- Function `string` of scanner.c. -/
def scanner.string (sz : sizeofs) (fuel : Nat) (vm : VM) (sc : scanner_t) :
    Option (VM × scanner_t × token) :=
  match string_loop fuel sc with
  | none => none
  | some sc1 =>
    if scanner.is_at_end sc1 then
      match error_token sz fuel vm sc1 (bytes_of "Unterminated string") with
      | none => none
      | some (vm1, tok) => some (vm1, sc1, tok)
    else
      match scanner.advance sc1 with
      | none => none
      | some (sc2, _) => some (vm, sc2, make_token sc2 TOKEN_STRING)

/-- The loop `while (is_digit (peek ())) advance ();`. -/
def digits_loop : Nat → scanner_t → Option scanner_t
  | 0, _ => none
  | fuel + 1, sc =>
    if is_digit (scanner.peek sc) then
      match scanner.advance sc with
      | none => none
      | some (sc1, _) => digits_loop fuel sc1
    else some sc

/-- Function `number` of scanner.c. -/
def scanner.number (fuel : Nat) (sc : scanner_t) : Option (scanner_t × token) :=
  match digits_loop fuel sc with
  | none => none
  | some sc1 =>
    if scanner.peek sc1 = 46 ∧ is_digit (scanner.peek_next sc1) then
      match scanner.advance sc1 with
      | none => none
      | some (sc2, _) =>
        match digits_loop fuel sc2 with
        | none => none
        | some sc3 => some (sc3, make_token sc3 TOKEN_NUMBER)
    else some (sc1, make_token sc1 TOKEN_NUMBER)

/-- Function `check_keyword`; `memcmp` compares `length` bytes of the lexeme
from offset `start` on with `remain`. -/
def check_keyword (sc : scanner_t) (start length : Nat) (remain : List Nat)
    (type : token_type) : token_type :=
  if sc.start.length - sc.current.length = start + length ∧
      (sc.start.drop start).take length = remain then type
  else TOKEN_IDENTIFIER

/-- Function `identifier_type`. -/
def identifier_type (sc : scanner_t) : token_type :=
  let c := sc.start.headD 0
  let c1 := sc.start.tail.headD 0
  if c = 97 then check_keyword sc 1 2 (bytes_of "nd") TOKEN_AND
  else if c = 99 then check_keyword sc 1 4 (bytes_of "lass") TOKEN_CLASS
  else if c = 101 then check_keyword sc 1 3 (bytes_of "lse") TOKEN_ELSE
  else if c = 102 then
    if sc.start.length - sc.current.length > 1 then
      if c1 = 97 then check_keyword sc 2 3 (bytes_of "lse") TOKEN_FALSE
      else if c1 = 111 then check_keyword sc 2 1 (bytes_of "r") TOKEN_FOR
      else if c1 = 117 then check_keyword sc 2 1 (bytes_of "n") TOKEN_FUN
      else TOKEN_IDENTIFIER
    else TOKEN_IDENTIFIER
  else if c = 105 then check_keyword sc 1 1 (bytes_of "f") TOKEN_IF
  else if c = 110 then check_keyword sc 1 2 (bytes_of "il") TOKEN_NIL
  else if c = 111 then check_keyword sc 1 1 (bytes_of "r") TOKEN_OR
  else if c = 112 then check_keyword sc 1 4 (bytes_of "rint") TOKEN_PRINT
  else if c = 114 then check_keyword sc 1 5 (bytes_of "eturn") TOKEN_RETURN
  else if c = 115 then check_keyword sc 1 4 (bytes_of "uper") TOKEN_SUPER
  else if c = 116 then
    if sc.start.length - sc.current.length > 1 then
      if c1 = 104 then check_keyword sc 2 2 (bytes_of "is") TOKEN_THIS
      else if c1 = 114 then check_keyword sc 2 2 (bytes_of "ue") TOKEN_TRUE
      else TOKEN_IDENTIFIER
    else TOKEN_IDENTIFIER
  else if c = 118 then check_keyword sc 1 2 (bytes_of "ar") TOKEN_VAR
  else if c = 119 then check_keyword sc 1 4 (bytes_of "hile") TOKEN_WHILE
  else TOKEN_IDENTIFIER

/-- The loop of `identifier`. -/
def identifier_loop : Nat → scanner_t → Option scanner_t
  | 0, _ => none
  | fuel + 1, sc =>
    if is_alpha (scanner.peek sc) ∨ is_digit (scanner.peek sc) then
      match scanner.advance sc with
      | none => none
      | some (sc1, _) => identifier_loop fuel sc1
    else some sc

/-- Function `identifier`. -/
def scanner.identifier (fuel : Nat) (sc : scanner_t) : Option (scanner_t × token) :=
  match identifier_loop fuel sc with
  | none => none
  | some sc1 => some (sc1, make_token sc1 (identifier_type sc1))

/-- Function `scan_token`.  The message of the last `error_token` is formatted
with `*scanner.current`, the byte after the unexpected one. -/
def scan_token (sz : sizeofs) (fuel : Nat) (vm : VM) (sc0 : scanner_t) :
    Option (VM × scanner_t × token) :=
  match skip_whitespace fuel sc0 with
  | none => none
  | some sc1 =>
    let sc := { sc1 with start := sc1.current }
    if scanner.is_at_end sc then some (vm, sc, make_token sc TOKEN_EOF)
    else
      match scanner.advance sc with
      | none => none
      | some (sc2, c) =>
        if is_alpha c then (scanner.identifier fuel sc2).map (fun r => (vm, r.1, r.2))
        else if is_digit c then (scanner.number fuel sc2).map (fun r => (vm, r.1, r.2))
        else if c = 40 then some (vm, sc2, make_token sc2 TOKEN_LEFT_PAREN)
        else if c = 41 then some (vm, sc2, make_token sc2 TOKEN_RIGHT_PAREN)
        else if c = 123 then some (vm, sc2, make_token sc2 TOKEN_LEFT_BRACE)
        else if c = 125 then some (vm, sc2, make_token sc2 TOKEN_RIGHT_BRACE)
        else if c = 59 then some (vm, sc2, make_token sc2 TOKEN_SEMICOLON)
        else if c = 44 then some (vm, sc2, make_token sc2 TOKEN_COMMA)
        else if c = 46 then some (vm, sc2, make_token sc2 TOKEN_DOT)
        else if c = 45 then some (vm, sc2, make_token sc2 TOKEN_MINUS)
        else if c = 43 then some (vm, sc2, make_token sc2 TOKEN_PLUS)
        else if c = 47 then some (vm, sc2, make_token sc2 TOKEN_SLASH)
        else if c = 42 then some (vm, sc2, make_token sc2 TOKEN_STAR)
        else if c = 33 then
          let (sc3, m) := scanner.match_ sc2 61
          some (vm, sc3, make_token sc3 (if m then TOKEN_BANG_EQUAL else TOKEN_BANG))
        else if c = 61 then
          let (sc3, m) := scanner.match_ sc2 61
          some (vm, sc3, make_token sc3 (if m then TOKEN_EQUAL_EQUAL else TOKEN_EQUAL))
        else if c = 60 then
          let (sc3, m) := scanner.match_ sc2 61
          some (vm, sc3, make_token sc3 (if m then TOKEN_LESS_EQUAL else TOKEN_LESS))
        else if c = 62 then
          let (sc3, m) := scanner.match_ sc2 61
          some (vm, sc3, make_token sc3 (if m then TOKEN_GREATER_EQUAL else TOKEN_GREATER))
        else if c = 34 then scanner.string sz fuel vm sc2
        else
          match error_token sz fuel vm sc2
              (bytes_of "Unexpected character " ++ [scanner.peek sc2]) with
          | none => none
          | some (vm1, tok) => some (vm1, sc2, tok)
/-! ## value.c, chunk.c and obj.c: what the compiler writes to -/

/-- Function `init_value_array` of value.c. -/
def init_value_array : value_array :=
  { capacity := 0, count := 0, values := [] }

/-- Function `init_chunk` of chunk.c. -/
def init_chunk : chunk :=
  { count := 0, capacity := 0, code := [], consts := init_value_array, lines := [] }

/-- The assignment `array[i] = x`; an array is represented by its initialised
prefix, so the write either replaces an element or extends the prefix by
one. -/
def array_write {α : Type} (l : List α) (i : Nat) (x : α) : Option (List α) :=
  if i < l.length then some (l.set i x)
  else if i = l.length then some (l ++ [x])
  else none

/-- Function `new_func` of obj.c; `a` is the address of the object. -/
def new_func (sz : sizeofs) (fuel : Nat) (vm : VM) (a : Nat) : Option (VM × Nat) :=
  match allocate_object sz fuel vm sz.obj_func a (obj_payload.obj_func 0 0 init_chunk none) with
  | none => none
  | some vm1 => some (vm1, a)

/-- Function `new_native` of obj.c; `callback` identifies the C function. -/
def new_native (sz : sizeofs) (fuel : Nat) (vm : VM) (callback a : Nat) : Option (VM × Nat) :=
  match allocate_object sz fuel vm sz.obj_native a (obj_payload.obj_native callback) with
  | none => none
  | some vm1 => some (vm1, a)

/-- The field `chk` of the function object at `f`. -/
def func_chunk (vm : VM) (f : Nat) : Option chunk :=
  match vm.heap f with
  | none => none
  | some o =>
    match o.payload with
    | obj_payload.obj_func _ _ chk _ => some chk
    | _ => none

/-- Assignment to the field `chk` of the function object at `f`. -/
def set_func_chunk (vm : VM) (f : Nat) (chk : chunk) : Option VM :=
  match vm.heap f with
  | none => none
  | some o =>
    match o.payload with
    | obj_payload.obj_func arity upvalue_count _ name =>
      some { vm with
             heap := Function.update vm.heap f
               (some { o with payload := obj_payload.obj_func arity upvalue_count chk name }) }
    | _ => none

/-- Function `write_chunk` of chunk.c on the chunk of the function object at
`f`.  Each `GROW_ARRAY` goes through `reallocate` and may collect. -/
def write_chunk (sz : sizeofs) (fuel : Nat) (vm : VM) (f : Nat) (byte line : Nat) :
    Option VM := do
  let chk ← func_chunk vm f
  let vm3 ←
    if chk.capacity < chk.count + 1 then do
      let old_capacity := chk.capacity
      let vm0 ← set_func_chunk vm f { chk with capacity := GROW_CAPACITY old_capacity }
      let vm1 ← reallocate sz fuel vm0 (1 * old_capacity) (1 * GROW_CAPACITY old_capacity)
      reallocate sz fuel vm1 (sz.size * old_capacity) (sz.size * GROW_CAPACITY old_capacity)
    else some vm
  let chk3 ← func_chunk vm3 f
  let code ← array_write chk3.code chk3.count byte
  let lines ← array_write chk3.lines chk3.count line
  set_func_chunk vm3 f { chk3 with code := code, lines := lines, count := chk3.count + 1 }

/-- Function `write_value_array` of value.c on the constants of the function
object at `f`. -/
def write_value_array (sz : sizeofs) (fuel : Nat) (vm : VM) (f : Nat) (val : value) :
    Option VM := do
  let chk ← func_chunk vm f
  let vm2 ←
    if chk.consts.capacity < chk.consts.count + 1 then do
      let old_capacity := chk.consts.capacity
      let vm0 ← set_func_chunk vm f
        { chk with consts := { chk.consts with capacity := GROW_CAPACITY old_capacity } }
      reallocate sz fuel vm0 (sz.value * old_capacity) (sz.value * GROW_CAPACITY old_capacity)
    else some vm
  let chk2 ← func_chunk vm2 f
  let values ← array_write chk2.consts.values chk2.consts.count val
  set_func_chunk vm2 f
    { chk2 with consts := { chk2.consts with values := values, count := chk2.consts.count + 1 } }

/-- Conversion of an integer value to `int32` (what the assignment of a `size`
expression to an `int32` or `int` variable does on the targets of this code,
which wrap): the value modulo 2^32, taken from -2^31 to 2^31 - 1.  A `size`
expression wraps modulo 2^64 first, which does not change the result. -/
def int32_of (n : Int) : Int :=
  (n + 2147483648) % 4294967296 - 2147483648

/-- Function `add_constant` of chunk.c on the chunk of the function object at
`f`; the result is `chunk->consts.count - 1`, converted to `int`. -/
def add_constant (sz : sizeofs) (fuel : Nat) (vm : VM) (f : Nat) (val : value) :
    Option (VM × Int) := do
  let vm1 ← push vm val
  let vm2 ← write_value_array sz fuel vm1 f val
  let (vm3, _) ← pop vm2
  let chk ← func_chunk vm3 f
  some (vm3, int32_of ((chk.consts.count : Int) - 1))

/-! ## compiler.c -/

/-- The global `parser`. -/
structure parser_t where
  current : token
  previous : token
  had_error : Bool
  panic_mode : Bool

/-- The enum `precedence`, by its numbers. -/
def PREC_NONE : Nat := 0
def PREC_ASG : Nat := 1
def PREC_OR : Nat := 2
def PREC_AND : Nat := 3
def PREC_EQ : Nat := 4
def PREC_COMP : Nat := 5
def PREC_TERM : Nat := 6
def PREC_FACTOR : Nat := 7
def PREC_UNARY : Nat := 8
def PREC_CALL : Nat := 9
def PREC_PRIMARY : Nat := 10

/-- The functions the rule table points to (the type `parse_fn`). -/
inductive parse_fn where
  | and_ | binary | call | dot | grouping | literal | number | or_ | string | this_ | unary
  | variable
  deriving DecidableEq

/-- The struct `parse_rule`; `none` is `NULL`. -/
structure parse_rule where
  prefix_fn : Option parse_fn
  infix_fn : Option parse_fn
  prec : Nat

/-- The struct `localvar`; the length of a compiler's list of locals is its
`local_count`. -/
structure localvar where
  name : token
  depth : Int
  captured : Bool

/-- The struct `upvalue` of compiler.c. -/
structure upvalue where
  index : Nat
  is_local : Bool
  deriving DecidableEq

/-- The enum `func_type`. -/
inductive func_type where
  | FTYPE_FUNC
  | FTYPE_INITIALIZER
  | FTYPE_METHOD
  | FTYPE_SCRIPT
  deriving DecidableEq

open func_type

/-- The struct `compiler_t` without its link `enclosing`: the chain is the
list `current` of the state.  `locals` holds the first `local_count` elements
of the array, `upvalues` the elements written so far. -/
structure compiler_t where
  func : Nat
  ftype : func_type
  locals : List localvar
  upvalues : List upvalue
  scope_depth : Int

/-- One report of `error_at` on standard error: position, kind and lexeme of
the token, the format string and its arguments (a number as a one-element
list, a string as its bytes). -/
structure diagnostic where
  line : Nat
  column : Nat
  type : token_type
  lexeme : List Nat
  format : List Nat
  args : List (List Nat)
  deriving DecidableEq

/-- The globals compiler.c works on, with the VM and the scanner: `current`
is the chain of compilers, innermost first (`[]` is `NULL`), `current_class`
the length of the chain of class compilers, `stderr` what `error_at` has
written. -/
structure compile_state where
  vm : VM
  scanner : scanner_t
  parser : parser_t
  current : List compiler_t
  current_class : Nat
  stderr : List diagnostic

/-- The parameters of the model that compiler.c passes down: the `sizeof`
values, the arithmetic unit, the fuel of the loops of the collector, the
tables and the scanner, and the address the allocator returns in a heap. -/
structure host where
  sz : sizeofs
  fp : fpu
  fuel : Nat
  fresh : (Nat → Option obj) → Nat

/-- Assignment to the global `current`; the collector sees the functions of
the chain. -/
def set_chain (c : compile_state) (chain : List compiler_t) : compile_state :=
  { c with current := chain,
           vm := { c.vm with compilers := chain.map (fun k => some k.func) } }

/-- Assignment to the fields of `*current`. -/
def set_compiler (c : compile_state) (k : compiler_t) : compile_state :=
  { c with current := k :: c.current.tail }

/-- Function `current_chunk`. -/
def current_chunk (c : compile_state) : Option chunk :=
  match c.current.head? with
  | none => none
  | some k => func_chunk c.vm k.func

/-- Function `error_at`. -/
def error_at (c : compile_state) (tok : token) (msg : List Nat) (args : List (List Nat)) :
    compile_state :=
  if c.parser.panic_mode then c
  else
    { c with
      parser := { c.parser with panic_mode := true, had_error := true },
      stderr := c.stderr ++ [{ line := tok.line, column := tok.column, type := tok.type,
                               lexeme := tok.start.take tok.len, format := msg, args := args }] }

/-- Function `error_at_current`. -/
def error_at_current (c : compile_state) (msg : List Nat) (args : List (List Nat)) :
    compile_state :=
  error_at c c.parser.current msg args

/-- Function `error`. -/
def error (c : compile_state) (msg : List Nat) (args : List (List Nat)) : compile_state :=
  error_at c c.parser.previous msg args

/-- The loop of `advance`: an error token is reported with its message as the
format string and released with `FREE (char, ...)`. -/
def advance_loop (h : host) : Nat → compile_state → Option compile_state
  | 0, _ => none
  | n + 1, c => do
    let (vm1, sc1, tok) ← scan_token h.sz h.fuel c.vm c.scanner
    let c1 := { c with vm := vm1, scanner := sc1, parser := { c.parser with current := tok } }
    if tok.type ≠ TOKEN_ERROR then some c1
    else
      let c2 := error_at_current c1 tok.start []
      let vm2 ← reallocate h.sz h.fuel c2.vm 1 0
      advance_loop h n { c2 with vm := vm2 }

/-- Function `advance` of compiler.c. -/
def advance (h : host) (c : compile_state) : Option compile_state :=
  advance_loop h h.fuel { c with parser := { c.parser with previous := c.parser.current } }

/-- Functions `consumev` and `consume`. -/
def consume (h : host) (c : compile_state) (type : token_type) (msg : List Nat) :
    Option compile_state :=
  if c.parser.current.type = type then advance h c
  else some (error_at c c.parser.current msg [])

/-- Function `check`. -/
def check (c : compile_state) (type : token_type) : Bool :=
  decide (c.parser.current.type = type)

/-- Function `match` of compiler.c. -/
def match_ (h : host) (c : compile_state) (type : token_type) : Option (compile_state × Bool) :=
  if !check c type then some (c, false)
  else (advance h c).map (fun c1 => (c1, true))

/-- Function `emit_byte`; the argument is converted to `uint8`. -/
def emit_byte (h : host) (c : compile_state) (byte : Nat) : Option compile_state := do
  let k ← c.current.head?
  let vm1 ← write_chunk h.sz h.fuel c.vm k.func (byte % 256) c.parser.previous.line
  some { c with vm := vm1 }

/-- Function `emit_bytes`. -/
def emit_bytes (h : host) (c : compile_state) (b1 b2 : Nat) : Option compile_state := do
  let c1 ← emit_byte h c b1
  emit_byte h c1 b2

/-- Function `emit_loop`; `offset` is an `int32`, its bytes are
`(offset >> 8) & 0xff` and `offset & 0xff`. -/
def emit_loop (h : host) (c : compile_state) (loop_start : Int) : Option compile_state := do
  let c1 ← emit_byte h c OP_LOOP
  let chk ← current_chunk c1
  let offset := int32_of ((chk.count : Int) - loop_start + 2)
  let c2 := if offset > 65535 then
      error c1 (bytes_of "Loop body too large! Maximum %d ops\n") [[65535]] else c1
  let c3 ← emit_byte h c2 ((offset / 256) % 256).toNat
  emit_byte h c3 (offset % 256).toNat

/-- Function `emit_jump`; the result is an `int32`. -/
def emit_jump (h : host) (c : compile_state) (instruction : Nat) :
    Option (compile_state × Int) := do
  let c1 ← emit_byte h c instruction
  let c2 ← emit_bytes h c1 255 255
  let chk ← current_chunk c2
  some (c2, int32_of ((chk.count : Int) - 2))

/-- Function `implicit_return`. -/
def implicit_return (h : host) (c : compile_state) : Option compile_state := do
  let k ← c.current.head?
  let c1 ← if k.ftype = FTYPE_INITIALIZER then emit_bytes h c OP_GET_LOCAL 0
    else emit_byte h c OP_NIL
  let c2 ← emit_byte h c1 OP_NIL
  emit_byte h c2 OP_RETURN

/-- Function `make_constant`; `constant` is an `int32`, the result is
`(uint8) constant`. -/
def make_constant (h : host) (c : compile_state) (val : value) :
    Option (compile_state × Nat) := do
  let k ← c.current.head?
  let (vm1, constant) ← add_constant h.sz h.fuel c.vm k.func val
  let c1 := { c with vm := vm1 }
  if constant > 255 then
    some (error c1 (bytes_of "Too many constants in one chunk! Maximum %d\n") [[255]], 0)
  else some (c1, (constant % 256).toNat)

/-- Function `emit_constant`. -/
def emit_constant (h : host) (c : compile_state) (val : value) : Option compile_state := do
  let (c1, constant) ← make_constant h c val
  emit_bytes h c1 OP_CONSTANT constant

/-- Function `patch_jump`; `offset` and `jump` are `int32`, the bytes written
are `(jump >> 8) & 0xff` and `jump & 0xff`; a negative `offset` is outside the
array. -/
def patch_jump (c : compile_state) (offset : Int) : Option compile_state := do
  let k ← c.current.head?
  let chk ← func_chunk c.vm k.func
  let jump := int32_of ((chk.count : Int) - offset - 2)
  let c1 := if jump > 65535 then
      error c (bytes_of "Too much code to jump over! offset = %d") [[jump.toNat]] else c
  if 0 ≤ offset ∧ offset.toNat + 1 < chk.code.length then
    let code := (chk.code.set offset.toNat ((jump / 256) % 256).toNat).set (offset.toNat + 1)
      (jump % 256).toNat
    let vm1 ← set_func_chunk c1.vm k.func { chk with code := code }
    some { c1 with vm := vm1 }
  else none
/-- The number of a `func_type`, as `printf ("%d")` shows it. -/
def func_type_text : func_type → String
  | FTYPE_FUNC => "init_compiler: ftype 0\n"
  | FTYPE_INITIALIZER => "init_compiler: ftype 1\n"
  | FTYPE_METHOD => "init_compiler: ftype 2\n"
  | FTYPE_SCRIPT => "init_compiler: ftype 3\n"

/-- Write to standard output. -/
def print_out (c : compile_state) (items : List out_item) : compile_state :=
  { c with vm := { c.vm with stdout := c.vm.stdout ++ items } }

/-- Assignment to the field `name` of the function object at `f`. -/
def set_func_name (vm : VM) (f : Nat) (name : Option Nat) : Option VM :=
  match vm.heap f with
  | none => none
  | some o =>
    match o.payload with
    | obj_payload.obj_func arity upvalue_count chk _ =>
      some { vm with
             heap := Function.update vm.heap f
               (some { o with payload := obj_payload.obj_func arity upvalue_count chk name }) }
    | _ => none

/-- The name token of the local in slot 0, of which `init_compiler` sets
`start` and `len` only; the other fields are not initialised and never
read. -/
def slot_zero_name (ftype : func_type) : token :=
  if ftype ≠ FTYPE_FUNC then
    { type := TOKEN_IDENTIFIER, start := bytes_of "this", len := 4, line := 0, column := 0 }
  else { type := TOKEN_IDENTIFIER, start := [], len := 0, line := 0, column := 0 }

/-- Function `init_compiler`. -/
def init_compiler (h : host) (c : compile_state) (ftype : func_type) :
    Option compile_state := do
  let (vm1, f) ← new_func h.sz h.fuel c.vm (h.fresh c.vm.heap)
  let c1 := set_chain { c with vm := vm1 }
    ({ func := f, ftype := ftype, locals := [], upvalues := [], scope_depth := 0 } :: c.current)
  let c2 ←
    if ftype ≠ FTYPE_SCRIPT then do
      let (vm2, name) ← copy_string h.sz h.fuel c1.vm
        (c1.parser.previous.start.take c1.parser.previous.len) (h.fresh c1.vm.heap)
      let vm3 ← set_func_name vm2 f (some name)
      some { c1 with vm := vm3 }
    else some c1
  let k ← c2.current.head?
  let c3 := set_compiler c2
    { k with locals := k.locals ++ [{ name := slot_zero_name ftype, depth := 0,
                                      captured := false }] }
  if ftype ≠ FTYPE_FUNC then some (print_out c3 [out_item.text (func_type_text ftype)])
  else some c3

/-- Function `end_compiler`; the result carries the returned function and the
compiler that has been left, which its caller still reads. -/
def end_compiler (h : host) (c : compile_state) :
    Option (compile_state × Nat × compiler_t) := do
  let c1 ← implicit_return h c
  let k ← c1.current.head?
  let c2 := if !c1.parser.had_error then print_out c1 [out_item.disassembly] else c1
  some (set_chain c2 c2.current.tail, k.func, k)

/-- Function `begin_scope`. -/
def begin_scope (c : compile_state) : Option compile_state := do
  let k ← c.current.head?
  some (set_compiler c { k with scope_depth := k.scope_depth + 1 })

/-- The loop of `end_scope`. -/
def end_scope_loop (h : host) : Nat → compile_state → Option compile_state
  | 0, _ => none
  | n + 1, c => do
    let k ← c.current.head?
    match k.locals.getLast? with
    | none => some c
    | some l =>
      if l.depth > k.scope_depth then
        let c1 ← emit_byte h c (if l.captured then OP_CLOSE_UPVALUE else OP_POP)
        let k1 ← c1.current.head?
        end_scope_loop h n (set_compiler c1 { k1 with locals := k1.locals.dropLast })
      else some c

/-- Function `end_scope`. -/
def end_scope (h : host) (c : compile_state) : Option compile_state := do
  let k ← c.current.head?
  let c1 := set_compiler c { k with scope_depth := k.scope_depth - 1 }
  end_scope_loop h (k.locals.length + 1) c1

/-- Function `identifier_constant`. -/
def identifier_constant (h : host) (c : compile_state) (name : token) :
    Option (compile_state × Nat) := do
  let (vm1, s) ← copy_string h.sz h.fuel c.vm (name.start.take name.len) (h.fresh c.vm.heap)
  make_constant h { c with vm := vm1 } (value.obj s)

/-- Function `identifiers_equal`. -/
def identifiers_equal (a b : token) : Bool :=
  if a.len ≠ b.len then false
  else decide (a.start.take a.len = b.start.take a.len)

/-- The loop of `resolve_local` over the locals of a compiler, from the local
`i - 1` downwards. -/
def resolve_local_loop (locals : List localvar) (name : token) :
    Nat → compile_state → Option (compile_state × Int)
  | 0, c => some (c, -1)
  | i + 1, c =>
    match locals[i]? with
    | none => none
    | some l =>
      let c1 := print_out c [out_item.text "local: ", out_item.bytes (l.name.start.take l.name.len),
        out_item.text "\n"]
      if identifiers_equal name l.name then
        let c2 := if l.depth = -1 then
            error c1 (bytes_of "Self-referencing local variable \x27%.*s\x27 in initializer")
              [[l.name.len], l.name.start.take l.name.len]
          else c1
        some (c2, (i : Int))
      else resolve_local_loop locals name i c1

/-- Function `resolve_local`; `k` is the compiler the pointer refers to. -/
def resolve_local (c : compile_state) (k : compiler_t) (name : token) :
    Option (compile_state × Int) :=
  resolve_local_loop k.locals name k.locals.length c

/-- The field `upvalue_count` of the function object at `f`. -/
def func_upvalue_count (vm : VM) (f : Nat) : Option Nat :=
  match vm.heap f with
  | none => none
  | some o =>
    match o.payload with
    | obj_payload.obj_func _ upvalue_count _ _ => some upvalue_count
    | _ => none

/-- Function `add_upvalue`; the compiler is the one at position `d` of the
chain, `index` has been converted to `uint8`. -/
def add_upvalue (c : compile_state) (d : Nat) (index : Nat) (is_local : Bool) :
    Option (compile_state × Int) := do
  let k ← c.current[d]?
  let o ← c.vm.heap k.func
  match o.payload with
  | obj_payload.obj_func arity upvalue_count chk name =>
    if k.upvalues.length < upvalue_count then none
    else
      match (k.upvalues.take upvalue_count).indexOf? { index := index, is_local := is_local } with
      | some i => some (c, (i : Int))
      | none =>
        if upvalue_count = 256 then
          some (error c (bytes_of "Too many captured variables in closure") [], 0)
        else do
          let upvalues ← array_write k.upvalues upvalue_count
            { index := index, is_local := is_local }
          some ({ c with
                  current := c.current.set d { k with upvalues := upvalues },
                  vm := { c.vm with
                          heap := Function.update c.vm.heap k.func
                            (some { o with
                                    payload := obj_payload.obj_func arity (upvalue_count + 1)
                                      chk name }) } },
                (upvalue_count : Int))
  | _ => none

/-- Function `resolve_upvalue`; the compiler is the one at position `d` of
the chain.  The recursion goes up the chain. -/
def resolve_upvalue (name : token) : Nat → compile_state → Nat → Option (compile_state × Int)
  | 0, _, _ => none
  | n + 1, c, d =>
    match c.current[d + 1]? with
    | none => some (c, -1)
    | some enclosing => do
      let (c1, local_) ← resolve_local c enclosing name
      if local_ ≠ -1 then
        let l ← enclosing.locals[local_.toNat]?
        let c2 := { c1 with
          current := c1.current.set (d + 1)
            { enclosing with
              locals := enclosing.locals.set local_.toNat { l with captured := true } } }
        add_upvalue c2 d (local_.toNat % 256) true
      else
        let (c2, upvalue) ← resolve_upvalue name n c1 (d + 1)
        if upvalue ≠ -1 then add_upvalue c2 d (upvalue.toNat % 256) false
        else some (c2, -1)

/-- Function `add_local`. -/
def add_local (c : compile_state) (name : token) : Option compile_state := do
  let k ← c.current.head?
  if k.locals.length = 256 then
    some (error c (bytes_of "Too many local variables in function, limit %d") [[256]])
  else
    some (set_compiler c
      { k with locals := k.locals ++ [{ name := name, depth := -1, captured := false }] })

/-- The loop of `declare_variable`, from the local `i - 1` downwards. -/
def declare_variable_loop (locals : List localvar) (scope_depth : Int) (name : token) :
    Nat → compile_state → compile_state
  | 0, c => c
  | i + 1, c =>
    match locals[i]? with
    | none => c
    | some l =>
      if l.depth ≠ -1 ∧ l.depth < scope_depth then c
      else
        let c1 := if identifiers_equal name l.name then
            error c (bytes_of "Redeclaration of variable \x27%.*s\x27")
              [[name.len], name.start.take name.len]
          else c
        declare_variable_loop locals scope_depth name i c1

/-- Function `declare_variable`. -/
def declare_variable (c : compile_state) : Option compile_state := do
  let k ← c.current.head?
  if k.scope_depth = 0 then some c
  else
    let name := c.parser.previous
    add_local (declare_variable_loop k.locals k.scope_depth name k.locals.length c) name

/-- Function `parse_variable`. -/
def parse_variable (h : host) (c : compile_state) (errmsg : List Nat) :
    Option (compile_state × Nat) := do
  let c1 ← consume h c TOKEN_IDENTIFIER errmsg
  let c2 ← declare_variable c1
  let k ← c2.current.head?
  if k.scope_depth > 0 then some (c2, 0)
  else identifier_constant h c2 c2.parser.previous

/-- Function `mark_initialized`. -/
def mark_initialized (c : compile_state) : Option compile_state := do
  let k ← c.current.head?
  if k.scope_depth = 0 then some c
  else
    let l ← k.locals.getLast?
    some (set_compiler c
      { k with locals := k.locals.dropLast ++ [{ l with depth := k.scope_depth }] })

/-- Function `define_variable`. -/
def define_variable (h : host) (c : compile_state) (global : Nat) : Option compile_state := do
  let k ← c.current.head?
  if k.scope_depth > 0 then mark_initialized c
  else emit_bytes h c OP_DEFINE_GLOBAL global

/-- The rule table `rules` behind `get_rule`. -/
def get_rule : token_type → parse_rule
  | TOKEN_AND => { prefix_fn := none, infix_fn := some parse_fn.and_, prec := PREC_AND }
  | TOKEN_BANG_EQUAL => { prefix_fn := none, infix_fn := some parse_fn.binary, prec := PREC_EQ }
  | TOKEN_BANG => { prefix_fn := some parse_fn.unary, infix_fn := none, prec := PREC_NONE }
  | TOKEN_DOT => { prefix_fn := none, infix_fn := some parse_fn.dot, prec := PREC_CALL }
  | TOKEN_EQUAL_EQUAL => { prefix_fn := none, infix_fn := some parse_fn.binary, prec := PREC_EQ }
  | TOKEN_FALSE => { prefix_fn := some parse_fn.literal, infix_fn := none, prec := PREC_NONE }
  | TOKEN_GREATER_EQUAL =>
    { prefix_fn := none, infix_fn := some parse_fn.binary, prec := PREC_COMP }
  | TOKEN_GREATER => { prefix_fn := none, infix_fn := some parse_fn.binary, prec := PREC_COMP }
  | TOKEN_IDENTIFIER =>
    { prefix_fn := some parse_fn.variable, infix_fn := none, prec := PREC_NONE }
  | TOKEN_LEFT_PAREN =>
    { prefix_fn := some parse_fn.grouping, infix_fn := some parse_fn.call, prec := PREC_CALL }
  | TOKEN_LESS_EQUAL => { prefix_fn := none, infix_fn := some parse_fn.binary, prec := PREC_COMP }
  | TOKEN_LESS => { prefix_fn := none, infix_fn := some parse_fn.binary, prec := PREC_COMP }
  | TOKEN_MINUS =>
    { prefix_fn := some parse_fn.unary, infix_fn := some parse_fn.binary, prec := PREC_TERM }
  | TOKEN_NIL => { prefix_fn := some parse_fn.literal, infix_fn := none, prec := PREC_NONE }
  | TOKEN_NUMBER => { prefix_fn := some parse_fn.number, infix_fn := none, prec := PREC_NONE }
  | TOKEN_OR => { prefix_fn := none, infix_fn := some parse_fn.or_, prec := PREC_OR }
  | TOKEN_PLUS => { prefix_fn := none, infix_fn := some parse_fn.binary, prec := PREC_TERM }
  | TOKEN_SLASH => { prefix_fn := none, infix_fn := some parse_fn.binary, prec := PREC_FACTOR }
  | TOKEN_STAR => { prefix_fn := none, infix_fn := some parse_fn.binary, prec := PREC_FACTOR }
  | TOKEN_STRING => { prefix_fn := some parse_fn.string, infix_fn := none, prec := PREC_NONE }
  | TOKEN_THIS => { prefix_fn := some parse_fn.this_, infix_fn := none, prec := PREC_NONE }
  | TOKEN_TRUE => { prefix_fn := some parse_fn.literal, infix_fn := none, prec := PREC_NONE }
  | _ => { prefix_fn := none, infix_fn := none, prec := PREC_NONE }

/-- Function `literal`. -/
def literal (h : host) (c : compile_state) : Option compile_state :=
  match c.parser.previous.type with
  | TOKEN_FALSE => emit_byte h c OP_FALSE
  | TOKEN_NIL => emit_byte h c OP_NIL
  | TOKEN_TRUE => emit_byte h c OP_TRUE
  | _ => some c

/-- Function `number` of compiler.c: `strtod` reads from the start of the
lexeme on, not only the lexeme. -/
def compiler.number (h : host) (c : compile_state) : Option compile_state :=
  emit_constant h c (value.number (h.fp.strtod c.parser.previous.start))

/-- Function `string` of compiler.c. -/
def compiler.string (h : host) (c : compile_state) : Option compile_state := do
  let (vm1, s) ← copy_string h.sz h.fuel c.vm
    ((c.parser.previous.start.drop 1).take (c.parser.previous.len - 1)) (h.fresh c.vm.heap)
  emit_constant h { c with vm := vm1 } (value.obj s)

/-- The `switch` of `binary` after the right operand. -/
def binary_emit (h : host) (c : compile_state) (op_type : token_type) : Option compile_state :=
  match op_type with
  | TOKEN_BANG_EQUAL => emit_bytes h c OP_EQUAL OP_NOT
  | TOKEN_EQUAL_EQUAL => emit_byte h c OP_EQUAL
  | TOKEN_GREATER => emit_byte h c OP_GREATER
  | TOKEN_GREATER_EQUAL => emit_bytes h c OP_LESS OP_NOT
  | TOKEN_LESS => emit_byte h c OP_LESS
  | TOKEN_LESS_EQUAL => emit_bytes h c OP_GREATER OP_NOT
  | TOKEN_PLUS => emit_byte h c OP_ADD
  | TOKEN_MINUS => emit_byte h c OP_SUBTRACT
  | TOKEN_STAR => emit_byte h c OP_MULTIPLY
  | TOKEN_SLASH => emit_byte h c OP_DIVIDE
  | _ => some c

/-- The `switch` of `unary` after the operand. -/
def unary_emit (h : host) (c : compile_state) (op_type : token_type) : Option compile_state :=
  match op_type with
  | TOKEN_BANG => emit_byte h c OP_NOT
  | TOKEN_MINUS => emit_byte h c OP_NEGATE
  | _ => some c

/-- The first part of `named_variable`: the instructions to read and to write
the variable, and their operand. -/
def resolve_variable (h : host) (c : compile_state) (name : token) :
    Option (compile_state × Nat × Nat × Int) := do
  let k ← c.current.head?
  let (c1, arg) ← resolve_local c k name
  if arg ≠ -1 then some (c1, OP_GET_LOCAL, OP_SET_LOCAL, arg)
  else
    let (c2, arg2) ← resolve_upvalue name (c1.current.length + 1) c1 0
    if arg2 ≠ -1 then some (c2, OP_GET_UPVALUE, OP_SET_UPVALUE, arg2)
    else
      let (c3, arg3) ← identifier_constant h c2 name
      some (c3, OP_GET_GLOBAL, OP_SET_GLOBAL, (arg3 : Int))

/-- The parameter loop of `function` (a `do ... while`). -/
def function_params (h : host) : Nat → compile_state → Option compile_state
  | 0, _ => none
  | n + 1, c => do
    let k ← c.current.head?
    let o ← c.vm.heap k.func
    match o.payload with
    | obj_payload.obj_func arity upvalue_count chk name =>
      let c1 := { c with
        vm := { c.vm with
                heap := Function.update c.vm.heap k.func
                  (some { o with
                          payload := obj_payload.obj_func (arity + 1) upvalue_count chk name }) } }
      let c2 ←
        if arity + 1 > 255 then
          match name with
          | none => none
          | some s =>
            match string_data c1.vm.heap s with
            | none => none
            | some data =>
              some (error_at_current c1
                (bytes_of "Function %s cannot have more than 255 parameters") [data])
        else some c1
      let (c3, constant) ← parse_variable h c2 (bytes_of "Expected parameter name")
      let c4 ← define_variable h c3 constant
      let (c5, more) ← match_ h c4 TOKEN_COMMA
      if more then function_params h n c5 else some c5
    | _ => none

/-- The loop of `function` that emits the upvalue descriptors of the
compiler that has been left. -/
def emit_upvalues (h : host) (upvalues : List upvalue) :
    Nat → Nat → compile_state → Option compile_state
  | 0, _, c => some c
  | n + 1, i, c => do
    let u ← upvalues[i]?
    let c1 ← emit_byte h c (if u.is_local then 1 else 0)
    let c2 ← emit_byte h c1 u.index
    emit_upvalues h upvalues n (i + 1) c2

/-- The loop of `synchronize`. -/
def synchronize_loop (h : host) : Nat → compile_state → Option compile_state
  | 0, _ => none
  | n + 1, c =>
    if c.parser.current.type ≠ TOKEN_EOF then
      if c.parser.previous.type = TOKEN_SEMICOLON then some c
      else
        match c.parser.current.type with
        | TOKEN_CLASS | TOKEN_FUN | TOKEN_VAR | TOKEN_FOR | TOKEN_IF | TOKEN_WHILE
        | TOKEN_PRINT | TOKEN_RETURN => some c
        | _ =>
          match advance h c with
          | none => none
          | some c1 => synchronize_loop h n c1
    else some c

/-- Function `synchronize`. -/
def synchronize (h : host) (c : compile_state) : Option compile_state :=
  synchronize_loop h h.fuel { c with parser := { c.parser with panic_mode := false } }
/-! ### The recursive descent

The functions of compiler.c that call each other recursively.  The first
argument after `h` bounds the depth of the calls. -/

set_option maxHeartbeats 4000000 in
mutual

/-- Function `expression`. -/
def expression (h : host) : Nat → compile_state → Option compile_state
  | 0, _ => none
  | n + 1, c => parse_precedence h n c PREC_ASG

/-- Function `parse_precedence`. -/
def parse_precedence (h : host) : Nat → compile_state → Nat → Option compile_state
  | 0, _, _ => none
  | n + 1, c, prec => do
    let c1 ← advance h c
    match (get_rule c1.parser.previous.type).prefix_fn with
    | none => some (error c1 (bytes_of "Expected expression") [])
    | some prefix_rule =>
      let can_assign := decide (prec ≤ PREC_ASG)
      let c2 ← apply_rule h n c1 prefix_rule can_assign
      let c3 ← infix_rules h n c2 prec can_assign
      if can_assign then
        let (c4, found) ← match_ h c3 TOKEN_EQUAL
        if found then some (error c4 (bytes_of "Invalid assignment target") []) else some c4
      else some c3

/-- The loop of `parse_precedence` over the infix rules; calling a rule that
is `NULL` is undefined. -/
def infix_rules (h : host) : Nat → compile_state → Nat → Bool → Option compile_state
  | 0, _, _, _ => none
  | n + 1, c, prec, can_assign =>
    if prec ≤ (get_rule c.parser.current.type).prec then do
      let c1 ← advance h c
      match (get_rule c1.parser.previous.type).infix_fn with
      | none => none
      | some infix_rule =>
        let c2 ← apply_rule h n c1 infix_rule can_assign
        infix_rules h n c2 prec can_assign
    else some c

/-- The call of a rule function through its pointer. -/
def apply_rule (h : host) : Nat → compile_state → parse_fn → Bool → Option compile_state
  | 0, _, _, _ => none
  | n + 1, c, f, can_assign =>
    match f with
    | parse_fn.and_ => and_ h n c
    | parse_fn.binary => binary h n c
    | parse_fn.call => compiler.call h n c
    | parse_fn.dot => dot h n c can_assign
    | parse_fn.grouping => grouping h n c
    | parse_fn.literal => literal h c
    | parse_fn.number => compiler.number h c
    | parse_fn.or_ => or_ h n c
    | parse_fn.string => compiler.string h c
    | parse_fn.this_ => this_ h n c
    | parse_fn.unary => unary h n c
    | parse_fn.variable => variable_ h n c can_assign

/-- Function `binary`. -/
def binary (h : host) : Nat → compile_state → Option compile_state
  | 0, _ => none
  | n + 1, c => do
    let op_type := c.parser.previous.type
    let rule := get_rule op_type
    let c1 ← parse_precedence h n c (rule.prec + 1)
    binary_emit h c1 op_type

/-- The `do ... while` loop of `argument_list`; `argc` is a `uint8`. -/
def arguments (h : host) : Nat → compile_state → Nat → Option (compile_state × Nat)
  | 0, _, _ => none
  | n + 1, c, argc => do
    let c1 ← expression h n c
    let c2 := if argc = 255 then
        error c1 (bytes_of "Function cannot have more than 255 arguments") [] else c1
    let (c3, more) ← match_ h c2 TOKEN_COMMA
    if more then arguments h n c3 ((argc + 1) % 256) else some (c3, (argc + 1) % 256)

/-- Function `argument_list`. -/
def argument_list (h : host) : Nat → compile_state → Option (compile_state × Nat)
  | 0, _ => none
  | n + 1, c => do
    let (c1, argc) ← if !check c TOKEN_RIGHT_PAREN then arguments h n c 0 else some (c, 0)
    let c2 ← consume h c1 TOKEN_RIGHT_PAREN (bytes_of "Expected \x27)\x27 after argument list")
    some (c2, argc)

/-- Function `call` of compiler.c. -/
def compiler.call (h : host) : Nat → compile_state → Option compile_state
  | 0, _ => none
  | n + 1, c => do
    let (c1, argc) ← argument_list h n c
    emit_bytes h c1 OP_CALL argc

/-- Function `dot`. -/
def dot (h : host) : Nat → compile_state → Bool → Option compile_state
  | 0, _, _ => none
  | n + 1, c, can_assign => do
    let c1 ← consume h c TOKEN_IDENTIFIER
      (bytes_of "Expected property name to follow \x60.\x60")
    let (c2, name) ← identifier_constant h c1 c1.parser.previous
    let (c3, assign) ← if can_assign then match_ h c2 TOKEN_EQUAL else some (c2, false)
    if assign then
      let c4 ← expression h n c3
      emit_bytes h c4 OP_SET_PROPERTY name
    else emit_bytes h c3 OP_GET_PROPERTY name

/-- Function `grouping`. -/
def grouping (h : host) : Nat → compile_state → Option compile_state
  | 0, _ => none
  | n + 1, c => do
    let c1 ← expression h n c
    consume h c1 TOKEN_RIGHT_PAREN (bytes_of "Expected \x27)\x27 to end parentheses")

/-- Function `and_`. -/
def and_ (h : host) : Nat → compile_state → Option compile_state
  | 0, _ => none
  | n + 1, c => do
    let (c1, end_jump) ← emit_jump h c OP_JUMP_IF_FALSE
    let c2 ← emit_byte h c1 OP_POP
    let c3 ← parse_precedence h n c2 PREC_AND
    patch_jump c3 end_jump

/-- Function `or_`. -/
def or_ (h : host) : Nat → compile_state → Option compile_state
  | 0, _ => none
  | n + 1, c => do
    let (c1, else_jump) ← emit_jump h c OP_JUMP_IF_FALSE
    let (c2, end_jump) ← emit_jump h c1 OP_JUMP
    let c3 ← patch_jump c2 else_jump
    let c4 ← emit_byte h c3 OP_POP
    let c5 ← parse_precedence h n c4 PREC_OR
    patch_jump c5 end_jump

/-- Function `named_variable`; the operand is converted to `uint8`. -/
def named_variable (h : host) : Nat → compile_state → token → Bool → Option compile_state
  | 0, _, _, _ => none
  | n + 1, c, name, can_assign => do
    let (c1, get_op, set_op, arg) ← resolve_variable h c name
    let (c2, assign) ← if can_assign then match_ h c1 TOKEN_EQUAL else some (c1, false)
    if assign then
      let c3 ← expression h n c2
      emit_bytes h c3 set_op (arg.toNat % 256)
    else emit_bytes h c2 get_op (arg.toNat % 256)

/-- Function `variable`. -/
def variable_ (h : host) : Nat → compile_state → Bool → Option compile_state
  | 0, _, _ => none
  | n + 1, c, can_assign => named_variable h n c c.parser.previous can_assign

/-- Function `this_`. -/
def this_ (h : host) : Nat → compile_state → Option compile_state
  | 0, _ => none
  | n + 1, c =>
    if c.current_class = 0 then
      some (error c (bytes_of "\x60this\x60 reference outside of class body") [])
    else variable_ h n c false

/-- Function `unary`. -/
def unary (h : host) : Nat → compile_state → Option compile_state
  | 0, _ => none
  | n + 1, c => do
    let op_type := c.parser.previous.type
    let c1 ← parse_precedence h n c PREC_UNARY
    unary_emit h c1 op_type

/-- The loop of `block`. -/
def block_declarations (h : host) : Nat → compile_state → Option compile_state
  | 0, _ => none
  | n + 1, c =>
    if !check c TOKEN_RIGHT_BRACE && !check c TOKEN_EOF then do
      let c1 ← declaration h n c
      block_declarations h n c1
    else some c

/-- Function `block`. -/
def block (h : host) : Nat → compile_state → Option compile_state
  | 0, _ => none
  | n + 1, c => do
    let c1 ← block_declarations h n c
    consume h c1 TOKEN_RIGHT_BRACE (bytes_of "Expected \x27\x7d\x27 to end a block")

/-- Function `function`. -/
def function (h : host) : Nat → compile_state → func_type → Option compile_state
  | 0, _, _ => none
  | n + 1, c, type => do
    let c1 ← init_compiler h c type
    let c2 ← begin_scope c1
    let c3 ← consume h c2 TOKEN_LEFT_PAREN
      (bytes_of "Expected \x27(\x27 after a function name")
    let c4 ← if !check c3 TOKEN_RIGHT_PAREN then function_params h h.fuel c3 else some c3
    let c5 ← consume h c4 TOKEN_RIGHT_PAREN
      (bytes_of "Expected \x27)\x27 to end a parameter list")
    let c6 ← consume h c5 TOKEN_LEFT_BRACE
      (bytes_of "Expected \x27\x7b\x27 for a function body")
    let c7 ← block h n c6
    let (c8, func, compiler) ← end_compiler h c7
    let (c9, constant) ← make_constant h c8 (value.obj func)
    let c10 ← emit_bytes h c9 OP_CLOSURE constant
    let upvalue_count ← func_upvalue_count c10.vm func
    emit_upvalues h compiler.upvalues upvalue_count 0 c10

/-- Function `method`. -/
def method (h : host) : Nat → compile_state → Option compile_state
  | 0, _ => none
  | n + 1, c => do
    let c1 ← consume h c TOKEN_IDENTIFIER (bytes_of "Expected method name")
    let (c2, constant) ← identifier_constant h c1 c1.parser.previous
    let ftype := if c2.parser.previous.len = 4 ∧
        c2.parser.previous.start.take 4 = bytes_of "init" then FTYPE_INITIALIZER
      else FTYPE_METHOD
    let c3 ← function h n c2 ftype
    emit_bytes h c3 OP_METHOD constant

/-- The loop of `class_declaration` over the methods. -/
def class_methods (h : host) : Nat → compile_state → Option compile_state
  | 0, _ => none
  | n + 1, c =>
    if !check c TOKEN_RIGHT_BRACE && !check c TOKEN_EOF then do
      let c1 ← method h n c
      class_methods h n c1
    else some c

/-- Function `class_declaration`. -/
def class_declaration (h : host) : Nat → compile_state → Option compile_state
  | 0, _ => none
  | n + 1, c => do
    let c1 ← consume h c TOKEN_IDENTIFIER (bytes_of "Expected class name")
    let class_name := c1.parser.previous
    let (c2, name_const) ← identifier_constant h c1 c1.parser.previous
    let c3 ← declare_variable c2
    let c4 ← emit_bytes h c3 OP_CLASS name_const
    let c5 ← define_variable h c4 name_const
    let c6 := { c5 with current_class := c5.current_class + 1 }
    let c7 ← named_variable h n c6 class_name false
    let c8 ← consume h c7 TOKEN_LEFT_BRACE (bytes_of "Expected \x27\x7b\x27 before class body")
    let c9 ← class_methods h n c8
    let c10 ← consume h c9 TOKEN_RIGHT_BRACE
      (bytes_of "Expected \x27\x7d\x27 to end class body")
    let c11 ← emit_byte h c10 OP_POP
    some { c11 with current_class := c11.current_class - 1 }

/-- Function `fun_declaration`. -/
def fun_declaration (h : host) : Nat → compile_state → Option compile_state
  | 0, _ => none
  | n + 1, c => do
    let (c1, global) ← parse_variable h c (bytes_of "Expected function name")
    let c2 ← mark_initialized c1
    let c3 ← function h n c2 FTYPE_FUNC
    define_variable h c3 global

/-- Function `var_declaration`. -/
def var_declaration (h : host) : Nat → compile_state → Option compile_state
  | 0, _ => none
  | n + 1, c => do
    let (c1, global) ← parse_variable h c (bytes_of "Expected variable name")
    let (c2, init) ← match_ h c1 TOKEN_EQUAL
    let c3 ← if init then expression h n c2 else emit_byte h c2 OP_NIL
    let c4 ← consume h c3 TOKEN_SEMICOLON (bytes_of "Expected \x27;\x27 to end a statement")
    define_variable h c4 global

/-- Function `expression_statement`. -/
def expression_statement (h : host) : Nat → compile_state → Option compile_state
  | 0, _ => none
  | n + 1, c => do
    let c1 ← expression h n c
    let c2 ← consume h c1 TOKEN_SEMICOLON (bytes_of "Expected \x27;\x27 to end a statement")
    emit_byte h c2 OP_POP

/-- Function `if_statement`. -/
def if_statement (h : host) : Nat → compile_state → Option compile_state
  | 0, _ => none
  | n + 1, c => do
    let c1 ← consume h c TOKEN_LEFT_PAREN (bytes_of "Expected \x27(\x27 after \x60if\x60")
    let c2 ← expression h n c1
    let c3 ← consume h c2 TOKEN_RIGHT_PAREN
      (bytes_of "Expected \x27)\x27 to end if condition")
    let (c4, then_jump) ← emit_jump h c3 OP_JUMP_IF_FALSE
    let c5 ← emit_byte h c4 OP_POP
    let c6 ← statement h n c5
    let (c7, else_jump) ← emit_jump h c6 OP_JUMP
    let c8 ← patch_jump c7 then_jump
    let c9 ← emit_byte h c8 OP_POP
    let (c10, has_else) ← match_ h c9 TOKEN_ELSE
    let c11 ← if has_else then statement h n c10 else some c10
    patch_jump c11 else_jump

/-- Function `print_statement`. -/
def print_statement (h : host) : Nat → compile_state → Option compile_state
  | 0, _ => none
  | n + 1, c => do
    let c1 ← expression h n c
    let c2 ← consume h c1 TOKEN_SEMICOLON (bytes_of "Expected \x27;\x27 to end a statement")
    emit_byte h c2 OP_PRINT

/-- Function `return_statement`. -/
def return_statement (h : host) : Nat → compile_state → Option compile_state
  | 0, _ => none
  | n + 1, c => do
    let k ← c.current.head?
    let c1 := if k.ftype = FTYPE_SCRIPT then
        error c (bytes_of "Return outside of function") [] else c
    let (c2, bare) ← match_ h c1 TOKEN_SEMICOLON
    if bare then implicit_return h c2
    else
      let c3 := if k.ftype = FTYPE_INITIALIZER then
          error c2 (bytes_of "Illegal return in initializer") [] else c2
      let c4 ← expression h n c3
      let c5 ← consume h c4 TOKEN_SEMICOLON (bytes_of "Expected \x27;\x27 to end a statement")
      emit_byte h c5 OP_RETURN

/-- Function `while_statement`. -/
def while_statement (h : host) : Nat → compile_state → Option compile_state
  | 0, _ => none
  | n + 1, c => do
    let chk ← current_chunk c
    let loop_start := int32_of chk.count
    let c1 ← consume h c TOKEN_LEFT_PAREN (bytes_of "Expected \x27(\x27 after \x60while\x60")
    let c2 ← expression h n c1
    let c3 ← consume h c2 TOKEN_RIGHT_PAREN
      (bytes_of "Expected \x27)\x27 to end while condition")
    let (c4, exit_jump) ← emit_jump h c3 OP_JUMP_IF_FALSE
    let c5 ← emit_byte h c4 OP_POP
    let c6 ← statement h n c5
    let c7 ← emit_loop h c6 loop_start
    let c8 ← patch_jump c7 exit_jump
    emit_byte h c8 OP_POP

/-- Function `for_statement`. -/
def for_statement (h : host) : Nat → compile_state → Option compile_state
  | 0, _ => none
  | n + 1, c => do
    let c1 ← begin_scope c
    let c2 ← consume h c1 TOKEN_LEFT_PAREN (bytes_of "Expected \x27(\x27 after \x60for\x60")
    let (c3, is_var) ← match_ h c2 TOKEN_VAR
    let c5 ←
      if is_var then var_declaration h n c3
      else do
        let (c4, empty) ← match_ h c3 TOKEN_SEMICOLON
        if !empty then expression_statement h n c4 else some c4
    let chk ← current_chunk c5
    let loop_start := int32_of chk.count
    let (c6, no_cond) ← match_ h c5 TOKEN_SEMICOLON
    let (c10, exit_jump) ←
      if !no_cond then do
        let c7 ← expression h n c6
        let c8 ← consume h c7 TOKEN_SEMICOLON
          (bytes_of "Expected \x27;\x27 after for loop condition")
        let (c9, j) ← emit_jump h c8 OP_JUMP_IF_FALSE
        let c10 ← emit_byte h c9 OP_POP
        some (c10, j)
      else some (c6, -1)
    let (c11, no_incr) ← match_ h c10 TOKEN_RIGHT_PAREN
    let (c17, loop_start2) ←
      if !no_incr then do
        let (c12, body_jump) ← emit_jump h c11 OP_JUMP
        let chk12 ← current_chunk c12
        let increment_start := int32_of chk12.count
        let c13 ← expression h n c12
        let c14 ← emit_byte h c13 OP_POP
        let c15 ← consume h c14 TOKEN_RIGHT_PAREN
          (bytes_of "Expected \x27)\x27 after for loop clauses")
        let c16 ← emit_loop h c15 loop_start
        let c17 ← patch_jump c16 body_jump
        some (c17, increment_start)
      else some (c11, loop_start)
    let c18 ← statement h n c17
    let c19 ← emit_loop h c18 loop_start2
    let c21 ←
      if exit_jump ≠ -1 then do
        let c20 ← patch_jump c19 exit_jump
        emit_byte h c20 OP_POP
      else some c19
    end_scope h c21

/-- Function `declaration`. -/
def declaration (h : host) : Nat → compile_state → Option compile_state
  | 0, _ => none
  | n + 1, c => do
    let (c1, is_class) ← match_ h c TOKEN_CLASS
    let c5 ←
      if is_class then class_declaration h n c1
      else do
        let (c2, is_var) ← match_ h c1 TOKEN_VAR
        if is_var then var_declaration h n c2
        else do
          let (c3, is_fun) ← match_ h c2 TOKEN_FUN
          if is_fun then fun_declaration h n c3 else statement h n c3
    if c5.parser.panic_mode then synchronize h c5 else some c5

/-- Function `statement`. -/
def statement (h : host) : Nat → compile_state → Option compile_state
  | 0, _ => none
  | n + 1, c => do
    let (c1, is_print) ← match_ h c TOKEN_PRINT
    if is_print then print_statement h n c1
    else
      let (c2, is_block) ← match_ h c1 TOKEN_LEFT_BRACE
      if is_block then
        let c3 ← begin_scope c2
        let c4 ← block h n c3
        end_scope h c4
      else
        let (c3, is_while) ← match_ h c2 TOKEN_WHILE
        if is_while then while_statement h n c3
        else
          let (c4, is_for) ← match_ h c3 TOKEN_FOR
          if is_for then for_statement h n c4
          else
            let (c5, is_if) ← match_ h c4 TOKEN_IF
            if is_if then if_statement h n c5
            else
              let (c6, is_return) ← match_ h c5 TOKEN_RETURN
              if is_return then return_statement h n c6
              else expression_statement h n c6

end

/-- The loop `while (!match (TOKEN_EOF)) declaration ();` of `compile`. -/
def compile_declarations (h : host) : Nat → compile_state → Option compile_state
  | 0, _ => none
  | n + 1, c => do
    let (c1, at_end) ← match_ h c TOKEN_EOF
    if at_end then some c1
    else
      let c2 ← declaration h n c1
      compile_declarations h n c2

/-- Function `compile`; `steps` bounds the depth of the recursive descent and
the number of declarations.  The result carries the returned function,
`none` for `NULL`. -/
def compile (h : host) (steps : Nat) (c : compile_state) (source : List Nat) :
    Option (compile_state × Option Nat) := do
  let c1 ← init_compiler h { c with scanner := init_scanner source } FTYPE_SCRIPT
  let c2 := { c1 with parser := { c1.parser with had_error := false, panic_mode := false } }
  let c3 ← advance h c2
  let c4 ← compile_declarations h steps c3
  let (c5, func, _) ← end_compiler h c4
  some (c5, if c5.parser.had_error then none else some func)

/-! ## vm.c: `init_vm` and `interpret` -/

/-- Function `define_native`; `callback` identifies the C function. -/
def define_native (h : host) (vm : VM) (name : List Nat) (callback : Nat) : Option VM := do
  let (vm1, s) ← copy_string h.sz h.fuel vm name (h.fresh vm.heap)
  let vm2 ← push vm1 (value.obj s)
  let (vm3, native) ← new_native h.sz h.fuel vm2 callback (h.fresh vm2.heap)
  let vm4 ← push vm3 (value.obj native)
  match vm4.stack 0 with
  | value.obj key =>
    let (vm5, _) ← vm_set_table h.sz h.fuel vm4 table_loc.globals key (vm4.stack 1)
    let (vm6, _) ← pop vm5
    let (vm7, _) ← pop vm6
    some vm7
  | _ => none

/-- Function `register_natives`; the native `clock` is callback 0. -/
def register_natives (h : host) (vm : VM) : Option VM :=
  define_native h vm (bytes_of "clock") 0

/-- Function `init_vm`. -/
def init_vm (h : host) (vm : VM) : Option VM := do
  let vm1 := { reset_stack vm with
    objects := none, gray_capacity := 0, gray_stack := [], heap_size := 0,
    gc_treshold := 1024 * 1024, strings := init_table, init_string := none }
  let (vm2, init) ← copy_string h.sz h.fuel vm1 (bytes_of "init") (h.fresh vm1.heap)
  register_natives h { vm2 with init_string := some init, globals := init_table }

/-- Function `interpret`. -/
def interpret (h : host) (native : Nat → Nat → List value → value) (steps : Nat)
    (c : compile_state) (source : List Nat) : Option (compile_state × interpret_result) := do
  let (c1, func) ← compile h steps c source
  match func with
  | none => some (c1, interpret_result.INTERPRET_COMPILE_ERROR)
  | some f =>
    let vm1 ← push c1.vm (value.obj f)
    let (vm2, closure) ← new_closure h.sz h.fuel vm1 f (h.fresh vm1.heap)
    let (vm3, _) ← pop vm2
    let vm4 ← push vm3 (value.obj closure)
    let (vm5, _) ← call vm4 closure 0
    let (vm6, result) ← run h.sz h.fp h.fuel native h.fresh steps vm5
    some ({ c1 with vm := vm6 }, result)
/-! ### Notions used by the statements about values, calls and upvalues -/

/-- The field `type` of a value, by its number in the enum `value_type`. -/
def value_type_of : value → Nat
  | value.bool _ => 0
  | value.nil => 1
  | value.number _ => 2
  | value.obj _ => 3

/-- The stack slots the upvalue objects `ups` point at, when all of them are
open upvalues. -/
def open_locations (heap : Nat → Option obj) : List Nat → Option (List Nat)
  | [] => some []
  | u :: us =>
    match upvalue_slot heap u, open_locations heap us with
    | some s, some ss => some (s :: ss)
    | _, _ => none

/-- The open-upvalue list of the VM visits the upvalue objects `ups`, which
are open and point at the stack slots `locs`, in this order. -/
structure open_list (vm : VM) (ups locs : List Nat) : Prop where
  linked : is_upvalue_list vm.heap vm.open_upvalues ups
  located : open_locations vm.heap ups = some locs

/-- The value a table holds for a key: that of the first slot with the key. -/
def table_lookup (tab : table) (key : Nat) : Option value :=
  (tab.entries.find? (fun e => e.key == some key)).map (fun e => e.val)

/-- The state after one turn of the loop of `close_upvalues`. -/
def closed_one (vm : VM) (u : Nat) (o : obj) (s : Nat) (next : Option Nat) : VM :=
  { vm with
    heap := Function.update vm.heap u
      (some { o with payload := obj_payload.obj_upvalue none (vm.stack s) next }),
    open_upvalues := next }

/-- The instance object `new_instance` initialises: no fields. -/
def instance_obj (next : Option Nat) (klass : Nat) : obj :=
  { marked := false, next := next, payload := obj_payload.obj_instance (some klass) init_table }

/-- The state after `new_instance` has linked the instance `a` of the class
`klass` and `call_value` has stored it in the slot of the callee. -/
def with_instance (vm1 : VM) (klass a argc : Nat) : VM :=
  { vm1 with
    heap := Function.update vm1.heap a (some (instance_obj vm1.objects klass)),
    objects := some a,
    stack := Function.update vm1.stack (vm1.stack_top - argc - 1) (value.obj a) }

/-- The state after `concatenate` has popped its two operands. -/
def operands_popped (vm2 : VM) : VM :=
  { vm2 with stack_top := vm2.stack_top - 1 - 1 }

/-- The state after `concatenate` has popped its two operands and pushed the
string `r`. -/
def result_pushed (vm2 : VM) (r : Nat) : VM :=
  { vm2 with
    stack := Function.update vm2.stack (vm2.stack_top - 1 - 1) (value.obj r),
    stack_top := vm2.stack_top - 1 - 1 + 1 }

/-- What a rewrite of upvalue objects does to one heap cell: nothing, or the
cell holds an upvalue whose fields are replaced, the new closed value being a
valid pointer if it is one. -/
def upvalue_rewrite (vm vm' : VM) (x : Nat) : Prop :=
  vm'.heap x = vm.heap x ∨
    ∃ (o : obj) (loc : Option Nat) (cl : value) (nx : Option Nat) (loc' : Option Nat)
      (cl' : value) (nx' : Option Nat),
      vm.heap x = some o ∧ o.payload = obj_payload.obj_upvalue loc cl nx ∧
      vm'.heap x = some { o with payload := obj_payload.obj_upvalue loc' cl' nx' } ∧
      ∀ b, value_ptr cl' = some b → vm.heap b ≠ none

/-- The state after `allocate_object` has linked the new object `a`. -/
def with_object (vm1 : VM) (a : Nat) (payload : obj_payload) : VM :=
  { vm1 with
    heap := Function.update vm1.heap a
      (some { marked := false, next := vm1.objects, payload := payload }),
    objects := some a }

/-- The invariant of the open-upvalue list on top of the intern invariant:
the list visits the upvalues `ups`, they are open and point at the stack
slots `locs`, which are strictly decreasing and below `stack_top`. -/
structure upvalue_inv (vm : VM) (l ups locs : List Nat) (n : Nat) : Prop where
  inv : intern_inv vm l ups n
  located : open_locations vm.heap ups = some locs
  sorted : locs.Pairwise (fun a b => a > b)
  bound : ∀ s ∈ locs, s < vm.stack_top

/-- The last statements of `capture_upvalue`: the created upvalue is linked
behind `prev_upvalue`, or becomes the head of the list. -/
def link_upvalue (vm1 : VM) (prev_upvalue : Option Nat) (created : Nat) : Option (VM × Nat) :=
  match prev_upvalue with
  | none => some ({ vm1 with open_upvalues := some created }, created)
  | some p =>
    match vm1.heap p with
    | none => none
    | some po =>
      match po.payload with
      | obj_payload.obj_upvalue location closed _ =>
        some ({ vm1 with
                heap := Function.update vm1.heap p
                  (some { po with
                          payload := obj_payload.obj_upvalue location closed
                            (some created) }) }, created)
      | _ => none

/-- The upvalue `capture_upvalue` returns when the loop has stopped at
`upvalue`: that one if it is for the slot `local_`. -/
def found_upvalue (heap : Nat → Option obj) (local_ : Nat) (upvalue : Option Nat) : Option Nat :=
  match upvalue with
  | some u => if upvalue_slot heap u = some local_ then some u else none
  | none => none

/-- A call the VM makes on the open-upvalue list: `capture_upvalue` on the
stack slot `local_` (`a` is the address the allocator returns if an upvalue is
created), or `close_upvalues` with the stack slot `last`. -/
inductive upvalue_call where
  | capture (local_ : Nat) (a : Nat)
  | close (last : Nat)
  deriving DecidableEq

/-- Run a sequence of `capture_upvalue` / `close_upvalues` calls. -/
def run_upvalue_calls (sz : sizeofs) (fuel : Nat) : VM → List upvalue_call → Option VM
  | vm, [] => some vm
  | vm, upvalue_call.capture local_ a :: calls =>
    match capture_upvalue sz fuel vm local_ a with
    | none => none
    | some (vm1, _) => run_upvalue_calls sz fuel vm1 calls
  | vm, upvalue_call.close last :: calls =>
    match close_upvalues fuel vm last with
    | none => none
    | some vm1 => run_upvalue_calls sz fuel vm1 calls

/-- The addresses the allocator has ready for the `capture_upvalue` calls. -/
def capture_addresses : List upvalue_call → List Nat
  | [] => []
  | upvalue_call.capture _ a :: calls => a :: capture_addresses calls
  | upvalue_call.close _ :: calls => capture_addresses calls

/-- The stack slots the `capture_upvalue` calls are made on. -/
def capture_slots : List upvalue_call → List Nat
  | [] => []
  | upvalue_call.capture local_ _ :: calls => local_ :: capture_slots calls
  | upvalue_call.close _ :: calls => capture_slots calls

/-- The upvalue object the closure of a frame holds in `upvalues[slot]`. -/
def frame_handle (vm : VM) (frame slot : Nat) : Option Nat :=
  match vm.heap (vm.frames frame).closure with
  | none => none
  | some oc =>
    match oc.payload with
    | obj_payload.obj_closure _ ups =>
      match ups[slot]? with
      | some (some u) => some u
      | _ => none
    | _ => none

/-- The value `*upvalue->location` of the upvalue object `u`: the stack slot
it points at while it is open, its field `closed` afterwards. -/
def upvalue_value (vm : VM) (u : Nat) : Option value :=
  match vm.heap u with
  | none => none
  | some o =>
    match o.payload with
    | obj_payload.obj_upvalue (some s) _ _ => some (vm.stack s)
    | obj_payload.obj_upvalue none closed _ => some closed
    | _ => none

/-- The allocator returns a free address, next to the objects in use, in
every heap whose objects lie at addresses up to some `N` below `M`. -/
def allocator_ok (fresh : (Nat → Option obj) → Nat) (M : Nat) : Prop :=
  ∀ (h : Nat → Option obj) (N : Nat), N < M → (∀ x, h x ≠ none → x ≤ N) →
    h (fresh h) = none ∧ fresh h ≤ N + 1

/-- Every object of the heap lies at an address up to `N`. -/
def heap_below (vm : VM) (N : Nat) : Prop :=
  ∀ x, vm.heap x ≠ none → x ≤ N

/-- The payload of the object at `x`. -/
def payload_at (heap : Nat → Option obj) (x : Nat) : Option obj_payload :=
  (heap x).map (fun o => o.payload)

/-- What a rewrite of object fields does to one heap cell: nothing, or the
cell holds an object that is not a string whose payload is replaced by one
with valid pointers. -/
def cell_rewrite (vm vm' : VM) (x : Nat) : Prop :=
  vm'.heap x = vm.heap x ∨
    ∃ (o : obj) (pl : obj_payload),
      vm.heap x = some o ∧ vm'.heap x = some { o with payload := pl } ∧
      (∀ d h, o.payload ≠ obj_payload.obj_string d h) ∧
      ∀ b, some b ∈ obj_edges pl → vm.heap b ≠ none

/-- The upvalue descriptors that follow the operand of `OP_CLOSURE`: the
pairs of bytes `is_local`, `index` in the code from the offset `ip` on. -/
def descriptors_at (code : List Nat) : Nat → List (Nat × Nat) → Prop
  | _, [] => True
  | ip, d :: ds =>
    code[ip]? = some d.1 ∧ code[ip + 1]? = some d.2 ∧ descriptors_at code (ip + 2) ds

/-- The upvalue object the closure `c` holds in `upvalues[j]`. -/
def closure_handle (heap : Nat → Option obj) (c j : Nat) : Option Nat :=
  match heap c with
  | none => none
  | some oc =>
    match oc.payload with
    | obj_payload.obj_closure _ ups =>
      match ups[j]? with
      | some (some u) => some u
      | _ => none
    | _ => none

/-- The state after an assignment to fields of the object `o` at `c`. -/
def set_payload (vm : VM) (c : Nat) (o : obj) (pl : obj_payload) : VM :=
  { vm with heap := Function.update vm.heap c (some { o with payload := pl }) }

/-- The state after `push`. -/
def pushed (vm : VM) (v : value) : VM :=
  { vm with stack := Function.update vm.stack vm.stack_top v, stack_top := vm.stack_top + 1 }

/-- What the loop of `OP_CLOSURE` relies on in the frame it runs in: the
frame is live, its closure is for the function `ff` whose chunk is `chk`, and
the closure `c` under construction is another object, on top of the stack. -/
structure closure_frame (vm : VM) (frame c ff : Nat) (pups : List (Option Nat))
    (chk : chunk) : Prop where
  live : frame < vm.frame_count
  closure : payload_at vm.heap (vm.frames frame).closure
    = some (obj_payload.obj_closure (some ff) pups)
  func : ∃ ar uc nm, payload_at vm.heap ff = some (obj_payload.obj_func ar uc chk nm)
  top : 0 < vm.stack_top
  pushed : vm.stack (vm.stack_top - 1) = value.obj c
  other : c ≠ (vm.frames frame).closure

/-- The upvalue a descriptor of `OP_CLOSURE` stands for: the captured local
`frame->slots + index`, or `frame->closure->upvalues[index]`. -/
def descriptor_upvalue (sz : sizeofs) (fuel : Nat) (fresh : (Nat → Option obj) → Nat)
    (frame : Nat) (vm2 : VM) (is_local index : Nat) : Option (VM × Option Nat) :=
  if is_local ≠ 0 then
    match capture_upvalue sz fuel vm2 ((vm2.frames frame).slots + index)
        (fresh vm2.heap) with
    | none => none
    | some (vm3, u) => some (vm3, some u)
  else
    match vm2.heap (vm2.frames frame).closure with
    | none => none
    | some oc =>
      match oc.payload with
      | obj_payload.obj_closure _ ups =>
        match ups[index]? with
        | none => none
        | some u => some (vm2, u)
      | _ => none

/-- The assignment `closure->upvalues[i] = u` of the loop of `OP_CLOSURE`. -/
def store_upvalue (vm3 : VM) (closure i : Nat) (u : Option Nat) : Option VM :=
  match vm3.heap closure with
  | none => none
  | some o =>
    match o.payload with
    | obj_payload.obj_closure func ups =>
      some (set_payload vm3 closure o (obj_payload.obj_closure func (ups.set i u)))
    | _ => none
/-- The token kind the specification gives a lexeme of letters, digits and
underscores: the kind of the keyword if it is one of the sixteen keywords,
`TOKEN_IDENTIFIER` if it is none. -/
def keyword_type (w : List Nat) : token_type :=
  if w = bytes_of "and" then TOKEN_AND
  else if w = bytes_of "class" then TOKEN_CLASS
  else if w = bytes_of "else" then TOKEN_ELSE
  else if w = bytes_of "false" then TOKEN_FALSE
  else if w = bytes_of "for" then TOKEN_FOR
  else if w = bytes_of "fun" then TOKEN_FUN
  else if w = bytes_of "if" then TOKEN_IF
  else if w = bytes_of "nil" then TOKEN_NIL
  else if w = bytes_of "or" then TOKEN_OR
  else if w = bytes_of "print" then TOKEN_PRINT
  else if w = bytes_of "return" then TOKEN_RETURN
  else if w = bytes_of "super" then TOKEN_SUPER
  else if w = bytes_of "this" then TOKEN_THIS
  else if w = bytes_of "true" then TOKEN_TRUE
  else if w = bytes_of "var" then TOKEN_VAR
  else if w = bytes_of "while" then TOKEN_WHILE
  else TOKEN_IDENTIFIER

/-- The sixteen keywords. -/
def keywords : List (List Nat) :=
  [bytes_of "and", bytes_of "class", bytes_of "else", bytes_of "false", bytes_of "for",
   bytes_of "fun", bytes_of "if", bytes_of "nil", bytes_of "or", bytes_of "print",
   bytes_of "return", bytes_of "super", bytes_of "this", bytes_of "true", bytes_of "var",
   bytes_of "while"]

/-- The test `is_alpha (c) || is_digit (c)` of the loop of `identifier`. -/
def is_alnum (c : Nat) : Bool :=
  is_alpha c || is_digit c

/-- What a run of compiler code from `c` to `c1` does to the error state:
standard error has grown by the reports `ds`, `had_error` is set afterwards
iff it was set before or something has been reported, and `panic_mode` is
not set without `had_error` if it was not before. -/
def reports (c c1 : compile_state) : Prop :=
  (∃ ds, c1.stderr = c.stderr ++ ds ∧
    (c1.parser.had_error = true ↔ c.parser.had_error = true ∨ ds ≠ [])) ∧
  ((c.parser.panic_mode = true → c.parser.had_error = true) →
    c1.parser.panic_mode = true → c1.parser.had_error = true)

/-- A result of compiler code, if there is one, satisfies `reports` from `c`. -/
structure reports_opt (c : compile_state) (r : Option compile_state) : Prop where
  run : ∀ c1, r = some c1 → reports c c1

/-- A result of compiler code that comes with a value, if there is one,
satisfies `reports` from `c`. -/
structure reports_opt2 {β : Type} (c : compile_state) (r : Option (compile_state × β)) :
    Prop where
  run : ∀ c1 b, r = some (c1, b) → reports c c1

/-- Every function of the recursive descent, run with the depth bound `n`,
satisfies `reports` from the state it starts in to the state it returns. -/
structure reports_all (h : host) (n : Nat) : Prop where
  expression : ∀ (c0 c : compile_state), reports c0 c →
    reports_opt c0 (expression h n c)
  parse_precedence : ∀ (c0 c : compile_state) (prec : Nat), reports c0 c →
    reports_opt c0 (parse_precedence h n c prec)
  infix_rules : ∀ (c0 c : compile_state) (prec : Nat) (ca : Bool), reports c0 c →
    reports_opt c0 (infix_rules h n c prec ca)
  apply_rule : ∀ (c0 c : compile_state) (f : parse_fn) (ca : Bool), reports c0 c →
    reports_opt c0 (apply_rule h n c f ca)
  binary : ∀ (c0 c : compile_state), reports c0 c →
    reports_opt c0 (binary h n c)
  arguments : ∀ (c0 c : compile_state) (argc : Nat), reports c0 c →
    reports_opt2 c0 (arguments h n c argc)
  argument_list : ∀ (c0 c : compile_state), reports c0 c →
    reports_opt2 c0 (argument_list h n c)
  call : ∀ (c0 c : compile_state), reports c0 c →
    reports_opt c0 (compiler.call h n c)
  dot : ∀ (c0 c : compile_state) (ca : Bool), reports c0 c →
    reports_opt c0 (dot h n c ca)
  grouping : ∀ (c0 c : compile_state), reports c0 c →
    reports_opt c0 (grouping h n c)
  and_ : ∀ (c0 c : compile_state), reports c0 c →
    reports_opt c0 (and_ h n c)
  or_ : ∀ (c0 c : compile_state), reports c0 c →
    reports_opt c0 (or_ h n c)
  named_variable : ∀ (c0 c : compile_state) (name : token) (ca : Bool), reports c0 c →
    reports_opt c0 (named_variable h n c name ca)
  variable_ : ∀ (c0 c : compile_state) (ca : Bool), reports c0 c →
    reports_opt c0 (variable_ h n c ca)
  this_ : ∀ (c0 c : compile_state), reports c0 c →
    reports_opt c0 (this_ h n c)
  unary : ∀ (c0 c : compile_state), reports c0 c →
    reports_opt c0 (unary h n c)
  block_declarations : ∀ (c0 c : compile_state), reports c0 c →
    reports_opt c0 (block_declarations h n c)
  block : ∀ (c0 c : compile_state), reports c0 c →
    reports_opt c0 (block h n c)
  function : ∀ (c0 c : compile_state) (t : func_type), reports c0 c →
    reports_opt c0 (function h n c t)
  method : ∀ (c0 c : compile_state), reports c0 c →
    reports_opt c0 (method h n c)
  class_methods : ∀ (c0 c : compile_state), reports c0 c →
    reports_opt c0 (class_methods h n c)
  class_declaration : ∀ (c0 c : compile_state), reports c0 c →
    reports_opt c0 (class_declaration h n c)
  fun_declaration : ∀ (c0 c : compile_state), reports c0 c →
    reports_opt c0 (fun_declaration h n c)
  var_declaration : ∀ (c0 c : compile_state), reports c0 c →
    reports_opt c0 (var_declaration h n c)
  expression_statement : ∀ (c0 c : compile_state), reports c0 c →
    reports_opt c0 (expression_statement h n c)
  if_statement : ∀ (c0 c : compile_state), reports c0 c →
    reports_opt c0 (if_statement h n c)
  print_statement : ∀ (c0 c : compile_state), reports c0 c →
    reports_opt c0 (print_statement h n c)
  return_statement : ∀ (c0 c : compile_state), reports c0 c →
    reports_opt c0 (return_statement h n c)
  while_statement : ∀ (c0 c : compile_state), reports c0 c →
    reports_opt c0 (while_statement h n c)
  for_statement : ∀ (c0 c : compile_state), reports c0 c →
    reports_opt c0 (for_statement h n c)
  declaration : ∀ (c0 c : compile_state), reports c0 c →
    reports_opt c0 (declaration h n c)
  statement : ∀ (c0 c : compile_state), reports c0 c →
    reports_opt c0 (statement h n c)
/-- The arrays of the chunk hold exactly the elements counted: `count` bytes
of code with their lines, and `consts.count` constants. -/
def chunk_ok (chk : chunk) : Prop :=
  chk.code.length = chk.count ∧ chk.lines.length = chk.count ∧
  chk.consts.values.length = chk.consts.count

/-- What a step of the compiler on the heap keeps, next to the intern
invariant: the roots and every path from a root, the payload of every
reachable object other than the function `f` that is written to, the
reachable interned strings, the stack below `stack_top`, and standard
output. -/
structure heap_step (vm vm1 : VM) (ups : List Nat) (f : Option Nat) : Prop where
  roots : root_ptrs vm1 ups = root_ptrs vm ups
  paths : ∀ r a, some r ∈ root_ptrs vm ups → Relation.ReflTransGen (heap_edge vm.heap) r a →
    Relation.ReflTransGen (heap_edge vm1.heap) r a
  payload : ∀ x, reachable vm ups x → some x ≠ f →
    payload_at vm1.heap x = payload_at vm.heap x
  keep : ∀ (k : Nat) (d : List Nat), interned vm k d → reachable vm ups k → interned vm1 k d
  top : vm1.stack_top = vm.stack_top
  below : ∀ i, i < vm.stack_top → vm1.stack i = vm.stack i
  stdout : vm1.stdout = vm.stdout
/-- The allocator returns a free address in every heap that holds fewer than
`M` objects. -/
def allocator_fresh (fresh : (Nat → Option obj) → Nat) (M : Nat) : Prop :=
  ∀ (heap : Nat → Option obj) (l : List Nat), (∀ x, heap x ≠ none → x ∈ l) → l.length < M →
    heap (fresh heap) = none

/-- The state the functions of compiler.c work in, with room for `B` more
allocations: the VM satisfies the intern invariant, the loops of the collector
and of the tables have fuel for a heap with `B` more objects, the allocator
finds a free address in such a heap, the intern table has room for `B` more
strings, the stack has a free slot, and the function of every compiler of the
chain is a root and a function object whose chunk is well-formed. -/
structure compile_inv (h : host) (ups : List Nat) (M B : Nat) (c : compile_state) : Prop where
  fuel : 2 ^ 32 ≤ h.fuel
  alloc : allocator_fresh h.fresh M
  heap : ∃ (l : List Nat) (n : Nat), intern_inv c.vm l ups n ∧
    l.length + ups.length + B < h.fuel ∧ n + B < 2 ^ 30 ∧ l.length + B < M
  stack : c.vm.stack_top < STACK_MAX
  funcs : ∀ k ∈ c.current, some k.func ∈ root_ptrs c.vm ups ∧
    ∃ (ar uc : Nat) (chk : chunk) (nm : Option Nat),
      payload_at c.vm.heap k.func = some (obj_payload.obj_func ar uc chk nm) ∧ chunk_ok chk
/-! ## Concrete states used by the witnesses -/

/-- The `sizeof` values of an LP64 target. -/
def sizes_lp64 : sizeofs :=
  { table_entry := 24, value := 16, size := 8, upvalue_ptr := 8, obj_bound_method := 40,
    obj_class := 48, obj_closure := 40, obj_func := 88, obj_instance := 48, obj_native := 24,
    obj_string := 40, obj_upvalue := 48 }

/-- The zero-initialised global `vm` with an empty heap. -/
def zero_vm : VM :=
  { frame_count := 0, frames := fun _ => { closure := 0, ip := 0, slots := 0 },
    stack := fun _ => value.bool false, stack_top := 0, objects := none, gray_capacity := 0,
    gray_stack := [], strings := init_table, init_string := none, globals := init_table,
    open_upvalues := none, heap_size := 0, gc_treshold := 0, heap := fun _ => none,
    compilers := [], stdout := [] }

/-- An empty chunk (`init_chunk`). -/
def empty_chunk : chunk :=
  { count := 0, capacity := 0, code := [],
    consts := { capacity := 0, count := 0, values := [] }, lines := [] }

/-- A heap of four objects: the string "a" (1), a function named by it (2), a
closure of that function (3) and the string "b" (4); the object list is
4, 3, 2, 1. -/
def heap4 : Nat → Option obj := fun a =>
  if a = 1 then some { marked := false, next := none,
                       payload := obj_payload.obj_string [97] (hash_string [97]) }
  else if a = 2 then some { marked := false, next := some 1,
                            payload := obj_payload.obj_func 0 0 empty_chunk (some 1) }
  else if a = 3 then some { marked := false, next := some 2,
                            payload := obj_payload.obj_closure (some 2) [] }
  else if a = 4 then some { marked := false, next := some 3,
                            payload := obj_payload.obj_string [98] (hash_string [98]) }
  else none

/-- The intern table after interning "a" (object 1) and "b" (object 4). -/
def strings4 : table :=
  (run_table_ops (string_hash heap4) (2 ^ 32) init_table
    [table_op.set 1 value.nil, table_op.set 4 value.nil]).getD init_table

/-- A state in which the closure 3 is running: it is on the stack and in the
first call frame; the string "b" is interned but referenced by nothing. -/
def vm4 : VM :=
  { zero_vm with
    heap := heap4, objects := some 4, strings := strings4, heap_size := 1000,
    gc_treshold := 1048576,
    stack := fun i => if i = 0 then value.obj 3 else value.bool false, stack_top := 1,
    frame_count := 1, frames := fun _ => { closure := 3, ip := 0, slots := 1 } }

/-- A chunk with the given code and constants. -/
def chunk_of (code : List Nat) (consts : List value) : chunk :=
  { count := code.length, capacity := code.length, code := code,
    consts := { capacity := consts.length, count := consts.length, values := consts },
    lines := code.map (fun _ => 1) }

/-- A heap for a call with one argument: the string "f" (1), the function `f`
of arity 1 named by it (2) and a closure of that function (3). -/
def heap_call : Nat → Option obj := fun a =>
  if a = 1 then some { marked := false, next := none,
                       payload := obj_payload.obj_string [102] (hash_string [102]) }
  else if a = 2 then some { marked := false, next := some 1,
                            payload := obj_payload.obj_func 1 0 empty_chunk (some 1) }
  else if a = 3 then some { marked := false, next := some 2,
                            payload := obj_payload.obj_closure (some 2) [] }
  else none

/-- The state right before `call (closure, 1)` for the call `f(7)`: the
closure of `f` is in stack slot 0, the argument in slot 1, `stack_top` is 2
and no frame is active. -/
def vm_call : VM :=
  { zero_vm with
    heap := heap_call, objects := some 3, heap_size := 1000, gc_treshold := 1048576,
    stack := fun i => if i = 0 then value.obj 3 else if i = 1 then value.number 7
                      else value.bool false,
    stack_top := 2 }

/-- The hash fields of the strings "m" (object 1) and "K" (object 2). -/
def hash_mK : Nat → Nat := fun a =>
  if a = 1 then hash_string [109] else hash_string [75]

/-- A heap for the expression `k.m`: the strings "m" (1) and "K" (2), the
function of the method `m` (3) and its closure (4), the class `K` whose method
table binds "m" to that closure (5), an instance of `K` without fields (6),
and the script function whose code is `OP_GET_PROPERTY 0; OP_POP` with the
constant "m" (7) and its closure (8). -/
def heap_prop : Nat → Option obj := fun a =>
  if a = 1 then some { marked := false, next := none,
                       payload := obj_payload.obj_string [109] (hash_string [109]) }
  else if a = 2 then some { marked := false, next := some 1,
                            payload := obj_payload.obj_string [75] (hash_string [75]) }
  else if a = 3 then some { marked := false, next := some 2,
                            payload := obj_payload.obj_func 0 0
                              (chunk_of [OP_NIL, OP_NIL, OP_RETURN] []) (some 1) }
  else if a = 4 then some { marked := false, next := some 3,
                            payload := obj_payload.obj_closure (some 3) [] }
  else if a = 5 then some { marked := false, next := some 4,
                            payload := obj_payload.obj_class (some 2)
                              ((run_table_ops hash_mK (2 ^ 32) init_table
                                [table_op.set 1 (value.obj 4)]).getD init_table) }
  else if a = 6 then some { marked := false, next := some 5,
                            payload := obj_payload.obj_instance (some 5) init_table }
  else if a = 7 then some { marked := false, next := some 6,
                            payload := obj_payload.obj_func 0 0
                              (chunk_of [OP_GET_PROPERTY, 0, OP_POP] [value.obj 1]) none }
  else if a = 8 then some { marked := false, next := some 7,
                            payload := obj_payload.obj_closure (some 7) [] }
  else none

/-- The state in which the script is about to execute `OP_GET_PROPERTY "m"`
with the instance on top of the stack. -/
def vm_prop : VM :=
  { zero_vm with
    heap := heap_prop, objects := some 8, heap_size := 1000, gc_treshold := 1048576,
    strings := (run_table_ops hash_mK (2 ^ 32) init_table
      [table_op.set 1 value.nil, table_op.set 2 value.nil]).getD init_table,
    stack := fun i => if i = 0 then value.obj 8 else if i = 1 then value.obj 6
                      else value.bool false,
    stack_top := 2, frame_count := 1,
    frames := fun _ => { closure := 8, ip := 0, slots := 1 } }

/-- An arithmetic unit that is never consulted by the witnesses. -/
def fpu_zero : fpu :=
  { add := fun _ _ => 0, sub := fun _ _ => 0, mul := fun _ _ => 0, div := fun _ _ => 0,
    neg := fun _ => 0, lt := fun _ _ => false, gt := fun _ _ => false,
    eq := fun a b => a == b, strtod := fun _ => 0 }

/-- What is observed of the outcome of one instruction: whether `run` has
returned and with what, the depth of the stack and the number of frames. -/
def step_outcome : step_result → Option interpret_result × Nat × Nat
  | step_result.next vm _ => (none, vm.stack_top, vm.frame_count)
  | step_result.done vm result => (some result, vm.stack_top, vm.frame_count)

/-- What is observed of the outcome of a string constructor: the object
returned, whether the objects at the addresses 1 and 4 are still allocated,
`heap_size` and `gc_treshold`. -/
def string_outcome : Option (VM × Nat) → Option (Nat × Bool × Bool × Nat × Nat)
  | some (vm, r) => some (r, (vm.heap 1).isSome, (vm.heap 4).isSome, vm.heap_size, vm.gc_treshold)
  | none => none

/-! ### A host for whole programs -/

/-- The position of the highest set bit of `n`, for `n` below `2 ^ fuel`. -/
def bit_length : Nat → Nat → Nat
  | 0, _ => 0
  | fuel + 1, n => if n = 0 then 0 else bit_length fuel (n / 2) + 1

/-- The bit pattern of the double that equals the natural number `n`, for
`n < 2 ^ 53`. -/
def double_of_nat (n : Nat) : Nat :=
  if n = 0 then 0
  else (1023 + (bit_length 64 n - 1)) * 2 ^ 52
    + (n - 2 ^ (bit_length 64 n - 1)) * 2 ^ (52 - (bit_length 64 n - 1))

/-- What `strtod` returns for a C string that starts with a plain decimal
integer below `2 ^ 53` that is not followed by `.`, `e`, `E`, `x` or `X`. -/
def strtod_digits (s : List Nat) : Nat :=
  double_of_nat ((s.takeWhile is_digit).foldl (fun acc c => acc * 10 + (c - 48)) 0)

/-- An arithmetic unit for programs whose number literals are plain decimal
integers and that do no arithmetic. -/
def fpu_digits : fpu :=
  { fpu_zero with strtod := strtod_digits }

/-- An allocator that returns the lowest free address from 1 on. -/
def first_free (heap : Nat → Option obj) : Nat :=
  ((List.range 1024).find? (fun a => (heap (a + 1)).isNone)).getD 1024 + 1

/-- The host of the examples. -/
def host_lp64 : host :=
  { sz := sizes_lp64, fp := fpu_digits, fuel := 2 ^ 32, fresh := first_free }

/-- The zero-initialised token of the global `parser` at program start; its
fields are overwritten before they are read. -/
def zero_token : token :=
  { type := TOKEN_AND, start := [], len := 0, line := 0, column := 0 }

/-- The globals of compiler.c and scanner.c at program start, next to a VM. -/
def start_state (vm : VM) : compile_state :=
  { vm := vm, scanner := { start := [], current := [], line := 0, column := 0 },
    parser := { current := zero_token, previous := zero_token, had_error := false,
                panic_mode := false },
    current := [], current_class := 0, stderr := [] }

/-- What `main` does with a source file: `init_vm`, then `interpret`. -/
def run_source (steps : Nat) (source : String) : Option (compile_state × interpret_result) :=
  match init_vm host_lp64 zero_vm with
  | none => none
  | some vm =>
    interpret host_lp64 (fun _ _ _ => value.nil) steps (start_state vm) (bytes_of source)

/-- The values written by `print_value`, in order. -/
def printed_values (out : List out_item) : List value :=
  out.filterMap (fun item =>
    match item with
    | out_item.printed v => some v
    | _ => none)

/-- The code of the chunk of the function object at `f`. -/
def code_of (vm : VM) (f : Nat) : Option (List Nat) :=
  (func_chunk vm f).map (fun chk => chk.code)

/-- What `compile` does with a source text on a freshly initialised VM. -/
def compile_source (steps : Nat) (source : String) : Option (compile_state × Option Nat) :=
  match init_vm host_lp64 zero_vm with
  | none => none
  | some vm => compile host_lp64 steps (start_state vm) (bytes_of source)

/-- The bytes of the name of the function object at `f`. -/
def func_name_of (vm : VM) (f : Nat) : Option (List Nat) :=
  match vm.heap f with
  | none => none
  | some o =>
    match o.payload with
    | obj_payload.obj_func _ _ _ (some name) => string_data vm.heap name
    | _ => none
/-! ## Concrete states for calls, returns and upvalues -/

/-- The state `vm_call` with all 64 call frames in use. -/
def vm_frames_full : VM :=
  { vm_call with frame_count := 64 }

/-- A heap with two open upvalues: object 1 points at stack slot 3 and is
followed by object 2, which points at stack slot 1. -/
def heap_up : Nat → Option obj := fun a =>
  if a = 1 then some { marked := false, next := some 2,
                       payload := obj_payload.obj_upvalue (some 3) value.nil (some 2) }
  else if a = 2 then some { marked := false, next := none,
                            payload := obj_payload.obj_upvalue (some 1) value.nil none }
  else none

/-- A state whose open-upvalue list is 1, 2 over the stack 10, 11, 12, 13. -/
def vm_up : VM :=
  { zero_vm with
    heap := heap_up, objects := some 1, open_upvalues := some 1,
    stack := fun i => value.number (10 + i), stack_top := 4 }

/-- A heap for a call that returns: the string "f" (1), the function `f` of
arity 1 with the code `OP_NIL, OP_RETURN` (2) and a closure of it (3). -/
def heap_ret : Nat → Option obj := fun a =>
  if a = 1 then some { marked := false, next := none,
                       payload := obj_payload.obj_string [102] (hash_string [102]) }
  else if a = 2 then some { marked := false, next := some 1,
                            payload := obj_payload.obj_func 1 0
                              (chunk_of [OP_NIL, OP_RETURN] []) (some 1) }
  else if a = 3 then some { marked := false, next := some 2,
                            payload := obj_payload.obj_closure (some 2) [] }
  else none

/-- The state right before `call (closure, 1)` inside a running frame: slot 0
belongs to the caller, the closure of `f` is in slot 1, the argument in
slot 2. -/
def vm_ret_call : VM :=
  { zero_vm with
    heap := heap_ret, objects := some 3, heap_size := 1000, gc_treshold := 1048576,
    stack := fun i => if i = 0 then value.number 5 else if i = 1 then value.obj 3
                      else if i = 2 then value.number 7 else value.bool false,
    stack_top := 3, frame_count := 1,
    frames := fun _ => { closure := 3, ip := 0, slots := 1 } }

/-- The state `call` leaves: the frame of `f` is pushed. -/
def vm_ret_frame : VM :=
  { vm_ret_call with
    frames := Function.update vm_ret_call.frames 1 { closure := 3, ip := 0, slots := 2 },
    frame_count := 2 }

/-- The state in which `f` executes its `OP_RETURN`: `OP_NIL` has pushed the
result. -/
def vm_ret : VM :=
  { vm_ret_frame with
    frames := Function.update vm_ret_frame.frames 1 { closure := 3, ip := 1, slots := 2 },
    stack := Function.update vm_ret_frame.stack 3 value.nil, stack_top := 4 }

/-- A native function table that returns nil. -/
def native_nil : Nat → Nat → List value → value :=
  fun _ _ _ => value.nil


/-! ## A state with strings, globals and classes -/

/-- The hash fields of the strings "a" (object 1), "b" (object 2) and "init"
(object 3). -/
def hash_w : Nat → Nat := fun a =>
  if a = 1 then hash_string [97] else if a = 2 then hash_string [98]
  else hash_string [105, 110, 105, 116]

/-- The method table of the class `a`: `init` is the closure 5. -/
def methods_w : table :=
  (run_table_ops hash_w (2 ^ 32) init_table [table_op.set 3 (value.obj 5)]).getD init_table

/-- The strings "a" (1), "b" (2) and "init" (3), the script function with the
code `OP_ADD; OP_PRINT; OP_SET_GLOBAL 0; OP_SET_GLOBAL 1` and the constants "a", "b" (4),
its closure (5), the class `a` with the initializer `init` (6) and the class
`b` without methods (7). -/
def heap_w : Nat → Option obj := fun a =>
  if a = 1 then some { marked := false, next := none,
                       payload := obj_payload.obj_string [97] (hash_string [97]) }
  else if a = 2 then some { marked := false, next := some 1,
                            payload := obj_payload.obj_string [98] (hash_string [98]) }
  else if a = 3 then some { marked := false, next := some 2,
                            payload := obj_payload.obj_string [105, 110, 105, 116]
                              (hash_string [105, 110, 105, 116]) }
  else if a = 4 then some { marked := false, next := some 3,
                            payload := obj_payload.obj_func 0 0
                              (chunk_of [OP_ADD, OP_PRINT, OP_SET_GLOBAL, 0, OP_SET_GLOBAL, 1]
                                [value.obj 1, value.obj 2]) none }
  else if a = 5 then some { marked := false, next := some 4,
                            payload := obj_payload.obj_closure (some 4) [] }
  else if a = 6 then some { marked := false, next := some 5,
                            payload := obj_payload.obj_class (some 1) methods_w }
  else if a = 7 then some { marked := false, next := some 6,
                            payload := obj_payload.obj_class (some 2) init_table }
  else none

/-- The intern table with the three strings. -/
def strings_w : table :=
  (run_table_ops hash_w (2 ^ 32) init_table
    [table_op.set 1 value.nil, table_op.set 2 value.nil, table_op.set 3 value.nil]).getD
    init_table

/-- The globals: `a` is defined, `b` is not. -/
def globals_w : table :=
  (run_table_ops hash_w (2 ^ 32) init_table [table_op.set 1 (value.number 1)]).getD init_table

/-- The script closure 5 runs in the first frame with the values `stack` above
its own slot; the next instruction is at `ip`. -/
def vm_w (ip : Nat) (stack : List value) : VM :=
  { zero_vm with
    heap := heap_w, objects := some 7, strings := strings_w, globals := globals_w,
    init_string := some 3, heap_size := 1000, gc_treshold := 1048576,
    stack := fun i => if i = 0 then value.obj 5 else (stack[i - 1]?).getD (value.bool false),
    stack_top := stack.length + 1,
    frame_count := 1, frames := fun _ => { closure := 5, ip := ip, slots := 1 } }

/-- The state `vm_w` after the opcode at `ip` has been fetched. -/
def vm_w_fetched (ip : Nat) (stack : List value) : VM :=
  set_ip { vm_w ip stack with stdout := (vm_w ip stack).stdout ++ [out_item.trace] } 0 (ip + 1)

/-- The state `vm_w` after the opcode at `ip` and its one-byte operand have
been fetched. -/
def vm_w_operand (ip : Nat) (stack : List value) : VM :=
  set_ip (vm_w_fetched ip stack) 0 (ip + 2)

/-- The test that every root of a state is an object of `heap_w`. -/
def roots_in_heap_w (vm : VM) : Bool :=
  (root_ptrs vm []).all (fun p =>
    match p with
    | some b => (heap_w b).isSome
    | none => true)

/-- The values written by `print_value`, in order, with the bytes of those
that are strings of the heap. -/
def printed_strings (vm : VM) : List (Option (List Nat)) :=
  (printed_values vm.stdout).map (fun v =>
    match v with
    | value.obj s => string_data vm.heap s
    | _ => none)
/-! ## A state with closures that share an upvalue -/

/-- The function `inner` with one upvalue and the code `OP_SET_UPVALUE 0;
OP_GET_UPVALUE 0` (1), the script function that makes three closures of
`inner`, each capturing its local 0 (2), the closure of the script (3), two
closures of `inner` (4 and 6) and the open upvalue of the stack slot 1 that
both of them hold (5). -/
def heap_c : Nat → Option obj := fun a =>
  if a = 1 then some { marked := false, next := none,
                       payload := obj_payload.obj_func 0 1
                         (chunk_of [OP_SET_UPVALUE, 0, OP_GET_UPVALUE, 0] []) none }
  else if a = 2 then some { marked := false, next := some 1,
                            payload := obj_payload.obj_func 0 0
                              (chunk_of [OP_CLOSURE, 0, 1, 0, OP_CLOSURE, 0, 1, 0,
                                OP_CLOSURE, 0, 1, 0] [value.obj 1]) none }
  else if a = 3 then some { marked := false, next := some 2,
                            payload := obj_payload.obj_closure (some 2) [] }
  else if a = 4 then some { marked := false, next := some 3,
                            payload := obj_payload.obj_closure (some 1) [some 5] }
  else if a = 5 then some { marked := false, next := some 4,
                            payload := obj_payload.obj_upvalue (some 1) value.nil none }
  else if a = 6 then some { marked := false, next := some 5,
                            payload := obj_payload.obj_closure (some 1) [some 5] }
  else none

/-- A state over `heap_c` with the values `stack` and `frame_count` live
frames: frame 0 runs the script, with its locals from slot 1 on, and is about
to make the third closure; frame 1 runs the closure 4 from its first
instruction and frame 2 the closure 6 from its second. -/
def vm_c (frame_count : Nat) (stack : List value) : VM :=
  { zero_vm with
    heap := heap_c, objects := some 6, open_upvalues := some 5,
    heap_size := 1000, gc_treshold := 1048576,
    stack := fun i => (stack[i]?).getD (value.bool false),
    stack_top := stack.length,
    frame_count := frame_count,
    frames := fun i =>
      if i = 0 then { closure := 3, ip := 8, slots := 1 }
      else if i = 1 then { closure := 4, ip := 0, slots := 5 }
      else { closure := 6, ip := 2, slots := 6 } }

/-- The stack of the script when it makes the third closure: its own closure,
the local `x = 7` and the two closures made so far. -/
def stack_c : List value :=
  [value.obj 3, value.number 7, value.obj 4, value.obj 6]

/-- The state `vm` after the opcode of frame `frame` has been fetched. -/
def fetched (vm : VM) (frame : Nat) : VM :=
  set_ip { vm with stdout := vm.stdout ++ [out_item.trace] } frame ((vm.frames frame).ip + 1)

/-- The state `vm` after the opcode of frame `frame` and its one-byte operand
have been fetched. -/
def fetched_operand (vm : VM) (frame : Nat) : VM :=
  set_ip (fetched vm frame) frame ((vm.frames frame).ip + 2)

/-- The test that every pointer of a list is an object of `heap_c`. -/
def in_heap_c (ps : List (Option Nat)) : Bool :=
  ps.all (fun p =>
    match p with
    | some b => (heap_c b).isSome
    | none => true)

/-- The stack when the closures 4 and 6 have been called and the value 9 is
on top. -/
def stack_c_calls : List value :=
  stack_c ++ [value.obj 4, value.obj 6, value.number 9]

/-- The local belongs to the scope of depth `scope_depth` (or is still being
declared): it is none of the locals of an enclosing scope, at which the loop of
`declare_variable` stops. -/
def in_scope (scope_depth : Int) (l : localvar) : Prop :=
  ¬ (l.depth ≠ -1 ∧ l.depth < scope_depth)

instance (scope_depth : Int) (l : localvar) : Decidable (in_scope scope_depth l) := by
  unfold in_scope
  exact inferInstance

/-- The locals of enclosing scopes come before the locals of the current
scope in the array `locals`. -/
def scopes_nested (locals : List localvar) (scope_depth : Int) : Prop :=
  ∀ (i j : Nat) (li lj : localvar), i < j → locals[i]? = some li → locals[j]? = some lj →
    in_scope scope_depth li → in_scope scope_depth lj

/-- The report of `declare_variable` for the name token `name`, written at the
token `tok`. -/
def redeclaration (tok name : token) : diagnostic :=
  { line := tok.line, column := tok.column, type := tok.type,
    lexeme := tok.start.take tok.len,
    format := bytes_of "Redeclaration of variable \x27%.*s\x27",
    args := [[name.len], name.start.take name.len] }

/-- The state in which `declare_variable` is called for the second `a` of a
block: the script compiler at scope depth 1 with the local `a` of that scope. -/
def state_redeclare : compile_state :=
  { start_state zero_vm with
    parser := { current := zero_token,
                previous := { type := TOKEN_IDENTIFIER, start := bytes_of "a; \x7d", len := 1,
                              line := 1, column := 15 },
                had_error := false, panic_mode := false },
    current := [{ func := 1, ftype := FTYPE_SCRIPT,
                  locals := [{ name := slot_zero_name FTYPE_SCRIPT, depth := 0, captured := false },
                             { name := { type := TOKEN_IDENTIFIER,
                                         start := bytes_of "a; var a; \x7d", len := 1, line := 1,
                                         column := 8 },
                               depth := 1, captured := false }],
                  upvalues := [], scope_depth := 1 }] }
/-- A VM whose heap holds one object, the function object 1 with the chunk
`chk`, which is the function of the only compiler. -/
def vm_of_chunk (chk : chunk) : VM :=
  { zero_vm with
    heap := fun a =>
      if a = 1 then
        some { marked := false, next := none, payload := obj_payload.obj_func 0 0 chk none }
      else none,
    objects := some 1, compilers := [some 1] }

/-- The compiler of the script at scope depth 0, for the function object 1. -/
def script_compiler : compiler_t :=
  { func := 1, ftype := FTYPE_SCRIPT,
    locals := [{ name := slot_zero_name FTYPE_SCRIPT, depth := 0, captured := false }],
    upvalues := [], scope_depth := 0 }

/-- The state of compiler.c while the script is compiled, its chunk being
`chk` and the last token consumed `tok`. -/
def state_of_chunk (chk : chunk) (tok : token) : compile_state :=
  { start_state (vm_of_chunk chk) with
    parser := { current := zero_token, previous := tok, had_error := false,
                panic_mode := false },
    current := [script_compiler] }

/-- A chunk with `n` bytes of code and `m` constants, all of them `nil`. -/
def filled_chunk (n m : Nat) : chunk :=
  { count := n, capacity := n, code := List.replicate n OP_NIL,
    consts := { capacity := m, count := m, values := List.replicate m value.nil },
    lines := List.replicate n 1 }

/-- The report of `make_constant` at the token `tok`. -/
def too_many_constants (tok : token) : diagnostic :=
  { line := tok.line, column := tok.column, type := tok.type,
    lexeme := tok.start.take tok.len,
    format := bytes_of "Too many constants in one chunk! Maximum %d\n", args := [[255]] }

/-- A state of compiler.c while the script is compiled, the scanner being at
the string literal "ab" followed by a semicolon. -/
def state_at_string : compile_state :=
  { state_of_chunk (filled_chunk 0 0) zero_token with
    scanner := init_scanner [34, 97, 98, 34, 59] }
/-- The token `tok` is of the kind `type` and its lexeme is `w`. -/
def lexeme_is (tok : token) (type : token_type) (w : List Nat) : Prop :=
  tok.type = type ∧ tok.len = w.length ∧ tok.start.take tok.len = w

/-- The bytes `x` are an identifier of the language: a letter or underscore
followed by letters, digits and underscores, and not one of the keywords. -/
def is_identifier (x : List Nat) : Prop :=
  ∃ (c : Nat) (t : List Nat), x = c :: t ∧ is_alpha c = true ∧
    (∀ b ∈ t, is_alnum b = true) ∧ x ∉ keywords

/-- One report of `error_at` at the token `tok`. -/
def report_at (tok : token) (msg : List Nat) (args : List (List Nat)) : diagnostic :=
  { line := tok.line, column := tok.column, type := tok.type,
    lexeme := tok.start.take tok.len, format := msg, args := args }

/-- The source text with a declaration of `x` in a block, its initializer
reading `x`. -/
def self_initializer (x : List Nat) : List Nat :=
  bytes_of "\x7b var " ++ x ++ bytes_of " = " ++ x ++ bytes_of "; \x7d"

/-- The source text of the statement that assigns `z` to the product of `x`
and `y`. -/
def product_assignment (x y z : List Nat) : List Nat :=
  x ++ bytes_of " * " ++ y ++ bytes_of " = " ++ z ++ bytes_of ";"

/-- The scanner and the two tokens of the parser are the same in `c1` as in
`c`: no token has been consumed between the two states. -/
def keeps_tokens (c c1 : compile_state) : Prop :=
  c1.scanner = c.scanner ∧ c1.parser.current = c.parser.current ∧
  c1.parser.previous = c.parser.previous
/-! ## Notions and states used by the statements about tables, hashing, upvalue resolution, scopes, sweeping, jumps and the REPL -/

/-! ### Tables reachable from `init_table` (used by the statements about the table) -/

/-- A tombstone: a slot without a key whose value is not nil. -/
def table_entry.isTombstone (e : table_entry) : Bool :=
  e.key.isNone && !IS_NIL e.val

/-- Number of tombstone slots. -/
def tombstone_slots (entries : List table_entry) : Nat :=
  entries.countP (fun e => e.isTombstone)

/-- The table is reachable from `init_table` by the calls `ops` of
`set_table` and `delete_table`, at most 2^30 of them (so that the capacity
stays within the `uint32` probe index). -/
def table_reached (hashOf : Nat → Nat) (fuel : Nat) (ops : List table_op) (tab : table) : Prop :=
  ops.length ≤ 2 ^ 30 ∧ run_table_ops hashOf fuel init_table ops = some tab

/-- The capacity `set_table` works with after its load test. -/
def capacity_after_load_test (tab : table) : Nat :=
  if table_overloaded tab then GROW_CAPACITY tab.capacity else tab.capacity

/-- What the proofs keep of a table after `n` calls: it is well-formed, it
represents a finite map, capacity and count are within the budget of `n`
insertions, and the capacity is 0 or 8 times a power of two. -/
structure table_inv (hashOf : Nat → Nat) (tab : table) (n : Nat) : Prop where
  wf : table_wf hashOf tab
  repr : ∃ m : Nat → Option value, table_repr tab m
  cap_budget : 3 * tab.capacity ≤ 8 * n + 24
  count_budget : tab.count ≤ n
  shape : tab.capacity = 0 ∨ ∃ k : Nat, tab.capacity = 8 * 2 ^ k

/-- Four calls on an empty table in which all keys collide: two insertions, a
deletion that leaves a tombstone, and an insertion that reuses it. -/
def ops_tombstone : List table_op :=
  [table_op.set 1 (value.number 10), table_op.set 2 value.nil, table_op.delete 1,
   table_op.set 3 (value.bool true)]

/-- The table after `ops_tombstone` when every key hashes to 3. -/
def tab_tombstone : table :=
  { count := 2, capacity := 8,
    entries := [{ key := none, val := value.nil }, { key := none, val := value.nil },
      { key := none, val := value.nil }, { key := some 3, val := value.bool true },
      { key := some 2, val := value.nil }, { key := none, val := value.nil },
      { key := none, val := value.nil }, { key := none, val := value.nil }] }

/-- The table after the first three calls of `ops_tombstone`: slot 3 holds
a tombstone. -/
def tab_deleted : table :=
  { count := 2, capacity := 8,
    entries := [{ key := none, val := value.nil }, { key := none, val := value.nil },
      { key := none, val := value.nil }, { key := none, val := value.bool true },
      { key := some 2, val := value.nil }, { key := none, val := value.nil },
      { key := none, val := value.nil }, { key := none, val := value.nil }] }

/-! ### The hash of the specification (used by the statement about `hash_string`) -/

/-- Modelled from the spec: one step of the 32-bit FNV-1a hash,
`h := ((h xor byte) × 16777619) mod 2^32`. -/
def fnv1a_step (h byte : Nat) : Nat :=
  ((h ^^^ byte) * 16777619) % 2 ^ 32

/-- Modelled from the spec: the steps of the hash over the bytes in order,
from the value `h` on. -/
def fnv1a_from : Nat → List Nat → Nat
  | h, [] => h
  | h, byte :: bytes => fnv1a_from (fnv1a_step h byte) bytes

/-- Modelled from the spec: the 32-bit FNV-1a hash of the bytes, starting
from 2166136261. -/
def fnv1a (bytes : List Nat) : Nat :=
  fnv1a_from 2166136261 bytes

/-- The `char` converted to `uint8`: its unsigned value 0..255. -/
def as_uint8 (c : Nat) : Nat :=
  c % 256

/-! ### Upvalues of the compiler (used by the statements about `add_upvalue`
and `resolve_upvalue`) -/

/-- The compiler at position `d` of the chain is `k`, its function is a
function object that counts `uc` upvalues, and these are the upvalues of the
compiler: the array holds what has been registered. -/
def upvalues_known (c : compile_state) (d : Nat) (k : compiler_t) (uc : Nat) : Prop :=
  c.current[d]? = some k ∧ func_upvalue_count c.vm k.func = some uc ∧ k.upvalues.length = uc

/-- The compiler at position `d` of the chain has the upvalue `u` registered
at index `r`. -/
def upvalue_registered (c : compile_state) (d r : Nat) (u : upvalue) : Prop :=
  ∃ (k : compiler_t) (uc : Nat), upvalues_known c d k uc ∧ r < uc ∧ k.upvalues[r]? = some u

/-- The increment `func->upvalue_count++` on the function object at `f`. -/
def bump_upvalue_count (vm : VM) (f : Nat) : VM :=
  match vm.heap f with
  | some o =>
    match o.payload with
    | obj_payload.obj_func arity upvalue_count chk name =>
      { vm with
        heap := Function.update vm.heap f
          (some { o with payload := obj_payload.obj_func arity (upvalue_count + 1) chk name }) }
    | _ => vm
  | none => vm

/-- The state after `add_upvalue` has appended the upvalue `u` for the
compiler `k` at position `d` of the chain. -/
def with_upvalue (c : compile_state) (d : Nat) (k : compiler_t) (u : upvalue) : compile_state :=
  { c with
    current := c.current.set d { k with upvalues := k.upvalues ++ [u] },
    vm := bump_upvalue_count c.vm k.func }

/-- The name `name` is resolved to the local in slot `slot` of the locals
`locals`: the local there has that name, and no local declared after it
has. -/
def resolves_to (locals : List localvar) (name : token) (slot : Nat) : Prop :=
  (∃ l, locals[slot]? = some l ∧ identifiers_equal name l.name = true) ∧
  ∀ (j : Nat) (l : localvar), slot < j → locals[j]? = some l →
    identifiers_equal name l.name = false

/-- No local of `locals` has the name `name`. -/
def not_a_local (locals : List localvar) (name : token) : Prop :=
  ∀ (j : Nat) (l : localvar), locals[j]? = some l → identifiers_equal name l.name = false

/-- The upvalues that lead from the compiler at position `d` of the chain to
the local in slot `slot` of the compiler at position `d + m + 1`: the
compiler at `d + m` has an upvalue `{slot, is_local = true}` and that local is
marked captured; every compiler before it has an upvalue `{index, is_local =
false}` whose index is the index of the upvalue of the compiler that encloses
it.  `r` is the index of the upvalue of the compiler at `d`. -/
def upvalue_chain (c : compile_state) (slot : Nat) : Nat → Nat → Nat → Prop
  | 0, d, r =>
    upvalue_registered c d r { index := slot, is_local := true } ∧
    ∃ (e : compiler_t) (l : localvar), c.current[d + 1]? = some e ∧
      e.locals[slot]? = some l ∧ l.captured = true
  | m + 1, d, r =>
    ∃ r1 : Nat, upvalue_registered c d r { index := r1, is_local := false } ∧
      upvalue_chain c slot m (d + 1) r1

/-- What `resolve_upvalue` called for position `d` keeps of a state: the
compilers before `d`, the length of the chain, the function of every compiler,
and every object that is not the function of a compiler from `d` on. -/
structure chain_kept (c c1 : compile_state) (d : Nat) : Prop where
  before : ∀ i, i < d → c1.current[i]? = c.current[i]?
  length : c1.current.length = c.current.length
  funcs : c1.current.map (fun k => k.func) = c.current.map (fun k => k.func)
  heap : ∀ f : Nat, (∀ (i : Nat) (k : compiler_t), d ≤ i → c.current[i]? = some k →
    k.func ≠ f) → c1.vm.heap f = c.vm.heap f

/-- The state after `resolve_upvalue` has set `captured` on the local `l` in
slot `slot` of the compiler `e` at position `j` of the chain. -/
def capture_local (c : compile_state) (j : Nat) (e : compiler_t) (slot : Nat)
    (l : localvar) : compile_state :=
  { c with
    current := c.current.set j
      ({ e with locals := e.locals.set slot { l with captured := true } }) }

/-- What `resolve_upvalue` called for position `d` needs to register the
upvalues that lead to the local `slot` of the compiler at `d + m + 1`: each
compiler from `d` to `d + m` holds the upvalues its function counts, fewer
than 256 of them; the functions of the compilers are different objects; no
compiler between `d` and the owner has a local of that name; and the owner
resolves the name to `slot`, among at most 256 locals. -/
structure upvalue_path (c : compile_state) (name : token) (slot m d : Nat) : Prop where
  known : ∀ i, d ≤ i → i ≤ d + m → ∃ (k : compiler_t) (uc : Nat),
    upvalues_known c i k uc ∧ uc < 256
  apart : (c.current.map (fun k => k.func)).Nodup
  between : ∀ (i : Nat) (k : compiler_t), d < i → i ≤ d + m → c.current[i]? = some k →
    not_a_local k.locals name
  owner : ∃ e : compiler_t, c.current[d + m + 1]? = some e ∧ resolves_to e.locals name slot ∧
    e.locals.length ≤ 256

/-- A VM whose heap holds three function objects, 1, 2 and 3, with empty
chunks and no upvalues. -/
def vm_three_funcs : VM :=
  { zero_vm with
    heap := fun a =>
      if a = 1 ∨ a = 2 ∨ a = 3 then
        some { marked := false, next := none,
               payload := obj_payload.obj_func 0 0 init_chunk none }
      else none,
    compilers := [some 3, some 2, some 1] }

/-- The identifier `x` as a token. -/
def token_x : token :=
  { type := TOKEN_IDENTIFIER, start := [120], len := 1, line := 1, column := 1 }

/-- The compiler of function 3, the innermost one. -/
def compiler_inner : compiler_t :=
  { func := 3, ftype := FTYPE_FUNC,
    locals := [{ name := slot_zero_name FTYPE_FUNC, depth := 0, captured := false }],
    upvalues := [], scope_depth := 1 }

/-- The compiler of function 2, between the script and the innermost one. -/
def compiler_middle : compiler_t :=
  { func := 2, ftype := FTYPE_FUNC,
    locals := [{ name := slot_zero_name FTYPE_FUNC, depth := 0, captured := false }],
    upvalues := [], scope_depth := 1 }

/-- The compiler of the script, function 1, with the local `x` in slot 1. -/
def compiler_outer : compiler_t :=
  { func := 1, ftype := FTYPE_SCRIPT,
    locals := [{ name := slot_zero_name FTYPE_SCRIPT, depth := 0, captured := false },
               { name := token_x, depth := 1, captured := false }],
    upvalues := [], scope_depth := 1 }

/-- A state of compiler.c with three compilers: the script (function 1),
which has declared the local `x` in slot 1, a function in it (function 2) and
a function in that one (function 3), the current compiler. -/
def state_three_compilers : compile_state :=
  { start_state vm_three_funcs with
    current := [compiler_inner, compiler_middle, compiler_outer] }

/-- The byte `end_scope` emits for the local `l`. -/
def discard_op (l : localvar) : Nat :=
  if l.captured then OP_CLOSE_UPVALUE else OP_POP

/-- The identifier `a` as a token. -/
def token_a : token :=
  { type := TOKEN_IDENTIFIER, start := [97], len := 1, line := 1, column := 1 }

/-- The identifier `b` as a token. -/
def token_b : token :=
  { type := TOKEN_IDENTIFIER, start := [98], len := 1, line := 1, column := 1 }

/-- The compiler of the script inside one block that has declared the locals
`a` and `b`, of which `b` has been captured by a closure. -/
def block_compiler : compiler_t :=
  { func := 1, ftype := FTYPE_SCRIPT,
    locals := [{ name := slot_zero_name FTYPE_SCRIPT, depth := 0, captured := false },
               { name := token_a, depth := 1, captured := false },
               { name := token_b, depth := 1, captured := true }],
    upvalues := [], scope_depth := 1 }

/-- The state of compiler.c at the end of that block, the chunk of the script
being empty. -/
def state_in_block : compile_state :=
  set_compiler (state_of_chunk (filled_chunk 0 0) zero_token) block_compiler

/-- The compiler of the script after that block. -/
def block_closed : compiler_t :=
  { block_compiler with scope_depth := 1 - 1, locals := block_compiler.locals.take 1 }

/-- The heap `heap4` after the mark phase: the closure 3, its function 2 and
the name 1 of that function are marked, the string 4 is not. -/
def heap4_marked : Nat → Option obj := fun a =>
  match heap4 a with
  | some o => some { o with marked := decide (a ≠ 4) }
  | none => none

/-- The state `vm4` between `trace_references` and `sweep`. -/
def vm4_marked : VM :=
  { vm4 with heap := heap4_marked }

/-- A VM whose frame 0 runs, at `ip`, a closure (object 2) of a function
(object 1) with the chunk `chk`; the stack holds `nil`. -/
def vm_at (chk : chunk) (ip : Nat) : VM :=
  { zero_vm with
    heap := fun a =>
      if a = 1 then
        some { marked := false, next := none, payload := obj_payload.obj_func 0 0 chk none }
      else if a = 2 then
        some { marked := false, next := some 1, payload := obj_payload.obj_closure (some 1) [] }
      else none,
    objects := some 2,
    stack := fun _ => value.nil, stack_top := 1,
    frame_count := 1, frames := fun _ => { closure := 2, ip := ip, slots := 0 } }

/-- The state of compiler.c with the chunk `OP_NIL, OP_JUMP ff ff, OP_NIL,
OP_NIL`, whose jump, emitted by `emit_jump`, waits for `patch_jump (2)`. -/
def state_with_jump : compile_state :=
  state_of_chunk (chunk_of [OP_NIL, OP_JUMP, 255, 255, OP_NIL, OP_NIL] []) zero_token

/-- The calls of `interpret` that the loop of `repl` of main.c makes for the
lines read, one after the other in the same VM, with the results returned. -/
def interpret_lines (steps : Nat) :
    compile_state → List String → Option (compile_state × List interpret_result)
  | c, [] => some (c, [])
  | c, line :: lines =>
    match interpret host_lp64 (fun _ _ _ => value.nil) steps c (bytes_of line) with
    | none => none
    | some (c1, r) =>
      match interpret_lines steps c1 lines with
      | none => none
      | some (c2, rs) => some (c2, r :: rs)

/-- What `main` does without a file argument: `init_vm`, then `repl`. -/
def run_repl (steps : Nat) (lines : List String) :
    Option (compile_state × List interpret_result) :=
  match init_vm host_lp64 zero_vm with
  | none => none
  | some vm => interpret_lines steps (start_state vm) lines

/-- The stack slot `i` holds a closure object. -/
def holds_closure (vm : VM) (i : Nat) : Bool :=
  match vm.stack i with
  | value.obj a =>
    match vm.heap a with
    | some o =>
      match o.payload with
      | obj_payload.obj_closure _ _ => true
      | _ => false
    | none => false
  | _ => false

/-! ## Theorems: the hash table -/

theorem next_index_eq {i cap : Nat} (hi : i < cap) (hc : cap ≤ 2 ^ 32) :
    ((i + 1) % 2 ^ 32) % cap = (i + 1) % cap := by
  by_cases h : i + 1 < 2 ^ 32
  · rw [Nat.mod_eq_of_lt h]
  · have h1 : i + 1 = 2 ^ 32 := by omega
    have h2 : cap = 2 ^ 32 := by omega
    rw [h1, h2]; simp

theorem probe_lt (hashOf : Nat → Nat) {cap : Nat} (key d : Nat) (hc : 0 < cap) :
    probe hashOf cap key d < cap :=
  Nat.mod_lt _ hc

theorem probe_succ (hashOf : Nat → Nat) {cap : Nat} (key d : Nat) (hc : 0 < cap)
    (hc32 : cap ≤ 2 ^ 32) :
    ((probe hashOf cap key d + 1) % 2 ^ 32) % cap = probe hashOf cap key (d + 1) := by
  rw [next_index_eq (probe_lt hashOf key d hc) hc32]
  unfold probe
  rw [Nat.mod_add_mod, Nat.add_assoc]

theorem probe_zero (hashOf : Nat → Nat) {cap : Nat} (key : Nat) (hc : 0 < cap)
    (hc32 : cap ≤ 2 ^ 32) :
    ((hashOf key % 2 ^ 32) % cap) % 2 ^ 32 = probe hashOf cap key 0 := by
  unfold probe
  have : (hashOf key % 2 ^ 32) % cap < cap := Nat.mod_lt _ hc
  rw [Nat.add_zero, Nat.mod_eq_of_lt (by omega : (hashOf key % 2 ^ 32) % cap < 2 ^ 32)]

theorem probe_inj (hashOf : Nat → Nat) {cap key d1 d2 : Nat} (h1 : d1 < cap) (h2 : d2 < cap)
    (h : probe hashOf cap key d1 = probe hashOf cap key d2) : d1 = d2 := by
  unfold probe at h
  have h3 : d1 ≡ d2 [MOD cap] := Nat.ModEq.add_left_cancel' _ h
  exact Nat.ModEq.eq_of_lt_of_lt h3 h1 h2

theorem probe_surj (hashOf : Nat → Nat) {cap : Nat} (key i : Nat) (hi : i < cap) :
    ∃ d, d < cap ∧ probe hashOf cap key d = i := by
  have hc : 0 < cap := by omega
  have hh : hashOf key % 2 ^ 32 % cap < cap := Nat.mod_lt _ hc
  unfold probe
  by_cases hle : hashOf key % 2 ^ 32 % cap ≤ i
  · refine ⟨i - hashOf key % 2 ^ 32 % cap, by omega, ?_⟩
    rw [← Nat.mod_add_mod]
    have : hashOf key % 2 ^ 32 % cap + (i - hashOf key % 2 ^ 32 % cap) = i := by omega
    rw [this, Nat.mod_eq_of_lt hi]
  · refine ⟨i + cap - hashOf key % 2 ^ 32 % cap, by omega, ?_⟩
    rw [← Nat.mod_add_mod]
    have : hashOf key % 2 ^ 32 % cap + (i + cap - hashOf key % 2 ^ 32 % cap) = i + cap := by
      omega
    rw [this, Nat.add_mod_right, Nat.mod_eq_of_lt hi]

theorem isEmpty_false_of_key {e : table_entry} {k : Nat} (h : e.key = some k) :
    e.isEmpty = false := by
  simp [table_entry.isEmpty, h]

theorem find_entry_loop_zero (entries : List table_entry) (capacity key index : Nat)
    (tombstone : Option Nat) :
    find_entry_loop entries capacity key 0 index tombstone = none := rfl

theorem find_entry_loop_succ (entries : List table_entry) (capacity key fuel index : Nat)
    (tombstone : Option Nat) :
    find_entry_loop entries capacity key (fuel + 1) index tombstone =
      match entries[index]? with
      | none => none
      | some entry =>
        match entry.key with
        | none =>
          if IS_NIL entry.val then
            some (match tombstone with
                  | some t => t
                  | none => index)
          else
            find_entry_loop entries capacity key fuel (((index + 1) % 2 ^ 32) % capacity)
              (match tombstone with
               | some t => some t
               | none => some index)
        | some k =>
          if k = key then some index
          else find_entry_loop entries capacity key fuel (((index + 1) % 2 ^ 32) % capacity)
            tombstone := rfl

/-- The probe loop started `d` steps from home reaches a slot holding `key`
that lies `n` steps further on, when nothing in between stops it. -/
theorem find_entry_loop_hit (hashOf : Nat → Nat) (entries : List table_entry)
    {cap : Nat} (key : Nat) (hc : 0 < cap) (hc32 : cap ≤ 2 ^ 32) :
    ∀ (n d : Nat) (ts : Option Nat) (fuel : Nat),
      (∀ d', d ≤ d' → d' < d + n → ∃ e : table_entry,
        entries[probe hashOf cap key d']? = some e ∧ e.key ≠ some key ∧ e.isEmpty = false) →
      (∃ e : table_entry, entries[probe hashOf cap key (d + n)]? = some e ∧ e.key = some key) →
      n < fuel →
      find_entry_loop entries cap key fuel (probe hashOf cap key d) ts
        = some (probe hashOf cap key (d + n)) := by
  intro n
  induction n with
  | zero =>
    intro d ts fuel _ hstop hf
    obtain ⟨e, he, hk⟩ := hstop
    obtain ⟨f, rfl⟩ : ∃ f, fuel = f + 1 := ⟨fuel - 1, by omega⟩
    simp only [Nat.add_zero] at he ⊢
    simp [find_entry_loop_succ, he, hk]
  | succ n ih =>
    intro d ts fuel hmid hstop hf
    obtain ⟨f, rfl⟩ : ∃ f, fuel = f + 1 := ⟨fuel - 1, by omega⟩
    obtain ⟨e, he, hk, hne⟩ := hmid d (Nat.le_refl d) (by omega)
    have hstep := probe_succ hashOf key d hc hc32
    have hrec : ∀ ts', find_entry_loop entries cap key f (probe hashOf cap key (d + 1)) ts'
        = some (probe hashOf cap key (d + 1 + n)) := by
      intro ts'
      apply ih (d + 1) ts' f
      · intro d' h1 h2
        exact hmid d' (by omega) (by omega)
      · have : d + 1 + n = d + (n + 1) := by omega
        rw [this]; exact hstop
      · omega
    have hidx : d + (n + 1) = d + 1 + n := by omega
    rw [hidx]
    rw [find_entry_loop_succ]
    simp only [he]
    cases hkey : e.key with
    | none =>
      have hnil : IS_NIL e.val = false := by
        simpa [table_entry.isEmpty, hkey] using hne
      simp only [hnil, hstep]
      exact hrec _
    | some k =>
      have hkk : k ≠ key := by
        intro h; apply hk; rw [hkey, h]
      simp only [hkk, hstep]
      exact hrec _

/-- The probe loop stops at an empty slot `n` steps further on and returns the
remembered tombstone, or else a key-less slot it passed on the way. -/
theorem find_entry_loop_miss (hashOf : Nat → Nat) (entries : List table_entry)
    {cap : Nat} (key : Nat) (hc : 0 < cap) (hc32 : cap ≤ 2 ^ 32) :
    ∀ (n d : Nat) (ts : Option Nat) (fuel : Nat),
      (∀ d', d ≤ d' → d' < d + n → ∃ e : table_entry,
        entries[probe hashOf cap key d']? = some e ∧ e.key ≠ some key ∧ e.isEmpty = false) →
      (∃ e : table_entry, entries[probe hashOf cap key (d + n)]? = some e ∧ e.isEmpty = true) →
      n < fuel →
      ∃ r, find_entry_loop entries cap key fuel (probe hashOf cap key d) ts = some r ∧
        (∀ t, ts = some t → r = t) ∧
        (ts = none → ∃ (dr : Nat) (e : table_entry), d ≤ dr ∧ dr ≤ d + n ∧
          r = probe hashOf cap key dr ∧ entries[r]? = some e ∧ e.key = none) := by
  intro n
  induction n with
  | zero =>
    intro d ts fuel _ hstop hf
    obtain ⟨e, he, hemp⟩ := hstop
    obtain ⟨f, rfl⟩ : ∃ f, fuel = f + 1 := ⟨fuel - 1, by omega⟩
    simp only [Nat.add_zero] at he ⊢
    have hk : e.key = none := by
      cases hkey : e.key with
      | none => rfl
      | some k => simp [table_entry.isEmpty, hkey] at hemp
    have hnil : IS_NIL e.val = true := by
      simpa [table_entry.isEmpty, hk] using hemp
    rw [find_entry_loop_succ]
    simp only [he, hk, hnil, if_true]
    cases ts with
    | none =>
      refine ⟨_, rfl, ?_, ?_⟩
      · intro t ht; cases ht
      · intro _
        exact ⟨d, e, Nat.le_refl d, Nat.le_refl d, rfl, he, hk⟩
    | some t =>
      refine ⟨_, rfl, ?_, ?_⟩
      · intro t' ht; cases ht; rfl
      · intro h; cases h
  | succ n ih =>
    intro d ts fuel hmid hstop hf
    obtain ⟨f, rfl⟩ : ∃ f, fuel = f + 1 := ⟨fuel - 1, by omega⟩
    obtain ⟨e, he, hk, hne⟩ := hmid d (Nat.le_refl d) (by omega)
    have hstep := probe_succ hashOf key d hc hc32
    have hrec := fun ts' => ih (d + 1) ts' f
      (fun d' h1 h2 => hmid d' (by omega) (by omega))
      (by
        have : d + 1 + n = d + (n + 1) := by omega
        rw [this]; exact hstop)
      (by omega)
    rw [find_entry_loop_succ]
    simp only [he]
    cases hkey : e.key with
    | none =>
      have hnil : IS_NIL e.val = false := by
        simpa [table_entry.isEmpty, hkey] using hne
      simp only [hnil, hstep]
      cases ts with
      | none =>
        obtain ⟨r, hr, hr1, _⟩ := hrec (some (probe hashOf cap key d))
        refine ⟨r, hr, ?_, ?_⟩
        · intro t ht; cases ht
        · intro _
          have hrt := hr1 _ rfl
          exact ⟨d, e, Nat.le_refl d, by omega, hrt, by rw [hrt]; exact he, hkey⟩
      | some t =>
        obtain ⟨r, hr, hr1, _⟩ := hrec (some t)
        refine ⟨r, hr, ?_, ?_⟩
        · intro t' ht; cases ht; exact hr1 _ rfl
        · intro h; cases h
    | some k =>
      have hkk : k ≠ key := by
        intro h; apply hk; rw [hkey, h]
      simp only [hkk, hstep, if_false]
      obtain ⟨r, hr, hr1, hr2⟩ := hrec ts
      refine ⟨r, hr, hr1, ?_⟩
      intro hts
      obtain ⟨dr, er, h1, h2, h3, h4, h5⟩ := hr2 hts
      exact ⟨dr, er, by omega, by omega, h3, h4, h5⟩

theorem exists_empty_of_used_lt {entries : List table_entry}
    (h : used_slots entries < entries.length) :
    ∃ (i : Nat) (e : table_entry), entries[i]? = some e ∧ e.isEmpty = true := by
  have hne : ¬ ∀ a ∈ entries, (fun e : table_entry => !e.isEmpty) a = true := by
    intro hall
    have := (List.countP_eq_length (p := fun e : table_entry => !e.isEmpty)).2 hall
    unfold used_slots at h
    omega
  push_neg at hne
  obtain ⟨a, ha, hp⟩ := hne
  obtain ⟨i, hi⟩ := List.mem_iff_getElem?.1 ha
  refine ⟨i, a, hi, ?_⟩
  simpa using hp

/-- What `find_entry` returns on a well-formed array with an empty slot: the
slot of `key` when the key is stored, else a key-less slot on the probe path
of `key` that insertion may use. -/
theorem find_entry_spec (hashOf : Nat → Nat) {entries : List table_entry} {cap fuel : Nat}
    (hwf : entries_wf hashOf entries cap) (hc32 : cap ≤ 2 ^ 32)
    (hused : used_slots entries < cap) (hfuel : cap ≤ fuel) (key : Nat) :
    ∃ (r : Nat) (e : table_entry), find_entry hashOf fuel entries cap key = some r ∧
      entries[r]? = some e ∧
      (e.key = some key ∨
        (e.key = none ∧
          (∀ (i : Nat) (e' : table_entry), entries[i]? = some e' → e'.key ≠ some key) ∧
          ∃ dr, dr < cap ∧ probe hashOf cap key dr = r ∧
            ∀ d', d' < dr → ∀ e' : table_entry,
              entries[probe hashOf cap key d']? = some e' → e'.isEmpty = false)) := by
  have hc : 0 < cap := by omega
  have hcne : cap ≠ 0 := by omega
  have hget : ∀ d, ∃ e : table_entry, entries[probe hashOf cap key d]? = some e := by
    intro d
    have : probe hashOf cap key d < entries.length := by
      rw [hwf.len]; exact probe_lt hashOf key d hc
    exact ⟨entries[probe hashOf cap key d], List.getElem?_eq_getElem this⟩
  unfold find_entry
  rw [if_neg hcne, probe_zero hashOf key hc hc32]
  by_cases hpres : ∃ (i : Nat) (e' : table_entry), entries[i]? = some e' ∧ e'.key = some key
  · obtain ⟨i, e', hi, hk⟩ := hpres
    obtain ⟨d, hd, hpd, hbefore⟩ := hwf.chain i e' key hi hk
    have h := find_entry_loop_hit hashOf entries key hc hc32 d 0 none fuel
      (by
        intro d' _ h2
        obtain ⟨e2, he2⟩ := hget d'
        refine ⟨e2, he2, ?_, hbefore d' (by omega) e2 he2⟩
        intro hk2
        have := hwf.uniq _ _ _ _ _ he2 hi hk2 hk
        rw [← hpd] at this
        have := probe_inj hashOf (by omega) hd this
        omega)
      (by
        rw [Nat.zero_add, hpd]
        exact ⟨e', hi, hk⟩)
      (by omega)
    rw [Nat.zero_add, hpd] at h
    exact ⟨i, e', h, hi, Or.inl hk⟩
  · push_neg at hpres
    have hlen := hwf.len
    obtain ⟨i0, e0, hi0, he0⟩ := exists_empty_of_used_lt (by rw [hlen]; exact hused)
    have hi0lt : i0 < cap := by
      rw [← hlen]
      exact (List.getElem?_eq_some_iff.1 hi0).1
    obtain ⟨d0, hd0, hpd0⟩ := probe_surj hashOf key i0 hi0lt
    have hex : ∃ d, ∃ e : table_entry,
        entries[probe hashOf cap key d]? = some e ∧ e.isEmpty = true :=
      ⟨d0, e0, by rw [hpd0]; exact hi0, he0⟩
    classical
    let n := Nat.find hex
    have hn : ∃ e : table_entry,
        entries[probe hashOf cap key n]? = some e ∧ e.isEmpty = true := Nat.find_spec hex
    have hmin : ∀ d', d' < n → ¬ ∃ e : table_entry,
        entries[probe hashOf cap key d']? = some e ∧ e.isEmpty = true :=
      fun d' hd' => Nat.find_min hex hd'
    have hnle : n ≤ d0 := Nat.find_min' hex ⟨e0, by rw [hpd0]; exact hi0, he0⟩
    have hnonempty : ∀ d', d' < n → ∀ e' : table_entry,
        entries[probe hashOf cap key d']? = some e' → e'.isEmpty = false := by
      intro d' hd' e' he'
      cases hem : e'.isEmpty with
      | false => rfl
      | true => exact absurd ⟨e', he', hem⟩ (hmin d' hd')
    obtain ⟨r, hr, _, hr2⟩ := find_entry_loop_miss hashOf entries key hc hc32 n 0 none fuel
      (by
        intro d' _ h2
        obtain ⟨e2, he2⟩ := hget d'
        exact ⟨e2, he2, hpres _ _ he2, hnonempty d' (by omega) e2 he2⟩)
      (by rw [Nat.zero_add]; exact hn)
      (by omega)
    obtain ⟨dr, er, _, hdr, hrp, her, hkr⟩ := hr2 rfl
    refine ⟨r, er, hr, her, Or.inr ⟨hkr, hpres, dr, by omega, hrp.symm, ?_⟩⟩
    intro d' hd' e' he'
    exact hnonempty d' (by omega) e' he'

theorem getElem?_set_cases {entries : List table_entry} {r j : Nat} {x e' : table_entry}
    (h : (entries.set r x)[j]? = some e') :
    (j = r ∧ e' = x) ∨ (j ≠ r ∧ entries[j]? = some e') := by
  rw [List.getElem?_set] at h
  by_cases hrj : r = j
  · rw [if_pos hrj] at h
    by_cases hlt : r < entries.length
    · rw [if_pos hlt] at h
      exact Or.inl ⟨hrj.symm, (Option.some.inj h).symm⟩
    · rw [if_neg hlt] at h; cases h
  · rw [if_neg hrj] at h
    exact Or.inr ⟨fun h' => hrj h'.symm, h⟩

theorem getElem?_set_at {entries : List table_entry} {r : Nat} {x e : table_entry}
    (h : entries[r]? = some e) : (entries.set r x)[r]? = some x := by
  have hlt : r < entries.length := (List.getElem?_eq_some_iff.1 h).1
  rw [List.getElem?_set, if_pos rfl, if_pos hlt]

theorem getElem?_set_other {entries : List table_entry} {r j : Nat} {x : table_entry}
    (h : j ≠ r) : (entries.set r x)[j]? = entries[j]? := by
  rw [List.getElem?_set, if_neg (fun h' => h h'.symm)]

/-- Storing a key in the slot `find_entry` returned keeps the array well-formed. -/
theorem entries_wf_set_key (hashOf : Nat → Nat) {entries : List table_entry} {cap r key : Nat}
    {e : table_entry} (v : value)
    (hwf : entries_wf hashOf entries cap) (her : entries[r]? = some e)
    (hcase : e.key = some key ∨
      (e.key = none ∧
        (∀ (i : Nat) (e' : table_entry), entries[i]? = some e' → e'.key ≠ some key) ∧
        ∃ dr, dr < cap ∧ probe hashOf cap key dr = r ∧
          ∀ d', d' < dr → ∀ e' : table_entry,
            entries[probe hashOf cap key d']? = some e' → e'.isEmpty = false)) :
    entries_wf hashOf (entries.set r { key := some key, val := v }) cap := by
  have hkeep : ∀ (j : Nat) (e' : table_entry),
      (entries.set r { key := some key, val := v })[j]? = some e' →
      (∀ e0 : table_entry, entries[j]? = some e0 → e0.isEmpty = false) →
      e'.isEmpty = false := by
    intro j e' hj hold
    rcases getElem?_set_cases hj with ⟨_, rfl⟩ | ⟨_, h2⟩
    · rfl
    · exact hold e' h2
  refine ⟨by rw [List.length_set]; exact hwf.len, ?_, ?_⟩
  · intro i e1 k hi hk
    rcases getElem?_set_cases hi with ⟨rfl, rfl⟩ | ⟨_, h2⟩
    · have hkk : k = key := by
        simp only [Option.some.injEq] at hk
        exact hk.symm
      subst hkk
      rcases hcase with hhit | ⟨_, _, dr, hdr, hpr, hbefore⟩
      · obtain ⟨d, hd, hpd, hbefore⟩ := hwf.chain _ e k her hhit
        exact ⟨d, hd, hpd, fun d' hd' e' he' => hkeep _ e' he' (hbefore d' hd')⟩
      · exact ⟨dr, hdr, hpr, fun d' hd' e' he' => hkeep _ e' he' (hbefore d' hd')⟩
    · obtain ⟨d, hd, hpd, hbefore⟩ := hwf.chain i e1 k h2 hk
      exact ⟨d, hd, hpd, fun d' hd' e' he' => hkeep _ e' he' (hbefore d' hd')⟩
  · intro i j ei ej k hi hj hki hkj
    have hnew : ∀ (i' : Nat) (e' : table_entry), i' ≠ r → entries[i']? = some e' →
        e'.key = some key → False := by
      intro i' e' hne he' hk'
      rcases hcase with hhit | ⟨_, habs, _⟩
      · exact hne (hwf.uniq _ _ _ _ _ he' her hk' hhit)
      · exact habs i' e' he' hk'
    rcases getElem?_set_cases hi with ⟨rfl, rfl⟩ | ⟨hir, h2⟩
    · rcases getElem?_set_cases hj with ⟨rfl, rfl⟩ | ⟨hjr, h3⟩
      · rfl
      · have hkk : k = key := by
          simp only [Option.some.injEq] at hki
          exact hki.symm
        subst hkk
        exact absurd hkj (fun h => hnew j ej hjr h3 h)
    · rcases getElem?_set_cases hj with ⟨rfl, rfl⟩ | ⟨hjr, h3⟩
      · have hkk : k = key := by
          simp only [Option.some.injEq] at hkj
          exact hkj.symm
        subst hkk
        exact absurd hki (fun h => hnew i ei hir h2 h)
      · exact hwf.uniq _ _ _ _ _ h2 h3 hki hkj

/-- Turning a slot into a tombstone keeps the array well-formed. -/
theorem entries_wf_set_tombstone (hashOf : Nat → Nat) {entries : List table_entry}
    {cap r : Nat} (hwf : entries_wf hashOf entries cap) :
    entries_wf hashOf (entries.set r { key := none, val := value.bool true }) cap := by
  have hkeep : ∀ (j : Nat) (e' : table_entry),
      (entries.set r { key := none, val := value.bool true })[j]? = some e' →
      (∀ e0 : table_entry, entries[j]? = some e0 → e0.isEmpty = false) →
      e'.isEmpty = false := by
    intro j e' hj hold
    rcases getElem?_set_cases hj with ⟨_, rfl⟩ | ⟨_, h2⟩
    · rfl
    · exact hold e' h2
  refine ⟨by rw [List.length_set]; exact hwf.len, ?_, ?_⟩
  · intro i e1 k hi hk
    rcases getElem?_set_cases hi with ⟨rfl, rfl⟩ | ⟨_, h2⟩
    · cases hk
    · obtain ⟨d, hd, hpd, hbefore⟩ := hwf.chain i e1 k h2 hk
      exact ⟨d, hd, hpd, fun d' hd' e' he' => hkeep _ e' he' (hbefore d' hd')⟩
  · intro i j ei ej k hi hj hki hkj
    rcases getElem?_set_cases hi with ⟨rfl, rfl⟩ | ⟨_, h2⟩
    · cases hki
    · rcases getElem?_set_cases hj with ⟨rfl, rfl⟩ | ⟨_, h3⟩
      · cases hkj
      · exact hwf.uniq _ _ _ _ _ h2 h3 hki hkj

theorem used_slots_set {entries : List table_entry} {r : Nat} {e : table_entry}
    (x : table_entry) (her : entries[r]? = some e) (hx : x.isEmpty = false) :
    used_slots (entries.set r x) =
      if e.isEmpty then used_slots entries + 1 else used_slots entries := by
  obtain ⟨hlt, hget⟩ := List.getElem?_eq_some_iff.1 her
  unfold used_slots
  rw [List.countP_set _ _ _ _ hlt, hget]
  have hle := List.boole_getElem_le_countP (fun e : table_entry => !e.isEmpty) entries r hlt
  rw [hget] at hle
  cases he : e.isEmpty with
  | true => simp [hx]
  | false =>
    simp only [he, hx, Bool.not_false, if_true] at hle ⊢
    simp only [Bool.false_eq_true, if_false]
    omega

theorem keyed_le_used (entries : List table_entry) : keyed_slots entries ≤ used_slots entries := by
  unfold keyed_slots used_slots
  apply List.countP_mono_left
  intro e _ he
  cases hk : e.key with
  | none => simp [hk] at he
  | some k => simp [table_entry.isEmpty, hk]

theorem entry_eta {e : table_entry} {k : Nat} (h : e.key = some k) :
    e = { key := some k, val := e.val } := by
  cases e
  simp only at h
  subst h
  rfl

/-- The re-insertion loop of `adjust_capacity` terminates and moves every live
entry into the new array, which stays well-formed and free of tombstones. -/
theorem adjust_capacity_loop_spec (hashOf : Nat → Nat) {cap fuel : Nat}
    (hc32 : cap ≤ 2 ^ 32) (hfuel : cap ≤ fuel) :
    ∀ (old entries : List table_entry) (count : Nat),
      entries_wf hashOf entries cap →
      (∀ (i : Nat) (e : table_entry), entries[i]? = some e → e.key = none → e.isEmpty = true) →
      count = used_slots entries →
      used_slots entries + keyed_slots old < cap →
      old.Pairwise (fun a b => ∀ k, a.key = some k → b.key ≠ some k) →
      (∀ e ∈ old, ∀ k, e.key = some k →
        ∀ (i : Nat) (e' : table_entry), entries[i]? = some e' → e'.key ≠ some k) →
      ∃ (entries' : List table_entry) (count' : Nat),
        adjust_capacity_loop hashOf fuel cap old entries count = some (entries', count') ∧
        entries_wf hashOf entries' cap ∧ count' = used_slots entries' ∧
        count' = count + keyed_slots old ∧
        (∀ (k : Nat) (v : value), ({ key := some k, val := v } : table_entry) ∈ entries' ↔
          (({ key := some k, val := v } : table_entry) ∈ entries ∨
            ({ key := some k, val := v } : table_entry) ∈ old)) := by
  intro old
  induction old with
  | nil =>
    intro entries count hwf _ hcount _ _ _
    refine ⟨entries, count, rfl, hwf, hcount, by simp [keyed_slots], ?_⟩
    intro k v; simp
  | cons e old ih =>
    intro entries count hwf hnotomb hcount hroom hpair habs
    cases hkey : e.key with
    | none =>
      have hks : keyed_slots (e :: old) = keyed_slots old := by
        simp [keyed_slots, List.countP_cons, hkey]
      obtain ⟨entries', count', hrun, hwf', hc', hc2, hmem⟩ :=
        ih entries count hwf hnotomb hcount (by rw [← hks]; exact hroom)
          (List.Pairwise.of_cons hpair)
          (fun e2 he2 => habs e2 (List.mem_cons_of_mem _ he2))
      refine ⟨entries', count', ?_, hwf', hc', by rw [hks]; exact hc2, ?_⟩
      · simp only [adjust_capacity_loop, hkey]; exact hrun
      · intro k v
        rw [hmem k v, List.mem_cons]
        constructor
        · rintro (h | h)
          · exact Or.inl h
          · exact Or.inr (Or.inr h)
        · rintro (h | h | h)
          · exact Or.inl h
          · rw [← h] at hkey; cases hkey
          · exact Or.inr h
    | some k =>
      have hks : keyed_slots (e :: old) = keyed_slots old + 1 := by
        simp [keyed_slots, List.countP_cons, hkey]
      have hkabs := habs e (List.mem_cons_self _ _) k hkey
      obtain ⟨r, er, hfind, her, hcase⟩ :=
        find_entry_spec hashOf hwf hc32 (by omega) hfuel k
      have hmiss : er.key = none := by
        rcases hcase with h | ⟨h, _⟩
        · exact absurd h (hkabs r er her)
        · exact h
      have hcase' : er.key = some k ∨
          (er.key = none ∧
            (∀ (i : Nat) (e' : table_entry), entries[i]? = some e' → e'.key ≠ some k) ∧
            ∃ dr, dr < cap ∧ probe hashOf cap k dr = r ∧
              ∀ d', d' < dr → ∀ e' : table_entry,
                entries[probe hashOf cap k d']? = some e' → e'.isEmpty = false) := hcase
      have hwf2 := entries_wf_set_key hashOf e.val hwf her hcase'
      have hused2 : used_slots (entries.set r { key := some k, val := e.val })
          = used_slots entries + 1 := by
        rw [used_slots_set { key := some k, val := e.val } her rfl, hnotomb r er her hmiss]; rfl
      obtain ⟨entries', count', hrun, hwf', hc', hc2, hmem⟩ :=
        ih (entries.set r { key := some k, val := e.val }) (count + 1) hwf2
          (by
            intro i e' hi hk'
            rcases getElem?_set_cases hi with ⟨_, rfl⟩ | ⟨_, h2⟩
            · cases hk'
            · exact hnotomb i e' h2 hk')
          (by rw [hused2, hcount])
          (by rw [hused2]; omega)
          (List.Pairwise.of_cons hpair)
          (by
            intro e2 he2 k2 hk2 i e' hi
            rcases getElem?_set_cases hi with ⟨_, rfl⟩ | ⟨_, h2⟩
            · intro hkk
              simp only [Option.some.injEq] at hkk
              subst hkk
              exact (List.rel_of_pairwise_cons hpair he2) k hkey hk2
            · exact habs e2 (List.mem_cons_of_mem _ he2) k2 hk2 i e' h2)
      refine ⟨entries', count', ?_, hwf', hc', by rw [hc2, hks]; omega, ?_⟩
      · simp only [adjust_capacity_loop, hkey, hfind]; exact hrun
      · intro k' v
        rw [hmem k' v, List.mem_cons]
        have he : e = { key := some k, val := e.val } := entry_eta hkey
        constructor
        · rintro (h | h)
          · obtain ⟨i, hi⟩ := List.mem_iff_getElem?.1 h
            rcases getElem?_set_cases hi with ⟨_, h1⟩ | ⟨_, h2⟩
            · right; left; rw [h1, ← he]
            · left; exact List.mem_iff_getElem?.2 ⟨i, h2⟩
          · right; right; exact h
        · rintro (h | h | h)
          · left
            obtain ⟨i, hi⟩ := List.mem_iff_getElem?.1 h
            have hir : i ≠ r := by
              rintro rfl
              rw [her] at hi
              have := Option.some.inj hi
              rw [this] at hmiss
              cases hmiss
            exact List.mem_iff_getElem?.2 ⟨i, by rw [getElem?_set_other hir]; exact hi⟩
          · left
            rw [h, he]
            exact List.mem_iff_getElem?.2 ⟨r, getElem?_set_at her⟩
          · right; exact h

theorem entries_wf_replicate (hashOf : Nat → Nat) (cap : Nat) :
    entries_wf hashOf (List.replicate cap { key := none, val := value.nil }) cap := by
  refine ⟨List.length_replicate _ _, ?_, ?_⟩
  · intro i e k hi hk
    have := List.eq_of_mem_replicate (List.mem_iff_getElem?.2 ⟨i, hi⟩)
    rw [this] at hk; cases hk
  · intro i j ei ej k hi _ hki _
    have := List.eq_of_mem_replicate (List.mem_iff_getElem?.2 ⟨i, hi⟩)
    rw [this] at hki; cases hki

theorem used_slots_replicate (cap : Nat) :
    used_slots (List.replicate cap ({ key := none, val := value.nil } : table_entry)) = 0 := by
  unfold used_slots
  rw [List.countP_eq_zero]
  intro a ha
  rw [List.eq_of_mem_replicate ha]
  simp [table_entry.isEmpty, IS_NIL]

/-- Function `adjust_capacity` terminates on a well-formed table when the new
capacity exceeds the number of live keys; the new table is well-formed, holds
the same bindings, and its count is the number of live keys. -/
theorem adjust_capacity_spec (hashOf : Nat → Nat) {tab : table} {cap fuel : Nat}
    (hwf : entries_wf hashOf tab.entries tab.capacity)
    (hroom : keyed_slots tab.entries < cap) (hc32 : cap ≤ 2 ^ 32) (hfuel : cap ≤ fuel) :
    ∃ tab' : table, adjust_capacity hashOf fuel tab cap = some tab' ∧
      entries_wf hashOf tab'.entries tab'.capacity ∧ tab'.capacity = cap ∧
      tab'.count = used_slots tab'.entries ∧ tab'.count = keyed_slots tab.entries ∧
      (∀ (k : Nat) (v : value), ({ key := some k, val := v } : table_entry) ∈ tab'.entries ↔
        ({ key := some k, val := v } : table_entry) ∈ tab.entries) := by
  have htake : tab.entries.take tab.capacity = tab.entries :=
    List.take_of_length_le (by rw [hwf.len])
  have hpair : tab.entries.Pairwise (fun a b => ∀ k, a.key = some k → b.key ≠ some k) := by
    rw [List.pairwise_iff_getElem]
    intro i j hi hj hij k hki hkj
    have := hwf.uniq i j _ _ k (List.getElem?_eq_getElem hi) (List.getElem?_eq_getElem hj)
      hki hkj
    omega
  obtain ⟨entries', count', hrun, hwf', hc', hc2, hmem⟩ :=
    adjust_capacity_loop_spec hashOf hc32 hfuel tab.entries
      (List.replicate cap { key := none, val := value.nil }) 0
      (entries_wf_replicate hashOf cap)
      (by
        intro i e hi _
        rw [List.eq_of_mem_replicate (List.mem_iff_getElem?.2 ⟨i, hi⟩)]
        rfl)
      (used_slots_replicate cap).symm
      (by rw [used_slots_replicate]; omega)
      hpair
      (by
        intro e _ k _ i e' hi hk'
        rw [List.eq_of_mem_replicate (List.mem_iff_getElem?.2 ⟨i, hi⟩)] at hk'
        cases hk')
  refine ⟨{ count := count', capacity := cap, entries := entries' }, ?_, hwf', rfl, hc',
    by simpa using hc2, ?_⟩
  · unfold adjust_capacity
    rw [htake, hrun]
  · intro k v
    rw [hmem k v]
    constructor
    · rintro (h | h)
      · have := List.eq_of_mem_replicate h
        cases this
      · exact h
    · exact Or.inr

theorem no_key_of_used_zero {entries : List table_entry} (h : used_slots entries = 0)
    (k : Nat) (v : value) : ({ key := some k, val := v } : table_entry) ∉ entries := by
  intro hmem
  unfold used_slots at h
  rw [List.countP_eq_zero] at h
  have := h _ hmem
  simp [table_entry.isEmpty] at this

theorem GROW_CAPACITY_pos (c : Nat) : 0 < GROW_CAPACITY c := by
  unfold GROW_CAPACITY; split <;> omega

/-- The second half of `set_table` on a well-formed array with room for one
more entry: it terminates, the table stays well-formed, and it holds the
binding of `key` to `v` next to the bindings of the other keys. -/
theorem set_table_store_spec (hashOf : Nat → Nat) {tab : table} {fuel : Nat}
    (key : Nat) (v : value)
    (hwf : entries_wf hashOf tab.entries tab.capacity)
    (hcount : tab.count = used_slots tab.entries)
    (hload : 4 * (tab.count + 1) ≤ 3 * tab.capacity) (hc32 : tab.capacity ≤ 2 ^ 32)
    (hfuel : tab.capacity ≤ fuel) :
    ∃ (tab' : table) (b : Bool), set_table_store hashOf fuel tab key v = some (tab', b) ∧
      table_wf hashOf tab' ∧ tab'.capacity = tab.capacity ∧ tab'.count ≤ tab.count + 1 ∧
      ∀ (k : Nat) (w : value), ({ key := some k, val := w } : table_entry) ∈ tab'.entries ↔
        ((k = key ∧ w = v) ∨
          (k ≠ key ∧ ({ key := some k, val := w } : table_entry) ∈ tab.entries)) := by
  obtain ⟨r, er, hfind, her, hcase⟩ :=
    find_entry_spec hashOf hwf hc32 (by omega) hfuel key
  have hwf2 := entries_wf_set_key hashOf v hwf her hcase
  have hused2 := @used_slots_set tab.entries r er { key := some key, val := v } her rfl
  have hcount2 : (if er.key.isNone && IS_NIL er.val then tab.count + 1 else tab.count)
      = used_slots (tab.entries.set r { key := some key, val := v }) := by
    rw [hused2, hcount]; rfl
  have hcount_le : (if er.key.isNone && IS_NIL er.val then tab.count + 1 else tab.count)
      ≤ tab.count + 1 := by
    split <;> omega
  refine ⟨{ count := if er.key.isNone && IS_NIL er.val then tab.count + 1 else tab.count,
            capacity := tab.capacity,
            entries := tab.entries.set r { key := some key, val := v } },
    er.key.isNone, ?_, ⟨hwf2, hcount2, ?_, hc32⟩, rfl, hcount_le, ?_⟩
  · simp only [set_table_store, hfind, her]
  · show 4 * (if er.key.isNone && IS_NIL er.val then tab.count + 1 else tab.count)
      ≤ 3 * tab.capacity
    omega
  · intro k w
    show _ ∈ tab.entries.set r { key := some key, val := v } ↔ _
    have hother : ∀ (i : Nat) (e' : table_entry), i ≠ r → tab.entries[i]? = some e' →
        e'.key ≠ some key := by
      intro i e' hne he' hk'
      rcases hcase with hhit | ⟨_, habs, _⟩
      · exact hne (hwf.uniq _ _ _ _ _ he' her hk' hhit)
      · exact habs i e' he' hk'
    constructor
    · intro h
      obtain ⟨i, hi⟩ := List.mem_iff_getElem?.1 h
      rcases getElem?_set_cases hi with ⟨_, h1⟩ | ⟨hir, h2⟩
      · simp only [table_entry.mk.injEq, Option.some.injEq] at h1
        exact Or.inl h1
      · have hk : k ≠ key := by
          intro hk
          exact hother i _ hir h2 (by rw [hk])
        exact Or.inr ⟨hk, List.mem_iff_getElem?.2 ⟨i, h2⟩⟩
    · rintro (⟨hk, hw⟩ | ⟨hk, hmem⟩)
      · subst hk; subst hw
        exact List.mem_iff_getElem?.2 ⟨r, getElem?_set_at her⟩
      · obtain ⟨i, hi⟩ := List.mem_iff_getElem?.1 hmem
        have hir : i ≠ r := by
          rintro rfl
          rw [her] at hi
          have h0 := Option.some.inj hi
          rcases hcase with hhit | ⟨hnone, _⟩
          · rw [h0] at hhit
            simp only [Option.some.injEq] at hhit
            exact hk hhit
          · rw [h0] at hnone; cases hnone
        exact List.mem_iff_getElem?.2 ⟨i, by rw [getElem?_set_other hir]; exact hi⟩

/-- Function `set_table` on a well-formed table that represents `m`: it
terminates, the table stays well-formed and represents `m` updated at `key`.
`n` bounds the number of `set_table` calls made on the table so far. -/
theorem set_table_spec (hashOf : Nat → Nat) {tab : table} {fuel : Nat}
    {m : Nat → Option value} (key : Nat) (v : value) (n : Nat)
    (hwf : table_wf hashOf tab) (hrep : table_repr tab m) (hfuel : 2 ^ 32 ≤ fuel)
    (hn : n < 2 ^ 30) (hcapn : 3 * tab.capacity ≤ 8 * n + 24) (hcnt : tab.count ≤ n) :
    ∃ (tab' : table) (b : Bool), set_table hashOf fuel tab key v = some (tab', b) ∧
      table_wf hashOf tab' ∧ table_repr tab' (map_step m (table_op.set key v)) ∧
      3 * tab'.capacity ≤ 8 * (n + 1) + 24 ∧ tab'.count ≤ n + 1 := by
  -- the table after the optional resize
  have hphase : ∃ tab1 : table,
      (if table_overloaded tab then
         adjust_capacity hashOf fuel tab (GROW_CAPACITY tab.capacity)
       else some tab) = some tab1 ∧
      entries_wf hashOf tab1.entries tab1.capacity ∧
      tab1.count = used_slots tab1.entries ∧
      4 * (tab1.count + 1) ≤ 3 * tab1.capacity ∧
      3 * tab1.capacity ≤ 8 * (n + 1) + 24 ∧ tab1.count ≤ n ∧
      (∀ (k : Nat) (w : value), ({ key := some k, val := w } : table_entry) ∈ tab1.entries ↔
        ({ key := some k, val := w } : table_entry) ∈ tab.entries) := by
    by_cases hgrow : 4 * (tab.count + 1) > 3 * tab.capacity
    · rw [if_pos (by simpa [table_overloaded] using hgrow)]
      have hku := keyed_le_used tab.entries
      have hce := hwf.count_eq
      have hld := hwf.load
      have hG : GROW_CAPACITY tab.capacity = if tab.capacity < 8 then 8 else tab.capacity * 2 :=
        rfl
      have hGle : 3 * GROW_CAPACITY tab.capacity ≤ 8 * (n + 1) + 24 := by
        rw [hG]; split <;> omega
      have hGlt : 4 * (tab.count + 1) ≤ 3 * GROW_CAPACITY tab.capacity := by
        rw [hG]; split <;> omega
      obtain ⟨tab1, h1, h2, h3, h4, h5, h6⟩ :=
        @adjust_capacity_spec hashOf tab (GROW_CAPACITY tab.capacity) fuel hwf.wf
          (by omega) (by omega) (by omega)
      exact ⟨tab1, h1, h2, h4, by rw [h3]; omega, by rw [h3]; omega, by omega, h6⟩
    · rw [if_neg (by simpa [table_overloaded] using hgrow)]
      exact ⟨tab, rfl, hwf.wf, hwf.count_eq, by omega, by omega, hcnt, fun _ _ => Iff.rfl⟩
  obtain ⟨tab1, hph, hwf1, hc1, hload1, hcap1, hcnt1, hmem1⟩ := hphase
  obtain ⟨tab', b, hstore, hwf', hcap', hcount', hmem'⟩ :=
    set_table_store_spec hashOf key v hwf1 hc1 hload1 (by omega : tab1.capacity ≤ 2 ^ 32)
      (by omega : tab1.capacity ≤ fuel)
  refine ⟨tab', b, ?_, hwf', ?_, by rw [hcap']; exact hcap1, by omega⟩
  · unfold set_table
    rw [hph]
    exact hstore
  · intro k w
    show (if k = key then some v else m k) = some w ↔ _
    rw [hmem' k w]
    by_cases hk : k = key
    · rw [if_pos hk]
      constructor
      · intro h
        exact Or.inl ⟨hk, (Option.some.inj h).symm⟩
      · rintro (⟨_, hw⟩ | ⟨hne, _⟩)
        · rw [hw]
        · exact absurd hk hne
    · rw [if_neg hk, hrep k w, ← hmem1 k w]
      constructor
      · intro h; exact Or.inr ⟨hk, h⟩
      · rintro (⟨h, _⟩ | ⟨_, h⟩)
        · exact absurd h hk
        · exact h

/-- Function `delete_table` on a well-formed table that represents `m`. -/
theorem delete_table_spec (hashOf : Nat → Nat) {tab : table} {fuel : Nat}
    {m : Nat → Option value} (key : Nat)
    (hwf : table_wf hashOf tab) (hrep : table_repr tab m) (hfuel : 2 ^ 32 ≤ fuel) :
    ∃ (tab' : table) (b : Bool), delete_table hashOf fuel tab key = some (tab', b) ∧
      table_wf hashOf tab' ∧ table_repr tab' (map_step m (table_op.delete key)) ∧
      tab'.capacity = tab.capacity ∧ tab'.count = tab.count := by
  have hunchanged : (∀ w : value, ({ key := some key, val := w } : table_entry) ∉ tab.entries) →
      table_repr tab (map_step m (table_op.delete key)) := by
    intro habs k w
    show (if k = key then none else m k) = some w ↔ _
    by_cases hk : k = key
    · rw [if_pos hk]
      subst hk
      constructor
      · intro h; cases h
      · intro h; exact absurd h (habs w)
    · rw [if_neg hk]; exact hrep k w
  by_cases hzero : tab.count = 0
  · refine ⟨tab, false, by unfold delete_table; rw [if_pos hzero], hwf, ?_, rfl, rfl⟩
    apply hunchanged
    intro w
    exact no_key_of_used_zero (by rw [← hwf.count_eq]; exact hzero) key w
  · have hld := hwf.load
    have hce := hwf.count_eq
    have hc32 := hwf.cap_le
    obtain ⟨r, er, hfind, her, hcase⟩ :=
      find_entry_spec hashOf hwf.wf hc32 (by omega) (by omega : tab.capacity ≤ fuel) key
    rcases hcase with hhit | ⟨hnone, habs, _⟩
    · refine ⟨{ tab with entries := tab.entries.set r { key := none, val := value.bool true } },
        true, ?_, ⟨entries_wf_set_tombstone hashOf hwf.wf, ?_, hwf.load, hc32⟩, ?_, rfl, rfl⟩
      · unfold delete_table
        rw [if_neg hzero]
        simp only [hfind, her, hhit]
      · show tab.count = used_slots (tab.entries.set r { key := none, val := value.bool true })
        rw [used_slots_set { key := none, val := value.bool true } her rfl,
          isEmpty_false_of_key hhit]
        exact hce
      · intro k w
        show (if k = key then none else m k) = some w ↔
          _ ∈ tab.entries.set r { key := none, val := value.bool true }
        constructor
        · intro h
          by_cases hk : k = key
          · rw [if_pos hk] at h; cases h
          · rw [if_neg hk] at h
            obtain ⟨i, hi⟩ := List.mem_iff_getElem?.1 ((hrep k w).1 h)
            have hir : i ≠ r := by
              rintro rfl
              rw [her] at hi
              rw [Option.some.inj hi] at hhit
              simp only [Option.some.injEq] at hhit
              exact hk hhit
            exact List.mem_iff_getElem?.2 ⟨i, by rw [getElem?_set_other hir]; exact hi⟩
        · intro h
          obtain ⟨i, hi⟩ := List.mem_iff_getElem?.1 h
          rcases getElem?_set_cases hi with ⟨_, h1⟩ | ⟨hir, h2⟩
          · simp at h1
          · have hk : k ≠ key := by
              rintro rfl
              exact hir (hwf.wf.uniq _ _ _ _ _ h2 her rfl hhit)
            rw [if_neg hk]
            exact (hrep k w).2 (List.mem_iff_getElem?.2 ⟨i, h2⟩)
    · refine ⟨tab, false, ?_, hwf, ?_, rfl, rfl⟩
      · unfold delete_table
        rw [if_neg hzero]
        simp only [hfind, her, hnone]
      · apply hunchanged
        intro w hmem
        obtain ⟨i, hi⟩ := List.mem_iff_getElem?.1 hmem
        exact habs i _ hi rfl

/-- Function `get_table` on a well-formed table that represents `m` terminates
and answers as `m` does. -/
theorem get_table_spec (hashOf : Nat → Nat) {tab : table} {fuel : Nat}
    {m : Nat → Option value} (key : Nat)
    (hwf : table_wf hashOf tab) (hrep : table_repr tab m) (hfuel : 2 ^ 32 ≤ fuel) :
    get_table hashOf fuel tab key = some (m key) := by
  have hnone : (∀ w : value, ({ key := some key, val := w } : table_entry) ∉ tab.entries) →
      m key = none := by
    intro habs
    cases hm : m key with
    | none => rfl
    | some w => exact absurd ((hrep key w).1 hm) (habs w)
  by_cases hzero : tab.count = 0
  · unfold get_table
    rw [if_pos hzero, hnone]
    intro w
    exact no_key_of_used_zero (by rw [← hwf.count_eq]; exact hzero) key w
  · have hld := hwf.load
    have hce := hwf.count_eq
    have hc32 := hwf.cap_le
    obtain ⟨r, er, hfind, her, hcase⟩ :=
      find_entry_spec hashOf hwf.wf hc32 (by omega) (by omega : tab.capacity ≤ fuel) key
    unfold get_table
    rw [if_neg hzero]
    rcases hcase with hhit | ⟨hkn, habs, _⟩
    · simp only [hfind, her, hhit]
      have hmem : ({ key := some key, val := er.val } : table_entry) ∈ tab.entries := by
        rw [← entry_eta hhit]
        exact List.mem_iff_getElem?.2 ⟨r, her⟩
      rw [(hrep key er.val).2 hmem]
    · simp only [hfind, her, hkn]
      rw [hnone]
      intro w hmem
      obtain ⟨i, hi⟩ := List.mem_iff_getElem?.1 hmem
      exact habs i _ hi rfl

theorem table_wf_init (hashOf : Nat → Nat) : table_wf hashOf init_table := by
  refine ⟨⟨rfl, ?_, ?_⟩, rfl, by simp [init_table], by simp [init_table]⟩
  · intro i e k hi _
    simp [init_table] at hi
  · intro i j ei ej k hi _ _ _
    simp [init_table] at hi

theorem table_repr_init : table_repr init_table (fun _ => none) := by
  intro k v
  simp [init_table]

/-- Any sequence of calls on a well-formed table terminates and keeps the
table a representation of the finite map the calls describe. -/
theorem run_table_ops_spec (hashOf : Nat → Nat) {fuel : Nat} (hfuel : 2 ^ 32 ≤ fuel) :
    ∀ (ops : List table_op) (tab : table) (m : Nat → Option value) (n : Nat),
      table_wf hashOf tab → table_repr tab m → n + ops.length ≤ 2 ^ 30 →
      3 * tab.capacity ≤ 8 * n + 24 → tab.count ≤ n →
      ∃ tab' : table, run_table_ops hashOf fuel tab ops = some tab' ∧
        table_wf hashOf tab' ∧ table_repr tab' (ops.foldl map_step m) := by
  intro ops
  induction ops with
  | nil =>
    intro tab m n hwf hrep _ _ _
    exact ⟨tab, rfl, hwf, hrep⟩
  | cons op ops ih =>
    intro tab m n hwf hrep hlen hcap hcnt
    simp only [List.length_cons] at hlen
    cases op with
    | set k v =>
      obtain ⟨tab1, b, hset, hwf1, hrep1, hcap1, hcnt1⟩ :=
        set_table_spec hashOf k v n hwf hrep hfuel (by omega) hcap hcnt
      obtain ⟨tab', hrun, hwf', hrep'⟩ :=
        ih tab1 _ (n + 1) hwf1 hrep1 (by omega) hcap1 hcnt1
      refine ⟨tab', ?_, hwf', hrep'⟩
      simp only [run_table_ops, hset]
      exact hrun
    | delete k =>
      obtain ⟨tab1, b, hdel, hwf1, hrep1, hcap1, hcnt1⟩ :=
        delete_table_spec hashOf k hwf hrep hfuel
      obtain ⟨tab', hrun, hwf', hrep'⟩ :=
        ih tab1 _ n hwf1 hrep1 (by omega) (by omega) (by omega)
      refine ⟨tab', ?_, hwf', hrep'⟩
      simp only [run_table_ops, hdel]
      exact hrun

theorem foldl_map_step_eq (ops : List table_op) :
    ∀ (m : Nat → Option value) (k : Nat),
      ops.foldl map_step m k =
        match last_call_on k ops with
        | some (table_op.set _ v) => some v
        | some (table_op.delete _) => none
        | none => m k := by
  induction ops with
  | nil => intro m k; rfl
  | cons op ops ih =>
    intro m k
    rw [List.foldl_cons, ih]
    simp only [last_call_on]
    cases hl : last_call_on k ops with
    | some o => cases o <;> rfl
    | none =>
      cases op with
      | set k1 v =>
        by_cases hk : k1 = k
        · subst hk; simp [table_op.key, map_step]
        · have hk' : ¬ k = k1 := fun h => hk h.symm
          simp [table_op.key, map_step, hk, hk']
      | delete k1 =>
        by_cases hk : k1 = k
        · subst hk; simp [table_op.key, map_step]
        · have hk' : ¬ k = k1 := fun h => hk h.symm
          simp [table_op.key, map_step, hk, hk']

/-- C1: every sequence of `set_table` and `delete_table` calls (of at most
2^30 calls, so that the capacity stays within the `uint32` probe index)
applied to a table started with `init_table` terminates, and afterwards
`get_table` on any key succeeds iff the last call on that key was a
`set_table`, yielding the value given to it: the table refines a finite map. -/
theorem table_refines_finite_map (hashOf : Nat → Nat) (fuel : Nat) (ops : List table_op)
    (hlen : ops.length ≤ 2 ^ 30) (hfuel : 2 ^ 32 ≤ fuel) :
    ∃ tab : table, run_table_ops hashOf fuel init_table ops = some tab ∧
      ∀ k, get_table hashOf fuel tab k = some (spec_get ops k) := by
  obtain ⟨tab, hrun, hwf, hrep⟩ :=
    run_table_ops_spec hashOf hfuel ops init_table (fun _ => none) 0
      (table_wf_init hashOf) table_repr_init (by omega) (by simp [init_table])
      (by simp [init_table])
  refine ⟨tab, hrun, ?_⟩
  intro k
  rw [get_table_spec hashOf k hwf hrep hfuel, foldl_map_step_eq]
  unfold spec_get
  cases last_call_on k ops with
  | none => rfl
  | some o => cases o <;> rfl

/-- C1 at a concrete input: all keys collide, a tombstone is created and
reused, and the seventh insertion resizes the table. -/
theorem table_refines_finite_map_witness :
    ∃ tab : table,
      run_table_ops (fun _ => 3) (2 ^ 32) init_table
        [table_op.set 1 (value.number 10), table_op.set 2 value.nil, table_op.delete 1,
         table_op.set 3 (value.bool true), table_op.set 4 value.nil, table_op.set 5 value.nil,
         table_op.set 6 value.nil, table_op.set 7 value.nil, table_op.set 8 value.nil,
         table_op.delete 9] = some tab ∧
      ∀ k, get_table (fun _ => 3) (2 ^ 32) tab k = some (spec_get
        [table_op.set 1 (value.number 10), table_op.set 2 value.nil, table_op.delete 1,
         table_op.set 3 (value.bool true), table_op.set 4 value.nil, table_op.set 5 value.nil,
         table_op.set 6 value.nil, table_op.set 7 value.nil, table_op.set 8 value.nil,
         table_op.delete 9] k) :=
  table_refines_finite_map (fun _ => 3) (2 ^ 32) _ (by decide) (by decide)

/-! ## Theorems: the collector -/

theorem marks_only_refl (h : Nat → Option obj) : marks_only h h := by
  intro a
  cases ha : h a with
  | none => exact Or.inl ⟨rfl, rfl⟩
  | some o => exact Or.inr ⟨o, o, rfl, rfl, rfl, rfl, id⟩

theorem marks_only_trans {h1 h2 h3 : Nat → Option obj} (h12 : marks_only h1 h2)
    (h23 : marks_only h2 h3) : marks_only h1 h3 := by
  intro a
  rcases h12 a with ⟨e1, e2⟩ | ⟨o1, o2, e1, e2, hn, hp, hm⟩
  · rcases h23 a with ⟨_, e3⟩ | ⟨o2', o3, e2', _, _, _, _⟩
    · exact Or.inl ⟨e1, e3⟩
    · rw [e2] at e2'; cases e2'
  · rcases h23 a with ⟨e2', _⟩ | ⟨o2', o3, e2', e3, hn', hp', hm'⟩
    · rw [e2] at e2'; cases e2'
    · rw [e2] at e2'
      cases e2'
      exact Or.inr ⟨o1, o3, e1, e3, by rw [hn', hn], by rw [hp', hp], fun h => hm' (hm h)⟩

theorem marks_only_some {h h' : Nat → Option obj} (hm : marks_only h h') {a : Nat} {o : obj}
    (ha : h a = some o) :
    ∃ o', h' a = some o' ∧ o'.next = o.next ∧ o'.payload = o.payload ∧
      (o.marked = true → o'.marked = true) := by
  rcases hm a with ⟨e1, _⟩ | ⟨o1, o2, e1, e2, hn, hp, hmk⟩
  · rw [ha] at e1; cases e1
  · rw [ha] at e1; cases e1
    exact ⟨o2, e2, hn, hp, hmk⟩

theorem marks_only_some' {h h' : Nat → Option obj} (hm : marks_only h h') {a : Nat} {o' : obj}
    (ha : h' a = some o') :
    ∃ o, h a = some o ∧ o'.next = o.next ∧ o'.payload = o.payload ∧
      (o.marked = true → o'.marked = true) := by
  rcases hm a with ⟨_, e2⟩ | ⟨o1, o2, e1, e2, hn, hp, hmk⟩
  · rw [ha] at e2; cases e2
  · rw [ha] at e2; cases e2
    exact ⟨o1, e1, hn, hp, hmk⟩

theorem marks_only_ne_none {h h' : Nat → Option obj} (hm : marks_only h h') (a : Nat) :
    h a ≠ none ↔ h' a ≠ none := by
  rcases hm a with ⟨e1, e2⟩ | ⟨o1, o2, e1, e2, _⟩
  · simp [e1, e2]
  · simp [e1, e2]

theorem is_marked_mono {h h' : Nat → Option obj} (hm : marks_only h h') {b : Nat}
    (hb : is_marked h b) : is_marked h' b := by
  obtain ⟨o, ho, hmk⟩ := hb
  obtain ⟨o', ho', _, _, hmk'⟩ := marks_only_some hm ho
  exact ⟨o', ho', hmk' hmk⟩

theorem mark_ok_refl (l : List Nat) (x : Option Nat) (vm : VM) : mark_ok l x vm vm :=
  ⟨rfl, marks_only_refl _, id, id, rfl⟩

theorem mark_ok_trans {l : List Nat} {x : Option Nat} {vm1 vm2 vm3 : VM}
    (h12 : mark_ok l x vm1 vm2) (h23 : mark_ok l x vm2 vm3) : mark_ok l x vm1 vm3 := by
  refine ⟨?_, marks_only_trans h12.shape h23.shape, fun h => h23.tri (h12.tri h),
    fun h => h23.grays (h12.grays h), by rw [h23.measure, h12.measure]⟩
  have e1 := h12.frame
  have e2 := h23.frame
  rw [e2, e1]

theorem countP_flip {l : List Nat} (hnd : l.Nodup) {a : Nat} (ha : a ∈ l) {p q : Nat → Bool}
    (hpa : p a = true) (hqa : q a = false) (hother : ∀ b, b ≠ a → q b = p b) :
    l.countP q + 1 = l.countP p := by
  induction l with
  | nil => cases ha
  | cons c l ih =>
    rw [List.nodup_cons] at hnd
    rw [List.countP_cons, List.countP_cons]
    by_cases hca : c = a
    · subst hca
      have hrest : l.countP q = l.countP p := by
        apply List.countP_congr
        intro b hb
        have : b ≠ c := fun h => hnd.1 (h ▸ hb)
        rw [hother b this]
      simp [hpa, hqa, hrest]
    · have hal : a ∈ l := by
        rcases List.mem_cons.1 ha with h | h
        · exact absurd h.symm hca
        · exact h
      have := ih hnd.2 hal
      rw [hother c hca]
      omega

/-- Function `mark_object` on a null or allocated pointer. -/
theorem mark_object_ok {l : List Nat} (x : Option Nat) (vm : VM) (p : Option Nat)
    (hnd : l.Nodup) (hdom : ∀ (a : Nat) (o : obj), vm.heap a = some o → a ∈ l)
    (hvalid : ∀ b, p = some b → vm.heap b ≠ none) :
    ∃ vm', mark_object vm p = some vm' ∧ mark_ok l x vm vm' ∧
      ∀ b, p = some b → is_marked vm'.heap b := by
  cases p with
  | none =>
    exact ⟨vm, rfl, mark_ok_refl l x vm, fun b h => by cases h⟩
  | some a =>
    cases ha : vm.heap a with
    | none => exact absurd ha (hvalid a rfl)
    | some o =>
      by_cases hmk : o.marked = true
      · refine ⟨vm, ?_, mark_ok_refl l x vm, ?_⟩
        · simp [mark_object, ha, hmk]
        · intro b hb; cases hb; exact ⟨o, ha, hmk⟩
      · have hmk' : o.marked = false := by simpa using hmk
        refine ⟨{ vm with
               heap := Function.update vm.heap a (some { o with marked := true }),
               gray_capacity :=
                 if vm.gray_capacity < vm.gray_stack.length + 1 then
                   GROW_CAPACITY vm.gray_capacity
                 else vm.gray_capacity,
               gray_stack := a :: vm.gray_stack }, ?_, ⟨rfl, ?_, ?_, ?_, ?_⟩, ?_⟩
        · simp [mark_object, ha, hmk']
        · intro c
          by_cases hc : c = a
          · subst hc
            exact Or.inr ⟨o, { o with marked := true }, ha, by simp, rfl, rfl, fun _ => rfl⟩
          · cases hcc : vm.heap c with
            | none => exact Or.inl ⟨rfl, by simp [Function.update, hc, hcc]⟩
            | some oc =>
              exact Or.inr ⟨oc, oc, rfl, by simp [Function.update, hc, hcc], rfl, rfl, id⟩
        · intro htri c oc hc hcm hcx
          by_cases hca : c = a
          · subst hca
            exact Or.inl (List.mem_cons_self _ _)
          · have hc' : vm.heap c = some oc := by
              simpa [Function.update, hca] using hc
            rcases htri c oc hc' hcm hcx with h | h
            · exact Or.inl (List.mem_cons_of_mem _ h)
            · right
              intro b hb
              obtain ⟨ob, hob, hbm⟩ := h b hb
              by_cases hba : b = a
              · subst hba
                exact ⟨{ o with marked := true }, by simp, rfl⟩
              · exact ⟨ob, by simp [Function.update, hba, hob], hbm⟩
        · intro hg g hgm
          rcases List.mem_cons.1 hgm with h | h
          · subst h
            exact ⟨{ o with marked := true }, by simp, rfl⟩
          · obtain ⟨og, hog, hgmk⟩ := hg g h
            by_cases hga : g = a
            · subst hga
              exact ⟨{ o with marked := true }, by simp, rfl⟩
            · exact ⟨og, by simp [Function.update, hga, hog], hgmk⟩
        · have := countP_flip hnd (hdom a o ha)
            (p := unmarked_at vm.heap)
            (q := unmarked_at (Function.update vm.heap a (some { o with marked := true })))
            (by simp [unmarked_at, ha, hmk'])
            (by simp [unmarked_at])
            (by intro b hb; simp [unmarked_at, Function.update, hb])
          simp only [unmarked_count, List.length_cons]
          omega
        · intro b hb
          cases hb
          exact ⟨{ o with marked := true }, by simp, rfl⟩

theorem dom_of_marks_only {l : List Nat} {h h' : Nat → Option obj} (hm : marks_only h h')
    (hdom : ∀ (a : Nat) (o : obj), h a = some o → a ∈ l) :
    ∀ (a : Nat) (o : obj), h' a = some o → a ∈ l := by
  intro a o' ha
  obtain ⟨o, ho, _⟩ := marks_only_some' hm ha
  exact hdom a o ho

/-- Marking a list of null or allocated pointers. -/
theorem mark_objects_ok {l : List Nat} (x : Option Nat) (hnd : l.Nodup) :
    ∀ (ps : List (Option Nat)) (vm : VM),
      (∀ (a : Nat) (o : obj), vm.heap a = some o → a ∈ l) →
      (∀ b, some b ∈ ps → vm.heap b ≠ none) →
      ∃ vm', mark_objects vm ps = some vm' ∧ mark_ok l x vm vm' ∧
        ∀ b, some b ∈ ps → is_marked vm'.heap b := by
  intro ps
  induction ps with
  | nil =>
    intro vm _ _
    exact ⟨vm, rfl, mark_ok_refl l x vm, fun b hb => by cases hb⟩
  | cons p ps ih =>
    intro vm hdom hvalid
    obtain ⟨vm1, h1, hok1, hm1⟩ := mark_object_ok x vm p hnd hdom
      (fun b hb => hvalid b (by rw [hb]; exact List.mem_cons_self _ _))
    obtain ⟨vm2, h2, hok2, hm2⟩ := ih vm1 (dom_of_marks_only hok1.shape hdom)
      (fun b hb => (marks_only_ne_none hok1.shape b).1 (hvalid b (List.mem_cons_of_mem _ hb)))
    refine ⟨vm2, ?_, mark_ok_trans hok1 hok2, ?_⟩
    · simp only [mark_objects, h1]; exact h2
    · intro b hb
      rcases List.mem_cons.1 hb with h | h
      · exact is_marked_mono hok2.shape (hm1 b h.symm)
      · exact hm2 b h

theorem mark_objects_append (ps qs : List (Option Nat)) :
    ∀ vm : VM, mark_objects vm (ps ++ qs) =
      (mark_objects vm ps).bind (fun vm1 => mark_objects vm1 qs) := by
  induction ps with
  | nil => intro vm; rfl
  | cons p ps ih =>
    intro vm
    simp only [List.cons_append, mark_objects]
    cases mark_object vm p with
    | none => rfl
    | some vm1 => exact ih vm1

theorem mark_value_eq (vm : VM) (v : value) : mark_value vm v = mark_object vm (value_ptr v) := by
  cases v <;> rfl

theorem mark_values_eq (vs : List value) :
    ∀ vm : VM, mark_values vm vs = mark_objects vm (vs.map value_ptr) := by
  induction vs with
  | nil => intro vm; rfl
  | cons v vs ih =>
    intro vm
    simp only [mark_values, List.map_cons, mark_objects, mark_value_eq]
    cases mark_object vm (value_ptr v) with
    | none => rfl
    | some vm1 => exact ih vm1

theorem mark_entries_eq (es : List table_entry) :
    ∀ vm : VM, mark_entries vm es =
      mark_objects vm (es.flatMap (fun e => [e.key, value_ptr e.val])) := by
  induction es with
  | nil => intro vm; rfl
  | cons e es ih =>
    intro vm
    simp only [mark_entries, List.flatMap_cons, List.cons_append, List.nil_append, mark_objects,
      mark_value_eq]
    cases mark_object vm e.key with
    | none => rfl
    | some vm1 =>
      simp only
      cases mark_object vm1 (value_ptr e.val) with
      | none => rfl
      | some vm2 => exact ih vm2

theorem mark_table_eq (vm : VM) (tab : table) :
    mark_table vm tab = mark_objects vm (table_ptrs tab) :=
  mark_entries_eq _ vm

/-- Function `blacken_object` marks the edges of the object. -/
theorem blacken_object_eq (vm : VM) (a : Nat) (o : obj) (ha : vm.heap a = some o) :
    blacken_object vm a = mark_objects vm (obj_edges o.payload) := by
  unfold blacken_object
  rw [ha]
  rcases o with ⟨mk, nx, pl⟩
  cases pl with
  | obj_string d h => rfl
  | obj_native c => rfl
  | obj_bound_method r m =>
    simp only [obj_edges, mark_objects, mark_value_eq]
    cases mark_object vm (value_ptr r) with
    | none => rfl
    | some vm1 =>
      simp only
      cases mark_object vm1 m <;> rfl
  | obj_class n ms =>
    simp only [obj_edges, mark_objects, mark_table_eq]
  | obj_instance k fs =>
    simp only [obj_edges, mark_objects, mark_table_eq]
  | obj_upvalue loc c n =>
    simp only [obj_edges, mark_objects, mark_value_eq]
    cases mark_object vm (value_ptr c) <;> rfl
  | obj_func ar uc chk n =>
    simp only [obj_edges, mark_objects, mark_array, mark_values_eq]
  | obj_closure f us =>
    simp only [obj_edges, mark_objects]

theorem upvalue_next_mono {h h' : Nat → Option obj} (hm : marks_only h h') (u : Nat) :
    upvalue_next h' u = upvalue_next h u := by
  unfold upvalue_next
  rcases hm u with ⟨e1, e2⟩ | ⟨o, o', e1, e2, _, hp, _⟩
  · rw [e1, e2]
  · rw [e1, e2]
    simp only [hp]

theorem is_upvalue_list_mono {h h' : Nat → Option obj} (hm : marks_only h h') :
    ∀ (ups : List Nat) (p : Option Nat), is_upvalue_list h p ups → is_upvalue_list h' p ups := by
  intro ups
  induction ups with
  | nil => intro p hp; exact hp
  | cons u ups ih =>
    intro p hp
    obtain ⟨hpu, n, hn, hrest⟩ := hp
    exact ⟨hpu, n, by rw [upvalue_next_mono hm]; exact hn, ih n hrest⟩

/-- The upvalue loop of `mark_roots` marks the open upvalues. -/
theorem mark_open_upvalues_eq {l : List Nat} (hnd : l.Nodup) :
    ∀ (ups : List Nat) (fuel : Nat) (vm : VM) (p : Option Nat),
      (∀ (a : Nat) (o : obj), vm.heap a = some o → a ∈ l) →
      is_upvalue_list vm.heap p ups → ups.length < fuel →
      mark_open_upvalues fuel vm p = mark_objects vm (ups.map some) := by
  intro ups
  induction ups with
  | nil =>
    intro fuel vm p _ hp hf
    obtain ⟨f, rfl⟩ : ∃ f, fuel = f + 1 := ⟨fuel - 1, by simp at hf; omega⟩
    have : p = none := hp
    subst this
    rfl
  | cons u ups ih =>
    intro fuel vm p hdom hp hf
    obtain ⟨f, rfl⟩ : ∃ f, fuel = f + 1 := ⟨fuel - 1, by simp at hf; omega⟩
    obtain ⟨hpu, n, hn, hrest⟩ := hp
    subst hpu
    have hvalid : ∀ b, some u = some b → vm.heap b ≠ none := by
      intro b hb
      cases hb
      intro hnone
      simp [upvalue_next, hnone] at hn
    obtain ⟨vm1, h1, hok1, _⟩ := mark_object_ok none vm (some u) hnd hdom hvalid
    have hn1 : upvalue_next vm1.heap u = some n := by
      rw [upvalue_next_mono hok1.shape]; exact hn
    have hrec := ih f vm1 n (dom_of_marks_only hok1.shape hdom)
      (is_upvalue_list_mono hok1.shape ups n hrest) (by simp at hf; omega)
    simp only [List.map_cons, mark_objects, mark_open_upvalues, h1]
    unfold upvalue_next at hn1
    cases hu : vm1.heap u with
    | none => rw [hu] at hn1; cases hn1
    | some o =>
      rw [hu] at hn1
      rcases o with ⟨mk, nx, pl⟩
      cases pl <;> simp only at hn1 <;> cases hn1
      exact hrec

theorem mark_ok_fields {l : List Nat} {x : Option Nat} {vm vm' : VM} (h : mark_ok l x vm vm') :
    vm'.frame_count = vm.frame_count ∧ vm'.frames = vm.frames ∧ vm'.stack = vm.stack ∧
    vm'.stack_top = vm.stack_top ∧ vm'.objects = vm.objects ∧ vm'.strings = vm.strings ∧
    vm'.init_string = vm.init_string ∧ vm'.globals = vm.globals ∧
    vm'.open_upvalues = vm.open_upvalues ∧ vm'.heap_size = vm.heap_size ∧
    vm'.gc_treshold = vm.gc_treshold ∧ vm'.compilers = vm.compilers ∧
    vm'.stdout = vm.stdout := by
  have e := h.frame
  refine ⟨?_, ?_, ?_, ?_, ?_, ?_, ?_, ?_, ?_, ?_, ?_, ?_, ?_⟩ <;> (rw [e])

/-- Function `mark_roots` marks the root set. -/
theorem mark_roots_eq {l : List Nat} (hnd : l.Nodup) (vm : VM) (ups : List Nat) (fuel : Nat)
    (hdom : ∀ (a : Nat) (o : obj), vm.heap a = some o → a ∈ l)
    (hups : is_upvalue_list vm.heap vm.open_upvalues ups) (hf : ups.length < fuel)
    (hvalid : ∀ b : Nat, some b ∈ root_ptrs vm ups → vm.heap b ≠ none) :
    mark_roots fuel vm = mark_objects vm (root_ptrs vm ups) := by
  unfold root_ptrs at hvalid ⊢
  simp only [List.mem_append] at hvalid
  obtain ⟨vm1, h1, ok1, _⟩ := mark_objects_ok none hnd
    (((List.range vm.stack_top).map vm.stack).map value_ptr) vm hdom
    (fun b hb => hvalid b (Or.inl (Or.inl (Or.inl (Or.inl (Or.inl hb))))))
  obtain ⟨f1, f2, _, _, _, _, f7, f8, f9, _, _, f12, _⟩ := mark_ok_fields ok1
  have hdom1 := dom_of_marks_only ok1.shape hdom
  obtain ⟨vm2, h2, ok2, _⟩ := mark_objects_ok none hnd
    ((List.range vm.frame_count).map (fun i => some (vm.frames i).closure)) vm1 hdom1
    (fun b hb => (marks_only_ne_none ok1.shape b).1
      (hvalid b (Or.inl (Or.inl (Or.inl (Or.inl (Or.inr hb)))))))
  have ok12 := mark_ok_trans ok1 ok2
  obtain ⟨_, _, _, _, _, _, g7, g8, g9, _, _, g12, _⟩ := mark_ok_fields ok12
  have hdom2 := dom_of_marks_only ok12.shape hdom
  have hups2 := is_upvalue_list_mono ok12.shape ups _ hups
  have hu := mark_open_upvalues_eq hnd ups fuel vm2 vm.open_upvalues hdom2 hups2 hf
  obtain ⟨vm3, h3, ok3, _⟩ := mark_objects_ok none hnd (ups.map some) vm2 hdom2
    (fun b hb => (marks_only_ne_none ok12.shape b).1
      (hvalid b (Or.inl (Or.inl (Or.inl (Or.inr hb))))))
  have ok13 := mark_ok_trans ok12 ok3
  obtain ⟨_, _, _, _, _, _, k7, k8, k9, _, _, k12, _⟩ := mark_ok_fields ok13
  have hdom3 := dom_of_marks_only ok13.shape hdom
  obtain ⟨vm4, h4, ok4, _⟩ := mark_objects_ok none hnd (table_ptrs vm.globals) vm3 hdom3
    (fun b hb => (marks_only_ne_none ok13.shape b).1
      (hvalid b (Or.inl (Or.inl (Or.inr hb)))))
  have ok14 := mark_ok_trans ok13 ok4
  obtain ⟨_, _, _, _, _, _, m7, m8, m9, _, _, m12, _⟩ := mark_ok_fields ok14
  have hdom4 := dom_of_marks_only ok14.shape hdom
  obtain ⟨vm5, h5, ok5, _⟩ := mark_objects_ok none hnd vm.compilers vm4 hdom4
    (fun b hb => (marks_only_ne_none ok14.shape b).1 (hvalid b (Or.inl (Or.inr hb))))
  have ok15 := mark_ok_trans ok14 ok5
  obtain ⟨_, _, _, _, _, _, n7, n8, n9, _, _, n12, _⟩ := mark_ok_fields ok15
  unfold mark_roots
  rw [mark_values_eq]
  simp only [mark_objects_append, h1, Option.bind, f1, f2, h2, g9, hu, h3, k8, mark_table_eq, h4,
    mark_compiler_roots, m12, h5, n7, mark_objects]
  cases mark_object vm5 vm.init_string <;> rfl

/-- Function `trace_references` terminates with an empty gray stack and the
tri-colour invariant, having changed nothing but mark bits. -/
theorem trace_references_ok {l : List Nat} (hnd : l.Nodup) :
    ∀ (fuel : Nat) (vm : VM),
      (∀ (a : Nat) (o : obj), vm.heap a = some o → a ∈ l) →
      (∀ (a : Nat) (o : obj), vm.heap a = some o →
        ∀ b : Nat, some b ∈ obj_edges o.payload → vm.heap b ≠ none) →
      tri_colour none vm →
      (∀ g ∈ vm.gray_stack, is_marked vm.heap g) →
      unmarked_count vm.heap l + vm.gray_stack.length < fuel →
      ∃ vm', trace_references fuel vm = some vm' ∧
        vm' = { vm with heap := vm'.heap, gray_stack := vm'.gray_stack,
                        gray_capacity := vm'.gray_capacity } ∧
        marks_only vm.heap vm'.heap ∧ vm'.gray_stack = [] ∧ tri_colour none vm' := by
  intro fuel
  induction fuel with
  | zero => intro vm _ _ _ _ hf; omega
  | succ fuel ih =>
    intro vm hdom hedges htri hgrays hf
    cases hg : vm.gray_stack with
    | nil =>
      refine ⟨vm, by simp [trace_references, hg], rfl, marks_only_refl _, hg, htri⟩
    | cons g rest =>
      obtain ⟨o, ho, hom⟩ := hgrays g (by rw [hg]; exact List.mem_cons_self _ _)
      have hbl := blacken_object_eq { vm with gray_stack := rest } g o ho
      obtain ⟨vm1, h1, ok1, hm1⟩ := mark_objects_ok (some g) hnd (obj_edges o.payload)
        { vm with gray_stack := rest } hdom (fun b hb => hedges g o ho b hb)
      have htri0 : tri_colour (some g) { vm with gray_stack := rest } := by
        intro a oa ha ham hag
        rcases htri a oa ha ham (by simp) with h | h
        · rw [hg] at h
          rcases List.mem_cons.1 h with h' | h'
          · exact absurd (by rw [h']) hag
          · exact Or.inl h'
        · exact Or.inr h
      have htri1 : tri_colour none vm1 := by
        intro a oa ha ham _
        by_cases hag : a = g
        · subst hag
          right
          intro b hb
          obtain ⟨o0, ho0, _, hp, _⟩ := marks_only_some' ok1.shape ha
          have : o0 = o := by
            have : vm.heap a = some o0 := ho0
            rw [ho] at this; exact (Option.some.inj this).symm
          subst this
          rw [hp] at hb
          exact hm1 b hb
        · exact ok1.tri htri0 a oa ha ham (fun h => hag (Option.some.inj h))
      have hgr1 := ok1.grays (fun g' hg' => hgrays g' (by rw [hg]; exact List.mem_cons_of_mem _ hg'))
      have hmeas := ok1.measure
      have hlen : vm.gray_stack.length = rest.length + 1 := by rw [hg]; rfl
      simp only at hmeas
      obtain ⟨vm', h', hfr, hsh, hgray, htri'⟩ := ih vm1
        (dom_of_marks_only ok1.shape hdom)
        (by
          intro a oa ha b hb
          obtain ⟨o0, ho0, _, hp, _⟩ := marks_only_some' ok1.shape ha
          rw [hp] at hb
          exact (marks_only_ne_none ok1.shape b).1 (hedges a o0 ho0 b hb))
        htri1 hgr1 (by omega)
      refine ⟨vm', ?_, ?_, marks_only_trans ok1.shape hsh, hgray, htri'⟩
      · simp only [trace_references, hg, hbl, h1]
        exact h'
      · have e1 := ok1.frame
        rw [hfr, e1]

theorem is_list_congr {h h' : Nat → Option obj} :
    ∀ (l : List Nat) (p : Option Nat), is_list h p l →
      (∀ x ∈ l, ∀ o, h x = some o → ∃ o', h' x = some o' ∧ o'.next = o.next) →
      is_list h' p l := by
  intro l
  induction l with
  | nil => intro p hp _; exact hp
  | cons a l ih =>
    intro p hp hsame
    obtain ⟨hpa, o, ho, hrest⟩ := hp
    obtain ⟨o', ho', hn⟩ := hsame a (List.mem_cons_self _ _) o ho
    exact ⟨hpa, o', ho', by
      rw [hn]
      exact ih o.next hrest (fun x hx => hsame x (List.mem_cons_of_mem _ hx))⟩

theorem is_list_tail {h : Nat → Option obj} :
    ∀ (kept : List Nat) (rest : List Nat) (p : Option Nat), is_list h p (kept ++ rest) →
      ∃ q, is_list h q rest := by
  intro kept
  induction kept with
  | nil => intro rest p hp; exact ⟨p, hp⟩
  | cons k kept ih =>
    intro rest p hp
    obtain ⟨_, o, _, hrest⟩ := hp
    exact ih rest o.next hrest

/-- Unlinking the element after a non-empty prefix: the last element of the
prefix gets the `next` of the removed element, which is freed. -/
theorem is_list_unlink {h : Nat → Option obj} {a pv : Nat} {o po : obj} {rest : List Nat} :
    ∀ (kept : List Nat) (p : Option Nat),
      is_list h p (kept ++ a :: rest) → (kept ++ a :: rest).Nodup →
      kept.getLast? = some pv → h pv = some po → h a = some o →
      is_list (Function.update (Function.update h pv (some { po with next := o.next })) a none)
        p (kept ++ rest) := by
  intro kept
  induction kept with
  | nil => intro p _ _ hl; cases hl
  | cons k kept ih =>
    intro p hp hnd hlast hpv ha
    obtain ⟨hpk, ok, hok, hrest⟩ := hp
    have hnd' : (kept ++ a :: rest).Nodup := (List.nodup_cons.1 hnd).2
    have hk_notin : k ∉ kept ++ a :: rest := (List.nodup_cons.1 hnd).1
    have hka : k ≠ a := by
      intro h'
      apply hk_notin
      rw [h']
      exact List.mem_append_right _ (List.mem_cons_self _ _)
    cases kept with
    | nil =>
      -- k is the last element of the prefix
      simp only [List.getLast?_singleton, Option.some.injEq] at hlast
      subst hlast
      rw [hok] at hpv
      cases hpv
      simp only [List.nil_append] at hrest hnd' hk_notin ⊢
      obtain ⟨hna, o2, ho2, hrest2⟩ := hrest
      rw [ha] at ho2
      cases ho2
      have ha_notin : a ∉ rest := (List.nodup_cons.1 hnd').1
      refine ⟨hpk, { po with next := o.next }, ?_, ?_⟩
      · simp [Function.update, hka]
      · apply is_list_congr rest o.next hrest2
        intro x hx ox hox
        have hxa : x ≠ a := fun h' => ha_notin (h' ▸ hx)
        have hxk : x ≠ k := fun h' => hk_notin (by rw [← h']; exact List.mem_cons_of_mem _ hx)
        exact ⟨ox, by simp [Function.update, hxa, hxk, hox], rfl⟩
    | cons k2 ks =>
      have hlast' : (k2 :: ks).getLast? = some pv := by
        rw [List.getLast?_cons_cons] at hlast; exact hlast
      have hkpv : k ≠ pv := by
        intro h'
        apply hk_notin
        rw [h']
        exact List.mem_append_left _ (List.mem_of_getLast?_eq_some hlast')
      refine ⟨hpk, ok, ?_, ih ok.next hrest hnd' hlast' hpv ha⟩
      simp [Function.update, hka, hkpv, hok]

theorem is_list_mem {h : Nat → Option obj} :
    ∀ (l : List Nat) (p : Option Nat), is_list h p l → ∀ x ∈ l, ∃ o, h x = some o := by
  intro l
  induction l with
  | nil => intro p _ x hx; cases hx
  | cons a l ih =>
    intro p hp x hx
    obtain ⟨_, o, ho, hrest⟩ := hp
    rcases List.mem_cons.1 hx with h' | h'
    · exact ⟨o, h' ▸ ho⟩
    · exact ih o.next hrest x h'

/-- The unlink-and-free branch of the `sweep` loop for the unmarked object `a`
that follows the already visited survivors `kept`. -/
theorem sweep_unlink_ok (sz : sizeofs) (vm : VM) (kept : List Nat) (a : Nat) (o : obj)
    (rest : List Nat)
    (hlist : is_list vm.heap vm.objects (kept ++ a :: rest))
    (hnd : (kept ++ a :: rest).Nodup) (ha : vm.heap a = some o) :
    ∃ vm2,
      (match (match kept.getLast? with
              | some p =>
                match vm.heap p with
                | none => none
                | some po =>
                  some { vm with
                         heap := Function.update vm.heap p (some { po with next := o.next }) }
              | none => some { vm with objects := o.next }) with
       | none => none
       | some vm1 => free_object sz vm1 a) = some vm2 ∧
      is_list vm2.heap vm2.objects (kept ++ rest) ∧
      vm2.heap a = none ∧
      (∀ x, x ≠ a → ∀ ox, vm.heap x = some ox →
        ∃ ox', vm2.heap x = some ox' ∧ ox'.marked = ox.marked ∧ ox'.payload = ox.payload ∧
          (x ∉ kept → ox' = ox)) ∧
      (∀ x, vm.heap x = none → vm2.heap x = none) ∧
      vm2 = { vm with heap := vm2.heap, objects := vm2.objects, heap_size := vm2.heap_size } := by
  have ha_notin_rest : a ∉ rest := by
    have := (List.nodup_append.1 hnd).2.1
    exact (List.nodup_cons.1 this).1
  have ha_notin_kept : a ∉ kept := by
    intro h'
    exact (List.nodup_append.1 hnd).2.2 h' (List.mem_cons_self _ _)
  cases hk : kept.getLast? with
  | none =>
    have hkept : kept = [] := List.getLast?_eq_none_iff.1 hk
    subst hkept
    simp only [List.nil_append] at hlist ⊢
    obtain ⟨_, o2, ho2, hrest⟩ := hlist
    rw [ha] at ho2
    cases ho2
    refine ⟨{ account { vm with objects := o.next } (freed_bytes sz o.payload) 0 with
              heap := Function.update vm.heap a none }, ?_, ?_, ?_, ?_, ?_, rfl⟩
    · simp [free_object, ha]
    · apply is_list_congr rest o.next hrest
      intro x hx ox hox
      have hxa : x ≠ a := fun h' => ha_notin_rest (h' ▸ hx)
      exact ⟨ox, by simp [account, Function.update, hxa, hox], rfl⟩
    · simp [account]
    · intro x hxa ox hox
      exact ⟨ox, by simp [account, Function.update, hxa, hox], rfl, rfl, fun _ => rfl⟩
    · intro x hx
      by_cases hxa : x = a
      · subst hxa; simp [account]
      · simp [account, Function.update, hxa, hx]
  | some pv =>
    have hpv_mem : pv ∈ kept := List.mem_of_getLast?_eq_some hk
    obtain ⟨po, hpo⟩ := is_list_mem _ _ hlist pv (List.mem_append_left _ hpv_mem)
    have hpva : pv ≠ a := fun h' => ha_notin_kept (h' ▸ hpv_mem)
    have hap : a ≠ pv := fun h' => hpva h'.symm
    refine ⟨{ account { vm with
                heap := Function.update vm.heap pv (some { po with next := o.next }) }
                (freed_bytes sz o.payload) 0 with
              heap := Function.update
                (Function.update vm.heap pv (some { po with next := o.next })) a none },
      ?_, ?_, ?_, ?_, ?_, rfl⟩
    · simp [free_object, hpo, ha, Function.update, hap]
    · exact is_list_unlink kept vm.objects hlist hnd hk hpo ha
    · simp [account]
    · intro x hxa ox hox
      by_cases hxp : x = pv
      · subst hxp
        rw [hpo] at hox
        cases hox
        exact ⟨{ po with next := o.next }, by simp [account, Function.update, hxa], rfl, rfl,
          fun h' => absurd hpv_mem h'⟩
      · exact ⟨ox, by simp [account, Function.update, hxa, hxp, hox], rfl, rfl, fun _ => rfl⟩
    · intro x hx
      by_cases hxa : x = a
      · subst hxa; simp [account]
      · have hxp : x ≠ pv := by
          intro h'
          rw [h', hpo] at hx
          cases hx
        simp [account, Function.update, hxa, hxp, hx]

theorem sweep_loop_marked (sz : sizeofs) (fuel : Nat) (vm : VM) (prev : Option Nat) (a : Nat)
    (o : obj) (ha : vm.heap a = some o) (hm : o.marked = true) :
    sweep_loop sz (fuel + 1) vm prev (some a) =
      sweep_loop sz fuel
        { vm with heap := Function.update vm.heap a (some { o with marked := false }) }
        (some a) o.next := by
  simp only [sweep_loop, ha, hm, if_true]

theorem sweep_loop_unmarked (sz : sizeofs) (fuel : Nat) (vm : VM) (prev : Option Nat) (a : Nat)
    (o : obj) (ha : vm.heap a = some o) (hm : o.marked = false) :
    sweep_loop sz (fuel + 1) vm prev (some a) =
      match (match (match prev with
              | some p =>
                match vm.heap p with
                | none => none
                | some po =>
                  some { vm with
                         heap := Function.update vm.heap p (some { po with next := o.next }) }
              | none => some { vm with objects := o.next }) with
       | none => none
       | some vm1 => free_object sz vm1 a) with
      | none => none
      | some vm2 => sweep_loop sz fuel vm2 prev o.next := by
  simp only [sweep_loop, ha, hm, Bool.false_eq_true, if_false]
  cases prev with
  | none => rfl
  | some p =>
    simp only
    cases vm.heap p with
    | none => rfl
    | some po => rfl

/-- The loop of `sweep` over the rest of the object list: marked objects stay,
with the mark cleared, unmarked ones are unlinked and freed. -/
theorem sweep_loop_ok (sz : sizeofs) :
    ∀ (rest : List Nat) (fuel : Nat) (vm : VM) (kept : List Nat) (p : Option Nat),
      rest.length < fuel →
      is_list vm.heap vm.objects (kept ++ rest) → (kept ++ rest).Nodup →
      is_list vm.heap p rest →
      ∃ vm', sweep_loop sz fuel vm kept.getLast? p = some vm' ∧
        is_list vm'.heap vm'.objects (kept ++ rest.filter (marked_at vm.heap)) ∧
        (∀ a ∈ rest, marked_at vm.heap a = true →
          ∃ o o', vm.heap a = some o ∧ vm'.heap a = some o' ∧ o'.marked = false ∧
            o'.payload = o.payload) ∧
        (∀ a ∈ rest, marked_at vm.heap a = false → vm'.heap a = none) ∧
        (∀ a, a ∉ kept ++ rest → vm.heap a = none → vm'.heap a = none) ∧
        (∀ a ∈ kept, ∀ o, vm.heap a = some o →
          ∃ o', vm'.heap a = some o' ∧ o'.marked = o.marked ∧ o'.payload = o.payload) ∧
        vm' = { vm with heap := vm'.heap, objects := vm'.objects,
                        heap_size := vm'.heap_size } := by
  intro rest
  induction rest with
  | nil =>
    intro fuel vm kept p hf hlist _ hp
    obtain ⟨f, rfl⟩ : ∃ f, fuel = f + 1 := ⟨fuel - 1, by simp at hf; omega⟩
    have : p = none := hp
    subst this
    refine ⟨vm, rfl, by simpa using hlist, ?_, ?_, fun a _ h => h, ?_, rfl⟩
    · intro a ha; cases ha
    · intro a ha; cases ha
    · intro a _ o ho; exact ⟨o, ho, rfl, rfl⟩
  | cons a rest ih =>
    intro fuel vm kept p hf hlist hnd hp
    obtain ⟨f, rfl⟩ : ∃ f, fuel = f + 1 := ⟨fuel - 1, by simp at hf; omega⟩
    obtain ⟨hpa, o, ha, hrest⟩ := hp
    subst hpa
    have ha_notin_rest : a ∉ rest :=
      (List.nodup_cons.1 (List.nodup_append.1 hnd).2.1).1
    have ha_notin_kept : a ∉ kept := fun h' =>
      (List.nodup_append.1 hnd).2.2 h' (List.mem_cons_self _ _)
    have hassoc : (kept ++ [a]) ++ rest = kept ++ a :: rest := by simp
    cases hm : o.marked with
    | true =>
      rw [sweep_loop_marked sz f vm _ a o ha hm]
      have hlast : (kept ++ [a]).getLast? = some a := by simp
      have hcongr : ∀ x, ∀ ox, vm.heap x = some ox →
          ∃ ox', Function.update vm.heap a (some { o with marked := false }) x = some ox' ∧
            ox'.next = ox.next := by
        intro x ox hox
        by_cases hxa : x = a
        · subst hxa
          rw [ha] at hox; cases hox
          exact ⟨{ o with marked := false }, by simp, rfl⟩
        · exact ⟨ox, by simp [Function.update, hxa, hox], rfl⟩
      obtain ⟨vm', hrun, hl', hmk', hun', hout', hkept', hfr'⟩ :=
        ih f { vm with heap := Function.update vm.heap a (some { o with marked := false }) }
          (kept ++ [a]) o.next (by simp at hf; omega)
          (by
            rw [hassoc]
            exact is_list_congr _ _ hlist (fun x _ ox hox => hcongr x ox hox))
          (by rw [hassoc]; exact hnd)
          (is_list_congr _ _ hrest (fun x _ ox hox => hcongr x ox hox))
      rw [hlast] at hrun
      have hsame : ∀ x ∈ rest,
          marked_at (Function.update vm.heap a (some { o with marked := false })) x
            = marked_at vm.heap x := by
        intro x hx
        have hxa : x ≠ a := fun h' => ha_notin_rest (h' ▸ hx)
        simp [marked_at, Function.update, hxa]
      refine ⟨vm', hrun, ?_, ?_, ?_, ?_, ?_, ?_⟩
      · have hfa : marked_at vm.heap a = true := by simp [marked_at, ha, hm]
        have hfilt : List.filter (marked_at vm.heap) (a :: rest)
            = a :: List.filter
              (marked_at (Function.update vm.heap a (some { o with marked := false }))) rest := by
          rw [List.filter_cons, if_pos hfa]
          congr 1
          exact (List.filter_congr hsame).symm
        rw [hfilt]
        simpa using hl'
      · intro x hx hxm
        rcases List.mem_cons.1 hx with h' | h'
        · subst h'
          obtain ⟨o', ho', hmo', hpo'⟩ := hkept' x (by simp) { o with marked := false }
            (by simp)
          exact ⟨o, o', ha, ho', hmo', hpo'⟩
        · have hxa : x ≠ a := fun h'' => ha_notin_rest (h'' ▸ h')
          obtain ⟨ox, ox', hox, hox', h1, h2⟩ := hmk' x h' (by rw [hsame x h']; exact hxm)
          exact ⟨ox, ox', by simpa [Function.update, hxa] using hox, hox', h1, h2⟩
      · intro x hx hxm
        rcases List.mem_cons.1 hx with h' | h'
        · subst h'
          simp [marked_at, ha, hm] at hxm
        · exact hun' x h' (by rw [hsame x h']; exact hxm)
      · intro x hx hnone
        have hxa : x ≠ a := fun h' => hx (by rw [h']; simp)
        exact hout' x (by rw [hassoc]; exact hx) (by simp [Function.update, hxa, hnone])
      · intro x hx ox hox
        have hxa : x ≠ a := fun h' => ha_notin_kept (h' ▸ hx)
        exact hkept' x (by simp [hx]) ox (by simp [Function.update, hxa, hox])
      · rw [hfr']
    | false =>
      obtain ⟨vm2, hstep, hl2, ha2, hkeep2, hnone2, hfr2⟩ :=
        sweep_unlink_ok sz vm kept a o rest hlist hnd ha
      rw [sweep_loop_unmarked sz f vm _ a o ha hm, hstep]
      simp only
      have hnd2 : (kept ++ rest).Nodup := by
        have h1 := List.nodup_append.1 hnd
        exact List.nodup_append.2 ⟨h1.1, (List.nodup_cons.1 h1.2.1).2,
          fun x hx1 hx2 => h1.2.2 hx1 (List.mem_cons_of_mem _ hx2)⟩
      have hrest2 : is_list vm2.heap o.next rest := by
        apply is_list_congr _ _ hrest
        intro x hx ox hox
        have hxa : x ≠ a := fun h' => ha_notin_rest (h' ▸ hx)
        have hxk : x ∉ kept := fun h' =>
          (List.nodup_append.1 hnd).2.2 h' (List.mem_cons_of_mem _ hx)
        obtain ⟨ox', hox', _, _, heq⟩ := hkeep2 x hxa ox hox
        exact ⟨ox', hox', by rw [heq hxk]⟩
      obtain ⟨vm', hrun, hl', hmk', hun', hout', hkept', hfr'⟩ :=
        ih f vm2 kept o.next (by simp at hf; omega) hl2 hnd2 hrest2
      have hsame : ∀ x ∈ rest, marked_at vm2.heap x = marked_at vm.heap x := by
        intro x hx
        have hxa : x ≠ a := fun h' => ha_notin_rest (h' ▸ hx)
        obtain ⟨ox, hox⟩ := is_list_mem _ _ hrest x hx
        obtain ⟨ox', hox', hmx, _, _⟩ := hkeep2 x hxa ox hox
        simp [marked_at, hox, hox', hmx]
      refine ⟨vm', hrun, ?_, ?_, ?_, ?_, ?_, ?_⟩
      · have hfa : marked_at vm.heap a = false := by simp [marked_at, ha, hm]
        have hfilt : List.filter (marked_at vm.heap) (a :: rest)
            = List.filter (marked_at vm2.heap) rest := by
          rw [List.filter_cons, if_neg (by simp [hfa])]
          exact (List.filter_congr hsame).symm
        rw [hfilt]
        exact hl'
      · intro x hx hxm
        rcases List.mem_cons.1 hx with h' | h'
        · subst h'
          simp [marked_at, ha, hm] at hxm
        · have hxa : x ≠ a := fun h'' => ha_notin_rest (h'' ▸ h')
          have hxk : x ∉ kept := fun h'' =>
            (List.nodup_append.1 hnd).2.2 h'' (List.mem_cons_of_mem _ h')
          obtain ⟨ox2, ox', hox2, hox', h1, h2⟩ := hmk' x h' (by rw [hsame x h']; exact hxm)
          obtain ⟨ox, hox⟩ := is_list_mem _ _ hrest x h'
          obtain ⟨ox3, hox3, _, _, heq⟩ := hkeep2 x hxa ox hox
          rw [hox3] at hox2
          cases hox2
          exact ⟨ox, ox', hox, hox', h1, by rw [h2, heq hxk]⟩
      · intro x hx hxm
        rcases List.mem_cons.1 hx with h' | h'
        · subst h'
          exact hout' x (fun h'' => by
            rcases List.mem_append.1 h'' with h3 | h3
            · exact ha_notin_kept h3
            · exact ha_notin_rest h3) ha2
        · exact hun' x h' (by rw [hsame x h']; exact hxm)
      · intro x hx hnone
        exact hout' x (fun h' => hx (by
          rcases List.mem_append.1 h' with h3 | h3
          · exact List.mem_append_left _ h3
          · exact List.mem_append_right _ (List.mem_cons_of_mem _ h3))) (hnone2 x hnone)
      · intro x hx ox hox
        have hxa : x ≠ a := fun h' => ha_notin_kept (h' ▸ hx)
        obtain ⟨ox2, hox2, hm2, hp2, _⟩ := hkeep2 x hxa ox hox
        obtain ⟨o', ho', hm', hp'⟩ := hkept' x hx ox2 hox2
        exact ⟨o', ho', by rw [hm', hm2], by rw [hp', hp2]⟩
      · rw [hfr', hfr2]

/-- The two outcomes of `delete_table` on a well-formed table. -/
theorem delete_table_cases (hashOf : Nat → Nat) {tab : table} {fuel : Nat} (key : Nat)
    (hwf : table_wf hashOf tab) (hfuel : 2 ^ 32 ≤ fuel) :
    (∃ (r : Nat) (e : table_entry), tab.entries[r]? = some e ∧ e.key = some key ∧
      delete_table hashOf fuel tab key
        = some ({ tab with entries := tab.entries.set r tombstone }, true)) ∨
    ((∀ (i : Nat) (e : table_entry), tab.entries[i]? = some e → e.key ≠ some key) ∧
      delete_table hashOf fuel tab key = some (tab, false)) := by
  by_cases hzero : tab.count = 0
  · right
    refine ⟨?_, by unfold delete_table; rw [if_pos hzero]⟩
    intro i e hi hk
    have hmem : e ∈ tab.entries := List.mem_iff_getElem?.2 ⟨i, hi⟩
    rw [entry_eta hk] at hmem
    exact no_key_of_used_zero (by rw [← hwf.count_eq]; exact hzero) key e.val hmem
  · have hld := hwf.load
    have hce := hwf.count_eq
    have hc32 := hwf.cap_le
    obtain ⟨r, er, hfind, her, hcase⟩ :=
      find_entry_spec hashOf hwf.wf hc32 (by omega) (by omega : tab.capacity ≤ fuel) key
    rcases hcase with hhit | ⟨hnone, habs, _⟩
    · left
      refine ⟨r, er, her, hhit, ?_⟩
      unfold delete_table
      rw [if_neg hzero]
      simp only [hfind, her, hhit, tombstone]
    · right
      refine ⟨habs, ?_⟩
      unfold delete_table
      rw [if_neg hzero]
      simp only [hfind, her, hnone]

theorem table_wf_tombstone (hashOf : Nat → Nat) {tab : table} {r k : Nat} {e : table_entry}
    (hwf : table_wf hashOf tab) (her : tab.entries[r]? = some e) (hk : e.key = some k) :
    table_wf hashOf { tab with entries := tab.entries.set r tombstone } := by
  refine ⟨entries_wf_set_tombstone hashOf hwf.wf, ?_, hwf.load, hwf.cap_le⟩
  show tab.count = used_slots (tab.entries.set r tombstone)
  rw [used_slots_set tombstone her rfl, isEmpty_false_of_key hk]
  exact hwf.count_eq

theorem table_wf_congr {hashOf hashOf' : Nat → Nat} {tab : table}
    (hsame : ∀ (e : table_entry) (k : Nat), e ∈ tab.entries → e.key = some k →
      hashOf' k = hashOf k)
    (hwf : table_wf hashOf tab) : table_wf hashOf' tab := by
  refine ⟨⟨hwf.wf.len, ?_, hwf.wf.uniq⟩, hwf.count_eq, hwf.load, hwf.cap_le⟩
  intro i e k hi hk
  have hh := hsame e k (List.mem_iff_getElem?.2 ⟨i, hi⟩) hk
  obtain ⟨d, hd, hpd, hbefore⟩ := hwf.wf.chain i e k hi hk
  refine ⟨d, hd, by unfold probe at hpd ⊢; rw [hh]; exact hpd, ?_⟩
  intro d' hd' e' he'
  apply hbefore d' hd' e'
  unfold probe at he' ⊢
  rw [hh] at he'
  exact he'

theorem ite_shift {α : Type} (i j : Nat) (w : Bool) (t e : α) (hji : j ≠ i) :
    (if i + 1 ≤ j ∧ w = true then t else e) = (if i ≤ j ∧ w = true then t else e) := by
  have : (i + 1 ≤ j ∧ w = true) ↔ (i ≤ j ∧ w = true) := by
    constructor <;> rintro ⟨h1, h2⟩ <;> exact ⟨by omega, h2⟩
  exact if_congr this rfl rfl

/-- The loop of `table_remove_white` from index `i`: every entry from `i` on
whose key is unmarked becomes a tombstone, nothing else changes. -/
theorem table_remove_white_loop_ok (heap : Nat → Option obj) {fuel : Nat}
    (hfuel : 2 ^ 32 ≤ fuel) :
    ∀ (n i : Nat) (tab : table),
      table_wf (string_hash heap) tab → i + n = tab.capacity →
      (∀ (e : table_entry) (k : Nat), e ∈ tab.entries → e.key = some k → heap k ≠ none) →
      ∃ tab', table_remove_white_loop heap fuel n i tab = some tab' ∧
        table_wf (string_hash heap) tab' ∧ tab'.capacity = tab.capacity ∧
        tab'.count = tab.count ∧
        ∀ (j : Nat) (e : table_entry), tab.entries[j]? = some e →
          tab'.entries[j]? = some (if i ≤ j ∧ white_entry heap e = true then tombstone else e) := by
  intro n
  induction n with
  | zero =>
    intro i tab hwf hi _
    refine ⟨tab, rfl, hwf, rfl, rfl, ?_⟩
    intro j e hj
    have hjlt : j < tab.entries.length := (List.getElem?_eq_some_iff.1 hj).1
    rw [hwf.wf.len] at hjlt
    rw [if_neg (by omega), hj]
  | succ n ih =>
    intro i tab hwf hi hvalid
    have hilt : i < tab.entries.length := by rw [hwf.wf.len]; omega
    have hentry : tab.entries[i]? = some tab.entries[i] := List.getElem?_eq_getElem hilt
    generalize tab.entries[i] = entry at hentry
    have hskip : white_entry heap entry = false →
        ∃ tab', table_remove_white_loop heap fuel n (i + 1) tab = some tab' ∧
          table_wf (string_hash heap) tab' ∧ tab'.capacity = tab.capacity ∧
          tab'.count = tab.count ∧
          ∀ (j : Nat) (e : table_entry), tab.entries[j]? = some e →
            tab'.entries[j]? =
              some (if i ≤ j ∧ white_entry heap e = true then tombstone else e) := by
      intro hw
      obtain ⟨tab', h1, h2, h3, h4, h5⟩ := ih (i + 1) tab hwf (by omega) hvalid
      refine ⟨tab', h1, h2, h3, h4, ?_⟩
      intro j e hj
      rw [h5 j e hj]
      by_cases hji : j = i
      · subst hji
        rw [hentry] at hj
        cases hj
        simp [hw]
      · rw [ite_shift i j _ _ _ hji]
    cases hk : entry.key with
    | none =>
      obtain ⟨tab', h1, h2⟩ := hskip (by simp [white_entry, hk])
      exact ⟨tab', by simp only [table_remove_white_loop, hentry, hk]; exact h1, h2⟩
    | some k =>
      have hkv := hvalid entry k (List.mem_iff_getElem?.2 ⟨i, hentry⟩) hk
      cases hko : heap k with
      | none => exact absurd hko hkv
      | some o =>
        cases hm : o.marked with
        | true =>
          obtain ⟨tab', h1, h2⟩ := hskip (by simp [white_entry, hk, marked_at, hko, hm])
          exact ⟨tab', by
            simp only [table_remove_white_loop, hentry, hk, hko, hm, if_true]; exact h1, h2⟩
        | false =>
          have hwhite : white_entry heap entry = true := by
            simp [white_entry, hk, marked_at, hko, hm]
          rcases delete_table_cases (string_hash heap) k hwf hfuel with
            ⟨r, er, her, hkr, hdel⟩ | ⟨habs, _⟩
          · have hri : r = i := hwf.wf.uniq r i er entry k her hentry hkr hk
            subst hri
            have hwf1 := table_wf_tombstone (string_hash heap) hwf her hkr
            obtain ⟨tab', h1, h2, h3, h4, h5⟩ :=
              ih (r + 1) { tab with entries := tab.entries.set r tombstone } hwf1
                (by simp only; omega)
                (by
                  intro e k' he hk'
                  obtain ⟨j, hj⟩ := List.mem_iff_getElem?.1 he
                  rcases getElem?_set_cases hj with ⟨_, h'⟩ | ⟨_, h'⟩
                  · rw [h'] at hk'; cases hk'
                  · exact hvalid e k' (List.mem_iff_getElem?.2 ⟨j, h'⟩) hk')
            refine ⟨tab', ?_, h2, h3, h4, ?_⟩
            · simp only [table_remove_white_loop, hentry, hk, hko, hm, hdel]
              exact h1
            · intro j e hj
              by_cases hji : j = r
              · subst hji
                rw [hentry] at hj
                cases hj
                have := h5 j tombstone (getElem?_set_at hentry)
                have e1 : (if j + 1 ≤ j ∧ white_entry heap tombstone = true then tombstone
                    else tombstone) = tombstone := by split <;> rfl
                have e2 : (if j ≤ j ∧ white_entry heap entry = true then tombstone
                    else entry) = tombstone := if_pos ⟨Nat.le_refl _, hwhite⟩
                rw [this, e1, e2]
              · have := h5 j e (by
                  show (tab.entries.set r tombstone)[j]? = some e
                  rw [getElem?_set_other hji]; exact hj)
                rw [this, ite_shift r j _ _ _ hji]
          · exact absurd hk (habs i entry hentry)

theorem string_hash_marks_only {h h' : Nat → Option obj} (hm : marks_only h h') :
    string_hash h' = string_hash h := by
  funext k
  unfold string_hash
  rcases hm k with ⟨e1, e2⟩ | ⟨o, o', e1, e2, _, hp, _⟩
  · rw [e1, e2]
  · rw [e1, e2]
    simp only [hp]

theorem marked_at_true {h : Nat → Option obj} {a : Nat} :
    marked_at h a = true ↔ is_marked h a := by
  unfold marked_at is_marked
  cases h a with
  | none => simp
  | some o => simp

/-- The mark phase (`mark_roots` then `trace_references`) terminates and marks
every object reachable from the roots, changing nothing but mark bits. -/
theorem mark_phase_ok {vm : VM} {l ups : List Nat} {fuel : Nat} (hready : gc_ready vm l ups)
    (hf : l.length + ups.length < fuel) :
    ∃ vm2, (mark_roots fuel vm).bind (trace_references fuel) = some vm2 ∧
      vm2 = { vm with heap := vm2.heap, gray_capacity := vm2.gray_capacity } ∧
      marks_only vm.heap vm2.heap ∧
      (∀ a, reachable vm ups a → is_marked vm2.heap a) ∧
      (∀ (a : Nat) (o : obj), vm2.heap a = some o → o.marked = true →
        ∀ b : Nat, some b ∈ obj_edges o.payload → is_marked vm2.heap b) := by
  have hnd := hready.nodup
  rw [mark_roots_eq hnd vm ups fuel hready.dom hready.upvalues (by omega) hready.roots_valid]
  obtain ⟨vm1, h1, ok1, hm1⟩ := mark_objects_ok none hnd (root_ptrs vm ups) vm hready.dom
    hready.roots_valid
  have htri0 : tri_colour none vm := by
    intro a o ha hm _
    rw [hready.white a o ha] at hm
    cases hm
  have hgr0 : ∀ g ∈ vm.gray_stack, is_marked vm.heap g := by
    intro g hg
    rw [hready.gray] at hg
    cases hg
  have hmeas := ok1.measure
  rw [hready.gray] at hmeas
  have hle : unmarked_count vm.heap l ≤ l.length := List.countP_le_length _
  obtain ⟨vm2, h2, hfr2, hsh2, hgray2, htri2⟩ := trace_references_ok hnd fuel vm1
    (dom_of_marks_only ok1.shape hready.dom)
    (by
      intro a oa ha b hb
      obtain ⟨o0, ho0, _, hp, _⟩ := marks_only_some' ok1.shape ha
      rw [hp] at hb
      exact (marks_only_ne_none ok1.shape b).1 (hready.edges_valid a o0 ho0 b hb))
    (ok1.tri htri0) (ok1.grays hgr0) (by simp at hmeas; omega)
  have hshape := marks_only_trans ok1.shape hsh2
  have hclosed : ∀ (a : Nat) (o : obj), vm2.heap a = some o → o.marked = true →
      ∀ b : Nat, some b ∈ obj_edges o.payload → is_marked vm2.heap b := by
    intro a o ha hm b hb
    rcases htri2 a o ha hm (by simp) with h | h
    · rw [hgray2] at h; cases h
    · exact h b hb
  refine ⟨vm2, ?_, ?_, hshape, ?_, hclosed⟩
  · rw [h1]; exact h2
  · have e1 := ok1.frame
    rw [hfr2, e1, hgray2, hready.gray]
  · intro a ⟨r, hr, hpath⟩
    induction hpath with
    | refl => exact is_marked_mono hsh2 (hm1 r hr)
    | tail _ hedge ih =>
      obtain ⟨oa, hoa, hma⟩ := ih
      obtain ⟨o0, ho0, hb⟩ := hedge
      obtain ⟨o2, ho2, _, hp, _⟩ := marks_only_some hshape ho0
      rw [hoa] at ho2
      cases ho2
      exact hclosed _ oa hoa hma _ (by rw [hp]; exact hb)

/-- Function `collect_garbage` terminates on a state handed over by the
mutator and does what `collected` says. -/
theorem collect_garbage_ok (sz : sizeofs) {vm : VM} {l ups : List Nat} {fuel : Nat}
    (hready : gc_ready vm l ups) (hfuel : 2 ^ 32 ≤ fuel)
    (hf : l.length + ups.length < fuel) :
    ∃ (vm' : VM) (M : Nat → Bool),
      collect_garbage sz fuel vm = some vm' ∧ collected vm l ups vm' M := by
  obtain ⟨vm2, hmark, hfr2, hshape, hreach, hclosed⟩ := mark_phase_ok hready hf
  have hstr2 : vm2.strings = vm.strings := by rw [hfr2]
  have hobj2 : vm2.objects = vm.objects := by rw [hfr2]
  have hhash := string_hash_marks_only hshape
  obtain ⟨strings, hrw, hswf, hscap, hscount, hsent⟩ :=
    table_remove_white_loop_ok vm2.heap hfuel vm.strings.capacity 0 vm.strings
      (by rw [hhash]; exact hready.strings_wf) (by omega)
      (fun e k he hk => (marks_only_ne_none hshape k).1 (hready.strings_valid e k he hk))
  have hlist2 : is_list vm2.heap vm2.objects l := by
    rw [hobj2]
    apply is_list_congr _ _ hready.list
    intro x _ ox hox
    obtain ⟨ox', hox', hn, _, _⟩ := marks_only_some hshape hox
    exact ⟨ox', hox', hn⟩
  obtain ⟨vm3, hsweep, hl3, hmk3, hun3, hout3, _, hfr3⟩ :=
    sweep_loop_ok sz l fuel { vm2 with strings := strings } [] vm2.objects (by omega)
      (by simpa using hlist2) (by simpa using hready.nodup) hlist2
  refine ⟨{ vm3 with gc_treshold := (vm3.heap_size * GC_HEAP_GROW_FACTOR) % 2 ^ 64 },
    marked_at vm2.heap, ?_, ⟨?_, ?_, ?_, ?_, ?_, ?_, ?_, ?_, ?_, ?_⟩⟩
  · unfold collect_garbage
    cases hmr : mark_roots fuel vm with
    | none => rw [hmr] at hmark; cases hmark
    | some vm1 =>
      rw [hmr] at hmark
      simp only [Option.bind] at hmark
      simp only [hmark, table_remove_white, hstr2, hrw, sweep]
      simp only [List.getLast?_nil] at hsweep
      rw [hsweep]
  · intro a ha
    exact marked_at_true.2 (hreach a ha)
  · intro a ha
    obtain ⟨o2, ho2, hm2⟩ := marked_at_true.1 ha
    obtain ⟨o, ho, _, hp, _⟩ := marks_only_some' hshape ho2
    have hal : a ∈ l := hready.dom a o ho
    obtain ⟨ox, ox', hox, hox', h1, h2⟩ := hmk3 a hal ha
    have : ox = o2 := by
      have h' : vm2.heap a = some ox := hox
      rw [ho2] at h'; exact (Option.some.inj h').symm
    subst this
    exact ⟨o, ox', ho, hox', h1, by rw [h2, hp]⟩
  · intro a ha
    by_cases hal : a ∈ l
    · exact hun3 a hal ha
    · apply hout3 a (by simpa using hal)
      show vm2.heap a = none
      cases h2 : vm2.heap a with
      | none => rfl
      | some o2 =>
        obtain ⟨o, ho, _⟩ := marks_only_some' hshape h2
        exact absurd (hready.dom a o ho) hal
  · intro a o ho ha b hb
    obtain ⟨o2, ho2, hm2⟩ := marked_at_true.1 ha
    obtain ⟨o2', ho2', _, hp, _⟩ := marks_only_some hshape ho
    rw [ho2] at ho2'
    cases ho2'
    exact marked_at_true.2 (hclosed a o2 ho2 hm2 b (by rw [hp]; exact hb))
  · simpa using hl3
  · have e3 : vm3.strings = strings := by rw [hfr3]
    show table_wf (string_hash vm.heap) vm3.strings
    rw [e3, ← hhash]
    exact hswf
  · have e3 : vm3.strings = strings := by rw [hfr3]
    show vm3.strings.capacity = _
    rw [e3]; exact hscap
  · have e3 : vm3.strings = strings := by rw [hfr3]
    show vm3.strings.count = _
    rw [e3]; exact hscount
  · intro j e hj
    have e3 : vm3.strings = strings := by rw [hfr3]
    show vm3.strings.entries[j]? = _
    rw [e3, hsent j e hj]
    congr 1
    apply if_congr _ rfl rfl
    simp only [white_entry, white_key, Nat.zero_le, true_and]
  · rw [hfr3, hfr2, hready.gray]

theorem strings4_ok :
    table_wf (string_hash heap4) strings4 ∧
    ∀ (k : Nat) (v : value), ({ key := some k, val := v } : table_entry) ∈ strings4.entries →
      k = 1 ∨ k = 4 := by
  obtain ⟨tab, hrun, hwf, hrep⟩ := run_table_ops_spec (string_hash heap4) (Nat.le_refl (2 ^ 32))
    [table_op.set 1 value.nil, table_op.set 4 value.nil] init_table (fun _ => none) 0
    (table_wf_init _) table_repr_init (by decide) (by decide) (by decide)
  have heq : strings4 = tab := by
    unfold strings4
    rw [hrun]
    rfl
  rw [heq]
  refine ⟨hwf, ?_⟩
  intro k v hmem
  have := (hrep k v).2 hmem
  simp only [List.foldl, map_step] at this
  by_cases h4 : k = 4
  · exact Or.inr h4
  · by_cases h1 : k = 1
    · exact Or.inl h1
    · simp [h4, h1] at this

theorem heap4_cases {a : Nat} {o : obj} (h : heap4 a = some o) :
    a = 1 ∨ a = 2 ∨ a = 3 ∨ a = 4 := by
  unfold heap4 at h
  by_cases h1 : a = 1
  · exact Or.inl h1
  · by_cases h2 : a = 2
    · exact Or.inr (Or.inl h2)
    · by_cases h3 : a = 3
      · exact Or.inr (Or.inr (Or.inl h3))
      · by_cases h4 : a = 4
        · exact Or.inr (Or.inr (Or.inr h4))
        · simp [h1, h2, h3, h4] at h

theorem vm4_ready : gc_ready vm4 [4, 3, 2, 1] [] := by
  refine ⟨?_, by decide, ?_, ?_, rfl, rfl, ?_, ?_, strings4_ok.1, ?_⟩
  · exact ⟨rfl, _, rfl, rfl, _, rfl, rfl, _, rfl, rfl, _, rfl, rfl⟩
  · intro a o h
    rcases heap4_cases h with h | h | h | h <;> subst h <;> decide
  · intro a o h
    rcases heap4_cases h with h' | h' | h' | h' <;> subst h' <;>
      simp [vm4, heap4] at h <;> rw [← h]
  · intro b hb
    have hb' : b = 3 := by
      simp [root_ptrs, vm4, zero_vm, table_ptrs, init_table, value_ptr, List.range,
        List.range.loop] at hb
      exact hb
    subst hb'
    simp [vm4, heap4]
  · intro a o h b hb
    rcases heap4_cases h with h' | h' | h' | h' <;> subst h' <;>
      simp [vm4, heap4] at h <;> rw [← h] at hb <;>
      simp [obj_edges, empty_chunk] at hb <;> subst hb <;> simp [vm4, heap4]
  · intro e k he hk
    rw [entry_eta hk] at he
    rcases strings4_ok.2 k e.val he with h | h <;> subst h <;> simp [vm4, heap4]

/-- C2: after a complete `collect_garbage` cycle run on a state handed over by
the mutator (`gc_ready`), with enough fuel for its loops, every object
reachable from the root set through the per-kind edges is still on the VM's
object list and has not been freed (it is allocated, with its payload
unchanged). -/
theorem gc_keeps_reachable (sz : sizeofs) (vm : VM) (l ups : List Nat) (fuel : Nat)
    (hready : gc_ready vm l ups) (hfuel : 2 ^ 32 ≤ fuel)
    (hf : l.length + ups.length < fuel) :
    ∃ (vm' : VM) (l' : List Nat), collect_garbage sz fuel vm = some vm' ∧
      is_list vm'.heap vm'.objects l' ∧
      ∀ a, reachable vm ups a →
        a ∈ l' ∧ ∃ o o', vm.heap a = some o ∧ vm'.heap a = some o' ∧ o'.payload = o.payload := by
  obtain ⟨vm', M, hrun, hc⟩ := collect_garbage_ok sz hready hfuel hf
  refine ⟨vm', l.filter M, hrun, hc.list, ?_⟩
  intro a ha
  have hM := hc.reach a ha
  obtain ⟨o, o', ho, ho', _, hp⟩ := hc.kept a hM
  exact ⟨List.mem_filter.2 ⟨hready.dom a o ho, hM⟩, o, o', ho, ho', hp⟩

/-- C2 at a concrete state: the closure on the stack, its function and the
function's name survive the collection, while the unreferenced string "b"
is on the object list before it. -/
theorem gc_keeps_reachable_witness :
    gc_ready vm4 [4, 3, 2, 1] [] ∧
    ∃ (vm' : VM) (l' : List Nat), collect_garbage sizes_lp64 (2 ^ 32) vm4 = some vm' ∧
      is_list vm'.heap vm'.objects l' ∧
      ∀ a, reachable vm4 [] a →
        a ∈ l' ∧ ∃ o o', vm4.heap a = some o ∧ vm'.heap a = some o' ∧ o'.payload = o.payload :=
  ⟨vm4_ready,
   gc_keeps_reachable sizes_lp64 vm4 [4, 3, 2, 1] [] (2 ^ 32) vm4_ready (by decide) (by decide)⟩

/-! ## String interning -/

theorem table_find_string_loop_succ (heap : Nat → Option obj) (entries : List table_entry)
    (capacity : Nat) (data : List Nat) (hash fuel index : Nat) :
    table_find_string_loop heap entries capacity data hash (fuel + 1) index =
      match entries[index]? with
      | none => none
      | some entry =>
        match entry.key with
        | none =>
          if IS_NIL entry.val then some none
          else table_find_string_loop heap entries capacity data hash fuel
            (((index + 1) % 2 ^ 32) % capacity)
        | some k =>
          match heap k with
          | none => none
          | some o =>
            match o.payload with
            | obj_payload.obj_string kdata khash =>
              if kdata.length = data.length ∧ khash = hash ∧ kdata = data then some (some k)
              else table_find_string_loop heap entries capacity data hash fuel
                (((index + 1) % 2 ^ 32) % capacity)
            | _ => none := rfl

/-- The probe loop of `table_find_string` walks over tombstones and over keys
with other bytes. -/
theorem table_find_string_loop_skip (heap : Nat → Option obj) (entries : List table_entry)
    {cap : Nat} (data : List Nat) (hash : Nat) (hc : 0 < cap) (hc32 : cap ≤ 2 ^ 32) :
    ∀ (n d fuel : Nat),
      (∀ d', d ≤ d' → d' < d + n → ∃ e : table_entry,
        entries[probe (fun _ => hash) cap 0 d']? = some e ∧ e.isEmpty = false ∧
        ∀ k, e.key = some k → ∃ (o : obj) (kd : List Nat) (kh : Nat), heap k = some o ∧
          o.payload = obj_payload.obj_string kd kh ∧ kd ≠ data) →
      table_find_string_loop heap entries cap data hash (fuel + n)
          (probe (fun _ => hash) cap 0 d)
        = table_find_string_loop heap entries cap data hash fuel
          (probe (fun _ => hash) cap 0 (d + n)) := by
  intro n
  induction n with
  | zero => intro d fuel _; rfl
  | succ n ih =>
    intro d fuel hskip
    obtain ⟨e, he, hne, hk⟩ := hskip d (Nat.le_refl d) (by omega)
    have hstep := probe_succ (fun _ => hash) 0 d hc hc32
    have hrec := ih (d + 1) fuel (fun d' h1 h2 => hskip d' (by omega) (by omega))
    have e1 : fuel + (n + 1) = (fuel + n) + 1 := by omega
    have e2 : d + (n + 1) = d + 1 + n := by omega
    rw [e1, e2, table_find_string_loop_succ]
    simp only [he]
    cases hkey : e.key with
    | none =>
      have hnil : IS_NIL e.val = false := by
        simpa [table_entry.isEmpty, hkey] using hne
      simp only [hnil, hstep]
      exact hrec
    | some k =>
      obtain ⟨o, kd, kh, ho, hp, hd⟩ := hk k hkey
      simp only [ho, hp, hstep]
      rw [if_neg (fun h => hd h.2.2)]
      exact hrec

/-- Function `table_find_string` on a well-formed intern table whose keys
carry the hash of their bytes and are pairwise different in their bytes: it
terminates and returns the key with the bytes `data` if there is one, and
`NULL` if there is none. -/
theorem table_find_string_spec {heap : Nat → Option obj} {tab : table} {fuel : Nat}
    (data : List Nat)
    (hwf : table_wf (string_hash heap) tab)
    (hashed : ∀ (e : table_entry) (k : Nat), e ∈ tab.entries → e.key = some k →
      ∃ (o : obj) (d : List Nat), heap k = some o ∧
        o.payload = obj_payload.obj_string d (hash_string d))
    (unique : ∀ (e1 e2 : table_entry) (k1 k2 : Nat), e1 ∈ tab.entries → e2 ∈ tab.entries →
      e1.key = some k1 → e2.key = some k2 →
      string_data heap k1 = string_data heap k2 → k1 = k2)
    (hfuel : 2 ^ 32 ≤ fuel) :
    (∃ (k : Nat) (e : table_entry), e ∈ tab.entries ∧ e.key = some k ∧
        string_data heap k = some data ∧
        table_find_string heap fuel tab data (hash_string data) = some (some k)) ∨
    ((∀ (k : Nat) (e : table_entry), e ∈ tab.entries → e.key = some k →
        string_data heap k ≠ some data) ∧
      table_find_string heap fuel tab data (hash_string data) = some none) := by
  have hdata_of : ∀ (e : table_entry) (k : Nat), e ∈ tab.entries → e.key = some k →
      ∃ (o : obj) (d : List Nat), heap k = some o ∧
        o.payload = obj_payload.obj_string d (hash_string d) ∧
        string_data heap k = some d ∧ string_hash heap k = hash_string d := by
    intro e k he hk
    obtain ⟨o, d, ho, hp⟩ := hashed e k he hk
    exact ⟨o, d, ho, hp, by simp [string_data, ho, hp], by simp [string_hash, ho, hp]⟩
  by_cases hzero : tab.count = 0
  · right
    refine ⟨?_, by unfold table_find_string; rw [if_pos hzero]⟩
    intro k e he hk
    rw [entry_eta hk] at he
    exact absurd he (no_key_of_used_zero (by rw [← hwf.count_eq]; exact hzero) k e.val)
  · have hld := hwf.load
    have hce := hwf.count_eq
    have hc32 := hwf.cap_le
    have hc : 0 < tab.capacity := by omega
    have hcne : tab.capacity ≠ 0 := by omega
    have hlen := hwf.wf.len
    have hget : ∀ d, ∃ e : table_entry,
        tab.entries[probe (fun _ => hash_string data) tab.capacity 0 d]? = some e := by
      intro d
      have : probe (fun _ => hash_string data) tab.capacity 0 d < tab.entries.length := by
        rw [hlen]; exact probe_lt _ 0 d hc
      exact ⟨_, List.getElem?_eq_getElem this⟩
    unfold table_find_string
    rw [if_neg hzero, if_neg hcne, probe_zero (fun _ => hash_string data) 0 hc hc32]
    by_cases hpres : ∃ (k : Nat) (e : table_entry), e ∈ tab.entries ∧ e.key = some k ∧
        string_data heap k = some data
    · left
      obtain ⟨k, e, he, hk, hkd⟩ := hpres
      obtain ⟨o, d, ho, hp, hsd, hsh⟩ := hdata_of e k he hk
      have hdd : d = data := by
        rw [hsd] at hkd; exact Option.some.inj hkd
      subst hdd
      obtain ⟨i, hi⟩ := List.mem_iff_getElem?.1 he
      obtain ⟨dist, hdist, hpd, hbefore⟩ := hwf.wf.chain i e k hi hk
      have hprobe : ∀ x, probe (string_hash heap) tab.capacity k x
          = probe (fun _ => hash_string d) tab.capacity 0 x := by
        intro x; unfold probe; rw [hsh]
      refine ⟨k, e, he, hk, hsd, ?_⟩
      have hskip := table_find_string_loop_skip heap tab.entries d (hash_string d) hc hc32
        dist 0 (fuel - dist)
        (by
          intro d' _ h2
          obtain ⟨e2, he2⟩ := hget d'
          refine ⟨e2, he2, hbefore d' (by omega) e2 (by rw [hprobe]; exact he2), ?_⟩
          intro k2 hk2
          have he2mem : e2 ∈ tab.entries := List.mem_iff_getElem?.2 ⟨_, he2⟩
          obtain ⟨o2, d2, ho2, hp2, hsd2, _⟩ := hdata_of e2 k2 he2mem hk2
          refine ⟨o2, d2, _, ho2, hp2, ?_⟩
          intro hd2
          subst hd2
          have hkk := unique e2 e k2 k he2mem he hk2 hk (by rw [hsd2, hsd])
          subst hkk
          have hidx := hwf.wf.uniq _ _ _ _ _ he2 hi hk2 hk
          rw [← hpd, ← hprobe] at hidx
          have := probe_inj (string_hash heap) (by omega) hdist hidx
          omega)
      have e1 : fuel - dist + dist = fuel := by omega
      rw [e1, Nat.zero_add] at hskip
      rw [hskip]
      obtain ⟨f, hf⟩ : ∃ f, fuel - dist = f + 1 := ⟨fuel - dist - 1, by omega⟩
      rw [hf, table_find_string_loop_succ, ← hprobe, hpd]
      simp [hi, hk, ho, hp]
    · right
      push_neg at hpres
      refine ⟨fun k e he hk => hpres k e he hk, ?_⟩
      obtain ⟨i0, e0, hi0, he0⟩ := exists_empty_of_used_lt
        (by rw [hlen, ← hce]; omega : used_slots tab.entries < tab.entries.length)
      have hi0lt : i0 < tab.capacity := by
        rw [← hlen]
        exact (List.getElem?_eq_some_iff.1 hi0).1
      obtain ⟨d0, hd0, hpd0⟩ := probe_surj (fun _ => hash_string data) 0 i0 hi0lt
      have hex : ∃ d, ∃ e : table_entry,
          tab.entries[probe (fun _ => hash_string data) tab.capacity 0 d]? = some e ∧
          e.isEmpty = true := ⟨d0, e0, by rw [hpd0]; exact hi0, he0⟩
      classical
      let n := Nat.find hex
      have hn : ∃ e : table_entry,
          tab.entries[probe (fun _ => hash_string data) tab.capacity 0 n]? = some e ∧
          e.isEmpty = true := Nat.find_spec hex
      have hmin : ∀ d', d' < n → ¬ ∃ e : table_entry,
          tab.entries[probe (fun _ => hash_string data) tab.capacity 0 d']? = some e ∧
          e.isEmpty = true := fun d' hd' => Nat.find_min hex hd'
      have hnle : n ≤ d0 := Nat.find_min' hex ⟨e0, by rw [hpd0]; exact hi0, he0⟩
      have hskip := table_find_string_loop_skip heap tab.entries data (hash_string data) hc hc32
        n 0 (fuel - n)
        (by
          intro d' _ h2
          obtain ⟨e2, he2⟩ := hget d'
          refine ⟨e2, he2, ?_, ?_⟩
          · cases hem : e2.isEmpty with
            | false => rfl
            | true => exact absurd ⟨e2, he2, hem⟩ (hmin d' (by omega))
          · intro k2 hk2
            have he2mem : e2 ∈ tab.entries := List.mem_iff_getElem?.2 ⟨_, he2⟩
            obtain ⟨o2, d2, ho2, hp2, hsd2, _⟩ := hdata_of e2 k2 he2mem hk2
            refine ⟨o2, d2, _, ho2, hp2, ?_⟩
            intro hd2
            exact hpres k2 e2 he2mem hk2 (by rw [hsd2, hd2]))
      have e1 : fuel - n + n = fuel := by omega
      rw [e1, Nat.zero_add] at hskip
      rw [hskip]
      obtain ⟨f, hf⟩ : ∃ f, fuel - n = f + 1 := ⟨fuel - n - 1, by omega⟩
      obtain ⟨en, hen, hemp⟩ := hn
      have hkn : en.key = none := by
        cases hkey : en.key with
        | none => rfl
        | some k => simp [table_entry.isEmpty, hkey] at hemp
      have hnil : IS_NIL en.val = true := by
        simpa [table_entry.isEmpty, hkn] using hemp
      rw [hf, table_find_string_loop_succ]
      simp only [hen, hkn, hnil, if_true]

theorem root_ptrs_congr {vm vm' : VM} (ups : List Nat)
    (h1 : vm'.stack = vm.stack) (h2 : vm'.stack_top = vm.stack_top)
    (h3 : vm'.frames = vm.frames) (h4 : vm'.frame_count = vm.frame_count)
    (h5 : vm'.globals = vm.globals) (h6 : vm'.compilers = vm.compilers)
    (h7 : vm'.init_string = vm.init_string) : root_ptrs vm' ups = root_ptrs vm ups := by
  unfold root_ptrs
  rw [h1, h2, h3, h4, h5, h6, h7]

theorem string_data_of_payload {h h' : Nat → Option obj} {k : Nat} {o o' : obj}
    (ho : h k = some o) (ho' : h' k = some o') (hp : o'.payload = o.payload) :
    string_data h' k = string_data h k := by
  simp only [string_data, ho, ho', hp]

theorem string_hash_of_payload {h h' : Nat → Option obj} {k : Nat} {o o' : obj}
    (ho : h k = some o) (ho' : h' k = some o') (hp : o'.payload = o.payload) :
    string_hash h' k = string_hash h k := by
  simp only [string_hash, ho, ho', hp]

theorem upvalue_next_of_payload {h h' : Nat → Option obj} {k : Nat} {o o' : obj}
    (ho : h k = some o) (ho' : h' k = some o') (hp : o'.payload = o.payload) :
    upvalue_next h' k = upvalue_next h k := by
  simp only [upvalue_next, ho, ho', hp]

/-- A key of the intern table after a collection was a marked key before. -/
theorem collected_key {vm vm' : VM} {l ups : List Nat} {M : Nat → Bool}
    (hready : gc_ready vm l ups) (hc : collected vm l ups vm' M)
    {e' : table_entry} {k : Nat} (he' : e' ∈ vm'.strings.entries) (hk : e'.key = some k) :
    e' ∈ vm.strings.entries ∧ M k = true := by
  obtain ⟨j, hj⟩ := List.mem_iff_getElem?.1 he'
  have hjlt : j < vm'.strings.entries.length := (List.getElem?_eq_some_iff.1 hj).1
  have hlen : vm'.strings.entries.length = vm.strings.entries.length := by
    rw [hc.strings_wf.wf.len, hready.strings_wf.wf.len, hc.strings_cap]
  have hjlt2 : j < vm.strings.entries.length := by omega
  obtain ⟨e, he⟩ : ∃ e, vm.strings.entries[j]? = some e :=
    ⟨_, List.getElem?_eq_getElem hjlt2⟩
  have hje := hc.strings_entries j e he
  rw [hj] at hje
  have hje' := Option.some.inj hje
  have hmem : e ∈ vm.strings.entries := List.mem_iff_getElem?.2 ⟨j, he⟩
  by_cases hw : white_key M e = true
  · rw [if_pos hw] at hje'
    rw [hje'] at hk
    cases hk
  · rw [if_neg hw] at hje'
    subst hje'
    refine ⟨hmem, ?_⟩
    simpa [white_key, hk] using hw

/-- A marked key of the intern table is a key after the collection. -/
theorem collected_key_kept {vm vm' : VM} {l ups : List Nat} {M : Nat → Bool}
    (hc : collected vm l ups vm' M)
    {e : table_entry} {k : Nat} (he : e ∈ vm.strings.entries) (hk : e.key = some k)
    (hM : M k = true) : e ∈ vm'.strings.entries := by
  obtain ⟨j, hj⟩ := List.mem_iff_getElem?.1 he
  have hje := hc.strings_entries j e hj
  rw [if_neg (by simp [white_key, hk, hM])] at hje
  exact List.mem_iff_getElem?.2 ⟨j, hje⟩

theorem collected_fields {vm vm' : VM} {l ups : List Nat} {M : Nat → Bool}
    (hc : collected vm l ups vm' M) :
    vm'.stack = vm.stack ∧ vm'.stack_top = vm.stack_top ∧ vm'.frames = vm.frames ∧
    vm'.frame_count = vm.frame_count ∧ vm'.globals = vm.globals ∧
    vm'.compilers = vm.compilers ∧ vm'.init_string = vm.init_string ∧
    vm'.open_upvalues = vm.open_upvalues ∧ vm'.gray_stack = vm.gray_stack := by
  have e := hc.frame
  refine ⟨?_, ?_, ?_, ?_, ?_, ?_, ?_, ?_, ?_⟩ <;> (rw [e])

/-- The root set is the same after a collection. -/
theorem collected_roots {vm vm' : VM} {l ups : List Nat} {M : Nat → Bool}
    (hc : collected vm l ups vm' M) : root_ptrs vm' ups = root_ptrs vm ups := by
  obtain ⟨f1, f2, f3, f4, f5, f6, f7, _, _⟩ := collected_fields hc
  exact root_ptrs_congr ups f1 f2 f3 f4 f5 f6 f7

/-- Every path from a root survives a collection. -/
theorem collected_paths {vm vm' : VM} {l ups : List Nat} {M : Nat → Bool}
    (hc : collected vm l ups vm' M) {r a : Nat} (hr : some r ∈ root_ptrs vm ups)
    (hpath : Relation.ReflTransGen (heap_edge vm.heap) r a) :
    Relation.ReflTransGen (heap_edge vm'.heap) r a := by
  induction hpath with
  | refl => exact Relation.ReflTransGen.refl
  | tail hrx hxy ih =>
    refine Relation.ReflTransGen.tail ih ?_
    obtain ⟨o, ho, hb⟩ := hxy
    obtain ⟨o1, o', ho1, ho', _, hp⟩ := hc.kept _ (hc.reach _ ⟨r, hr, hrx⟩)
    rw [ho] at ho1
    cases ho1
    exact ⟨o', ho', by rw [hp]; exact hb⟩

/-- A collection re-establishes the state the mutator works in. -/
theorem collected_ready {vm vm' : VM} {l ups : List Nat} {M : Nat → Bool}
    (hready : gc_ready vm l ups) (hc : collected vm l ups vm' M) :
    gc_ready vm' (l.filter M) ups := by
  obtain ⟨f1, f2, f3, f4, f5, f6, f7, f8, f9⟩ := collected_fields hc
  have hroots := root_ptrs_congr ups f1 f2 f3 f4 f5 f6 f7
  have halloc : ∀ (a : Nat) (o' : obj), vm'.heap a = some o' →
      M a = true ∧ ∃ o, vm.heap a = some o ∧ o'.marked = false ∧ o'.payload = o.payload := by
    intro a o' ha
    cases hM : M a with
    | false => rw [hc.freed a hM] at ha; cases ha
    | true =>
      obtain ⟨o, o'', ho, ho'', hm, hp⟩ := hc.kept a hM
      rw [ha] at ho''
      cases ho''
      exact ⟨rfl, o, ho, hm, hp⟩
  have hrootM : ∀ b, some b ∈ root_ptrs vm ups → M b = true := fun b hb =>
    hc.reach b ⟨b, hb, Relation.ReflTransGen.refl⟩
  refine ⟨hc.list, hready.nodup.filter _, ?_, ?_, by rw [f9]; exact hready.gray, ?_, ?_, ?_,
    ?_, ?_⟩
  · intro a o' ha
    obtain ⟨hM, o, ho, _, _⟩ := halloc a o' ha
    exact List.mem_filter.2 ⟨hready.dom a o ho, hM⟩
  · intro a o' ha
    exact (halloc a o' ha).2.choose_spec.2.1
  · rw [f8]
    have hall : ∀ u ∈ ups, M u = true := fun u hu =>
      hrootM u (by
        unfold root_ptrs
        simp only [List.mem_append, List.mem_map]
        exact Or.inl (Or.inl (Or.inl (Or.inr ⟨u, hu, rfl⟩))))
    have hgen : ∀ (us : List Nat) (p : Option Nat), (∀ u ∈ us, M u = true) →
        is_upvalue_list vm.heap p us → is_upvalue_list vm'.heap p us := by
      intro us
      induction us with
      | nil => intro p _ hp; exact hp
      | cons u us ih =>
        intro p hM hp
        obtain ⟨hpu, n, hn, hrest⟩ := hp
        obtain ⟨o, o', ho, ho', _, hpay⟩ := hc.kept u (hM u (List.mem_cons_self _ _))
        exact ⟨hpu, n, by rw [upvalue_next_of_payload ho ho' hpay]; exact hn,
          ih n (fun x hx => hM x (List.mem_cons_of_mem _ hx)) hrest⟩
    exact hgen ups _ hall hready.upvalues
  · intro b hb
    rw [hroots] at hb
    obtain ⟨_, o', _, ho', _, _⟩ := hc.kept b (hrootM b hb)
    rw [ho']; simp
  · intro a o' ha b hb
    obtain ⟨hM, o, ho, _, hp⟩ := halloc a o' ha
    rw [hp] at hb
    obtain ⟨_, ob', _, hob', _, _⟩ := hc.kept b (hc.closed a o ho hM b hb)
    rw [hob']; simp
  · apply table_wf_congr _ hc.strings_wf
    intro e k he hk
    obtain ⟨_, hM⟩ := collected_key hready hc he hk
    obtain ⟨o, o', ho, ho', _, hp⟩ := hc.kept k hM
    exact string_hash_of_payload ho ho' hp
  · intro e k he hk
    obtain ⟨_, hM⟩ := collected_key hready hc he hk
    obtain ⟨_, o', _, ho', _, _⟩ := hc.kept k hM
    rw [ho']; simp

theorem gc_step_refl (vm : VM) (ups : List Nat) : gc_step vm vm ups :=
  ⟨fun _ _ _ h => h, rfl, fun _ _ h _ => h, fun _ _ h => h, fun _ h => h,
    fun _ o h => ⟨o, h, rfl⟩, rfl, rfl, rfl⟩

theorem gc_step_reach {vm vm' : VM} {ups : List Nat} (h : gc_step vm vm' ups) {a : Nat}
    (ha : reachable vm ups a) : reachable vm' ups a := by
  obtain ⟨r, hr, hpath⟩ := ha
  exact ⟨r, by rw [h.roots]; exact hr, h.paths r a hr hpath⟩

/-- An object reachable from the roots survives a collection step with its
payload. -/
theorem gc_step_reach_payload {vm vm' : VM} {l' ups : List Nat} {n : Nat}
    (hs : gc_step vm vm' ups) (hinv' : intern_inv vm' l' ups n) {a : Nat}
    (ha : reachable vm ups a) :
    ∃ o o', vm.heap a = some o ∧ vm'.heap a = some o' ∧ o'.payload = o.payload := by
  obtain ⟨r, hr, hpath⟩ := ha
  have hpath' := hs.paths r a hr hpath
  have halloc : vm'.heap a ≠ none := by
    rcases Relation.ReflTransGen.cases_tail hpath' with h | ⟨b, _, hedge⟩
    · rw [h]
      exact hinv'.ready.roots_valid r (by rw [hs.roots]; exact hr)
    · obtain ⟨o, ho, hb⟩ := hedge
      exact hinv'.ready.edges_valid b o ho a hb
  obtain ⟨o', ho'⟩ := Option.ne_none_iff_exists'.1 halloc
  obtain ⟨o, ho, hp⟩ := hs.payload a o' ho'
  exact ⟨o, o', ho, ho', hp⟩

theorem gc_step_trans {vm1 vm2 vm3 : VM} {ups : List Nat} (h12 : gc_step vm1 vm2 ups)
    (h23 : gc_step vm2 vm3 ups) : gc_step vm1 vm3 ups := by
  refine ⟨fun r a hr h => h23.paths r a (by rw [h12.roots]; exact hr) (h12.paths r a hr h),
    by rw [h23.roots, h12.roots],
    fun k d h hr => h23.keep k d (h12.keep k d h hr) (gc_step_reach h12 hr),
    fun k d h => h12.no_new k d (h23.no_new k d h),
    fun a h => h23.fresh a (h12.fresh a h), ?_, ?_, by rw [h23.cap, h12.cap],
    by rw [h23.count, h12.count]⟩
  · intro a o3 h3
    obtain ⟨o2, h2, hp2⟩ := h23.payload a o3 h3
    obtain ⟨o1, h1, hp1⟩ := h12.payload a o2 h2
    exact ⟨o1, h1, by rw [hp2, hp1]⟩
  · have e1 := h12.fields
    have e2 := h23.fields
    rw [e2, e1]

theorem gc_step_account (vm : VM) (ups : List Nat) (old_size new_size : Nat) :
    gc_step vm (account vm old_size new_size) ups :=
  ⟨fun _ _ _ h => h, rfl, fun _ _ h _ => h, fun _ _ h => h, fun _ h => h,
    fun _ o h => ⟨o, h, rfl⟩, rfl, rfl, rfl⟩

theorem gc_ready_account {vm : VM} {l ups : List Nat} (h : gc_ready vm l ups)
    (old_size new_size : Nat) : gc_ready (account vm old_size new_size) l ups :=
  ⟨h.list, h.nodup, h.dom, h.white, h.gray, h.upvalues, h.roots_valid, h.edges_valid,
    h.strings_wf, h.strings_valid⟩

theorem intern_inv_account {vm : VM} {l ups : List Nat} {n : Nat} (h : intern_inv vm l ups n)
    (old_size new_size : Nat) : intern_inv (account vm old_size new_size) l ups n :=
  ⟨gc_ready_account h.ready old_size new_size, h.hashed, h.unique, h.cap_budget,
    h.count_budget⟩

/-- A collection keeps the intern invariant, keeps every reachable interned
string interned and interns nothing. -/
theorem intern_collect (sz : sizeofs) {vm : VM} {l ups : List Nat} {n fuel : Nat}
    (hinv : intern_inv vm l ups n) (hfuel : 2 ^ 32 ≤ fuel)
    (hf : l.length + ups.length < fuel) :
    ∃ (vm' : VM) (l' : List Nat), collect_garbage sz fuel vm = some vm' ∧
      intern_inv vm' l' ups n ∧ l'.length ≤ l.length ∧ gc_step vm vm' ups := by
  obtain ⟨vm', M, hrun, hc⟩ := collect_garbage_ok sz hinv.ready hfuel hf
  have hready' := collected_ready hinv.ready hc
  have hno_new : ∀ (k : Nat) (d : List Nat), interned vm' k d → interned vm k d := by
    intro k d ⟨⟨e, he, hk⟩, hd⟩
    obtain ⟨hmem, hM⟩ := collected_key hinv.ready hc he hk
    obtain ⟨o, o', ho, ho', _, hp⟩ := hc.kept k hM
    exact ⟨⟨e, hmem, hk⟩, by rw [← string_data_of_payload ho ho' hp]; exact hd⟩
  refine ⟨vm', l.filter M, hrun, ⟨hready', ?_, ?_, ?_, ?_⟩, List.length_filter_le _ _,
    ⟨fun r a hr h => collected_paths hc hr h, collected_roots hc, ?_, hno_new, ?_, ?_,
      hc.frame, hc.strings_cap, hc.strings_count⟩⟩
  · intro e k he hk
    obtain ⟨hmem, hM⟩ := collected_key hinv.ready hc he hk
    obtain ⟨o, d, ho, hp⟩ := hinv.hashed e k hmem hk
    obtain ⟨o1, o', ho1, ho', _, hp'⟩ := hc.kept k hM
    rw [ho] at ho1
    cases ho1
    exact ⟨o', d, ho', by rw [hp', hp]⟩
  · intro k1 k2 d h1 h2
    exact hinv.unique k1 k2 d (hno_new k1 d h1) (hno_new k2 d h2)
  · rw [hc.strings_cap]; exact hinv.cap_budget
  · rw [hc.strings_count]; exact hinv.count_budget
  · intro k d ⟨⟨e, he, hk⟩, hd⟩ hr
    have hM := hc.reach k hr
    obtain ⟨o, o', ho, ho', _, hp⟩ := hc.kept k hM
    exact ⟨⟨e, collected_key_kept hc he hk hM, hk⟩,
      by rw [string_data_of_payload ho ho' hp]; exact hd⟩
  · intro a ha
    cases hM : M a with
    | false => exact hc.freed a hM
    | true =>
      obtain ⟨o, _, ho, _⟩ := hc.kept a hM
      rw [ha] at ho; cases ho
  · intro a o' ha
    cases hM : M a with
    | false => rw [hc.freed a hM] at ha; cases ha
    | true =>
      obtain ⟨o, o'', ho, ho'', _, hp⟩ := hc.kept a hM
      rw [ha] at ho''
      cases ho''
      exact ⟨o, ho, hp⟩

/-- Function `reallocate` keeps the intern invariant, whatever it collects. -/
theorem intern_reallocate (sz : sizeofs) {vm : VM} {l ups : List Nat} {n fuel : Nat}
    (hinv : intern_inv vm l ups n) (hfuel : 2 ^ 32 ≤ fuel)
    (hf : l.length + ups.length < fuel) (old_size new_size : Nat) :
    ∃ (vm' : VM) (l' : List Nat), reallocate sz fuel vm old_size new_size = some vm' ∧
      intern_inv vm' l' ups n ∧ l'.length ≤ l.length ∧ gc_step vm vm' ups := by
  have h0 := intern_inv_account hinv old_size new_size
  have s0 := gc_step_account vm ups old_size new_size
  unfold reallocate
  simp only
  by_cases hgrow : new_size > old_size
  · rw [if_pos hgrow]
    obtain ⟨vm1, l1, hrun1, hinv1, hlen1, hs1⟩ := intern_collect sz h0 hfuel hf
    simp only [DEBUG_STRESS_GC, if_true, hrun1]
    by_cases hthr : vm1.heap_size > vm1.gc_treshold
    · rw [if_pos hthr]
      obtain ⟨vm2, l2, hrun2, hinv2, hlen2, hs2⟩ :=
        intern_collect sz hinv1 hfuel (by omega)
      exact ⟨vm2, l2, hrun2, hinv2, by omega, gc_step_trans s0 (gc_step_trans hs1 hs2)⟩
    · rw [if_neg hthr]
      exact ⟨vm1, l1, rfl, hinv1, hlen1, gc_step_trans s0 hs1⟩
  · rw [if_neg hgrow]
    exact ⟨_, l, rfl, h0, Nat.le_refl _, s0⟩

/-- The root set depends on the stack only below `stack_top`. -/
theorem root_ptrs_congr_below {vm vm' : VM} (ups : List Nat)
    (h1 : ∀ i, i < vm.stack_top → vm'.stack i = vm.stack i) (h2 : vm'.stack_top = vm.stack_top)
    (h3 : vm'.frames = vm.frames) (h4 : vm'.frame_count = vm.frame_count)
    (h5 : vm'.globals = vm.globals) (h6 : vm'.compilers = vm.compilers)
    (h7 : vm'.init_string = vm.init_string) : root_ptrs vm' ups = root_ptrs vm ups := by
  unfold root_ptrs
  rw [h2, h3, h4, h5, h6, h7]
  have : (List.range vm.stack_top).map vm'.stack = (List.range vm.stack_top).map vm.stack := by
    apply List.map_congr_left
    intro i hi
    exact h1 i (List.mem_range.1 hi)
  rw [this]

/-- The root set after one more value has been pushed. -/
theorem root_ptrs_pushed {vm vm' : VM} (ups : List Nat) (v : value)
    (h1 : ∀ i, i < vm.stack_top → vm'.stack i = vm.stack i)
    (h1' : vm'.stack vm.stack_top = v) (h2 : vm'.stack_top = vm.stack_top + 1)
    (h3 : vm'.frames = vm.frames) (h4 : vm'.frame_count = vm.frame_count)
    (h5 : vm'.globals = vm.globals) (h6 : vm'.compilers = vm.compilers)
    (h7 : vm'.init_string = vm.init_string) (p : Option Nat) :
    p ∈ root_ptrs vm' ups ↔ (p ∈ root_ptrs vm ups ∨ p = value_ptr v) := by
  unfold root_ptrs
  rw [h2, h3, h4, h5, h6, h7, List.range_succ]
  have : (List.range vm.stack_top).map vm'.stack = (List.range vm.stack_top).map vm.stack := by
    apply List.map_congr_left
    intro i hi
    exact h1 i (List.mem_range.1 hi)
  simp only [List.map_append, List.map_cons, List.map_nil, this, h1', List.mem_append,
    List.mem_singleton, List.mem_cons, List.not_mem_nil, or_false]
  tauto

theorem rtg_heap_mono {h h' : Nat → Option obj}
    (hsame : ∀ (x : Nat) (o : obj), h x = some o → ∃ o', h' x = some o' ∧ o'.payload = o.payload)
    {r a : Nat} (hpath : Relation.ReflTransGen (heap_edge h) r a) :
    Relation.ReflTransGen (heap_edge h') r a := by
  induction hpath with
  | refl => exact Relation.ReflTransGen.refl
  | tail _ hxy ih =>
    refine Relation.ReflTransGen.tail ih ?_
    obtain ⟨o, ho, hb⟩ := hxy
    obtain ⟨o', ho', hp⟩ := hsame _ o ho
    exact ⟨o', ho', by rw [hp]; exact hb⟩

theorem is_upvalue_list_congr {h h' : Nat → Option obj} :
    ∀ (ups : List Nat) (p : Option Nat), is_upvalue_list h p ups →
      (∀ (x : Nat) (o : obj), h x = some o → ∃ o', h' x = some o' ∧ o'.payload = o.payload) →
      is_upvalue_list h' p ups := by
  intro ups
  induction ups with
  | nil => intro p hp _; exact hp
  | cons u ups ih =>
    intro p hp hsame
    obtain ⟨hpu, n, hn, hrest⟩ := hp
    refine ⟨hpu, n, ?_, ih n hrest hsame⟩
    cases hu : h u with
    | none => simp [upvalue_next, hu] at hn
    | some o =>
      obtain ⟨o', ho', hp'⟩ := hsame u o hu
      rw [upvalue_next_of_payload hu ho' hp']
      exact hn

theorem with_string_heap_old {vm1 : VM} {a : Nat} (data : List Nat) (ha : vm1.heap a = none)
    {x : Nat} {o : obj} (hx : vm1.heap x = some o) : (with_string vm1 a data).heap x = some o := by
  have hne : x ≠ a := by
    intro h
    rw [h, ha] at hx
    cases hx
  show Function.update vm1.heap a _ x = some o
  rw [Function.update_noteq hne]
  exact hx

theorem with_string_heap_new (vm1 : VM) (a : Nat) (data : List Nat) :
    (with_string vm1 a data).heap a = some (string_obj vm1.objects data) := by
  show Function.update vm1.heap a _ a = _
  rw [Function.update_same]

theorem with_string_heap_cases {vm1 : VM} {a : Nat} (data : List Nat) {x : Nat} {o : obj}
    (hx : (with_string vm1 a data).heap x = some o) :
    (x = a ∧ o = string_obj vm1.objects data) ∨ (x ≠ a ∧ vm1.heap x = some o) := by
  by_cases h : x = a
  · left
    subst h
    rw [with_string_heap_new] at hx
    exact ⟨rfl, (Option.some.inj hx).symm⟩
  · right
    refine ⟨h, ?_⟩
    have : (with_string vm1 a data).heap x = vm1.heap x := by
      show Function.update vm1.heap a _ x = _
      rw [Function.update_noteq h]
    rw [← this]
    exact hx

theorem with_string_roots (vm1 : VM) (a : Nat) (data : List Nat) (ups : List Nat)
    (p : Option Nat) :
    p ∈ root_ptrs (with_string vm1 a data) ups ↔ (p ∈ root_ptrs vm1 ups ∨ p = some a) := by
  refine @root_ptrs_pushed vm1 (with_string vm1 a data) ups (value.obj a) ?_ ?_ rfl rfl rfl rfl
    rfl rfl p
  · intro i hi
    show Function.update vm1.stack vm1.stack_top _ i = _
    rw [Function.update_noteq (Nat.ne_of_lt hi)]
  · show Function.update vm1.stack vm1.stack_top _ vm1.stack_top = _
    rw [Function.update_same]

theorem with_string_interned {vm1 : VM} {l1 ups : List Nat} {n : Nat} {a : Nat} (data : List Nat)
    (hinv : intern_inv vm1 l1 ups n) (ha : vm1.heap a = none) (k : Nat) (d : List Nat) :
    interned (with_string vm1 a data) k d ↔ interned vm1 k d := by
  have key : (∃ e ∈ vm1.strings.entries, e.key = some k) →
      string_data (with_string vm1 a data).heap k = string_data vm1.heap k := by
    rintro ⟨e, he, hk⟩
    obtain ⟨o, _, ho, _⟩ := hinv.hashed e k he hk
    exact string_data_of_payload ho (with_string_heap_old data ha ho) rfl
  constructor
  · rintro ⟨hk, hd⟩
    exact ⟨hk, by rw [← key hk]; exact hd⟩
  · rintro ⟨hk, hd⟩
    exact ⟨hk, by rw [key hk]; exact hd⟩

/-- Linking a new string object and pushing it keeps the intern invariant. -/
theorem with_string_inv {vm1 : VM} {l1 ups : List Nat} {n : Nat} {a : Nat} (data : List Nat)
    (hinv : intern_inv vm1 l1 ups n) (ha : vm1.heap a = none) :
    intern_inv (with_string vm1 a data) (a :: l1) ups n := by
  have hold : ∀ (x : Nat) (o : obj), vm1.heap x = some o →
      ∃ o', (with_string vm1 a data).heap x = some o' ∧ o'.payload = o.payload :=
    fun x o hx => ⟨o, with_string_heap_old data ha hx, rfl⟩
  have hnot : a ∉ l1 := by
    intro hmem
    obtain ⟨o, ho⟩ := is_list_mem l1 _ hinv.ready.list a hmem
    rw [ha] at ho
    cases ho
  have halloc : ∀ b, vm1.heap b ≠ none → (with_string vm1 a data).heap b ≠ none := by
    intro b hb
    cases hbo : vm1.heap b with
    | none => exact absurd hbo hb
    | some o => rw [with_string_heap_old data ha hbo]; simp
  have hready : gc_ready (with_string vm1 a data) (a :: l1) ups := by
    refine ⟨?_, List.nodup_cons.2 ⟨hnot, hinv.ready.nodup⟩, ?_, ?_, hinv.ready.gray, ?_, ?_, ?_,
      ?_, ?_⟩
    · refine ⟨rfl, _, with_string_heap_new vm1 a data, ?_⟩
      refine is_list_congr l1 _ hinv.ready.list ?_
      intro x _ o hx
      exact ⟨o, with_string_heap_old data ha hx, rfl⟩
    · intro x o hx
      rcases with_string_heap_cases data hx with ⟨h, _⟩ | ⟨_, h⟩
      · rw [h]; exact List.mem_cons_self _ _
      · exact List.mem_cons_of_mem _ (hinv.ready.dom x o h)
    · intro x o hx
      rcases with_string_heap_cases data hx with ⟨_, h⟩ | ⟨_, h⟩
      · rw [h]; rfl
      · exact hinv.ready.white x o h
    · exact is_upvalue_list_congr ups _ hinv.ready.upvalues hold
    · intro b hb
      rcases (with_string_roots vm1 a data ups (some b)).1 hb with h | h
      · exact halloc b (hinv.ready.roots_valid b h)
      · rw [Option.some.inj h, with_string_heap_new]; simp
    · intro x o hx b hb
      rcases with_string_heap_cases data hx with ⟨_, h⟩ | ⟨_, h⟩
      · rw [h] at hb
        simp [obj_edges, string_obj] at hb
      · exact halloc b (hinv.ready.edges_valid x o h b hb)
    · refine table_wf_congr ?_ hinv.ready.strings_wf
      intro e k he hk
      obtain ⟨o, _, ho, _⟩ := hinv.hashed e k he hk
      exact string_hash_of_payload ho (with_string_heap_old data ha ho) rfl
    · intro e k he hk
      exact halloc k (hinv.ready.strings_valid e k he hk)
  refine ⟨hready, ?_, ?_, hinv.cap_budget, hinv.count_budget⟩
  · intro e k he hk
    obtain ⟨o, d, ho, hp⟩ := hinv.hashed e k he hk
    exact ⟨o, d, with_string_heap_old data ha ho, hp⟩
  · intro k1 k2 d h1 h2
    exact hinv.unique k1 k2 d ((with_string_interned data hinv ha k1 d).1 h1)
      ((with_string_interned data hinv ha k2 d).1 h2)

theorem key_mem_iff {entries : List table_entry} {k : Nat} :
    (∃ e ∈ entries, e.key = some k) ↔
      ∃ v, ({ key := some k, val := v } : table_entry) ∈ entries := by
  constructor
  · rintro ⟨e, he, hk⟩
    exact ⟨e.val, by rw [← entry_eta hk]; exact he⟩
  · rintro ⟨v, hv⟩
    exact ⟨_, hv, rfl⟩

theorem stored_roots {vm : VM} (tab : table) (ups : List Nat) {a : Nat}
    (htop : 0 < vm.stack_top) (hstk : vm.stack (vm.stack_top - 1) = value.obj a)
    (p : Option Nat) :
    p ∈ root_ptrs vm ups ↔ (p ∈ root_ptrs (stored vm tab) ups ∨ p = some a) := by
  refine @root_ptrs_pushed (stored vm tab) vm ups (value.obj a) (fun _ _ => rfl) hstk ?_ rfl rfl
    rfl rfl rfl p
  show vm.stack_top = vm.stack_top - 1 + 1
  omega

/-- Storing the freshly allocated string in the intern table and popping it
keeps the intern invariant with one more insertion on the budget. -/
theorem finish_store {vm : VM} {l ups : List Nat} {n fuel a : Nat} {data : List Nat} {o : obj}
    {tab2 : table}
    (hinv : intern_inv vm l ups n) (hn : n < 2 ^ 30) (hfuel : 2 ^ 32 ≤ fuel)
    (htop : 0 < vm.stack_top) (hstk : vm.stack (vm.stack_top - 1) = value.obj a)
    (ho : vm.heap a = some o) (hpl : o.payload = obj_payload.obj_string data (hash_string data))
    (hmiss : ∀ k, ¬ interned vm k data)
    (hwf2 : entries_wf (string_hash vm.heap) tab2.entries tab2.capacity)
    (hcnt2 : tab2.count = used_slots tab2.entries)
    (hload2 : 4 * (tab2.count + 1) ≤ 3 * tab2.capacity)
    (hcap2 : 3 * tab2.capacity ≤ 8 * (n + 1) + 24) (hcount2 : tab2.count ≤ n)
    (hkeys2 : ∀ (k : Nat) (v : value), ({ key := some k, val := v } : table_entry) ∈ tab2.entries ↔
      ({ key := some k, val := v } : table_entry) ∈ vm.strings.entries) :
    ∃ (tab3 : table) (b : Bool),
      set_table_store (string_hash vm.heap) fuel tab2 a value.nil = some (tab3, b) ∧
      intern_inv (stored vm tab3) l ups (n + 1) ∧ interned (stored vm tab3) a data ∧
      (∀ k d, interned vm k d → interned (stored vm tab3) k d) := by
  have hc32 : tab2.capacity ≤ 2 ^ 32 := by omega
  obtain ⟨tab3, b, hrun, hwf3, hcap3, hcount3, hmem3⟩ :=
    set_table_store_spec (string_hash vm.heap) a value.nil hwf2 hcnt2 hload2 hc32
      (by omega : tab2.capacity ≤ fuel)
  have hdata : string_data vm.heap a = some data := by
    simp only [string_data, ho, hpl]
  have hkey : ∀ k, (∃ e ∈ tab3.entries, e.key = some k) ↔
      (k = a ∨ ∃ e ∈ vm.strings.entries, e.key = some k) := by
    intro k
    rw [key_mem_iff, key_mem_iff]
    constructor
    · rintro ⟨v, hv⟩
      rcases (hmem3 k v).1 hv with ⟨h, _⟩ | ⟨_, h⟩
      · exact Or.inl h
      · exact Or.inr ⟨v, (hkeys2 k v).1 h⟩
    · rintro (h | ⟨v, hv⟩)
      · exact ⟨value.nil, (hmem3 k value.nil).2 (Or.inl ⟨h, rfl⟩)⟩
      · by_cases hka : k = a
        · exact ⟨value.nil, (hmem3 k value.nil).2 (Or.inl ⟨hka, rfl⟩)⟩
        · exact ⟨v, (hmem3 k v).2 (Or.inr ⟨hka, (hkeys2 k v).2 hv⟩)⟩
  have hint : ∀ k d, interned (stored vm tab3) k d ↔ ((k = a ∧ d = data) ∨ interned vm k d) := by
    intro k d
    constructor
    · rintro ⟨hk, hd⟩
      rcases (hkey k).1 hk with h | h
      · left
        refine ⟨h, ?_⟩
        have hd' : string_data vm.heap k = some d := hd
        rw [h, hdata] at hd'
        exact (Option.some.inj hd').symm
      · exact Or.inr ⟨h, hd⟩
    · rintro (⟨h1, h2⟩ | ⟨hk, hd⟩)
      · refine ⟨(hkey k).2 (Or.inl h1), ?_⟩
        rw [h1, h2]
        exact hdata
      · exact ⟨(hkey k).2 (Or.inr hk), hd⟩
  refine ⟨tab3, b, hrun, ?_, (hint a data).2 (Or.inl ⟨rfl, rfl⟩),
    fun k d h => (hint k d).2 (Or.inr h)⟩
  have hready : gc_ready (stored vm tab3) l ups := by
    refine ⟨hinv.ready.list, hinv.ready.nodup, hinv.ready.dom, hinv.ready.white,
      hinv.ready.gray, hinv.ready.upvalues, ?_, hinv.ready.edges_valid, hwf3, ?_⟩
    · intro b hb
      exact hinv.ready.roots_valid b ((stored_roots tab3 ups htop hstk (some b)).2 (Or.inl hb))
    · intro e k he hk
      rcases (hkey k).1 ⟨e, he, hk⟩ with h | ⟨e', he', hk'⟩
      · show vm.heap k ≠ none
        rw [h, ho]
        simp
      · exact hinv.ready.strings_valid e' k he' hk'
  refine ⟨hready, ?_, ?_, ?_, ?_⟩
  · intro e k he hk
    rcases (hkey k).1 ⟨e, he, hk⟩ with h | ⟨e', he', hk'⟩
    · exact ⟨o, data, by rw [h]; exact ho, hpl⟩
    · exact hinv.hashed e' k he' hk'
  · intro k1 k2 d h1 h2
    rcases (hint k1 d).1 h1 with ⟨e1, d1⟩ | i1 <;> rcases (hint k2 d).1 h2 with ⟨e2, d2⟩ | i2
    · rw [e1, e2]
    · exact absurd (d1 ▸ i2) (hmiss k2)
    · exact absurd (d2 ▸ i1) (hmiss k1)
    · exact hinv.unique k1 k2 d i1 i2
  · show 3 * tab3.capacity ≤ 8 * (n + 1) + 24
    rw [hcap3]
    exact hcap2
  · show tab3.count ≤ n + 1
    omega

theorem allocate_string_eq (sz : sizeofs) {fuel : Nat} {vm vm1 : VM} (data : List Nat) {a : Nat}
    (h1 : reallocate sz fuel vm 0 sz.obj_string = some vm1) (h2 : vm1.heap a = none)
    (h3 : vm1.stack_top < STACK_MAX) :
    allocate_string sz fuel vm data (hash_string data) a =
      match vm_set_table sz fuel (with_string vm1 a data) table_loc.strings a value.nil with
      | none => none
      | some (vm3, _) =>
        match pop vm3 with
        | none => none
        | some (vm4, _) => some (vm4, a) := by
  unfold allocate_string allocate_object push
  simp only [h1, h2, if_pos h3]
  rfl

theorem vm_set_table_strings_keep (sz : sizeofs) {fuel : Nat} {vm : VM} {key : Nat} {val : value}
    {tab3 : table} {b : Bool} (h1 : table_overloaded vm.strings = false)
    (h2 : set_table_store (string_hash vm.heap) fuel vm.strings key val = some (tab3, b)) :
    vm_set_table sz fuel vm table_loc.strings key val = some ({ vm with strings := tab3 }, b) := by
  unfold vm_set_table
  simp only [read_table, h1, Bool.false_eq_true, if_false, h2, write_table]

theorem vm_set_table_strings_grow (sz : sizeofs) {fuel : Nat} {vm vm1 : VM} {key : Nat}
    {val : value} {tab2 tab3 : table} {b : Bool} (h1 : table_overloaded vm.strings = true)
    (h2 : reallocate sz fuel vm 0 (sz.table_entry * GROW_CAPACITY vm.strings.capacity) = some vm1)
    (h3 : adjust_capacity (string_hash vm1.heap) fuel vm1.strings
      (GROW_CAPACITY vm.strings.capacity) = some tab2)
    (h4 : set_table_store (string_hash vm1.heap) fuel tab2 key val = some (tab3, b)) :
    vm_set_table sz fuel vm table_loc.strings key val =
      some ({ account vm1 (sz.table_entry * vm1.strings.capacity) 0 with strings := tab3 }, b) := by
  have h5 : reallocate sz fuel vm1 (sz.table_entry * vm1.strings.capacity) 0 =
      some (account vm1 (sz.table_entry * vm1.strings.capacity) 0) := by
    unfold reallocate
    simp
  have h4' : set_table_store
      (string_hash (account vm1 (sz.table_entry * vm1.strings.capacity) 0).heap) fuel tab2 key val
      = some (tab3, b) := h4
  unfold vm_set_table
  simp only [read_table, h1, if_true, h2, h3, h5, h4', write_table]

theorem pop_stored {vm : VM} (tab : table) (htop : 0 < vm.stack_top) :
    pop { vm with strings := tab } = some (stored vm tab, vm.stack (vm.stack_top - 1)) := by
  unfold pop
  rw [if_pos htop]
  rfl

theorem gc_step_stack {vm vm' : VM} {ups : List Nat} (h : gc_step vm vm' ups) :
    vm'.stack = vm.stack ∧ vm'.stack_top = vm.stack_top := by
  have hf := h.fields
  exact ⟨(congrArg VM.stack hf).trans rfl, (congrArg VM.stack_top hf).trans rfl⟩

theorem intern_step_of_gc {vm vm' : VM} {l' ups : List Nat} {n : Nat}
    (h : gc_step vm vm' ups) (hinv' : intern_inv vm' l' ups n) : intern_step vm vm' ups :=
  ⟨h.paths, h.roots, h.keep, (gc_step_stack h).2, fun i _ => congrFun (gc_step_stack h).1 i,
    (congrArg VM.frames h.fields).trans rfl, (congrArg VM.frame_count h.fields).trans rfl,
    (congrArg VM.stdout h.fields).trans rfl, fun _ hx => gc_step_reach_payload h hinv' hx⟩

theorem intern_step_reach {vm vm' : VM} {ups : List Nat} (h : intern_step vm vm' ups) {a : Nat}
    (ha : reachable vm ups a) : reachable vm' ups a := by
  obtain ⟨r, hr, hpath⟩ := ha
  exact ⟨r, by rw [h.roots]; exact hr, h.paths r a hr hpath⟩

theorem intern_step_trans {vm1 vm2 vm3 : VM} {ups : List Nat} (h12 : intern_step vm1 vm2 ups)
    (h23 : intern_step vm2 vm3 ups) : intern_step vm1 vm3 ups :=
  ⟨fun r a hr h => h23.paths r a (by rw [h12.roots]; exact hr) (h12.paths r a hr h),
    by rw [h23.roots, h12.roots],
    fun k d h hr => h23.keep k d (h12.keep k d h hr) (intern_step_reach h12 hr),
    h23.top.trans h12.top,
    fun i hi => (h23.below i (by rw [h12.top]; exact hi)).trans (h12.below i hi),
    h23.frames.trans h12.frames, h23.frame_count.trans h12.frame_count,
    h23.stdout.trans h12.stdout,
    fun x hx => by
      obtain ⟨o1, o2, h1, h2, hp12⟩ := h12.payload x hx
      obtain ⟨o2', o3, h2', h3, hp23⟩ := h23.payload x (intern_step_reach h12 hx)
      rw [h2] at h2'
      cases h2'
      exact ⟨o1, o3, h1, h3, hp23.trans hp12⟩⟩

theorem with_string_step {vm1 : VM} {a : Nat} (data : List Nat) (ups : List Nat)
    (ha : vm1.heap a = none) :
    (∀ r x, Relation.ReflTransGen (heap_edge vm1.heap) r x →
      Relation.ReflTransGen (heap_edge (with_string vm1 a data).heap) r x) ∧
    (∀ x, reachable vm1 ups x → reachable (with_string vm1 a data) ups x) := by
  have hp : ∀ r x, Relation.ReflTransGen (heap_edge vm1.heap) r x →
      Relation.ReflTransGen (heap_edge (with_string vm1 a data).heap) r x := by
    intro r x h
    exact rtg_heap_mono (fun y o hy => ⟨o, with_string_heap_old data ha hy, rfl⟩) h
  refine ⟨hp, ?_⟩
  rintro x ⟨r, hr, hpath⟩
  exact ⟨r, (with_string_roots vm1 a data ups (some r)).2 (Or.inl hr), hp r x hpath⟩

/-- On a miss `allocate_string` returns the new object `a`, interned, and keeps
the intern invariant. -/
theorem allocate_string_ok (sz : sizeofs) {vm : VM} {l ups : List Nat} {n fuel a : Nat}
    (data : List Nat) (hinv : intern_inv vm l ups n) (hn : n < 2 ^ 30) (hfuel : 2 ^ 32 ≤ fuel)
    (hf : l.length + 1 + ups.length < fuel) (ha : vm.heap a = none)
    (hstack : vm.stack_top < STACK_MAX) (hmiss : ∀ k, ¬ interned vm k data) :
    ∃ (vm' : VM) (l' : List Nat),
      allocate_string sz fuel vm data (hash_string data) a = some (vm', a) ∧
      intern_inv vm' l' ups (n + 1) ∧ l'.length ≤ l.length + 1 ∧ interned vm' a data ∧
      intern_step vm vm' ups := by
  obtain ⟨vm1, l1, hr1, hinv1, hlen1, hs1⟩ :=
    intern_reallocate sz hinv hfuel (by omega) 0 sz.obj_string
  have ha1 : vm1.heap a = none := hs1.fresh a ha
  obtain ⟨hstk1, htop1⟩ := gc_step_stack hs1
  have hmiss1 : ∀ k, ¬ interned vm1 k data := fun k h => hmiss k (hs1.no_new k data h)
  have hinv3 := with_string_inv data hinv1 ha1
  obtain ⟨hpath3, hreach3⟩ := with_string_step data ups ha1
  have hmiss3 : ∀ k, ¬ interned (with_string vm1 a data) k data :=
    fun k h => hmiss1 k ((with_string_interned data hinv1 ha1 k data).1 h)
  have hroot3 : some a ∈ root_ptrs (with_string vm1 a data) ups :=
    (with_string_roots vm1 a data ups (some a)).2 (Or.inr rfl)
  have htop3 : (with_string vm1 a data).stack_top = vm1.stack_top + 1 := rfl
  have hstk3 : (with_string vm1 a data).stack vm1.stack_top = value.obj a := by
    show Function.update vm1.stack vm1.stack_top _ vm1.stack_top = _
    rw [Function.update_same]
  have hbelow3 : ∀ i, i < vm1.stack_top → (with_string vm1 a data).stack i = vm1.stack i := by
    intro i hi
    show Function.update vm1.stack vm1.stack_top _ i = _
    rw [Function.update_noteq (Nat.ne_of_lt hi)]
  rw [allocate_string_eq sz data hr1 ha1 (by rw [htop1]; exact hstack)]
  have hwf3 := hinv3.ready.strings_wf
  have hstr3 : (with_string vm1 a data).strings = vm1.strings := rfl
  by_cases hover : table_overloaded (with_string vm1 a data).strings = true
  · -- the table grows: a collection, then the entries are re-inserted
    obtain ⟨vm4, l4, hr4, hinv4, hlen4, hs4⟩ :=
      intern_reallocate sz hinv3 hfuel (by simp only [List.length_cons]; omega) 0
        (sz.table_entry * GROW_CAPACITY (with_string vm1 a data).strings.capacity)
    obtain ⟨hstk4, htop4⟩ := gc_step_stack hs4
    have hover' : 4 * ((with_string vm1 a data).strings.count + 1)
        > 3 * (with_string vm1 a data).strings.capacity := by
      simpa [table_overloaded] using hover
    have hwf4 := hinv4.ready.strings_wf
    have hcap4 := hs4.cap
    have hcount4 := hs4.count
    have hb3 := hinv3.count_budget
    have hload3 := hwf3.load
    have hgrow : GROW_CAPACITY (with_string vm1 a data).strings.capacity
        = if (with_string vm1 a data).strings.capacity < 8 then 8
          else (with_string vm1 a data).strings.capacity * 2 := rfl
    have hku := keyed_le_used vm4.strings.entries
    have hce := hwf4.count_eq
    obtain ⟨tab2, hadj, hwf2, hcap2, hcnt2, hcnt2', hkeys2⟩ :=
      @adjust_capacity_spec (string_hash vm4.heap) vm4.strings
        (GROW_CAPACITY (with_string vm1 a data).strings.capacity) fuel hwf4.wf
        (by rw [hgrow]; split_ifs <;> omega) (by rw [hgrow]; split_ifs <;> omega)
        (by rw [hgrow]; split_ifs <;> omega)
    have hroot4 : some a ∈ root_ptrs vm4 ups := by rw [hs4.roots]; exact hroot3
    obtain ⟨o4, ho4⟩ := Option.ne_none_iff_exists'.1 (hinv4.ready.roots_valid a hroot4)
    obtain ⟨o3, ho3, hpl43⟩ := hs4.payload a o4 ho4
    rw [with_string_heap_new] at ho3
    have hpl4 : o4.payload = obj_payload.obj_string data (hash_string data) := by
      rw [hpl43, ← Option.some.inj ho3]
      rfl
    have hinv5 := intern_inv_account hinv4 (sz.table_entry * vm4.strings.capacity) 0
    obtain ⟨tab3, b, hstore, hinv7, hint7, hkeep7⟩ :=
      @finish_store (account vm4 (sz.table_entry * vm4.strings.capacity) 0) l4 ups n fuel a data
        o4 tab2 hinv5 hn hfuel
        (by show 0 < vm4.stack_top; rw [htop4, htop3]; omega)
        (by
          show vm4.stack (vm4.stack_top - 1) = value.obj a
          rw [hstk4, htop4, htop3, Nat.add_sub_cancel]
          exact hstk3)
        ho4 hpl4 (fun k h => hmiss3 k (hs4.no_new k data h)) hwf2 hcnt2
        (by rw [hcap2, hgrow, hcnt2']; split_ifs <;> omega)
        (by rw [hcap2, hgrow]; split_ifs <;> omega)
        (by rw [hcnt2']; omega) hkeys2
    rw [vm_set_table_strings_grow sz hover hr4 hadj hstore]
    simp only
    rw [pop_stored tab3 (by show 0 < vm4.stack_top; rw [htop4, htop3]; omega)]
    refine ⟨_, l4, rfl, hinv7, by simp only [List.length_cons] at hlen4; omega, hint7, ?_, ?_, ?_,
      ?_, ?_, ?_, ?_, ?_, ?_⟩
    · intro r x hr hpath
      have h1 := hpath3 r x (hs1.paths r x hr hpath)
      exact hs4.paths r x ((with_string_roots vm1 a data ups (some r)).2
        (Or.inl (by rw [hs1.roots]; exact hr))) h1
    · rw [← hs1.roots]
      refine root_ptrs_congr_below ups ?_ ?_ ?_ ?_ ?_ ?_ ?_
      · intro i hi
        show vm4.stack i = vm1.stack i
        rw [hstk4]
        exact hbelow3 i hi
      · show vm4.stack_top - 1 = vm1.stack_top
        rw [htop4, htop3, Nat.add_sub_cancel]
      · exact (congrArg VM.frames hs4.fields).trans rfl
      · exact (congrArg VM.frame_count hs4.fields).trans rfl
      · exact (congrArg VM.globals hs4.fields).trans rfl
      · exact (congrArg VM.compilers hs4.fields).trans rfl
      · exact (congrArg VM.init_string hs4.fields).trans rfl
    · intro k d hk hreach
      have h1 := hs1.keep k d hk hreach
      have h3 := (with_string_interned data hinv1 ha1 k d).2 h1
      exact hkeep7 k d (hs4.keep k d h3 (hreach3 k (gc_step_reach hs1 hreach)))
    · show vm4.stack_top - 1 = vm.stack_top
      rw [htop4, htop3, Nat.add_sub_cancel, htop1]
    · intro i hi
      show vm4.stack i = vm.stack i
      rw [hstk4, hbelow3 i (by rw [htop1]; exact hi), hstk1]
    · exact ((congrArg VM.frames hs4.fields).trans rfl).trans
        ((congrArg VM.frames hs1.fields).trans rfl)
    · exact ((congrArg VM.frame_count hs4.fields).trans rfl).trans
        ((congrArg VM.frame_count hs1.fields).trans rfl)
    · exact ((congrArg VM.stdout hs4.fields).trans rfl).trans
        ((congrArg VM.stdout hs1.fields).trans rfl)
    · intro x hx
      obtain ⟨o, o1, ho, ho1, hp1⟩ := gc_step_reach_payload hs1 hinv1 hx
      obtain ⟨o3, o4, ho3, ho4, hp4⟩ :=
        gc_step_reach_payload hs4 hinv4 (hreach3 x (gc_step_reach hs1 hx))
      rw [with_string_heap_old data ha1 ho1] at ho3
      cases ho3
      exact ⟨o, o4, ho, ho4, hp4.trans hp1⟩
  · -- the table has room
    have hover' : 4 * ((with_string vm1 a data).strings.count + 1)
        ≤ 3 * (with_string vm1 a data).strings.capacity := by
      simpa [table_overloaded] using hover
    have hb3 := hinv3.cap_budget
    obtain ⟨tab3, b, hstore, hinv7, hint7, hkeep7⟩ :=
      @finish_store (with_string vm1 a data) (a :: l1) ups n fuel a data _
        (with_string vm1 a data).strings hinv3 hn hfuel (by rw [htop3]; omega)
        (by rw [htop3, Nat.add_sub_cancel]; exact hstk3)
        (with_string_heap_new vm1 a data) rfl hmiss3 hwf3.wf hwf3.count_eq hover'
        (by omega) hinv3.count_budget (fun _ _ => Iff.rfl)
    rw [vm_set_table_strings_keep sz (by simpa using hover) hstore]
    simp only
    rw [pop_stored tab3 (by rw [htop3]; omega)]
    refine ⟨_, a :: l1, rfl, hinv7, by simp only [List.length_cons]; omega, hint7, ?_, ?_, ?_,
      ?_, ?_, ?_, ?_, ?_, ?_⟩
    · intro r x hr hpath
      exact hpath3 r x (hs1.paths r x hr hpath)
    · rw [← hs1.roots]
      refine root_ptrs_congr_below ups ?_ ?_ rfl rfl rfl rfl rfl
      · intro i hi
        exact hbelow3 i hi
      · show vm1.stack_top + 1 - 1 = vm1.stack_top
        rw [Nat.add_sub_cancel]
    · intro k d hk hreach
      have h1 := hs1.keep k d hk hreach
      exact hkeep7 k d ((with_string_interned data hinv1 ha1 k d).2 h1)
    · show vm1.stack_top + 1 - 1 = vm.stack_top
      rw [Nat.add_sub_cancel, htop1]
    · intro i hi
      show (with_string vm1 a data).stack i = vm.stack i
      rw [hbelow3 i (by rw [htop1]; exact hi), hstk1]
    · exact (congrArg VM.frames hs1.fields).trans rfl
    · exact (congrArg VM.frame_count hs1.fields).trans rfl
    · exact (congrArg VM.stdout hs1.fields).trans rfl
    · intro x hx
      obtain ⟨o, o1, ho, ho1, hp1⟩ := gc_step_reach_payload hs1 hinv1 hx
      exact ⟨o, o1, ho, with_string_heap_old data ha1 ho1, hp1⟩

theorem intern_inv_mono {vm : VM} {l ups : List Nat} {n m : Nat} (h : intern_inv vm l ups n)
    (hnm : n ≤ m) : intern_inv vm l ups m :=
  ⟨h.ready, h.hashed, h.unique, by have := h.cap_budget; omega,
    by have := h.count_budget; omega⟩

/-- Function `table_find_string` under the intern invariant: it returns the
interned string with the bytes `data` if there is one, and `NULL` otherwise. -/
theorem find_string_inv {vm : VM} {l ups : List Nat} {n fuel : Nat} (data : List Nat)
    (hinv : intern_inv vm l ups n) (hfuel : 2 ^ 32 ≤ fuel) :
    (∃ k, interned vm k data ∧
        table_find_string vm.heap fuel vm.strings data (hash_string data) = some (some k)) ∨
    ((∀ k, ¬ interned vm k data) ∧
      table_find_string vm.heap fuel vm.strings data (hash_string data) = some none) := by
  have huniq : ∀ (e1 e2 : table_entry) (k1 k2 : Nat), e1 ∈ vm.strings.entries →
      e2 ∈ vm.strings.entries → e1.key = some k1 → e2.key = some k2 →
      string_data vm.heap k1 = string_data vm.heap k2 → k1 = k2 := by
    intro e1 e2 k1 k2 he1 he2 hk1 hk2 heq
    obtain ⟨o, d, ho, hp⟩ := hinv.hashed e1 k1 he1 hk1
    have hd1 : string_data vm.heap k1 = some d := by simp only [string_data, ho, hp]
    exact hinv.unique k1 k2 d ⟨⟨e1, he1, hk1⟩, hd1⟩ ⟨⟨e2, he2, hk2⟩, by rw [← heq]; exact hd1⟩
  rcases table_find_string_spec data hinv.ready.strings_wf hinv.hashed huniq hfuel with
    ⟨k, e, he, hk, hd, hrun⟩ | ⟨hnone, hrun⟩
  · exact Or.inl ⟨k, ⟨⟨e, he, hk⟩, hd⟩, hrun⟩
  · refine Or.inr ⟨?_, hrun⟩
    rintro k ⟨⟨e, he, hk⟩, hd⟩
    exact hnone k e he hk hd

/-- Function `take_string` under the intern invariant. -/
theorem take_string_ok (sz : sizeofs) {vm : VM} {l ups : List Nat} {n fuel a : Nat}
    (data : List Nat) (hinv : intern_inv vm l ups n) (hn : n < 2 ^ 30) (hfuel : 2 ^ 32 ≤ fuel)
    (hf : l.length + 1 + ups.length < fuel) (ha : vm.heap a = none)
    (hstack : vm.stack_top < STACK_MAX) :
    ∃ (vm' : VM) (l' : List Nat) (r : Nat),
      take_string sz fuel vm data a = some (vm', r) ∧
      intern_inv vm' l' ups (n + 1) ∧ l'.length ≤ l.length + 1 ∧ interned vm' r data ∧
      intern_step vm vm' ups ∧
      (∀ s, interned vm s data → r = s ∧ vm' = account vm (data.length + 1) 0) := by
  rcases find_string_inv data hinv hfuel with ⟨k, hk, hrun⟩ | ⟨hmiss, hrun⟩
  · have hre : reallocate sz fuel vm (data.length + 1) 0 = some (account vm (data.length + 1) 0) := by
      unfold reallocate
      simp
    refine ⟨account vm (data.length + 1) 0, l, k, ?_,
      intern_inv_mono (intern_inv_account hinv _ _) (Nat.le_succ n), Nat.le_succ _, hk,
      intern_step_of_gc (gc_step_account vm ups _ _) (intern_inv_account hinv _ _), ?_⟩
    · unfold take_string
      simp only [hrun, hre]
    · intro s hs
      exact ⟨hinv.unique k s data hk hs, rfl⟩
  · obtain ⟨vm', l', hrun', hinv', hlen', hint', hstep'⟩ :=
      allocate_string_ok sz data hinv hn hfuel hf ha hstack hmiss
    refine ⟨vm', l', a, ?_, hinv', hlen', hint', hstep', ?_⟩
    · unfold take_string
      simp only [hrun, hrun']
    · intro s hs
      exact absurd hs (hmiss s)

/-- Function `copy_string` under the intern invariant. -/
theorem copy_string_ok (sz : sizeofs) {vm : VM} {l ups : List Nat} {n fuel a : Nat}
    (data : List Nat) (hinv : intern_inv vm l ups n) (hn : n < 2 ^ 30) (hfuel : 2 ^ 32 ≤ fuel)
    (hf : l.length + 1 + ups.length < fuel) (ha : vm.heap a = none)
    (hstack : vm.stack_top < STACK_MAX) :
    ∃ (vm' : VM) (l' : List Nat) (r : Nat),
      copy_string sz fuel vm data a = some (vm', r) ∧
      intern_inv vm' l' ups (n + 1) ∧ l'.length ≤ l.length + 1 ∧ interned vm' r data ∧
      intern_step vm vm' ups ∧
      (∀ s, interned vm s data → reachable vm ups s →
        r = s ∧ ∃ vm1, reallocate sz fuel vm 0 (data.length + 1) = some vm1 ∧
          vm' = account vm1 (data.length + 1) 0) := by
  obtain ⟨vm1, l1, hr1, hinv1, hlen1, hs1⟩ :=
    intern_reallocate sz hinv hfuel (by omega) 0 (data.length + 1)
  obtain ⟨_, htop1⟩ := gc_step_stack hs1
  rcases find_string_inv data hinv1 hfuel with ⟨k, hk, hrun⟩ | ⟨hmiss, hrun⟩
  · have hre : reallocate sz fuel vm1 (data.length + 1) 0
        = some (account vm1 (data.length + 1) 0) := by
      unfold reallocate
      simp
    refine ⟨account vm1 (data.length + 1) 0, l1, k, ?_,
      intern_inv_mono (intern_inv_account hinv1 _ _) (Nat.le_succ n), by omega, hk,
      intern_step_trans (intern_step_of_gc hs1 hinv1)
        (intern_step_of_gc (gc_step_account vm1 ups _ _) (intern_inv_account hinv1 _ _)), ?_⟩
    · unfold copy_string
      simp only [hr1, hrun, hre]
    · intro s hs hreach
      exact ⟨hinv1.unique k s data hk (hs1.keep s data hs hreach), vm1, hr1, rfl⟩
  · obtain ⟨vm', l', hrun', hinv', hlen', hint', hstep'⟩ :=
      allocate_string_ok sz data hinv1 hn hfuel (by omega) (hs1.fresh a ha)
        (by rw [htop1]; exact hstack) hmiss
    refine ⟨vm', l', a, ?_, hinv', by omega, hint',
      intern_step_trans (intern_step_of_gc hs1 hinv1) hstep', ?_⟩
    · unfold copy_string
      simp only [hr1, hrun, hrun']
    · intro s hs hreach
      exact absurd (hs1.keep s data hs hreach) (hmiss s)
/-! ### The example state satisfies the intern invariant -/

theorem strings4_keys {e : table_entry} {k : Nat} (he : e ∈ strings4.entries)
    (hk : e.key = some k) : k = 1 ∨ k = 4 := by
  rw [entry_eta hk] at he
  exact strings4_ok.2 k e.val he

theorem vm4_inv : intern_inv vm4 [4, 3, 2, 1] [] 2 := by
  refine ⟨vm4_ready, ?_, ?_, by decide, by decide⟩
  · intro e k he hk
    rcases strings4_keys he hk with h | h <;> subst h
    · exact ⟨_, [97], rfl, rfl⟩
    · exact ⟨_, [98], rfl, rfl⟩
  · rintro k1 k2 d ⟨⟨e1, he1, hk1⟩, hd1⟩ ⟨⟨e2, he2, hk2⟩, hd2⟩
    rcases strings4_keys he1 hk1 with h1 | h1 <;> rcases strings4_keys he2 hk2 with h2 | h2 <;>
      subst h1 <;> subst h2 <;> first
        | rfl
        | (simp [string_data, vm4, heap4] at hd1 hd2
           rw [← hd1] at hd2
           simp at hd2)

theorem vm4_interned_a : interned vm4 1 [97] := by
  refine ⟨⟨{ key := some 1, val := value.nil }, by decide, rfl⟩, rfl⟩

theorem vm4_reachable_a : reachable vm4 [] 1 := by
  refine ⟨3, by decide, ?_⟩
  have h32 : heap_edge vm4.heap 3 2 := ⟨_, rfl, by decide⟩
  have h21 : heap_edge vm4.heap 2 1 := ⟨_, rfl, by decide⟩
  exact Relation.ReflTransGen.tail (Relation.ReflTransGen.single h32) h21

/-! ### The claims about string interning -/

/-- C7: in a state that satisfies the intern invariant (which says that no two
distinct keys of the intern table have equal bytes), `copy_string` on the bytes
`data` returns a string object `r` that is interned with these bytes; the
resulting state satisfies the invariant again, so no two distinct interned
strings have equal bytes in it; every interned string that was reachable from
a root is still interned and reachable; and if a string object `s` with the
bytes `data` was interned and reachable from a root before the call, the call
returns the very same object `s`. -/
theorem copy_string_interns (sz : sizeofs) (vm : VM) (l ups : List Nat) (n fuel a : Nat)
    (data : List Nat) (hinv : intern_inv vm l ups n) (hn : n < 2 ^ 30) (hfuel : 2 ^ 32 ≤ fuel)
    (hf : l.length + 1 + ups.length < fuel) (ha : vm.heap a = none)
    (hstack : vm.stack_top < STACK_MAX) :
    ∃ (vm' : VM) (l' : List Nat) (r : Nat),
      copy_string sz fuel vm data a = some (vm', r) ∧
      intern_inv vm' l' ups (n + 1) ∧ interned vm' r data ∧
      (∀ (k1 k2 : Nat) (d : List Nat), interned vm' k1 d → interned vm' k2 d → k1 = k2) ∧
      (∀ (k : Nat) (d : List Nat), interned vm k d → reachable vm ups k →
        interned vm' k d ∧ reachable vm' ups k) ∧
      (∀ s, interned vm s data → reachable vm ups s → r = s) := by
  obtain ⟨vm', l', r, hrun, hinv', _, hint, hstep, hsame⟩ :=
    copy_string_ok sz data hinv hn hfuel hf ha hstack
  exact ⟨vm', l', r, hrun, hinv', hint, hinv'.unique,
    fun k d hk hr => ⟨hstep.keep k d hk hr, intern_step_reach hstep hr⟩,
    fun s hs hr => (hsame s hs hr).1⟩

/-- C7 at a concrete state: the string "a" is interned and reachable through
the running closure, so `copy_string` on the byte `a` returns that object. -/
theorem copy_string_interns_witness :
    (intern_inv vm4 [4, 3, 2, 1] [] 2 ∧ 2 < 2 ^ 30 ∧ 2 ^ 32 ≤ 2 ^ 32 ∧
      [4, 3, 2, 1].length + 1 + ([] : List Nat).length < 2 ^ 32 ∧ vm4.heap 9 = none ∧
      vm4.stack_top < STACK_MAX) ∧
    ∃ (vm' : VM) (l' : List Nat) (r : Nat),
      copy_string sizes_lp64 (2 ^ 32) vm4 [97] 9 = some (vm', r) ∧
      intern_inv vm' l' [] (2 + 1) ∧ interned vm' r [97] ∧
      (∀ (k1 k2 : Nat) (d : List Nat), interned vm' k1 d → interned vm' k2 d → k1 = k2) ∧
      (∀ (k : Nat) (d : List Nat), interned vm4 k d → reachable vm4 [] k →
        interned vm' k d ∧ reachable vm' [] k) ∧
      (∀ s, interned vm4 s [97] → reachable vm4 [] s → r = s) :=
  ⟨⟨vm4_inv, by decide, by decide, by decide, rfl, by decide⟩,
   copy_string_interns sizes_lp64 vm4 [4, 3, 2, 1] [] 2 (2 ^ 32) 9 [97] vm4_inv (by decide)
     (by decide) (by decide) rfl (by decide)⟩

/-- C8: in a state that satisfies the intern invariant, `copy_string` and
`take_string` on the bytes `data` each return a string object that is interned
with these bytes and keep the invariant; and once a string object `s` with
these bytes is interned and reachable from a root (the result of whichever of
the two was called first), both `copy_string` and `take_string` return that
same object `s`, and `take_string` changes nothing but `heap_size`, which it
lowers by the `len + 1` bytes of the buffer it releases. -/
theorem copy_take_same_object (sz : sizeofs) (vm : VM) (l ups : List Nat) (n fuel a : Nat)
    (data : List Nat) (hinv : intern_inv vm l ups n) (hn : n < 2 ^ 30) (hfuel : 2 ^ 32 ≤ fuel)
    (hf : l.length + 1 + ups.length < fuel) (ha : vm.heap a = none)
    (hstack : vm.stack_top < STACK_MAX) :
    (∃ (vm1 : VM) (l1 : List Nat) (r : Nat), copy_string sz fuel vm data a = some (vm1, r) ∧
      intern_inv vm1 l1 ups (n + 1) ∧ interned vm1 r data) ∧
    (∃ (vm2 : VM) (l2 : List Nat) (r : Nat), take_string sz fuel vm data a = some (vm2, r) ∧
      intern_inv vm2 l2 ups (n + 1) ∧ interned vm2 r data) ∧
    (∀ s, interned vm s data → reachable vm ups s →
      (∃ vm1, copy_string sz fuel vm data a = some (vm1, s)) ∧
      take_string sz fuel vm data a = some (account vm (data.length + 1) 0, s)) := by
  obtain ⟨vm1, l1, r1, hrun1, hinv1, _, hint1, _, hsame1⟩ :=
    copy_string_ok sz data hinv hn hfuel hf ha hstack
  obtain ⟨vm2, l2, r2, hrun2, hinv2, _, hint2, _, hsame2⟩ :=
    take_string_ok sz data hinv hn hfuel hf ha hstack
  refine ⟨⟨vm1, l1, r1, hrun1, hinv1, hint1⟩, ⟨vm2, l2, r2, hrun2, hinv2, hint2⟩, ?_⟩
  intro s hs hr
  refine ⟨⟨vm1, ?_⟩, ?_⟩
  · rw [hrun1, (hsame1 s hs hr).1]
  · rw [hrun2, (hsame2 s hs).1, (hsame2 s hs).2]

/-- C8 at a concrete state, with the string "a" interned and reachable. -/
theorem copy_take_same_object_witness :
    (intern_inv vm4 [4, 3, 2, 1] [] 2 ∧ 2 < 2 ^ 30 ∧ 2 ^ 32 ≤ 2 ^ 32 ∧
      [4, 3, 2, 1].length + 1 + ([] : List Nat).length < 2 ^ 32 ∧ vm4.heap 9 = none ∧
      vm4.stack_top < STACK_MAX) ∧
    (∃ (vm1 : VM) (l1 : List Nat) (r : Nat),
      copy_string sizes_lp64 (2 ^ 32) vm4 [97] 9 = some (vm1, r) ∧
      intern_inv vm1 l1 [] (2 + 1) ∧ interned vm1 r [97]) ∧
    (∃ (vm2 : VM) (l2 : List Nat) (r : Nat),
      take_string sizes_lp64 (2 ^ 32) vm4 [97] 9 = some (vm2, r) ∧
      intern_inv vm2 l2 [] (2 + 1) ∧ interned vm2 r [97]) ∧
    (∀ s, interned vm4 s [97] → reachable vm4 [] s →
      (∃ vm1, copy_string sizes_lp64 (2 ^ 32) vm4 [97] 9 = some (vm1, s)) ∧
      take_string sizes_lp64 (2 ^ 32) vm4 [97] 9
        = some (account vm4 (([97] : List Nat).length + 1) 0, s)) :=
  ⟨⟨vm4_inv, by decide, by decide, by decide, rfl, by decide⟩,
   copy_take_same_object sizes_lp64 vm4 [4, 3, 2, 1] [] 2 (2 ^ 32) 9 [97] vm4_inv (by decide)
     (by decide) (by decide) rfl (by decide)⟩

/-- C9, the claim as stated fails: the byte `a` is interned on object 1 (the
lookup hits it), and `copy_string` returns object 1, yet a collection has run
during the call: the unreferenced string at address 4 has been freed and
`gc_treshold` has been recomputed. -/
theorem copy_string_hit_collects :
    table_find_string vm4.heap (2 ^ 32) vm4.strings [97] (hash_string [97]) = some (some 1) ∧
    (vm4.heap 4).isSome = true ∧ vm4.heap_size = 1000 ∧ vm4.gc_treshold = 1048576 ∧
    string_outcome (copy_string sizes_lp64 (2 ^ 32) vm4 [97] 9)
      = some (1, true, false, 958, 1920) := by
  decide

/-- C9, amended: on a hit (a string object `s` with the bytes `data` is interned
and reachable from a root) `copy_string` returns `s` and allocates no string
object, but it does make one growing `reallocate` call, for the `len + 1` bytes
of the candidate buffer, before the lookup (this call raises `heap_size` and
may collect), and then releases the buffer: the resulting state is the one
that call leaves, with `heap_size` lowered by `len + 1` again. -/
theorem copy_string_hit_reallocates (sz : sizeofs) (vm : VM) (l ups : List Nat) (n fuel a s : Nat)
    (data : List Nat) (hinv : intern_inv vm l ups n) (hfuel : 2 ^ 32 ≤ fuel)
    (hf : l.length + ups.length < fuel) (hs : interned vm s data)
    (hreach : reachable vm ups s) :
    ∃ vm1, reallocate sz fuel vm 0 (data.length + 1) = some vm1 ∧
      copy_string sz fuel vm data a = some (account vm1 (data.length + 1) 0, s) := by
  obtain ⟨vm1, l1, hr1, hinv1, _, hs1⟩ :=
    intern_reallocate sz hinv hfuel hf 0 (data.length + 1)
  refine ⟨vm1, hr1, ?_⟩
  have hs' := hs1.keep s data hs hreach
  have hre : reallocate sz fuel vm1 (data.length + 1) 0
      = some (account vm1 (data.length + 1) 0) := by
    unfold reallocate
    simp
  rcases find_string_inv data hinv1 hfuel with ⟨k, hk, hrun⟩ | ⟨hmiss, _⟩
  · have hks : k = s := hinv1.unique k s data hk hs'
    unfold copy_string
    simp only [hr1, hrun, hre, hks]
  · exact absurd hs' (hmiss s)

/-- C9 amended, at the concrete state of the counterexample. -/
theorem copy_string_hit_reallocates_witness :
    (intern_inv vm4 [4, 3, 2, 1] [] 2 ∧ 2 ^ 32 ≤ 2 ^ 32 ∧
      [4, 3, 2, 1].length + ([] : List Nat).length < 2 ^ 32 ∧ interned vm4 1 [97] ∧
      reachable vm4 [] 1) ∧
    ∃ vm1, reallocate sizes_lp64 (2 ^ 32) vm4 0 (([97] : List Nat).length + 1) = some vm1 ∧
      copy_string sizes_lp64 (2 ^ 32) vm4 [97] 9
        = some (account vm1 (([97] : List Nat).length + 1) 0, 1) :=
  ⟨⟨vm4_inv, by decide, by decide, vm4_interned_a, vm4_reachable_a⟩,
   copy_string_hit_reallocates sizes_lp64 vm4 [4, 3, 2, 1] [] 2 (2 ^ 32) 9 1 [97] vm4_inv
     (by decide) (by decide) vm4_interned_a vm4_reachable_a⟩
/-! ## Theorems: calls, property access, shutdown -/

/-- C3 at the failing input: for the call `f(7)` with the closure in stack
slot 0 and the argument in slot 1 (`stack_top = 2`, `argc = 1`), `call`
succeeds and sets the `slots` of the new frame to 1, which is
`stack_top - argc`, not `stack_top - argc - 1 = 0`; so frame slot 0 holds the
argument, not the callee. -/
theorem call_slots_skip_callee :
    (call vm_call 3 1).map
        (fun r => (r.2, (r.1.frames 0).slots, r.1.stack (r.1.frames 0).slots, r.1.frame_count))
      = some (true, 1, value.number 7, 1) ∧
    vm_call.stack_top - 1 - 1 = 0 ∧ vm_call.stack 0 = value.obj 3 := by
  decide

/-- Function `free_vm` releases the two tables and returns with the object
list and the heap exactly as they were. -/
theorem free_vm_frame (sz : sizeofs) (fuel : Nat) (vm : VM) :
    ∃ vm', free_vm sz fuel vm = some vm' ∧ vm'.objects = vm.objects ∧ vm'.heap = vm.heap ∧
      vm'.strings = init_table ∧ vm'.globals = init_table := by
  refine ⟨_, rfl, rfl, rfl, rfl, rfl⟩

/-- C10 at the failing input: after `free_vm` on a VM whose object list holds
the four objects 4, 3, 2, 1, the list still starts at object 4 and all four
objects are still allocated; only the two tables have been released. -/
theorem free_vm_leaks_objects :
    (free_vm sizes_lp64 (2 ^ 32) vm4).map
        (fun vm => (vm.objects, (vm.heap 4).isSome, (vm.heap 3).isSome, (vm.heap 2).isSome,
          (vm.heap 1).isSome, vm.strings.capacity, vm.globals.capacity))
      = some (some 4, true, true, true, true, 0, 0) := by
  rfl

/-- C5 at the failing input: the instance on top of the stack has no field
"m" and its class has a method "m".  `bind_method` succeeds and replaces the
receiver with the new bound method, yet the `OP_GET_PROPERTY` case then falls
into `runtime_error`: `run` returns `INTERPRET_RUNTIME_ERROR` with the stack
reset, instead of going on with the next instruction. -/
theorem get_property_method_is_error :
    (bind_method sizes_lp64 (2 ^ 32) vm_prop 5 1 9).map
        (fun r => (r.2, r.1.stack_top, r.1.stack 1)) = some (true, 2, value.obj 9) ∧
    (run_step sizes_lp64 fpu_zero (2 ^ 32) (fun _ _ _ => value.nil) (fun _ => 9) vm_prop 0).map
        step_outcome = some (some interpret_result.INTERPRET_RUNTIME_ERROR, 0, 0) := by
  decide


/-- C4 fails on the code: interpreting `var a = 1; { var a = 2; print a; } print a;`
on a freshly initialised VM ends with `INTERPRET_OK`, and the values written by
`print_value` are 1 and 2 (the echo of `OP_CONSTANT`, which prints every constant
it loads), then `false` for the `print a` inside the block, then 1 for the
`print a` after it: the read of the block-local `a`, compiled to `OP_GET_LOCAL 1`,
returns the never-written stack slot above the one that holds 2. -/
theorem shadowed_local_reads_stale_slot :
    (run_source 1000 "var a = 1; \x7b var a = 2; print a; \x7d print a;").map
      (fun r => (r.2, printed_values r.1.vm.stdout, r.1.stderr.length))
    = some (interpret_result.INTERPRET_OK,
        [value.number (double_of_nat 1), value.number (double_of_nat 2), value.bool false,
          value.number (double_of_nat 1)], 0) := by
  decide!

/-- C6 fails on the code: compiling `class A { init() { return; } }` reports no
error and the chunk of the initializer `init` (function object 6) is
`OP_GET_LOCAL 0, OP_NIL, OP_RETURN` for the `return;` statement followed by the
same four bytes for the implicit return: an `OP_NIL` stands between the load of
slot 0 and `OP_RETURN`, so what the initializer returns is nil. -/
theorem initializer_return_emits_nil :
    (compile_source 50 "class A \x7b init() \x7b return; \x7d \x7d").map
      (fun r => (r.2, func_name_of r.1.vm 6, code_of r.1.vm 6, r.1.stderr.length))
    = some (some 4, some (bytes_of "init"),
        some [OP_GET_LOCAL, 0, OP_NIL, OP_RETURN, OP_GET_LOCAL, 0, OP_NIL, OP_RETURN], 0) := by
  decide!

theorem open_locations_length {heap : Nat → Option obj} :
    ∀ (ups locs : List Nat), open_locations heap ups = some locs → locs.length = ups.length := by
  intro ups
  induction ups with
  | nil => intro locs h; simp [open_locations] at h; subst h; rfl
  | cons u us ih =>
    intro locs h
    unfold open_locations at h
    cases hs : upvalue_slot heap u with
    | none => simp [hs] at h
    | some s =>
      cases hss : open_locations heap us with
      | none => simp [hs, hss] at h
      | some ss =>
        simp [hs, hss] at h
        subst h
        simp [ih ss hss]

theorem open_locations_cons {heap : Nat → Option obj} {u : Nat} {us locs : List Nat}
    (h : open_locations heap (u :: us) = some locs) :
    ∃ s ss, locs = s :: ss ∧ upvalue_slot heap u = some s ∧ open_locations heap us = some ss := by
  unfold open_locations at h
  cases hs : upvalue_slot heap u with
  | none => simp [hs] at h
  | some s =>
    cases hss : open_locations heap us with
    | none => simp [hs, hss] at h
    | some ss =>
      simp [hs, hss] at h
      exact ⟨s, ss, h.symm, rfl, rfl⟩

theorem open_locations_congr {h h' : Nat → Option obj} :
    ∀ (ups : List Nat), (∀ u ∈ ups, h' u = h u) → open_locations h' ups = open_locations h ups := by
  intro ups
  induction ups with
  | nil => intro _; rfl
  | cons u us ih =>
    intro hsame
    unfold open_locations
    rw [ih (fun x hx => hsame x (List.mem_cons_of_mem _ hx))]
    have : upvalue_slot h' u = upvalue_slot h u := by
      unfold upvalue_slot
      rw [hsame u (List.mem_cons_self _ _)]
    rw [this]

theorem is_upvalue_list_congr_on {h h' : Nat → Option obj} :
    ∀ (ups : List Nat) (p : Option Nat), is_upvalue_list h p ups →
      (∀ u ∈ ups, h' u = h u) → is_upvalue_list h' p ups := by
  intro ups
  induction ups with
  | nil => intro p hp _; exact hp
  | cons u us ih =>
    intro p hp hsame
    obtain ⟨hpu, n, hn, hrest⟩ := hp
    refine ⟨hpu, n, ?_, ih n hrest (fun x hx => hsame x (List.mem_cons_of_mem _ hx))⟩
    unfold upvalue_next
    rw [hsame u (List.mem_cons_self _ _)]
    exact hn

/-- The list that starts at a pointer is determined by the heap. -/
theorem is_upvalue_list_unique {h : Nat → Option obj} :
    ∀ (l1 l2 : List Nat) (p : Option Nat), is_upvalue_list h p l1 → is_upvalue_list h p l2 →
      l1 = l2 := by
  intro l1
  induction l1 with
  | nil =>
    intro l2 p h1 h2
    cases l2 with
    | nil => rfl
    | cons b l2 =>
      have e1 : p = none := h1
      have e2 : p = some b := h2.1
      rw [e1] at e2
      cases e2
  | cons a l1 ih =>
    intro l2 p h1 h2
    cases l2 with
    | nil =>
      have e1 : p = some a := h1.1
      have e2 : p = none := h2
      rw [e1] at e2
      cases e2
    | cons b l2 =>
      obtain ⟨e1, n1, hn1, r1⟩ := h1
      obtain ⟨e2, n2, hn2, r2⟩ := h2
      rw [e1] at e2
      have hab : a = b := Option.some.inj e2
      subst hab
      rw [hn1] at hn2
      have hn : n1 = n2 := Option.some.inj hn2
      subst hn
      rw [ih l2 n1 r1 r2]

/-- From an element of the list on, the rest of the list is linked. -/
theorem is_upvalue_list_suffix {h : Nat → Option obj} :
    ∀ (pre : List Nat) (p : Option Nat) (u : Nat) (post : List Nat),
      is_upvalue_list h p (pre ++ u :: post) → is_upvalue_list h (some u) (u :: post) := by
  intro pre
  induction pre with
  | nil =>
    intro p u post hp
    obtain ⟨_, n, hn, hrest⟩ := hp
    exact ⟨rfl, n, hn, hrest⟩
  | cons a pre ih =>
    intro p u post hp
    obtain ⟨_, n, _, hrest⟩ := hp
    exact ih n u post hrest

/-- A linked list of upvalues visits no object twice. -/
theorem is_upvalue_list_nodup {h : Nat → Option obj} :
    ∀ (ups : List Nat) (p : Option Nat), is_upvalue_list h p ups → ups.Nodup := by
  intro ups
  induction ups with
  | nil => intro _ _; exact List.nodup_nil
  | cons u us ih =>
    intro p hp
    obtain ⟨hpu, n, hn, hrest⟩ := hp
    refine List.nodup_cons.2 ⟨?_, ih n hrest⟩
    intro hmem
    obtain ⟨pre, post, hsplit⟩ := List.append_of_mem hmem
    have h1 : is_upvalue_list h (some u) (u :: post) :=
      is_upvalue_list_suffix pre n u post (by rw [← hsplit]; exact hrest)
    have h2 : is_upvalue_list h (some u) (u :: us) := ⟨rfl, n, hn, hrest⟩
    have heq := is_upvalue_list_unique _ _ _ h1 h2
    have hlen : (u :: post).length = (u :: us).length := by rw [heq]
    rw [hsplit] at hlen
    simp at hlen
    omega


theorem upvalue_slot_payload {heap : Nat → Option obj} {u s : Nat}
    (h : upvalue_slot heap u = some s) :
    ∃ o closed next, heap u = some o ∧
      o.payload = obj_payload.obj_upvalue (some s) closed next := by
  unfold upvalue_slot at h
  cases ho : heap u with
  | none => simp [ho] at h
  | some o =>
    rcases o with ⟨mk, nx, pl⟩
    cases pl <;> simp [ho] at h
    rename_i location closed next
    subst h
    exact ⟨_, closed, next, rfl, rfl⟩

theorem close_upvalues_none (fuel : Nat) (vm : VM) (last : Nat) (h : vm.open_upvalues = none) :
    close_upvalues (fuel + 1) vm last = some vm := by
  simp only [close_upvalues, h]

theorem close_upvalues_some (fuel : Nat) (vm : VM) (last u : Nat) {o : obj} {s : Nat}
    {closed : value} {next : Option Nat} (hu : vm.open_upvalues = some u)
    (ho : vm.heap u = some o) (hp : o.payload = obj_payload.obj_upvalue (some s) closed next) :
    close_upvalues (fuel + 1) vm last =
      if s ≥ last then close_upvalues fuel (closed_one vm u o s next) last else some vm := by
  simp only [close_upvalues, hu, ho, hp, closed_one]

/-- Function `close_upvalues` on a well-formed open-upvalue list: it closes a
prefix of the list, namely the upvalues up to the first one below `x`. -/
theorem close_upvalues_ok (x : Nat) : ∀ (ups locs : List Nat) (vm : VM) (fuel : Nat),
    is_upvalue_list vm.heap vm.open_upvalues ups → open_locations vm.heap ups = some locs →
    ups.length < fuel →
    ∃ (vm' : VM) (k : Nat), close_upvalues fuel vm x = some vm' ∧ k ≤ ups.length ∧
      vm' = { vm with heap := vm'.heap, open_upvalues := vm'.open_upvalues } ∧
      is_upvalue_list vm'.heap vm'.open_upvalues (ups.drop k) ∧
      open_locations vm'.heap (ups.drop k) = some (locs.drop k) ∧
      (∀ s ∈ locs.take k, x ≤ s) ∧ (∀ s, locs[k]? = some s → s < x) ∧
      (∀ i, i < k → ∃ (u s : Nat) (o : obj) (closed : value) (next : Option Nat),
        ups[i]? = some u ∧ locs[i]? = some s ∧ vm.heap u = some o ∧
        o.payload = obj_payload.obj_upvalue (some s) closed next ∧
        vm'.heap u = some { o with payload := obj_payload.obj_upvalue none (vm.stack s) next }) ∧
      (∀ a, a ∉ ups.take k → vm'.heap a = vm.heap a) := by
  intro ups
  induction ups with
  | nil =>
    intro locs vm fuel hl hloc hf
    have hnone : vm.open_upvalues = none := hl
    have hlocs : locs = [] := by
      simp [open_locations] at hloc
      exact hloc
    subst hlocs
    obtain ⟨f, rfl⟩ : ∃ f, fuel = f + 1 := ⟨fuel - 1, by simp at hf; omega⟩
    refine ⟨vm, 0, close_upvalues_none f vm x hnone, Nat.le_refl _, rfl, hl, hloc, ?_, ?_, ?_, ?_⟩
    · intro s hs; simp at hs
    · intro s hs; simp at hs
    · intro i hi; omega
    · intro a _; rfl
  | cons u us ih =>
    intro locs vm fuel hl hloc hf
    have hnodup := is_upvalue_list_nodup _ _ hl
    obtain ⟨hu, n, hn, hrest⟩ := hl
    obtain ⟨s, ss, hlocs, hs, hss⟩ := open_locations_cons hloc
    subst hlocs
    obtain ⟨o, closed, next, ho, hp⟩ := upvalue_slot_payload hs
    have hnext : n = next := by
      simp only [upvalue_next, ho, hp] at hn
      exact (Option.some.inj hn).symm
    subst hnext
    obtain ⟨f, rfl⟩ : ∃ f, fuel = f + 1 := ⟨fuel - 1, by simp at hf; omega⟩
    rw [close_upvalues_some f vm x u hu ho hp]
    have hl0 : is_upvalue_list vm.heap vm.open_upvalues (u :: us) := ⟨hu, n, hn, hrest⟩
    by_cases hge : s ≥ x
    · rw [if_pos hge]
      have hnot : u ∉ us := (List.nodup_cons.1 hnodup).1
      have hsame : ∀ w ∈ us, (closed_one vm u o s n).heap w = vm.heap w := by
        intro w hw
        show Function.update vm.heap u _ w = _
        have hne : w ≠ u := fun e => hnot (by rw [← e]; exact hw)
        rw [Function.update_noteq hne]
      obtain ⟨vm', k, hrun, hk, hframe, hl', hloc', hpre, hfirst, hclosed, hother⟩ :=
        ih ss (closed_one vm u o s n) f (is_upvalue_list_congr_on us n hrest hsame)
          (by rw [open_locations_congr us hsame]; exact hss) (by simp at hf; omega)
      refine ⟨vm', k + 1, hrun, by simp; omega, ?_, hl', hloc', ?_, ?_, ?_, ?_⟩
      · rw [hframe]
        rfl
      · intro t ht
        simp only [List.take_succ_cons, List.mem_cons] at ht
        rcases ht with h | h
        · rw [h]; exact hge
        · exact hpre t h
      · intro t ht
        exact hfirst t (by simpa using ht)
      · intro i hi
        cases i with
        | zero =>
          refine ⟨u, s, o, closed, n, by simp, by simp, ho, hp, ?_⟩
          rw [hother u (fun hmem => hnot (List.mem_of_mem_take hmem))]
          show Function.update vm.heap u _ u = _
          rw [Function.update_same]
        | succ j =>
          obtain ⟨w, t, ow, cw, nw, hw, ht, how, hpw, hw'⟩ := hclosed j (by omega)
          have hwmem : w ∈ us := List.mem_iff_getElem?.2 ⟨j, hw⟩
          refine ⟨w, t, ow, cw, nw, by simpa using hw, by simpa using ht, ?_, hpw, hw'⟩
          rw [← hsame w hwmem]
          exact how
      · intro a ha
        simp only [List.take_succ_cons, List.mem_cons, not_or] at ha
        rw [hother a ha.2]
        show Function.update vm.heap u _ a = _
        rw [Function.update_noteq ha.1]
    · rw [if_neg hge]
      refine ⟨vm, 0, rfl, Nat.zero_le _, rfl, hl0, hloc, ?_, ?_, ?_, ?_⟩
      · intro t ht; simp at ht
      · intro t ht
        simp at ht
        omega
      · intro i hi; omega
      · intro a _; rfl


theorem table_repr_lookup {hashOf : Nat → Nat} {tab : table} (hwf : table_wf hashOf tab) :
    table_repr tab (table_lookup tab) := by
  intro k v
  unfold table_lookup
  constructor
  · intro h
    cases hf : tab.entries.find? (fun e => e.key == some k) with
    | none => simp [hf] at h
    | some e =>
      simp only [hf, Option.map_some', Option.some.injEq] at h
      have hmem := List.mem_of_find?_eq_some hf
      have hk := List.find?_some hf
      simp only [beq_iff_eq] at hk
      rw [← h, ← entry_eta hk]
      exact hmem
  · intro h
    cases hf : tab.entries.find? (fun e => e.key == some k) with
    | none =>
      have := List.find?_eq_none.1 hf _ h
      simp at this
    | some e =>
      have hmem := List.mem_of_find?_eq_some hf
      have hk := List.find?_some hf
      simp only [beq_iff_eq] at hk
      obtain ⟨i, hi⟩ := List.mem_iff_getElem?.1 hmem
      obtain ⟨j, hj⟩ := List.mem_iff_getElem?.1 h
      have hij := hwf.wf.uniq i j e _ k hi hj hk rfl
      subst hij
      rw [hi] at hj
      have he : e = { key := some k, val := v } := Option.some.inj hj
      simp only [Option.map_some', he]

/-- Function `get_table` on a well-formed table returns the value of the
key, if the table holds it. -/
theorem get_table_lookup {hashOf : Nat → Nat} {tab : table} {fuel : Nat} (key : Nat)
    (hwf : table_wf hashOf tab) (hfuel : 2 ^ 32 ≤ fuel) :
    get_table hashOf fuel tab key = some (table_lookup tab key) :=
  get_table_spec hashOf key hwf (table_repr_lookup hwf) hfuel

theorem table_lookup_some {hashOf : Nat → Nat} {tab : table} (hwf : table_wf hashOf tab)
    (key : Nat) (v : value) :
    table_lookup tab key = some v ↔ ({ key := some key, val := v } : table_entry) ∈ tab.entries :=
  table_repr_lookup hwf key v

theorem table_lookup_none {hashOf : Nat → Nat} {tab : table} (hwf : table_wf hashOf tab)
    (key : Nat) :
    table_lookup tab key = none ↔
      ∀ v, ({ key := some key, val := v } : table_entry) ∉ tab.entries := by
  constructor
  · intro h v hv
    rw [(table_lookup_some hwf key v).2 hv] at h
    cases h
  · intro h
    cases hl : table_lookup tab key with
    | none => rfl
    | some v => exact absurd ((table_lookup_some hwf key v).1 hl) (h v)

theorem reachable_root {vm : VM} {ups : List Nat} {r : Nat} (h : some r ∈ root_ptrs vm ups) :
    reachable vm ups r :=
  ⟨r, h, Relation.ReflTransGen.refl⟩

theorem reachable_edge {vm : VM} {ups : List Nat} {a b : Nat} {o : obj}
    (ha : reachable vm ups a) (ho : vm.heap a = some o) (hb : some b ∈ obj_edges o.payload) :
    reachable vm ups b := by
  obtain ⟨r, hr, hpath⟩ := ha
  exact ⟨r, hr, Relation.ReflTransGen.tail hpath ⟨o, ho, hb⟩⟩

/-- A stack slot below `stack_top` that holds an object is a root. -/
theorem stack_root {vm : VM} (ups : List Nat) {i a : Nat} (hi : i < vm.stack_top)
    (ha : vm.stack i = value.obj a) : some a ∈ root_ptrs vm ups := by
  unfold root_ptrs
  simp only [List.mem_append, List.mem_map, List.mem_range]
  left; left; left; left; left
  exact ⟨value.obj a, ⟨i, hi, ha⟩, rfl⟩


/-- The keys and the object values of a well-formed table are among the
pointers `mark_table` visits. -/
theorem table_ptrs_key {hashOf : Nat → Nat} {tab : table} (hwf : table_wf hashOf tab)
    {e : table_entry} (he : e ∈ tab.entries) : e.key ∈ table_ptrs tab := by
  unfold table_ptrs
  rw [List.take_of_length_le (by rw [hwf.wf.len])]
  simp only [List.mem_flatMap]
  exact ⟨e, he, by simp⟩

theorem table_ptrs_val {hashOf : Nat → Nat} {tab : table} (hwf : table_wf hashOf tab)
    {e : table_entry} (he : e ∈ tab.entries) : value_ptr e.val ∈ table_ptrs tab := by
  unfold table_ptrs
  rw [List.take_of_length_le (by rw [hwf.wf.len])]
  simp only [List.mem_flatMap]
  exact ⟨e, he, by simp⟩

/-- A collection step followed by the allocation of the object `a` keeps a
table whose keys are reachable well-formed under the hashes of the new heap. -/
theorem table_wf_after_alloc {vm vm1 : VM} {l1 ups : List Nat} {n a : Nat} {tab : table}
    {ob : obj} (hs : gc_step vm vm1 ups) (hinv1 : intern_inv vm1 l1 ups n)
    (ha : vm.heap a = none)
    (hreach : ∀ (e : table_entry) (k : Nat), e ∈ tab.entries → e.key = some k →
      reachable vm ups k)
    (hwf : table_wf (string_hash vm.heap) tab) :
    table_wf (string_hash (Function.update vm1.heap a (some ob))) tab := by
  refine table_wf_congr ?_ hwf
  intro e k he hk
  obtain ⟨o, o', ho, ho', hp⟩ := gc_step_reach_payload hs hinv1 (hreach e k he hk)
  have hne : k ≠ a := by
    intro h
    rw [h, ha] at ho
    cases ho
  have ho2 : Function.update vm1.heap a (some ob) k = some o' := by
    rw [Function.update_noteq hne]
    exact ho'
  exact string_hash_of_payload ho ho2 hp


/-- An object reachable before a collection step and the allocation of `a`
is the same object afterwards, up to the mark bit and the list link. -/
theorem heap_after_alloc {vm vm1 : VM} {l1 ups : List Nat} {n a x : Nat} {ob : obj}
    (hs : gc_step vm vm1 ups) (hinv1 : intern_inv vm1 l1 ups n) (ha : vm.heap a = none)
    (hx : reachable vm ups x) :
    ∃ o o', vm.heap x = some o ∧ Function.update vm1.heap a (some ob) x = some o' ∧
      o'.payload = o.payload := by
  obtain ⟨o, o', ho, ho', hp⟩ := gc_step_reach_payload hs hinv1 hx
  have hne : x ≠ a := by
    intro h
    rw [h, ha] at ho
    cases ho
  exact ⟨o, o', ho, by rw [Function.update_noteq hne]; exact ho', hp⟩

theorem closure_func_after_alloc {vm vm1 vm2 : VM} {l1 ups : List Nat} {n a x : Nat} {ob : obj}
    (hs : gc_step vm vm1 ups) (hinv1 : intern_inv vm1 l1 ups n) (ha : vm.heap a = none)
    (h2 : vm2.heap = Function.update vm1.heap a (some ob))
    (hx : reachable vm ups x) :
    closure_func vm2 x = closure_func vm x := by
  obtain ⟨o, o', ho, ho', hp⟩ := @heap_after_alloc vm vm1 l1 ups n a x ob hs hinv1 ha hx
  unfold closure_func
  rw [h2, ho, ho']
  simp only [hp]
  cases hpl : o.payload with
  | obj_closure func upvalues =>
    cases func with
    | none => rfl
    | some f =>
      have hf : reachable vm ups f := reachable_edge hx ho (by rw [hpl]; simp [obj_edges])
      obtain ⟨p, p', hpo, hpo', hpp⟩ := @heap_after_alloc vm vm1 l1 ups n a f ob hs hinv1 ha hf
      simp only [hpo, hpo', hpp]
  | _ => rfl


/-- The root set of a state whose stack is a prefix of the stack of `vm`. -/
theorem root_ptrs_shrink {vm vm' : VM} (ups : List Nat)
    (h1 : ∀ i, i < vm'.stack_top → vm'.stack i = vm.stack i) (h2 : vm'.stack_top ≤ vm.stack_top)
    (h3 : vm'.frames = vm.frames) (h4 : vm'.frame_count = vm.frame_count)
    (h5 : vm'.globals = vm.globals) (h6 : vm'.compilers = vm.compilers)
    (h7 : vm'.init_string = vm.init_string) (p : Option Nat) (hp : p ∈ root_ptrs vm' ups) :
    p ∈ root_ptrs vm ups := by
  unfold root_ptrs at hp ⊢
  rw [h3, h4, h5, h6, h7] at hp
  simp only [List.mem_append, List.mem_map, List.mem_range] at hp ⊢
  rcases hp with ((((hp | hp) | hp) | hp) | hp) | hp
  · obtain ⟨v, ⟨i, hi, hv⟩, hvp⟩ := hp
    exact Or.inl (Or.inl (Or.inl (Or.inl (Or.inl
      ⟨v, ⟨i, by omega, by rw [← h1 i hi]; exact hv⟩, hvp⟩))))
  · exact Or.inl (Or.inl (Or.inl (Or.inl (Or.inr hp))))
  · exact Or.inl (Or.inl (Or.inl (Or.inr hp)))
  · exact Or.inl (Or.inl (Or.inr hp))
  · exact Or.inl (Or.inr hp)
  · exact Or.inr hp

/-- The intern invariant depends on the stack through the validity of the
roots only. -/
theorem intern_inv_restack {vm vm' : VM} {l ups : List Nat} {n : Nat}
    (hinv : intern_inv vm l ups n) (hheap : vm'.heap = vm.heap)
    (hobjects : vm'.objects = vm.objects) (hstrings : vm'.strings = vm.strings)
    (hgray : vm'.gray_stack = vm.gray_stack) (hopen : vm'.open_upvalues = vm.open_upvalues)
    (hroots : ∀ b : Nat, some b ∈ root_ptrs vm' ups → vm.heap b ≠ none) :
    intern_inv vm' l ups n := by
  have hr := hinv.ready
  refine ⟨⟨?_, hr.nodup, ?_, ?_, ?_, ?_, ?_, ?_, ?_, ?_⟩, ?_, ?_, ?_, ?_⟩
  · rw [hheap, hobjects]; exact hr.list
  · rw [hheap]; exact hr.dom
  · rw [hheap]; exact hr.white
  · rw [hgray]; exact hr.gray
  · rw [hheap, hopen]; exact hr.upvalues
  · rw [hheap]; exact hroots
  · rw [hheap]; exact hr.edges_valid
  · rw [hheap, hstrings]; exact hr.strings_wf
  · rw [hheap, hstrings]; exact hr.strings_valid
  · rw [hheap, hstrings]; exact hinv.hashed
  · intro k1 k2 d h1 h2
    have e : ∀ k, interned vm' k d → interned vm k d := by
      intro k h
      unfold interned at h ⊢
      rw [hheap, hstrings] at h
      exact h
    exact hinv.unique k1 k2 d (e k1 h1) (e k2 h2)
  · rw [hstrings]; exact hinv.cap_budget
  · rw [hstrings]; exact hinv.count_budget


/-- The case `OP_ADD` of `run`. -/
theorem run_step_add (sz : sizeofs) (fp : fpu) (fuel : Nat)
    (native : Nat → Nat → List value → value) (fresh : (Nat → Option obj) → Nat)
    (vm0 vm : VM) (frame : Nat) (vb va : value)
    (h : READ_BYTE { vm0 with stdout := vm0.stdout ++ [out_item.trace] } frame
      = some (vm, OP_ADD)) :
    peek vm 0 = some vb → peek vm 1 = some va →
    run_step sz fp fuel native fresh vm0 frame =
      match vb, va with
      | value.number b, value.number a =>
        (pop vm).bind fun r1 =>
          (pop r1.1).bind fun r2 => push_next r2.1 frame (value.number (fp.add a b))
      | value.obj b, value.obj a =>
        match string_data vm.heap b, string_data vm.heap a with
        | some _, some _ =>
          (concatenate sz fuel vm (fresh vm.heap)).bind fun vm1 =>
            some (step_result.next vm1 frame)
        | _, _ => fail vm
      | _, _ => fail vm := by
  intro hp0 hp1
  unfold run_step
  simp +decide only [h, hp0, hp1, Option.bind_eq_bind, Option.some_bind, OP_RETURN, OP_CALL,
    OP_CONSTANT,
    OP_NIL, OP_TRUE, OP_FALSE, OP_NEGATE, OP_ADD, OP_SUBTRACT, OP_MULTIPLY, OP_DIVIDE, OP_NOT,
    OP_EQUAL, OP_GREATER, OP_LESS, OP_POP, OP_DEFINE_GLOBAL, OP_GET_GLOBAL, OP_SET_GLOBAL,
    OP_GET_LOCAL, OP_SET_LOCAL, OP_JUMP_IF_FALSE, OP_JUMP, OP_LOOP, OP_PRINT, OP_CLOSURE,
    OP_GET_UPVALUE, OP_SET_UPVALUE, OP_CLOSE_UPVALUE, OP_CLASS, OP_GET_PROPERTY,
    OP_SET_PROPERTY, OP_METHOD, if_false, if_true]


theorem peek_eq {vm : VM} {dist : Nat} (h : dist < vm.stack_top) :
    peek vm dist = some (vm.stack (vm.stack_top - 1 - dist)) := by
  unfold peek
  rw [if_pos h]

/-- Function `concatenate` under the intern invariant, with two strings on
top of the stack. -/
theorem concatenate_ok (sz : sizeofs) {vm : VM} {l ups : List Nat} {n fuel a sa sb : Nat}
    {da db : List Nat}
    (hinv : intern_inv vm l ups n) (hn : n < 2 ^ 30) (hfuel : 2 ^ 32 ≤ fuel)
    (hf : l.length + 1 + ups.length < fuel) (ha : vm.heap a = none)
    (htop : 2 ≤ vm.stack_top) (hmax : vm.stack_top < STACK_MAX)
    (hb : vm.stack (vm.stack_top - 1) = value.obj sb)
    (hsa : vm.stack (vm.stack_top - 2) = value.obj sa)
    (hda : string_data vm.heap sa = some da) (hdb : string_data vm.heap sb = some db) :
    ∃ (vm' : VM) (l' : List Nat) (r : Nat), concatenate sz fuel vm a = some vm' ∧
      intern_inv vm' l' ups (n + 1) ∧
      vm'.stack_top = vm.stack_top - 1 ∧ vm'.stack (vm.stack_top - 2) = value.obj r ∧
      (∀ i, i < vm.stack_top - 2 → vm'.stack i = vm.stack i) ∧
      vm'.frames = vm.frames ∧ vm'.frame_count = vm.frame_count ∧
      interned vm' r (da ++ db) ∧
      (∀ s, interned vm s (da ++ db) → reachable vm ups s → r = s) ∧
      vm'.stdout = vm.stdout ∧
      (∀ x, reachable vm ups x →
        ∃ o o', vm.heap x = some o ∧ vm'.heap x = some o' ∧ o'.payload = o.payload) := by
  have hra : reachable vm ups sa :=
    reachable_root (stack_root ups (by omega : vm.stack_top - 2 < vm.stack_top) hsa)
  have hrb : reachable vm ups sb :=
    reachable_root (stack_root ups (by omega : vm.stack_top - 1 < vm.stack_top) hb)
  obtain ⟨vm1, l1, hr1, hinv1, hlen1, hs1⟩ :=
    intern_reallocate sz hinv hfuel (by omega) 0 (da.length + db.length + 1)
  obtain ⟨hstk1, htop1⟩ := gc_step_stack hs1
  have hda1 : string_data vm1.heap sa = some da := by
    obtain ⟨o, o', ho, ho', hp⟩ := gc_step_reach_payload hs1 hinv1 hra
    rw [string_data_of_payload ho ho' hp]
    exact hda
  have hdb1 : string_data vm1.heap sb = some db := by
    obtain ⟨o, o', ho, ho', hp⟩ := gc_step_reach_payload hs1 hinv1 hrb
    rw [string_data_of_payload ho ho' hp]
    exact hdb
  obtain ⟨vm2, l2, r, hrun2, hinv2, hlen2, hint2, hstep2, hsame2⟩ :=
    take_string_ok sz (da ++ db) hinv1 hn hfuel (by omega) (hs1.fresh a ha)
      (by rw [htop1]; exact hmax)
  have htop2 : vm2.stack_top = vm.stack_top := by rw [hstep2.top, htop1]
  have hbelow2 : ∀ i, i < vm.stack_top → vm2.stack i = vm.stack i := by
    intro i hi
    rw [hstep2.below i (by rw [htop1]; exact hi), hstk1]
  have hrun : concatenate sz fuel vm a =
      some (result_pushed vm2 r) := by
    unfold concatenate
    rw [peek_eq (by omega : 0 < vm.stack_top), peek_eq (by omega : 1 < vm.stack_top)]
    simp only [Nat.sub_zero, hb, show vm.stack_top - 1 - 1 = vm.stack_top - 2 by omega, hsa, hda,
      hdb, hr1, hda1, hdb1, hrun2]
    unfold pop
    rw [if_pos (by omega)]
    simp only
    rw [if_pos (by show 0 < vm2.stack_top - 1; omega)]
    simp only
    unfold push
    rw [if_pos (by show vm2.stack_top - 1 - 1 < STACK_MAX; omega)]
    rfl
  refine ⟨_, l2, r, hrun, ?_, ?_, ?_, ?_, ?_, ?_, ?_, ?_, ?_, ?_⟩
  · refine @intern_inv_restack vm2 (result_pushed vm2 r) l2 ups (n + 1) hinv2 rfl rfl rfl rfl rfl ?_
    intro b hroot
    have h1 : ∀ i, i < (operands_popped vm2).stack_top →
        (result_pushed vm2 r).stack i = (operands_popped vm2).stack i := by
      intro i hi
      have hi' : i < vm2.stack_top - 1 - 1 := hi
      show Function.update vm2.stack (vm2.stack_top - 1 - 1) _ i = vm2.stack i
      rw [Function.update_noteq (Nat.ne_of_lt hi')]
    have h1' : (result_pushed vm2 r).stack (operands_popped vm2).stack_top = value.obj r := by
      show Function.update vm2.stack (vm2.stack_top - 1 - 1) _ (vm2.stack_top - 1 - 1) = _
      rw [Function.update_same]
    have hmem := (@root_ptrs_pushed (operands_popped vm2) (result_pushed vm2 r) ups
      (value.obj r) h1 h1' rfl rfl rfl rfl rfl rfl (some b)).1 hroot
    rcases hmem with h | h
    · exact hinv2.ready.roots_valid b
        (@root_ptrs_shrink vm2 (operands_popped vm2) ups
          (fun _ _ => rfl) (by show vm2.stack_top - 1 - 1 ≤ vm2.stack_top; omega) rfl rfl rfl rfl
          rfl (some b) h)
    · obtain ⟨⟨e, he, hk⟩, _⟩ := hint2
      have hbr : b = r := Option.some.inj h
      rw [hbr]
      exact hinv2.ready.strings_valid e r he hk
  · show vm2.stack_top - 1 - 1 + 1 = vm.stack_top - 1
    omega
  · show Function.update vm2.stack (vm2.stack_top - 1 - 1) _ _ = _
    rw [show vm2.stack_top - 1 - 1 = vm.stack_top - 2 by omega, Function.update_same]
  · intro i hi
    show Function.update vm2.stack (vm2.stack_top - 1 - 1) _ i = _
    rw [Function.update_noteq (by omega), hbelow2 i (by omega)]
  · show vm2.frames = vm.frames
    rw [hstep2.frames]
    exact (congrArg VM.frames hs1.fields).trans rfl
  · show vm2.frame_count = vm.frame_count
    rw [hstep2.frame_count]
    exact (congrArg VM.frame_count hs1.fields).trans rfl
  · exact hint2
  · intro s hs hreach
    exact (hsame2 s (hs1.keep s _ hs hreach)).1
  · show vm2.stdout = vm.stdout
    rw [hstep2.stdout]
    exact (congrArg VM.stdout hs1.fields).trans rfl
  · intro x hx
    obtain ⟨o, o1, ho, ho1, hp1⟩ := gc_step_reach_payload hs1 hinv1 hx
    obtain ⟨o1', o2, ho1', ho2, hp2⟩ := hstep2.payload x (gc_step_reach hs1 hx)
    rw [ho1] at ho1'
    cases ho1'
    exact ⟨o, o2, ho, ho2, hp2.trans hp1⟩


/-- The flag `is_new` of `set_table`: true exactly when the table had no entry
for the key. -/
theorem set_table_store_flag (hashOf : Nat → Nat) {tab tab' : table} {fuel : Nat} {b : Bool}
    (key : Nat) (v : value)
    (hwf : entries_wf hashOf tab.entries tab.capacity)
    (hcount : tab.count = used_slots tab.entries)
    (hload : 4 * (tab.count + 1) ≤ 3 * tab.capacity) (hc32 : tab.capacity ≤ 2 ^ 32)
    (hfuel : tab.capacity ≤ fuel)
    (hrun : set_table_store hashOf fuel tab key v = some (tab', b)) :
    b = true ↔ ∀ w : value, ({ key := some key, val := w } : table_entry) ∉ tab.entries := by
  obtain ⟨r, er, hfind, her, hcase⟩ :=
    find_entry_spec hashOf hwf hc32 (by omega) hfuel key
  simp only [set_table_store, hfind, her, Option.some.injEq, Prod.mk.injEq] at hrun
  obtain ⟨_, hb⟩ := hrun
  rw [← hb]
  rcases hcase with hhit | ⟨hnone, habs, _⟩
  · rw [hhit]
    constructor
    · intro h; cases h
    · intro h
      exfalso
      refine h er.val ?_
      rw [← entry_eta hhit]
      exact List.mem_iff_getElem?.2 ⟨r, her⟩
  · rw [hnone]
    constructor
    · intro _ w hmem
      obtain ⟨i, hi⟩ := List.mem_iff_getElem?.1 hmem
      exact habs i _ hi rfl
    · intro _; rfl

/-- A collection step keeps a table whose keys are reachable well-formed under
the hashes of the new heap. -/
theorem table_wf_after_gc {vm vm1 : VM} {l1 ups : List Nat} {n : Nat} {tab : table}
    (hs : gc_step vm vm1 ups) (hinv1 : intern_inv vm1 l1 ups n)
    (hreach : ∀ (e : table_entry) (k : Nat), e ∈ tab.entries → e.key = some k →
      reachable vm ups k)
    (hwf : table_wf (string_hash vm.heap) tab) :
    table_wf (string_hash vm1.heap) tab := by
  refine table_wf_congr ?_ hwf
  intro e k he hk
  obtain ⟨o, o', ho, ho', hp⟩ := gc_step_reach_payload hs hinv1 (hreach e k he hk)
  exact string_hash_of_payload ho ho' hp

/-- The keys of the globals are roots. -/
theorem globals_key_root {vm : VM} (ups : List Nat)
    (hwf : table_wf (string_hash vm.heap) vm.globals) {e : table_entry} {k : Nat}
    (he : e ∈ vm.globals.entries) (hk : e.key = some k) : reachable vm ups k := by
  refine reachable_root ?_
  unfold root_ptrs
  simp only [List.mem_append]
  left; left; right
  rw [← hk]
  exact table_ptrs_key hwf he

/-- Function `set_table` on the globals, as it runs inside the VM. -/
theorem vm_set_table_globals_ok (sz : sizeofs) {vm : VM} {l ups : List Nat} {n fuel : Nat}
    (key : Nat) (val : value)
    (hinv : intern_inv vm l ups n) (hfuel : 2 ^ 32 ≤ fuel) (hf : l.length + ups.length < fuel)
    (hwf : table_wf (string_hash vm.heap) vm.globals) (hcap : vm.globals.capacity ≤ 2 ^ 31) :
    ∃ (vm2 : VM) (l2 : List Nat) (tab3 : table) (b : Bool),
      vm_set_table sz fuel vm table_loc.globals key val = some ({ vm2 with globals := tab3 }, b) ∧
      gc_step vm vm2 ups ∧ intern_inv vm2 l2 ups n ∧
      table_wf (string_hash vm2.heap) tab3 ∧
      (b = true ↔ ∀ w : value, ({ key := some key, val := w } : table_entry) ∉ vm.globals.entries) ∧
      (∀ (k : Nat) (w : value), ({ key := some k, val := w } : table_entry) ∈ tab3.entries ↔
        ((k = key ∧ w = val) ∨
          (k ≠ key ∧ ({ key := some k, val := w } : table_entry) ∈ vm.globals.entries))) := by
  by_cases hover : table_overloaded vm.globals = true
  · obtain ⟨vm1, l1, hr1, hinv1, hlen1, hs1⟩ :=
      intern_reallocate sz hinv hfuel hf 0 (sz.table_entry * GROW_CAPACITY vm.globals.capacity)
    have hg1 : vm1.globals = vm.globals := (congrArg VM.globals hs1.fields).trans rfl
    have hwf1 : table_wf (string_hash vm1.heap) vm.globals :=
      table_wf_after_gc hs1 hinv1 (fun e k he hk => globals_key_root ups hwf he hk) hwf
    have hgrow : GROW_CAPACITY vm.globals.capacity
        = if vm.globals.capacity < 8 then 8 else vm.globals.capacity * 2 := rfl
    have hover' : 4 * (vm.globals.count + 1) > 3 * vm.globals.capacity := by
      simpa [table_overloaded] using hover
    have hku := keyed_le_used vm.globals.entries
    have hce := hwf.count_eq
    have hld := hwf.load
    obtain ⟨tab2, hadj, hwf2, hcap2, hcnt2, hcnt2', hkeys2⟩ :=
      @adjust_capacity_spec (string_hash vm1.heap) vm.globals
        (GROW_CAPACITY vm.globals.capacity) fuel hwf1.wf
        (by rw [hgrow]; split_ifs <;> omega) (by rw [hgrow]; split_ifs <;> omega)
        (by rw [hgrow]; split_ifs <;> omega)
    have hload2 : 4 * (tab2.count + 1) ≤ 3 * tab2.capacity := by
      rw [hcap2, hgrow, hcnt2']; split_ifs <;> omega
    have hc2 : tab2.capacity ≤ 2 ^ 32 := by
      rw [hcap2, hgrow]; split_ifs <;> omega
    obtain ⟨tab3, b, hstore, hwf3, _, _, hmem3⟩ :=
      set_table_store_spec (string_hash vm1.heap) key val hwf2 hcnt2 hload2 hc2
        (by omega : tab2.capacity ≤ fuel)
    have hflag := set_table_store_flag (string_hash vm1.heap) key val hwf2 hcnt2 hload2 hc2
      (by omega : tab2.capacity ≤ fuel) hstore
    have h5 : reallocate sz fuel vm1 (sz.table_entry * vm.globals.capacity) 0 =
        some (account vm1 (sz.table_entry * vm.globals.capacity) 0) := by
      unfold reallocate
      simp
    refine ⟨account vm1 (sz.table_entry * vm.globals.capacity) 0, l1, tab3, b, ?_,
      gc_step_trans hs1 (gc_step_account vm1 ups _ _), intern_inv_account hinv1 _ _, hwf3, ?_, ?_⟩
    · have h4' : set_table_store
          (string_hash (account vm1 (sz.table_entry * vm.globals.capacity) 0).heap) fuel tab2 key
          val = some (tab3, b) := hstore
      unfold vm_set_table
      simp only [read_table, hover, if_true, hr1, hg1, hadj, h5, h4', write_table]
    · rw [hflag]
      constructor
      · intro h w hw
        exact h w ((hkeys2 key w).2 hw)
      · intro h w hw
        exact h w ((hkeys2 key w).1 hw)
    · intro k w
      rw [hmem3 k w, hkeys2 k w]
  · have hover' : 4 * (vm.globals.count + 1) ≤ 3 * vm.globals.capacity := by
      simpa [table_overloaded] using hover
    obtain ⟨tab3, b, hstore, hwf3, _, _, hmem3⟩ :=
      set_table_store_spec (string_hash vm.heap) key val hwf.wf hwf.count_eq hover'
        hwf.cap_le (by omega : vm.globals.capacity ≤ fuel)
    have hflag := set_table_store_flag (string_hash vm.heap) key val hwf.wf hwf.count_eq hover'
      hwf.cap_le (by omega : vm.globals.capacity ≤ fuel) hstore
    refine ⟨vm, l, tab3, b, ?_, ?_, hinv, hwf3, hflag, hmem3⟩
    · unfold vm_set_table
      simp only [read_table, hover, Bool.false_eq_true, if_false, hstore, write_table]
    · exact ⟨fun _ _ _ h => h, rfl, fun _ _ h _ => h, fun _ _ h => h, fun _ h => h,
        fun _ o h => ⟨o, h, rfl⟩, rfl, rfl, rfl⟩


/-- The case `OP_SET_GLOBAL` of `run`. -/
theorem run_step_set_global (sz : sizeofs) (fp : fpu) (fuel : Nat)
    (native : Nat → Nat → List value → value) (fresh : (Nat → Option obj) → Nat)
    (vm0 vm : VM) (frame : Nat)
    (h : READ_BYTE { vm0 with stdout := vm0.stdout ++ [out_item.trace] } frame
      = some (vm, OP_SET_GLOBAL)) :
    run_step sz fp fuel native fresh vm0 frame =
      (READ_STRING vm frame).bind fun r =>
        (peek r.1 0).bind fun v =>
          (vm_set_table sz fuel r.1 table_loc.globals r.2 v).bind fun s =>
            if s.2 = true then
              (delete_table (string_hash s.1.heap) fuel s.1.globals r.2).bind fun d =>
                fail { s.1 with globals := d.1 }
            else some (step_result.next s.1 frame) := by
  unfold run_step
  simp +decide only [h, Option.bind_eq_bind, Option.some_bind, OP_RETURN, OP_CALL,
    OP_CONSTANT,
    OP_NIL, OP_TRUE, OP_FALSE, OP_NEGATE, OP_ADD, OP_SUBTRACT, OP_MULTIPLY, OP_DIVIDE, OP_NOT,
    OP_EQUAL, OP_GREATER, OP_LESS, OP_POP, OP_DEFINE_GLOBAL, OP_GET_GLOBAL, OP_SET_GLOBAL,
    OP_GET_LOCAL, OP_SET_LOCAL, OP_JUMP_IF_FALSE, OP_JUMP, OP_LOOP, OP_PRINT, OP_CLOSURE,
    OP_GET_UPVALUE, OP_SET_UPVALUE, OP_CLOSE_UPVALUE, OP_CLASS, OP_GET_PROPERTY,
    OP_SET_PROPERTY, OP_METHOD, if_false, if_true]


/-- The call frames below `frame_count` are roots. -/
theorem frame_root {vm : VM} (ups : List Nat) {frame : Nat} (h : frame < vm.frame_count) :
    some (vm.frames frame).closure ∈ root_ptrs vm ups := by
  unfold root_ptrs
  simp only [List.mem_append, List.mem_map, List.mem_range]
  left; left; left; left; right
  exact ⟨frame, h, rfl⟩

/-- Moving the `ip` of a frame and writing to standard output keep the root
set. -/
theorem root_ptrs_set_ip (vm0 : VM) (ups : List Nat) (out : List out_item) (frame ip : Nat) :
    root_ptrs (set_ip { vm0 with stdout := out } frame ip) ups = root_ptrs vm0 ups := by
  unfold root_ptrs set_ip
  simp only
  have : (fun i => some ((Function.update vm0.frames frame
        { vm0.frames frame with ip := ip }) i).closure)
      = fun i => some (vm0.frames i).closure := by
    funext i
    by_cases hi : i = frame
    · rw [hi, Function.update_same]
    · rw [Function.update_noteq hi]
  rw [this]

/-- The intern invariant after the fetch of an opcode. -/
theorem fetched_inv {vm0 : VM} {l ups : List Nat} {n : Nat} (hinv : intern_inv vm0 l ups n)
    (out : List out_item) (frame ip : Nat) :
    intern_inv (set_ip { vm0 with stdout := out } frame ip) l ups n := by
  refine intern_inv_restack hinv rfl rfl rfl rfl rfl ?_
  intro b hb
  rw [root_ptrs_set_ip] at hb
  exact hinv.ready.roots_valid b hb

theorem reachable_set_ip {vm0 : VM} {ups : List Nat} (out : List out_item) (frame ip : Nat)
    {x : Nat} (h : reachable vm0 ups x) :
    reachable (set_ip { vm0 with stdout := out } frame ip) ups x := by
  obtain ⟨r, hr, hpath⟩ := h
  exact ⟨r, by rw [root_ptrs_set_ip]; exact hr, hpath⟩

/-- Macro `READ_BYTE` on a frame whose chunk and `ip` are known. -/
theorem READ_BYTE_eq {vm : VM} {frame byte : Nat} {chk : chunk}
    (hc : frame_chunk vm frame = some chk) (hb : chk.code[(vm.frames frame).ip]? = some byte) :
    READ_BYTE vm frame = some (set_ip vm frame ((vm.frames frame).ip + 1), byte) := by
  unfold READ_BYTE
  simp only [hc, hb]
  rfl

/-- The chunk of a frame in a state that keeps the frame record and the
payloads of the closure and its function. -/
theorem frame_chunk_keep {vm vm' : VM} {ups : List Nat} {frame : Nat}
    (hframe : frame < vm.frame_count) (hfr : (vm'.frames frame).closure = (vm.frames frame).closure)
    (hpay : ∀ x, reachable vm ups x →
      ∃ o o', vm.heap x = some o ∧ vm'.heap x = some o' ∧ o'.payload = o.payload) :
    frame_chunk vm' frame = frame_chunk vm frame := by
  have hroot : reachable vm ups (vm.frames frame).closure := reachable_root (frame_root ups hframe)
  obtain ⟨o, o', ho, ho', hp⟩ := hpay _ hroot
  unfold frame_chunk
  rw [hfr, ho, ho']
  simp only [hp]
  cases hpl : o.payload with
  | obj_closure func upvalues =>
    cases func with
    | none => rfl
    | some f =>
      have hf : reachable vm ups f := reachable_edge hroot ho (by rw [hpl]; simp [obj_edges])
      obtain ⟨p, p', hpo, hpo', hpp⟩ := hpay f hf
      simp only [hpo, hpo', hpp]
  | _ => rfl

/-- The case `OP_PRINT` of `run`. -/
theorem run_step_print (sz : sizeofs) (fp : fpu) (fuel : Nat)
    (native : Nat → Nat → List value → value) (fresh : (Nat → Option obj) → Nat)
    (vm0 vm : VM) (frame : Nat)
    (h : READ_BYTE { vm0 with stdout := vm0.stdout ++ [out_item.trace] } frame
      = some (vm, OP_PRINT)) :
    run_step sz fp fuel native fresh vm0 frame =
      (pop vm).bind fun r =>
        some (step_result.next
          { r.1 with stdout := r.1.stdout ++ [out_item.printed r.2, out_item.text "\n"] }
          frame) := by
  unfold run_step
  simp +decide only [h, Option.bind_eq_bind, Option.some_bind, OP_RETURN, OP_CALL,
    OP_CONSTANT,
    OP_NIL, OP_TRUE, OP_FALSE, OP_NEGATE, OP_ADD, OP_SUBTRACT, OP_MULTIPLY, OP_DIVIDE, OP_NOT,
    OP_EQUAL, OP_GREATER, OP_LESS, OP_POP, OP_DEFINE_GLOBAL, OP_GET_GLOBAL, OP_SET_GLOBAL,
    OP_GET_LOCAL, OP_SET_LOCAL, OP_JUMP_IF_FALSE, OP_JUMP, OP_LOOP, OP_PRINT, OP_CLOSURE,
    OP_GET_UPVALUE, OP_SET_UPVALUE, OP_CLOSE_UPVALUE, OP_CLASS, OP_GET_PROPERTY,
    OP_SET_PROPERTY, OP_METHOD, if_false, if_true]


/-- C20: `values_equal` is by variant.  It returns false whenever the two values
have different types; nil equals nil; two booleans are equal iff they have the
same truth value; two object values are equal iff they are the same object;
and on values that are not numbers it is reflexive and symmetric. -/
theorem values_equal_by_variant (fp : fpu) :
    (∀ a b : value, value_type_of a ≠ value_type_of b → values_equal fp a b = false) ∧
    values_equal fp value.nil value.nil = true ∧
    (∀ x y : Bool, values_equal fp (value.bool x) (value.bool y) = true ↔ x = y) ∧
    (∀ p q : Nat, values_equal fp (value.obj p) (value.obj q) = true ↔ p = q) ∧
    (∀ a : value, value_type_of a ≠ 2 → values_equal fp a a = true) ∧
    (∀ a b : value, value_type_of a ≠ 2 → values_equal fp a b = values_equal fp b a) := by
  refine ⟨?_, rfl, ?_, ?_, ?_, ?_⟩
  · intro a b h
    cases a <;> cases b <;> simp [value_type_of] at h <;> rfl
  · intro x y
    simp [values_equal]
  · intro p q
    simp [values_equal]
  · intro a h
    cases a <;> simp [value_type_of] at h <;> simp [values_equal]
  · intro a b h
    cases a <;> cases b <;> simp [value_type_of] at h <;> simp [values_equal, eq_comm]


theorem mem_zip_iff_index {ups locs : List Nat} {u s : Nat} :
    (u, s) ∈ ups.zip locs ↔ ∃ i : Nat, ups[i]? = some u ∧ locs[i]? = some s := by
  rw [List.mem_iff_getElem?]
  constructor
  · rintro ⟨i, hi⟩
    exact ⟨i, List.getElem?_zip_eq_some.1 hi⟩
  · rintro ⟨i, hi⟩
    exact ⟨i, List.getElem?_zip_eq_some.2 hi⟩

theorem below_of_sorted_drop {locs : List Nat} {k x : Nat} (hsorted : locs.Pairwise (· > ·))
    (hfirst : ∀ s, locs[k]? = some s → s < x) (j : Nat) {s : Nat}
    (hj : locs[k + j]? = some s) : s < x := by
  cases j with
  | zero => exact hfirst s hj
  | succ j =>
    have hlt : k + (j + 1) < locs.length := (List.getElem?_eq_some_iff.1 hj).1
    have hk : k < locs.length := by omega
    have h1 := hfirst locs[k] (List.getElem?_eq_getElem hk)
    have h2 := List.pairwise_iff_getElem.1 hsorted k (k + (j + 1)) hk hlt (by omega)
    have h3 : locs[k + (j + 1)] = s := (List.getElem?_eq_some_iff.1 hj).2
    rw [h3] at h2
    omega

/-- C13: `close_upvalues (x)` on an open-upvalue list that is strictly
decreasing in location, with enough fuel for its loop.  No remaining open
upvalue has location `>= x`; every upvalue that had location `s >= x` now has
its field `closed` equal to the value stack slot `s` held at the time of the
call and its `location` pointing at its own field `closed` (`none`); every
upvalue with location `< x` is still on the list in the same place and its
object is unchanged; the stack is unchanged. -/
theorem close_upvalues_closes_from (vm : VM) (ups locs : List Nat) (fuel x : Nat)
    (hopen : open_list vm ups locs) (hsorted : locs.Pairwise (fun a b => a > b))
    (hf : ups.length < fuel) :
    ∃ (vm' : VM) (ups' locs' : List Nat), close_upvalues fuel vm x = some vm' ∧
      open_list vm' ups' locs' ∧ locs'.Pairwise (fun a b => a > b) ∧ (∀ s ∈ locs', s < x) ∧
      (∀ u s, (u, s) ∈ ups.zip locs → x ≤ s →
        ∃ (o : obj) (closed : value) (next : Option Nat), vm.heap u = some o ∧
          o.payload = obj_payload.obj_upvalue (some s) closed next ∧
          vm'.heap u = some { o with payload := obj_payload.obj_upvalue none (vm.stack s) next }) ∧
      (∀ u s, (u, s) ∈ ups.zip locs → s < x →
        (u, s) ∈ ups'.zip locs' ∧ vm'.heap u = vm.heap u) ∧
      vm'.stack = vm.stack := by
  have hnodup := is_upvalue_list_nodup _ _ hopen.linked
  have hlen := open_locations_length _ _ hopen.located
  obtain ⟨vm', k, hrun, hk, hframe, hl', hloc', hpre, hfirst, hclosed, hother⟩ :=
    close_upvalues_ok x ups locs vm fuel hopen.linked hopen.located hf
  have hbelow : ∀ s ∈ locs.drop k, s < x := by
    intro s hs
    obtain ⟨j, hj⟩ := List.mem_iff_getElem?.1 hs
    rw [List.getElem?_drop] at hj
    exact below_of_sorted_drop hsorted hfirst j hj
  refine ⟨vm', ups.drop k, locs.drop k, hrun, ⟨hl', hloc'⟩,
    hsorted.sublist (List.drop_sublist k locs), hbelow, ?_, ?_, ?_⟩
  · intro u s hmem hge
    obtain ⟨i, hi1, hi2⟩ := mem_zip_iff_index.1 hmem
    have hik : i < k := by
      by_contra hcon
      have : s ∈ locs.drop k := by
        refine List.mem_iff_getElem?.2 ⟨i - k, ?_⟩
        rw [List.getElem?_drop]
        rw [show k + (i - k) = i by omega]
        exact hi2
      have := hbelow s this
      omega
    obtain ⟨w, t, o, closed, next, hw, ht, ho, hp, hw'⟩ := hclosed i hik
    rw [hi1] at hw
    rw [hi2] at ht
    have e1 : u = w := Option.some.inj hw
    have e2 : s = t := Option.some.inj ht
    subst e1
    subst e2
    exact ⟨o, closed, next, ho, hp, hw'⟩
  · intro u s hmem hlt
    obtain ⟨i, hi1, hi2⟩ := mem_zip_iff_index.1 hmem
    have hik : k ≤ i := by
      by_contra hcon
      have : s ∈ locs.take k := by
        refine List.mem_iff_getElem?.2 ⟨i, ?_⟩
        rw [List.getElem?_take_of_lt (by omega)]
        exact hi2
      have := hpre s this
      omega
    refine ⟨mem_zip_iff_index.2 ⟨i - k, ?_, ?_⟩, hother u ?_⟩
    · rw [List.getElem?_drop, show k + (i - k) = i by omega]
      exact hi1
    · rw [List.getElem?_drop, show k + (i - k) = i by omega]
      exact hi2
    · intro hmem'
      obtain ⟨j, hj⟩ := List.mem_iff_getElem?.1 hmem'
      have hjk : j < k := by
        have := (List.getElem?_eq_some_iff.1 hj).1
        rw [List.length_take] at this
        omega
      rw [List.getElem?_take_of_lt hjk] at hj
      have hi := (List.getElem?_eq_some_iff.1 hi1)
      have hj' := (List.getElem?_eq_some_iff.1 hj)
      have := (@List.Nodup.getElem_inj_iff _ _ hnodup _ hi.1 _ hj'.1).1
        (by rw [hi.2, hj'.2])
      omega
  · rw [hframe]


/-- The case `OP_CALL` of `run`. -/
theorem run_step_call (sz : sizeofs) (fp : fpu) (fuel : Nat)
    (native : Nat → Nat → List value → value) (fresh : (Nat → Option obj) → Nat)
    (vm0 vm : VM) (frame : Nat)
    (h : READ_BYTE { vm0 with stdout := vm0.stdout ++ [out_item.trace] } frame
      = some (vm, OP_CALL)) :
    run_step sz fp fuel native fresh vm0 frame =
      (READ_BYTE vm frame).bind fun r =>
        (peek r.1 r.2).bind fun callee =>
          (call_value sz fuel native r.1 callee r.2 (fresh r.1.heap)).bind fun c =>
            if c.2 = true then
              if c.1.frame_count = 0 then none
              else some (step_result.next c.1 (c.1.frame_count - 1))
            else some (step_result.done c.1 interpret_result.INTERPRET_RUNTIME_ERROR) := by
  unfold run_step
  simp +decide only [h, Option.bind_eq_bind, Option.some_bind, OP_CALL, OP_CONSTANT, OP_NIL,
    OP_TRUE, OP_FALSE, OP_NEGATE, OP_ADD, OP_SUBTRACT, OP_MULTIPLY, OP_DIVIDE, OP_NOT, OP_EQUAL,
    OP_GREATER, OP_LESS, OP_POP, OP_DEFINE_GLOBAL, OP_GET_GLOBAL, OP_SET_GLOBAL, OP_GET_LOCAL,
    OP_SET_LOCAL, OP_JUMP_IF_FALSE, OP_JUMP, OP_LOOP, OP_PRINT, if_false, if_true]

theorem closure_func_is_closure {vm : VM} {closure func arity : Nat} {name : Option Nat}
    (h : closure_func vm closure = some (func, arity, name)) :
    ∃ (o : obj) (ups : List (Option Nat)), vm.heap closure = some o ∧
      o.payload = obj_payload.obj_closure (some func) ups := by
  unfold closure_func at h
  cases ho : vm.heap closure with
  | none => simp [ho] at h
  | some o =>
    rcases o with ⟨mk, nx, pl⟩
    cases pl <;> simp [ho] at h
    rename_i f ups
    cases f with
    | none => simp at h
    | some f =>
      simp only at h
      cases hf : vm.heap f with
      | none => simp [hf] at h
      | some fo =>
        rcases fo with ⟨mk2, nx2, pl2⟩
        cases pl2 <;> simp [hf] at h
        obtain ⟨h1, _, _⟩ := h
        subst h1
        exact ⟨_, ups, rfl, rfl⟩

/-- C19: a call of a closure whose arity matches `argc`.  While fewer than
`FRAMES_MAX` = 64 frames are active, `call` succeeds and pushes the frame
(closure, `ip` at the start of the code, `slots = stack_top - argc`); when 64
frames are active, `call` reports a runtime error and returns false, the frame
array, the stack and the heap are left as they were (the state change is that
of `reset_stack`), and the `OP_CALL` that made the call ends `run` with
`INTERPRET_RUNTIME_ERROR`. -/
theorem call_checks_frame_limit (vm : VM) (closure argc func : Nat) (name : Option Nat)
    (hf : closure_func vm closure = some (func, argc, name)) (hargs : argc ≤ vm.stack_top) :
    FRAMES_MAX = 64 ∧
    (vm.frame_count < FRAMES_MAX →
      call vm closure argc =
        some ({ vm with
                frames := Function.update vm.frames vm.frame_count
                  { closure := closure, ip := 0, slots := vm.stack_top - argc },
                frame_count := vm.frame_count + 1 }, true)) ∧
    (vm.frame_count = FRAMES_MAX →
      call vm closure argc = some (runtime_error vm, false) ∧
      (runtime_error vm).frames = vm.frames ∧ (runtime_error vm).frame_count = 0 ∧
      (runtime_error vm).stack = vm.stack ∧ (runtime_error vm).heap = vm.heap ∧
      ∀ (sz : sizeofs) (fp : fpu) (fuel steps : Nat) (native : Nat → Nat → List value → value)
        (fresh : (Nat → Option obj) → Nat) (vm0 vm1 : VM) (frame : Nat),
        READ_BYTE { vm0 with stdout := vm0.stdout ++ [out_item.trace] } frame
          = some (vm1, OP_CALL) →
        READ_BYTE vm1 frame = some (vm, argc) → peek vm argc = some (value.obj closure) →
        run_step sz fp fuel native fresh vm0 frame
          = some (step_result.done (runtime_error vm) interpret_result.INTERPRET_RUNTIME_ERROR) ∧
        run_loop sz fp fuel native fresh (steps + 1) vm0 frame
          = some (runtime_error vm, interpret_result.INTERPRET_RUNTIME_ERROR)) := by
  have hlt : vm.frame_count < FRAMES_MAX → call vm closure argc =
        some ({ vm with
                frames := Function.update vm.frames vm.frame_count
                  { closure := closure, ip := 0, slots := vm.stack_top - argc },
                frame_count := vm.frame_count + 1 }, true) := by
    intro h
    unfold call
    simp only [hf, ne_eq, not_true_eq_false, if_false]
    rw [if_neg (Nat.ne_of_lt h), if_neg (by omega)]
  have heq : vm.frame_count = FRAMES_MAX →
      call vm closure argc = some (runtime_error vm, false) := by
    intro h
    unfold call
    simp only [hf, ne_eq, not_true_eq_false, if_false]
    rw [if_pos h]
  refine ⟨rfl, hlt, fun h => ⟨heq h, rfl, rfl, rfl, rfl, ?_⟩⟩
  intro sz fp fuel steps native fresh vm0 vm1 frame h1 h2 h3
  obtain ⟨o, ups, ho, hp⟩ := closure_func_is_closure hf
  have hcv : call_value sz fuel native vm (value.obj closure) argc (fresh vm.heap)
      = some (runtime_error vm, false) := by
    unfold call_value
    simp only [ho, hp]
    exact heq h
  have hstep : run_step sz fp fuel native fresh vm0 frame
      = some (step_result.done (runtime_error vm) interpret_result.INTERPRET_RUNTIME_ERROR) := by
    rw [run_step_call sz fp fuel native fresh vm0 vm1 frame h1, h2]
    simp only [Option.some_bind, h3, hcv]
    rfl
  refine ⟨hstep, ?_⟩
  unfold run_loop
  simp only [hstep]


/-- The case `OP_RETURN` of `run`. -/
theorem run_step_return (sz : sizeofs) (fp : fpu) (fuel : Nat)
    (native : Nat → Nat → List value → value) (fresh : (Nat → Option obj) → Nat)
    (vm0 vm : VM) (frame : Nat)
    (h : READ_BYTE { vm0 with stdout := vm0.stdout ++ [out_item.trace] } frame
      = some (vm, OP_RETURN)) :
    run_step sz fp fuel native fresh vm0 frame =
      (pop vm).bind fun r =>
        (close_upvalues fuel r.1 (r.1.frames frame).slots).bind fun vm2 =>
          if vm2.frame_count = 0 then none
          else if vm2.frame_count - 1 = 0 then
            (pop { vm2 with frame_count := vm2.frame_count - 1 }).bind fun r4 =>
              some (step_result.done r4.1 interpret_result.INTERPRET_OK)
          else if (vm2.frames frame).slots = 0 then none
          else
            (push { vm2 with frame_count := vm2.frame_count - 1,
                             stack_top := (vm2.frames frame).slots - 1 } r.2).bind fun vm4 =>
              some (step_result.next vm4 (vm4.frame_count - 1)) := by
  unfold run_step
  simp +decide only [h, Option.bind_eq_bind, Option.some_bind, OP_RETURN, OP_CALL, OP_CONSTANT,
    OP_NIL, OP_TRUE, OP_FALSE, OP_NEGATE, OP_ADD, OP_SUBTRACT, OP_MULTIPLY, OP_DIVIDE, OP_NOT,
    OP_EQUAL, OP_GREATER, OP_LESS, OP_POP, OP_DEFINE_GLOBAL, OP_GET_GLOBAL, OP_SET_GLOBAL,
    OP_GET_LOCAL, OP_SET_LOCAL, OP_JUMP_IF_FALSE, OP_JUMP, OP_LOOP, OP_PRINT, OP_CLOSURE,
    OP_GET_UPVALUE, OP_SET_UPVALUE, OP_CLOSE_UPVALUE, OP_CLASS, OP_GET_PROPERTY,
    OP_SET_PROPERTY, OP_METHOD, if_false, if_true]

/-- What `READ_BYTE` changes: the `ip` of the frame. -/
theorem READ_BYTE_frame {vm vm' : VM} {frame byte : Nat}
    (h : READ_BYTE vm frame = some (vm', byte)) :
    vm' = set_ip vm frame ((vm.frames frame).ip + 1) := by
  unfold READ_BYTE at h
  cases hc : frame_chunk vm frame with
  | none => simp [hc] at h
  | some chk =>
    simp only [hc] at h
    cases hb : chk.code[(vm.frames frame).ip]? with
    | none => simp [hb] at h
    | some b =>
      simp only [hb] at h
      exact (congrArg Prod.fst (Option.some.inj h)).symm


theorem call_true_slots {vm vm' : VM} {closure argc : Nat}
    (h : call vm closure argc = some (vm', true)) :
    (vm'.frames vm.frame_count).slots = vm.stack_top - argc ∧ argc ≤ vm.stack_top := by
  unfold call at h
  cases hc : closure_func vm closure with
  | none => simp [hc] at h
  | some r =>
    obtain ⟨func, arity, name⟩ := r
    simp only [hc] at h
    by_cases h1 : argc ≠ arity
    · rw [if_pos h1] at h
      cases name <;> simp at h
    · rw [if_neg h1] at h
      by_cases h2 : vm.frame_count = FRAMES_MAX
      · rw [if_pos h2] at h
        simp at h
      · rw [if_neg h2] at h
        by_cases h3 : vm.stack_top < argc
        · rw [if_pos h3] at h
          simp at h
        · rw [if_neg h3] at h
          simp only [Option.some.injEq, Prod.mk.injEq, and_true] at h
          rw [← h]
          refine ⟨?_, by omega⟩
          show (Function.update vm.frames vm.frame_count _ vm.frame_count).slots = _
          rw [Function.update_same]

/-- C11: an `OP_RETURN` executed in the frame that a `call` with `argc`
arguments has pushed, when that frame is not the last one.  `vmc` is the state
in which `call` ran (the callee in the slot below the `argc` arguments),
`vm0` the state in which `OP_RETURN` runs; the frame record still holds the
`slots` that `call` stored.  The instruction succeeds, drops the frame, and
afterwards the depth of the stack is the depth at the call minus `argc + 1`
plus 1, the slot of the callee holds the result (the value that was on top of
the stack), and every slot below it is what it was before the instruction. -/
theorem return_replaces_callee_and_arguments (sz : sizeofs) (fp : fpu) (fuel : Nat)
    (native : Nat → Nat → List value → value) (fresh : (Nat → Option obj) → Nat)
    (vmc vmf vm0 vm : VM) (closure argc frame : Nat) (ups locs : List Nat)
    (hcall : call vmc closure argc = some (vmf, true))
    (hargs : argc + 1 ≤ vmc.stack_top) (hmax : vmc.stack_top ≤ STACK_MAX)
    (hframe : frame = vmc.frame_count) (hnotlast : 0 < frame)
    (hcount : vm0.frame_count = frame + 1)
    (hslots : (vm0.frames frame).slots = (vmf.frames frame).slots)
    (hread : READ_BYTE { vm0 with stdout := vm0.stdout ++ [out_item.trace] } frame
      = some (vm, OP_RETURN))
    (hres : 0 < vm0.stack_top) (hopen : open_list vm0 ups locs) (hf : ups.length < fuel) :
    ∃ vm' : VM, run_step sz fp fuel native fresh vm0 frame
        = some (step_result.next vm' (frame - 1)) ∧
      vm'.frame_count = frame ∧
      vm'.stack_top = vmc.stack_top - (argc + 1) + 1 ∧
      vm'.stack (vmc.stack_top - (argc + 1)) = vm0.stack (vm0.stack_top - 1) ∧
      ∀ i, i < vmc.stack_top - (argc + 1) → vm'.stack i = vm0.stack i := by
  obtain ⟨hs, _⟩ := call_true_slots hcall
  rw [← hframe] at hs
  have hvm := READ_BYTE_frame hread
  have hslot0 : (vm.frames frame).slots = vmc.stack_top - argc := by
    rw [hvm, ← hs, ← hslots]
    show (Function.update vm0.frames frame _ frame).slots = _
    rw [Function.update_same]
  have htop : vm.stack_top = vm0.stack_top := by rw [hvm]; rfl
  have hstack : vm.stack = vm0.stack := by rw [hvm]; rfl
  have hpop : pop vm = some ({ vm with stack_top := vm.stack_top - 1 },
      vm.stack (vm.stack_top - 1)) := by
    unfold pop
    rw [if_pos (by omega)]
  have hopen1 : is_upvalue_list ({ vm with stack_top := vm.stack_top - 1 } : VM).heap
      ({ vm with stack_top := vm.stack_top - 1 } : VM).open_upvalues ups := by
    have := hopen.linked
    rw [hvm]
    exact this
  have hloc1 : open_locations ({ vm with stack_top := vm.stack_top - 1 } : VM).heap ups
      = some locs := by
    have := hopen.located
    rw [hvm]
    exact this
  obtain ⟨vm2, k, hrun, _, hfr, _⟩ :=
    close_upvalues_ok (vmc.stack_top - argc) ups locs _ fuel hopen1 hloc1 hf
  have hfc : vm2.frame_count = frame + 1 := by
    rw [hfr, hvm]
    exact hcount
  have hsl2 : (vm2.frames frame).slots = vmc.stack_top - argc := by
    rw [hfr]
    exact hslot0
  have hst2 : vm2.stack = vm0.stack := by
    rw [hfr]
    exact hstack
  rw [run_step_return sz fp fuel native fresh vm0 vm frame hread, hpop]
  simp only [Option.some_bind, hslot0, hrun]
  rw [if_neg (by omega), if_neg (by omega), hsl2, if_neg (by omega)]
  unfold push
  rw [if_pos (by show vmc.stack_top - argc - 1 < STACK_MAX; omega)]
  simp only [Option.some_bind]
  rw [show vm2.frame_count - 1 - 1 = frame - 1 by omega]
  refine ⟨_, rfl, ?_, ?_, ?_, ?_⟩
  · show vm2.frame_count - 1 = frame
    omega
  · show vmc.stack_top - argc - 1 + 1 = _
    omega
  · show Function.update vm2.stack (vmc.stack_top - argc - 1) _ _ = _
    rw [show vmc.stack_top - (argc + 1) = vmc.stack_top - argc - 1 by omega,
      Function.update_same, hstack, htop]
  · intro i hi
    show Function.update vm2.stack (vmc.stack_top - argc - 1) _ i = _
    rw [Function.update_noteq (by omega), hst2]



theorem vm_up_open : open_list vm_up [1, 2] [3, 1] :=
  ⟨⟨rfl, some 2, rfl, rfl, none, rfl, rfl⟩, rfl⟩

/-- C13 at a concrete state: of the open upvalues at slots 3 and 1,
`close_upvalues (2)` closes the first over the value of slot 3 and keeps the
second. -/
theorem close_upvalues_closes_from_witness :
    (open_list vm_up [1, 2] [3, 1] ∧ [3, 1].Pairwise (fun a b => a > b) ∧
      [1, 2].length < 10) ∧
    ∃ (vm' : VM) (ups' locs' : List Nat), close_upvalues 10 vm_up 2 = some vm' ∧
      open_list vm' ups' locs' ∧ locs'.Pairwise (fun a b => a > b) ∧ (∀ s ∈ locs', s < 2) ∧
      (∀ u s, (u, s) ∈ [1, 2].zip [3, 1] → 2 ≤ s →
        ∃ (o : obj) (closed : value) (next : Option Nat), vm_up.heap u = some o ∧
          o.payload = obj_payload.obj_upvalue (some s) closed next ∧
          vm'.heap u = some { o with payload := obj_payload.obj_upvalue none (vm_up.stack s) next }) ∧
      (∀ u s, (u, s) ∈ [1, 2].zip [3, 1] → s < 2 →
        (u, s) ∈ ups'.zip locs' ∧ vm'.heap u = vm_up.heap u) ∧
      vm'.stack = vm_up.stack :=
  ⟨⟨vm_up_open, by decide, by decide⟩,
   close_upvalues_closes_from vm_up [1, 2] [3, 1] 10 2 vm_up_open (by decide) (by decide)⟩

/-- C19 at concrete states: the call `f(7)` pushes the first frame; with 64
frames active the same call is refused. -/
theorem call_checks_frame_limit_witness :
    (closure_func vm_call 3 = some (2, 1, some 1) ∧ 1 ≤ vm_call.stack_top ∧
      closure_func vm_frames_full 3 = some (2, 1, some 1) ∧ 1 ≤ vm_frames_full.stack_top) ∧
    (call vm_call 3 1).map (fun r => (r.1.frame_count, (r.1.frames 0).slots, r.2))
      = some (1, 1, true) ∧
    call vm_frames_full 3 1 = some (runtime_error vm_frames_full, false) :=
  ⟨⟨rfl, by decide, rfl, by decide⟩,
   by rw [(call_checks_frame_limit vm_call 3 1 2 (some 1) rfl (by decide)).2.1 (by decide)]; rfl,
   ((call_checks_frame_limit vm_frames_full 3 1 2 (some 1) rfl (by decide)).2.2 rfl).1⟩

theorem vm_ret_open : open_list vm_ret [] [] :=
  ⟨rfl, rfl⟩

/-- C11 at a concrete state: `f(7)` called with three values on the stack
returns nil; afterwards two values are on the stack, the result in the slot
of the callee. -/
theorem return_replaces_callee_and_arguments_witness :
    (call vm_ret_call 3 1 = some (vm_ret_frame, true) ∧ 1 + 1 ≤ vm_ret_call.stack_top ∧
      vm_ret_call.stack_top ≤ STACK_MAX ∧ 1 = vm_ret_call.frame_count ∧
      vm_ret.frame_count = 1 + 1 ∧ (vm_ret.frames 1).slots = (vm_ret_frame.frames 1).slots ∧
      READ_BYTE { vm_ret with stdout := vm_ret.stdout ++ [out_item.trace] } 1
        = some (set_ip { vm_ret with stdout := vm_ret.stdout ++ [out_item.trace] } 1 2, OP_RETURN) ∧
      0 < vm_ret.stack_top ∧ open_list vm_ret [] [] ∧ ([] : List Nat).length < 10) ∧
    ∃ vm' : VM, run_step sizes_lp64 fpu_zero 10 native_nil first_free vm_ret 1
        = some (step_result.next vm' (1 - 1)) ∧
      vm'.frame_count = 1 ∧
      vm'.stack_top = vm_ret_call.stack_top - (1 + 1) + 1 ∧
      vm'.stack (vm_ret_call.stack_top - (1 + 1)) = vm_ret.stack (vm_ret.stack_top - 1) ∧
      ∀ i, i < vm_ret_call.stack_top - (1 + 1) → vm'.stack i = vm_ret.stack i :=
  ⟨⟨rfl, by decide, by decide, rfl, rfl, rfl, rfl, by decide, vm_ret_open, by decide⟩,
   return_replaces_callee_and_arguments sizes_lp64 fpu_zero 10 native_nil first_free
     vm_ret_call vm_ret_frame vm_ret _ 3 1 1 [] [] rfl (by decide) (by decide) rfl (by decide)
     rfl rfl rfl (by decide) vm_ret_open (by decide)⟩

/-! ### Calls of classes, globals and string concatenation -/

theorem call_value_class_eq (sz : sizeofs) (fuel : Nat) (native : Nat → Nat → List value → value)
    {vm vm1 : VM} {c argc a : Nat} {oc : obj} {name : Option Nat} {methods : table}
    (hc : vm.heap c = some oc) (hclass : oc.payload = obj_payload.obj_class name methods)
    (h1 : reallocate sz fuel vm 0 sz.obj_instance = some vm1) (h2 : vm1.heap a = none)
    (h3 : ¬ vm1.stack_top < argc + 1) :
    call_value sz fuel native vm (value.obj c) argc a =
      match read_table (with_instance vm1 c a argc) (table_loc.methods c) with
      | none => none
      | some methods =>
        match (match (with_instance vm1 c a argc).init_string with
               | some init =>
                 get_table (string_hash (with_instance vm1 c a argc).heap) fuel methods init
               | none => if methods.count = 0 then some none else none) with
        | none => none
        | some (some (value.obj initializer)) =>
          call (with_instance vm1 c a argc) initializer argc
        | some (some _) => none
        | some none =>
          if argc ≠ 0 then some (runtime_error (with_instance vm1 c a argc), false)
          else some (with_instance vm1 c a argc, true) := by
  unfold call_value
  simp only [hc, hclass, new_instance, allocate_object, h1, h2, if_neg h3]
  rfl

/-- C18: `call_value` on a class `c` with `argc` arguments, in a state that
satisfies the invariant of the collector, with the class in the slot of the
callee and `init_string` interned as `init`.  There is a state `vm2` in which
the slot of the callee holds a new instance `a` of `c` with an empty field
table, every other stack slot, `stack_top` and the frames are as before; if
the method table of the class maps `init` to the closure `initializer`, the
result is that of `call (initializer, argc)` in `vm2` (where the closure and
its function are the objects they were); if the table has no entry for `init`,
the call returns true in `vm2`, with no frame pushed, when `argc = 0`, and is a
runtime error when `argc != 0`. -/
theorem call_value_class_makes_instance (sz : sizeofs) (fuel : Nat)
    (native : Nat → Nat → List value → value) (vm : VM) (l ups : List Nat) (n c argc a init : Nat)
    (oc : obj) (name : Option Nat) (methods : table)
    (hinv : intern_inv vm l ups n) (hfuel : 2 ^ 32 ≤ fuel) (hf : l.length + ups.length < fuel)
    (hc : vm.heap c = some oc) (hclass : oc.payload = obj_payload.obj_class name methods)
    (hwf : table_wf (string_hash vm.heap) methods)
    (hargs : argc + 1 ≤ vm.stack_top)
    (hcallee : vm.stack (vm.stack_top - argc - 1) = value.obj c)
    (hinit : vm.init_string = some init) (ha : vm.heap a = none) :
    ∃ vm2 : VM,
      (∃ next, vm2.heap a = some (instance_obj next c)) ∧
      vm2.stack (vm.stack_top - argc - 1) = value.obj a ∧
      (∀ i, i ≠ vm.stack_top - argc - 1 → vm2.stack i = vm.stack i) ∧
      vm2.stack_top = vm.stack_top ∧ vm2.frame_count = vm.frame_count ∧
      vm2.frames = vm.frames ∧
      (∀ initializer : Nat,
        ({ key := some init, val := value.obj initializer } : table_entry) ∈ methods.entries →
        call_value sz fuel native vm (value.obj c) argc a = call vm2 initializer argc ∧
        closure_func vm2 initializer = closure_func vm initializer) ∧
      ((∀ v, ({ key := some init, val := v } : table_entry) ∉ methods.entries) →
        (argc = 0 → call_value sz fuel native vm (value.obj c) argc a = some (vm2, true)) ∧
        (argc ≠ 0 →
          call_value sz fuel native vm (value.obj c) argc a = some (runtime_error vm2, false))) := by
  obtain ⟨vm1, l1, hr, hinv1, _, hs⟩ := intern_reallocate sz hinv hfuel hf 0 sz.obj_instance
  have ha1 : vm1.heap a = none := hs.fresh a ha
  have hfields := hs.fields
  have htop : vm1.stack_top = vm.stack_top := (congrArg VM.stack_top hfields).trans rfl
  have hstack : vm1.stack = vm.stack := (congrArg VM.stack hfields).trans rfl
  have hfc : vm1.frame_count = vm.frame_count := (congrArg VM.frame_count hfields).trans rfl
  have hfr : vm1.frames = vm.frames := (congrArg VM.frames hfields).trans rfl
  have hini : vm1.init_string = vm.init_string := (congrArg VM.init_string hfields).trans rfl
  have hcroot : reachable vm ups c :=
    reachable_root (stack_root ups (by omega : vm.stack_top - argc - 1 < vm.stack_top) hcallee)
  let ob : obj := instance_obj vm1.objects c
  obtain ⟨o, o', ho, ho', hp⟩ := @heap_after_alloc vm vm1 l1 ups n a c ob hs hinv1 ha hcroot
  rw [hc] at ho
  cases ho
  have hkeys : ∀ (e : table_entry) (k : Nat), e ∈ methods.entries → e.key = some k →
      reachable vm ups k := by
    intro e k he hk
    refine reachable_edge hcroot hc ?_
    rw [hclass]
    simp only [obj_edges, List.mem_cons]
    right
    rw [← hk]
    exact table_ptrs_key hwf he
  have hwf2 : table_wf (string_hash (Function.update vm1.heap a (some ob))) methods :=
    table_wf_after_alloc hs hinv1 ha hkeys hwf
  have hget := @get_table_lookup _ methods fuel init hwf2 hfuel
  have hrun : call_value sz fuel native vm (value.obj c) argc a =
      match table_lookup methods init with
      | some (value.obj initializer) => call (with_instance vm1 c a argc) initializer argc
      | some _ => none
      | none =>
        if argc ≠ 0 then some (runtime_error (with_instance vm1 c a argc), false)
        else some (with_instance vm1 c a argc, true) := by
    rw [call_value_class_eq sz fuel native hc hclass hr ha1 (by omega)]
    have hread : read_table (with_instance vm1 c a argc) (table_loc.methods c) = some methods := by
      show (match Function.update vm1.heap a (some ob) c with
        | some o =>
          match o.payload with
          | obj_payload.obj_class _ methods => some methods
          | _ => none
        | none => none) = _
      rw [ho']
      simp only [hp, hclass]
    have hi2 : (with_instance vm1 c a argc).init_string = some init := by
      rw [← hinit, ← hini]
      rfl
    have hg2 : get_table (string_hash (with_instance vm1 c a argc).heap) fuel methods init
        = some (table_lookup methods init) := hget
    simp only [hread, hi2, hg2]
    cases table_lookup methods init with
    | none => rfl
    | some v => cases v <;> rfl
  refine ⟨with_instance vm1 c a argc, ⟨vm1.objects, ?_⟩, ?_, ?_, htop, hfc, hfr, ?_, ?_⟩
  · show Function.update vm1.heap a (some ob) a = _
    rw [Function.update_same]
  · show Function.update vm1.stack (vm1.stack_top - argc - 1) (value.obj a) _ = _
    rw [htop, Function.update_same]
  · intro i hi
    show Function.update vm1.stack (vm1.stack_top - argc - 1) (value.obj a) i = _
    rw [htop, Function.update_noteq hi, hstack]
  · intro initializer hmem
    have hl := (table_lookup_some hwf init (value.obj initializer)).2 hmem
    refine ⟨by rw [hrun, hl], ?_⟩
    refine @closure_func_after_alloc vm vm1 _ l1 ups n a initializer ob hs hinv1 ha rfl ?_
    refine reachable_edge hcroot hc ?_
    rw [hclass]
    simp only [obj_edges, List.mem_cons]
    right
    exact table_ptrs_val hwf hmem
  · intro hno
    have hl := (table_lookup_none hwf init).2 hno
    rw [hrun, hl]
    refine ⟨fun h0 => ?_, fun h0 => ?_⟩
    · simp only [h0, ne_eq, not_true_eq_false, if_false]
    · simp only [h0, ne_eq, not_false_eq_true, if_true]



/-- C17: the case `OP_ADD` of `run` with at least two values on the stack.
If both operands are strings, `sa` below with the bytes `da` and `sb` on top
with the bytes `db`, in a state that satisfies the intern invariant and has
room for one more stack slot, the instruction pops both and pushes a string
object `r`: `r` is interned with the bytes `da ++ db` (of length
`da.length + db.length`), it is the only interned string with these bytes, it
is the object that was interned with these bytes before if there was a
reachable one, and the invariant holds again.  If the operands are neither
two numbers nor two strings, the instruction is a runtime error. -/
theorem add_concatenates_strings (sz : sizeofs) (fp : fpu) (fuel : Nat)
    (native : Nat → Nat → List value → value) (fresh : (Nat → Option obj) → Nat)
    (vm0 vm : VM) (frame : Nat)
    (hread : READ_BYTE { vm0 with stdout := vm0.stdout ++ [out_item.trace] } frame
      = some (vm, OP_ADD))
    (htop : 2 ≤ vm.stack_top) :
    (∀ (l ups : List Nat) (n sa sb : Nat) (da db : List Nat),
      intern_inv vm l ups n → n < 2 ^ 30 → 2 ^ 32 ≤ fuel → l.length + 1 + ups.length < fuel →
      vm.heap (fresh vm.heap) = none → vm.stack_top < STACK_MAX →
      vm.stack (vm.stack_top - 1) = value.obj sb → vm.stack (vm.stack_top - 2) = value.obj sa →
      string_data vm.heap sa = some da → string_data vm.heap sb = some db →
      ∃ (vm' : VM) (l' : List Nat) (r : Nat),
        run_step sz fp fuel native fresh vm0 frame = some (step_result.next vm' frame) ∧
        intern_inv vm' l' ups (n + 1) ∧
        vm'.stack_top = vm.stack_top - 1 ∧ vm'.stack (vm.stack_top - 2) = value.obj r ∧
        (∀ i, i < vm.stack_top - 2 → vm'.stack i = vm.stack i) ∧
        interned vm' r (da ++ db) ∧ (da ++ db).length = da.length + db.length ∧
        (∀ k, interned vm' k (da ++ db) → k = r) ∧
        (∀ s, interned vm s (da ++ db) → reachable vm ups s → r = s)) ∧
    ((¬ ∃ x y, vm.stack (vm.stack_top - 1) = value.number x ∧
          vm.stack (vm.stack_top - 2) = value.number y) →
      (¬ ∃ sa sb, vm.stack (vm.stack_top - 1) = value.obj sb ∧
          vm.stack (vm.stack_top - 2) = value.obj sa ∧
          string_data vm.heap sa ≠ none ∧ string_data vm.heap sb ≠ none) →
      run_step sz fp fuel native fresh vm0 frame
        = some (step_result.done (runtime_error vm) interpret_result.INTERPRET_RUNTIME_ERROR)) := by
  have hp0 : peek vm 0 = some (vm.stack (vm.stack_top - 1)) := peek_eq (by omega)
  have hp1 : peek vm 1 = some (vm.stack (vm.stack_top - 2)) := by
    rw [peek_eq (by omega : 1 < vm.stack_top)]
    rfl
  have hstep := run_step_add sz fp fuel native fresh vm0 vm frame _ _ hread hp0 hp1
  refine ⟨?_, ?_⟩
  · intro l ups n sa sb da db hinv hn hfuel hf ha hmax hb hsa hda hdb
    obtain ⟨vm', l', r, hrun, hinv', htop', hres, hbelow, _, _, hint, hsame, _, _⟩ :=
      concatenate_ok sz hinv hn hfuel hf ha htop hmax hb hsa hda hdb
    refine ⟨vm', l', r, ?_, hinv', htop', hres, hbelow, hint, List.length_append _ _,
      fun k hk => hinv'.unique k r _ hk hint, hsame⟩
    rw [hstep, hb, hsa]
    simp only [hda, hdb, hrun, Option.some_bind]
  · intro hnum hstr
    rw [hstep]
    cases hvb : vm.stack (vm.stack_top - 1) with
    | number x =>
      cases hva : vm.stack (vm.stack_top - 2) with
      | number y => exact absurd ⟨x, y, hvb, hva⟩ hnum
      | _ => rfl
    | obj sb =>
      cases hva : vm.stack (vm.stack_top - 2) with
      | obj sa =>
        simp only
        cases hda : string_data vm.heap sa with
        | none => cases string_data vm.heap sb <;> rfl
        | some da =>
          cases hdb : string_data vm.heap sb with
          | none => rfl
          | some db =>
            exact absurd ⟨sa, sb, hvb, hva, by rw [hda]; simp, by rw [hdb]; simp⟩ hstr
      | _ => rfl
    | _ => rfl



/-- C15: the case `OP_SET_GLOBAL` of `run` on the global `name`, with the value
to assign on top of the stack, in a state `vm1` that satisfies the invariant
of the collector and whose globals are a well-formed table.  If the globals
have no entry for `name`, the instruction ends `run` with
`INTERPRET_RUNTIME_ERROR`, and in the state it leaves `get_table` on the
globals still fails for `name` while every other global is what it was.  If
the globals have an entry for `name`, the instruction succeeds, `get_table`
then yields the assigned value for `name`, every other global is what it was,
and the stack (with the assigned value on top) is unchanged. -/
theorem set_global_requires_definition (sz : sizeofs) (fp : fpu) (fuel : Nat)
    (native : Nat → Nat → List value → value) (fresh : (Nat → Option obj) → Nat)
    (vm0 vm vm1 : VM) (frame name : Nat) (l ups : List Nat) (n : Nat)
    (hread : READ_BYTE { vm0 with stdout := vm0.stdout ++ [out_item.trace] } frame
      = some (vm, OP_SET_GLOBAL))
    (hname : READ_STRING vm frame = some (vm1, name))
    (hinv : intern_inv vm1 l ups n) (hfuel : 2 ^ 32 ≤ fuel) (hf : l.length + ups.length < fuel)
    (hwf : table_wf (string_hash vm1.heap) vm1.globals) (hcap : vm1.globals.capacity ≤ 2 ^ 31)
    (htop : 0 < vm1.stack_top) :
    ((∀ w : value, ({ key := some name, val := w } : table_entry) ∉ vm1.globals.entries) →
      ∃ vm' : VM,
        run_step sz fp fuel native fresh vm0 frame
          = some (step_result.done vm' interpret_result.INTERPRET_RUNTIME_ERROR) ∧
        (∀ steps, run_loop sz fp fuel native fresh (steps + 1) vm0 frame
          = some (vm', interpret_result.INTERPRET_RUNTIME_ERROR)) ∧
        table_wf (string_hash vm'.heap) vm'.globals ∧
        get_table (string_hash vm'.heap) fuel vm'.globals name = some none ∧
        (∀ (k : Nat) (w : value), k ≠ name →
          (({ key := some k, val := w } : table_entry) ∈ vm'.globals.entries ↔
            ({ key := some k, val := w } : table_entry) ∈ vm1.globals.entries))) ∧
    ((∃ w : value, ({ key := some name, val := w } : table_entry) ∈ vm1.globals.entries) →
      ∃ vm' : VM,
        run_step sz fp fuel native fresh vm0 frame = some (step_result.next vm' frame) ∧
        table_wf (string_hash vm'.heap) vm'.globals ∧
        get_table (string_hash vm'.heap) fuel vm'.globals name
          = some (some (vm1.stack (vm1.stack_top - 1))) ∧
        (∀ (k : Nat) (w : value), k ≠ name →
          (({ key := some k, val := w } : table_entry) ∈ vm'.globals.entries ↔
            ({ key := some k, val := w } : table_entry) ∈ vm1.globals.entries)) ∧
        vm'.stack = vm1.stack ∧ vm'.stack_top = vm1.stack_top) := by
  have hpeek : peek vm1 0 = some (vm1.stack (vm1.stack_top - 1)) := peek_eq htop
  obtain ⟨vm2, l2, tab3, b, hset, hs, _, hwf3, hflag, hmem3⟩ :=
    vm_set_table_globals_ok sz name (vm1.stack (vm1.stack_top - 1)) hinv hfuel hf hwf hcap
  have hstep := run_step_set_global sz fp fuel native fresh vm0 vm frame hread
  rw [hname] at hstep
  simp only [Option.some_bind, hpeek, hset] at hstep
  refine ⟨?_, ?_⟩
  · intro hundef
    have hb : b = true := hflag.2 hundef
    obtain ⟨tab4, b4, hdel, hwf4, hrep4, _, _⟩ :=
      delete_table_spec (string_hash vm2.heap) name hwf3 (table_repr_lookup hwf3) hfuel
    have hdel' : delete_table (string_hash ({ vm2 with globals := tab3 } : VM).heap) fuel
        ({ vm2 with globals := tab3 } : VM).globals name = some (tab4, b4) := hdel
    rw [if_pos hb, hdel'] at hstep
    simp only [Option.some_bind, fail] at hstep
    refine ⟨_, hstep, ?_, hwf4, ?_, ?_⟩
    · intro steps
      unfold run_loop
      simp only [hstep]
    · have := get_table_spec (string_hash vm2.heap) name hwf4 hrep4 hfuel
      rw [show map_step (table_lookup tab3) (table_op.delete name) name = none by
        simp [map_step]] at this
      exact this
    · intro k w hk
      have h4 := hrep4 k w
      simp only [map_step, if_neg hk] at h4
      show _ ∈ tab4.entries ↔ _
      rw [← h4, table_lookup_some hwf3, hmem3 k w]
      constructor
      · rintro (⟨h, _⟩ | ⟨_, h⟩)
        · exact absurd h hk
        · exact h
      · intro h
        exact Or.inr ⟨hk, h⟩
  · rintro ⟨w0, hdef⟩
    have hb : ¬ b = true := fun h => hflag.1 h w0 hdef
    rw [if_neg hb] at hstep
    obtain ⟨hstk, htop2⟩ := gc_step_stack hs
    refine ⟨_, hstep, hwf3, ?_, ?_, hstk, htop2⟩
    · show get_table (string_hash vm2.heap) fuel tab3 name = _
      rw [get_table_lookup name hwf3 hfuel]
      exact congrArg some ((table_lookup_some hwf3 name _).2 ((hmem3 name _).2 (Or.inl ⟨rfl, rfl⟩)))
    · intro k w hk
      show _ ∈ tab3.entries ↔ _
      rw [hmem3 k w]
      constructor
      · rintro (⟨h, _⟩ | ⟨_, h⟩)
        · exact absurd h hk
        · exact h
      · intro h
        exact Or.inr ⟨hk, h⟩

/-! ### The example state with strings, globals and classes -/

theorem heap_w_cases {a : Nat} {o : obj} (h : heap_w a = some o) :
    a = 1 ∨ a = 2 ∨ a = 3 ∨ a = 4 ∨ a = 5 ∨ a = 6 ∨ a = 7 := by
  unfold heap_w at h
  by_cases h1 : a = 1
  · exact Or.inl h1
  by_cases h2 : a = 2
  · exact Or.inr (Or.inl h2)
  by_cases h3 : a = 3
  · exact Or.inr (Or.inr (Or.inl h3))
  by_cases h4 : a = 4
  · exact Or.inr (Or.inr (Or.inr (Or.inl h4)))
  by_cases h5 : a = 5
  · exact Or.inr (Or.inr (Or.inr (Or.inr (Or.inl h5))))
  by_cases h6 : a = 6
  · exact Or.inr (Or.inr (Or.inr (Or.inr (Or.inr (Or.inl h6)))))
  by_cases h7 : a = 7
  · exact Or.inr (Or.inr (Or.inr (Or.inr (Or.inr (Or.inr h7)))))
  simp [h1, h2, h3, h4, h5, h6, h7] at h

/-- A table built by `set_table` calls on keys among the three strings is
well-formed under the hashes of `heap_w`, and its keys are keys of the calls. -/
theorem table_w_ok (ops : List table_op) (hlen : ops.length ≤ 2 ^ 30)
    (hkeys : ∀ op ∈ ops, op.key = 1 ∨ op.key = 2 ∨ op.key = 3) :
    ∃ tab : table, run_table_ops hash_w (2 ^ 32) init_table ops = some tab ∧
      table_wf (string_hash heap_w) tab ∧ table_repr tab (ops.foldl map_step (fun _ => none)) := by
  obtain ⟨tab, hrun, hwf, hrep⟩ := run_table_ops_spec hash_w (Nat.le_refl (2 ^ 32))
    ops init_table (fun _ => none) 0 (table_wf_init _) table_repr_init (by omega) (by decide)
    (by decide)
  refine ⟨tab, hrun, table_wf_congr ?_ hwf, hrep⟩
  intro e k he hk
  rw [entry_eta hk] at he
  have hm := (hrep k e.val).2 he
  have hkey : ∀ (ops : List table_op) (m : Nat → Option value),
      (∀ op ∈ ops, op.key = 1 ∨ op.key = 2 ∨ op.key = 3) →
      (∀ k v, m k = some v → k = 1 ∨ k = 2 ∨ k = 3) →
      ∀ k v, ops.foldl map_step m k = some v → k = 1 ∨ k = 2 ∨ k = 3 := by
    intro ops
    induction ops with
    | nil => intro m _ hm k v h; exact hm k v h
    | cons op ops ih =>
      intro m hops hm k v h
      refine ih (map_step m op) (fun o ho => hops o (List.mem_cons_of_mem _ ho)) ?_ k v h
      intro k' v' h'
      have hop := hops op (List.mem_cons_self _ _)
      cases op with
      | set k0 v0 =>
        simp only [map_step] at h'
        by_cases hk0 : k' = k0
        · rw [hk0]; exact hop
        · rw [if_neg hk0] at h'; exact hm k' v' h'
      | delete k0 =>
        simp only [map_step] at h'
        by_cases hk0 : k' = k0
        · rw [hk0]; exact hop
        · rw [if_neg hk0] at h'; exact hm k' v' h'
  rcases hkey ops _ hkeys (fun _ _ h => by cases h) k e.val hm with h | h | h <;> subst h <;> rfl


theorem strings_w_ok :
    table_wf (string_hash heap_w) strings_w ∧
    ∀ (k : Nat) (v : value), ({ key := some k, val := v } : table_entry) ∈ strings_w.entries →
      k = 1 ∨ k = 2 ∨ k = 3 := by
  obtain ⟨tab, hrun, hwf, hrep⟩ := table_w_ok
    [table_op.set 1 value.nil, table_op.set 2 value.nil, table_op.set 3 value.nil] (by decide)
    (by decide)
  have heq : strings_w = tab := by
    unfold strings_w
    rw [hrun]
    rfl
  rw [heq]
  refine ⟨hwf, ?_⟩
  intro k v hmem
  have := (hrep k v).2 hmem
  simp only [List.foldl, map_step] at this
  by_cases h3 : k = 3
  · exact Or.inr (Or.inr h3)
  by_cases h2 : k = 2
  · exact Or.inr (Or.inl h2)
  by_cases h1 : k = 1
  · exact Or.inl h1
  simp [h3, h2, h1] at this

theorem globals_w_ok :
    table_wf (string_hash heap_w) globals_w ∧
    ∀ (k : Nat) (v : value), ({ key := some k, val := v } : table_entry) ∈ globals_w.entries ↔
      (k = 1 ∧ v = value.number 1) := by
  obtain ⟨tab, hrun, hwf, hrep⟩ := table_w_ok [table_op.set 1 (value.number 1)] (by decide)
    (by decide)
  have heq : globals_w = tab := by
    unfold globals_w
    rw [hrun]
    rfl
  rw [heq]
  refine ⟨hwf, ?_⟩
  intro k v
  rw [← hrep k v]
  simp only [List.foldl, map_step]
  by_cases h1 : k = 1
  · simp [h1, eq_comm]
  · simp [h1]

theorem methods_w_ok :
    table_wf (string_hash heap_w) methods_w ∧
    ∀ (k : Nat) (v : value), ({ key := some k, val := v } : table_entry) ∈ methods_w.entries ↔
      (k = 3 ∧ v = value.obj 5) := by
  obtain ⟨tab, hrun, hwf, hrep⟩ := table_w_ok [table_op.set 3 (value.obj 5)] (by decide)
    (by decide)
  have heq : methods_w = tab := by
    unfold methods_w
    rw [hrun]
    rfl
  rw [heq]
  refine ⟨hwf, ?_⟩
  intro k v
  rw [← hrep k v]
  simp only [List.foldl, map_step]
  by_cases h1 : k = 3
  · simp [h1, eq_comm]
  · simp [h1]

theorem valid_of_check {ps : List (Option Nat)}
    (h : ps.all (fun p =>
      match p with
      | some b => (heap_w b).isSome
      | none => true) = true) (b : Nat) (hb : some b ∈ ps) : heap_w b ≠ none := by
  rw [List.all_eq_true] at h
  have := h (some b) hb
  simp only [Option.isSome_iff_ne_none] at this
  exact this

/-- A state over `heap_w` whose roots are objects of the heap satisfies the
intern invariant. -/
theorem heap_w_inv (vm : VM) (hheap : vm.heap = heap_w) (hobjects : vm.objects = some 7)
    (hstrings : vm.strings = strings_w) (hgray : vm.gray_stack = [])
    (hopen : vm.open_upvalues = none) (hroots : roots_in_heap_w vm = true) :
    intern_inv vm [7, 6, 5, 4, 3, 2, 1] [] 3 := by
  have hkeys : ∀ (e : table_entry) (k : Nat), e ∈ strings_w.entries → e.key = some k →
      k = 1 ∨ k = 2 ∨ k = 3 := by
    intro e k he hk
    rw [entry_eta hk] at he
    exact strings_w_ok.2 k e.val he
  refine ⟨⟨?_, by decide, ?_, ?_, hgray, ?_, ?_, ?_, ?_, ?_⟩, ?_, ?_, ?_, ?_⟩
  · rw [hheap, hobjects]
    exact ⟨rfl, _, rfl, rfl, _, rfl, rfl, _, rfl, rfl, _, rfl, rfl, _, rfl, rfl, _, rfl, rfl, _,
      rfl, rfl⟩
  · intro a o h
    rw [hheap] at h
    rcases heap_w_cases h with h | h | h | h | h | h | h <;> subst h <;> decide
  · intro a o h
    rw [hheap] at h
    rcases heap_w_cases h with h' | h' | h' | h' | h' | h' | h' <;> subst h' <;>
      simp [heap_w] at h <;> rw [← h]
  · rw [hopen]
    rfl
  · rw [hheap]
    exact valid_of_check hroots
  · intro a o h
    rw [hheap] at h ⊢
    rcases heap_w_cases h with h' | h' | h' | h' | h' | h' | h' <;> subst h' <;>
      simp only [heap_w, if_true, OfNat.ofNat_ne_one, if_false, Option.some.injEq,
        reduceIte, Nat.reduceEqDiff] at h <;> rw [← h] <;>
      exact valid_of_check (by decide)
  · rw [hheap, hstrings]
    exact strings_w_ok.1
  · intro e k he hk
    rw [hstrings] at he
    rw [hheap]
    rcases hkeys e k he hk with h | h | h <;> subst h <;> simp [heap_w]
  · intro e k he hk
    rw [hstrings] at he
    rw [hheap]
    rcases hkeys e k he hk with h | h | h <;> subst h
    · exact ⟨_, [97], rfl, rfl⟩
    · exact ⟨_, [98], rfl, rfl⟩
    · exact ⟨_, [105, 110, 105, 116], rfl, rfl⟩
  · rintro k1 k2 d ⟨⟨e1, he1, hk1⟩, hd1⟩ ⟨⟨e2, he2, hk2⟩, hd2⟩
    rw [hstrings] at he1 he2
    rw [hheap] at hd1 hd2
    rcases hkeys e1 k1 he1 hk1 with h1 | h1 | h1 <;>
      rcases hkeys e2 k2 he2 hk2 with h2 | h2 | h2 <;>
      subst h1 <;> subst h2 <;> first
        | rfl
        | (simp [string_data, heap_w] at hd1 hd2
           rw [← hd1] at hd2
           simp at hd2)
  · rw [hstrings]; decide
  · rw [hstrings]; decide



/-- C17 at concrete states: `"a" + "b"` leaves one string with the bytes `ab`
in place of the operands, and `"a" + 7` is a runtime error. -/
theorem add_concatenates_strings_witness :
    (READ_BYTE { vm_w 0 [value.obj 1, value.obj 2] with
        stdout := (vm_w 0 [value.obj 1, value.obj 2]).stdout ++ [out_item.trace] } 0
        = some (vm_w_fetched 0 [value.obj 1, value.obj 2], OP_ADD) ∧
      2 ≤ (vm_w_fetched 0 [value.obj 1, value.obj 2]).stack_top ∧
      intern_inv (vm_w_fetched 0 [value.obj 1, value.obj 2]) [7, 6, 5, 4, 3, 2, 1] [] 3 ∧
      string_data (vm_w_fetched 0 [value.obj 1, value.obj 2]).heap 1 = some [97] ∧
      string_data (vm_w_fetched 0 [value.obj 1, value.obj 2]).heap 2 = some [98]) ∧
    (∃ (vm' : VM) (l' : List Nat) (r : Nat),
      run_step sizes_lp64 fpu_zero (2 ^ 32) native_nil (fun _ => 9)
        (vm_w 0 [value.obj 1, value.obj 2]) 0 = some (step_result.next vm' 0) ∧
      intern_inv vm' l' [] (3 + 1) ∧ vm'.stack_top = 3 - 1 ∧ vm'.stack (3 - 2) = value.obj r ∧
      interned vm' r ([97] ++ [98])) ∧
    run_step sizes_lp64 fpu_zero (2 ^ 32) native_nil (fun _ => 9)
      (vm_w 0 [value.obj 1, value.number 7]) 0
      = some (step_result.done (runtime_error (vm_w_fetched 0 [value.obj 1, value.number 7]))
          interpret_result.INTERPRET_RUNTIME_ERROR) :=
  ⟨⟨rfl, by decide, heap_w_inv _ rfl rfl rfl rfl rfl (by decide), rfl, rfl⟩,
   (fun ⟨vm', l', r, h1, h2, h3, h4, _, h6, _⟩ => ⟨vm', l', r, h1, h2, h3, h4, h6⟩)
     ((add_concatenates_strings sizes_lp64 fpu_zero (2 ^ 32) native_nil (fun _ => 9)
       (vm_w 0 [value.obj 1, value.obj 2]) (vm_w_fetched 0 [value.obj 1, value.obj 2]) 0 rfl
       (by decide)).1 [7, 6, 5, 4, 3, 2, 1] [] 3 1 2 [97] [98]
       (heap_w_inv _ rfl rfl rfl rfl rfl (by decide)) (by decide) (by decide) (by decide) rfl
       (by decide) rfl rfl rfl rfl),
   (add_concatenates_strings sizes_lp64 fpu_zero (2 ^ 32) native_nil (fun _ => 9)
       (vm_w 0 [value.obj 1, value.number 7]) (vm_w_fetched 0 [value.obj 1, value.number 7]) 0
       rfl (by decide)).2
     (fun ⟨_, y, _, h⟩ => by
       have h' : value.obj 1 = value.number y := h
       cases h')
     (fun ⟨_, sb, h, _⟩ => by
       have h' : value.number 7 = value.obj sb := h
       cases h')⟩


/-- C15 at concrete states: with the global `a` defined and `b` not,
`OP_SET_GLOBAL b` is a runtime error that leaves `b` undefined, and
`OP_SET_GLOBAL a` stores the value on top of the stack. -/
theorem set_global_requires_definition_witness :
    (READ_BYTE { vm_w 4 [value.number 7] with
        stdout := (vm_w 4 [value.number 7]).stdout ++ [out_item.trace] } 0
        = some (vm_w_fetched 4 [value.number 7], OP_SET_GLOBAL) ∧
      READ_STRING (vm_w_fetched 4 [value.number 7]) 0
        = some (vm_w_operand 4 [value.number 7], 2) ∧
      intern_inv (vm_w_operand 4 [value.number 7]) [7, 6, 5, 4, 3, 2, 1] [] 3 ∧
      table_wf (string_hash (vm_w_operand 4 [value.number 7]).heap)
        (vm_w_operand 4 [value.number 7]).globals ∧
      (vm_w_operand 4 [value.number 7]).globals.capacity ≤ 2 ^ 31 ∧
      0 < (vm_w_operand 4 [value.number 7]).stack_top ∧
      (∀ w : value, ({ key := some 2, val := w } : table_entry) ∉ globals_w.entries) ∧
      READ_STRING (vm_w_fetched 2 [value.number 7]) 0
        = some (vm_w_operand 2 [value.number 7], 1) ∧
      ({ key := some 1, val := value.number 1 } : table_entry) ∈ globals_w.entries) ∧
    (∃ vm' : VM,
      run_step sizes_lp64 fpu_zero (2 ^ 32) native_nil (fun _ => 9) (vm_w 4 [value.number 7]) 0
        = some (step_result.done vm' interpret_result.INTERPRET_RUNTIME_ERROR) ∧
      get_table (string_hash vm'.heap) (2 ^ 32) vm'.globals 2 = some none) ∧
    (∃ vm' : VM,
      run_step sizes_lp64 fpu_zero (2 ^ 32) native_nil (fun _ => 9) (vm_w 2 [value.number 7]) 0
        = some (step_result.next vm' 0) ∧
      get_table (string_hash vm'.heap) (2 ^ 32) vm'.globals 1 = some (some (value.number 7)) ∧
      vm'.stack_top = 2) :=
  ⟨⟨rfl, rfl, heap_w_inv _ rfl rfl rfl rfl rfl (by decide), globals_w_ok.1, by decide, by decide,
     fun w h => absurd ((globals_w_ok.2 2 w).1 h).1 (by decide), rfl,
     (globals_w_ok.2 1 _).2 ⟨rfl, rfl⟩⟩,
   (fun ⟨vm', h1, _, _, h4, _⟩ => ⟨vm', h1, h4⟩)
     ((set_global_requires_definition sizes_lp64 fpu_zero (2 ^ 32) native_nil (fun _ => 9)
       (vm_w 4 [value.number 7]) (vm_w_fetched 4 [value.number 7])
       (vm_w_operand 4 [value.number 7]) 0 2 [7, 6, 5, 4, 3, 2, 1] [] 3 rfl rfl
       (heap_w_inv _ rfl rfl rfl rfl rfl (by decide)) (by decide) (by decide) globals_w_ok.1
       (by decide) (by decide)).1
       (fun w h => absurd ((globals_w_ok.2 2 w).1 h).1 (by decide))),
   (fun ⟨vm', h1, _, h3, _, _, h6⟩ => ⟨vm', h1, h3, h6⟩)
     ((set_global_requires_definition sizes_lp64 fpu_zero (2 ^ 32) native_nil (fun _ => 9)
       (vm_w 2 [value.number 7]) (vm_w_fetched 2 [value.number 7])
       (vm_w_operand 2 [value.number 7]) 0 1 [7, 6, 5, 4, 3, 2, 1] [] 3 rfl rfl
       (heap_w_inv _ rfl rfl rfl rfl rfl (by decide)) (by decide) (by decide) globals_w_ok.1
       (by decide) (by decide)).2
       ⟨value.number 1, (globals_w_ok.2 1 _).2 ⟨rfl, rfl⟩⟩)⟩

/-- C18 at concrete states: calling the class `b`, which has no methods, with
no arguments puts a new instance in its slot and pushes no frame; calling the
class `a` calls its initializer, the closure 5. -/
theorem call_value_class_makes_instance_witness :
    (intern_inv (vm_w 0 [value.obj 7]) [7, 6, 5, 4, 3, 2, 1] [] 3 ∧
      (vm_w 0 [value.obj 7]).heap 7
        = some { marked := false, next := some 6,
                 payload := obj_payload.obj_class (some 2) init_table } ∧
      table_wf (string_hash (vm_w 0 [value.obj 7]).heap) init_table ∧
      0 + 1 ≤ (vm_w 0 [value.obj 7]).stack_top ∧
      (vm_w 0 [value.obj 7]).stack ((vm_w 0 [value.obj 7]).stack_top - 0 - 1) = value.obj 7 ∧
      (vm_w 0 [value.obj 7]).init_string = some 3 ∧ (vm_w 0 [value.obj 7]).heap 9 = none ∧
      (∀ v, ({ key := some 3, val := v } : table_entry) ∉ init_table.entries) ∧
      intern_inv (vm_w 0 [value.obj 6]) [7, 6, 5, 4, 3, 2, 1] [] 3 ∧
      table_wf (string_hash (vm_w 0 [value.obj 6]).heap) methods_w ∧
      ({ key := some 3, val := value.obj 5 } : table_entry) ∈ methods_w.entries) ∧
    (∃ vm2 : VM,
      (∃ next, vm2.heap 9 = some (instance_obj next 7)) ∧ vm2.stack 1 = value.obj 9 ∧
      vm2.stack_top = 2 ∧ vm2.frame_count = 1 ∧
      call_value sizes_lp64 (2 ^ 32) native_nil (vm_w 0 [value.obj 7]) (value.obj 7) 0 9
        = some (vm2, true)) ∧
    (∃ vm2 : VM,
      (∃ next, vm2.heap 9 = some (instance_obj next 6)) ∧
      call_value sizes_lp64 (2 ^ 32) native_nil (vm_w 0 [value.obj 6]) (value.obj 6) 0 9
        = call vm2 5 0) :=
  ⟨⟨heap_w_inv _ rfl rfl rfl rfl rfl (by decide), rfl, table_wf_init _, by decide, rfl, rfl, rfl,
     fun v h => by simp [init_table] at h,
     heap_w_inv _ rfl rfl rfl rfl rfl (by decide), methods_w_ok.1,
     (methods_w_ok.2 3 _).2 ⟨rfl, rfl⟩⟩,
   (fun ⟨vm2, h1, h2, _, h4, h5, _, _, h8⟩ =>
      ⟨vm2, h1, h2, h4, h5, (h8 (fun v h => by simp [init_table] at h)).1 rfl⟩)
     (call_value_class_makes_instance sizes_lp64 (2 ^ 32) native_nil (vm_w 0 [value.obj 7])
       [7, 6, 5, 4, 3, 2, 1] [] 3 7 0 9 3 _ (some 2) init_table
       (heap_w_inv _ rfl rfl rfl rfl rfl (by decide)) (by decide) (by decide) rfl rfl
       (table_wf_init _) (by decide) rfl rfl rfl),
   (fun ⟨vm2, h1, _, _, _, _, _, h7, _⟩ =>
      ⟨vm2, h1, (h7 5 ((methods_w_ok.2 3 _).2 ⟨rfl, rfl⟩)).1⟩)
     (call_value_class_makes_instance sizes_lp64 (2 ^ 32) native_nil (vm_w 0 [value.obj 6])
       [7, 6, 5, 4, 3, 2, 1] [] 3 6 0 9 3 _ (some 1) methods_w
       (heap_w_inv _ rfl rfl rfl rfl rfl (by decide)) (by decide) (by decide) rfl rfl
       methods_w_ok.1 (by decide) rfl rfl rfl)⟩

/-! ### The output of `print s + t;` -/

/-- C16, the claim as it stands fails: interpreting `print "foo" + "bar";`
writes three values to standard output, `foo`, `bar` and `foobar` (each
followed by a newline), not `foobar` alone. -/
theorem print_concatenation_echoes_constants :
    (run_source 1000 "print \"foo\" + \"bar\";").map
      (fun r => (r.2, printed_strings r.1.vm))
    = some (interpret_result.INTERPRET_OK,
        [some (bytes_of "foo"), some (bytes_of "bar"), some (bytes_of "foobar")]) := by
  decide!


theorem frame_chunk_set_ip (vm0 : VM) (out : List out_item) (frame ip : Nat) :
    frame_chunk (set_ip { vm0 with stdout := out } frame ip) frame = frame_chunk vm0 frame := by
  unfold frame_chunk set_ip
  simp only [Function.update_same]

theorem frame_chunk_stdout (vm : VM) (out : List out_item) (frame : Nat) :
    frame_chunk { vm with stdout := out } frame = frame_chunk vm frame := rfl

/-- C16, what holds instead: the instructions `OP_ADD; OP_PRINT` that
`print s + t;` compiles to, run with two strings on top of the stack, `sa`
below with the bytes `da` and `sb` on top with the bytes `db`, in a state that
satisfies the intern invariant.  Both instructions succeed and, besides the
trace record that `DEBUG_TRACE_EXECUTION` writes for each of them, standard
output receives exactly one value followed by a newline: the string object
`r` whose bytes are `da ++ db`; the two operands are gone from the stack. -/
theorem add_print_writes_concatenation (sz : sizeofs) (fp : fpu) (fuel : Nat)
    (native : Nat → Nat → List value → value) (fresh : (Nat → Option obj) → Nat)
    (vm0 : VM) (frame : Nat) (chk : chunk) (l ups : List Nat) (n sa sb : Nat)
    (da db : List Nat)
    (hframe : frame < vm0.frame_count) (hchunk : frame_chunk vm0 frame = some chk)
    (hadd : chk.code[(vm0.frames frame).ip]? = some OP_ADD)
    (hprint : chk.code[(vm0.frames frame).ip + 1]? = some OP_PRINT)
    (hinv : intern_inv vm0 l ups n) (hn : n < 2 ^ 30) (hfuel : 2 ^ 32 ≤ fuel)
    (hf : l.length + 1 + ups.length < fuel) (hfresh : vm0.heap (fresh vm0.heap) = none)
    (htop : 2 ≤ vm0.stack_top) (hmax : vm0.stack_top < STACK_MAX)
    (hb : vm0.stack (vm0.stack_top - 1) = value.obj sb)
    (hsa : vm0.stack (vm0.stack_top - 2) = value.obj sa)
    (hda : string_data vm0.heap sa = some da) (hdb : string_data vm0.heap sb = some db) :
    ∃ (vm1 vm2 : VM) (r : Nat),
      run_step sz fp fuel native fresh vm0 frame = some (step_result.next vm1 frame) ∧
      run_step sz fp fuel native fresh vm1 frame = some (step_result.next vm2 frame) ∧
      vm2.stdout = vm0.stdout ++ [out_item.trace, out_item.trace,
        out_item.printed (value.obj r), out_item.text "\n"] ∧
      string_data vm2.heap r = some (da ++ db) ∧
      vm2.stack_top = vm0.stack_top - 2 ∧
      (∀ i, i < vm0.stack_top - 2 → vm2.stack i = vm0.stack i) := by
  have hread := @READ_BYTE_eq { vm0 with stdout := vm0.stdout ++ [out_item.trace] } frame OP_ADD
    chk hchunk hadd
  have hinv1 := fetched_inv hinv (vm0.stdout ++ [out_item.trace]) frame
    ((vm0.frames frame).ip + 1)
  obtain ⟨vm1, l1, r, hrun, _, htop1, hres1, hbelow1, hfr1, hfc1, hint1, _, hout1, hpay1⟩ :=
    @concatenate_ok sz _ l ups n fuel (fresh vm0.heap) sa sb da db hinv1 hn hfuel hf hfresh htop
      hmax hb hsa hda hdb
  have hstep1 : run_step sz fp fuel native fresh vm0 frame = some (step_result.next vm1 frame) := by
    rw [run_step_add sz fp fuel native fresh vm0 _ frame _ _ hread (peek_eq (by
        show 0 < vm0.stack_top; omega)) (peek_eq (by show 1 < vm0.stack_top; omega))]
    have e1 : (set_ip { vm0 with stdout := vm0.stdout ++ [out_item.trace] } frame
        ((vm0.frames frame).ip + 1)).stack = vm0.stack := rfl
    have e2 : (set_ip { vm0 with stdout := vm0.stdout ++ [out_item.trace] } frame
        ((vm0.frames frame).ip + 1)).stack_top = vm0.stack_top := rfl
    have e3 : (set_ip { vm0 with stdout := vm0.stdout ++ [out_item.trace] } frame
        ((vm0.frames frame).ip + 1)).heap = vm0.heap := rfl
    rw [e1, e2, Nat.sub_zero, hb, show vm0.stack_top - 1 - 1 = vm0.stack_top - 2 by omega, hsa]
    simp only [e3, hda, hdb]
    have hrun' : concatenate sz fuel (set_ip { vm0 with stdout := vm0.stdout ++ [out_item.trace] }
        frame ((vm0.frames frame).ip + 1)) (fresh vm0.heap) = some vm1 := hrun
    rw [hrun']
    rfl
  have hchunk1 : frame_chunk { vm1 with stdout := vm1.stdout ++ [out_item.trace] } frame
      = some chk := by
    rw [frame_chunk_stdout, @frame_chunk_keep _ vm1 ups frame (by exact hframe)
      (by rw [hfr1]) hpay1, frame_chunk_set_ip]
    exact hchunk
  have hip1 : (vm1.frames frame).ip = (vm0.frames frame).ip + 1 := by
    rw [hfr1]
    show (Function.update vm0.frames frame _ frame).ip = _
    rw [Function.update_same]
  have hread2 := @READ_BYTE_eq { vm1 with stdout := vm1.stdout ++ [out_item.trace] } frame
    OP_PRINT chk hchunk1 (by
      show chk.code[(vm1.frames frame).ip]? = _
      rw [hip1]
      exact hprint)
  have htop1' : vm1.stack_top = vm0.stack_top - 1 := htop1
  have hres1' : vm1.stack (vm0.stack_top - 2) = value.obj r := hres1
  have hstep2 := run_step_print sz fp fuel native fresh vm1 _ frame hread2
  unfold pop at hstep2
  rw [if_pos (by show 0 < vm1.stack_top; omega)] at hstep2
  simp only [Option.some_bind] at hstep2
  refine ⟨vm1, _, r, hstep1, hstep2, ?_, ?_, ?_, ?_⟩
  · show vm1.stdout ++ [out_item.trace]
      ++ [out_item.printed (vm1.stack (vm1.stack_top - 1)), out_item.text "\n"] = _
    rw [hout1, htop1', show vm0.stack_top - 1 - 1 = vm0.stack_top - 2 by omega, hres1']
    show vm0.stdout ++ [out_item.trace] ++ [out_item.trace] ++ _ = _
    simp only [List.append_assoc, List.singleton_append, List.cons_append, List.nil_append]
  · exact hint1.2
  · show vm1.stack_top - 1 = _
    omega
  · intro i hi
    exact hbelow1 i hi


/-- C16 at a concrete state: with the strings "a" and "b" on the stack,
`OP_ADD; OP_PRINT` writes two trace records, one value and a newline. -/
theorem add_print_writes_concatenation_witness :
    (0 < (vm_w 0 [value.obj 1, value.obj 2]).frame_count ∧
      frame_chunk (vm_w 0 [value.obj 1, value.obj 2]) 0
        = some (chunk_of [OP_ADD, OP_PRINT, OP_SET_GLOBAL, 0, OP_SET_GLOBAL, 1]
            [value.obj 1, value.obj 2]) ∧
      intern_inv (vm_w 0 [value.obj 1, value.obj 2]) [7, 6, 5, 4, 3, 2, 1] [] 3 ∧
      string_data (vm_w 0 [value.obj 1, value.obj 2]).heap 1 = some [97] ∧
      string_data (vm_w 0 [value.obj 1, value.obj 2]).heap 2 = some [98]) ∧
    ∃ (vm1 vm2 : VM) (r : Nat),
      run_step sizes_lp64 fpu_zero (2 ^ 32) native_nil (fun _ => 9)
        (vm_w 0 [value.obj 1, value.obj 2]) 0 = some (step_result.next vm1 0) ∧
      run_step sizes_lp64 fpu_zero (2 ^ 32) native_nil (fun _ => 9) vm1 0
        = some (step_result.next vm2 0) ∧
      vm2.stdout = (vm_w 0 [value.obj 1, value.obj 2]).stdout ++ [out_item.trace, out_item.trace,
        out_item.printed (value.obj r), out_item.text "\n"] ∧
      string_data vm2.heap r = some ([97] ++ [98]) ∧
      vm2.stack_top = (vm_w 0 [value.obj 1, value.obj 2]).stack_top - 2 ∧
      (∀ i, i < (vm_w 0 [value.obj 1, value.obj 2]).stack_top - 2 →
        vm2.stack i = (vm_w 0 [value.obj 1, value.obj 2]).stack i) :=
  ⟨⟨by decide, rfl, heap_w_inv _ rfl rfl rfl rfl rfl (by decide), rfl, rfl⟩,
   add_print_writes_concatenation sizes_lp64 fpu_zero (2 ^ 32) native_nil (fun _ => 9)
     (vm_w 0 [value.obj 1, value.obj 2]) 0 _ [7, 6, 5, 4, 3, 2, 1] [] 3 1 2 [97] [98]
     (by decide) rfl rfl rfl (heap_w_inv _ rfl rfl rfl rfl rfl (by decide)) (by decide)
     (by decide) (by decide) rfl (by decide) (by decide) rfl rfl rfl rfl⟩
/-! ### The open-upvalue list under `capture_upvalue` -/

/-- The root set splits into the roots that do not depend on the open
upvalues and the open upvalues. -/
theorem root_ptrs_mem_ups (vm : VM) (ups : List Nat) (p : Option Nat) :
    p ∈ root_ptrs vm ups ↔ (p ∈ root_ptrs vm [] ∨ p ∈ ups.map some) := by
  unfold root_ptrs
  simp only [List.mem_append, List.map_nil, List.append_nil]
  constructor
  · rintro (((((h | h) | h) | h) | h) | h)
    · exact Or.inl (Or.inl (Or.inl (Or.inl (Or.inl h))))
    · exact Or.inl (Or.inl (Or.inl (Or.inl (Or.inr h))))
    · exact Or.inr h
    · exact Or.inl (Or.inl (Or.inl (Or.inr h)))
    · exact Or.inl (Or.inl (Or.inr h))
    · exact Or.inl (Or.inr h)
  · rintro ((((((h | h) | h) | h) | h)) | h)
    · exact Or.inl (Or.inl (Or.inl (Or.inl (Or.inl h))))
    · exact Or.inl (Or.inl (Or.inl (Or.inl (Or.inr h))))
    · exact Or.inl (Or.inl (Or.inr h))
    · exact Or.inl (Or.inr h)
    · exact Or.inr h
    · exact Or.inl (Or.inl (Or.inl (Or.inr h)))

/-- The roots other than the open upvalues depend on the stack, the frames,
the globals, the compiler chain and `init_string` only. -/
theorem root_ptrs_nil_congr {vm vm' : VM} (h1 : vm'.stack = vm.stack)
    (h2 : vm'.stack_top = vm.stack_top) (h3 : vm'.frames = vm.frames)
    (h4 : vm'.frame_count = vm.frame_count) (h5 : vm'.globals = vm.globals)
    (h6 : vm'.compilers = vm.compilers) (h7 : vm'.init_string = vm.init_string) :
    root_ptrs vm' [] = root_ptrs vm [] := by
  unfold root_ptrs
  rw [h1, h2, h3, h4, h5, h6, h7]

theorem upvalue_rewrite_alloc {vm vm' : VM} (h : ∀ x, upvalue_rewrite vm vm' x) (x : Nat) :
    vm'.heap x ≠ none ↔ vm.heap x ≠ none := by
  rcases h x with h | ⟨o, _, _, _, _, _, _, ho, _, ho', _⟩
  · rw [h]
  · rw [ho, ho']
    simp

theorem upvalue_rewrite_string {vm vm' : VM} (h : ∀ x, upvalue_rewrite vm vm' x) {x : Nat}
    {o : obj} {d : List Nat} {hs : Nat} (ho : vm.heap x = some o)
    (hp : o.payload = obj_payload.obj_string d hs) : vm'.heap x = some o := by
  rcases h x with h | ⟨o2, _, _, _, _, _, _, ho2, hp2, _, _⟩
  · rw [h]; exact ho
  · rw [ho] at ho2
    cases ho2
    rw [hp] at hp2
    cases hp2

/-- Rewriting the fields of upvalue objects and relinking the open-upvalue
list keep the intern invariant. -/
theorem intern_inv_upvalues {vm vm' : VM} {l ups ups' : List Nat} {n : Nat}
    (hinv : intern_inv vm l ups n)
    (hfields : vm' = { vm with heap := vm'.heap, open_upvalues := vm'.open_upvalues })
    (hheap : ∀ x, upvalue_rewrite vm vm' x)
    (hups : is_upvalue_list vm'.heap vm'.open_upvalues ups')
    (hvalid : ∀ u ∈ ups', vm.heap u ≠ none) :
    intern_inv vm' l ups' n := by
  have hr := hinv.ready
  have hobjects : vm'.objects = vm.objects := (congrArg VM.objects hfields).trans rfl
  have hstrings : vm'.strings = vm.strings := (congrArg VM.strings hfields).trans rfl
  have hgray : vm'.gray_stack = vm.gray_stack := (congrArg VM.gray_stack hfields).trans rfl
  have halloc := upvalue_rewrite_alloc hheap
  have hkey : ∀ (e : table_entry) (k : Nat), e ∈ vm.strings.entries → e.key = some k →
      vm'.heap k = vm.heap k := by
    intro e k he hk
    obtain ⟨o, d, ho, hp⟩ := hinv.hashed e k he hk
    rw [upvalue_rewrite_string hheap ho hp, ho]
  refine ⟨⟨?_, hr.nodup, ?_, ?_, ?_, hups, ?_, ?_, ?_, ?_⟩, ?_, ?_, ?_, ?_⟩
  · rw [hobjects]
    refine is_list_congr l _ hr.list ?_
    intro x _ o hx
    rcases hheap x with h | ⟨o2, _, _, _, _, _, _, ho2, _, ho', _⟩
    · exact ⟨o, by rw [h]; exact hx, rfl⟩
    · rw [hx] at ho2
      cases ho2
      exact ⟨_, ho', rfl⟩
  · intro x o hx
    have : vm.heap x ≠ none := (halloc x).1 (by rw [hx]; simp)
    obtain ⟨o0, ho0⟩ := Option.ne_none_iff_exists'.1 this
    exact hr.dom x o0 ho0
  · intro x o hx
    rcases hheap x with h | ⟨o2, _, _, _, _, _, _, ho2, _, ho', _⟩
    · rw [h] at hx
      exact hr.white x o hx
    · rw [hx] at ho'
      cases ho'
      exact hr.white x o2 ho2
  · rw [hgray]
    exact hr.gray
  · intro b hb
    rw [halloc]
    rcases (root_ptrs_mem_ups vm' ups' (some b)).1 hb with h | h
    · rw [root_ptrs_nil_congr ((congrArg VM.stack hfields).trans rfl)
        ((congrArg VM.stack_top hfields).trans rfl) ((congrArg VM.frames hfields).trans rfl)
        ((congrArg VM.frame_count hfields).trans rfl) ((congrArg VM.globals hfields).trans rfl)
        ((congrArg VM.compilers hfields).trans rfl)
        ((congrArg VM.init_string hfields).trans rfl)] at h
      exact hr.roots_valid b ((root_ptrs_mem_ups vm ups (some b)).2 (Or.inl h))
    · simp only [List.mem_map, Option.some.injEq, exists_eq_right] at h
      exact hvalid b h
  · intro x o hx b hb
    rw [halloc]
    rcases hheap x with h | ⟨o2, _, _, _, _, cl', _, ho2, _, ho', hcl⟩
    · rw [h] at hx
      exact hr.edges_valid x o hx b hb
    · rw [hx] at ho'
      cases ho'
      simp only [obj_edges, List.mem_singleton] at hb
      exact hcl b hb.symm
  · rw [hstrings]
    refine table_wf_congr ?_ hr.strings_wf
    intro e k he hk
    unfold string_hash
    rw [hkey e k he hk]
  · intro e k he hk
    rw [hstrings] at he
    rw [halloc]
    exact hr.strings_valid e k he hk
  · intro e k he hk
    rw [hstrings] at he
    rw [hkey e k he hk]
    exact hinv.hashed e k he hk
  · intro k1 k2 d h1 h2
    have e : ∀ k, interned vm' k d → interned vm k d := by
      rintro k ⟨⟨e, he, hk⟩, hd⟩
      rw [hstrings] at he
      refine ⟨⟨e, he, hk⟩, ?_⟩
      unfold string_data at hd ⊢
      rw [hkey e k he hk] at hd
      exact hd
    exact hinv.unique k1 k2 d (e k1 h1) (e k2 h2)
  · rw [hstrings]; exact hinv.cap_budget
  · rw [hstrings]; exact hinv.count_budget


theorem with_object_heap_old {vm1 : VM} {a : Nat} (pl : obj_payload) (ha : vm1.heap a = none)
    {x : Nat} {o : obj} (hx : vm1.heap x = some o) : (with_object vm1 a pl).heap x = some o := by
  have hne : x ≠ a := by
    intro h
    rw [h, ha] at hx
    cases hx
  show Function.update vm1.heap a _ x = some o
  rw [Function.update_noteq hne]
  exact hx

theorem with_object_heap_new (vm1 : VM) (a : Nat) (pl : obj_payload) :
    (with_object vm1 a pl).heap a
      = some { marked := false, next := vm1.objects, payload := pl } := by
  show Function.update vm1.heap a _ a = _
  rw [Function.update_same]

theorem with_object_heap_cases {vm1 : VM} {a : Nat} (pl : obj_payload) {x : Nat} {o : obj}
    (hx : (with_object vm1 a pl).heap x = some o) :
    (x = a ∧ o = { marked := false, next := vm1.objects, payload := pl }) ∨
      (x ≠ a ∧ vm1.heap x = some o) := by
  by_cases h : x = a
  · left
    subst h
    rw [with_object_heap_new] at hx
    exact ⟨rfl, (Option.some.inj hx).symm⟩
  · right
    refine ⟨h, ?_⟩
    have : (with_object vm1 a pl).heap x = vm1.heap x := by
      show Function.update vm1.heap a _ x = _
      rw [Function.update_noteq h]
    rw [← this]
    exact hx

theorem allocate_object_eq (sz : sizeofs) {fuel : Nat} {vm vm1 : VM} {size a : Nat}
    (pl : obj_payload) (h1 : reallocate sz fuel vm 0 size = some vm1) (h2 : vm1.heap a = none) :
    allocate_object sz fuel vm size a pl = some (with_object vm1 a pl) := by
  unfold allocate_object
  simp only [h1, h2]
  rfl

/-- Linking a new object whose edges are valid keeps the intern invariant. -/
theorem with_object_inv {vm1 : VM} {l1 ups : List Nat} {n : Nat} {a : Nat} (pl : obj_payload)
    (hinv : intern_inv vm1 l1 ups n) (ha : vm1.heap a = none)
    (hedges : ∀ b, some b ∈ obj_edges pl → vm1.heap b ≠ none) :
    intern_inv (with_object vm1 a pl) (a :: l1) ups n := by
  have hold : ∀ (x : Nat) (o : obj), vm1.heap x = some o →
      ∃ o', (with_object vm1 a pl).heap x = some o' ∧ o'.payload = o.payload :=
    fun x o hx => ⟨o, with_object_heap_old pl ha hx, rfl⟩
  have hnot : a ∉ l1 := by
    intro hmem
    obtain ⟨o, ho⟩ := is_list_mem l1 _ hinv.ready.list a hmem
    rw [ha] at ho
    cases ho
  have halloc : ∀ b, vm1.heap b ≠ none → (with_object vm1 a pl).heap b ≠ none := by
    intro b hb
    cases hbo : vm1.heap b with
    | none => exact absurd hbo hb
    | some o => rw [with_object_heap_old pl ha hbo]; simp
  have hkey : ∀ (e : table_entry) (k : Nat), e ∈ vm1.strings.entries → e.key = some k →
      (with_object vm1 a pl).heap k = vm1.heap k := by
    intro e k he hk
    obtain ⟨o, _, ho, _⟩ := hinv.hashed e k he hk
    rw [with_object_heap_old pl ha ho, ho]
  have hready : gc_ready (with_object vm1 a pl) (a :: l1) ups := by
    refine ⟨?_, List.nodup_cons.2 ⟨hnot, hinv.ready.nodup⟩, ?_, ?_, hinv.ready.gray, ?_, ?_, ?_,
      ?_, ?_⟩
    · refine ⟨rfl, _, with_object_heap_new vm1 a pl, ?_⟩
      refine is_list_congr l1 _ hinv.ready.list ?_
      intro x _ o hx
      exact ⟨o, with_object_heap_old pl ha hx, rfl⟩
    · intro x o hx
      rcases with_object_heap_cases pl hx with ⟨h, _⟩ | ⟨_, h⟩
      · rw [h]; exact List.mem_cons_self _ _
      · exact List.mem_cons_of_mem _ (hinv.ready.dom x o h)
    · intro x o hx
      rcases with_object_heap_cases pl hx with ⟨_, h⟩ | ⟨_, h⟩
      · rw [h]
      · exact hinv.ready.white x o h
    · exact is_upvalue_list_congr ups _ hinv.ready.upvalues hold
    · intro b hb
      exact halloc b (hinv.ready.roots_valid b hb)
    · intro x o hx b hb
      rcases with_object_heap_cases pl hx with ⟨_, h⟩ | ⟨_, h⟩
      · rw [h] at hb
        exact halloc b (hedges b hb)
      · exact halloc b (hinv.ready.edges_valid x o h b hb)
    · refine table_wf_congr ?_ hinv.ready.strings_wf
      intro e k he hk
      unfold string_hash
      rw [hkey e k he hk]
    · intro e k he hk
      exact halloc k (hinv.ready.strings_valid e k he hk)
  refine ⟨hready, ?_, ?_, hinv.cap_budget, hinv.count_budget⟩
  · intro e k he hk
    obtain ⟨o, d, ho, hp⟩ := hinv.hashed e k he hk
    exact ⟨o, d, with_object_heap_old pl ha ho, hp⟩
  · intro k1 k2 d h1 h2
    have e : ∀ k, interned (with_object vm1 a pl) k d → interned vm1 k d := by
      rintro k ⟨⟨e, he, hk⟩, hd⟩
      refine ⟨⟨e, he, hk⟩, ?_⟩
      unfold string_data at hd ⊢
      rw [hkey e k he hk] at hd
      exact hd
    exact hinv.unique k1 k2 d (e k1 h1) (e k2 h2)


theorem open_locations_iff {heap : Nat → Option obj} :
    ∀ (ups locs : List Nat), open_locations heap ups = some locs ↔
      List.Forall₂ (fun u s => upvalue_slot heap u = some s) ups locs := by
  intro ups
  induction ups with
  | nil =>
    intro locs
    simp [open_locations, eq_comm]
  | cons u us ih =>
    intro locs
    constructor
    · intro h
      obtain ⟨s, ss, hl, hs, hss⟩ := open_locations_cons h
      rw [hl]
      exact List.Forall₂.cons hs ((ih ss).1 hss)
    · intro h
      cases h with
      | cons hs hrest =>
        unfold open_locations
        rw [hs, (ih _).2 hrest]

theorem is_upvalue_list_head {h : Nat → Option obj} {p : Option Nat} {ups : List Nat}
    (hl : is_upvalue_list h p ups) : p = ups.head? := by
  cases ups with
  | nil => exact hl
  | cons u us => exact hl.1

/-- The loop of `capture_upvalue` on a list that is strictly decreasing in
location: it stops in front of the first upvalue that is not above `local_`,
`k` upvalues down the list. -/
theorem capture_upvalue_loop_spec {heap : Nat → Option obj} (local_ : Nat) :
    ∀ (ups locs : List Nat) (p prev : Option Nat) (fuel : Nat),
      is_upvalue_list heap p ups → open_locations heap ups = some locs → ups.length < fuel →
      ∃ (k : Nat) (prev' : Option Nat),
        capture_upvalue_loop heap local_ fuel prev p = some (prev', ups[k]?) ∧
        k ≤ ups.length ∧ (∀ s ∈ locs.take k, s > local_) ∧
        (∀ s, locs[k]? = some s → ¬ s > local_) ∧
        (k = 0 → prev' = prev) ∧ (∀ j, k = j + 1 → prev' = ups[j]?) := by
  intro ups
  induction ups with
  | nil =>
    intro locs p prev fuel hl hloc hf
    have hp : p = none := hl
    have hlocs : locs = [] := by
      simp [open_locations] at hloc
      exact hloc
    subst hp hlocs
    obtain ⟨f, rfl⟩ : ∃ f, fuel = f + 1 := ⟨fuel - 1, by simp at hf; omega⟩
    refine ⟨0, prev, ?_, Nat.le_refl _, ?_, ?_, fun _ => rfl, ?_⟩
    · simp [capture_upvalue_loop]
    · intro s hs; simp at hs
    · intro s hs; simp at hs
    · intro j hj; omega
  | cons u us ih =>
    intro locs p prev fuel hl hloc hf
    obtain ⟨hpu, nx, hnx, hrest⟩ := hl
    obtain ⟨s, ss, hlocs, hs, hss⟩ := open_locations_cons hloc
    obtain ⟨o, closed, next, ho, hpl⟩ := upvalue_slot_payload hs
    have hnext : nx = next := by
      unfold upvalue_next at hnx
      simp only [ho, hpl, Option.some.injEq] at hnx
      exact hnx.symm
    subst hpu hlocs hnext
    obtain ⟨f, rfl⟩ : ∃ f, fuel = f + 1 := ⟨fuel - 1, by simp at hf; omega⟩
    by_cases hgt : s > local_
    · obtain ⟨k, prev', hrun, hk, hpre, hat, h0, hj⟩ :=
        ih ss nx (some u) f hrest hss (by simp at hf; omega)
      refine ⟨k + 1, if k = 0 then some u else prev', ?_, by simp; omega, ?_, ?_, ?_, ?_⟩
      · simp only [capture_upvalue_loop, ho, hpl, if_pos hgt, hrun, List.getElem?_cons_succ]
        by_cases hk0 : k = 0
        · rw [if_pos hk0, h0 hk0]
        · rw [if_neg hk0]
      · intro x hx
        simp only [List.take_succ_cons, List.mem_cons] at hx
        rcases hx with hx | hx
        · rw [hx]; exact hgt
        · exact hpre x hx
      · intro x hx
        simp only [List.getElem?_cons_succ] at hx
        exact hat x hx
      · intro h; omega
      · intro j hjk
        have hjk' : k = j := by omega
        subst hjk'
        by_cases hk0 : k = 0
        · rw [if_pos hk0, hk0]
          simp
        · rw [if_neg hk0]
          obtain ⟨j', hj'⟩ : ∃ j', k = j' + 1 := ⟨k - 1, by omega⟩
          rw [hj j' hj', hj']
          simp
    · refine ⟨0, prev, ?_, Nat.zero_le _, ?_, ?_, fun _ => rfl, ?_⟩
      · simp only [capture_upvalue_loop, ho, hpl, if_neg hgt, List.getElem?_cons_zero]
      · intro x hx; simp at hx
      · intro x hx
        simp only [List.getElem?_cons_zero, Option.some.injEq] at hx
        rw [← hx]
        exact hgt
      · intro j hj; omega


theorem open_locations_congr_slot {h h' : Nat → Option obj} :
    ∀ (ups : List Nat), (∀ u ∈ ups, upvalue_slot h' u = upvalue_slot h u) →
      open_locations h' ups = open_locations h ups := by
  intro ups
  induction ups with
  | nil => intro _; rfl
  | cons u us ih =>
    intro hsame
    unfold open_locations
    rw [ih (fun x hx => hsame x (List.mem_cons_of_mem _ hx)), hsame u (List.mem_cons_self _ _)]

theorem is_upvalue_list_congr_next {h h' : Nat → Option obj} :
    ∀ (ups : List Nat) (p : Option Nat), is_upvalue_list h p ups →
      (∀ u ∈ ups, upvalue_next h' u = upvalue_next h u) → is_upvalue_list h' p ups := by
  intro ups
  induction ups with
  | nil => intro p hp _; exact hp
  | cons u us ih =>
    intro p hp hsame
    obtain ⟨hpu, n, hn, hrest⟩ := hp
    exact ⟨hpu, n, by rw [hsame u (List.mem_cons_self _ _)]; exact hn,
      ih n hrest (fun x hx => hsame x (List.mem_cons_of_mem _ hx))⟩

/-- Linking the upvalue `a` behind the upvalue `p` of the list. -/
theorem is_upvalue_list_insert_after {h h' : Nat → Option obj} (a p : Nat) (post : List Nat) :
    ∀ (pre : List Nat) (q : Option Nat), is_upvalue_list h q (pre ++ p :: post) →
      (∀ x ∈ pre ++ post, upvalue_next h' x = upvalue_next h x) →
      upvalue_next h' a = some post.head? → upvalue_next h' p = some (some a) →
      is_upvalue_list h' q (pre ++ p :: a :: post) := by
  intro pre
  induction pre with
  | nil =>
    intro q hq hsame ha hp
    obtain ⟨hqp, n, _, hrest⟩ := hq
    refine ⟨hqp, some a, hp, rfl, post.head?, ha, ?_⟩
    rw [← is_upvalue_list_head hrest]
    exact is_upvalue_list_congr_next post n hrest (fun x hx => hsame x (by simpa using hx))
  | cons u pre ih =>
    intro q hq hsame ha hp
    obtain ⟨hqu, n, hn, hrest⟩ := hq
    refine ⟨hqu, n, ?_, ih n hrest (fun x hx => hsame x ?_) ha hp⟩
    · rw [hsame u (by simp)]
      exact hn
    · simp only [List.cons_append, List.mem_cons]
      exact Or.inr hx

/-- Linking the upvalue `a` in front of the list. -/
theorem is_upvalue_list_insert_head {h h' : Nat → Option obj} (a : Nat) (ups : List Nat)
    (q : Option Nat) (hq : is_upvalue_list h q ups)
    (hsame : ∀ x ∈ ups, upvalue_next h' x = upvalue_next h x)
    (ha : upvalue_next h' a = some ups.head?) :
    is_upvalue_list h' (some a) (a :: ups) := by
  refine ⟨rfl, ups.head?, ha, ?_⟩
  rw [← is_upvalue_list_head hq]
  exact is_upvalue_list_congr_next ups q hq hsame

/-- The locations of the list with one more upvalue at position `k`. -/
theorem open_locations_insert {h h' : Nat → Option obj} (a local_ k : Nat) {ups locs : List Nat}
    (hloc : open_locations h ups = some locs)
    (hsame : ∀ x ∈ ups, upvalue_slot h' x = upvalue_slot h x)
    (ha : upvalue_slot h' a = some local_) :
    open_locations h' (ups.take k ++ a :: ups.drop k)
      = some (locs.take k ++ local_ :: locs.drop k) := by
  have h1 : open_locations h' ups = some locs := by
    rw [open_locations_congr_slot ups hsame]
    exact hloc
  rw [open_locations_iff] at h1 ⊢
  exact List.rel_append (List.forall₂_take k h1) (List.Forall₂.cons ha (List.forall₂_drop k h1))

/-- The locations stay strictly decreasing when `local_` is put between the
locations above it and the locations below it. -/
theorem sorted_insert {locs : List Nat} {local_ k : Nat}
    (hsorted : locs.Pairwise (fun a b => a > b))
    (hpre : ∀ s ∈ locs.take k, s > local_) (hat : ∀ s, locs[k]? = some s → s < local_) :
    (locs.take k ++ local_ :: locs.drop k).Pairwise (fun a b => a > b) := by
  have hsplit : (locs.take k ++ locs.drop k).Pairwise (fun a b => a > b) := by
    rw [List.take_append_drop]
    exact hsorted
  rw [List.pairwise_append] at hsplit ⊢
  obtain ⟨h1, h2, h3⟩ := hsplit
  have hbelow : ∀ b ∈ locs.drop k, b < local_ := by
    intro b hb
    obtain ⟨j, hj⟩ := List.mem_iff_getElem?.1 hb
    rw [List.getElem?_drop] at hj
    exact below_of_sorted_drop hsorted hat j hj
  refine ⟨h1, List.pairwise_cons.2 ⟨fun b hb => hbelow b hb, h2⟩, ?_⟩
  intro x hx y hy
  rcases List.mem_cons.1 hy with hy | hy
  · rw [hy]
    exact hpre x hx
  · exact h3 x hx y hy


theorem capture_upvalue_eq (sz : sizeofs) (fuel : Nat) (vm : VM) (local_ a : Nat) :
    capture_upvalue sz fuel vm local_ a =
      match capture_upvalue_loop vm.heap local_ fuel none vm.open_upvalues with
      | none => none
      | some (prev_upvalue, upvalue) =>
        match found_upvalue vm.heap local_ upvalue with
        | some u => some (vm, u)
        | none =>
          match new_upvalue sz fuel vm local_ upvalue a with
          | none => none
          | some (vm1, created) => link_upvalue vm1 prev_upvalue created := by
  rfl


theorem sorted_nodup {locs : List Nat} (h : locs.Pairwise (fun a b => a > b)) : locs.Nodup := by
  refine List.Pairwise.imp ?_ h
  intro a b hab
  exact Nat.ne_of_gt hab

theorem open_locations_get {heap : Nat → Option obj} {ups locs : List Nat}
    (h : open_locations heap ups = some locs) {i u : Nat} (hu : ups[i]? = some u) :
    ∃ s, locs[i]? = some s ∧ upvalue_slot heap u = some s := by
  rw [open_locations_iff] at h
  have hlen := h.length_eq
  have hi : i < ups.length := (List.getElem?_eq_some_iff.1 hu).1
  have hi' : i < locs.length := by omega
  refine ⟨locs[i], List.getElem?_eq_getElem hi', ?_⟩
  have := List.Forall₂.get h hi hi'
  simp only [List.get_eq_getElem] at this
  rw [← (List.getElem?_eq_some_iff.1 hu).2]
  exact this

theorem open_locations_mem {heap : Nat → Option obj} {ups locs : List Nat}
    (h : open_locations heap ups = some locs) {u : Nat} (hu : u ∈ ups) :
    ∃ s, s ∈ locs ∧ upvalue_slot heap u = some s := by
  obtain ⟨i, hi⟩ := List.mem_iff_getElem?.1 hu
  obtain ⟨s, hs, hslot⟩ := open_locations_get h hi
  exact ⟨s, List.mem_iff_getElem?.2 ⟨i, hs⟩, hslot⟩

/-- A collection step keeps the open upvalues and their locations. -/
theorem gc_step_located {vm vm1 : VM} {l1 ups locs : List Nat} {n : Nat}
    (hs : gc_step vm vm1 ups) (hinv1 : intern_inv vm1 l1 ups n)
    (hloc : open_locations vm.heap ups = some locs) :
    open_locations vm1.heap ups = some locs := by
  rw [← hloc]
  refine open_locations_congr_slot ups ?_
  intro u hu
  have hroot : reachable vm ups u :=
    reachable_root ((root_ptrs_mem_ups vm ups (some u)).2 (Or.inr (by simpa using hu)))
  obtain ⟨o, o', ho, ho', hp⟩ := gc_step_reach_payload hs hinv1 hroot
  unfold upvalue_slot
  simp only [ho, ho', hp]


theorem take_succ_of_get {ups : List Nat} {j p : Nat} (hp : ups[j]? = some p) :
    ups.take (j + 1) = ups.take j ++ [p] := by
  rw [List.take_succ, hp]
  rfl

theorem split_at_get {ups : List Nat} {j p : Nat} (hp : ups[j]? = some p) :
    ups = ups.take j ++ p :: ups.drop (j + 1) := by
  have h := List.take_append_drop (j + 1) ups
  rw [take_succ_of_get hp, List.append_assoc] at h
  exact h.symm

/-- The state after `capture_upvalue` has created the upvalue `a` for the
slot `local_` and linked it `k` places down the list. -/
theorem capture_link_ok {vm1 : VM} {l1 ups locs : List Nat} {n : Nat} (local_ a k : Nat)
    (prev' : Option Nat)
    (hinv1 : intern_inv vm1 l1 ups n) (hloc1 : open_locations vm1.heap ups = some locs)
    (hsorted : locs.Pairwise (fun a b => a > b)) (hbound : ∀ s ∈ locs, s < vm1.stack_top)
    (ha1 : vm1.heap a = none) (hlocal : local_ < vm1.stack_top)
    (hk : k ≤ ups.length) (hpre : ∀ s ∈ locs.take k, s > local_)
    (hat : ∀ s, locs[k]? = some s → s < local_)
    (h0 : k = 0 → prev' = none) (hj : ∀ j, k = j + 1 → prev' = ups[j]?) :
    ∃ vm' : VM,
      link_upvalue (with_object vm1 a (obj_payload.obj_upvalue (some local_) value.nil ups[k]?))
        prev' a = some (vm', a) ∧
      upvalue_inv vm' (a :: l1) (ups.take k ++ a :: ups.drop k)
        (locs.take k ++ local_ :: locs.drop k) n ∧
      vm'.stack = vm1.stack ∧ vm'.stack_top = vm1.stack_top ∧
      (∀ x, x ≠ a → vm1.heap x = none → vm'.heap x = none) ∧
      vm'.frames = vm1.frames ∧ vm'.frame_count = vm1.frame_count ∧
      vm'.stdout = vm1.stdout ∧
      (∀ x o, vm1.heap x = some o → (∀ loc cl nx, o.payload ≠ obj_payload.obj_upvalue loc cl nx) →
        vm'.heap x = some o) := by
  have hinvA := with_object_inv (obj_payload.obj_upvalue (some local_) value.nil ups[k]?) hinv1 ha1
    (by intro b hb; simp [obj_edges, value_ptr] at hb)
  have hlistA := hinvA.ready.upvalues
  have hallocated : ∀ u ∈ ups, vm1.heap u ≠ none := by
    intro u hu
    exact hinv1.ready.roots_valid u
      ((root_ptrs_mem_ups vm1 ups (some u)).2 (Or.inr (by simpa using hu)))
  have hnotin : a ∉ ups := fun h => hallocated a h ha1
  have hold : ∀ u ∈ ups, (with_object vm1 a
      (obj_payload.obj_upvalue (some local_) value.nil ups[k]?)).heap u = vm1.heap u := by
    intro u hu
    show Function.update vm1.heap a _ u = _
    rw [Function.update_noteq (fun h => hnotin (by rw [← h]; exact hu))]
  have hlocA : open_locations (with_object vm1 a
      (obj_payload.obj_upvalue (some local_) value.nil ups[k]?)).heap ups = some locs := by
    rw [open_locations_congr ups hold]
    exact hloc1
  have hnodup := is_upvalue_list_nodup ups _ hlistA
  have hboundA : ∀ s ∈ locs.take k ++ local_ :: locs.drop k, s < vm1.stack_top := by
    intro s hs
    rcases List.mem_append.1 hs with h | h
    · exact hbound s (List.mem_of_mem_take h)
    · rcases List.mem_cons.1 h with h | h
      · rw [h]; exact hlocal
      · exact hbound s (List.mem_of_mem_drop h)
  have hvalidA : ∀ u ∈ ups.take k ++ a :: ups.drop k, (with_object vm1 a
      (obj_payload.obj_upvalue (some local_) value.nil ups[k]?)).heap u ≠ none := by
    intro u hu
    have : u = a ∨ u ∈ ups := by
      rcases List.mem_append.1 hu with h | h
      · exact Or.inr (List.mem_of_mem_take h)
      · rcases List.mem_cons.1 h with h | h
        · exact Or.inl h
        · exact Or.inr (List.mem_of_mem_drop h)
    rcases this with h | h
    · rw [h, with_object_heap_new]; simp
    · rw [hold u h]; exact hallocated u h
  have hnextA : upvalue_next (with_object vm1 a
      (obj_payload.obj_upvalue (some local_) value.nil ups[k]?)).heap a = some ups[k]? := by
    unfold upvalue_next
    rw [with_object_heap_new]
  have hslotA : upvalue_slot (with_object vm1 a
      (obj_payload.obj_upvalue (some local_) value.nil ups[k]?)).heap a = some local_ := by
    unfold upvalue_slot
    rw [with_object_heap_new]
  cases k with
  | zero =>
    rw [h0 rfl]
    refine ⟨_, rfl, ⟨?_, ?_, sorted_insert hsorted hpre hat, hboundA⟩, rfl, rfl, ?_, rfl, rfl, rfl,
      fun x o hx _ => with_object_heap_old _ ha1 hx⟩
    · refine intern_inv_upvalues hinvA rfl (fun x => Or.inl rfl) ?_ hvalidA
      simp only [List.take_zero, List.nil_append, List.drop_zero]
      refine is_upvalue_list_insert_head a ups _ hlistA (fun _ _ => rfl) ?_
      rw [hnextA, List.head?_eq_getElem?]
    · exact open_locations_insert a local_ 0 hlocA (fun _ _ => rfl) hslotA
    · intro x hx hnone
      show Function.update vm1.heap a _ x = none
      rw [Function.update_noteq hx]
      exact hnone
  | succ j =>
    have hjlt : j < ups.length := by omega
    have hpj : ups[j]? = some ups[j] := List.getElem?_eq_getElem hjlt
    obtain ⟨sp, _, hslotp⟩ := open_locations_get hlocA hpj
    obtain ⟨po, cl, nx, hpo, hpl⟩ := upvalue_slot_payload hslotp
    have hpa : ups[j] ≠ a := fun h => hnotin (h ▸ List.getElem_mem hjlt)
    rw [hj j rfl, hpj]
    have hsplit := split_at_get hpj
    have hnd : (ups.take j ++ ups[j] :: ups.drop (j + 1)).Nodup := by
      rw [← hsplit]; exact hnodup
    have hother : ∀ x ∈ ups.take j ++ ups.drop (j + 1), x ≠ ups[j] := by
      intro x hx hxp
      rw [List.nodup_append] at hnd
      obtain ⟨_, hnd2, hdisj⟩ := hnd
      rcases List.mem_append.1 hx with h | h
      · exact hdisj h (by rw [hxp]; exact List.mem_cons_self _ _)
      · rw [List.nodup_cons] at hnd2
        exact hnd2.1 (hxp ▸ h)
    refine ⟨{ with_object vm1 a (obj_payload.obj_upvalue (some local_) value.nil ups[j + 1]?) with
        heap := Function.update (with_object vm1 a
            (obj_payload.obj_upvalue (some local_) value.nil ups[j + 1]?)).heap ups[j]
          (some { po with payload := obj_payload.obj_upvalue (some sp) cl (some a) }) },
      ?_, ⟨?_, ?_, sorted_insert hsorted hpre hat, hboundA⟩, rfl, rfl, ?_, rfl, rfl, rfl, ?_⟩
    · simp only [link_upvalue, hpo, hpl]
    · refine intern_inv_upvalues hinvA rfl ?_ ?_ hvalidA
      · intro x
        by_cases hx : x = ups[j]
        · right
          refine ⟨po, some sp, cl, nx, some sp, cl, some a, by rw [hx]; exact hpo, hpl, ?_, ?_⟩
          · show Function.update _ ups[j] _ x = _
            rw [hx, Function.update_same]
          · intro b hb
            exact hinvA.ready.edges_valid ups[j] po hpo b (by
              rw [hpl]
              simp only [obj_edges, List.mem_singleton]
              exact hb.symm)
        · left
          show Function.update _ ups[j] _ x = _
          rw [Function.update_noteq hx]
      · rw [take_succ_of_get hpj, List.append_assoc]
        show is_upvalue_list _ _ (ups.take j ++ ups[j] :: a :: ups.drop (j + 1))
        refine is_upvalue_list_insert_after a ups[j] (ups.drop (j + 1)) (ups.take j) _
          (by rw [← hsplit]; exact hlistA) ?_ ?_ ?_
        · intro x hx
          show upvalue_next (Function.update _ ups[j] _) x = _
          unfold upvalue_next
          rw [Function.update_noteq (hother x hx)]
        · show upvalue_next (Function.update _ ups[j] _) a = _
          unfold upvalue_next
          rw [Function.update_noteq (Ne.symm hpa), with_object_heap_new, List.head?_drop]
        · show upvalue_next (Function.update _ ups[j] _) ups[j] = _
          unfold upvalue_next
          rw [Function.update_same]
    · refine open_locations_insert a local_ (j + 1) hlocA ?_ ?_
      · intro x _
        by_cases hx : x = ups[j]
        · rw [hx, hslotp]
          show upvalue_slot (Function.update _ ups[j] _) ups[j] = _
          unfold upvalue_slot
          rw [Function.update_same]
        · show upvalue_slot (Function.update _ ups[j] _) x = _
          unfold upvalue_slot
          rw [Function.update_noteq hx]
      · refine Eq.trans ?_ hslotA
        show upvalue_slot (Function.update _ ups[j] _) a = _
        unfold upvalue_slot
        rw [Function.update_noteq (Ne.symm hpa)]
    · intro x hx hnone
      have hxp : x ≠ ups[j] := by
        intro h
        exact hallocated ups[j] (List.getElem_mem hjlt) (h ▸ hnone)
      show Function.update (Function.update vm1.heap a _) ups[j] _ x = none
      rw [Function.update_noteq hxp, Function.update_noteq hx]
      exact hnone
    · intro x o hx hnot
      have hxp : x ≠ ups[j] := by
        intro h
        rw [h] at hx
        have hpo1 : vm1.heap ups[j] = some po := by
          rw [← hold ups[j] (List.getElem_mem hjlt)]
          exact hpo
        rw [hpo1] at hx
        cases hx
        exact hnot _ _ _ hpl
      show Function.update (with_object vm1 a
        (obj_payload.obj_upvalue (some local_) value.nil ups[j + 1]?)).heap ups[j] _ x = some o
      rw [Function.update_noteq hxp]
      exact with_object_heap_old _ ha1 hx


/-- Function `capture_upvalue` under the invariant of the open-upvalue list:
it returns the listed upvalue of the slot if there is one and changes nothing,
and otherwise creates the upvalue `a` and links it where the locations stay
strictly decreasing. -/
theorem capture_upvalue_ok (sz : sizeofs) {vm : VM} {l ups locs : List Nat} {n fuel : Nat}
    (local_ a : Nat) (hinv : upvalue_inv vm l ups locs n) (hfuel : 2 ^ 32 ≤ fuel)
    (hf : l.length + ups.length < fuel) (ha : vm.heap a = none)
    (hlocal : local_ < vm.stack_top) :
    ∃ (vm' : VM) (l' ups' locs' : List Nat) (r : Nat),
      capture_upvalue sz fuel vm local_ a = some (vm', r) ∧
      upvalue_inv vm' l' ups' locs' n ∧ l'.length + ups'.length ≤ l.length + ups.length + 2 ∧
      (r, local_) ∈ ups'.zip locs' ∧
      (∀ u, (u, local_) ∈ ups.zip locs →
        r = u ∧ vm' = vm ∧ l' = l ∧ ups' = ups ∧ locs' = locs) ∧
      (local_ ∉ locs → r = a ∧ ∃ k, (∀ s ∈ locs.take k, s > local_) ∧
        (∀ s ∈ locs.drop k, s < local_) ∧
        ups' = ups.take k ++ a :: ups.drop k ∧ locs' = locs.take k ++ local_ :: locs.drop k) ∧
      vm'.stack = vm.stack ∧ vm'.stack_top = vm.stack_top ∧
      (∀ x, x ≠ a → vm.heap x = none → vm'.heap x = none) ∧
      vm'.frames = vm.frames ∧ vm'.frame_count = vm.frame_count ∧ vm'.stdout = vm.stdout ∧
      (∀ x o, vm.heap x = some o → reachable vm ups x →
        (∀ loc cl nx, o.payload ≠ obj_payload.obj_upvalue loc cl nx) →
        ∃ o', vm'.heap x = some o' ∧ o'.payload = o.payload) ∧
      (∀ u s, (u, s) ∈ ups.zip locs → (u, s) ∈ ups'.zip locs') := by
  have hlist := hinv.inv.ready.upvalues
  have hlen := open_locations_length _ _ hinv.located
  obtain ⟨k, prev', hloop, hk, hpre, hat, h0, hj⟩ :=
    capture_upvalue_loop_spec local_ ups locs vm.open_upvalues none fuel hlist hinv.located
      (by omega)
  rw [capture_upvalue_eq, hloop]
  simp only
  by_cases hfound : ∃ u, ups[k]? = some u ∧ upvalue_slot vm.heap u = some local_
  · obtain ⟨u, hu, hslot⟩ := hfound
    have hf1 : found_upvalue vm.heap local_ ups[k]? = some u := by
      rw [hu]
      simp only [found_upvalue, hslot, if_true]
    obtain ⟨s, hs, hslot'⟩ := open_locations_get hinv.located hu
    rw [hslot] at hslot'
    have hsl : s = local_ := (Option.some.inj hslot').symm
    subst hsl
    rw [hf1]
    refine ⟨vm, l, ups, locs, u, rfl, hinv, by omega, mem_zip_iff_index.2 ⟨k, hu, hs⟩, ?_, ?_,
      rfl, rfl, fun _ _ h => h, rfl, rfl, rfl, fun x o hx _ _ => ⟨o, hx, rfl⟩, fun _ _ h => h⟩
    · intro u' hu'
      obtain ⟨i, hi1, hi2⟩ := mem_zip_iff_index.1 hu'
      have hik : i = k := by
        have hi := List.getElem?_eq_some_iff.1 hi2
        have hk' := List.getElem?_eq_some_iff.1 hs
        exact (@List.Nodup.getElem_inj_iff _ _ (sorted_nodup hinv.sorted) _ hi.1 _ hk'.1).1
          (by rw [hi.2, hk'.2])
      rw [hik, hu] at hi1
      exact ⟨Option.some.inj hi1, rfl, rfl, rfl, rfl⟩
    · intro hnot
      exact absurd (List.mem_iff_getElem?.2 ⟨k, hs⟩) hnot
  · have hf1 : found_upvalue vm.heap local_ ups[k]? = none := by
      cases hu : ups[k]? with
      | none => rfl
      | some u =>
        have : ¬ upvalue_slot vm.heap u = some local_ := fun h => hfound ⟨u, hu, h⟩
        simp only [found_upvalue, this, if_false]
    have hat' : ∀ s, locs[k]? = some s → s < local_ := by
      intro s hs
      have h1 := hat s hs
      have h2 : s ≠ local_ := by
        intro hsl
        have hkl : k < ups.length := by
          have := (List.getElem?_eq_some_iff.1 hs).1
          omega
        obtain ⟨s', hs', hslot⟩ := open_locations_get hinv.located (List.getElem?_eq_getElem hkl)
        rw [hs] at hs'
        rw [← Option.some.inj hs', hsl] at hslot
        exact hfound ⟨_, List.getElem?_eq_getElem hkl, hslot⟩
      omega
    have hnotin : local_ ∉ locs := by
      intro hmem
      obtain ⟨i, hi⟩ := List.mem_iff_getElem?.1 hmem
      by_cases hik : i < k
      · have := hpre local_ (List.mem_iff_getElem?.2 ⟨i, by
          rw [List.getElem?_take_of_lt hik]; exact hi⟩)
        omega
      · have := below_of_sorted_drop hinv.sorted hat' (i - k) (by
          rw [show k + (i - k) = i by omega]; exact hi)
        omega
    obtain ⟨vm1, l1, hr1, hinv1, hlen1, hs1⟩ :=
      intern_reallocate sz hinv.inv hfuel hf 0 sz.obj_upvalue
    obtain ⟨hstk1, htop1⟩ := gc_step_stack hs1
    have ha1 : vm1.heap a = none := hs1.fresh a ha
    obtain ⟨vm', hlink, hinv', hstk', htop', hfresh', hfr', hfc', hout', hkeep'⟩ :=
      capture_link_ok local_ a k prev' hinv1 (gc_step_located hs1 hinv1 hinv.located)
        hinv.sorted (by rw [htop1]; exact hinv.bound) ha1 (by rw [htop1]; exact hlocal) hk hpre
        hat' h0 hj
    have hnew : new_upvalue sz fuel vm local_ ups[k]? a
        = some (with_object vm1 a (obj_payload.obj_upvalue (some local_) value.nil ups[k]?),
            a) := by
      unfold new_upvalue
      rw [allocate_object_eq sz _ hr1 ha1]
    rw [hf1]
    simp only [hnew, hlink]
    refine ⟨vm', a :: l1, _, _, a, rfl, hinv', by
        simp only [List.length_cons, List.length_append, List.length_take, List.length_drop]
        omega, ?_, ?_, ?_,
      by rw [hstk', hstk1], by rw [htop', htop1], fun x hx h => hfresh' x hx (hs1.fresh x h),
      by rw [hfr']; exact (congrArg VM.frames hs1.fields).trans rfl,
      by rw [hfc']; exact (congrArg VM.frame_count hs1.fields).trans rfl,
      by rw [hout']; exact (congrArg VM.stdout hs1.fields).trans rfl, ?_, ?_⟩
    · refine mem_zip_iff_index.2 ⟨k, ?_, ?_⟩
      · rw [List.getElem?_append_right (by rw [List.length_take]; omega)]
        simp [List.length_take, Nat.min_eq_left hk]
      · rw [List.getElem?_append_right (by rw [List.length_take]; omega)]
        simp [List.length_take, Nat.min_eq_left (by omega : k ≤ locs.length)]
    · intro u hu
      obtain ⟨i, _, hi2⟩ := mem_zip_iff_index.1 hu
      exact absurd (List.mem_iff_getElem?.2 ⟨i, hi2⟩) hnotin
    · intro _
      refine ⟨rfl, k, hpre, ?_, rfl, rfl⟩
      intro s hs
      obtain ⟨i, hi⟩ := List.mem_iff_getElem?.1 hs
      rw [List.getElem?_drop] at hi
      exact below_of_sorted_drop hinv.sorted hat' i hi
    · intro x o hx hreach hnot
      obtain ⟨o0, o1, ho0, ho1, hp1⟩ := gc_step_reach_payload hs1 hinv1 hreach
      rw [hx] at ho0
      cases ho0
      exact ⟨o1, hkeep' x o1 ho1 (by rw [hp1]; exact hnot), hp1⟩
    · intro u s hus
      obtain ⟨i, hi1, hi2⟩ := mem_zip_iff_index.1 hus
      by_cases hik : i < k
      · refine mem_zip_iff_index.2 ⟨i, ?_, ?_⟩
        · rw [List.getElem?_append_left (by rw [List.length_take]; omega),
            List.getElem?_take_of_lt hik]
          exact hi1
        · rw [List.getElem?_append_left (by rw [List.length_take]; omega),
            List.getElem?_take_of_lt hik]
          exact hi2
      · have hil : i < ups.length := (List.getElem?_eq_some_iff.1 hi1).1
        refine mem_zip_iff_index.2 ⟨i + 1, ?_, ?_⟩
        · rw [List.getElem?_append_right (by rw [List.length_take]; omega), List.length_take,
            Nat.min_eq_left hk, show i + 1 - k = (i - k) + 1 by omega, List.getElem?_cons_succ,
            List.getElem?_drop, show k + (i - k) = i by omega]
          exact hi1
        · rw [List.getElem?_append_right (by rw [List.length_take]; omega), List.length_take,
            Nat.min_eq_left (by omega : k ≤ locs.length),
            show i + 1 - k = (i - k) + 1 by omega, List.getElem?_cons_succ,
            List.getElem?_drop, show k + (i - k) = i by omega]
          exact hi2


/-- Function `close_upvalues` under the invariant of the open-upvalue list:
it closes the first `k` upvalues, those at or above `x`, and keeps the
invariant for the rest. -/
theorem close_upvalues_inv {vm : VM} {l ups locs : List Nat} {n fuel : Nat} (x : Nat)
    (hinv : upvalue_inv vm l ups locs n) (hf : ups.length < fuel) :
    ∃ (vm' : VM) (k : Nat), close_upvalues fuel vm x = some vm' ∧
      upvalue_inv vm' l (ups.drop k) (locs.drop k) n ∧
      (∀ s ∈ locs.take k, x ≤ s) ∧ (∀ s ∈ locs.drop k, s < x) ∧
      vm'.stack = vm.stack ∧ vm'.stack_top = vm.stack_top ∧
      (∀ a, vm.heap a = none → vm'.heap a = none) := by
  obtain ⟨vm', k, hrun, hk, hframe, hl', hloc', hpre, hfirst, hclosed, hother⟩ :=
    close_upvalues_ok x ups locs vm fuel hinv.inv.ready.upvalues hinv.located hf
  have hstk : vm'.stack = vm.stack := (congrArg VM.stack hframe).trans rfl
  have htop : vm'.stack_top = vm.stack_top := (congrArg VM.stack_top hframe).trans rfl
  have hallocated : ∀ u ∈ ups, vm.heap u ≠ none := by
    intro u hu
    exact hinv.inv.ready.roots_valid u
      ((root_ptrs_mem_ups vm ups (some u)).2 (Or.inr (by simpa using hu)))
  have hheap : ∀ y, upvalue_rewrite vm vm' y := by
    intro y
    by_cases hy : y ∈ ups.take k
    · right
      obtain ⟨i, hi⟩ := List.mem_iff_getElem?.1 hy
      have hik : i < k := by
        have := (List.getElem?_eq_some_iff.1 hi).1
        rw [List.length_take] at this
        omega
      rw [List.getElem?_take_of_lt hik] at hi
      obtain ⟨u, s, o, closed, next, hu, hs, ho, hp, ho'⟩ := hclosed i hik
      rw [hi] at hu
      have huy : y = u := Option.some.inj hu
      subst huy
      refine ⟨o, some s, closed, next, none, vm.stack s, next, ho, hp, ho', ?_⟩
      intro b hb
      have hsb : s < vm.stack_top := hinv.bound s (List.mem_iff_getElem?.2 ⟨i, hs⟩)
      refine hinv.inv.ready.roots_valid b ?_
      cases hv : vm.stack s with
      | obj c =>
        rw [hv] at hb
        have : c = b := Option.some.inj hb
        subst this
        exact stack_root ups hsb hv
      | _ => rw [hv] at hb; simp [value_ptr] at hb
    · left
      exact hother y hy
  refine ⟨vm', k, hrun, ⟨?_, hloc', ?_, ?_⟩, hpre, ?_, hstk, htop, ?_⟩
  · exact intern_inv_upvalues hinv.inv hframe hheap hl'
      (fun u hu => hallocated u (List.mem_of_mem_drop hu))
  · exact List.Pairwise.sublist (List.drop_sublist k locs) hinv.sorted
  · intro s hs
    rw [htop]
    exact hinv.bound s (List.mem_of_mem_drop hs)
  · intro s hs
    obtain ⟨i, hi⟩ := List.mem_iff_getElem?.1 hs
    rw [List.getElem?_drop] at hi
    exact below_of_sorted_drop hinv.sorted hfirst i hi
  · intro a ha
    by_contra hne
    exact (upvalue_rewrite_alloc hheap a).1 hne ha

/-! ### The claims about the open-upvalue list -/

/-- Any sequence of `capture_upvalue` and `close_upvalues` calls keeps the
invariant of the open-upvalue list. -/
theorem run_upvalue_calls_inv (sz : sizeofs) {n fuel : Nat} (hfuel : 2 ^ 32 ≤ fuel) :
    ∀ (calls : List upvalue_call) (vm : VM) (l ups locs : List Nat),
      upvalue_inv vm l ups locs n → l.length + ups.length + 2 * calls.length < fuel →
      (∀ s ∈ capture_slots calls, s < vm.stack_top) →
      (∀ a ∈ capture_addresses calls, vm.heap a = none) → (capture_addresses calls).Nodup →
      ∃ (vm' : VM) (l' ups' locs' : List Nat),
        run_upvalue_calls sz fuel vm calls = some vm' ∧ upvalue_inv vm' l' ups' locs' n ∧
        l'.length + ups'.length ≤ l.length + ups.length + 2 * calls.length ∧
        vm'.stack_top = vm.stack_top ∧ vm'.stack = vm.stack := by
  intro calls
  induction calls with
  | nil =>
    intro vm l ups locs hinv _ _ _ _
    exact ⟨vm, l, ups, locs, rfl, hinv, by simp, rfl, rfl⟩
  | cons c calls ih =>
    intro vm l ups locs hinv hf hslots hfresh hnd
    cases c with
    | capture local_ a =>
      simp only [capture_slots, capture_addresses, List.mem_cons, List.nodup_cons,
        List.length_cons] at hslots hfresh hnd hf
      obtain ⟨vm1, l1, ups1, locs1, r, hrun, hinv1, hlen1, _, _, _, hstk1, htop1, hfresh1, _⟩ :=
        capture_upvalue_ok sz local_ a hinv hfuel (by omega) (hfresh a (Or.inl rfl))
          (hslots local_ (Or.inl rfl))
      obtain ⟨vm', l', ups', locs', hrun', hinv', hlen', htop', hstk'⟩ :=
        ih vm1 l1 ups1 locs1 hinv1 (by omega)
          (fun s hs => by rw [htop1]; exact hslots s (Or.inr hs))
          (fun x hx => hfresh1 x (fun h => hnd.1 (h ▸ hx)) (hfresh x (Or.inr hx))) hnd.2
      refine ⟨vm', l', ups', locs', ?_, hinv', by simp only [List.length_cons]; omega,
        by rw [htop', htop1], by rw [hstk', hstk1]⟩
      simp only [run_upvalue_calls, hrun, hrun']
    | close last =>
      simp only [capture_slots, capture_addresses, List.length_cons] at hslots hfresh hnd hf
      obtain ⟨vm1, k, hrun, hinv1, _, _, hstk1, htop1, hfresh1⟩ :=
        close_upvalues_inv last hinv (by omega : ups.length < fuel)
      obtain ⟨vm', l', ups', locs', hrun', hinv', hlen', htop', hstk'⟩ :=
        ih vm1 l (ups.drop k) (locs.drop k) hinv1
          (by simp only [List.length_drop]; omega)
          (fun s hs => by rw [htop1]; exact hslots s hs)
          (fun x hx => hfresh1 x (hfresh x hx)) hnd
      refine ⟨vm', l', ups', locs', ?_, hinv', by
        simp only [List.length_cons, List.length_drop] at hlen' ⊢; omega,
        by rw [htop', htop1], by rw [hstk', hstk1]⟩
      simp only [run_upvalue_calls, hrun, hrun']

/-- C12: any sequence of `capture_upvalue` and `close_upvalues` calls, started
in a state that satisfies the invariant of the collector with an empty
open-upvalue list, on stack slots below `stack_top` and with distinct free
addresses for the upvalues to create.  The sequence runs to a state whose
open-upvalue list visits upvalues `ups` that are open at the stack slots
`locs`, strictly decreasing, so no two are for the same slot.  In that state
`capture_upvalue` on a slot `local_` returns the listed upvalue of the slot and
changes nothing if there is one, and otherwise creates the upvalue `a` and
links it at the position `k` with every location before it above `local_` and
every location after it below, so that the order is kept. -/
theorem open_upvalues_stay_sorted (sz : sizeofs) (vm : VM) (l : List Nat) (n fuel : Nat)
    (calls : List upvalue_call) (hinv : intern_inv vm l [] n) (hfuel : 2 ^ 32 ≤ fuel)
    (hf : l.length + 2 * calls.length + 2 < fuel)
    (hslots : ∀ s ∈ capture_slots calls, s < vm.stack_top)
    (hfresh : ∀ a ∈ capture_addresses calls, vm.heap a = none)
    (hdistinct : (capture_addresses calls).Nodup) :
    ∃ (vm' : VM) (ups locs : List Nat),
      run_upvalue_calls sz fuel vm calls = some vm' ∧ open_list vm' ups locs ∧
      locs.Pairwise (fun a b => a > b) ∧ locs.Nodup ∧
      ∀ local_ a : Nat, local_ < vm'.stack_top → vm'.heap a = none →
        ∃ (vm2 : VM) (ups2 locs2 : List Nat) (r : Nat),
          capture_upvalue sz fuel vm' local_ a = some (vm2, r) ∧ open_list vm2 ups2 locs2 ∧
          locs2.Pairwise (fun a b => a > b) ∧ (r, local_) ∈ ups2.zip locs2 ∧
          (∀ u, (u, local_) ∈ ups.zip locs →
            r = u ∧ vm2 = vm' ∧ ups2 = ups ∧ locs2 = locs) ∧
          (local_ ∉ locs → r = a ∧ ∃ k, (∀ s ∈ locs.take k, s > local_) ∧
            (∀ s ∈ locs.drop k, s < local_) ∧
            ups2 = ups.take k ++ a :: ups.drop k ∧
            locs2 = locs.take k ++ local_ :: locs.drop k) := by
  have h0 : upvalue_inv vm l [] [] n :=
    ⟨hinv, rfl, List.Pairwise.nil, fun s hs => by cases hs⟩
  obtain ⟨vm', l', ups, locs, hrun, hinv', hlen', _, _⟩ :=
    run_upvalue_calls_inv sz hfuel calls vm l [] [] h0 (by simp only [List.length_nil]; omega)
      hslots hfresh hdistinct
  refine ⟨vm', ups, locs, hrun, ⟨hinv'.inv.ready.upvalues, hinv'.located⟩, hinv'.sorted,
    sorted_nodup hinv'.sorted, ?_⟩
  intro local_ a hlocal ha
  obtain ⟨vm2, l2, ups2, locs2, r, hrun2, hinv2, _, hmem, hfound, hnew, _⟩ :=
    capture_upvalue_ok sz local_ a hinv' hfuel (by simp only [List.length_nil] at hlen'; omega) ha
      hlocal
  refine ⟨vm2, ups2, locs2, r, hrun2, ⟨hinv2.inv.ready.upvalues, hinv2.located⟩, hinv2.sorted,
    hmem, ?_, hnew⟩
  intro u hu
  obtain ⟨h1, h2, _, h4, h5⟩ := hfound u hu
  exact ⟨h1, h2, h4, h5⟩


theorem calls_w_fresh : ∀ a ∈ capture_addresses
    [upvalue_call.capture 1 9, upvalue_call.capture 3 10, upvalue_call.capture 1 11,
      upvalue_call.close 2],
    (vm_w 0 [value.number 1, value.number 2, value.number 3]).heap a = none := by
  intro a ha
  simp only [capture_addresses, List.mem_cons, List.mem_singleton, List.not_mem_nil,
    or_false] at ha
  rcases ha with h | h | h <;> rw [h] <;> rfl

/-- C12 at a concrete state: the slots 1, 3 and 1 again are captured and the
upvalues at or above slot 2 are closed. -/
theorem open_upvalues_stay_sorted_witness :
    (intern_inv (vm_w 0 [value.number 1, value.number 2, value.number 3])
        [7, 6, 5, 4, 3, 2, 1] [] 3 ∧ 2 ^ 32 ≤ 2 ^ 32 ∧
      [7, 6, 5, 4, 3, 2, 1].length + 2 * [upvalue_call.capture 1 9, upvalue_call.capture 3 10,
        upvalue_call.capture 1 11, upvalue_call.close 2].length + 2 < 2 ^ 32 ∧
      (∀ s ∈ capture_slots [upvalue_call.capture 1 9, upvalue_call.capture 3 10,
          upvalue_call.capture 1 11, upvalue_call.close 2],
        s < (vm_w 0 [value.number 1, value.number 2, value.number 3]).stack_top) ∧
      (∀ a ∈ capture_addresses [upvalue_call.capture 1 9, upvalue_call.capture 3 10,
          upvalue_call.capture 1 11, upvalue_call.close 2],
        (vm_w 0 [value.number 1, value.number 2, value.number 3]).heap a = none) ∧
      (capture_addresses [upvalue_call.capture 1 9, upvalue_call.capture 3 10,
        upvalue_call.capture 1 11, upvalue_call.close 2]).Nodup) ∧
    ∃ (vm' : VM) (ups locs : List Nat),
      run_upvalue_calls sizes_lp64 (2 ^ 32)
        (vm_w 0 [value.number 1, value.number 2, value.number 3])
        [upvalue_call.capture 1 9, upvalue_call.capture 3 10, upvalue_call.capture 1 11,
          upvalue_call.close 2] = some vm' ∧
      open_list vm' ups locs ∧ locs.Pairwise (fun a b => a > b) ∧ locs.Nodup :=
  ⟨⟨heap_w_inv _ rfl rfl rfl rfl rfl (by decide), by decide, by decide, by decide, calls_w_fresh,
     by decide⟩,
   (fun ⟨vm', ups, locs, h1, h2, h3, h4, _⟩ => ⟨vm', ups, locs, h1, h2, h3, h4⟩)
     (open_upvalues_stay_sorted sizes_lp64
       (vm_w 0 [value.number 1, value.number 2, value.number 3]) [7, 6, 5, 4, 3, 2, 1] 3 (2 ^ 32)
       [upvalue_call.capture 1 9, upvalue_call.capture 3 10, upvalue_call.capture 1 11,
         upvalue_call.close 2]
       (heap_w_inv _ rfl rfl rfl rfl rfl (by decide)) (by decide) (by decide) (by decide)
       calls_w_fresh (by decide))⟩

/-! ### Closures and the upvalues they share -/

theorem frame_upvalue_eq {vm : VM} {frame slot u : Nat} {o : obj} {loc : Option Nat}
    {cl : value} {nx : Option Nat} (hh : frame_handle vm frame slot = some u)
    (ho : vm.heap u = some o) (hp : o.payload = obj_payload.obj_upvalue loc cl nx) :
    frame_upvalue vm frame slot = some (u, loc, cl) := by
  unfold frame_handle at hh
  unfold frame_upvalue
  cases hc : vm.heap (vm.frames frame).closure with
  | none => simp [hc] at hh
  | some oc =>
    simp only [hc] at hh ⊢
    cases hpl : oc.payload with
    | obj_closure func ups =>
      simp only [hpl] at hh ⊢
      cases hu : ups[slot]? with
      | none => simp [hu] at hh
      | some x =>
        cases x with
        | none => simp [hu] at hh
        | some u' =>
          simp only [hu, Option.some.injEq] at hh
          subst hh
          simp only [ho, hp]
    | _ => simp [hpl] at hh

theorem upvalue_value_payload {vm : VM} {u : Nat} {v : value} (h : upvalue_value vm u = some v) :
    ∃ (o : obj) (loc : Option Nat) (cl : value) (nx : Option Nat), vm.heap u = some o ∧
      o.payload = obj_payload.obj_upvalue loc cl nx ∧
      v = (match loc with
           | some s => vm.stack s
           | none => cl) := by
  unfold upvalue_value at h
  cases ho : vm.heap u with
  | none => simp [ho] at h
  | some o =>
    simp only [ho] at h
    cases hp : o.payload with
    | obj_upvalue loc cl nx =>
      cases loc with
      | none =>
        simp only [hp, Option.some.injEq] at h
        exact ⟨o, none, cl, nx, rfl, hp, h.symm⟩
      | some s =>
        simp only [hp, Option.some.injEq] at h
        exact ⟨o, some s, cl, nx, rfl, hp, h.symm⟩
    | _ => simp [hp] at h

/-- The case `OP_GET_UPVALUE` of `run`. -/
theorem run_step_get_upvalue (sz : sizeofs) (fp : fpu) (fuel : Nat)
    (native : Nat → Nat → List value → value) (fresh : (Nat → Option obj) → Nat)
    (vm0 vm : VM) (frame : Nat)
    (h : READ_BYTE { vm0 with stdout := vm0.stdout ++ [out_item.trace] } frame
      = some (vm, OP_GET_UPVALUE)) :
    run_step sz fp fuel native fresh vm0 frame =
      (READ_BYTE vm frame).bind fun r =>
        (frame_upvalue r.1 frame r.2).bind fun t =>
          match t.2.1 with
          | some i => push_next r.1 frame (r.1.stack i)
          | none => push_next r.1 frame t.2.2 := by
  unfold run_step
  simp +decide only [h, Option.bind_eq_bind, Option.some_bind, OP_RETURN, OP_CALL,
    OP_CONSTANT,
    OP_NIL, OP_TRUE, OP_FALSE, OP_NEGATE, OP_ADD, OP_SUBTRACT, OP_MULTIPLY, OP_DIVIDE, OP_NOT,
    OP_EQUAL, OP_GREATER, OP_LESS, OP_POP, OP_DEFINE_GLOBAL, OP_GET_GLOBAL, OP_SET_GLOBAL,
    OP_GET_LOCAL, OP_SET_LOCAL, OP_JUMP_IF_FALSE, OP_JUMP, OP_LOOP, OP_PRINT, OP_CLOSURE,
    OP_GET_UPVALUE, OP_SET_UPVALUE, OP_CLOSE_UPVALUE, OP_CLASS, OP_GET_PROPERTY,
    OP_SET_PROPERTY, OP_METHOD, if_false, if_true] <;> rfl

/-- The case `OP_SET_UPVALUE` of `run`, once the upvalue is known. -/
theorem run_step_set_upvalue (sz : sizeofs) (fp : fpu) (fuel : Nat)
    (native : Nat → Nat → List value → value) (fresh : (Nat → Option obj) → Nat)
    (vm0 vm vm1 : VM) (frame slot u : Nat) (loc : Option Nat) (cl v : value)
    (h : READ_BYTE { vm0 with stdout := vm0.stdout ++ [out_item.trace] } frame
      = some (vm, OP_SET_UPVALUE)) :
    READ_BYTE vm frame = some (vm1, slot) → frame_upvalue vm1 frame slot = some (u, loc, cl) →
    peek vm1 0 = some v →
    run_step sz fp fuel native fresh vm0 frame =
      match loc with
      | some i =>
        some (step_result.next { vm1 with stack := Function.update vm1.stack i v } frame)
      | none =>
        match vm1.heap u with
        | some ou =>
          match ou.payload with
          | obj_payload.obj_upvalue loc1 _ next =>
            some (step_result.next
              { vm1 with
                heap := Function.update vm1.heap u
                  (some { ou with payload := obj_payload.obj_upvalue loc1 v next }) } frame)
          | _ => none
        | none => none := by
  intro h1 h2 h3
  unfold run_step
  simp +decide only [h, h1, h2, h3, Option.bind_eq_bind, Option.some_bind, OP_RETURN, OP_CALL,
    OP_CONSTANT,
    OP_NIL, OP_TRUE, OP_FALSE, OP_NEGATE, OP_ADD, OP_SUBTRACT, OP_MULTIPLY, OP_DIVIDE, OP_NOT,
    OP_EQUAL, OP_GREATER, OP_LESS, OP_POP, OP_DEFINE_GLOBAL, OP_GET_GLOBAL, OP_SET_GLOBAL,
    OP_GET_LOCAL, OP_SET_LOCAL, OP_JUMP_IF_FALSE, OP_JUMP, OP_LOOP, OP_PRINT, OP_CLOSURE,
    OP_GET_UPVALUE, OP_SET_UPVALUE, OP_CLOSE_UPVALUE, OP_CLASS, OP_GET_PROPERTY,
    OP_SET_PROPERTY, OP_METHOD, if_false, if_true] <;> rfl


theorem frame_handle_congr {vm vm' : VM} (frame slot : Nat)
    (hfr : vm'.frames = vm.frames)
    (hkeep : ∀ x o, vm.heap x = some o →
      (∀ loc cl nx, o.payload ≠ obj_payload.obj_upvalue loc cl nx) → vm'.heap x = some o)
    {u : Nat} (h : frame_handle vm frame slot = some u) :
    frame_handle vm' frame slot = some u := by
  unfold frame_handle at h ⊢
  rw [hfr]
  cases hc : vm.heap (vm.frames frame).closure with
  | none => simp [hc] at h
  | some oc =>
    cases hpl : oc.payload with
    | obj_closure func ups =>
      rw [hkeep _ oc hc (by rw [hpl]; intro _ _ _ hx; cases hx)]
      simp only [hc] at h
      exact h
    | _ => simp [hc, hpl] at h

theorem upvalue_value_of {vm : VM} {u : Nat} {o : obj} {loc : Option Nat} {cl : value}
    {nx : Option Nat} (ho : vm.heap u = some o)
    (hp : o.payload = obj_payload.obj_upvalue loc cl nx) :
    upvalue_value vm u = some (match loc with
      | some s => vm.stack s
      | none => cl) := by
  unfold upvalue_value
  cases loc <;> simp only [ho, hp]

theorem upvalue_value_set_open {vm : VM} {u s : Nat} {o : obj} {cl : value} {nx : Option Nat}
    (v : value) (ho : vm.heap u = some o)
    (hp : o.payload = obj_payload.obj_upvalue (some s) cl nx) :
    upvalue_value { vm with stack := Function.update vm.stack s v } u = some v := by
  unfold upvalue_value
  simp only [ho, hp, Function.update_same]

theorem upvalue_value_set_closed (vm : VM) (u : Nat) (mk : Bool) (nxt nx : Option Nat)
    (v : value) (h : Nat → Option obj)
    (hh : h u = some { marked := mk, next := nxt, payload := obj_payload.obj_upvalue none v nx }) :
    upvalue_value { vm with heap := h } u = some v := by
  unfold upvalue_value
  simp only [hh]

/-- The case `OP_SET_UPVALUE` through the upvalue object `u`: afterwards the
value of `u` is the value on top of the stack. -/
theorem set_upvalue_stores (sz : sizeofs) (fp : fpu) (fuel : Nat)
    (native : Nat → Nat → List value → value) (fresh : (Nat → Option obj) → Nat)
    (vm0 vm vm1 : VM) (frame slot u : Nat) (v0 : value)
    (hread : READ_BYTE { vm0 with stdout := vm0.stdout ++ [out_item.trace] } frame
      = some (vm, OP_SET_UPVALUE))
    (hslot : READ_BYTE vm frame = some (vm1, slot))
    (hh : frame_handle vm1 frame slot = some u) (hval : upvalue_value vm1 u = some v0)
    (htop : 0 < vm1.stack_top) :
    ∃ vm' : VM, run_step sz fp fuel native fresh vm0 frame = some (step_result.next vm' frame) ∧
      upvalue_value vm' u = some (vm1.stack (vm1.stack_top - 1)) ∧
      vm'.stack_top = vm1.stack_top ∧ vm'.stack (vm1.stack_top - 1) = vm1.stack (vm1.stack_top - 1) ∧
      vm'.frames = vm1.frames ∧
      (∀ x o, vm1.heap x = some o →
        (∀ loc cl nx, o.payload ≠ obj_payload.obj_upvalue loc cl nx) → vm'.heap x = some o) := by
  obtain ⟨o, loc, cl, nx, ho, hp, _⟩ := upvalue_value_payload hval
  have hfu := frame_upvalue_eq hh ho hp
  have hrun := run_step_set_upvalue sz fp fuel native fresh vm0 vm vm1 frame slot u loc cl
    (vm1.stack (vm1.stack_top - 1)) hread hslot hfu (peek_eq htop)
  cases loc with
  | some s =>
    refine ⟨_, hrun, ?_, rfl, ?_, rfl, fun x o hx _ => hx⟩
    · exact upvalue_value_set_open _ ho hp
    · show Function.update vm1.stack s _ _ = _
      by_cases hs : vm1.stack_top - 1 = s
      · rw [hs, Function.update_same]
      · rw [Function.update_noteq hs]
  | none =>
    simp only [ho, hp] at hrun
    refine ⟨_, hrun, ?_, rfl, rfl, rfl, ?_⟩
    · exact upvalue_value_set_closed vm1 u o.marked o.next nx _ _ (Function.update_same _ _ _)
    · intro x ox hx hnot
      have hxu : x ≠ u := by
        intro h
        rw [h, ho] at hx
        cases hx
        exact hnot _ _ _ hp
      show Function.update vm1.heap u _ x = _
      rw [Function.update_noteq hxu]
      exact hx

/-- The case `OP_GET_UPVALUE` through the upvalue object `u`: it pushes the
value of `u`. -/
theorem get_upvalue_reads (sz : sizeofs) (fp : fpu) (fuel : Nat)
    (native : Nat → Nat → List value → value) (fresh : (Nat → Option obj) → Nat)
    (vm0 vm vm1 : VM) (frame slot u : Nat) (v : value)
    (hread : READ_BYTE { vm0 with stdout := vm0.stdout ++ [out_item.trace] } frame
      = some (vm, OP_GET_UPVALUE))
    (hslot : READ_BYTE vm frame = some (vm1, slot))
    (hh : frame_handle vm1 frame slot = some u) (hval : upvalue_value vm1 u = some v)
    (hmax : vm1.stack_top < STACK_MAX) :
    ∃ vm' : VM, run_step sz fp fuel native fresh vm0 frame = some (step_result.next vm' frame) ∧
      vm'.stack vm1.stack_top = v ∧ vm'.stack_top = vm1.stack_top + 1 := by
  obtain ⟨o, loc, cl, nx, ho, hp, hv⟩ := upvalue_value_payload hval
  have hfu := frame_upvalue_eq hh ho hp
  have hrun := run_step_get_upvalue sz fp fuel native fresh vm0 vm frame hread
  rw [hslot] at hrun
  simp only [Option.some_bind, hfu] at hrun
  cases loc with
  | some s =>
    simp only [push_next, push, if_pos hmax, Option.map_some'] at hrun
    refine ⟨_, hrun, ?_, rfl⟩
    show Function.update vm1.stack vm1.stack_top _ vm1.stack_top = _
    rw [Function.update_same, hv]
  | none =>
    simp only [push_next, push, if_pos hmax, Option.map_some'] at hrun
    refine ⟨_, hrun, ?_, rfl⟩
    show Function.update vm1.stack vm1.stack_top _ vm1.stack_top = _
    rw [Function.update_same, hv]

/-- Function `close_upvalues` keeps the value of every upvalue. -/
theorem close_upvalues_keeps_values {vm : VM} {ups locs : List Nat} {fuel : Nat} (x : Nat)
    (hopen : open_list vm ups locs) (hf : ups.length < fuel) :
    ∃ vm' : VM, close_upvalues fuel vm x = some vm' ∧
      ∀ u v, upvalue_value vm u = some v → upvalue_value vm' u = some v := by
  obtain ⟨vm', k, hrun, hk, hframe, _, _, _, _, hclosed, hother⟩ :=
    close_upvalues_ok x ups locs vm fuel hopen.linked hopen.located hf
  have hstk : vm'.stack = vm.stack := (congrArg VM.stack hframe).trans rfl
  refine ⟨vm', hrun, ?_⟩
  intro u v hv
  by_cases hu : u ∈ ups.take k
  · obtain ⟨i, hi⟩ := List.mem_iff_getElem?.1 hu
    have hik : i < k := by
      have := (List.getElem?_eq_some_iff.1 hi).1
      rw [List.length_take] at this
      omega
    rw [List.getElem?_take_of_lt hik] at hi
    obtain ⟨u', s, o, closed, next, hu', _, ho, hp, ho'⟩ := hclosed i hik
    rw [hi] at hu'
    have : u = u' := Option.some.inj hu'
    subst this
    unfold upvalue_value at hv ⊢
    simp only [ho, hp] at hv
    simp only [ho']
    exact hv
  · unfold upvalue_value at hv ⊢
    rw [hother u hu, hstk]
    exact hv


theorem cell_rewrite_alloc {vm vm' : VM} (h : ∀ x, cell_rewrite vm vm' x) (x : Nat) :
    vm'.heap x ≠ none ↔ vm.heap x ≠ none := by
  rcases h x with h | ⟨o, _, ho, ho', _, _⟩
  · rw [h]
  · rw [ho, ho']
    simp

theorem cell_rewrite_string {vm vm' : VM} (h : ∀ x, cell_rewrite vm vm' x) {x : Nat}
    {o : obj} {d : List Nat} {hs : Nat} (ho : vm.heap x = some o)
    (hp : o.payload = obj_payload.obj_string d hs) : vm'.heap x = some o := by
  rcases h x with h | ⟨o2, _, ho2, _, hns, _⟩
  · rw [h]; exact ho
  · rw [ho] at ho2
    cases ho2
    exact absurd hp (hns d hs)

/-- Rewriting the payload of objects that are not strings, with valid
pointers, and relinking the open-upvalue list keep the intern invariant. -/
theorem intern_inv_cells {vm vm' : VM} {l ups ups' : List Nat} {n : Nat}
    (hinv : intern_inv vm l ups n)
    (hfields : vm' = { vm with heap := vm'.heap, open_upvalues := vm'.open_upvalues })
    (hheap : ∀ x, cell_rewrite vm vm' x)
    (hups : is_upvalue_list vm'.heap vm'.open_upvalues ups')
    (hvalid : ∀ u ∈ ups', vm.heap u ≠ none) :
    intern_inv vm' l ups' n := by
  have hr := hinv.ready
  have hobjects : vm'.objects = vm.objects := (congrArg VM.objects hfields).trans rfl
  have hstrings : vm'.strings = vm.strings := (congrArg VM.strings hfields).trans rfl
  have hgray : vm'.gray_stack = vm.gray_stack := (congrArg VM.gray_stack hfields).trans rfl
  have halloc := cell_rewrite_alloc hheap
  have hkey : ∀ (e : table_entry) (k : Nat), e ∈ vm.strings.entries → e.key = some k →
      vm'.heap k = vm.heap k := by
    intro e k he hk
    obtain ⟨o, d, ho, hp⟩ := hinv.hashed e k he hk
    rw [cell_rewrite_string hheap ho hp, ho]
  refine ⟨⟨?_, hr.nodup, ?_, ?_, ?_, hups, ?_, ?_, ?_, ?_⟩, ?_, ?_, ?_, ?_⟩
  · rw [hobjects]
    refine is_list_congr l _ hr.list ?_
    intro x _ o hx
    rcases hheap x with h | ⟨o2, _, ho2, ho', _, _⟩
    · exact ⟨o, by rw [h]; exact hx, rfl⟩
    · rw [hx] at ho2
      cases ho2
      exact ⟨_, ho', rfl⟩
  · intro x o hx
    have : vm.heap x ≠ none := (halloc x).1 (by rw [hx]; simp)
    obtain ⟨o0, ho0⟩ := Option.ne_none_iff_exists'.1 this
    exact hr.dom x o0 ho0
  · intro x o hx
    rcases hheap x with h | ⟨o2, _, ho2, ho', _, _⟩
    · rw [h] at hx
      exact hr.white x o hx
    · rw [hx] at ho'
      cases ho'
      exact hr.white x o2 ho2
  · rw [hgray]
    exact hr.gray
  · intro b hb
    rw [halloc]
    rcases (root_ptrs_mem_ups vm' ups' (some b)).1 hb with h | h
    · rw [root_ptrs_nil_congr ((congrArg VM.stack hfields).trans rfl)
        ((congrArg VM.stack_top hfields).trans rfl) ((congrArg VM.frames hfields).trans rfl)
        ((congrArg VM.frame_count hfields).trans rfl) ((congrArg VM.globals hfields).trans rfl)
        ((congrArg VM.compilers hfields).trans rfl)
        ((congrArg VM.init_string hfields).trans rfl)] at h
      exact hr.roots_valid b ((root_ptrs_mem_ups vm ups (some b)).2 (Or.inl h))
    · simp only [List.mem_map, Option.some.injEq, exists_eq_right] at h
      exact hvalid b h
  · intro x o hx b hb
    rw [halloc]
    rcases hheap x with h | ⟨o2, pl, _, ho', _, hedges⟩
    · rw [h] at hx
      exact hr.edges_valid x o hx b hb
    · rw [hx] at ho'
      cases ho'
      exact hedges b hb
  · rw [hstrings]
    refine table_wf_congr ?_ hr.strings_wf
    intro e k he hk
    unfold string_hash
    rw [hkey e k he hk]
  · intro e k he hk
    rw [hstrings] at he
    rw [halloc]
    exact hr.strings_valid e k he hk
  · intro e k he hk
    rw [hstrings] at he
    rw [hkey e k he hk]
    exact hinv.hashed e k he hk
  · intro k1 k2 d h1 h2
    have e : ∀ k, interned vm' k d → interned vm k d := by
      rintro k ⟨⟨e, he, hk⟩, hd⟩
      rw [hstrings] at he
      refine ⟨⟨e, he, hk⟩, ?_⟩
      unfold string_data at hd ⊢
      rw [hkey e k he hk] at hd
      exact hd
    exact hinv.unique k1 k2 d (e k1 h1) (e k2 h2)
  · rw [hstrings]; exact hinv.cap_budget
  · rw [hstrings]; exact hinv.count_budget

theorem payload_at_some {heap : Nat → Option obj} {x : Nat} {pl : obj_payload}
    (h : payload_at heap x = some pl) : ∃ o, heap x = some o ∧ o.payload = pl := by
  unfold payload_at at h
  cases ho : heap x with
  | none => simp [ho] at h
  | some o =>
    simp only [ho, Option.map_some', Option.some.injEq] at h
    exact ⟨o, rfl, h⟩

theorem payload_at_of {heap : Nat → Option obj} {x : Nat} {o : obj} (h : heap x = some o) :
    payload_at heap x = some o.payload := by
  unfold payload_at
  rw [h]
  rfl

theorem frame_chunk_of_payload {vm : VM} {frame ff ar uc : Nat} {pups : List (Option Nat)}
    {chk : chunk} {nm : Option Nat}
    (h1 : payload_at vm.heap (vm.frames frame).closure
      = some (obj_payload.obj_closure (some ff) pups))
    (h2 : payload_at vm.heap ff = some (obj_payload.obj_func ar uc chk nm)) :
    frame_chunk vm frame = some chk := by
  obtain ⟨o1, ho1, hp1⟩ := payload_at_some h1
  obtain ⟨o2, ho2, hp2⟩ := payload_at_some h2
  unfold frame_chunk
  simp only [ho1, hp1, ho2, hp2]


theorem upvalue_next_set_payload {vm : VM} {c : Nat} {o : obj} {fn : Option Nat}
    {us : List (Option Nat)} (pl : obj_payload) (ho : vm.heap c = some o)
    (hp : o.payload = obj_payload.obj_closure fn us) {u s : Nat}
    (hu : upvalue_slot vm.heap u = some s) :
    (set_payload vm c o pl).heap u = vm.heap u := by
  have hne : u ≠ c := by
    intro h
    obtain ⟨o', _, _, ho', hp'⟩ := upvalue_slot_payload hu
    rw [h, ho] at ho'
    cases ho'
    rw [hp] at hp'
    cases hp'
  show Function.update vm.heap c _ u = vm.heap u
  rw [Function.update_noteq hne]

/-- Storing pointers to live objects in a closure keeps the invariant of the
open-upvalue list. -/
theorem upvalue_inv_set_payload {vm : VM} {l ups locs : List Nat} {n c : Nat} {o : obj}
    {fn : Option Nat} {us : List (Option Nat)} (pl : obj_payload)
    (hinv : upvalue_inv vm l ups locs n) (ho : vm.heap c = some o)
    (hp : o.payload = obj_payload.obj_closure fn us)
    (hedges : ∀ b, some b ∈ obj_edges pl → vm.heap b ≠ none) :
    upvalue_inv (set_payload vm c o pl) l ups locs n := by
  have hsame : ∀ u ∈ ups, (set_payload vm c o pl).heap u = vm.heap u := by
    intro u hu
    obtain ⟨s, _, hs⟩ := open_locations_mem hinv.located hu
    exact upvalue_next_set_payload pl ho hp hs
  have hloc : open_locations (set_payload vm c o pl).heap ups = some locs := by
    rw [← hinv.located]
    refine open_locations_congr_slot ups ?_
    intro u hu
    unfold upvalue_slot
    rw [hsame u hu]
  refine ⟨?_, hloc, hinv.sorted, hinv.bound⟩
  refine intern_inv_cells hinv.inv rfl ?_ ?_ ?_
  · intro x
    by_cases hx : x = c
    · right
      refine ⟨o, pl, by rw [hx]; exact ho, ?_, ?_, hedges⟩
      · rw [hx]
        show Function.update vm.heap c _ c = _
        rw [Function.update_same]
      · intro d h hd
        rw [hp] at hd
        cases hd
    · left
      show Function.update vm.heap c _ x = _
      rw [Function.update_noteq hx]
  · refine is_upvalue_list_congr_next ups _ hinv.inv.ready.upvalues ?_
    intro u hu
    unfold upvalue_next
    rw [hsame u hu]
  · intro u hu
    exact hinv.inv.ready.roots_valid u
      ((root_ptrs_mem_ups vm ups (some u)).2 (Or.inr (by simpa using hu)))

theorem set_ip_set_ip (vm : VM) (frame a b : Nat) :
    set_ip (set_ip vm frame a) frame b = set_ip vm frame b := by
  unfold set_ip
  simp only [Function.update_same, Function.update_idem]

/-- Moving the `ip` of a frame keeps the invariant of the open-upvalue
list. -/
theorem upvalue_inv_set_ip {vm : VM} {l ups locs : List Nat} {n : Nat}
    (hinv : upvalue_inv vm l ups locs n) (frame ip : Nat) :
    upvalue_inv (set_ip vm frame ip) l ups locs n :=
  ⟨fetched_inv hinv.inv vm.stdout frame ip, hinv.located, hinv.sorted, hinv.bound⟩

theorem set_ip_frame (vm : VM) (frame ip : Nat) :
    (set_ip vm frame ip).frames frame = { vm.frames frame with ip := ip } := by
  unfold set_ip
  simp only [Function.update_same]

theorem frame_chunk_set_ip2 (vm : VM) (frame ip : Nat) :
    frame_chunk (set_ip vm frame ip) frame = frame_chunk vm frame := by
  unfold frame_chunk
  rw [set_ip_frame]
  rfl

/-- Two handles of one stack slot in the open-upvalue list are the same
upvalue object. -/
theorem zip_unique {ups locs : List Nat} (hs : locs.Pairwise (fun a b => a > b))
    {u u0 s : Nat} (h : (u, s) ∈ ups.zip locs) (h0 : (u0, s) ∈ ups.zip locs) : u = u0 := by
  obtain ⟨i, hi1, hi2⟩ := mem_zip_iff_index.1 h
  obtain ⟨j, hj1, hj2⟩ := mem_zip_iff_index.1 h0
  have hnd := sorted_nodup hs
  obtain ⟨hi, hi'⟩ := List.getElem?_eq_some_iff.1 hi2
  obtain ⟨hj, hj'⟩ := List.getElem?_eq_some_iff.1 hj2
  have : i = j := (@List.Nodup.getElem_inj_iff _ _ hnd _ hi _ hj).1 (hi'.trans hj'.symm)
  subst this
  rw [hi1] at hj1
  exact Option.some.inj hj1

/-- One round of the loop of `OP_CLOSURE`. -/
theorem closure_upvalues_succ (sz : sizeofs) (fuel : Nat) (fresh : (Nat → Option obj) → Nat)
    (frame closure n i : Nat) (vm : VM) :
    closure_upvalues sz fuel fresh frame closure (n + 1) i vm =
      match READ_BYTE vm frame with
      | none => none
      | some (vm1, is_local) =>
        match READ_BYTE vm1 frame with
        | none => none
        | some (vm2, index) =>
          match descriptor_upvalue sz fuel fresh frame vm2 is_local index with
          | none => none
          | some (vm3, u) =>
            match store_upvalue vm3 closure i u with
            | none => none
            | some vm4 => closure_upvalues sz fuel fresh frame closure n (i + 1) vm4 := by
  conv_lhs => unfold closure_upvalues
  cases h1 : READ_BYTE vm frame with
  | none => rfl
  | some r1 =>
    obtain ⟨vm1, is_local⟩ := r1
    simp only
    cases h2 : READ_BYTE vm1 frame with
    | none => rfl
    | some r2 =>
      obtain ⟨vm2, index⟩ := r2
      simp only
      show (match descriptor_upvalue sz fuel fresh frame vm2 is_local index with
            | none => none
            | some (vm3, u) =>
              match vm3.heap closure with
              | none => none
              | some o =>
                match o.payload with
                | obj_payload.obj_closure func ups =>
                  closure_upvalues sz fuel fresh frame closure n (i + 1)
                    (set_payload vm3 closure o (obj_payload.obj_closure func (ups.set i u)))
                | _ => none) =
          (match descriptor_upvalue sz fuel fresh frame vm2 is_local index with
           | none => none
           | some (vm3, u) =>
             match store_upvalue vm3 closure i u with
             | none => none
             | some vm4 => closure_upvalues sz fuel fresh frame closure n (i + 1) vm4)
      cases h3 : descriptor_upvalue sz fuel fresh frame vm2 is_local index with
      | none => rfl
      | some r3 =>
        obtain ⟨vm3, u⟩ := r3
        simp only
        show _ = (match store_upvalue vm3 closure i u with
                  | none => none
                  | some vm4 => closure_upvalues sz fuel fresh frame closure n (i + 1) vm4)
        unfold store_upvalue
        cases h4 : vm3.heap closure with
        | none => rfl
        | some o =>
          simp only
          cases h5 : o.payload <;> rfl

theorem ups_valid {vm : VM} {l ups : List Nat} {n u : Nat} (hinv : intern_inv vm l ups n)
    (hu : u ∈ ups) : vm.heap u ≠ none :=
  hinv.ready.roots_valid u ((root_ptrs_mem_ups vm ups (some u)).2 (Or.inr (by simpa using hu)))

/-- The upvalue of one descriptor of `OP_CLOSURE`: for a local it is the
listed upvalue of the stack slot, for an enclosing upvalue the handle of the
closure of the frame. -/
theorem descriptor_upvalue_ok (sz : sizeofs) (fresh : (Nat → Option obj) → Nat)
    {fuel M n : Nat} (hfuel : 2 ^ 32 ≤ fuel) (hfresh : allocator_ok fresh M)
    {vm : VM} {l ups locs : List Nat} {N : Nat} (frame ff : Nat) (pups : List (Option Nat))
    (is_local index : Nat) (hinv : upvalue_inv vm l ups locs n)
    (hf : l.length + ups.length < fuel) (hbelow : heap_below vm N) (hN : N < M)
    (hfc : payload_at vm.heap (vm.frames frame).closure
      = some (obj_payload.obj_closure (some ff) pups))
    (hlocal : is_local ≠ 0 → (vm.frames frame).slots + index < vm.stack_top)
    (hnonlocal : is_local = 0 → index < pups.length) :
    ∃ (vm3 : VM) (l3 ups3 locs3 : List Nat) (u : Option Nat),
      descriptor_upvalue sz fuel fresh frame vm is_local index = some (vm3, u) ∧
      upvalue_inv vm3 l3 ups3 locs3 n ∧
      l3.length + ups3.length ≤ l.length + ups.length + 2 ∧
      heap_below vm3 (N + 1) ∧
      (is_local ≠ 0 → ∃ r, u = some r ∧ (r, (vm.frames frame).slots + index) ∈ ups3.zip locs3) ∧
      (is_local = 0 → pups[index]? = some u) ∧
      (∀ b, u = some b → vm3.heap b ≠ none) ∧
      (∀ u s, (u, s) ∈ ups.zip locs → (u, s) ∈ ups3.zip locs3) ∧
      vm3.stack = vm.stack ∧ vm3.stack_top = vm.stack_top ∧ vm3.frames = vm.frames ∧
      vm3.frame_count = vm.frame_count ∧ vm3.stdout = vm.stdout ∧
      (∀ x o, vm.heap x = some o → reachable vm ups x →
        (∀ loc cl nx, o.payload ≠ obj_payload.obj_upvalue loc cl nx) →
        ∃ o', vm3.heap x = some o' ∧ o'.payload = o.payload) := by
  by_cases hl : is_local ≠ 0
  · obtain ⟨ha, hale⟩ := hfresh vm.heap N hN hbelow
    obtain ⟨vm3, l3, ups3, locs3, r, hrun, hinv3, hlen, hmem, _, _, hstack, htop, hfree,
      hframes, hfcount, hout, hpay, hpers⟩ :=
      capture_upvalue_ok sz ((vm.frames frame).slots + index) (fresh vm.heap) hinv hfuel hf ha
        (hlocal hl)
    refine ⟨vm3, l3, ups3, locs3, some r, ?_, hinv3, hlen, ?_, fun _ => ⟨r, rfl, hmem⟩,
      fun h => absurd h hl, ?_, hpers, hstack, htop, hframes, hfcount, hout, hpay⟩
    · unfold descriptor_upvalue
      rw [if_pos hl, hrun]
    · intro x hx
      by_cases hxa : x = fresh vm.heap
      · rw [hxa]; exact hale
      · have : vm.heap x ≠ none := fun h => hx (hfree x hxa h)
        exact Nat.le_succ_of_le (hbelow x this)
    · intro b hb
      cases hb
      exact ups_valid hinv3.inv (List.of_mem_zip hmem).1
  · have hl0 : is_local = 0 := not_not.1 hl
    obtain ⟨o, ho, hp⟩ := payload_at_some hfc
    have hidx := hnonlocal hl0
    refine ⟨vm, l, ups, locs, pups[index], ?_, hinv, by omega,
      fun x hx => Nat.le_succ_of_le (hbelow x hx), fun h => absurd h hl,
      fun _ => List.getElem?_eq_getElem hidx, ?_, fun _ _ h => h, rfl, rfl, rfl, rfl, rfl,
      fun x o hx _ _ => ⟨o, hx, rfl⟩⟩
    · unfold descriptor_upvalue
      rw [if_neg hl]
      simp only [ho, hp, List.getElem?_eq_getElem hidx]
    · intro b hb
      refine hinv.inv.ready.edges_valid _ o ho b ?_
      rw [hp]
      show some b ∈ some ff :: pups
      rw [← hb]
      exact List.mem_cons_of_mem _ (List.getElem_mem hidx)

theorem set_payload_heap_ne (vm : VM) {c x : Nat} (o : obj) (pl : obj_payload) (h : x ≠ c) :
    (set_payload vm c o pl).heap x = vm.heap x := by
  show Function.update vm.heap c _ x = _
  rw [Function.update_noteq h]

theorem set_payload_heap_eq (vm : VM) (c : Nat) (o : obj) (pl : obj_payload) :
    (set_payload vm c o pl).heap c = some { o with payload := pl } := by
  show Function.update vm.heap c _ c = _
  rw [Function.update_same]

theorem store_upvalue_eq {vm3 : VM} {c : Nat} {o : obj} {fn : Option Nat}
    {us : List (Option Nat)} (i : Nat) (u : Option Nat) (ho : vm3.heap c = some o)
    (hp : o.payload = obj_payload.obj_closure fn us) :
    store_upvalue vm3 c i u
      = some (set_payload vm3 c o (obj_payload.obj_closure fn (us.set i u))) := by
  unfold store_upvalue
  simp only [ho, hp]

theorem set_ip_frames_congr {vm vm4 : VM} {frame a : Nat}
    (h : vm4.frames = (set_ip vm frame a).frames) (b : Nat) :
    (set_ip vm4 frame b).frames = (set_ip vm frame b).frames := by
  unfold set_ip at h ⊢
  simp only at h ⊢
  rw [h]
  simp only [Function.update_same, Function.update_idem]

/-- The objects the loop of `OP_CLOSURE` works with are reachable. -/
theorem closure_frame_reach {vm : VM} {frame c ff : Nat} {pups : List (Option Nat)}
    {chk : chunk} (h : closure_frame vm frame c ff pups chk) (ups : List Nat) :
    reachable vm ups (vm.frames frame).closure ∧ reachable vm ups ff ∧ reachable vm ups c := by
  have h1 : reachable vm ups (vm.frames frame).closure := reachable_root (frame_root ups h.live)
  obtain ⟨o, ho, hp⟩ := payload_at_some h.closure
  refine ⟨h1, reachable_edge h1 ho ?_, reachable_root (stack_root ups ?_ h.pushed)⟩
  · rw [hp]
    exact List.mem_cons_self _ _
  · have := h.top
    omega

/-- One round of the loop of `OP_CLOSURE` under the invariant of the
open-upvalue list. -/
theorem closure_round_ok (sz : sizeofs) (fresh : (Nat → Option obj) → Nat)
    {fuel M n : Nat} (hfuel : 2 ^ 32 ≤ fuel) (hfresh : allocator_ok fresh M)
    {vm : VM} {l ups locs : List Nat} {N : Nat} (frame c ff : Nat) (pups : List (Option Nat))
    (chk : chunk) (fn : Option Nat) (us : List (Option Nat)) (i : Nat) (d : Nat × Nat)
    (hinv : upvalue_inv vm l ups locs n)
    (hf : l.length + ups.length < fuel) (hbelow : heap_below vm N) (hN : N < M)
    (hfr : closure_frame vm frame c ff pups chk)
    (hb1 : chk.code[(vm.frames frame).ip]? = some d.1)
    (hb2 : chk.code[(vm.frames frame).ip + 1]? = some d.2)
    (hlocal : d.1 ≠ 0 → (vm.frames frame).slots + d.2 < vm.stack_top)
    (hnonlocal : d.1 = 0 → d.2 < pups.length)
    (hc : payload_at vm.heap c = some (obj_payload.obj_closure fn us)) :
    ∃ (vm4 : VM) (l4 ups4 locs4 : List Nat) (u : Option Nat),
      (∀ m, closure_upvalues sz fuel fresh frame c (m + 1) i vm
        = closure_upvalues sz fuel fresh frame c m (i + 1) vm4) ∧
      upvalue_inv vm4 l4 ups4 locs4 n ∧
      l4.length + ups4.length ≤ l.length + ups.length + 2 ∧
      heap_below vm4 (N + 1) ∧
      closure_frame vm4 frame c ff pups chk ∧
      payload_at vm4.heap c = some (obj_payload.obj_closure fn (us.set i u)) ∧
      (d.1 ≠ 0 → ∃ r, u = some r ∧ (r, (vm.frames frame).slots + d.2) ∈ ups4.zip locs4) ∧
      (d.1 = 0 → pups[d.2]? = some u) ∧
      (∀ u s, (u, s) ∈ ups.zip locs → (u, s) ∈ ups4.zip locs4) ∧
      vm4.stack = vm.stack ∧ vm4.stack_top = vm.stack_top ∧
      vm4.frames = (set_ip vm frame ((vm.frames frame).ip + 2)).frames ∧
      vm4.frame_count = vm.frame_count ∧ vm4.stdout = vm.stdout ∧
      (∀ x o, vm.heap x = some o → reachable vm ups x → x ≠ c →
        (∀ loc cl nx, o.payload ≠ obj_payload.obj_upvalue loc cl nx) →
        ∃ o', vm4.heap x = some o' ∧ o'.payload = o.payload) := by
  obtain ⟨ar, uc, nm, hff⟩ := hfr.func
  have hchunk : frame_chunk vm frame = some chk := frame_chunk_of_payload hfr.closure hff
  have hr1 := READ_BYTE_eq hchunk hb1
  have hr2 : READ_BYTE (set_ip vm frame ((vm.frames frame).ip + 1)) frame
      = some (set_ip vm frame ((vm.frames frame).ip + 2), d.2) := by
    have := @READ_BYTE_eq (set_ip vm frame ((vm.frames frame).ip + 1)) frame d.2 chk
      (by rw [frame_chunk_set_ip2]; exact hchunk) (by rw [set_ip_frame]; exact hb2)
    rw [set_ip_frame, set_ip_set_ip] at this
    exact this
  have hfr2 : (set_ip vm frame ((vm.frames frame).ip + 2)).frames frame
      = { vm.frames frame with ip := (vm.frames frame).ip + 2 } := set_ip_frame vm frame _
  have hinv2 := upvalue_inv_set_ip hinv frame ((vm.frames frame).ip + 2)
  have hfc2 : payload_at (set_ip vm frame ((vm.frames frame).ip + 2)).heap
      ((set_ip vm frame ((vm.frames frame).ip + 2)).frames frame).closure
      = some (obj_payload.obj_closure (some ff) pups) := by
    rw [hfr2]
    exact hfr.closure
  obtain ⟨vm3, l3, ups3, locs3, u, hrun3, hinv3, hlen3, hbelow3, hloc3, hnl3, hvalid3, hpers3,
    hstack3, htop3, hframes3, hfcount3, hout3, hpay3⟩ :=
    descriptor_upvalue_ok sz fresh hfuel hfresh frame ff pups d.1 d.2 hinv2 hf hbelow hN hfc2
      (by intro h; rw [hfr2]; exact hlocal h) hnonlocal
  obtain ⟨hreach1, hreach2, hreach3⟩ := closure_frame_reach hfr ups
  have hkeep : ∀ x o, vm.heap x = some o → reachable vm ups x →
      (∀ loc cl nx, o.payload ≠ obj_payload.obj_upvalue loc cl nx) →
      ∃ o', vm3.heap x = some o' ∧ o'.payload = o.payload := by
    intro x o hx hreach hnu
    exact hpay3 x o hx (reachable_set_ip vm.stdout frame _ hreach) hnu
  obtain ⟨oc, hoc, hpc⟩ := payload_at_some hc
  obtain ⟨oc3, hoc3, hpc3⟩ := hkeep c oc hoc hreach3 (by intro _ _ _ h; rw [hpc] at h; cases h)
  rw [hpc] at hpc3
  obtain ⟨of, hof, hpf⟩ := payload_at_some hfr.closure
  obtain ⟨of3, hof3, hpf3⟩ := hkeep _ of hof hreach1 (by intro _ _ _ h; rw [hpf] at h; cases h)
  rw [hpf] at hpf3
  obtain ⟨og, hog, hpg⟩ := payload_at_some hff
  obtain ⟨og3, hog3, hpg3⟩ := hkeep ff og hog hreach2 (by intro _ _ _ h; rw [hpg] at h; cases h)
  rw [hpg] at hpg3
  have hne_ff : ff ≠ c := by
    intro h
    rw [h, hoc3] at hog3
    cases hog3
    rw [hpc3] at hpg3
    cases hpg3
  have hedges : ∀ b, some b ∈ obj_edges (obj_payload.obj_closure fn (us.set i u)) →
      vm3.heap b ≠ none := by
    intro b hb
    have hold : ∀ p, p ∈ fn :: us → p = some b → vm3.heap b ≠ none := by
      intro p hp hpb
      refine hinv3.inv.ready.edges_valid c oc3 hoc3 b ?_
      rw [hpc3, ← hpb]
      exact hp
    rcases List.mem_cons.1 hb with h | h
    · exact hold fn (List.mem_cons_self _ _) h.symm
    · rcases List.mem_or_eq_of_mem_set h with h | h
      · exact hold _ (List.mem_cons_of_mem _ h) rfl
      · exact hvalid3 b h.symm
  have hinv4 := upvalue_inv_set_payload (obj_payload.obj_closure fn (us.set i u)) hinv3 hoc3
    hpc3 hedges
  have hclo : ((set_ip vm frame ((vm.frames frame).ip + 2)).frames frame).closure
      = (vm.frames frame).closure := by rw [hfr2]
  refine ⟨set_payload vm3 c oc3 (obj_payload.obj_closure fn (us.set i u)), l3, ups3, locs3, u,
    ?_, hinv4, hlen3, ?_, ?_, ?_, ?_, hnl3, hpers3, hstack3, htop3, hframes3, hfcount3, hout3, ?_⟩
  · intro m
    rw [closure_upvalues_succ, hr1]
    simp only
    rw [hr2]
    simp only
    rw [hrun3]
    simp only
    rw [store_upvalue_eq i u hoc3 hpc3]
  · intro x hx
    by_cases hxc : x = c
    · refine hbelow3 x ?_
      rw [hxc, hoc3]
      simp
    · rw [set_payload_heap_ne vm3 _ _ hxc] at hx
      exact hbelow3 x hx
  · refine ⟨?_, ?_, ⟨ar, uc, nm, ?_⟩, ?_, ?_, ?_⟩
    · show vm3.frame_count > frame
      rw [hfcount3]
      exact hfr.live
    · show payload_at (set_payload vm3 c oc3 _).heap (vm3.frames frame).closure = _
      rw [hframes3, hclo]
      unfold payload_at
      rw [set_payload_heap_ne vm3 _ _ (Ne.symm hfr.other), hof3]
      simp only [Option.map_some', hpf3]
    · unfold payload_at
      rw [set_payload_heap_ne vm3 _ _ hne_ff, hog3]
      simp only [Option.map_some', hpg3]
    · show 0 < vm3.stack_top
      rw [htop3]
      exact hfr.top
    · show vm3.stack (vm3.stack_top - 1) = value.obj c
      rw [hstack3, htop3]
      exact hfr.pushed
    · show c ≠ (vm3.frames frame).closure
      rw [hframes3, hclo]
      exact hfr.other
  · unfold payload_at
    rw [set_payload_heap_eq]
    rfl
  · intro h
    obtain ⟨r, hr, hmem⟩ := hloc3 h
    rw [hfr2] at hmem
    exact ⟨r, hr, hmem⟩
  · intro x o hx hreach hxc hnu
    obtain ⟨o', ho', hp'⟩ := hkeep x o hx hreach hnu
    exact ⟨o', by rw [set_payload_heap_ne vm3 _ _ hxc]; exact ho', hp'⟩

theorem set_ip_self_frames (vm : VM) (frame : Nat) :
    (set_ip vm frame (vm.frames frame).ip).frames = vm.frames := by
  unfold set_ip
  exact Function.update_eq_self frame vm.frames

/-- The loop of `OP_CLOSURE` under the invariant of the open-upvalue list:
it ends, every descriptor of a local stores the listed upvalue of the stack
slot `frame->slots + index`, every other descriptor the handle of the closure
of the frame, and the upvalues that were listed stay listed. -/
theorem closure_upvalues_ok (sz : sizeofs) (fresh : (Nat → Option obj) → Nat)
    {fuel M n : Nat} (hfuel : 2 ^ 32 ≤ fuel) (hfresh : allocator_ok fresh M)
    (frame c ff : Nat) (pups : List (Option Nat)) (chk : chunk) (fn : Option Nat) :
    ∀ (descs : List (Nat × Nat)) (vm : VM) (l ups locs : List Nat) (N i : Nat)
      (us : List (Option Nat)),
      upvalue_inv vm l ups locs n →
      l.length + ups.length + 2 * descs.length < fuel →
      heap_below vm N → N + descs.length < M →
      closure_frame vm frame c ff pups chk →
      descriptors_at chk.code (vm.frames frame).ip descs →
      (∀ d ∈ descs, d.1 ≠ 0 → (vm.frames frame).slots + d.2 < vm.stack_top) →
      (∀ d ∈ descs, d.1 = 0 → d.2 < pups.length) →
      payload_at vm.heap c = some (obj_payload.obj_closure fn us) →
      i + descs.length ≤ us.length →
      ∃ (vm' : VM) (l' ups' locs' : List Nat) (us' : List (Option Nat)),
        closure_upvalues sz fuel fresh frame c descs.length i vm = some vm' ∧
        upvalue_inv vm' l' ups' locs' n ∧
        l'.length + ups'.length ≤ l.length + ups.length + 2 * descs.length ∧
        heap_below vm' (N + descs.length) ∧
        closure_frame vm' frame c ff pups chk ∧
        payload_at vm'.heap c = some (obj_payload.obj_closure fn us') ∧
        us'.length = us.length ∧
        (∀ j, j < i → us'[j]? = us[j]?) ∧
        (∀ t d, descs[t]? = some d → d.1 ≠ 0 →
          ∃ u, us'[i + t]? = some (some u) ∧
            (u, (vm.frames frame).slots + d.2) ∈ ups'.zip locs') ∧
        (∀ t d, descs[t]? = some d → d.1 = 0 → pups[d.2]? = us'[i + t]?) ∧
        (∀ u s, (u, s) ∈ ups.zip locs → (u, s) ∈ ups'.zip locs') ∧
        vm'.stack = vm.stack ∧ vm'.stack_top = vm.stack_top ∧
        vm'.frames = (set_ip vm frame ((vm.frames frame).ip + 2 * descs.length)).frames ∧
        vm'.frame_count = vm.frame_count ∧ vm'.stdout = vm.stdout ∧
        (∀ k x o, k < vm.stack_top → vm.stack k = value.obj x → x ≠ c → vm.heap x = some o →
          (∀ loc cl nx, o.payload ≠ obj_payload.obj_upvalue loc cl nx) →
          ∃ o', vm'.heap x = some o' ∧ o'.payload = o.payload) := by
  intro descs
  induction descs with
  | nil =>
    intro vm l ups locs N i us hinv _ hbelow _ hfr _ _ _ hc _
    refine ⟨vm, l, ups, locs, us, rfl, hinv, Nat.le_refl _, hbelow, hfr, hc, rfl,
      fun _ _ => rfl, ?_, ?_, fun _ _ h => h, rfl, rfl, (set_ip_self_frames vm frame).symm,
      rfl, rfl, fun _ x o _ _ _ hx _ => ⟨o, hx, rfl⟩⟩
    · intro t d h
      simp at h
    · intro t d h
      simp at h
  | cons d ds ih =>
    intro vm l ups locs N i us hinv hf hbelow hN hfr hcode hlocal hnonlocal hc hi
    obtain ⟨hb1, hb2, hrest⟩ := hcode
    simp only [List.length_cons] at hf hN hi ⊢
    obtain ⟨vm4, l4, ups4, locs4, u, hrun4, hinv4, hlen4, hbelow4, hfr4, hc4, hloc4, hnl4,
      hpers4, hstack4, htop4, hframes4, hfcount4, hout4, hkeep4⟩ :=
      closure_round_ok sz fresh hfuel hfresh frame c ff pups chk fn us i d hinv (by omega)
        hbelow (by omega) hfr hb1 hb2 (hlocal d (List.mem_cons_self _ _))
        (hnonlocal d (List.mem_cons_self _ _)) hc
    have hfr4f : vm4.frames frame
        = { vm.frames frame with ip := (vm.frames frame).ip + 2 } := by
      rw [hframes4, set_ip_frame]
    have hip4 : (vm4.frames frame).ip = (vm.frames frame).ip + 2 := by rw [hfr4f]
    have hslots4 : (vm4.frames frame).slots = (vm.frames frame).slots := by rw [hfr4f]
    obtain ⟨vm', l', ups', locs', us', hrun, hinv', hlen', hbelow', hfr', hc', hus', hbefore,
      hloc', hnl', hpers', hstack', htop', hframes', hfcount', hout', hkeep'⟩ :=
      ih vm4 l4 ups4 locs4 (N + 1) (i + 1) (us.set i u) hinv4 (by omega) hbelow4 (by omega) hfr4
        (by rw [hip4]; exact hrest)
        (by
          intro d' hd' h
          rw [hslots4, htop4]
          exact hlocal d' (List.mem_cons_of_mem _ hd') h)
        (fun d' hd' h => hnonlocal d' (List.mem_cons_of_mem _ hd') h) hc4
        (by rw [List.length_set]; omega)
    have hat : us'[i]? = some u := by
      rw [hbefore i (by omega), List.getElem?_set]
      simp only [if_true]
      rw [if_pos (by omega)]
    refine ⟨vm', l', ups', locs', us', ?_, hinv', by omega, ?_, hfr', hc', ?_, ?_, ?_, ?_,
      fun a s h => hpers' a s (hpers4 a s h), hstack'.trans hstack4, htop'.trans htop4, ?_,
      hfcount'.trans hfcount4, hout'.trans hout4, ?_⟩
    · rw [hrun4 ds.length]
      exact hrun
    · intro x hx
      have := hbelow' x hx
      omega
    · rw [hus', List.length_set]
    · intro j hj
      rw [hbefore j (by omega), List.getElem?_set]
      rw [if_neg (by omega)]
    · intro t d' ht hd'
      cases t with
      | zero =>
        simp only [List.getElem?_cons_zero, Option.some.injEq] at ht
        subst ht
        obtain ⟨r, hr, hmem⟩ := hloc4 hd'
        refine ⟨r, ?_, hpers' _ _ hmem⟩
        rw [Nat.add_zero, hat, hr]
      | succ t =>
        simp only [List.getElem?_cons_succ] at ht
        obtain ⟨r, hr, hmem⟩ := hloc' t d' ht hd'
        refine ⟨r, ?_, ?_⟩
        · rw [← hr]
          congr 1
          omega
        · rw [hslots4] at hmem
          exact hmem
    · intro t d' ht hd'
      cases t with
      | zero =>
        simp only [List.getElem?_cons_zero, Option.some.injEq] at ht
        subst ht
        rw [Nat.add_zero, hat]
        exact hnl4 hd'
      | succ t =>
        simp only [List.getElem?_cons_succ] at ht
        rw [hnl' t d' ht hd']
        congr 1
        omega
    · rw [hframes', set_ip_frames_congr hframes4, hip4]
      have e : (vm.frames frame).ip + 2 + 2 * ds.length
          = (vm.frames frame).ip + 2 * (ds.length + 1) := by omega
      rw [e]
    · intro k x o hk hx hxc ho hnu
      obtain ⟨o4, ho4, hp4⟩ := hkeep4 x o ho (reachable_root (stack_root ups hk hx)) hxc hnu
      obtain ⟨o', ho', hp'⟩ := hkeep' k x o4 (by rw [htop4]; exact hk)
        (by rw [hstack4]; exact hx) hxc ho4 (by intro a b e h; rw [hp4] at h; exact hnu a b e h)
      exact ⟨o', ho', hp'.trans hp4⟩


/-- Function `new_closure` on a reachable function under the invariant of the
open-upvalue list: it links a closure at `a` whose upvalue handles are all
`NULL`, and keeps the payload of every reachable object. -/
theorem new_closure_ok (sz : sizeofs) {vm : VM} {l ups locs : List Nat} {n fuel : Nat}
    (func a ar uc : Nat) (chk : chunk) (nm : Option Nat)
    (hinv : upvalue_inv vm l ups locs n) (hfuel : 2 ^ 32 ≤ fuel)
    (hf : l.length + ups.length < fuel)
    (hfunc : payload_at vm.heap func = some (obj_payload.obj_func ar uc chk nm))
    (hreach : reachable vm ups func) (ha : vm.heap a = none) :
    ∃ (vm2 : VM) (l2 : List Nat),
      new_closure sz fuel vm func a = some (vm2, a) ∧
      upvalue_inv vm2 l2 ups locs n ∧ l2.length ≤ l.length + 1 ∧
      payload_at vm2.heap a
        = some (obj_payload.obj_closure (some func) (List.replicate uc none)) ∧
      (∀ x, x ≠ a → vm.heap x = none → vm2.heap x = none) ∧
      vm2.stack = vm.stack ∧ vm2.stack_top = vm.stack_top ∧ vm2.frames = vm.frames ∧
      vm2.frame_count = vm.frame_count ∧ vm2.stdout = vm.stdout ∧
      vm2.globals = vm.globals ∧ vm2.compilers = vm.compilers ∧
      vm2.init_string = vm.init_string ∧
      (∀ x, reachable vm ups x →
        ∃ o o', vm.heap x = some o ∧ vm2.heap x = some o' ∧ o'.payload = o.payload) := by
  obtain ⟨of, hof, hpf⟩ := payload_at_some hfunc
  obtain ⟨vm1, l1, hr1, hinv1, hlen1, hs1⟩ :=
    intern_reallocate sz hinv.inv hfuel hf 0 (sz.upvalue_ptr * uc)
  have step1 := intern_step_of_gc hs1 hinv1
  obtain ⟨vm1b, l1b, hr2, hinv2, hlen2, hs2⟩ :=
    intern_reallocate sz hinv1 hfuel (by omega : l1.length + ups.length < fuel) 0 sz.obj_closure
  have step2 := intern_step_of_gc hs2 hinv2
  have step := intern_step_trans step1 step2
  have ha2 : vm1b.heap a = none := hs2.fresh a (hs1.fresh a ha)
  have hgc : ∀ x, reachable vm ups x →
      ∃ o o', vm.heap x = some o ∧ vm1b.heap x = some o' ∧ o'.payload = o.payload :=
    step.payload
  have hedges : ∀ b, some b ∈ obj_edges
      (obj_payload.obj_closure (some func) (List.replicate uc none)) → vm1b.heap b ≠ none := by
    intro b hb
    rcases List.mem_cons.1 hb with h | h
    · obtain ⟨o, o', _, ho', _⟩ := hgc func hreach
      rw [Option.some.inj h, ho']
      simp
    · have := List.eq_of_mem_replicate h
      cases this
  have hinvW := with_object_inv (obj_payload.obj_closure (some func) (List.replicate uc none))
    hinv2 ha2 hedges
  have hloc1 := gc_step_located hs1 hinv1 hinv.located
  have hloc2 := gc_step_located hs2 hinv2 hloc1
  have hf1 := hs1.fields
  have hf2 := hs2.fields
  refine ⟨with_object vm1b a (obj_payload.obj_closure (some func) (List.replicate uc none)),
    a :: l1b, ?_, ⟨hinvW, ?_, hinv.sorted, ?_⟩, ?_, ?_, ?_, ?_, ?_, ?_, ?_, ?_, ?_, ?_, ?_, ?_⟩
  · unfold new_closure
    simp only [hof, hpf, hr1]
    rw [allocate_object_eq sz _ hr2 ha2]
  · rw [← hloc2]
    refine open_locations_congr_slot ups ?_
    intro u hu
    obtain ⟨o, ho⟩ := Option.ne_none_iff_exists'.1 (ups_valid hinv2 hu)
    unfold upvalue_slot
    rw [with_object_heap_old _ ha2 ho, ho]
  · intro s hs
    show s < vm1b.stack_top
    rw [step.top]
    exact hinv.bound s hs
  · simp only [List.length_cons]
    omega
  · unfold payload_at
    rw [with_object_heap_new]
    rfl
  · intro x hxa hx
    show Function.update vm1b.heap a _ x = none
    rw [Function.update_noteq hxa]
    exact hs2.fresh x (hs1.fresh x hx)
  · show vm1b.stack = vm.stack
    exact (gc_step_stack hs2).1.trans (gc_step_stack hs1).1
  · exact step.top
  · exact step.frames
  · exact step.frame_count
  · exact step.stdout
  · show vm1b.globals = vm.globals
    exact ((congrArg VM.globals hf2).trans rfl).trans ((congrArg VM.globals hf1).trans rfl)
  · show vm1b.compilers = vm.compilers
    exact ((congrArg VM.compilers hf2).trans rfl).trans ((congrArg VM.compilers hf1).trans rfl)
  · show vm1b.init_string = vm.init_string
    exact ((congrArg VM.init_string hf2).trans rfl).trans
      ((congrArg VM.init_string hf1).trans rfl)
  · intro x hx
    obtain ⟨o, o', ho, ho', hp⟩ := hgc x hx
    exact ⟨o, o', ho, with_object_heap_old _ ha2 ho', hp⟩

/-- The case `OP_CLOSURE` of `run`. -/
theorem run_step_closure (sz : sizeofs) (fp : fpu) (fuel : Nat)
    (native : Nat → Nat → List value → value) (fresh : (Nat → Option obj) → Nat)
    (vm0 vm vm1 vm2 vm3 vm4 : VM) (frame func c : Nat) (oc : obj) (fn : Option Nat)
    (us : List (Option Nat))
    (h : READ_BYTE { vm0 with stdout := vm0.stdout ++ [out_item.trace] } frame
      = some (vm, OP_CLOSURE))
    (h1 : READ_CONSTANT vm frame = some (vm1, value.obj func))
    (h2 : new_closure sz fuel vm1 func (fresh vm1.heap) = some (vm2, c))
    (h3 : push vm2 (value.obj c) = some vm3)
    (h4 : vm3.heap c = some oc) (h5 : oc.payload = obj_payload.obj_closure fn us)
    (h6 : closure_upvalues sz fuel fresh frame c us.length 0 vm3 = some vm4) :
    run_step sz fp fuel native fresh vm0 frame = some (step_result.next vm4 frame) := by
  unfold run_step
  simp +decide only [h, h1, h2, h3, h4, h5, h6, Option.bind_eq_bind, Option.some_bind,
    OP_RETURN, OP_CALL, OP_CONSTANT,
    OP_NIL, OP_TRUE, OP_FALSE, OP_NEGATE, OP_ADD, OP_SUBTRACT, OP_MULTIPLY, OP_DIVIDE, OP_NOT,
    OP_EQUAL, OP_GREATER, OP_LESS, OP_POP, OP_DEFINE_GLOBAL, OP_GET_GLOBAL, OP_SET_GLOBAL,
    OP_GET_LOCAL, OP_SET_LOCAL, OP_JUMP_IF_FALSE, OP_JUMP, OP_LOOP, OP_PRINT, OP_CLOSURE,
    OP_GET_UPVALUE, OP_SET_UPVALUE, OP_CLOSE_UPVALUE, OP_CLASS, OP_GET_PROPERTY,
    OP_SET_PROPERTY, OP_METHOD, if_false, if_true] <;> rfl

theorem READ_CONSTANT_eq {vm : VM} {frame idx : Nat} {chk : chunk} {v : value}
    (hc : frame_chunk vm frame = some chk) (hb : chk.code[(vm.frames frame).ip]? = some idx)
    (hv : chk.consts.values[idx]? = some v) :
    READ_CONSTANT vm frame = some (set_ip vm frame ((vm.frames frame).ip + 1), v) := by
  unfold READ_CONSTANT
  rw [READ_BYTE_eq hc hb]
  simp only [frame_chunk_set_ip2, hc, hv]

theorem push_eq {vm : VM} (v : value) (h : vm.stack_top < STACK_MAX) :
    push vm v = some (pushed vm v) := by
  unfold push
  rw [if_pos h]
  rfl

/-- Pushing a value that is no dangling pointer keeps the invariant of the
open-upvalue list. -/
theorem upvalue_inv_pushed {vm : VM} {l ups locs : List Nat} {n : Nat}
    (hinv : upvalue_inv vm l ups locs n) (v : value)
    (hv : ∀ b, value_ptr v = some b → vm.heap b ≠ none) :
    upvalue_inv (pushed vm v) l ups locs n := by
  refine ⟨intern_inv_restack hinv.inv rfl rfl rfl rfl rfl ?_, hinv.located, hinv.sorted, ?_⟩
  · intro b hb
    have hroot := (@root_ptrs_pushed vm (pushed vm v) ups v
      (by
        intro i hi
        show Function.update vm.stack vm.stack_top v i = _
        rw [Function.update_noteq (by omega)])
      (by
        show Function.update vm.stack vm.stack_top v vm.stack_top = _
        rw [Function.update_same])
      rfl rfl rfl rfl rfl rfl (some b)).1 hb
    rcases hroot with h | h
    · exact hinv.inv.ready.roots_valid b h
    · exact hv b h.symm
  · intro s hs
    show s < vm.stack_top + 1
    exact Nat.lt_succ_of_lt (hinv.bound s hs)

theorem closure_handle_of {heap : Nat → Option obj} {c j u : Nat} {fn : Option Nat}
    {us : List (Option Nat)} (h : payload_at heap c = some (obj_payload.obj_closure fn us))
    (hj : us[j]? = some (some u)) : closure_handle heap c j = some u := by
  obtain ⟨o, ho, hp⟩ := payload_at_some h
  unfold closure_handle
  simp only [ho, hp, hj]

theorem frame_handle_of {vm : VM} {frame j u : Nat} {fn : Option Nat}
    {us : List (Option Nat)}
    (h : payload_at vm.heap (vm.frames frame).closure = some (obj_payload.obj_closure fn us))
    (hj : frame_handle vm frame j = some u) : us[j]? = some (some u) := by
  obtain ⟨o, ho, hp⟩ := payload_at_some h
  unfold frame_handle at hj
  simp only [ho, hp] at hj
  cases hx : us[j]? with
  | none => simp [hx] at hj
  | some w =>
    cases w with
    | none => simp [hx] at hj
    | some u' =>
      simp only [hx, Option.some.injEq] at hj
      rw [hj]

/-- A constant of the function of a live frame is reachable. -/
theorem constant_reachable {vm : VM} (ups : List Nat) {frame ff ar uc idx func : Nat}
    {pups : List (Option Nat)} {chk : chunk} {nm : Option Nat} (hlive : frame < vm.frame_count)
    (hfc : payload_at vm.heap (vm.frames frame).closure
      = some (obj_payload.obj_closure (some ff) pups))
    (hff : payload_at vm.heap ff = some (obj_payload.obj_func ar uc chk nm))
    (hconst : chk.consts.values[idx]? = some (value.obj func)) (hcount : idx < chk.consts.count) :
    reachable vm ups func := by
  have h1 : reachable vm ups (vm.frames frame).closure := reachable_root (frame_root ups hlive)
  obtain ⟨o, ho, hp⟩ := payload_at_some hfc
  obtain ⟨o2, ho2, hp2⟩ := payload_at_some hff
  have h2 : reachable vm ups ff := reachable_edge h1 ho (by rw [hp]; exact List.mem_cons_self _ _)
  refine reachable_edge h2 ho2 ?_
  rw [hp2]
  refine List.mem_cons_of_mem _ (List.mem_map.2 ⟨value.obj func, ?_, rfl⟩)
  refine List.mem_iff_getElem?.2 ⟨idx, ?_⟩
  rw [List.getElem?_take_of_lt hcount]
  exact hconst

/-- The case `OP_CLOSURE` of `run` under the invariant of the open-upvalue
list: the instruction succeeds and pushes a new closure `c`; for every
descriptor of a local its handle is the listed upvalue of the stack slot
`frame->slots + index`, which is the upvalue that was listed for that slot if
there was one; the upvalues that were listed stay listed, and the objects on
the stack that are not upvalues keep their fields. -/
theorem closure_step_ok (sz : sizeofs) (fp : fpu)
    (native : Nat → Nat → List value → value) (fresh : (Nat → Option obj) → Nat)
    {fuel M n : Nat} (hfuel : 2 ^ 32 ≤ fuel) (hfresh : allocator_ok fresh M)
    (vm0 : VM) (l ups locs : List Nat) (N frame ff : Nat) (pups : List (Option Nat))
    (ar uc : Nat) (chk : chunk) (nm : Option Nat) (idx func ar' : Nat) (chk' : chunk)
    (nm' : Option Nat) (descs : List (Nat × Nat))
    (hinv : upvalue_inv vm0 l ups locs n)
    (hf : l.length + ups.length + 2 * descs.length + 1 < fuel)
    (hbelow : heap_below vm0 N) (hN : N + descs.length + 1 < M)
    (hlive : frame < vm0.frame_count)
    (hfc : payload_at vm0.heap (vm0.frames frame).closure
      = some (obj_payload.obj_closure (some ff) pups))
    (hff : payload_at vm0.heap ff = some (obj_payload.obj_func ar uc chk nm))
    (hop : chk.code[(vm0.frames frame).ip]? = some OP_CLOSURE)
    (hidx : chk.code[(vm0.frames frame).ip + 1]? = some idx)
    (hconst : chk.consts.values[idx]? = some (value.obj func)) (hcount : idx < chk.consts.count)
    (hfunc : payload_at vm0.heap func = some (obj_payload.obj_func ar' descs.length chk' nm'))
    (hdescs : descriptors_at chk.code ((vm0.frames frame).ip + 2) descs)
    (hlocal : ∀ d ∈ descs, d.1 ≠ 0 → (vm0.frames frame).slots + d.2 ≤ vm0.stack_top)
    (hnonlocal : ∀ d ∈ descs, d.1 = 0 → d.2 < pups.length)
    (hmax : vm0.stack_top < STACK_MAX) :
    ∃ (vm' : VM) (l' ups' locs' : List Nat) (c : Nat),
      run_step sz fp fuel native fresh vm0 frame = some (step_result.next vm' frame) ∧
      upvalue_inv vm' l' ups' locs' n ∧
      l'.length + ups'.length ≤ l.length + ups.length + 2 * descs.length + 1 ∧
      heap_below vm' (N + descs.length + 1) ∧
      vm0.heap c = none ∧
      vm'.stack_top = vm0.stack_top + 1 ∧ vm'.stack vm0.stack_top = value.obj c ∧
      (∀ k, k < vm0.stack_top → vm'.stack k = vm0.stack k) ∧
      vm'.frames = (set_ip vm0 frame ((vm0.frames frame).ip + 2 + 2 * descs.length)).frames ∧
      vm'.frame_count = vm0.frame_count ∧
      vm'.stdout = vm0.stdout ++ [out_item.trace] ∧
      (∃ us', payload_at vm'.heap c = some (obj_payload.obj_closure (some func) us') ∧
        us'.length = descs.length) ∧
      (∀ t d, descs[t]? = some d → d.1 ≠ 0 →
        ∃ u, closure_handle vm'.heap c t = some u ∧
          (u, (vm0.frames frame).slots + d.2) ∈ ups'.zip locs' ∧
          ∀ u0, (u0, (vm0.frames frame).slots + d.2) ∈ ups.zip locs → u0 = u) ∧
      (∀ t d u, descs[t]? = some d → d.1 = 0 → frame_handle vm0 frame d.2 = some u →
        closure_handle vm'.heap c t = some u) ∧
      (∀ u s, (u, s) ∈ ups.zip locs → (u, s) ∈ ups'.zip locs') ∧
      (∀ k x o, k < vm0.stack_top → vm0.stack k = value.obj x → vm0.heap x = some o →
        (∀ loc cl nx, o.payload ≠ obj_payload.obj_upvalue loc cl nx) →
        ∃ o', vm'.heap x = some o' ∧ o'.payload = o.payload) := by
  have hchunk : frame_chunk vm0 frame = some chk := frame_chunk_of_payload hfc hff
  have hread := @READ_BYTE_eq { vm0 with stdout := vm0.stdout ++ [out_item.trace] } frame
    OP_CLOSURE chk hchunk hop
  have hconstant := @READ_CONSTANT_eq
    (set_ip { vm0 with stdout := vm0.stdout ++ [out_item.trace] } frame
      ((vm0.frames frame).ip + 1)) frame idx chk (value.obj func)
    (by rw [frame_chunk_set_ip]; exact hchunk) (by rw [set_ip_frame]; exact hidx) hconst
  rw [set_ip_frame, set_ip_set_ip] at hconstant
  obtain ⟨vm1, hvm1⟩ : ∃ v : VM, v = set_ip { vm0 with stdout := vm0.stdout ++ [out_item.trace] }
      frame ((vm0.frames frame).ip + 2) := ⟨_, rfl⟩
  have hconstant1 : READ_CONSTANT (set_ip { vm0 with stdout := vm0.stdout ++ [out_item.trace] }
      frame ((vm0.frames frame).ip + 1)) frame = some (vm1, value.obj func) := by
    rw [hvm1]
    exact hconstant
  have hheap1 : vm1.heap = vm0.heap := by rw [hvm1]; rfl
  have hstack1 : vm1.stack = vm0.stack := by rw [hvm1]; rfl
  have htop1 : vm1.stack_top = vm0.stack_top := by rw [hvm1]; rfl
  have hfcount1 : vm1.frame_count = vm0.frame_count := by rw [hvm1]; rfl
  have hout1 : vm1.stdout = vm0.stdout ++ [out_item.trace] := by rw [hvm1]; rfl
  have hframes1 : vm1.frames = (set_ip vm0 frame ((vm0.frames frame).ip + 2)).frames := by
    rw [hvm1]; rfl
  have hfr1 : vm1.frames frame = { vm0.frames frame with ip := (vm0.frames frame).ip + 2 } := by
    rw [hframes1, set_ip_frame]
  have hinv1 : upvalue_inv vm1 l ups locs n := by
    rw [hvm1]
    exact ⟨fetched_inv hinv.inv _ frame _, hinv.located, hinv.sorted, hinv.bound⟩
  have hreach1 : ∀ x, reachable vm0 ups x → reachable vm1 ups x := by
    intro x hx
    rw [hvm1]
    exact reachable_set_ip _ frame _ hx
  have hbelow1 : heap_below vm1 N := by
    intro x hx
    rw [hheap1] at hx
    exact hbelow x hx
  obtain ⟨ha, hale⟩ := hfresh vm1.heap N (by omega) hbelow1
  obtain ⟨hr_fc, hr_ff, hr_func⟩ : reachable vm0 ups (vm0.frames frame).closure ∧
      reachable vm0 ups ff ∧ reachable vm0 ups func := by
    have h1 : reachable vm0 ups (vm0.frames frame).closure :=
      reachable_root (frame_root ups hlive)
    obtain ⟨o, ho, hp⟩ := payload_at_some hfc
    exact ⟨h1, reachable_edge h1 ho (by rw [hp]; exact List.mem_cons_self _ _),
      constant_reachable ups hlive hfc hff hconst hcount⟩
  obtain ⟨vm2, l2, hnew, hinv2, hlen2, hc2, hfree2, hstack2, htop2, hframes2, hfcount2, hout2,
    hglob2, hcomp2, hinit2, hpay2⟩ :=
    new_closure_ok sz func (fresh vm1.heap) ar' descs.length chk' nm' hinv1 hfuel (by omega)
      (by rw [hheap1]; exact hfunc) (hreach1 func hr_func) ha
  obtain ⟨oc2, hoc2, hpc2⟩ := payload_at_some hc2
  have hpush := @push_eq vm2 (value.obj (fresh vm1.heap)) (by rw [htop2, htop1]; exact hmax)
  have hinv3 := upvalue_inv_pushed hinv2 (value.obj (fresh vm1.heap)) (by
    intro b hb
    cases hb
    rw [hoc2]
    simp)
  have hkeep2 : ∀ x o, vm0.heap x = some o → reachable vm0 ups x →
      ∃ o', vm2.heap x = some o' ∧ o'.payload = o.payload := by
    intro x o hx hreach
    obtain ⟨o1, o2, ho1, ho2, hp⟩ := hpay2 x (hreach1 x hreach)
    rw [hheap1, hx] at ho1
    cases ho1
    exact ⟨o2, ho2, hp⟩
  have hclo2 : (vm2.frames frame).closure = (vm0.frames frame).closure := by
    rw [hframes2, hfr1]
  have hfr3 : closure_frame (pushed vm2 (value.obj (fresh vm1.heap))) frame (fresh vm1.heap) ff
      pups chk := by
    refine ⟨?_, ?_, ⟨ar, uc, nm, ?_⟩, ?_, ?_, ?_⟩
    · show frame < vm2.frame_count
      rw [hfcount2, hfcount1]
      exact hlive
    · show payload_at vm2.heap (vm2.frames frame).closure = _
      rw [hclo2]
      obtain ⟨o, ho, hp⟩ := payload_at_some hfc
      obtain ⟨o', ho', hp'⟩ := hkeep2 _ o ho hr_fc
      rw [payload_at_of ho', hp', hp]
    · show payload_at vm2.heap ff = _
      obtain ⟨o, ho, hp⟩ := payload_at_some hff
      obtain ⟨o', ho', hp'⟩ := hkeep2 _ o ho hr_ff
      rw [payload_at_of ho', hp', hp]
    · show 0 < vm2.stack_top + 1
      omega
    · show Function.update vm2.stack vm2.stack_top _ (vm2.stack_top + 1 - 1) = _
      rw [Nat.add_sub_cancel, Function.update_same]
    · show fresh vm1.heap ≠ (vm2.frames frame).closure
      rw [hclo2]
      intro h
      obtain ⟨o, ho, _⟩ := payload_at_some hfc
      rw [← h, ← hheap1, ha] at ho
      cases ho
  have hbelow3 : heap_below (pushed vm2 (value.obj (fresh vm1.heap))) (N + 1) := by
    intro x hx
    by_cases hxa : x = fresh vm1.heap
    · rw [hxa]; exact hale
    · have : vm1.heap x ≠ none := fun h => hx (hfree2 x hxa h)
      exact Nat.le_succ_of_le (hbelow1 x this)
  have hslots3 : ((pushed vm2 (value.obj (fresh vm1.heap))).frames frame).slots
      = (vm0.frames frame).slots := by
    show (vm2.frames frame).slots = _
    rw [hframes2, hfr1]
  have hip3 : ((pushed vm2 (value.obj (fresh vm1.heap))).frames frame).ip
      = (vm0.frames frame).ip + 2 := by
    show (vm2.frames frame).ip = _
    rw [hframes2, hfr1]
  obtain ⟨vm', l', ups', locs', us', hrun, hinv', hlen', hbelow', _, hc', hus', _, hloc', hnl',
    hpers', hstack', htop', hframes', hfcount', hout', hkeep'⟩ :=
    closure_upvalues_ok sz fresh hfuel hfresh frame (fresh vm1.heap) ff pups chk (some func) descs
      (pushed vm2 (value.obj (fresh vm1.heap))) l2 ups locs (N + 1) 0
      (List.replicate descs.length none) hinv3 (by omega) hbelow3 (by omega) hfr3
      (by rw [hip3]; exact hdescs)
      (by
        intro d hd h
        rw [hslots3]
        show _ < vm2.stack_top + 1
        rw [htop2, htop1]
        exact Nat.lt_succ_of_le (hlocal d hd h))
      hnonlocal hc2 (by rw [List.length_replicate]; omega)
  have hstep := run_step_closure sz fp fuel native fresh vm0 _ vm1 vm2 _ vm' frame func
    (fresh vm1.heap) oc2 (some func) (List.replicate descs.length none) hread hconstant1 hnew
    hpush hoc2 hpc2 (by rw [List.length_replicate]; exact hrun)
  rw [hslots3] at hloc'
  refine ⟨vm', l', ups', locs', fresh vm1.heap, hstep, hinv', by omega, ?_, ?_, ?_, ?_, ?_, ?_,
    ?_, ?_, ⟨us', hc', ?_⟩, ?_, ?_, hpers', ?_⟩
  · intro x hx
    have := hbelow' x hx
    omega
  · rw [← hheap1]
    exact ha
  · rw [htop']
    show vm2.stack_top + 1 = _
    rw [htop2, htop1]
  · rw [hstack']
    show Function.update vm2.stack vm2.stack_top _ vm0.stack_top = _
    rw [htop2, htop1, Function.update_same]
  · intro k hk
    rw [hstack']
    show Function.update vm2.stack vm2.stack_top _ k = _
    rw [htop2, htop1, Function.update_noteq (by omega), hstack2, hstack1]
  · rw [hframes', set_ip_frames_congr (show (pushed vm2 (value.obj (fresh vm1.heap))).frames
      = (set_ip vm0 frame ((vm0.frames frame).ip + 2)).frames from hframes2.trans hframes1), hip3]
  · rw [hfcount']
    show vm2.frame_count = _
    rw [hfcount2, hfcount1]
  · rw [hout']
    show vm2.stdout = _
    rw [hout2, hout1]
  · rw [hus', List.length_replicate]
  · intro t d ht hd
    obtain ⟨u, hu, hmem⟩ := hloc' t d ht hd
    rw [Nat.zero_add] at hu
    refine ⟨u, closure_handle_of hc' hu, hmem, ?_⟩
    intro u0 hu0
    exact zip_unique hinv'.sorted (hpers' _ _ hu0) hmem
  · intro t d u ht hd hu
    have h1 := frame_handle_of hfc hu
    have h2 := hnl' t d ht hd
    rw [Nat.zero_add, h1] at h2
    exact closure_handle_of hc' h2.symm
  · intro k x o hk hx ho hnu
    obtain ⟨o2, ho2, hp2⟩ := hkeep2 x o ho (reachable_root (stack_root ups hk hx))
    have hxa : x ≠ fresh vm1.heap := by
      intro h
      rw [h, ← hheap1, ha] at ho
      cases ho
    obtain ⟨o', ho', hp'⟩ := hkeep' k x o2
      (by show k < vm2.stack_top + 1; rw [htop2, htop1]; omega)
      (by
        show Function.update vm2.stack vm2.stack_top _ k = _
        rw [htop2, htop1, Function.update_noteq (by omega), hstack2, hstack1]
        exact hx)
      hxa ho2 (by intro a b e h; rw [hp2] at h; exact hnu a b e h)
    exact ⟨o', ho', hp'.trans hp2⟩

theorem find_range_le (p : Nat → Bool) :
    ∀ (n k : Nat), k < n → p k = true →
      ∃ a, (List.range n).find? p = some a ∧ p a = true ∧ a ≤ k := by
  intro n
  induction n with
  | zero => intro k hk; omega
  | succ n ih =>
    intro k hk hp
    rw [List.range_succ, List.find?_append]
    by_cases hkn : k < n
    · obtain ⟨a, ha, hpa, hak⟩ := ih k hkn hp
      exact ⟨a, by rw [ha]; rfl, hpa, hak⟩
    · have hkn' : k = n := by omega
      subst hkn'
      cases hf : (List.range k).find? p with
      | none =>
        refine ⟨k, ?_, hp, Nat.le_refl _⟩
        simp [List.find?, hp]
      | some a =>
        have hmem := List.mem_of_find?_eq_some hf
        have hpa := List.find?_some hf
        exact ⟨a, rfl, hpa, Nat.le_of_lt (List.mem_range.1 hmem)⟩

/-- The allocator `first_free` returns a free address next to the objects in
use while they lie below 1024. -/
theorem first_free_ok : allocator_ok first_free 1024 := by
  intro h N hN hbelow
  have hfree : (h (N + 1)).isNone = true := by
    cases hx : h (N + 1) with
    | none => rfl
    | some o =>
      have := hbelow (N + 1) (by rw [hx]; simp)
      omega
  obtain ⟨a, ha, hpa, haN⟩ := find_range_le (fun a => (h (a + 1)).isNone) 1024 N hN hfree
  unfold first_free
  rw [ha]
  simp only [Option.getD_some]
  refine ⟨?_, by omega⟩
  simp only [Option.isNone_iff_eq_none] at hpa
  exact hpa

theorem heap_c_cases {a : Nat} {o : obj} (h : heap_c a = some o) :
    a = 1 ∨ a = 2 ∨ a = 3 ∨ a = 4 ∨ a = 5 ∨ a = 6 := by
  unfold heap_c at h
  by_cases h1 : a = 1
  · exact Or.inl h1
  by_cases h2 : a = 2
  · exact Or.inr (Or.inl h2)
  by_cases h3 : a = 3
  · exact Or.inr (Or.inr (Or.inl h3))
  by_cases h4 : a = 4
  · exact Or.inr (Or.inr (Or.inr (Or.inl h4)))
  by_cases h5 : a = 5
  · exact Or.inr (Or.inr (Or.inr (Or.inr (Or.inl h5))))
  by_cases h6 : a = 6
  · exact Or.inr (Or.inr (Or.inr (Or.inr (Or.inr h6))))
  simp [h1, h2, h3, h4, h5, h6] at h

theorem valid_of_in_heap_c {ps : List (Option Nat)} (h : in_heap_c ps = true) (b : Nat)
    (hb : some b ∈ ps) : heap_c b ≠ none := by
  unfold in_heap_c at h
  rw [List.all_eq_true] at h
  have := h (some b) hb
  simp only [Option.isSome_iff_ne_none] at this
  exact this

/-- A state over `heap_c` whose roots are objects of the heap satisfies the
invariant of the open-upvalue list. -/
theorem heap_c_inv (vm : VM) (hheap : vm.heap = heap_c) (hobjects : vm.objects = some 6)
    (hstrings : vm.strings = init_table) (hgray : vm.gray_stack = [])
    (hopen : vm.open_upvalues = some 5) (hroots : in_heap_c (root_ptrs vm [5]) = true)
    (htop : 1 < vm.stack_top) :
    upvalue_inv vm [6, 5, 4, 3, 2, 1] [5] [1] 0 := by
  refine ⟨⟨⟨?_, by decide, ?_, ?_, hgray, ?_, ?_, ?_, ?_, ?_⟩, ?_, ?_, ?_, ?_⟩, ?_, ?_, ?_⟩
  · rw [hheap, hobjects]
    exact ⟨rfl, _, rfl, rfl, _, rfl, rfl, _, rfl, rfl, _, rfl, rfl, _, rfl, rfl, _, rfl, rfl⟩
  · intro a o h
    rw [hheap] at h
    rcases heap_c_cases h with h | h | h | h | h | h <;> subst h <;> decide
  · intro a o h
    rw [hheap] at h
    rcases heap_c_cases h with h' | h' | h' | h' | h' | h' <;> subst h' <;>
      simp [heap_c] at h <;> rw [← h]
  · rw [hheap, hopen]
    exact ⟨rfl, none, rfl, rfl⟩
  · rw [hheap]
    exact valid_of_in_heap_c hroots
  · intro a o h
    rw [hheap] at h ⊢
    rcases heap_c_cases h with h' | h' | h' | h' | h' | h' <;> subst h' <;>
      simp only [heap_c, if_true, OfNat.ofNat_ne_one, if_false, Option.some.injEq,
        reduceIte, Nat.reduceEqDiff] at h <;> rw [← h] <;>
      exact valid_of_in_heap_c (by decide)
  · rw [hstrings]
    exact table_wf_init _
  · intro e k he
    rw [hstrings] at he
    cases he
  · intro e k he
    rw [hstrings] at he
    cases he
  · rintro k1 k2 d ⟨⟨e1, he1, _⟩, _⟩ _
    rw [hstrings] at he1
    cases he1
  · rw [hstrings]; decide
  · rw [hstrings]; decide
  · rw [hheap]
    rfl
  · decide
  · intro s hs
    simp only [List.mem_singleton] at hs
    omega

theorem closure_handle_congr {heap heap' : Nat → Option obj} {c : Nat} {o o' : obj}
    (h : heap c = some o) (h' : heap' c = some o') (hp : o'.payload = o.payload) (j : Nat) :
    closure_handle heap' c j = closure_handle heap c j := by
  unfold closure_handle
  simp only [h, h', hp]

theorem closure_handle_payload {heap : Nat → Option obj} {c j u : Nat}
    (h : closure_handle heap c j = some u) :
    ∃ o fn us, heap c = some o ∧ o.payload = obj_payload.obj_closure fn us := by
  unfold closure_handle at h
  cases ho : heap c with
  | none => simp [ho] at h
  | some o =>
    cases hp : o.payload with
    | obj_closure fn us => exact ⟨o, fn, us, rfl, hp⟩
    | _ => simp [ho, hp] at h

/-- A state change that keeps the fields of the objects that are not
upvalues keeps the handles of the closures. -/
theorem closure_handle_keep {heap heap' : Nat → Option obj}
    (hkeep : ∀ x o, heap x = some o →
      (∀ loc cl nx, o.payload ≠ obj_payload.obj_upvalue loc cl nx) →
      ∃ o', heap' x = some o' ∧ o'.payload = o.payload)
    {c j u : Nat} (h : closure_handle heap c j = some u) :
    closure_handle heap' c j = some u := by
  obtain ⟨o, fn, us, ho, hp⟩ := closure_handle_payload h
  obtain ⟨o', ho', hp'⟩ := hkeep c o ho (by intro _ _ _ e; rw [hp] at e; cases e)
  rw [closure_handle_congr ho ho' hp' j]
  exact h

/-- Function `close_upvalues` keeps the value of every upvalue and the
handles of every closure, and it closes the listed upvalues of the stack slots
from `x` on. -/
theorem close_upvalues_keeps_handles {vm : VM} {ups locs : List Nat} {fuel : Nat} (x : Nat)
    (hopen : open_list vm ups locs) (hsorted : locs.Pairwise (fun a b => a > b))
    (hf : ups.length < fuel) :
    ∃ vm' : VM, close_upvalues fuel vm x = some vm' ∧
      (∀ u v, upvalue_value vm u = some v → upvalue_value vm' u = some v) ∧
      (∀ c j u, closure_handle vm.heap c j = some u → closure_handle vm'.heap c j = some u) ∧
      (∀ u s, (u, s) ∈ ups.zip locs → x ≤ s →
        ∃ (o : obj) (closed : value) (next : Option Nat), vm'.heap u = some o ∧
          o.payload = obj_payload.obj_upvalue none closed next) ∧
      vm'.stack = vm.stack ∧ vm'.stack_top = vm.stack_top ∧ vm'.frames = vm.frames := by
  obtain ⟨vm', k, hrun, hk, hframe, _, _, hpre, hfirst, hclosed, hother⟩ :=
    close_upvalues_ok x ups locs vm fuel hopen.linked hopen.located hf
  have hstk : vm'.stack = vm.stack := (congrArg VM.stack hframe).trans rfl
  have hbelow : ∀ s ∈ locs.drop k, s < x := by
    intro s hs
    obtain ⟨j, hj⟩ := List.mem_iff_getElem?.1 hs
    rw [List.getElem?_drop] at hj
    exact below_of_sorted_drop hsorted hfirst j hj
  have hin : ∀ u, u ∈ ups.take k → ∃ (s : Nat) (o : obj) (closed : value) (next : Option Nat),
      vm.heap u = some o ∧ o.payload = obj_payload.obj_upvalue (some s) closed next ∧
      vm'.heap u = some { o with payload := obj_payload.obj_upvalue none (vm.stack s) next } := by
    intro u hu
    obtain ⟨i, hi⟩ := List.mem_iff_getElem?.1 hu
    have hik : i < k := by
      have := (List.getElem?_eq_some_iff.1 hi).1
      rw [List.length_take] at this
      omega
    rw [List.getElem?_take_of_lt hik] at hi
    obtain ⟨u', s, o, closed, next, hu', _, ho, hp, ho'⟩ := hclosed i hik
    rw [hi] at hu'
    have : u = u' := Option.some.inj hu'
    subst this
    exact ⟨s, o, closed, next, ho, hp, ho'⟩
  refine ⟨vm', hrun, ?_, ?_, ?_, hstk, (congrArg VM.stack_top hframe).trans rfl,
    (congrArg VM.frames hframe).trans rfl⟩
  · intro u v hv
    by_cases hu : u ∈ ups.take k
    · obtain ⟨s, o, closed, next, ho, hp, ho'⟩ := hin u hu
      unfold upvalue_value at hv ⊢
      simp only [ho, hp] at hv
      simp only [ho']
      exact hv
    · unfold upvalue_value at hv ⊢
      rw [hother u hu, hstk]
      exact hv
  · intro c j u h
    obtain ⟨o, fn, us, ho, hp⟩ := closure_handle_payload h
    have hc : c ∉ ups.take k := by
      intro hmem
      obtain ⟨s, o2, closed, next, ho2, hp2, _⟩ := hin c hmem
      rw [ho] at ho2
      cases ho2
      rw [hp] at hp2
      cases hp2
    unfold closure_handle at h ⊢
    rw [hother c hc]
    exact h
  · intro u s hmem hge
    obtain ⟨i, hi1, hi2⟩ := mem_zip_iff_index.1 hmem
    have hik : i < k := by
      by_contra hcon
      have : s ∈ locs.drop k := by
        refine List.mem_iff_getElem?.2 ⟨i - k, ?_⟩
        rw [List.getElem?_drop]
        rw [show k + (i - k) = i by omega]
        exact hi2
      have := hbelow s this
      omega
    have hu : u ∈ ups.take k := by
      refine List.mem_iff_getElem?.2 ⟨i, ?_⟩
      rw [List.getElem?_take_of_lt hik]
      exact hi1
    obtain ⟨s', o, closed, next, _, _, ho'⟩ := hin u hu
    exact ⟨_, _, _, ho', rfl⟩

/-- C14: closures made by `OP_CLOSURE` in one frame share the upvalue of a
local they both capture, and what `OP_SET_UPVALUE` stores through a handle of
that upvalue is what `OP_GET_UPVALUE` reads through any handle of it, before
and after `close_upvalues`.  Four facts, for an allocator that returns free
addresses (`allocator_ok`) and enough fuel for the loops:
(1) `OP_CLOSURE` in a state that satisfies the invariant of the open-upvalue
list (`upvalue_inv`) succeeds and pushes a new closure `c`; for every
descriptor of a local, `upvalues[t]` of `c` is the listed open upvalue of the
stack slot `frame->slots + index`, and it is the upvalue `u0` that was listed
for that slot before the instruction if there was one, so it is the object an
earlier closure of the frame holds for the slot; the invariant holds again,
the listed upvalues stay listed, and the closures on the stack keep their
handles;
(2) `OP_SET_UPVALUE` through a handle of the upvalue object `u` makes the
value on top of the stack the value of `u` (the stack slot it points at while
it is open, its field `closed` afterwards) and keeps the handles of all
closures;
(3) `close_upvalues` keeps the value of every upvalue and the handles of all
closures, and the listed upvalues of the slots from `x` on are closed
afterwards;
(4) `OP_GET_UPVALUE` through a handle of the upvalue object `u` pushes the
value of `u`. -/
theorem closures_share_upvalue (sz : sizeofs) (fp : fpu)
    (native : Nat → Nat → List value → value) (fresh : (Nat → Option obj) → Nat)
    (fuel M n : Nat) (hfuel : 2 ^ 32 ≤ fuel) (hfresh : allocator_ok fresh M) :
    (∀ (vm0 : VM) (l ups locs : List Nat) (N frame ff : Nat) (pups : List (Option Nat))
      (ar uc : Nat) (chk : chunk) (nm : Option Nat) (idx func ar' : Nat) (chk' : chunk)
      (nm' : Option Nat) (descs : List (Nat × Nat)),
      upvalue_inv vm0 l ups locs n →
      l.length + ups.length + 2 * descs.length + 1 < fuel →
      heap_below vm0 N → N + descs.length + 1 < M →
      frame < vm0.frame_count →
      payload_at vm0.heap (vm0.frames frame).closure
        = some (obj_payload.obj_closure (some ff) pups) →
      payload_at vm0.heap ff = some (obj_payload.obj_func ar uc chk nm) →
      chk.code[(vm0.frames frame).ip]? = some OP_CLOSURE →
      chk.code[(vm0.frames frame).ip + 1]? = some idx →
      chk.consts.values[idx]? = some (value.obj func) → idx < chk.consts.count →
      payload_at vm0.heap func = some (obj_payload.obj_func ar' descs.length chk' nm') →
      descriptors_at chk.code ((vm0.frames frame).ip + 2) descs →
      (∀ d ∈ descs, d.1 ≠ 0 → (vm0.frames frame).slots + d.2 ≤ vm0.stack_top) →
      (∀ d ∈ descs, d.1 = 0 → d.2 < pups.length) →
      vm0.stack_top < STACK_MAX →
      ∃ (vm' : VM) (l' ups' locs' : List Nat) (c : Nat),
        run_step sz fp fuel native fresh vm0 frame = some (step_result.next vm' frame) ∧
        upvalue_inv vm' l' ups' locs' n ∧
        l'.length + ups'.length ≤ l.length + ups.length + 2 * descs.length + 1 ∧
        heap_below vm' (N + descs.length + 1) ∧
        vm0.heap c = none ∧
        vm'.stack_top = vm0.stack_top + 1 ∧ vm'.stack vm0.stack_top = value.obj c ∧
        (∀ k, k < vm0.stack_top → vm'.stack k = vm0.stack k) ∧
        vm'.frames
          = (set_ip vm0 frame ((vm0.frames frame).ip + 2 + 2 * descs.length)).frames ∧
        vm'.frame_count = vm0.frame_count ∧
        (∃ us', payload_at vm'.heap c = some (obj_payload.obj_closure (some func) us') ∧
          us'.length = descs.length) ∧
        (∀ t d, descs[t]? = some d → d.1 ≠ 0 →
          ∃ u, closure_handle vm'.heap c t = some u ∧
            (u, (vm0.frames frame).slots + d.2) ∈ ups'.zip locs' ∧
            ∀ u0, (u0, (vm0.frames frame).slots + d.2) ∈ ups.zip locs → u0 = u) ∧
        (∀ t d u, descs[t]? = some d → d.1 = 0 → frame_handle vm0 frame d.2 = some u →
          closure_handle vm'.heap c t = some u) ∧
        (∀ u s, (u, s) ∈ ups.zip locs → (u, s) ∈ ups'.zip locs') ∧
        (∀ k c1 j w, k < vm0.stack_top → vm0.stack k = value.obj c1 →
          closure_handle vm0.heap c1 j = some w → closure_handle vm'.heap c1 j = some w)) ∧
    (∀ (vm0 vm vm1 : VM) (frame slot u : Nat) (v0 : value),
      READ_BYTE { vm0 with stdout := vm0.stdout ++ [out_item.trace] } frame
        = some (vm, OP_SET_UPVALUE) →
      READ_BYTE vm frame = some (vm1, slot) →
      frame_handle vm1 frame slot = some u → upvalue_value vm1 u = some v0 →
      0 < vm1.stack_top →
      ∃ vm' : VM, run_step sz fp fuel native fresh vm0 frame = some (step_result.next vm' frame) ∧
        upvalue_value vm' u = some (vm1.stack (vm1.stack_top - 1)) ∧
        vm'.stack_top = vm1.stack_top ∧ vm'.frames = vm1.frames ∧
        (∀ c j w, closure_handle vm1.heap c j = some w →
          closure_handle vm'.heap c j = some w)) ∧
    (∀ (vm : VM) (ups locs : List Nat) (x : Nat),
      open_list vm ups locs → locs.Pairwise (fun a b => a > b) → ups.length < fuel →
      ∃ vm' : VM, close_upvalues fuel vm x = some vm' ∧
        (∀ u v, upvalue_value vm u = some v → upvalue_value vm' u = some v) ∧
        (∀ c j u, closure_handle vm.heap c j = some u →
          closure_handle vm'.heap c j = some u) ∧
        (∀ u s, (u, s) ∈ ups.zip locs → x ≤ s →
          ∃ (o : obj) (closed : value) (next : Option Nat), vm'.heap u = some o ∧
            o.payload = obj_payload.obj_upvalue none closed next) ∧
        vm'.stack = vm.stack ∧ vm'.stack_top = vm.stack_top ∧ vm'.frames = vm.frames) ∧
    (∀ (vm0 vm vm1 : VM) (frame slot u : Nat) (v : value),
      READ_BYTE { vm0 with stdout := vm0.stdout ++ [out_item.trace] } frame
        = some (vm, OP_GET_UPVALUE) →
      READ_BYTE vm frame = some (vm1, slot) →
      frame_handle vm1 frame slot = some u → upvalue_value vm1 u = some v →
      vm1.stack_top < STACK_MAX →
      ∃ vm' : VM, run_step sz fp fuel native fresh vm0 frame = some (step_result.next vm' frame) ∧
        vm'.stack vm1.stack_top = v ∧ vm'.stack_top = vm1.stack_top + 1) := by
  refine ⟨?_, ?_, ?_, ?_⟩
  · intro vm0 l ups locs N frame ff pups ar uc chk nm idx func ar' chk' nm' descs hinv hf hbelow
      hN hlive hfc hff hop hidx hconst hcount hfunc hdescs hlocal hnonlocal hmax
    obtain ⟨vm', l', ups', locs', c, hrun, hinv', hlen', hbelow', hc, htop', hpushed, hstack',
      hframes', hfcount', _, hpay', hloc', hnl', hpers', hkeep'⟩ :=
      closure_step_ok sz fp native fresh hfuel hfresh vm0 l ups locs N frame ff pups ar uc chk nm
        idx func ar' chk' nm' descs hinv hf hbelow hN hlive hfc hff hop hidx hconst hcount hfunc
        hdescs hlocal hnonlocal hmax
    refine ⟨vm', l', ups', locs', c, hrun, hinv', hlen', hbelow', hc, htop', hpushed, hstack',
      hframes', hfcount', hpay', hloc', hnl', hpers', ?_⟩
    intro k c1 j w hk hx hw
    obtain ⟨o, fn, us, ho, hp⟩ := closure_handle_payload hw
    obtain ⟨o', ho', hp'⟩ := hkeep' k c1 o hk hx ho (by intro _ _ _ e; rw [hp] at e; cases e)
    rw [closure_handle_congr ho ho' hp' j]
    exact hw
  · intro vm0 vm vm1 frame slot u v0 hread hslot hh hval htop
    obtain ⟨vm', hrun, hv, htop', _, hframes', hkeep'⟩ :=
      set_upvalue_stores sz fp fuel native fresh vm0 vm vm1 frame slot u v0 hread hslot hh hval
        htop
    refine ⟨vm', hrun, hv, htop', hframes', ?_⟩
    intro c j w hw
    exact closure_handle_keep (fun x o hx hnu => ⟨o, hkeep' x o hx hnu, rfl⟩) hw
  · intro vm ups locs x hopen hsorted hf
    exact close_upvalues_keeps_handles x hopen hsorted hf
  · intro vm0 vm vm1 frame slot u v hread hslot hh hval hmax
    exact get_upvalue_reads sz fp fuel native fresh vm0 vm vm1 frame slot u v hread hslot hh hval
      hmax

theorem heap_c_below (vm : VM) (hheap : vm.heap = heap_c) : heap_below vm 6 := by
  intro x hx
  rw [hheap] at hx
  obtain ⟨o, ho⟩ := Option.ne_none_iff_exists'.1 hx
  rcases heap_c_cases ho with h | h | h | h | h | h <;> omega

/-- C14 at concrete states over the heap `heap_c`, where the closures 4 and 6
hold the open upvalue 5 of the stack slot 1.  The third `OP_CLOSURE` of the
script pushes a closure whose handle is the upvalue 5 as well; in a call of
the closure 4, `OP_SET_UPVALUE 0` makes 9 the value of the upvalue 5 that the
closure 6 still holds; `close_upvalues` from slot 1 on closes the upvalue 5
and keeps its value 7; in a call of the closure 6, `OP_GET_UPVALUE 0` pushes
that value. -/
theorem closures_share_upvalue_witness :
    ((2 : Nat) ^ 32 ≤ 2 ^ 32 ∧ allocator_ok first_free 1024 ∧
      upvalue_inv (vm_c 1 stack_c) [6, 5, 4, 3, 2, 1] [5] [1] 0 ∧
      closure_handle (vm_c 1 stack_c).heap 4 0 = some 5 ∧
      closure_handle (vm_c 1 stack_c).heap 6 0 = some 5 ∧
      open_list (vm_c 3 stack_c_calls) [5] [1] ∧
      upvalue_value (vm_c 3 stack_c_calls) 5 = some (value.number 7)) ∧
    (∃ (vm' : VM) (c : Nat),
      run_step sizes_lp64 fpu_zero (2 ^ 32) native_nil first_free (vm_c 1 stack_c) 0
        = some (step_result.next vm' 0) ∧
      vm'.stack 4 = value.obj c ∧ (vm_c 1 stack_c).heap c = none ∧
      closure_handle vm'.heap c 0 = some 5 ∧
      closure_handle vm'.heap 4 0 = some 5 ∧ closure_handle vm'.heap 6 0 = some 5) ∧
    (∃ vm' : VM,
      run_step sizes_lp64 fpu_zero (2 ^ 32) native_nil first_free (vm_c 3 stack_c_calls) 1
        = some (step_result.next vm' 1) ∧
      upvalue_value vm' 5 = some (value.number 9) ∧ closure_handle vm'.heap 6 0 = some 5) ∧
    (∃ vm' : VM, close_upvalues (2 ^ 32) (vm_c 3 stack_c_calls) 1 = some vm' ∧
      upvalue_value vm' 5 = some (value.number 7) ∧ closure_handle vm'.heap 6 0 = some 5 ∧
      ∃ (o : obj) (closed : value) (next : Option Nat), vm'.heap 5 = some o ∧
        o.payload = obj_payload.obj_upvalue none closed next) ∧
    (∃ vm' : VM,
      run_step sizes_lp64 fpu_zero (2 ^ 32) native_nil first_free (vm_c 3 stack_c_calls) 2
        = some (step_result.next vm' 2) ∧
      vm'.stack 7 = value.number 7 ∧ vm'.stack_top = 8) := by
  have h := closures_share_upvalue sizes_lp64 fpu_zero native_nil first_free (2 ^ 32) 1024 0
    (Nat.le_refl _) first_free_ok
  have hinv : upvalue_inv (vm_c 1 stack_c) [6, 5, 4, 3, 2, 1] [5] [1] 0 :=
    heap_c_inv _ rfl rfl rfl rfl rfl (by decide) (by decide)
  have hopen : open_list (vm_c 3 stack_c_calls) [5] [1] := ⟨⟨rfl, none, rfl, rfl⟩, rfl⟩
  refine ⟨⟨Nat.le_refl _, first_free_ok, hinv, rfl, rfl, hopen, rfl⟩, ?_, ?_, ?_, ?_⟩
  · obtain ⟨vm', l', ups', locs', c, hrun, _, _, _, hc, _, hpushed, _, _, _, _, hloc, _, _,
      hkeep⟩ :=
      h.1 (vm_c 1 stack_c) [6, 5, 4, 3, 2, 1] [5] [1] 6 0 2 [] 0 0
        (chunk_of [OP_CLOSURE, 0, 1, 0, OP_CLOSURE, 0, 1, 0, OP_CLOSURE, 0, 1, 0] [value.obj 1])
        none 0 1 0 (chunk_of [OP_SET_UPVALUE, 0, OP_GET_UPVALUE, 0] []) none [(1, 0)] hinv
        (by decide) (heap_c_below _ rfl) (by decide) (by decide) rfl rfl rfl rfl rfl (by decide)
        rfl ⟨rfl, rfl, trivial⟩
        (by
          intro d hd _
          rw [List.mem_singleton] at hd
          subst hd
          decide)
        (by
          intro d hd h0
          rw [List.mem_singleton] at hd
          subst hd
          cases h0)
        (by decide)
    obtain ⟨u, hu, _, huniq⟩ := hloc 0 (1, 0) rfl (by decide)
    have h5 : 5 = u := huniq 5 (by decide)
    rw [← h5] at hu
    exact ⟨vm', c, hrun, hpushed, hc, hu, hkeep 2 4 0 5 (by decide) rfl rfl,
      hkeep 3 6 0 5 (by decide) rfl rfl⟩
  · obtain ⟨vm', hrun, hv, _, _, hkeep⟩ :=
      h.2.1 (vm_c 3 stack_c_calls) (fetched (vm_c 3 stack_c_calls) 1)
        (fetched_operand (vm_c 3 stack_c_calls) 1) 1 0 5 (value.number 7) rfl rfl rfl rfl
        (by decide)
    exact ⟨vm', hrun, hv, hkeep 6 0 5 rfl⟩
  · obtain ⟨vm', hrun, hv, hh, hclosed, _⟩ :=
      h.2.2.1 (vm_c 3 stack_c_calls) [5] [1] 1 hopen (List.pairwise_singleton _ _) (by decide)
    exact ⟨vm', hrun, hv 5 (value.number 7) rfl, hh 6 0 5 rfl,
      hclosed 5 1 (by decide) (Nat.le_refl _)⟩
  · obtain ⟨vm', hrun, hstack, htop⟩ :=
      h.2.2.2 (vm_c 3 stack_c_calls) (fetched (vm_c 3 stack_c_calls) 2)
        (fetched_operand (vm_c 3 stack_c_calls) 2) 2 0 5 (value.number 7) rfl rfl rfl rfl
        (by decide)
    exact ⟨vm', hrun, hstack, htop⟩

theorem scanner_advance_cons (sc : scanner_t) (c : Nat) (rest : List Nat)
    (h : sc.current = c :: rest) :
    ∃ sc1, scanner.advance sc = some (sc1, c) ∧ sc1.current = rest ∧ sc1.start = sc.start := by
  unfold scanner.advance
  rw [h]
  by_cases hc : c = 10
  · exact ⟨{ sc with current := rest, line := (sc.line + 1) % 2 ^ 64, column := 1 },
      by simp only [hc, if_true], rfl, rfl⟩
  · exact ⟨{ sc with current := rest, column := (sc.column + 1) % 2 ^ 64 },
      by simp only [hc, if_false], rfl, rfl⟩

/-- The loop of `identifier` consumes the letters, digits and underscores in
front of the first other byte. -/
theorem identifier_loop_run : ∀ (run rest : List Nat) (sc : scanner_t) (fuel : Nat),
    (∀ c ∈ run, is_alnum c = true) → is_alnum (rest.headD 0) = false →
    sc.current = run ++ rest → run.length < fuel →
    ∃ sc1, identifier_loop fuel sc = some sc1 ∧ sc1.current = rest ∧ sc1.start = sc.start := by
  intro run
  induction run with
  | nil =>
    intro rest sc fuel _ hrest hcur hf
    obtain ⟨f, rfl⟩ : ∃ f, fuel = f + 1 := ⟨fuel - 1, by simp at hf; omega⟩
    refine ⟨sc, ?_, by simpa using hcur, rfl⟩
    unfold identifier_loop
    have hpeek : scanner.peek sc = rest.headD 0 := by
      unfold scanner.peek
      rw [hcur]
      rfl
    rw [hpeek]
    unfold is_alnum at hrest
    simp only [Bool.or_eq_false_iff] at hrest
    simp only [hrest.1, hrest.2, Bool.false_eq_true, or_self, if_false]
  | cons c run ih =>
    intro rest sc fuel hall hrest hcur hf
    obtain ⟨f, rfl⟩ : ∃ f, fuel = f + 1 := ⟨fuel - 1, by simp at hf; omega⟩
    obtain ⟨sc1, hadv, hcur1, hstart1⟩ := scanner_advance_cons sc c (run ++ rest) hcur
    obtain ⟨sc2, hrun, hcur2, hstart2⟩ := ih rest sc1 f
      (fun x hx => hall x (List.mem_cons_of_mem _ hx)) hrest hcur1
      (by simp only [List.length_cons] at hf; omega)
    refine ⟨sc2, ?_, hcur2, hstart2.trans hstart1⟩
    unfold identifier_loop
    have hpeek : scanner.peek sc = c := by
      unfold scanner.peek
      rw [hcur]
      rfl
    have hc := hall c (List.mem_cons_self _ _)
    unfold is_alnum at hc
    simp only [Bool.or_eq_true] at hc
    rw [hpeek, if_pos hc, hadv]
    exact hrun

/-- Function `check_keyword` on a lexeme `w`: the kind `type` if the lexeme
from the offset `start` on is `remain`. -/
theorem check_keyword_eq (sc : scanner_t) (w rest : List Nat) (hs : sc.start = w ++ rest)
    (hc : sc.current = rest) (start length : Nat) (remain : List Nat) (type : token_type)
    (hlen : remain.length = length) (hpos : 0 < length) :
    check_keyword sc start length remain type
      = if w.drop start = remain then type else TOKEN_IDENTIFIER := by
  unfold check_keyword
  have hdiff : sc.start.length - sc.current.length = w.length := by
    rw [hs, hc, List.length_append, Nat.add_sub_cancel]
  rw [hdiff, hs]
  by_cases h : w.drop start = remain
  · have hl : w.length - start = length := by rw [← List.length_drop, h, hlen]
    have hle : start ≤ w.length := by omega
    rw [if_pos h, if_pos]
    refine ⟨by omega, ?_⟩
    rw [List.drop_append_of_le_length hle, h, ← hlen, List.take_left]
  · rw [if_neg h, if_neg]
    rintro ⟨h1, h2⟩
    apply h
    have hle : start ≤ w.length := by omega
    rw [List.drop_append_of_le_length hle] at h2
    have hl : (w.drop start).length = length := by rw [List.length_drop]; omega
    rw [← hl, List.take_left] at h2
    exact h2

theorem keyword_type_cons (c : Nat) (t : List Nat) :
    keyword_type (c :: t) =
      if c = 97 then (if t = [110, 100] then TOKEN_AND else TOKEN_IDENTIFIER)
      else if c = 99 then (if t = [108, 97, 115, 115] then TOKEN_CLASS else TOKEN_IDENTIFIER)
      else if c = 101 then (if t = [108, 115, 101] then TOKEN_ELSE else TOKEN_IDENTIFIER)
      else if c = 102 then
        (if t = [97, 108, 115, 101] then TOKEN_FALSE
         else if t = [111, 114] then TOKEN_FOR
         else if t = [117, 110] then TOKEN_FUN else TOKEN_IDENTIFIER)
      else if c = 105 then (if t = [102] then TOKEN_IF else TOKEN_IDENTIFIER)
      else if c = 110 then (if t = [105, 108] then TOKEN_NIL else TOKEN_IDENTIFIER)
      else if c = 111 then (if t = [114] then TOKEN_OR else TOKEN_IDENTIFIER)
      else if c = 112 then (if t = [114, 105, 110, 116] then TOKEN_PRINT else TOKEN_IDENTIFIER)
      else if c = 114 then
        (if t = [101, 116, 117, 114, 110] then TOKEN_RETURN else TOKEN_IDENTIFIER)
      else if c = 115 then (if t = [117, 112, 101, 114] then TOKEN_SUPER else TOKEN_IDENTIFIER)
      else if c = 116 then
        (if t = [104, 105, 115] then TOKEN_THIS
         else if t = [114, 117, 101] then TOKEN_TRUE else TOKEN_IDENTIFIER)
      else if c = 118 then (if t = [97, 114] then TOKEN_VAR else TOKEN_IDENTIFIER)
      else if c = 119 then (if t = [104, 105, 108, 101] then TOKEN_WHILE else TOKEN_IDENTIFIER)
      else TOKEN_IDENTIFIER := by
  unfold keyword_type
  have k1 : bytes_of "and" = [97, 110, 100] := rfl
  have k2 : bytes_of "class" = [99, 108, 97, 115, 115] := rfl
  have k3 : bytes_of "else" = [101, 108, 115, 101] := rfl
  have k4 : bytes_of "false" = [102, 97, 108, 115, 101] := rfl
  have k5 : bytes_of "for" = [102, 111, 114] := rfl
  have k6 : bytes_of "fun" = [102, 117, 110] := rfl
  have k7 : bytes_of "if" = [105, 102] := rfl
  have k8 : bytes_of "nil" = [110, 105, 108] := rfl
  have k9 : bytes_of "or" = [111, 114] := rfl
  have k10 : bytes_of "print" = [112, 114, 105, 110, 116] := rfl
  have k11 : bytes_of "return" = [114, 101, 116, 117, 114, 110] := rfl
  have k12 : bytes_of "super" = [115, 117, 112, 101, 114] := rfl
  have k13 : bytes_of "this" = [116, 104, 105, 115] := rfl
  have k14 : bytes_of "true" = [116, 114, 117, 101] := rfl
  have k15 : bytes_of "var" = [118, 97, 114] := rfl
  have k16 : bytes_of "while" = [119, 104, 105, 108, 101] := rfl
  rw [k1, k2, k3, k4, k5, k6, k7, k8, k9, k10, k11, k12, k13, k14, k15, k16]
  simp only [List.cons.injEq]
  by_cases h1 : c = 97
  · subst h1; simp
  by_cases h2 : c = 99
  · subst h2; simp
  by_cases h3 : c = 101
  · subst h3; simp
  by_cases h4 : c = 102
  · subst h4; simp
  by_cases h5 : c = 105
  · subst h5; simp
  by_cases h6 : c = 110
  · subst h6; simp
  by_cases h7 : c = 111
  · subst h7; simp
  by_cases h8 : c = 112
  · subst h8; simp
  by_cases h9 : c = 114
  · subst h9; simp
  by_cases h10 : c = 115
  · subst h10; simp
  by_cases h11 : c = 116
  · subst h11; simp
  by_cases h12 : c = 118
  · subst h12; simp
  by_cases h13 : c = 119
  · subst h13; simp
  simp [h1, h2, h3, h4, h5, h6, h7, h8, h9, h10, h11, h12, h13]

/-- Function `identifier_type` on a lexeme `w`: the keyword kind of `w`. -/
theorem identifier_type_eq (sc : scanner_t) (w rest : List Nat) (hs : sc.start = w ++ rest)
    (hc : sc.current = rest) (hw : w ≠ []) : identifier_type sc = keyword_type w := by
  obtain ⟨c, t, rfl⟩ : ∃ c t, w = c :: t := by
    cases w with
    | nil => exact absurd rfl hw
    | cons c t => exact ⟨c, t, rfl⟩
  have hdiff : sc.start.length - sc.current.length = t.length + 1 := by
    rw [hs, hc, List.length_append, Nat.add_sub_cancel, List.length_cons]
  have hd : sc.start.headD 0 = c := by rw [hs]; rfl
  have hd1 : sc.start.tail.headD 0 = (t ++ rest).headD 0 := by rw [hs]; rfl
  have key := check_keyword_eq sc (c :: t) rest hs hc
  rw [keyword_type_cons]
  unfold identifier_type
  simp only [hd, hd1, hdiff]
  rw [key 1 2 (bytes_of "nd") TOKEN_AND rfl (by decide),
    key 1 4 (bytes_of "lass") TOKEN_CLASS rfl (by decide),
    key 1 3 (bytes_of "lse") TOKEN_ELSE rfl (by decide),
    key 2 3 (bytes_of "lse") TOKEN_FALSE rfl (by decide),
    key 2 1 (bytes_of "r") TOKEN_FOR rfl (by decide),
    key 2 1 (bytes_of "n") TOKEN_FUN rfl (by decide),
    key 1 1 (bytes_of "f") TOKEN_IF rfl (by decide),
    key 1 2 (bytes_of "il") TOKEN_NIL rfl (by decide),
    key 1 1 (bytes_of "r") TOKEN_OR rfl (by decide),
    key 1 4 (bytes_of "rint") TOKEN_PRINT rfl (by decide),
    key 1 5 (bytes_of "eturn") TOKEN_RETURN rfl (by decide),
    key 1 4 (bytes_of "uper") TOKEN_SUPER rfl (by decide),
    key 2 2 (bytes_of "is") TOKEN_THIS rfl (by decide),
    key 2 2 (bytes_of "ue") TOKEN_TRUE rfl (by decide),
    key 1 2 (bytes_of "ar") TOKEN_VAR rfl (by decide),
    key 1 4 (bytes_of "hile") TOKEN_WHILE rfl (by decide)]
  have b1 : bytes_of "nd" = [110, 100] := rfl
  have b2 : bytes_of "lass" = [108, 97, 115, 115] := rfl
  have b3 : bytes_of "lse" = [108, 115, 101] := rfl
  have b4 : bytes_of "r" = [114] := rfl
  have b5 : bytes_of "n" = [110] := rfl
  have b6 : bytes_of "f" = [102] := rfl
  have b7 : bytes_of "il" = [105, 108] := rfl
  have b8 : bytes_of "rint" = [114, 105, 110, 116] := rfl
  have b9 : bytes_of "eturn" = [101, 116, 117, 114, 110] := rfl
  have b10 : bytes_of "uper" = [117, 112, 101, 114] := rfl
  have b11 : bytes_of "is" = [105, 115] := rfl
  have b12 : bytes_of "ue" = [117, 101] := rfl
  have b13 : bytes_of "ar" = [97, 114] := rfl
  have b14 : bytes_of "hile" = [104, 105, 108, 101] := rfl
  rw [b1, b2, b3, b4, b5, b6, b7, b8, b9, b10, b11, b12, b13, b14]
  simp only [List.drop_succ_cons, List.drop_zero]
  have hf : (if t.length + 1 > 1 then
        if (t ++ rest).headD 0 = 97 then
          (if t.drop 1 = [108, 115, 101] then TOKEN_FALSE else TOKEN_IDENTIFIER)
        else if (t ++ rest).headD 0 = 111 then
          (if t.drop 1 = [114] then TOKEN_FOR else TOKEN_IDENTIFIER)
        else if (t ++ rest).headD 0 = 117 then
          (if t.drop 1 = [110] then TOKEN_FUN else TOKEN_IDENTIFIER)
        else TOKEN_IDENTIFIER
      else TOKEN_IDENTIFIER)
      = (if t = [97, 108, 115, 101] then TOKEN_FALSE
         else if t = [111, 114] then TOKEN_FOR
         else if t = [117, 110] then TOKEN_FUN else TOKEN_IDENTIFIER) := by
    cases t with
    | nil => simp
    | cons a t =>
      simp only [List.length_cons, List.cons_append, List.headD_cons, List.drop_succ_cons,
        List.drop_zero, List.cons.injEq, gt_iff_lt, Nat.lt_add_left_iff_pos, Nat.zero_lt_succ,
        if_true]
      by_cases h1 : a = 97
      · subst h1; simp
      by_cases h2 : a = 111
      · subst h2; simp
      by_cases h3 : a = 117
      · subst h3; simp
      simp [h1, h2, h3]
  have ht : (if t.length + 1 > 1 then
        if (t ++ rest).headD 0 = 104 then
          (if t.drop 1 = [105, 115] then TOKEN_THIS else TOKEN_IDENTIFIER)
        else if (t ++ rest).headD 0 = 114 then
          (if t.drop 1 = [117, 101] then TOKEN_TRUE else TOKEN_IDENTIFIER)
        else TOKEN_IDENTIFIER
      else TOKEN_IDENTIFIER)
      = (if t = [104, 105, 115] then TOKEN_THIS
         else if t = [114, 117, 101] then TOKEN_TRUE else TOKEN_IDENTIFIER) := by
    cases t with
    | nil => simp
    | cons a t =>
      simp only [List.length_cons, List.cons_append, List.headD_cons, List.drop_succ_cons,
        List.drop_zero, List.cons.injEq, gt_iff_lt, Nat.lt_add_left_iff_pos, Nat.zero_lt_succ,
        if_true]
      by_cases h1 : a = 104
      · subst h1; simp
      by_cases h2 : a = 114
      · subst h2; simp
      simp [h1, h2]
  rw [hf, ht]

theorem keywords_are_keywords : ∀ k ∈ keywords, keyword_type k ≠ TOKEN_IDENTIFIER := by
  decide

theorem keyword_type_identifier (w : List Nat) :
    keyword_type w = TOKEN_IDENTIFIER ↔ w ∉ keywords := by
  constructor
  · intro h hm
    exact keywords_are_keywords w hm h
  · intro h
    have hk : ∀ k, k ∈ keywords → ¬ w = k := fun k hk e => h (e ▸ hk)
    unfold keyword_type
    rw [if_neg (hk _ (by decide)), if_neg (hk _ (by decide)), if_neg (hk _ (by decide)),
      if_neg (hk _ (by decide)), if_neg (hk _ (by decide)), if_neg (hk _ (by decide)),
      if_neg (hk _ (by decide)), if_neg (hk _ (by decide)), if_neg (hk _ (by decide)),
      if_neg (hk _ (by decide)), if_neg (hk _ (by decide)), if_neg (hk _ (by decide)),
      if_neg (hk _ (by decide)), if_neg (hk _ (by decide)), if_neg (hk _ (by decide)),
      if_neg (hk _ (by decide))]

theorem ite_ne_of_ne {α : Type} {p : Prop} [Decidable p] {a b x : α} (ha : a ≠ x)
    (hb : b ≠ x) : (if p then a else b) ≠ x := by
  by_cases h : p
  · rw [if_pos h]; exact ha
  · rw [if_neg h]; exact hb

theorem keyword_type_not_string (w : List Nat) : keyword_type w ≠ TOKEN_STRING := by
  unfold keyword_type
  repeat (refine ite_ne_of_ne (by decide) ?_)
  decide

theorem is_alpha_cases {c : Nat} (h : is_alpha c = true) :
    (97 ≤ c ∧ c ≤ 122) ∨ (65 ≤ c ∧ c ≤ 90) ∨ c = 95 := by
  unfold is_alpha at h
  exact of_decide_eq_true h

/-- C28: `scan_token` on a lexeme of the form `[A-Za-z_][A-Za-z0-9_]*`, that
is a letter or underscore `c` followed by the letters, digits and underscores
`t` and then by a byte that is none of these (or by the end of the source).
With fuel for the loop over the lexeme, the token returned has the kind of the
keyword if `c :: t` is exactly one of the sixteen keywords and the kind
`TOKEN_IDENTIFIER` otherwise (`keyword_type`), its lexeme is `c :: t`, and the
scanner stands behind the lexeme. -/
theorem scan_token_keyword_iff_exact (sz : sizeofs) (fuel : Nat) (vm : VM) (sc : scanner_t)
    (c : Nat) (t rest : List Nat) (hc : is_alpha c = true) (ht : ∀ x ∈ t, is_alnum x = true)
    (hrest : is_alnum (rest.headD 0) = false) (hcur : sc.current = c :: t ++ rest)
    (hfuel : t.length + 1 < fuel) (hlen : t.length + 1 < 2 ^ 64) :
    ∃ (sc' : scanner_t) (tok : token),
      scan_token sz fuel vm sc = some (vm, sc', tok) ∧
      tok.type = keyword_type (c :: t) ∧
      (tok.type = TOKEN_IDENTIFIER ↔ c :: t ∉ keywords) ∧
      tok.start.take tok.len = c :: t ∧ sc'.current = rest := by
  obtain ⟨f, rfl⟩ : ∃ f, fuel = f + 1 := ⟨fuel - 1, by omega⟩
  have hca := is_alpha_cases hc
  have hpeek : scanner.peek sc = c := by
    unfold scanner.peek
    rw [hcur]
    rfl
  have hskip : skip_whitespace (f + 1) sc = some sc := by
    unfold skip_whitespace
    simp only [hpeek]
    rw [if_neg (by omega), if_neg (by omega)]
  have hpeek0 : scanner.peek { sc with start := sc.current } = c := hpeek
  have hend : scanner.is_at_end { sc with start := sc.current } = false := by
    unfold scanner.is_at_end
    rw [hpeek0]
    simp only [beq_eq_false_iff_ne, ne_eq]
    omega
  obtain ⟨sc2, hadv, hcur2, hstart2⟩ :=
    scanner_advance_cons { sc with start := sc.current } c (t ++ rest) hcur
  obtain ⟨sc3, hloop, hcur3, hstart3⟩ :=
    identifier_loop_run t rest sc2 (f + 1) ht hrest hcur2 (by omega)
  have hs3 : sc3.start = (c :: t) ++ rest := by
    rw [hstart3, hstart2]
    exact hcur
  have htype := identifier_type_eq sc3 (c :: t) rest hs3 hcur3 (List.cons_ne_nil _ _)
  refine ⟨sc3, make_token sc3 (identifier_type sc3), ?_, htype,
    by rw [show (make_token sc3 (identifier_type sc3)).type = identifier_type sc3 from rfl, htype];
       exact keyword_type_identifier _,
    ?_, hcur3⟩
  · unfold scan_token
    simp only [hskip, hend, hadv, hc, if_true, Bool.false_eq_true, if_false]
    unfold scanner.identifier
    rw [hloop]
    rfl
  · unfold make_token
    simp only
    rw [htype, if_neg (keyword_type_not_string _), hs3, hcur3, List.length_append,
      Nat.add_sub_cancel, Nat.sub_zero, Nat.add_mod_right, Nat.mod_eq_of_lt (by
        simp only [List.length_cons]; exact hlen)]
    exact List.take_left (c :: t) rest

/-- C28 at concrete sources: `forx`, an extension of a keyword, is an
identifier, and `for` in front of a parenthesis is the keyword. -/
theorem scan_token_keyword_iff_exact_witness :
    (is_alpha 102 = true ∧ (∀ x ∈ [111, 114, 120], is_alnum x = true) ∧
      is_alnum ((bytes_of " = 1;").headD 0) = false ∧
      (∀ x ∈ [111, 114], is_alnum x = true) ∧ is_alnum ((bytes_of "(;;)").headD 0) = false) ∧
    (∃ (sc' : scanner_t) (tok : token),
      scan_token sizes_lp64 100 zero_vm (init_scanner (bytes_of "forx = 1;"))
        = some (zero_vm, sc', tok) ∧
      tok.type = TOKEN_IDENTIFIER ∧ tok.start.take tok.len = bytes_of "forx" ∧
      sc'.current = bytes_of " = 1;") ∧
    (∃ (sc' : scanner_t) (tok : token),
      scan_token sizes_lp64 100 zero_vm (init_scanner (bytes_of "for(;;)"))
        = some (zero_vm, sc', tok) ∧
      tok.type = TOKEN_FOR ∧ tok.start.take tok.len = bytes_of "for" ∧
      sc'.current = bytes_of "(;;)") := by
  refine ⟨⟨by decide, by decide, by decide, by decide, by decide⟩, ?_, ?_⟩
  · obtain ⟨sc', tok, hrun, htype, _, hlex, hcur⟩ :=
      scan_token_keyword_iff_exact sizes_lp64 100 zero_vm (init_scanner (bytes_of "forx = 1;"))
        102 [111, 114, 120] (bytes_of " = 1;") (by decide) (by decide) (by decide) rfl
        (by decide) (by decide)
    exact ⟨sc', tok, hrun, htype.trans (by decide), hlex, hcur⟩
  · obtain ⟨sc', tok, hrun, htype, _, hlex, hcur⟩ :=
      scan_token_keyword_iff_exact sizes_lp64 100 zero_vm (init_scanner (bytes_of "for(;;)"))
        102 [111, 114] (bytes_of "(;;)") (by decide) (by decide) (by decide) rfl
        (by decide) (by decide)
    exact ⟨sc', tok, hrun, htype.trans (by decide), hlex, hcur⟩

/-- The loop of `string` consumes the bytes in front of the closing quote. -/
theorem string_loop_run : ∀ (s rest : List Nat) (sc : scanner_t) (fuel : Nat),
    (∀ c ∈ s, c ≠ 34 ∧ c ≠ 0) → sc.current = s ++ 34 :: rest → s.length < fuel →
    ∃ sc1, string_loop fuel sc = some sc1 ∧ sc1.current = 34 :: rest ∧
      sc1.start = sc.start := by
  intro s
  induction s with
  | nil =>
    intro rest sc fuel _ hcur hf
    obtain ⟨f, rfl⟩ : ∃ f, fuel = f + 1 := ⟨fuel - 1, by simp at hf; omega⟩
    refine ⟨sc, ?_, by simpa using hcur, rfl⟩
    unfold string_loop
    have hpeek : scanner.peek sc = 34 := by
      unfold scanner.peek
      rw [hcur]
      rfl
    rw [hpeek]
    simp
  | cons c s ih =>
    intro rest sc fuel hall hcur hf
    obtain ⟨f, rfl⟩ : ∃ f, fuel = f + 1 := ⟨fuel - 1, by simp at hf; omega⟩
    obtain ⟨sc1, hadv, hcur1, hstart1⟩ := scanner_advance_cons sc c (s ++ 34 :: rest) hcur
    obtain ⟨sc2, hrun, hcur2, hstart2⟩ := ih rest sc1 f
      (fun x hx => hall x (List.mem_cons_of_mem _ hx)) hcur1
      (by simp only [List.length_cons] at hf; omega)
    refine ⟨sc2, ?_, hcur2, hstart2.trans hstart1⟩
    unfold string_loop
    have hpeek : scanner.peek sc = c := by
      unfold scanner.peek
      rw [hcur]
      rfl
    have hc := hall c (List.mem_cons_self _ _)
    have hend : scanner.is_at_end sc = false := by
      unfold scanner.is_at_end
      rw [hpeek]
      simp only [beq_eq_false_iff_ne, ne_eq]
      exact hc.2
    rw [hpeek, hend, if_pos ⟨hc.1, by simp⟩, hadv]
    exact hrun

/-- Function `scan_token` on a string literal: the token starts at the opening
quote and its length leaves the closing quote out. -/
theorem scan_token_string (sz : sizeofs) (fuel : Nat) (vm : VM) (sc : scanner_t)
    (s rest : List Nat) (hs : ∀ c ∈ s, c ≠ 34 ∧ c ≠ 0)
    (hcur : sc.current = 34 :: s ++ 34 :: rest) (hfuel : s.length < fuel)
    (hlen : s.length + 2 < 2 ^ 64) :
    ∃ (sc' : scanner_t) (tok : token),
      scan_token sz fuel vm sc = some (vm, sc', tok) ∧
      tok.type = TOKEN_STRING ∧ tok.start = 34 :: s ++ 34 :: rest ∧ tok.len = s.length + 1 ∧
      (tok.start.drop 1).take (tok.len - 1) = s ∧ sc'.current = rest := by
  obtain ⟨f, rfl⟩ : ∃ f, fuel = f + 1 := ⟨fuel - 1, by omega⟩
  have hpeek : scanner.peek sc = 34 := by
    unfold scanner.peek
    rw [hcur]
    rfl
  have hskip : skip_whitespace (f + 1) sc = some sc := by
    unfold skip_whitespace
    simp only [hpeek]
    rw [if_neg (by omega), if_neg (by omega)]
  have hpeek0 : scanner.peek { sc with start := sc.current } = 34 := hpeek
  have hend : scanner.is_at_end { sc with start := sc.current } = false := by
    unfold scanner.is_at_end
    rw [hpeek0]
    rfl
  obtain ⟨sc2, hadv, hcur2, hstart2⟩ :=
    scanner_advance_cons { sc with start := sc.current } 34 (s ++ 34 :: rest) hcur
  obtain ⟨sc3, hloop, hcur3, hstart3⟩ := string_loop_run s rest sc2 (f + 1) hs hcur2 hfuel
  obtain ⟨sc4, hadv4, hcur4, hstart4⟩ := scanner_advance_cons sc3 34 rest hcur3
  have hend3 : scanner.is_at_end sc3 = false := by
    unfold scanner.is_at_end scanner.peek
    rw [hcur3]
    rfl
  have hs4 : sc4.start = 34 :: s ++ 34 :: rest := by
    rw [hstart4, hstart3, hstart2]
    exact hcur
  have hl : (make_token sc4 TOKEN_STRING).len = s.length + 1 := by
    unfold make_token
    simp only [if_true]
    rw [hs4, hcur4]
    simp only [List.cons_append, List.length_cons, List.length_append]
    rw [show s.length + (rest.length + 1) + 1 - rest.length + 2 ^ 64 - 1
      = s.length + 1 + 2 ^ 64 by omega, Nat.add_mod_right, Nat.mod_eq_of_lt (by omega)]
  refine ⟨sc4, make_token sc4 TOKEN_STRING, ?_, rfl, hs4, hl, ?_, hcur4⟩
  · unfold scan_token
    have h34 : is_alpha 34 = false := by decide
    have h34d : is_digit 34 = false := by decide
    simp +decide only [hskip, hend, hadv, h34, h34d, if_true, Bool.false_eq_true, if_false]
    unfold scanner.string
    simp only [hloop, hend3, hadv4, Bool.false_eq_true, if_false]
  · rw [hl, show (make_token sc4 TOKEN_STRING).start = sc4.start from rfl, hs4]
    simp only [List.cons_append, List.drop_succ_cons, List.drop_zero, Nat.add_sub_cancel]
    exact List.take_left s (34 :: rest)

/-! ### The mark phase marks nothing but what the roots reach -/

/-- Function `mark_object` marks and pushes nothing but its argument. -/
theorem mark_object_only {vm vm' : VM} {p : Option Nat} (h : mark_object vm p = some vm') :
    marks_only vm.heap vm'.heap ∧
    (∀ a, is_marked vm'.heap a → is_marked vm.heap a ∨ p = some a) ∧
    (∀ g ∈ vm'.gray_stack, g ∈ vm.gray_stack ∨ p = some g) := by
  cases p with
  | none =>
    cases h
    exact ⟨marks_only_refl _, fun a ha => Or.inl ha, fun g hg => Or.inl hg⟩
  | some b =>
    simp only [mark_object] at h
    cases hb : vm.heap b with
    | none => rw [hb] at h; cases h
    | some o =>
      rw [hb] at h
      by_cases hmk : o.marked = true
      · simp only [hmk, if_true] at h
        cases h
        exact ⟨marks_only_refl _, fun a ha => Or.inl ha, fun g hg => Or.inl hg⟩
      · simp only [hmk, Bool.false_eq_true, if_false] at h
        cases h
        refine ⟨?_, ?_, ?_⟩
        · intro a
          by_cases hab : a = b
          · subst hab
            exact Or.inr ⟨o, { o with marked := true }, hb, by simp, rfl, rfl, fun _ => rfl⟩
          · simp only [Function.update_noteq hab]
            exact marks_only_refl _ a
        · intro a ⟨oa, hoa, hma⟩
          by_cases hab : a = b
          · exact Or.inr (by rw [hab])
          · simp only [Function.update_noteq hab] at hoa
            exact Or.inl ⟨oa, hoa, hma⟩
        · intro g hg
          simp only [List.mem_cons] at hg
          rcases hg with hg | hg
          · exact Or.inr (by rw [hg])
          · exact Or.inl hg

/-- Function `mark_objects` marks and pushes nothing but the listed objects. -/
theorem mark_objects_only : ∀ (ps : List (Option Nat)) {vm vm' : VM},
    mark_objects vm ps = some vm' →
    marks_only vm.heap vm'.heap ∧
    (∀ a, is_marked vm'.heap a → is_marked vm.heap a ∨ some a ∈ ps) ∧
    (∀ g ∈ vm'.gray_stack, g ∈ vm.gray_stack ∨ some g ∈ ps) := by
  intro ps
  induction ps with
  | nil =>
    intro vm vm' h
    cases h
    exact ⟨marks_only_refl _, fun a ha => Or.inl ha, fun g hg => Or.inl hg⟩
  | cons p ps ih =>
    intro vm vm' h
    simp only [mark_objects] at h
    cases h1 : mark_object vm p with
    | none => rw [h1] at h; cases h
    | some vm1 =>
      rw [h1] at h
      obtain ⟨s1, m1, g1⟩ := mark_object_only h1
      obtain ⟨s2, m2, g2⟩ := ih h
      refine ⟨marks_only_trans s1 s2, ?_, ?_⟩
      · intro a ha
        rcases m2 a ha with h' | h'
        · rcases m1 a h' with h'' | h''
          · exact Or.inl h''
          · exact Or.inr (by rw [h'']; exact List.mem_cons_self _ _)
        · exact Or.inr (List.mem_cons_of_mem _ h')
      · intro g hg
        rcases g2 g hg with h' | h'
        · rcases g1 g h' with h'' | h''
          · exact Or.inl h''
          · exact Or.inr (by rw [h'']; exact List.mem_cons_self _ _)
        · exact Or.inr (List.mem_cons_of_mem _ h')

/-- Function `trace_references` marks nothing outside a set that holds the
marked and the gray objects and is closed under the edges. -/
theorem trace_references_only (h0 : Nat → Option obj) (R : Nat → Prop)
    (hclosed : ∀ (a : Nat) (o : obj), h0 a = some o → R a →
      ∀ b : Nat, some b ∈ obj_edges o.payload → R b) :
    ∀ (fuel : Nat) (vm vm' : VM), trace_references fuel vm = some vm' →
      marks_only h0 vm.heap → (∀ a, is_marked vm.heap a → R a) →
      (∀ g ∈ vm.gray_stack, R g) →
      ∀ a, is_marked vm'.heap a → R a := by
  intro fuel
  induction fuel with
  | zero => intro vm vm' h; cases h
  | succ fuel ih =>
    intro vm vm' h hs hm hg
    simp only [trace_references] at h
    cases hgs : vm.gray_stack with
    | nil =>
      simp only [hgs] at h
      cases h
      exact hm
    | cons g rest =>
      simp only [hgs] at h
      cases hb : blacken_object { vm with gray_stack := rest } g with
      | none => rw [hb] at h; cases h
      | some vm1 =>
        rw [hb] at h
        have hRg : R g := hg g (by rw [hgs]; exact List.mem_cons_self _ _)
        cases hog : vm.heap g with
        | none =>
          simp only [blacken_object, hog] at hb
          cases hb
        | some o =>
          rw [blacken_object_eq { vm with gray_stack := rest } g o hog] at hb
          obtain ⟨s1, m1, g1⟩ := mark_objects_only _ hb
          obtain ⟨o0, ho0, _, hp, _⟩ := marks_only_some' hs hog
          have hedge : ∀ b : Nat, some b ∈ obj_edges o.payload → R b := by
            intro b hbm
            rw [hp] at hbm
            exact hclosed g o0 ho0 hRg b hbm
          apply ih vm1 vm' h (marks_only_trans hs s1)
          · intro a ha
            rcases m1 a ha with h' | h'
            · exact hm a h'
            · exact hedge a h'
          · intro x hx
            rcases g1 x hx with h' | h'
            · exact hg x (by rw [hgs]; exact List.mem_cons_of_mem _ h')
            · exact hedge x h'

/-- The mark phase marks only objects that are reachable from the roots. -/
theorem mark_phase_sound {vm vm2 : VM} {l ups : List Nat} {fuel : Nat}
    (hready : gc_ready vm l ups) (hf : ups.length < fuel)
    (h : (mark_roots fuel vm).bind (trace_references fuel) = some vm2) :
    ∀ a, is_marked vm2.heap a → reachable vm ups a := by
  rw [mark_roots_eq hready.nodup vm ups fuel hready.dom hready.upvalues hf
    hready.roots_valid] at h
  cases h1 : mark_objects vm (root_ptrs vm ups) with
  | none => rw [h1] at h; cases h
  | some vm1 =>
    rw [h1] at h
    simp only [Option.bind] at h
    obtain ⟨s1, m1, g1⟩ := mark_objects_only _ h1
    have hroot : ∀ r, some r ∈ root_ptrs vm ups → reachable vm ups r :=
      fun r hr => ⟨r, hr, Relation.ReflTransGen.refl⟩
    refine trace_references_only vm.heap (reachable vm ups) ?_ fuel vm1 vm2 h s1 ?_ ?_
    · intro a o ho ⟨r, hr, hpath⟩ b hb
      exact ⟨r, hr, Relation.ReflTransGen.tail hpath ⟨o, ho, hb⟩⟩
    · intro a ha
      rcases m1 a ha with h' | h'
      · obtain ⟨o, ho, hmk⟩ := h'
        rw [hready.white a o ho] at hmk
        cases hmk
      · exact hroot a h'
    · intro g hg
      rcases g1 g hg with h' | h'
      · rw [hready.gray] at h'
        cases h'
      · exact hroot g h'

/-- Function `collect_garbage` terminates on a state handed over by the
mutator, does what `collected` says, and the objects it keeps are the ones the
roots reach. -/
theorem collect_garbage_exact (sz : sizeofs) {vm : VM} {l ups : List Nat} {fuel : Nat}
    (hready : gc_ready vm l ups) (hfuel : 2 ^ 32 ≤ fuel)
    (hf : l.length + ups.length < fuel) :
    ∃ (vm' : VM) (M : Nat → Bool),
      collect_garbage sz fuel vm = some vm' ∧ collected vm l ups vm' M ∧
      ∀ a, M a = true → reachable vm ups a := by
  obtain ⟨vm2, hmark, hfr2, hshape, hreach, hclosed⟩ := mark_phase_ok hready hf
  have hstr2 : vm2.strings = vm.strings := by rw [hfr2]
  have hobj2 : vm2.objects = vm.objects := by rw [hfr2]
  have hhash := string_hash_marks_only hshape
  obtain ⟨strings, hrw, hswf, hscap, hscount, hsent⟩ :=
    table_remove_white_loop_ok vm2.heap hfuel vm.strings.capacity 0 vm.strings
      (by rw [hhash]; exact hready.strings_wf) (by omega)
      (fun e k he hk => (marks_only_ne_none hshape k).1 (hready.strings_valid e k he hk))
  have hlist2 : is_list vm2.heap vm2.objects l := by
    rw [hobj2]
    apply is_list_congr _ _ hready.list
    intro x _ ox hox
    obtain ⟨ox', hox', hn, _, _⟩ := marks_only_some hshape hox
    exact ⟨ox', hox', hn⟩
  obtain ⟨vm3, hsweep, hl3, hmk3, hun3, hout3, _, hfr3⟩ :=
    sweep_loop_ok sz l fuel { vm2 with strings := strings } [] vm2.objects (by omega)
      (by simpa using hlist2) (by simpa using hready.nodup) hlist2
  refine ⟨{ vm3 with gc_treshold := (vm3.heap_size * GC_HEAP_GROW_FACTOR) % 2 ^ 64 },
    marked_at vm2.heap, ?_, ⟨?_, ?_, ?_, ?_, ?_, ?_, ?_, ?_, ?_, ?_⟩, ?_⟩
  · unfold collect_garbage
    cases hmr : mark_roots fuel vm with
    | none => rw [hmr] at hmark; cases hmark
    | some vm1 =>
      rw [hmr] at hmark
      simp only [Option.bind] at hmark
      simp only [hmark, table_remove_white, hstr2, hrw, sweep]
      simp only [List.getLast?_nil] at hsweep
      rw [hsweep]
  · intro a ha
    exact marked_at_true.2 (hreach a ha)
  · intro a ha
    obtain ⟨o2, ho2, hm2⟩ := marked_at_true.1 ha
    obtain ⟨o, ho, _, hp, _⟩ := marks_only_some' hshape ho2
    have hal : a ∈ l := hready.dom a o ho
    obtain ⟨ox, ox', hox, hox', h1, h2⟩ := hmk3 a hal ha
    have : ox = o2 := by
      have h' : vm2.heap a = some ox := hox
      rw [ho2] at h'; exact (Option.some.inj h').symm
    subst this
    exact ⟨o, ox', ho, hox', h1, by rw [h2, hp]⟩
  · intro a ha
    by_cases hal : a ∈ l
    · exact hun3 a hal ha
    · apply hout3 a (by simpa using hal)
      show vm2.heap a = none
      cases h2 : vm2.heap a with
      | none => rfl
      | some o2 =>
        obtain ⟨o, ho, _⟩ := marks_only_some' hshape h2
        exact absurd (hready.dom a o ho) hal
  · intro a o ho ha b hb
    obtain ⟨o2, ho2, hm2⟩ := marked_at_true.1 ha
    obtain ⟨o2', ho2', _, hp, _⟩ := marks_only_some hshape ho
    rw [ho2] at ho2'
    cases ho2'
    exact marked_at_true.2 (hclosed a o2 ho2 hm2 b (by rw [hp]; exact hb))
  · simpa using hl3
  · have e3 : vm3.strings = strings := by rw [hfr3]
    show table_wf (string_hash vm.heap) vm3.strings
    rw [e3, ← hhash]
    exact hswf
  · have e3 : vm3.strings = strings := by rw [hfr3]
    show vm3.strings.capacity = _
    rw [e3]; exact hscap
  · have e3 : vm3.strings = strings := by rw [hfr3]
    show vm3.strings.count = _
    rw [e3]; exact hscount
  · intro j e hj
    have e3 : vm3.strings = strings := by rw [hfr3]
    show vm3.strings.entries[j]? = _
    rw [e3, hsent j e hj]
    congr 1
    apply if_congr _ rfl rfl
    simp only [white_entry, white_key, Nat.zero_le, true_and]
  · rw [hfr3, hfr2, hready.gray]
  · intro a ha
    exact mark_phase_sound hready (by omega) hmark a (marked_at_true.1 ha)

/-- A collection keeps the intern invariant. -/
theorem collected_intern_inv {vm vm' : VM} {l ups : List Nat} {n : Nat} {M : Nat → Bool}
    (hinv : intern_inv vm l ups n) (hc : collected vm l ups vm' M) :
    intern_inv vm' (l.filter M) ups n := by
  have hno_new : ∀ (k : Nat) (d : List Nat), interned vm' k d → interned vm k d := by
    intro k d ⟨⟨e, he, hk⟩, hd⟩
    obtain ⟨hmem, hM⟩ := collected_key hinv.ready hc he hk
    obtain ⟨o, o', ho, ho', _, hp⟩ := hc.kept k hM
    exact ⟨⟨e, hmem, hk⟩, by rw [← string_data_of_payload ho ho' hp]; exact hd⟩
  refine ⟨collected_ready hinv.ready hc, ?_, ?_, ?_, ?_⟩
  · intro e k he hk
    obtain ⟨hmem, hM⟩ := collected_key hinv.ready hc he hk
    obtain ⟨o, d, ho, hp⟩ := hinv.hashed e k hmem hk
    obtain ⟨o1, o', ho1, ho', _, hp'⟩ := hc.kept k hM
    rw [ho] at ho1
    cases ho1
    exact ⟨o', d, ho', by rw [hp', hp]⟩
  · intro k1 k2 d h1 h2
    exact hinv.unique k1 k2 d (hno_new k1 d h1) (hno_new k2 d h2)
  · rw [hc.strings_cap]; exact hinv.cap_budget
  · rw [hc.strings_count]; exact hinv.count_budget

/-- C30: on a state that satisfies the intern invariant, `collect_garbage`
returns, and in the state it leaves (1) every key that remains in `vm.strings`
is an object that survived the sweep, with the payload it had, and was
reachable from the roots; (2) every string that was interned but not reachable
from the roots is no key of the table any more, has been freed, and
`table_find_string` does not find its bytes; (3) every interned string that
was reachable from the roots is still allocated with its bytes and
`table_find_string` finds it by these bytes. -/
theorem gc_leaves_no_dangling_intern_key (sz : sizeofs) {vm : VM} {l ups : List Nat}
    {n fuel : Nat} (hinv : intern_inv vm l ups n) (hfuel : 2 ^ 32 ≤ fuel)
    (hf : l.length + ups.length < fuel) :
    ∃ vm' : VM, collect_garbage sz fuel vm = some vm' ∧
      (∀ (e : table_entry) (k : Nat), e ∈ vm'.strings.entries → e.key = some k →
        (∃ o o', vm.heap k = some o ∧ vm'.heap k = some o' ∧ o'.payload = o.payload) ∧
        reachable vm ups k) ∧
      (∀ (k : Nat) (d : List Nat), interned vm k d → ¬ reachable vm ups k →
        (∀ e ∈ vm'.strings.entries, e.key ≠ some k) ∧ vm'.heap k = none ∧
        table_find_string vm'.heap fuel vm'.strings d (hash_string d) = some none) ∧
      (∀ (k : Nat) (d : List Nat), interned vm k d → reachable vm ups k →
        string_data vm'.heap k = some d ∧
        table_find_string vm'.heap fuel vm'.strings d (hash_string d) = some (some k)) := by
  obtain ⟨vm', M, hrun, hc, hexact⟩ := collect_garbage_exact sz hinv.ready hfuel hf
  have hinv' := collected_intern_inv hinv hc
  have hold : ∀ (k : Nat) (d : List Nat), interned vm' k d → interned vm k d := by
    intro k d ⟨⟨e, he, hk⟩, hd⟩
    obtain ⟨hmem, hM⟩ := collected_key hinv.ready hc he hk
    obtain ⟨o, o', ho, ho', _, hp⟩ := hc.kept k hM
    exact ⟨⟨e, hmem, hk⟩, by rw [← string_data_of_payload ho ho' hp]; exact hd⟩
  refine ⟨vm', hrun, ?_, ?_, ?_⟩
  · intro e k he hk
    obtain ⟨_, hM⟩ := collected_key hinv.ready hc he hk
    obtain ⟨o, o', ho, ho', _, hp⟩ := hc.kept k hM
    exact ⟨⟨o, o', ho, ho', hp⟩, hexact k hM⟩
  · intro k d hk hunreach
    have hM : M k = false := by
      cases hMk : M k with
      | false => rfl
      | true => exact absurd (hexact k hMk) hunreach
    have hfree := hc.freed k hM
    refine ⟨?_, hfree, ?_⟩
    · intro e he hek
      obtain ⟨_, hM'⟩ := collected_key hinv.ready hc he hek
      rw [hM] at hM'
      cases hM'
    · rcases find_string_inv d hinv' hfuel with ⟨k', hk', _⟩ | ⟨_, hnone⟩
      · have e := hinv.unique k' k d (hold k' d hk') hk
        subst e
        have hd := hk'.2
        simp only [string_data, hfree] at hd
        cases hd
      · exact hnone
  · intro k d hk hreach
    have hM := hc.reach k hreach
    obtain ⟨⟨e, he, hek⟩, hd⟩ := hk
    obtain ⟨o, o', ho, ho', _, hp⟩ := hc.kept k hM
    have hd' : string_data vm'.heap k = some d := by
      rw [string_data_of_payload ho ho' hp]; exact hd
    have hk' : interned vm' k d := ⟨⟨e, collected_key_kept hc he hek hM, hek⟩, hd'⟩
    refine ⟨hd', ?_⟩
    rcases find_string_inv d hinv' hfuel with ⟨k', hk2, hfind⟩ | ⟨hnone, _⟩
    · rw [hinv'.unique k k' d hk' hk2]
      exact hfind
    · exact absurd hk' (hnone k)

/-- The string "b" of the example state is interned and not reachable. -/
theorem vm4_unreachable_b : interned vm4 4 [98] ∧ ¬ reachable vm4 [] 4 := by
  refine ⟨⟨⟨{ key := some 4, val := value.nil }, by decide, rfl⟩, rfl⟩, ?_⟩
  rintro ⟨r, hr, hpath⟩
  have hroot : r = 3 := by
    simp [root_ptrs, vm4, zero_vm, table_ptrs, init_table, value_ptr, List.range_succ] at hr
    exact hr
  subst hroot
  have hset : ∀ a, Relation.ReflTransGen (heap_edge vm4.heap) 3 a → a = 3 ∨ a = 2 ∨ a = 1 := by
    intro a h
    induction h with
    | refl => exact Or.inl rfl
    | tail _ hedge ih =>
      obtain ⟨o, ho, hb⟩ := hedge
      rcases ih with h | h | h <;> subst h <;>
        (simp only [vm4, heap4] at ho
         cases ho
         revert hb
         simp +contextual [obj_edges, empty_chunk, init_chunk, init_value_array])
  rcases hset 4 hpath with h | h | h <;> cases h

theorem gc_leaves_no_dangling_intern_key_witness :
    ∃ vm' : VM, collect_garbage sizes_lp64 (2 ^ 32) vm4 = some vm' ∧
      (∀ e ∈ vm'.strings.entries, e.key ≠ some 4) ∧ vm'.heap 4 = none ∧
      table_find_string vm'.heap (2 ^ 32) vm'.strings [98] (hash_string [98]) = some none ∧
      table_find_string vm'.heap (2 ^ 32) vm'.strings [97] (hash_string [97])
        = some (some 1) := by
  obtain ⟨vm', hrun, _, h2, h3⟩ :=
    @gc_leaves_no_dangling_intern_key sizes_lp64 vm4 [4, 3, 2, 1] [] 2 (2 ^ 32) vm4_inv
      (Nat.le_refl _) (by decide)
  obtain ⟨ha, hb, hc⟩ := h2 4 [98] vm4_unreachable_b.1 vm4_unreachable_b.2
  exact ⟨vm', hrun, ha, hb, hc, (h3 1 [97] vm4_interned_a vm4_reachable_a).2⟩

set_option linter.unusedTactic false
set_option linter.unreachableTactic false

/-! ### The error state: `had_error` is sticky and set by reports only -/

theorem reports_refl (c : compile_state) : reports c c :=
  ⟨⟨[], by simp, by simp⟩, fun h => h⟩

theorem reports_trans {c0 c1 c2 : compile_state} (h1 : reports c0 c1) (h2 : reports c1 c2) :
    reports c0 c2 := by
  obtain ⟨⟨ds1, e1, i1⟩, p1⟩ := h1
  obtain ⟨⟨ds2, e2, i2⟩, p2⟩ := h2
  refine ⟨⟨ds1 ++ ds2, by rw [e2, e1, List.append_assoc], ?_⟩, fun h => p2 (p1 h)⟩
  rw [i2, i1]
  simp only [ne_eq, List.append_eq_nil, not_and_or]
  tauto

/-- A state with the same error state can stand in. -/
theorem reports_same {c0 c c1 : compile_state} (h : reports c0 c) (e1 : c1.stderr = c.stderr)
    (e2 : c1.parser.had_error = c.parser.had_error)
    (e3 : c1.parser.panic_mode = c.parser.panic_mode) : reports c0 c1 := by
  unfold reports at h ⊢
  rw [e1, e2, e3]
  exact h

/-- Function `error_at` sets `had_error` exactly when it reports. -/
theorem reports_error_at {c0 c : compile_state} (h : reports c0 c) (tok : token)
    (msg : List Nat) (args : List (List Nat)) : reports c0 (error_at c tok msg args) := by
  refine reports_trans h ?_
  unfold error_at
  by_cases hp : c.parser.panic_mode = true
  · rw [if_pos hp]
    exact reports_refl c
  · rw [if_neg hp]
    exact ⟨⟨_, rfl, by simp⟩, fun _ _ => rfl⟩

theorem reports_error {c0 c : compile_state} (h : reports c0 c)
    (msg : List Nat) (args : List (List Nat)) : reports c0 (error c msg args) :=
  reports_error_at h _ msg args

theorem reports_error_at_current {c0 c : compile_state} (h : reports c0 c)
    (msg : List Nat) (args : List (List Nat)) : reports c0 (error_at_current c msg args) :=
  reports_error_at h _ msg args

/-- Leaving panic mode keeps the error state. -/
theorem reports_calm {c0 c : compile_state} (h : reports c0 c) :
    reports c0 { c with parser := { c.parser with panic_mode := false } } := by
  refine reports_trans h ?_
  exact ⟨⟨[], by simp, by simp⟩, fun _ hp => by cases hp⟩

theorem reports_opt_none (c : compile_state) : reports_opt c none :=
  ⟨fun c1 h => by cases h⟩

theorem reports_opt_some {c c1 : compile_state} (h : reports c c1) : reports_opt c (some c1) :=
  ⟨fun c2 e => by cases e; exact h⟩

theorem reports_opt2_none {β : Type} (c : compile_state) :
    reports_opt2 c (none : Option (compile_state × β)) :=
  ⟨fun c1 b h => by cases h⟩

theorem reports_opt2_some {β : Type} {c c1 : compile_state} {b : β} (h : reports c c1) :
    reports_opt2 c (some (c1, b)) :=
  ⟨fun c2 b2 e => by cases e; exact h⟩

theorem reports_bind11 {c : compile_state} {x : Option compile_state}
    {f : compile_state → Option compile_state} (hx : reports_opt c x)
    (hf : ∀ c1, reports c c1 → reports_opt c (f c1)) : reports_opt c (x >>= f) := by
  refine ⟨fun c2 h => ?_⟩
  cases x with
  | none => cases h
  | some c1 => exact (hf c1 (hx.run c1 rfl)).run c2 h

theorem reports_bind12 {β : Type} {c : compile_state} {x : Option compile_state}
    {f : compile_state → Option (compile_state × β)} (hx : reports_opt c x)
    (hf : ∀ c1, reports c c1 → reports_opt2 c (f c1)) : reports_opt2 c (x >>= f) := by
  refine ⟨fun c2 b h => ?_⟩
  cases x with
  | none => cases h
  | some c1 => exact (hf c1 (hx.run c1 rfl)).run c2 b h

theorem reports_bind21 {α : Type} {c : compile_state} {x : Option (compile_state × α)}
    {f : compile_state × α → Option compile_state} (hx : reports_opt2 c x)
    (hf : ∀ c1 a, reports c c1 → reports_opt c (f (c1, a))) : reports_opt c (x >>= f) := by
  refine ⟨fun c2 h => ?_⟩
  cases x with
  | none => cases h
  | some p =>
    obtain ⟨c1, a⟩ := p
    exact (hf c1 a (hx.run c1 a rfl)).run c2 h

theorem reports_bind22 {α β : Type} {c : compile_state} {x : Option (compile_state × α)}
    {f : compile_state × α → Option (compile_state × β)} (hx : reports_opt2 c x)
    (hf : ∀ c1 a, reports c c1 → reports_opt2 c (f (c1, a))) : reports_opt2 c (x >>= f) := by
  refine ⟨fun c2 b h => ?_⟩
  cases x with
  | none => cases h
  | some p =>
    obtain ⟨c1, a⟩ := p
    exact (hf c1 a (hx.run c1 a rfl)).run c2 b h

/-- A step that reads a value and leaves the state alone. -/
theorem reports_read1 {α : Type} {c : compile_state} {x : Option α}
    {f : α → Option compile_state} (hf : ∀ a, reports_opt c (f a)) :
    reports_opt c (x >>= f) := by
  refine ⟨fun c2 h => ?_⟩
  cases x with
  | none => cases h
  | some a => exact (hf a).run c2 h

theorem reports_read2 {α β : Type} {c : compile_state} {x : Option α}
    {f : α → Option (compile_state × β)} (hf : ∀ a, reports_opt2 c (f a)) :
    reports_opt2 c (x >>= f) := by
  refine ⟨fun c2 b h => ?_⟩
  cases x with
  | none => cases h
  | some a => exact (hf a).run c2 b h

theorem emit_byte_reports {h : host} {c0 c : compile_state} (b : Nat) (hc : reports c0 c) :
    reports_opt c0 (emit_byte h c b) := by
  refine ⟨fun c1 h1 => ?_⟩
  unfold emit_byte at h1
  simp only [Option.bind_eq_bind, Option.bind_eq_some] at h1
  obtain ⟨k, _, vm1, _, e⟩ := h1
  cases e
  exact reports_same hc rfl rfl rfl

theorem reports_with_vm {c0 c : compile_state} (vm : VM) (h : reports c0 c) :
    reports c0 { c with vm := vm } :=
  reports_same h rfl rfl rfl

theorem reports_set_chain {c0 c : compile_state} (chain : List compiler_t) (h : reports c0 c) :
    reports c0 (set_chain c chain) :=
  reports_same h rfl rfl rfl

theorem reports_set_compiler {c0 c : compile_state} (k : compiler_t) (h : reports c0 c) :
    reports c0 (set_compiler c k) :=
  reports_same h rfl rfl rfl

theorem reports_print_out {c0 c : compile_state} (items : List out_item) (h : reports c0 c) :
    reports c0 (print_out c items) :=
  reports_same h rfl rfl rfl

theorem emit_bytes_reports {h : host} {c0 c : compile_state} (b1 b2 : Nat) (hc : reports c0 c) :
    reports_opt c0 (emit_bytes h c b1 b2) := by
  unfold emit_bytes
  repeat' first
    | with_reducible exact reports_opt_none _
    | with_reducible exact reports_opt2_none _
    | with_reducible apply reports_opt_some
    | with_reducible apply reports_opt2_some
    | with_reducible assumption
    | with_reducible apply emit_byte_reports
    | with_reducible apply reports_error
    | with_reducible apply reports_error_at_current
    | with_reducible apply reports_error_at
    | with_reducible apply reports_calm
    | with_reducible apply reports_set_chain
    | with_reducible apply reports_set_compiler
    | with_reducible apply reports_print_out
    | assumption
    | (refine reports_with_vm _ ?_; with_reducible apply reports_error)
    | (refine reports_with_vm _ ?_; with_reducible apply reports_error_at_current)
    | with_reducible apply reports_bind11
    | with_reducible apply reports_bind12
    | with_reducible apply reports_bind21
    | with_reducible apply reports_bind22
    | with_reducible apply reports_read1
    | with_reducible apply reports_read2
    | intro _
    | dsimp only
    | split

theorem emit_loop_reports {h : host} {c0 c : compile_state} (ls : Int) (hc : reports c0 c) :
    reports_opt c0 (emit_loop h c ls) := by
  unfold emit_loop
  repeat' first
    | with_reducible exact reports_opt_none _
    | with_reducible exact reports_opt2_none _
    | with_reducible apply reports_opt_some
    | with_reducible apply reports_opt2_some
    | with_reducible assumption
    | with_reducible apply emit_byte_reports
    | with_reducible apply reports_error
    | with_reducible apply reports_error_at_current
    | with_reducible apply reports_error_at
    | with_reducible apply reports_calm
    | with_reducible apply reports_set_chain
    | with_reducible apply reports_set_compiler
    | with_reducible apply reports_print_out
    | assumption
    | (refine reports_with_vm _ ?_; with_reducible apply reports_error)
    | (refine reports_with_vm _ ?_; with_reducible apply reports_error_at_current)
    | with_reducible apply reports_bind11
    | with_reducible apply reports_bind12
    | with_reducible apply reports_bind21
    | with_reducible apply reports_bind22
    | with_reducible apply reports_read1
    | with_reducible apply reports_read2
    | intro _
    | dsimp only
    | split

theorem emit_jump_reports {h : host} {c0 c : compile_state} (i : Nat) (hc : reports c0 c) :
    reports_opt2 c0 (emit_jump h c i) := by
  unfold emit_jump
  repeat' first
    | with_reducible exact reports_opt_none _
    | with_reducible exact reports_opt2_none _
    | with_reducible apply reports_opt_some
    | with_reducible apply reports_opt2_some
    | with_reducible assumption
    | with_reducible apply emit_byte_reports
    | with_reducible apply emit_bytes_reports
    | with_reducible apply reports_error
    | with_reducible apply reports_error_at_current
    | with_reducible apply reports_error_at
    | with_reducible apply reports_calm
    | with_reducible apply reports_set_chain
    | with_reducible apply reports_set_compiler
    | with_reducible apply reports_print_out
    | assumption
    | (refine reports_with_vm _ ?_; with_reducible apply reports_error)
    | (refine reports_with_vm _ ?_; with_reducible apply reports_error_at_current)
    | with_reducible apply reports_bind11
    | with_reducible apply reports_bind12
    | with_reducible apply reports_bind21
    | with_reducible apply reports_bind22
    | with_reducible apply reports_read1
    | with_reducible apply reports_read2
    | intro _
    | dsimp only
    | split

theorem implicit_return_reports {h : host} {c0 c : compile_state} (hc : reports c0 c) :
    reports_opt c0 (implicit_return h c) := by
  unfold implicit_return
  repeat' first
    | with_reducible exact reports_opt_none _
    | with_reducible exact reports_opt2_none _
    | with_reducible apply reports_opt_some
    | with_reducible apply reports_opt2_some
    | with_reducible assumption
    | with_reducible apply emit_byte_reports
    | with_reducible apply emit_bytes_reports
    | with_reducible apply reports_error
    | with_reducible apply reports_error_at_current
    | with_reducible apply reports_error_at
    | with_reducible apply reports_calm
    | with_reducible apply reports_set_chain
    | with_reducible apply reports_set_compiler
    | with_reducible apply reports_print_out
    | assumption
    | (refine reports_with_vm _ ?_; with_reducible apply reports_error)
    | (refine reports_with_vm _ ?_; with_reducible apply reports_error_at_current)
    | with_reducible apply reports_bind11
    | with_reducible apply reports_bind12
    | with_reducible apply reports_bind21
    | with_reducible apply reports_bind22
    | with_reducible apply reports_read1
    | with_reducible apply reports_read2
    | intro _
    | dsimp only
    | split

theorem make_constant_reports {h : host} {c0 c : compile_state} (v : value) (hc : reports c0 c) :
    reports_opt2 c0 (make_constant h c v) := by
  unfold make_constant
  repeat' first
    | with_reducible exact reports_opt_none _
    | with_reducible exact reports_opt2_none _
    | with_reducible apply reports_opt_some
    | with_reducible apply reports_opt2_some
    | with_reducible assumption
    | with_reducible apply reports_error
    | with_reducible apply reports_error_at_current
    | with_reducible apply reports_error_at
    | with_reducible apply reports_calm
    | with_reducible apply reports_set_chain
    | with_reducible apply reports_set_compiler
    | with_reducible apply reports_print_out
    | assumption
    | (refine reports_with_vm _ ?_; with_reducible apply reports_error)
    | (refine reports_with_vm _ ?_; with_reducible apply reports_error_at_current)
    | with_reducible apply reports_bind11
    | with_reducible apply reports_bind12
    | with_reducible apply reports_bind21
    | with_reducible apply reports_bind22
    | with_reducible apply reports_read1
    | with_reducible apply reports_read2
    | intro _
    | dsimp only
    | split

theorem emit_constant_reports {h : host} {c0 c : compile_state} (v : value) (hc : reports c0 c) :
    reports_opt c0 (emit_constant h c v) := by
  unfold emit_constant
  repeat' first
    | with_reducible exact reports_opt_none _
    | with_reducible exact reports_opt2_none _
    | with_reducible apply reports_opt_some
    | with_reducible apply reports_opt2_some
    | with_reducible assumption
    | with_reducible apply emit_bytes_reports
    | with_reducible apply make_constant_reports
    | with_reducible apply reports_error
    | with_reducible apply reports_error_at_current
    | with_reducible apply reports_error_at
    | with_reducible apply reports_calm
    | with_reducible apply reports_set_chain
    | with_reducible apply reports_set_compiler
    | with_reducible apply reports_print_out
    | assumption
    | (refine reports_with_vm _ ?_; with_reducible apply reports_error)
    | (refine reports_with_vm _ ?_; with_reducible apply reports_error_at_current)
    | with_reducible apply reports_bind11
    | with_reducible apply reports_bind12
    | with_reducible apply reports_bind21
    | with_reducible apply reports_bind22
    | with_reducible apply reports_read1
    | with_reducible apply reports_read2
    | intro _
    | dsimp only
    | split

theorem patch_jump_reports {c0 c : compile_state} (offset : Int) (hc : reports c0 c) :
    reports_opt c0 (patch_jump c offset) := by
  unfold patch_jump
  repeat' first
    | with_reducible exact reports_opt_none _
    | with_reducible exact reports_opt2_none _
    | with_reducible apply reports_opt_some
    | with_reducible apply reports_opt2_some
    | with_reducible assumption
    | with_reducible apply reports_error
    | with_reducible apply reports_error_at_current
    | with_reducible apply reports_error_at
    | with_reducible apply reports_calm
    | with_reducible apply reports_set_chain
    | with_reducible apply reports_set_compiler
    | with_reducible apply reports_print_out
    | assumption
    | (refine reports_with_vm _ ?_; with_reducible apply reports_error)
    | (refine reports_with_vm _ ?_; with_reducible apply reports_error_at_current)
    | with_reducible apply reports_bind11
    | with_reducible apply reports_bind12
    | with_reducible apply reports_bind21
    | with_reducible apply reports_bind22
    | with_reducible apply reports_read1
    | with_reducible apply reports_read2
    | intro _
    | dsimp only
    | split

theorem advance_loop_reports {h : host} {c0 : compile_state} :
    ∀ (n : Nat) (c : compile_state), reports c0 c →
      reports_opt c0 (advance_loop h n c) := by
  intro n
  induction n with
  | zero =>
    intros
    unfold advance_loop
    exact reports_opt_none _
  | succ n ih =>
    intros
    unfold advance_loop
    repeat' first
      | with_reducible exact reports_opt_none _
      | with_reducible exact reports_opt2_none _
      | with_reducible apply reports_opt_some
      | with_reducible apply reports_opt2_some
      | with_reducible assumption
      | with_reducible apply ih
      | with_reducible apply reports_error
      | with_reducible apply reports_error_at_current
      | with_reducible apply reports_error_at
      | with_reducible apply reports_calm
      | with_reducible apply reports_set_chain
      | with_reducible apply reports_set_compiler
      | with_reducible apply reports_print_out
      | assumption
      | (refine reports_with_vm _ ?_; with_reducible apply reports_error)
      | (refine reports_with_vm _ ?_; with_reducible apply reports_error_at_current)
      | with_reducible apply reports_bind11
      | with_reducible apply reports_bind12
      | with_reducible apply reports_bind21
      | with_reducible apply reports_bind22
      | with_reducible apply reports_read1
      | with_reducible apply reports_read2
      | intro _
      | dsimp only
      | split

theorem advance_reports {h : host} {c0 c : compile_state} (hc : reports c0 c) :
    reports_opt c0 (advance h c) := by
  unfold advance
  repeat' first
    | with_reducible exact reports_opt_none _
    | with_reducible exact reports_opt2_none _
    | with_reducible apply reports_opt_some
    | with_reducible apply reports_opt2_some
    | with_reducible assumption
    | with_reducible apply advance_loop_reports
    | with_reducible apply reports_error
    | with_reducible apply reports_error_at_current
    | with_reducible apply reports_error_at
    | with_reducible apply reports_calm
    | with_reducible apply reports_set_chain
    | with_reducible apply reports_set_compiler
    | with_reducible apply reports_print_out
    | assumption
    | (refine reports_with_vm _ ?_; with_reducible apply reports_error)
    | (refine reports_with_vm _ ?_; with_reducible apply reports_error_at_current)
    | with_reducible apply reports_bind11
    | with_reducible apply reports_bind12
    | with_reducible apply reports_bind21
    | with_reducible apply reports_bind22
    | with_reducible apply reports_read1
    | with_reducible apply reports_read2
    | intro _
    | dsimp only
    | split

theorem advance_reports_eq {h : host} {c0 c c1 : compile_state} (heq : advance h c = some c1)
    (hc : reports c0 c) : reports c0 c1 :=
  (advance_reports hc).run c1 heq

theorem consume_reports {h : host} {c0 c : compile_state} (t : token_type) (msg : List Nat) (hc : reports c0 c) :
    reports_opt c0 (consume h c t msg) := by
  unfold consume
  repeat' first
    | with_reducible exact reports_opt_none _
    | with_reducible exact reports_opt2_none _
    | with_reducible apply reports_opt_some
    | with_reducible apply reports_opt2_some
    | with_reducible assumption
    | with_reducible apply advance_reports
    | with_reducible apply reports_error
    | with_reducible apply reports_error_at_current
    | with_reducible apply reports_error_at
    | with_reducible apply reports_calm
    | with_reducible apply reports_set_chain
    | with_reducible apply reports_set_compiler
    | with_reducible apply reports_print_out
    | assumption
    | (refine reports_with_vm _ ?_; with_reducible apply reports_error)
    | (refine reports_with_vm _ ?_; with_reducible apply reports_error_at_current)
    | with_reducible apply reports_bind11
    | with_reducible apply reports_bind12
    | with_reducible apply reports_bind21
    | with_reducible apply reports_bind22
    | with_reducible apply reports_read1
    | with_reducible apply reports_read2
    | intro _
    | dsimp only
    | split
    | (with_reducible apply advance_reports_eq <;> assumption)

theorem match__reports {h : host} {c0 c : compile_state} (t : token_type) (hc : reports c0 c) :
    reports_opt2 c0 (match_ h c t) := by
  refine ⟨fun c1 b h1 => ?_⟩
  unfold match_ at h1
  split at h1
  · cases h1
    exact hc
  · simp only [Option.map_eq_some'] at h1
    obtain ⟨c2, h2, e⟩ := h1
    cases e
    exact (advance_reports hc).run _ h2

theorem init_compiler_reports {h : host} {c0 c : compile_state} (ft : func_type) (hc : reports c0 c) :
    reports_opt c0 (init_compiler h c ft) := by
  unfold init_compiler
  repeat' first
    | with_reducible exact reports_opt_none _
    | with_reducible exact reports_opt2_none _
    | with_reducible apply reports_opt_some
    | with_reducible apply reports_opt2_some
    | with_reducible assumption
    | with_reducible apply reports_error
    | with_reducible apply reports_error_at_current
    | with_reducible apply reports_error_at
    | with_reducible apply reports_calm
    | with_reducible apply reports_set_chain
    | with_reducible apply reports_set_compiler
    | with_reducible apply reports_print_out
    | assumption
    | (refine reports_with_vm _ ?_; with_reducible apply reports_error)
    | (refine reports_with_vm _ ?_; with_reducible apply reports_error_at_current)
    | with_reducible apply reports_bind11
    | with_reducible apply reports_bind12
    | with_reducible apply reports_bind21
    | with_reducible apply reports_bind22
    | with_reducible apply reports_read1
    | with_reducible apply reports_read2
    | intro _
    | dsimp only
    | split

theorem end_compiler_reports {h : host} {c0 c : compile_state} (hc : reports c0 c) :
    reports_opt2 c0 (end_compiler h c) := by
  unfold end_compiler
  repeat' first
    | with_reducible exact reports_opt_none _
    | with_reducible exact reports_opt2_none _
    | with_reducible apply reports_opt_some
    | with_reducible apply reports_opt2_some
    | with_reducible assumption
    | with_reducible apply implicit_return_reports
    | with_reducible apply reports_error
    | with_reducible apply reports_error_at_current
    | with_reducible apply reports_error_at
    | with_reducible apply reports_calm
    | with_reducible apply reports_set_chain
    | with_reducible apply reports_set_compiler
    | with_reducible apply reports_print_out
    | assumption
    | (refine reports_with_vm _ ?_; with_reducible apply reports_error)
    | (refine reports_with_vm _ ?_; with_reducible apply reports_error_at_current)
    | with_reducible apply reports_bind11
    | with_reducible apply reports_bind12
    | with_reducible apply reports_bind21
    | with_reducible apply reports_bind22
    | with_reducible apply reports_read1
    | with_reducible apply reports_read2
    | intro _
    | dsimp only
    | split

theorem begin_scope_reports {c0 c : compile_state} (hc : reports c0 c) :
    reports_opt c0 (begin_scope c) := by
  unfold begin_scope
  repeat' first
    | with_reducible exact reports_opt_none _
    | with_reducible exact reports_opt2_none _
    | with_reducible apply reports_opt_some
    | with_reducible apply reports_opt2_some
    | with_reducible assumption
    | with_reducible apply reports_error
    | with_reducible apply reports_error_at_current
    | with_reducible apply reports_error_at
    | with_reducible apply reports_calm
    | with_reducible apply reports_set_chain
    | with_reducible apply reports_set_compiler
    | with_reducible apply reports_print_out
    | assumption
    | (refine reports_with_vm _ ?_; with_reducible apply reports_error)
    | (refine reports_with_vm _ ?_; with_reducible apply reports_error_at_current)
    | with_reducible apply reports_bind11
    | with_reducible apply reports_bind12
    | with_reducible apply reports_bind21
    | with_reducible apply reports_bind22
    | with_reducible apply reports_read1
    | with_reducible apply reports_read2
    | intro _
    | dsimp only
    | split

theorem end_scope_loop_reports {h : host} {c0 : compile_state} :
    ∀ (n : Nat) (c : compile_state), reports c0 c →
      reports_opt c0 (end_scope_loop h n c) := by
  intro n
  induction n with
  | zero =>
    intros
    unfold end_scope_loop
    exact reports_opt_none _
  | succ n ih =>
    intros
    unfold end_scope_loop
    repeat' first
      | with_reducible exact reports_opt_none _
      | with_reducible exact reports_opt2_none _
      | with_reducible apply reports_opt_some
      | with_reducible apply reports_opt2_some
      | with_reducible assumption
      | with_reducible apply ih
      | with_reducible apply emit_byte_reports
      | with_reducible apply reports_error
      | with_reducible apply reports_error_at_current
      | with_reducible apply reports_error_at
      | with_reducible apply reports_calm
      | with_reducible apply reports_set_chain
      | with_reducible apply reports_set_compiler
      | with_reducible apply reports_print_out
      | assumption
      | (refine reports_with_vm _ ?_; with_reducible apply reports_error)
      | (refine reports_with_vm _ ?_; with_reducible apply reports_error_at_current)
      | with_reducible apply reports_bind11
      | with_reducible apply reports_bind12
      | with_reducible apply reports_bind21
      | with_reducible apply reports_bind22
      | with_reducible apply reports_read1
      | with_reducible apply reports_read2
      | intro _
      | dsimp only
      | split

theorem end_scope_reports {h : host} {c0 c : compile_state} (hc : reports c0 c) :
    reports_opt c0 (end_scope h c) := by
  unfold end_scope
  repeat' first
    | with_reducible exact reports_opt_none _
    | with_reducible exact reports_opt2_none _
    | with_reducible apply reports_opt_some
    | with_reducible apply reports_opt2_some
    | with_reducible assumption
    | with_reducible apply end_scope_loop_reports
    | with_reducible apply reports_error
    | with_reducible apply reports_error_at_current
    | with_reducible apply reports_error_at
    | with_reducible apply reports_calm
    | with_reducible apply reports_set_chain
    | with_reducible apply reports_set_compiler
    | with_reducible apply reports_print_out
    | assumption
    | (refine reports_with_vm _ ?_; with_reducible apply reports_error)
    | (refine reports_with_vm _ ?_; with_reducible apply reports_error_at_current)
    | with_reducible apply reports_bind11
    | with_reducible apply reports_bind12
    | with_reducible apply reports_bind21
    | with_reducible apply reports_bind22
    | with_reducible apply reports_read1
    | with_reducible apply reports_read2
    | intro _
    | dsimp only
    | split

theorem identifier_constant_reports {h : host} {c0 c : compile_state} (name : token) (hc : reports c0 c) :
    reports_opt2 c0 (identifier_constant h c name) := by
  unfold identifier_constant
  repeat' first
    | with_reducible exact reports_opt_none _
    | with_reducible exact reports_opt2_none _
    | with_reducible apply reports_opt_some
    | with_reducible apply reports_opt2_some
    | with_reducible assumption
    | with_reducible apply make_constant_reports
    | with_reducible apply reports_error
    | with_reducible apply reports_error_at_current
    | with_reducible apply reports_error_at
    | with_reducible apply reports_calm
    | with_reducible apply reports_set_chain
    | with_reducible apply reports_set_compiler
    | with_reducible apply reports_print_out
    | assumption
    | (refine reports_with_vm _ ?_; with_reducible apply reports_error)
    | (refine reports_with_vm _ ?_; with_reducible apply reports_error_at_current)
    | with_reducible apply reports_bind11
    | with_reducible apply reports_bind12
    | with_reducible apply reports_bind21
    | with_reducible apply reports_bind22
    | with_reducible apply reports_read1
    | with_reducible apply reports_read2
    | intro _
    | dsimp only
    | split

theorem resolve_local_loop_reports {c0 : compile_state} (locals : List localvar) (name : token) :
    ∀ (n : Nat) (c : compile_state), reports c0 c →
      reports_opt2 c0 (resolve_local_loop locals name n c) := by
  intro n
  induction n with
  | zero =>
    intros
    unfold resolve_local_loop
    exact reports_opt2_some (by assumption)
  | succ n ih =>
    intros
    unfold resolve_local_loop
    repeat' first
      | with_reducible exact reports_opt_none _
      | with_reducible exact reports_opt2_none _
      | with_reducible apply reports_opt_some
      | with_reducible apply reports_opt2_some
      | with_reducible assumption
      | with_reducible apply ih
      | with_reducible apply reports_error
      | with_reducible apply reports_error_at_current
      | with_reducible apply reports_error_at
      | with_reducible apply reports_calm
      | with_reducible apply reports_set_chain
      | with_reducible apply reports_set_compiler
      | with_reducible apply reports_print_out
      | assumption
      | (refine reports_with_vm _ ?_; with_reducible apply reports_error)
      | (refine reports_with_vm _ ?_; with_reducible apply reports_error_at_current)
      | with_reducible apply reports_bind11
      | with_reducible apply reports_bind12
      | with_reducible apply reports_bind21
      | with_reducible apply reports_bind22
      | with_reducible apply reports_read1
      | with_reducible apply reports_read2
      | intro _
      | dsimp only
      | split

theorem declare_variable_loop_reports {c0 : compile_state} (locals : List localvar) (d : Int)
    (name : token) :
    ∀ (n : Nat) (c : compile_state), reports c0 c →
      reports c0 (declare_variable_loop locals d name n c) := by
  intro n
  induction n with
  | zero =>
    intros
    unfold declare_variable_loop
    assumption
  | succ n ih =>
    intros
    unfold declare_variable_loop
    repeat' first
      | with_reducible exact reports_opt_none _
      | with_reducible exact reports_opt2_none _
      | with_reducible apply reports_opt_some
      | with_reducible apply reports_opt2_some
      | with_reducible assumption
      | with_reducible apply ih
      | with_reducible apply reports_error
      | with_reducible apply reports_error_at_current
      | with_reducible apply reports_error_at
      | with_reducible apply reports_calm
      | with_reducible apply reports_set_chain
      | with_reducible apply reports_set_compiler
      | with_reducible apply reports_print_out
      | assumption
      | (refine reports_with_vm _ ?_; with_reducible apply reports_error)
      | (refine reports_with_vm _ ?_; with_reducible apply reports_error_at_current)
      | with_reducible apply reports_bind11
      | with_reducible apply reports_bind12
      | with_reducible apply reports_bind21
      | with_reducible apply reports_bind22
      | with_reducible apply reports_read1
      | with_reducible apply reports_read2
      | intro _
      | dsimp only
      | split

theorem emit_upvalues_reports {h : host} {c0 : compile_state} (ups : List upvalue) :
    ∀ (n : Nat) (i : Nat) (c : compile_state), reports c0 c →
      reports_opt c0 (emit_upvalues h ups n i c) := by
  intro n
  induction n with
  | zero =>
    intros
    unfold emit_upvalues
    exact reports_opt_some (by assumption)
  | succ n ih =>
    intros
    unfold emit_upvalues
    repeat' first
      | with_reducible exact reports_opt_none _
      | with_reducible exact reports_opt2_none _
      | with_reducible apply reports_opt_some
      | with_reducible apply reports_opt2_some
      | with_reducible assumption
      | with_reducible apply ih
      | with_reducible apply emit_byte_reports
      | with_reducible apply reports_error
      | with_reducible apply reports_error_at_current
      | with_reducible apply reports_error_at
      | with_reducible apply reports_calm
      | with_reducible apply reports_set_chain
      | with_reducible apply reports_set_compiler
      | with_reducible apply reports_print_out
      | assumption
      | (refine reports_with_vm _ ?_; with_reducible apply reports_error)
      | (refine reports_with_vm _ ?_; with_reducible apply reports_error_at_current)
      | with_reducible apply reports_bind11
      | with_reducible apply reports_bind12
      | with_reducible apply reports_bind21
      | with_reducible apply reports_bind22
      | with_reducible apply reports_read1
      | with_reducible apply reports_read2
      | intro _
      | dsimp only
      | split

theorem resolve_local_reports {c0 c : compile_state} (k : compiler_t) (name : token) (hc : reports c0 c) :
    reports_opt2 c0 (resolve_local c k name) := by
  unfold resolve_local
  repeat' first
    | with_reducible exact reports_opt_none _
    | with_reducible exact reports_opt2_none _
    | with_reducible apply reports_opt_some
    | with_reducible apply reports_opt2_some
    | with_reducible assumption
    | with_reducible apply resolve_local_loop_reports
    | with_reducible apply reports_error
    | with_reducible apply reports_error_at_current
    | with_reducible apply reports_error_at
    | with_reducible apply reports_calm
    | with_reducible apply reports_set_chain
    | with_reducible apply reports_set_compiler
    | with_reducible apply reports_print_out
    | assumption
    | (refine reports_with_vm _ ?_; with_reducible apply reports_error)
    | (refine reports_with_vm _ ?_; with_reducible apply reports_error_at_current)
    | with_reducible apply reports_bind11
    | with_reducible apply reports_bind12
    | with_reducible apply reports_bind21
    | with_reducible apply reports_bind22
    | with_reducible apply reports_read1
    | with_reducible apply reports_read2
    | intro _
    | dsimp only
    | split

theorem add_upvalue_reports {c0 c : compile_state} (d i : Nat) (b : Bool) (hc : reports c0 c) :
    reports_opt2 c0 (add_upvalue c d i b) := by
  unfold add_upvalue
  repeat' first
    | with_reducible exact reports_opt_none _
    | with_reducible exact reports_opt2_none _
    | with_reducible apply reports_opt_some
    | with_reducible apply reports_opt2_some
    | with_reducible assumption
    | with_reducible apply reports_error
    | with_reducible apply reports_error_at_current
    | with_reducible apply reports_error_at
    | with_reducible apply reports_calm
    | with_reducible apply reports_set_chain
    | with_reducible apply reports_set_compiler
    | with_reducible apply reports_print_out
    | assumption
    | (refine reports_with_vm _ ?_; with_reducible apply reports_error)
    | (refine reports_with_vm _ ?_; with_reducible apply reports_error_at_current)
    | with_reducible apply reports_bind11
    | with_reducible apply reports_bind12
    | with_reducible apply reports_bind21
    | with_reducible apply reports_bind22
    | with_reducible apply reports_read1
    | with_reducible apply reports_read2
    | intro _
    | dsimp only
    | split

theorem resolve_upvalue_reports {c0 : compile_state} (name : token) :
    ∀ (n : Nat) (c : compile_state) (d : Nat), reports c0 c →
      reports_opt2 c0 (resolve_upvalue name n c d) := by
  intro n
  induction n with
  | zero =>
    intros
    unfold resolve_upvalue
    exact reports_opt2_none _
  | succ n ih =>
    intros
    unfold resolve_upvalue
    repeat' first
      | with_reducible exact reports_opt_none _
      | with_reducible exact reports_opt2_none _
      | with_reducible apply reports_opt_some
      | with_reducible apply reports_opt2_some
      | with_reducible assumption
      | with_reducible apply ih
      | with_reducible apply resolve_local_reports
      | with_reducible apply add_upvalue_reports
      | with_reducible apply reports_error
      | with_reducible apply reports_error_at_current
      | with_reducible apply reports_error_at
      | with_reducible apply reports_calm
      | with_reducible apply reports_set_chain
      | with_reducible apply reports_set_compiler
      | with_reducible apply reports_print_out
      | assumption
      | (refine reports_with_vm _ ?_; with_reducible apply reports_error)
      | (refine reports_with_vm _ ?_; with_reducible apply reports_error_at_current)
      | with_reducible apply reports_bind11
      | with_reducible apply reports_bind12
      | with_reducible apply reports_bind21
      | with_reducible apply reports_bind22
      | with_reducible apply reports_read1
      | with_reducible apply reports_read2
      | intro _
      | dsimp only
      | split

theorem add_local_reports {c0 c : compile_state} (name : token) (hc : reports c0 c) :
    reports_opt c0 (add_local c name) := by
  unfold add_local
  repeat' first
    | with_reducible exact reports_opt_none _
    | with_reducible exact reports_opt2_none _
    | with_reducible apply reports_opt_some
    | with_reducible apply reports_opt2_some
    | with_reducible assumption
    | with_reducible apply reports_error
    | with_reducible apply reports_error_at_current
    | with_reducible apply reports_error_at
    | with_reducible apply reports_calm
    | with_reducible apply reports_set_chain
    | with_reducible apply reports_set_compiler
    | with_reducible apply reports_print_out
    | assumption
    | (refine reports_with_vm _ ?_; with_reducible apply reports_error)
    | (refine reports_with_vm _ ?_; with_reducible apply reports_error_at_current)
    | with_reducible apply reports_bind11
    | with_reducible apply reports_bind12
    | with_reducible apply reports_bind21
    | with_reducible apply reports_bind22
    | with_reducible apply reports_read1
    | with_reducible apply reports_read2
    | intro _
    | dsimp only
    | split

theorem declare_variable_reports {c0 c : compile_state} (hc : reports c0 c) :
    reports_opt c0 (declare_variable c) := by
  unfold declare_variable
  repeat' first
    | with_reducible exact reports_opt_none _
    | with_reducible exact reports_opt2_none _
    | with_reducible apply reports_opt_some
    | with_reducible apply reports_opt2_some
    | with_reducible assumption
    | with_reducible apply declare_variable_loop_reports
    | with_reducible apply add_local_reports
    | with_reducible apply reports_error
    | with_reducible apply reports_error_at_current
    | with_reducible apply reports_error_at
    | with_reducible apply reports_calm
    | with_reducible apply reports_set_chain
    | with_reducible apply reports_set_compiler
    | with_reducible apply reports_print_out
    | assumption
    | (refine reports_with_vm _ ?_; with_reducible apply reports_error)
    | (refine reports_with_vm _ ?_; with_reducible apply reports_error_at_current)
    | with_reducible apply reports_bind11
    | with_reducible apply reports_bind12
    | with_reducible apply reports_bind21
    | with_reducible apply reports_bind22
    | with_reducible apply reports_read1
    | with_reducible apply reports_read2
    | intro _
    | dsimp only
    | split

theorem parse_variable_reports {h : host} {c0 c : compile_state} (msg : List Nat) (hc : reports c0 c) :
    reports_opt2 c0 (parse_variable h c msg) := by
  unfold parse_variable
  repeat' first
    | with_reducible exact reports_opt_none _
    | with_reducible exact reports_opt2_none _
    | with_reducible apply reports_opt_some
    | with_reducible apply reports_opt2_some
    | with_reducible assumption
    | with_reducible apply consume_reports
    | with_reducible apply identifier_constant_reports
    | with_reducible apply declare_variable_reports
    | with_reducible apply reports_error
    | with_reducible apply reports_error_at_current
    | with_reducible apply reports_error_at
    | with_reducible apply reports_calm
    | with_reducible apply reports_set_chain
    | with_reducible apply reports_set_compiler
    | with_reducible apply reports_print_out
    | assumption
    | (refine reports_with_vm _ ?_; with_reducible apply reports_error)
    | (refine reports_with_vm _ ?_; with_reducible apply reports_error_at_current)
    | with_reducible apply reports_bind11
    | with_reducible apply reports_bind12
    | with_reducible apply reports_bind21
    | with_reducible apply reports_bind22
    | with_reducible apply reports_read1
    | with_reducible apply reports_read2
    | intro _
    | dsimp only
    | split

theorem mark_initialized_reports {c0 c : compile_state} (hc : reports c0 c) :
    reports_opt c0 (mark_initialized c) := by
  unfold mark_initialized
  repeat' first
    | with_reducible exact reports_opt_none _
    | with_reducible exact reports_opt2_none _
    | with_reducible apply reports_opt_some
    | with_reducible apply reports_opt2_some
    | with_reducible assumption
    | with_reducible apply reports_error
    | with_reducible apply reports_error_at_current
    | with_reducible apply reports_error_at
    | with_reducible apply reports_calm
    | with_reducible apply reports_set_chain
    | with_reducible apply reports_set_compiler
    | with_reducible apply reports_print_out
    | assumption
    | (refine reports_with_vm _ ?_; with_reducible apply reports_error)
    | (refine reports_with_vm _ ?_; with_reducible apply reports_error_at_current)
    | with_reducible apply reports_bind11
    | with_reducible apply reports_bind12
    | with_reducible apply reports_bind21
    | with_reducible apply reports_bind22
    | with_reducible apply reports_read1
    | with_reducible apply reports_read2
    | intro _
    | dsimp only
    | split

theorem define_variable_reports {h : host} {c0 c : compile_state} (g : Nat) (hc : reports c0 c) :
    reports_opt c0 (define_variable h c g) := by
  unfold define_variable
  repeat' first
    | with_reducible exact reports_opt_none _
    | with_reducible exact reports_opt2_none _
    | with_reducible apply reports_opt_some
    | with_reducible apply reports_opt2_some
    | with_reducible assumption
    | with_reducible apply emit_bytes_reports
    | with_reducible apply mark_initialized_reports
    | with_reducible apply reports_error
    | with_reducible apply reports_error_at_current
    | with_reducible apply reports_error_at
    | with_reducible apply reports_calm
    | with_reducible apply reports_set_chain
    | with_reducible apply reports_set_compiler
    | with_reducible apply reports_print_out
    | assumption
    | (refine reports_with_vm _ ?_; with_reducible apply reports_error)
    | (refine reports_with_vm _ ?_; with_reducible apply reports_error_at_current)
    | with_reducible apply reports_bind11
    | with_reducible apply reports_bind12
    | with_reducible apply reports_bind21
    | with_reducible apply reports_bind22
    | with_reducible apply reports_read1
    | with_reducible apply reports_read2
    | intro _
    | dsimp only
    | split

theorem literal_reports {h : host} {c0 c : compile_state} (hc : reports c0 c) :
    reports_opt c0 (literal h c) := by
  unfold literal
  repeat' first
    | with_reducible exact reports_opt_none _
    | with_reducible exact reports_opt2_none _
    | with_reducible apply reports_opt_some
    | with_reducible apply reports_opt2_some
    | with_reducible assumption
    | with_reducible apply emit_byte_reports
    | with_reducible apply reports_error
    | with_reducible apply reports_error_at_current
    | with_reducible apply reports_error_at
    | with_reducible apply reports_calm
    | with_reducible apply reports_set_chain
    | with_reducible apply reports_set_compiler
    | with_reducible apply reports_print_out
    | assumption
    | (refine reports_with_vm _ ?_; with_reducible apply reports_error)
    | (refine reports_with_vm _ ?_; with_reducible apply reports_error_at_current)
    | with_reducible apply reports_bind11
    | with_reducible apply reports_bind12
    | with_reducible apply reports_bind21
    | with_reducible apply reports_bind22
    | with_reducible apply reports_read1
    | with_reducible apply reports_read2
    | intro _
    | dsimp only
    | split

theorem compiler.number_reports {h : host} {c0 c : compile_state} (hc : reports c0 c) :
    reports_opt c0 (compiler.number h c) := by
  unfold compiler.number
  repeat' first
    | with_reducible exact reports_opt_none _
    | with_reducible exact reports_opt2_none _
    | with_reducible apply reports_opt_some
    | with_reducible apply reports_opt2_some
    | with_reducible assumption
    | with_reducible apply emit_constant_reports
    | with_reducible apply reports_error
    | with_reducible apply reports_error_at_current
    | with_reducible apply reports_error_at
    | with_reducible apply reports_calm
    | with_reducible apply reports_set_chain
    | with_reducible apply reports_set_compiler
    | with_reducible apply reports_print_out
    | assumption
    | (refine reports_with_vm _ ?_; with_reducible apply reports_error)
    | (refine reports_with_vm _ ?_; with_reducible apply reports_error_at_current)
    | with_reducible apply reports_bind11
    | with_reducible apply reports_bind12
    | with_reducible apply reports_bind21
    | with_reducible apply reports_bind22
    | with_reducible apply reports_read1
    | with_reducible apply reports_read2
    | intro _
    | dsimp only
    | split

theorem compiler.string_reports {h : host} {c0 c : compile_state} (hc : reports c0 c) :
    reports_opt c0 (compiler.string h c) := by
  unfold compiler.string
  repeat' first
    | with_reducible exact reports_opt_none _
    | with_reducible exact reports_opt2_none _
    | with_reducible apply reports_opt_some
    | with_reducible apply reports_opt2_some
    | with_reducible assumption
    | with_reducible apply emit_constant_reports
    | with_reducible apply reports_error
    | with_reducible apply reports_error_at_current
    | with_reducible apply reports_error_at
    | with_reducible apply reports_calm
    | with_reducible apply reports_set_chain
    | with_reducible apply reports_set_compiler
    | with_reducible apply reports_print_out
    | assumption
    | (refine reports_with_vm _ ?_; with_reducible apply reports_error)
    | (refine reports_with_vm _ ?_; with_reducible apply reports_error_at_current)
    | with_reducible apply reports_bind11
    | with_reducible apply reports_bind12
    | with_reducible apply reports_bind21
    | with_reducible apply reports_bind22
    | with_reducible apply reports_read1
    | with_reducible apply reports_read2
    | intro _
    | dsimp only
    | split

theorem binary_emit_reports {h : host} {c0 c : compile_state} (t : token_type) (hc : reports c0 c) :
    reports_opt c0 (binary_emit h c t) := by
  unfold binary_emit
  repeat' first
    | with_reducible exact reports_opt_none _
    | with_reducible exact reports_opt2_none _
    | with_reducible apply reports_opt_some
    | with_reducible apply reports_opt2_some
    | with_reducible assumption
    | with_reducible apply emit_byte_reports
    | with_reducible apply emit_bytes_reports
    | with_reducible apply reports_error
    | with_reducible apply reports_error_at_current
    | with_reducible apply reports_error_at
    | with_reducible apply reports_calm
    | with_reducible apply reports_set_chain
    | with_reducible apply reports_set_compiler
    | with_reducible apply reports_print_out
    | assumption
    | (refine reports_with_vm _ ?_; with_reducible apply reports_error)
    | (refine reports_with_vm _ ?_; with_reducible apply reports_error_at_current)
    | with_reducible apply reports_bind11
    | with_reducible apply reports_bind12
    | with_reducible apply reports_bind21
    | with_reducible apply reports_bind22
    | with_reducible apply reports_read1
    | with_reducible apply reports_read2
    | intro _
    | dsimp only
    | split

theorem unary_emit_reports {h : host} {c0 c : compile_state} (t : token_type) (hc : reports c0 c) :
    reports_opt c0 (unary_emit h c t) := by
  unfold unary_emit
  repeat' first
    | with_reducible exact reports_opt_none _
    | with_reducible exact reports_opt2_none _
    | with_reducible apply reports_opt_some
    | with_reducible apply reports_opt2_some
    | with_reducible assumption
    | with_reducible apply emit_byte_reports
    | with_reducible apply reports_error
    | with_reducible apply reports_error_at_current
    | with_reducible apply reports_error_at
    | with_reducible apply reports_calm
    | with_reducible apply reports_set_chain
    | with_reducible apply reports_set_compiler
    | with_reducible apply reports_print_out
    | assumption
    | (refine reports_with_vm _ ?_; with_reducible apply reports_error)
    | (refine reports_with_vm _ ?_; with_reducible apply reports_error_at_current)
    | with_reducible apply reports_bind11
    | with_reducible apply reports_bind12
    | with_reducible apply reports_bind21
    | with_reducible apply reports_bind22
    | with_reducible apply reports_read1
    | with_reducible apply reports_read2
    | intro _
    | dsimp only
    | split

theorem resolve_variable_reports {h : host} {c0 c : compile_state} (name : token) (hc : reports c0 c) :
    reports_opt2 c0 (resolve_variable h c name) := by
  unfold resolve_variable
  repeat' first
    | with_reducible exact reports_opt_none _
    | with_reducible exact reports_opt2_none _
    | with_reducible apply reports_opt_some
    | with_reducible apply reports_opt2_some
    | with_reducible assumption
    | with_reducible apply identifier_constant_reports
    | with_reducible apply resolve_local_reports
    | with_reducible apply resolve_upvalue_reports
    | with_reducible apply reports_error
    | with_reducible apply reports_error_at_current
    | with_reducible apply reports_error_at
    | with_reducible apply reports_calm
    | with_reducible apply reports_set_chain
    | with_reducible apply reports_set_compiler
    | with_reducible apply reports_print_out
    | assumption
    | (refine reports_with_vm _ ?_; with_reducible apply reports_error)
    | (refine reports_with_vm _ ?_; with_reducible apply reports_error_at_current)
    | with_reducible apply reports_bind11
    | with_reducible apply reports_bind12
    | with_reducible apply reports_bind21
    | with_reducible apply reports_bind22
    | with_reducible apply reports_read1
    | with_reducible apply reports_read2
    | intro _
    | dsimp only
    | split

theorem function_params_reports {h : host} {c0 : compile_state} :
    ∀ (n : Nat) (c : compile_state), reports c0 c →
      reports_opt c0 (function_params h n c) := by
  intro n
  induction n with
  | zero =>
    intros
    unfold function_params
    exact reports_opt_none _
  | succ n ih =>
    intros
    unfold function_params
    repeat' first
      | with_reducible exact reports_opt_none _
      | with_reducible exact reports_opt2_none _
      | with_reducible apply reports_opt_some
      | with_reducible apply reports_opt2_some
      | with_reducible assumption
      | with_reducible apply ih
      | with_reducible apply match__reports
      | with_reducible apply parse_variable_reports
      | with_reducible apply define_variable_reports
      | with_reducible apply reports_error
      | with_reducible apply reports_error_at_current
      | with_reducible apply reports_error_at
      | with_reducible apply reports_calm
      | with_reducible apply reports_set_chain
      | with_reducible apply reports_set_compiler
      | with_reducible apply reports_print_out
      | assumption
      | (refine reports_with_vm _ ?_; with_reducible apply reports_error)
      | (refine reports_with_vm _ ?_; with_reducible apply reports_error_at_current)
      | with_reducible apply reports_bind11
      | with_reducible apply reports_bind12
      | with_reducible apply reports_bind21
      | with_reducible apply reports_bind22
      | with_reducible apply reports_read1
      | with_reducible apply reports_read2
      | intro _
      | dsimp only
      | split

theorem synchronize_loop_reports {h : host} {c0 : compile_state} :
    ∀ (n : Nat) (c : compile_state), reports c0 c →
      reports_opt c0 (synchronize_loop h n c) := by
  intro n
  induction n with
  | zero =>
    intros
    unfold synchronize_loop
    exact reports_opt_none _
  | succ n ih =>
    intros
    unfold synchronize_loop
    repeat' first
      | with_reducible exact reports_opt_none _
      | with_reducible exact reports_opt2_none _
      | with_reducible apply reports_opt_some
      | with_reducible apply reports_opt2_some
      | with_reducible assumption
      | with_reducible apply ih
      | with_reducible apply advance_reports
      | with_reducible apply reports_error
      | with_reducible apply reports_error_at_current
      | with_reducible apply reports_error_at
      | with_reducible apply reports_calm
      | with_reducible apply reports_set_chain
      | with_reducible apply reports_set_compiler
      | with_reducible apply reports_print_out
      | assumption
      | (refine reports_with_vm _ ?_; with_reducible apply reports_error)
      | (refine reports_with_vm _ ?_; with_reducible apply reports_error_at_current)
      | with_reducible apply reports_bind11
      | with_reducible apply reports_bind12
      | with_reducible apply reports_bind21
      | with_reducible apply reports_bind22
      | with_reducible apply reports_read1
      | with_reducible apply reports_read2
      | intro _
      | dsimp only
      | split
      | (with_reducible apply advance_reports_eq <;> assumption)

theorem synchronize_reports {h : host} {c0 c : compile_state} (hc : reports c0 c) :
    reports_opt c0 (synchronize h c) := by
  unfold synchronize
  repeat' first
    | with_reducible exact reports_opt_none _
    | with_reducible exact reports_opt2_none _
    | with_reducible apply reports_opt_some
    | with_reducible apply reports_opt2_some
    | with_reducible assumption
    | with_reducible apply synchronize_loop_reports
    | with_reducible apply reports_error
    | with_reducible apply reports_error_at_current
    | with_reducible apply reports_error_at
    | with_reducible apply reports_calm
    | with_reducible apply reports_set_chain
    | with_reducible apply reports_set_compiler
    | with_reducible apply reports_print_out
    | assumption
    | (refine reports_with_vm _ ?_; with_reducible apply reports_error)
    | (refine reports_with_vm _ ?_; with_reducible apply reports_error_at_current)
    | with_reducible apply reports_bind11
    | with_reducible apply reports_bind12
    | with_reducible apply reports_bind21
    | with_reducible apply reports_bind22
    | with_reducible apply reports_read1
    | with_reducible apply reports_read2
    | intro _
    | dsimp only
    | split

set_option maxHeartbeats 4000000 in
/-- The recursive descent keeps the error state (`reports`), whatever the
depth bound. -/
theorem reports_all_holds (h : host) : ∀ n, reports_all h n := by
  intro n
  induction n with
  | zero =>
    refine ⟨?_, ?_, ?_, ?_, ?_, ?_, ?_, ?_, ?_, ?_, ?_, ?_, ?_, ?_, ?_, ?_, ?_, ?_, ?_, ?_, ?_, ?_, ?_, ?_, ?_, ?_, ?_, ?_, ?_, ?_, ?_, ?_⟩
    · intros; unfold expression; exact reports_opt_none _
    · intros; unfold parse_precedence; exact reports_opt_none _
    · intros; unfold infix_rules; exact reports_opt_none _
    · intros; unfold apply_rule; exact reports_opt_none _
    · intros; unfold binary; exact reports_opt_none _
    · intros; unfold arguments; exact reports_opt2_none _
    · intros; unfold argument_list; exact reports_opt2_none _
    · intros; unfold compiler.call; exact reports_opt_none _
    · intros; unfold dot; exact reports_opt_none _
    · intros; unfold grouping; exact reports_opt_none _
    · intros; unfold and_; exact reports_opt_none _
    · intros; unfold or_; exact reports_opt_none _
    · intros; unfold named_variable; exact reports_opt_none _
    · intros; unfold variable_; exact reports_opt_none _
    · intros; unfold this_; exact reports_opt_none _
    · intros; unfold unary; exact reports_opt_none _
    · intros; unfold block_declarations; exact reports_opt_none _
    · intros; unfold block; exact reports_opt_none _
    · intros; unfold function; exact reports_opt_none _
    · intros; unfold method; exact reports_opt_none _
    · intros; unfold class_methods; exact reports_opt_none _
    · intros; unfold class_declaration; exact reports_opt_none _
    · intros; unfold fun_declaration; exact reports_opt_none _
    · intros; unfold var_declaration; exact reports_opt_none _
    · intros; unfold expression_statement; exact reports_opt_none _
    · intros; unfold if_statement; exact reports_opt_none _
    · intros; unfold print_statement; exact reports_opt_none _
    · intros; unfold return_statement; exact reports_opt_none _
    · intros; unfold while_statement; exact reports_opt_none _
    · intros; unfold for_statement; exact reports_opt_none _
    · intros; unfold declaration; exact reports_opt_none _
    · intros; unfold statement; exact reports_opt_none _
  | succ n ih =>
    refine ⟨?_, ?_, ?_, ?_, ?_, ?_, ?_, ?_, ?_, ?_, ?_, ?_, ?_, ?_, ?_, ?_, ?_, ?_, ?_, ?_, ?_, ?_, ?_, ?_, ?_, ?_, ?_, ?_, ?_, ?_, ?_, ?_⟩
    · intros
      unfold expression
      repeat' first
        | with_reducible exact reports_opt_none _
        | with_reducible exact reports_opt2_none _
        | with_reducible apply reports_opt_some
        | with_reducible apply reports_opt2_some
        | with_reducible assumption
        | with_reducible apply ih.parse_precedence
        | with_reducible apply reports_error
        | with_reducible apply reports_error_at_current
        | with_reducible apply reports_error_at
        | with_reducible apply reports_calm
        | with_reducible apply reports_set_chain
        | with_reducible apply reports_set_compiler
        | with_reducible apply reports_print_out
        | assumption
        | (refine reports_with_vm _ ?_; with_reducible apply reports_error)
        | (refine reports_with_vm _ ?_; with_reducible apply reports_error_at_current)
        | with_reducible apply reports_bind11
        | with_reducible apply reports_bind12
        | with_reducible apply reports_bind21
        | with_reducible apply reports_bind22
        | with_reducible apply reports_read1
        | with_reducible apply reports_read2
        | intro _
        | dsimp only
        | split
    · intros
      unfold parse_precedence
      repeat' first
        | with_reducible exact reports_opt_none _
        | with_reducible exact reports_opt2_none _
        | with_reducible apply reports_opt_some
        | with_reducible apply reports_opt2_some
        | with_reducible assumption
        | with_reducible apply ih.expression
        | with_reducible apply ih.infix_rules
        | with_reducible apply ih.apply_rule
        | with_reducible apply advance_reports
        | with_reducible apply match__reports
        | with_reducible apply reports_error
        | with_reducible apply reports_error_at_current
        | with_reducible apply reports_error_at
        | with_reducible apply reports_calm
        | with_reducible apply reports_set_chain
        | with_reducible apply reports_set_compiler
        | with_reducible apply reports_print_out
        | assumption
        | (refine reports_with_vm _ ?_; with_reducible apply reports_error)
        | (refine reports_with_vm _ ?_; with_reducible apply reports_error_at_current)
        | with_reducible apply reports_bind11
        | with_reducible apply reports_bind12
        | with_reducible apply reports_bind21
        | with_reducible apply reports_bind22
        | with_reducible apply reports_read1
        | with_reducible apply reports_read2
        | intro _
        | dsimp only
        | split
        | (with_reducible apply advance_reports_eq <;> assumption)
    · intros
      unfold infix_rules
      repeat' first
        | with_reducible exact reports_opt_none _
        | with_reducible exact reports_opt2_none _
        | with_reducible apply reports_opt_some
        | with_reducible apply reports_opt2_some
        | with_reducible assumption
        | with_reducible apply ih.infix_rules
        | with_reducible apply ih.apply_rule
        | with_reducible apply advance_reports
        | with_reducible apply reports_error
        | with_reducible apply reports_error_at_current
        | with_reducible apply reports_error_at
        | with_reducible apply reports_calm
        | with_reducible apply reports_set_chain
        | with_reducible apply reports_set_compiler
        | with_reducible apply reports_print_out
        | assumption
        | (refine reports_with_vm _ ?_; with_reducible apply reports_error)
        | (refine reports_with_vm _ ?_; with_reducible apply reports_error_at_current)
        | with_reducible apply reports_bind11
        | with_reducible apply reports_bind12
        | with_reducible apply reports_bind21
        | with_reducible apply reports_bind22
        | with_reducible apply reports_read1
        | with_reducible apply reports_read2
        | intro _
        | dsimp only
        | split
        | (with_reducible apply advance_reports_eq <;> assumption)
    · intros
      unfold apply_rule
      repeat' first
        | with_reducible exact reports_opt_none _
        | with_reducible exact reports_opt2_none _
        | with_reducible apply reports_opt_some
        | with_reducible apply reports_opt2_some
        | with_reducible assumption
        | with_reducible apply ih.binary
        | with_reducible apply ih.call
        | with_reducible apply ih.dot
        | with_reducible apply ih.grouping
        | with_reducible apply ih.and_
        | with_reducible apply ih.or_
        | with_reducible apply ih.variable_
        | with_reducible apply ih.this_
        | with_reducible apply ih.unary
        | with_reducible apply literal_reports
        | with_reducible apply compiler.number_reports
        | with_reducible apply compiler.string_reports
        | with_reducible apply reports_error
        | with_reducible apply reports_error_at_current
        | with_reducible apply reports_error_at
        | with_reducible apply reports_calm
        | with_reducible apply reports_set_chain
        | with_reducible apply reports_set_compiler
        | with_reducible apply reports_print_out
        | assumption
        | (refine reports_with_vm _ ?_; with_reducible apply reports_error)
        | (refine reports_with_vm _ ?_; with_reducible apply reports_error_at_current)
        | with_reducible apply reports_bind11
        | with_reducible apply reports_bind12
        | with_reducible apply reports_bind21
        | with_reducible apply reports_bind22
        | with_reducible apply reports_read1
        | with_reducible apply reports_read2
        | intro _
        | dsimp only
        | split
    · intros
      unfold binary
      repeat' first
        | with_reducible exact reports_opt_none _
        | with_reducible exact reports_opt2_none _
        | with_reducible apply reports_opt_some
        | with_reducible apply reports_opt2_some
        | with_reducible assumption
        | with_reducible apply ih.parse_precedence
        | with_reducible apply binary_emit_reports
        | with_reducible apply reports_error
        | with_reducible apply reports_error_at_current
        | with_reducible apply reports_error_at
        | with_reducible apply reports_calm
        | with_reducible apply reports_set_chain
        | with_reducible apply reports_set_compiler
        | with_reducible apply reports_print_out
        | assumption
        | (refine reports_with_vm _ ?_; with_reducible apply reports_error)
        | (refine reports_with_vm _ ?_; with_reducible apply reports_error_at_current)
        | with_reducible apply reports_bind11
        | with_reducible apply reports_bind12
        | with_reducible apply reports_bind21
        | with_reducible apply reports_bind22
        | with_reducible apply reports_read1
        | with_reducible apply reports_read2
        | intro _
        | dsimp only
        | split
    · intros
      unfold arguments
      repeat' first
        | with_reducible exact reports_opt_none _
        | with_reducible exact reports_opt2_none _
        | with_reducible apply reports_opt_some
        | with_reducible apply reports_opt2_some
        | with_reducible assumption
        | with_reducible apply ih.expression
        | with_reducible apply ih.arguments
        | with_reducible apply match__reports
        | with_reducible apply reports_error
        | with_reducible apply reports_error_at_current
        | with_reducible apply reports_error_at
        | with_reducible apply reports_calm
        | with_reducible apply reports_set_chain
        | with_reducible apply reports_set_compiler
        | with_reducible apply reports_print_out
        | assumption
        | (refine reports_with_vm _ ?_; with_reducible apply reports_error)
        | (refine reports_with_vm _ ?_; with_reducible apply reports_error_at_current)
        | with_reducible apply reports_bind11
        | with_reducible apply reports_bind12
        | with_reducible apply reports_bind21
        | with_reducible apply reports_bind22
        | with_reducible apply reports_read1
        | with_reducible apply reports_read2
        | intro _
        | dsimp only
        | split
    · intros
      unfold argument_list
      repeat' first
        | with_reducible exact reports_opt_none _
        | with_reducible exact reports_opt2_none _
        | with_reducible apply reports_opt_some
        | with_reducible apply reports_opt2_some
        | with_reducible assumption
        | with_reducible apply ih.arguments
        | with_reducible apply consume_reports
        | with_reducible apply reports_error
        | with_reducible apply reports_error_at_current
        | with_reducible apply reports_error_at
        | with_reducible apply reports_calm
        | with_reducible apply reports_set_chain
        | with_reducible apply reports_set_compiler
        | with_reducible apply reports_print_out
        | assumption
        | (refine reports_with_vm _ ?_; with_reducible apply reports_error)
        | (refine reports_with_vm _ ?_; with_reducible apply reports_error_at_current)
        | with_reducible apply reports_bind11
        | with_reducible apply reports_bind12
        | with_reducible apply reports_bind21
        | with_reducible apply reports_bind22
        | with_reducible apply reports_read1
        | with_reducible apply reports_read2
        | intro _
        | dsimp only
        | split
    · intros
      unfold compiler.call
      repeat' first
        | with_reducible exact reports_opt_none _
        | with_reducible exact reports_opt2_none _
        | with_reducible apply reports_opt_some
        | with_reducible apply reports_opt2_some
        | with_reducible assumption
        | with_reducible apply ih.argument_list
        | with_reducible apply emit_bytes_reports
        | with_reducible apply reports_error
        | with_reducible apply reports_error_at_current
        | with_reducible apply reports_error_at
        | with_reducible apply reports_calm
        | with_reducible apply reports_set_chain
        | with_reducible apply reports_set_compiler
        | with_reducible apply reports_print_out
        | assumption
        | (refine reports_with_vm _ ?_; with_reducible apply reports_error)
        | (refine reports_with_vm _ ?_; with_reducible apply reports_error_at_current)
        | with_reducible apply reports_bind11
        | with_reducible apply reports_bind12
        | with_reducible apply reports_bind21
        | with_reducible apply reports_bind22
        | with_reducible apply reports_read1
        | with_reducible apply reports_read2
        | intro _
        | dsimp only
        | split
    · intros
      unfold dot
      repeat' first
        | with_reducible exact reports_opt_none _
        | with_reducible exact reports_opt2_none _
        | with_reducible apply reports_opt_some
        | with_reducible apply reports_opt2_some
        | with_reducible assumption
        | with_reducible apply ih.expression
        | with_reducible apply emit_bytes_reports
        | with_reducible apply consume_reports
        | with_reducible apply match__reports
        | with_reducible apply identifier_constant_reports
        | with_reducible apply reports_error
        | with_reducible apply reports_error_at_current
        | with_reducible apply reports_error_at
        | with_reducible apply reports_calm
        | with_reducible apply reports_set_chain
        | with_reducible apply reports_set_compiler
        | with_reducible apply reports_print_out
        | assumption
        | (refine reports_with_vm _ ?_; with_reducible apply reports_error)
        | (refine reports_with_vm _ ?_; with_reducible apply reports_error_at_current)
        | with_reducible apply reports_bind11
        | with_reducible apply reports_bind12
        | with_reducible apply reports_bind21
        | with_reducible apply reports_bind22
        | with_reducible apply reports_read1
        | with_reducible apply reports_read2
        | intro _
        | dsimp only
        | split
    · intros
      unfold grouping
      repeat' first
        | with_reducible exact reports_opt_none _
        | with_reducible exact reports_opt2_none _
        | with_reducible apply reports_opt_some
        | with_reducible apply reports_opt2_some
        | with_reducible assumption
        | with_reducible apply ih.expression
        | with_reducible apply consume_reports
        | with_reducible apply reports_error
        | with_reducible apply reports_error_at_current
        | with_reducible apply reports_error_at
        | with_reducible apply reports_calm
        | with_reducible apply reports_set_chain
        | with_reducible apply reports_set_compiler
        | with_reducible apply reports_print_out
        | assumption
        | (refine reports_with_vm _ ?_; with_reducible apply reports_error)
        | (refine reports_with_vm _ ?_; with_reducible apply reports_error_at_current)
        | with_reducible apply reports_bind11
        | with_reducible apply reports_bind12
        | with_reducible apply reports_bind21
        | with_reducible apply reports_bind22
        | with_reducible apply reports_read1
        | with_reducible apply reports_read2
        | intro _
        | dsimp only
        | split
    · intros
      unfold and_
      repeat' first
        | with_reducible exact reports_opt_none _
        | with_reducible exact reports_opt2_none _
        | with_reducible apply reports_opt_some
        | with_reducible apply reports_opt2_some
        | with_reducible assumption
        | with_reducible apply ih.parse_precedence
        | with_reducible apply emit_byte_reports
        | with_reducible apply emit_jump_reports
        | with_reducible apply patch_jump_reports
        | with_reducible apply reports_error
        | with_reducible apply reports_error_at_current
        | with_reducible apply reports_error_at
        | with_reducible apply reports_calm
        | with_reducible apply reports_set_chain
        | with_reducible apply reports_set_compiler
        | with_reducible apply reports_print_out
        | assumption
        | (refine reports_with_vm _ ?_; with_reducible apply reports_error)
        | (refine reports_with_vm _ ?_; with_reducible apply reports_error_at_current)
        | with_reducible apply reports_bind11
        | with_reducible apply reports_bind12
        | with_reducible apply reports_bind21
        | with_reducible apply reports_bind22
        | with_reducible apply reports_read1
        | with_reducible apply reports_read2
        | intro _
        | dsimp only
        | split
    · intros
      unfold or_
      repeat' first
        | with_reducible exact reports_opt_none _
        | with_reducible exact reports_opt2_none _
        | with_reducible apply reports_opt_some
        | with_reducible apply reports_opt2_some
        | with_reducible assumption
        | with_reducible apply ih.parse_precedence
        | with_reducible apply emit_byte_reports
        | with_reducible apply emit_jump_reports
        | with_reducible apply patch_jump_reports
        | with_reducible apply reports_error
        | with_reducible apply reports_error_at_current
        | with_reducible apply reports_error_at
        | with_reducible apply reports_calm
        | with_reducible apply reports_set_chain
        | with_reducible apply reports_set_compiler
        | with_reducible apply reports_print_out
        | assumption
        | (refine reports_with_vm _ ?_; with_reducible apply reports_error)
        | (refine reports_with_vm _ ?_; with_reducible apply reports_error_at_current)
        | with_reducible apply reports_bind11
        | with_reducible apply reports_bind12
        | with_reducible apply reports_bind21
        | with_reducible apply reports_bind22
        | with_reducible apply reports_read1
        | with_reducible apply reports_read2
        | intro _
        | dsimp only
        | split
    · intros
      unfold named_variable
      repeat' first
        | with_reducible exact reports_opt_none _
        | with_reducible exact reports_opt2_none _
        | with_reducible apply reports_opt_some
        | with_reducible apply reports_opt2_some
        | with_reducible assumption
        | with_reducible apply ih.expression
        | with_reducible apply emit_bytes_reports
        | with_reducible apply match__reports
        | with_reducible apply resolve_variable_reports
        | with_reducible apply reports_error
        | with_reducible apply reports_error_at_current
        | with_reducible apply reports_error_at
        | with_reducible apply reports_calm
        | with_reducible apply reports_set_chain
        | with_reducible apply reports_set_compiler
        | with_reducible apply reports_print_out
        | assumption
        | (refine reports_with_vm _ ?_; with_reducible apply reports_error)
        | (refine reports_with_vm _ ?_; with_reducible apply reports_error_at_current)
        | with_reducible apply reports_bind11
        | with_reducible apply reports_bind12
        | with_reducible apply reports_bind21
        | with_reducible apply reports_bind22
        | with_reducible apply reports_read1
        | with_reducible apply reports_read2
        | intro _
        | dsimp only
        | split
    · intros
      unfold variable_
      repeat' first
        | with_reducible exact reports_opt_none _
        | with_reducible exact reports_opt2_none _
        | with_reducible apply reports_opt_some
        | with_reducible apply reports_opt2_some
        | with_reducible assumption
        | with_reducible apply ih.named_variable
        | with_reducible apply reports_error
        | with_reducible apply reports_error_at_current
        | with_reducible apply reports_error_at
        | with_reducible apply reports_calm
        | with_reducible apply reports_set_chain
        | with_reducible apply reports_set_compiler
        | with_reducible apply reports_print_out
        | assumption
        | (refine reports_with_vm _ ?_; with_reducible apply reports_error)
        | (refine reports_with_vm _ ?_; with_reducible apply reports_error_at_current)
        | with_reducible apply reports_bind11
        | with_reducible apply reports_bind12
        | with_reducible apply reports_bind21
        | with_reducible apply reports_bind22
        | with_reducible apply reports_read1
        | with_reducible apply reports_read2
        | intro _
        | dsimp only
        | split
    · intros
      unfold this_
      repeat' first
        | with_reducible exact reports_opt_none _
        | with_reducible exact reports_opt2_none _
        | with_reducible apply reports_opt_some
        | with_reducible apply reports_opt2_some
        | with_reducible assumption
        | with_reducible apply ih.variable_
        | with_reducible apply reports_error
        | with_reducible apply reports_error_at_current
        | with_reducible apply reports_error_at
        | with_reducible apply reports_calm
        | with_reducible apply reports_set_chain
        | with_reducible apply reports_set_compiler
        | with_reducible apply reports_print_out
        | assumption
        | (refine reports_with_vm _ ?_; with_reducible apply reports_error)
        | (refine reports_with_vm _ ?_; with_reducible apply reports_error_at_current)
        | with_reducible apply reports_bind11
        | with_reducible apply reports_bind12
        | with_reducible apply reports_bind21
        | with_reducible apply reports_bind22
        | with_reducible apply reports_read1
        | with_reducible apply reports_read2
        | intro _
        | dsimp only
        | split
    · intros
      unfold unary
      repeat' first
        | with_reducible exact reports_opt_none _
        | with_reducible exact reports_opt2_none _
        | with_reducible apply reports_opt_some
        | with_reducible apply reports_opt2_some
        | with_reducible assumption
        | with_reducible apply ih.parse_precedence
        | with_reducible apply unary_emit_reports
        | with_reducible apply reports_error
        | with_reducible apply reports_error_at_current
        | with_reducible apply reports_error_at
        | with_reducible apply reports_calm
        | with_reducible apply reports_set_chain
        | with_reducible apply reports_set_compiler
        | with_reducible apply reports_print_out
        | assumption
        | (refine reports_with_vm _ ?_; with_reducible apply reports_error)
        | (refine reports_with_vm _ ?_; with_reducible apply reports_error_at_current)
        | with_reducible apply reports_bind11
        | with_reducible apply reports_bind12
        | with_reducible apply reports_bind21
        | with_reducible apply reports_bind22
        | with_reducible apply reports_read1
        | with_reducible apply reports_read2
        | intro _
        | dsimp only
        | split
    · intros
      unfold block_declarations
      repeat' first
        | with_reducible exact reports_opt_none _
        | with_reducible exact reports_opt2_none _
        | with_reducible apply reports_opt_some
        | with_reducible apply reports_opt2_some
        | with_reducible assumption
        | with_reducible apply ih.block_declarations
        | with_reducible apply ih.declaration
        | with_reducible apply reports_error
        | with_reducible apply reports_error_at_current
        | with_reducible apply reports_error_at
        | with_reducible apply reports_calm
        | with_reducible apply reports_set_chain
        | with_reducible apply reports_set_compiler
        | with_reducible apply reports_print_out
        | assumption
        | (refine reports_with_vm _ ?_; with_reducible apply reports_error)
        | (refine reports_with_vm _ ?_; with_reducible apply reports_error_at_current)
        | with_reducible apply reports_bind11
        | with_reducible apply reports_bind12
        | with_reducible apply reports_bind21
        | with_reducible apply reports_bind22
        | with_reducible apply reports_read1
        | with_reducible apply reports_read2
        | intro _
        | dsimp only
        | split
    · intros
      unfold block
      repeat' first
        | with_reducible exact reports_opt_none _
        | with_reducible exact reports_opt2_none _
        | with_reducible apply reports_opt_some
        | with_reducible apply reports_opt2_some
        | with_reducible assumption
        | with_reducible apply ih.block_declarations
        | with_reducible apply ih.block
        | with_reducible apply consume_reports
        | with_reducible apply reports_error
        | with_reducible apply reports_error_at_current
        | with_reducible apply reports_error_at
        | with_reducible apply reports_calm
        | with_reducible apply reports_set_chain
        | with_reducible apply reports_set_compiler
        | with_reducible apply reports_print_out
        | assumption
        | (refine reports_with_vm _ ?_; with_reducible apply reports_error)
        | (refine reports_with_vm _ ?_; with_reducible apply reports_error_at_current)
        | with_reducible apply reports_bind11
        | with_reducible apply reports_bind12
        | with_reducible apply reports_bind21
        | with_reducible apply reports_bind22
        | with_reducible apply reports_read1
        | with_reducible apply reports_read2
        | intro _
        | dsimp only
        | split
    · intros
      unfold function
      repeat' first
        | with_reducible exact reports_opt_none _
        | with_reducible exact reports_opt2_none _
        | with_reducible apply reports_opt_some
        | with_reducible apply reports_opt2_some
        | with_reducible assumption
        | with_reducible apply ih.block
        | with_reducible apply ih.function
        | with_reducible apply emit_bytes_reports
        | with_reducible apply make_constant_reports
        | with_reducible apply consume_reports
        | with_reducible apply init_compiler_reports
        | with_reducible apply end_compiler_reports
        | with_reducible apply begin_scope_reports
        | with_reducible apply emit_upvalues_reports
        | with_reducible apply function_params_reports
        | with_reducible apply reports_error
        | with_reducible apply reports_error_at_current
        | with_reducible apply reports_error_at
        | with_reducible apply reports_calm
        | with_reducible apply reports_set_chain
        | with_reducible apply reports_set_compiler
        | with_reducible apply reports_print_out
        | assumption
        | (refine reports_with_vm _ ?_; with_reducible apply reports_error)
        | (refine reports_with_vm _ ?_; with_reducible apply reports_error_at_current)
        | with_reducible apply reports_bind11
        | with_reducible apply reports_bind12
        | with_reducible apply reports_bind21
        | with_reducible apply reports_bind22
        | with_reducible apply reports_read1
        | with_reducible apply reports_read2
        | intro _
        | dsimp only
        | split
    · intros
      unfold method
      repeat' first
        | with_reducible exact reports_opt_none _
        | with_reducible exact reports_opt2_none _
        | with_reducible apply reports_opt_some
        | with_reducible apply reports_opt2_some
        | with_reducible assumption
        | with_reducible apply ih.function
        | with_reducible apply ih.method
        | with_reducible apply emit_bytes_reports
        | with_reducible apply consume_reports
        | with_reducible apply identifier_constant_reports
        | with_reducible apply reports_error
        | with_reducible apply reports_error_at_current
        | with_reducible apply reports_error_at
        | with_reducible apply reports_calm
        | with_reducible apply reports_set_chain
        | with_reducible apply reports_set_compiler
        | with_reducible apply reports_print_out
        | assumption
        | (refine reports_with_vm _ ?_; with_reducible apply reports_error)
        | (refine reports_with_vm _ ?_; with_reducible apply reports_error_at_current)
        | with_reducible apply reports_bind11
        | with_reducible apply reports_bind12
        | with_reducible apply reports_bind21
        | with_reducible apply reports_bind22
        | with_reducible apply reports_read1
        | with_reducible apply reports_read2
        | intro _
        | dsimp only
        | split
    · intros
      unfold class_methods
      repeat' first
        | with_reducible exact reports_opt_none _
        | with_reducible exact reports_opt2_none _
        | with_reducible apply reports_opt_some
        | with_reducible apply reports_opt2_some
        | with_reducible assumption
        | with_reducible apply ih.method
        | with_reducible apply ih.class_methods
        | with_reducible apply reports_error
        | with_reducible apply reports_error_at_current
        | with_reducible apply reports_error_at
        | with_reducible apply reports_calm
        | with_reducible apply reports_set_chain
        | with_reducible apply reports_set_compiler
        | with_reducible apply reports_print_out
        | assumption
        | (refine reports_with_vm _ ?_; with_reducible apply reports_error)
        | (refine reports_with_vm _ ?_; with_reducible apply reports_error_at_current)
        | with_reducible apply reports_bind11
        | with_reducible apply reports_bind12
        | with_reducible apply reports_bind21
        | with_reducible apply reports_bind22
        | with_reducible apply reports_read1
        | with_reducible apply reports_read2
        | intro _
        | dsimp only
        | split
    · intros
      unfold class_declaration
      repeat' first
        | with_reducible exact reports_opt_none _
        | with_reducible exact reports_opt2_none _
        | with_reducible apply reports_opt_some
        | with_reducible apply reports_opt2_some
        | with_reducible assumption
        | with_reducible apply ih.named_variable
        | with_reducible apply ih.class_methods
        | with_reducible apply emit_byte_reports
        | with_reducible apply emit_bytes_reports
        | with_reducible apply consume_reports
        | with_reducible apply identifier_constant_reports
        | with_reducible apply declare_variable_reports
        | with_reducible apply define_variable_reports
        | with_reducible apply reports_error
        | with_reducible apply reports_error_at_current
        | with_reducible apply reports_error_at
        | with_reducible apply reports_calm
        | with_reducible apply reports_set_chain
        | with_reducible apply reports_set_compiler
        | with_reducible apply reports_print_out
        | assumption
        | (refine reports_with_vm _ ?_; with_reducible apply reports_error)
        | (refine reports_with_vm _ ?_; with_reducible apply reports_error_at_current)
        | with_reducible apply reports_bind11
        | with_reducible apply reports_bind12
        | with_reducible apply reports_bind21
        | with_reducible apply reports_bind22
        | with_reducible apply reports_read1
        | with_reducible apply reports_read2
        | intro _
        | dsimp only
        | split
    · intros
      unfold fun_declaration
      repeat' first
        | with_reducible exact reports_opt_none _
        | with_reducible exact reports_opt2_none _
        | with_reducible apply reports_opt_some
        | with_reducible apply reports_opt2_some
        | with_reducible assumption
        | with_reducible apply ih.function
        | with_reducible apply parse_variable_reports
        | with_reducible apply mark_initialized_reports
        | with_reducible apply define_variable_reports
        | with_reducible apply reports_error
        | with_reducible apply reports_error_at_current
        | with_reducible apply reports_error_at
        | with_reducible apply reports_calm
        | with_reducible apply reports_set_chain
        | with_reducible apply reports_set_compiler
        | with_reducible apply reports_print_out
        | assumption
        | (refine reports_with_vm _ ?_; with_reducible apply reports_error)
        | (refine reports_with_vm _ ?_; with_reducible apply reports_error_at_current)
        | with_reducible apply reports_bind11
        | with_reducible apply reports_bind12
        | with_reducible apply reports_bind21
        | with_reducible apply reports_bind22
        | with_reducible apply reports_read1
        | with_reducible apply reports_read2
        | intro _
        | dsimp only
        | split
    · intros
      unfold var_declaration
      repeat' first
        | with_reducible exact reports_opt_none _
        | with_reducible exact reports_opt2_none _
        | with_reducible apply reports_opt_some
        | with_reducible apply reports_opt2_some
        | with_reducible assumption
        | with_reducible apply ih.expression
        | with_reducible apply ih.statement
        | with_reducible apply emit_byte_reports
        | with_reducible apply consume_reports
        | with_reducible apply match__reports
        | with_reducible apply parse_variable_reports
        | with_reducible apply define_variable_reports
        | with_reducible apply reports_error
        | with_reducible apply reports_error_at_current
        | with_reducible apply reports_error_at
        | with_reducible apply reports_calm
        | with_reducible apply reports_set_chain
        | with_reducible apply reports_set_compiler
        | with_reducible apply reports_print_out
        | assumption
        | (refine reports_with_vm _ ?_; with_reducible apply reports_error)
        | (refine reports_with_vm _ ?_; with_reducible apply reports_error_at_current)
        | with_reducible apply reports_bind11
        | with_reducible apply reports_bind12
        | with_reducible apply reports_bind21
        | with_reducible apply reports_bind22
        | with_reducible apply reports_read1
        | with_reducible apply reports_read2
        | intro _
        | dsimp only
        | split
    · intros
      unfold expression_statement
      repeat' first
        | with_reducible exact reports_opt_none _
        | with_reducible exact reports_opt2_none _
        | with_reducible apply reports_opt_some
        | with_reducible apply reports_opt2_some
        | with_reducible assumption
        | with_reducible apply ih.expression
        | with_reducible apply ih.statement
        | with_reducible apply emit_byte_reports
        | with_reducible apply consume_reports
        | with_reducible apply reports_error
        | with_reducible apply reports_error_at_current
        | with_reducible apply reports_error_at
        | with_reducible apply reports_calm
        | with_reducible apply reports_set_chain
        | with_reducible apply reports_set_compiler
        | with_reducible apply reports_print_out
        | assumption
        | (refine reports_with_vm _ ?_; with_reducible apply reports_error)
        | (refine reports_with_vm _ ?_; with_reducible apply reports_error_at_current)
        | with_reducible apply reports_bind11
        | with_reducible apply reports_bind12
        | with_reducible apply reports_bind21
        | with_reducible apply reports_bind22
        | with_reducible apply reports_read1
        | with_reducible apply reports_read2
        | intro _
        | dsimp only
        | split
    · intros
      unfold if_statement
      repeat' first
        | with_reducible exact reports_opt_none _
        | with_reducible exact reports_opt2_none _
        | with_reducible apply reports_opt_some
        | with_reducible apply reports_opt2_some
        | with_reducible assumption
        | with_reducible apply ih.expression
        | with_reducible apply ih.statement
        | with_reducible apply emit_byte_reports
        | with_reducible apply emit_jump_reports
        | with_reducible apply patch_jump_reports
        | with_reducible apply consume_reports
        | with_reducible apply match__reports
        | with_reducible apply reports_error
        | with_reducible apply reports_error_at_current
        | with_reducible apply reports_error_at
        | with_reducible apply reports_calm
        | with_reducible apply reports_set_chain
        | with_reducible apply reports_set_compiler
        | with_reducible apply reports_print_out
        | assumption
        | (refine reports_with_vm _ ?_; with_reducible apply reports_error)
        | (refine reports_with_vm _ ?_; with_reducible apply reports_error_at_current)
        | with_reducible apply reports_bind11
        | with_reducible apply reports_bind12
        | with_reducible apply reports_bind21
        | with_reducible apply reports_bind22
        | with_reducible apply reports_read1
        | with_reducible apply reports_read2
        | intro _
        | dsimp only
        | split
    · intros
      unfold print_statement
      repeat' first
        | with_reducible exact reports_opt_none _
        | with_reducible exact reports_opt2_none _
        | with_reducible apply reports_opt_some
        | with_reducible apply reports_opt2_some
        | with_reducible assumption
        | with_reducible apply ih.expression
        | with_reducible apply ih.statement
        | with_reducible apply emit_byte_reports
        | with_reducible apply consume_reports
        | with_reducible apply reports_error
        | with_reducible apply reports_error_at_current
        | with_reducible apply reports_error_at
        | with_reducible apply reports_calm
        | with_reducible apply reports_set_chain
        | with_reducible apply reports_set_compiler
        | with_reducible apply reports_print_out
        | assumption
        | (refine reports_with_vm _ ?_; with_reducible apply reports_error)
        | (refine reports_with_vm _ ?_; with_reducible apply reports_error_at_current)
        | with_reducible apply reports_bind11
        | with_reducible apply reports_bind12
        | with_reducible apply reports_bind21
        | with_reducible apply reports_bind22
        | with_reducible apply reports_read1
        | with_reducible apply reports_read2
        | intro _
        | dsimp only
        | split
    · intros
      unfold return_statement
      repeat' first
        | with_reducible exact reports_opt_none _
        | with_reducible exact reports_opt2_none _
        | with_reducible apply reports_opt_some
        | with_reducible apply reports_opt2_some
        | with_reducible assumption
        | with_reducible apply ih.expression
        | with_reducible apply ih.function
        | with_reducible apply ih.statement
        | with_reducible apply emit_byte_reports
        | with_reducible apply implicit_return_reports
        | with_reducible apply consume_reports
        | with_reducible apply match__reports
        | with_reducible apply reports_error
        | with_reducible apply reports_error_at_current
        | with_reducible apply reports_error_at
        | with_reducible apply reports_calm
        | with_reducible apply reports_set_chain
        | with_reducible apply reports_set_compiler
        | with_reducible apply reports_print_out
        | assumption
        | (refine reports_with_vm _ ?_; with_reducible apply reports_error)
        | (refine reports_with_vm _ ?_; with_reducible apply reports_error_at_current)
        | with_reducible apply reports_bind11
        | with_reducible apply reports_bind12
        | with_reducible apply reports_bind21
        | with_reducible apply reports_bind22
        | with_reducible apply reports_read1
        | with_reducible apply reports_read2
        | intro _
        | dsimp only
        | split
    · intros
      unfold while_statement
      repeat' first
        | with_reducible exact reports_opt_none _
        | with_reducible exact reports_opt2_none _
        | with_reducible apply reports_opt_some
        | with_reducible apply reports_opt2_some
        | with_reducible assumption
        | with_reducible apply ih.expression
        | with_reducible apply ih.statement
        | with_reducible apply emit_byte_reports
        | with_reducible apply emit_loop_reports
        | with_reducible apply emit_jump_reports
        | with_reducible apply patch_jump_reports
        | with_reducible apply consume_reports
        | with_reducible apply reports_error
        | with_reducible apply reports_error_at_current
        | with_reducible apply reports_error_at
        | with_reducible apply reports_calm
        | with_reducible apply reports_set_chain
        | with_reducible apply reports_set_compiler
        | with_reducible apply reports_print_out
        | assumption
        | (refine reports_with_vm _ ?_; with_reducible apply reports_error)
        | (refine reports_with_vm _ ?_; with_reducible apply reports_error_at_current)
        | with_reducible apply reports_bind11
        | with_reducible apply reports_bind12
        | with_reducible apply reports_bind21
        | with_reducible apply reports_bind22
        | with_reducible apply reports_read1
        | with_reducible apply reports_read2
        | intro _
        | dsimp only
        | split
    · intros
      unfold for_statement
      repeat' first
        | with_reducible exact reports_opt_none _
        | with_reducible exact reports_opt2_none _
        | with_reducible apply reports_opt_some
        | with_reducible apply reports_opt2_some
        | with_reducible assumption
        | with_reducible apply ih.expression
        | with_reducible apply ih.var_declaration
        | with_reducible apply ih.expression_statement
        | with_reducible apply ih.statement
        | with_reducible apply emit_byte_reports
        | with_reducible apply emit_loop_reports
        | with_reducible apply emit_jump_reports
        | with_reducible apply patch_jump_reports
        | with_reducible apply consume_reports
        | with_reducible apply match__reports
        | with_reducible apply begin_scope_reports
        | with_reducible apply end_scope_reports
        | with_reducible apply reports_error
        | with_reducible apply reports_error_at_current
        | with_reducible apply reports_error_at
        | with_reducible apply reports_calm
        | with_reducible apply reports_set_chain
        | with_reducible apply reports_set_compiler
        | with_reducible apply reports_print_out
        | assumption
        | (refine reports_with_vm _ ?_; with_reducible apply reports_error)
        | (refine reports_with_vm _ ?_; with_reducible apply reports_error_at_current)
        | with_reducible apply reports_bind11
        | with_reducible apply reports_bind12
        | with_reducible apply reports_bind21
        | with_reducible apply reports_bind22
        | with_reducible apply reports_read1
        | with_reducible apply reports_read2
        | intro _
        | dsimp only
        | split
    · intros
      unfold declaration
      repeat' first
        | with_reducible exact reports_opt_none _
        | with_reducible exact reports_opt2_none _
        | with_reducible apply reports_opt_some
        | with_reducible apply reports_opt2_some
        | with_reducible assumption
        | with_reducible apply ih.class_declaration
        | with_reducible apply ih.fun_declaration
        | with_reducible apply ih.var_declaration
        | with_reducible apply ih.statement
        | with_reducible apply match__reports
        | with_reducible apply synchronize_reports
        | with_reducible apply reports_error
        | with_reducible apply reports_error_at_current
        | with_reducible apply reports_error_at
        | with_reducible apply reports_calm
        | with_reducible apply reports_set_chain
        | with_reducible apply reports_set_compiler
        | with_reducible apply reports_print_out
        | assumption
        | (refine reports_with_vm _ ?_; with_reducible apply reports_error)
        | (refine reports_with_vm _ ?_; with_reducible apply reports_error_at_current)
        | with_reducible apply reports_bind11
        | with_reducible apply reports_bind12
        | with_reducible apply reports_bind21
        | with_reducible apply reports_bind22
        | with_reducible apply reports_read1
        | with_reducible apply reports_read2
        | intro _
        | dsimp only
        | split
    · intros
      unfold statement
      repeat' first
        | with_reducible exact reports_opt_none _
        | with_reducible exact reports_opt2_none _
        | with_reducible apply reports_opt_some
        | with_reducible apply reports_opt2_some
        | with_reducible assumption
        | with_reducible apply ih.block
        | with_reducible apply ih.expression_statement
        | with_reducible apply ih.if_statement
        | with_reducible apply ih.print_statement
        | with_reducible apply ih.return_statement
        | with_reducible apply ih.while_statement
        | with_reducible apply ih.for_statement
        | with_reducible apply match__reports
        | with_reducible apply begin_scope_reports
        | with_reducible apply end_scope_reports
        | with_reducible apply reports_error
        | with_reducible apply reports_error_at_current
        | with_reducible apply reports_error_at
        | with_reducible apply reports_calm
        | with_reducible apply reports_set_chain
        | with_reducible apply reports_set_compiler
        | with_reducible apply reports_print_out
        | assumption
        | (refine reports_with_vm _ ?_; with_reducible apply reports_error)
        | (refine reports_with_vm _ ?_; with_reducible apply reports_error_at_current)
        | with_reducible apply reports_bind11
        | with_reducible apply reports_bind12
        | with_reducible apply reports_bind21
        | with_reducible apply reports_bind22
        | with_reducible apply reports_read1
        | with_reducible apply reports_read2
        | intro _
        | dsimp only
        | split

theorem compile_declarations_reports {h : host} {c0 : compile_state} :
    ∀ (n : Nat) (c : compile_state), reports c0 c →
      reports_opt c0 (compile_declarations h n c) := by
  intro n
  induction n with
  | zero =>
    intros
    unfold compile_declarations
    exact reports_opt_none _
  | succ n ih =>
    intro c hc
    unfold compile_declarations
    refine reports_bind21 (match__reports _ hc) ?_
    intro c1 at_end h1
    dsimp only
    split
    · exact reports_opt_some h1
    · exact reports_bind11 ((reports_all_holds h n).declaration c0 c1 h1) (fun c2 h2 => ih c2 h2)

/-- Function `init_compiler` leaves standard error, the parser and the
scanner alone. -/
theorem init_compiler_keeps {h : host} {c c1 : compile_state} {ft : func_type}
    (hrun : init_compiler h c ft = some c1) :
    c1.stderr = c.stderr ∧ c1.parser = c.parser ∧ c1.scanner = c.scanner ∧
    c1.current_class = c.current_class := by
  unfold init_compiler at hrun
  cases h1 : new_func h.sz h.fuel c.vm (h.fresh c.vm.heap) with
  | none =>
    rw [h1] at hrun
    cases hrun
  | some p =>
    obtain ⟨vm1, f⟩ := p
    rw [h1] at hrun
    simp only [Option.bind_eq_bind, Option.some_bind] at hrun
    by_cases hs : ft = FTYPE_SCRIPT
    · subst hs
      simp only [ne_eq, not_true_eq_false, if_false, Option.some_bind, set_chain, set_compiler,
        List.head?_cons, reduceCtorEq, not_false_eq_true, if_true, Option.some.injEq] at hrun
      rw [← hrun]
      exact ⟨rfl, rfl, rfl, rfl⟩
    · simp only [ne_eq, hs, not_false_eq_true, if_true] at hrun
      cases h2 : copy_string h.sz h.fuel
          (set_chain { c with vm := vm1 }
            ({ func := f, ftype := ft, locals := [], upvalues := [], scope_depth := 0 }
              :: c.current)).vm
          (List.take c.parser.previous.len c.parser.previous.start)
          (h.fresh (set_chain { c with vm := vm1 }
            ({ func := f, ftype := ft, locals := [], upvalues := [], scope_depth := 0 }
              :: c.current)).vm.heap) with
      | none =>
        simp only [set_chain] at h2 hrun
        rw [h2] at hrun
        cases hrun
      | some q =>
        obtain ⟨vm2, name⟩ := q
        simp only [set_chain] at h2 hrun
        rw [h2] at hrun
        simp only [Option.some_bind] at hrun
        cases h3 : set_func_name vm2 f (some name) with
        | none =>
          rw [h3] at hrun
          cases hrun
        | some vm3 =>
          rw [h3] at hrun
          simp only [Option.some_bind, List.head?_cons, set_compiler] at hrun
          split at hrun <;> cases hrun <;> exact ⟨rfl, rfl, rfl, rfl⟩

/-- What `compile` returns, in terms of what it has written to standard
error. -/
theorem compile_reports {h : host} {steps : Nat} {c c1 : compile_state} {source : List Nat}
    {r : Option Nat} (hrun : compile h steps c source = some (c1, r)) :
    ∃ ds, c1.stderr = c.stderr ++ ds ∧ (r = none ↔ ds ≠ []) ∧
      (c1.parser.had_error = true ↔ ds ≠ []) := by
  unfold compile at hrun
  simp only [Option.bind_eq_bind, Option.bind_eq_some] at hrun
  obtain ⟨ca, hinit, cb, hadv, cc, hdecl, ⟨cd, func, k⟩, hend, hres⟩ := hrun
  have h1 := (init_compiler_reports FTYPE_SCRIPT
    (reports_refl { c with scanner := init_scanner source })).run ca hinit
  have e1 : ca.stderr = c.stderr := (init_compiler_keeps hinit).1
  have h2 : reports
      { ca with parser := { ca.parser with had_error := false, panic_mode := false } } cd := by
    have h3 := (advance_reports (reports_refl
      { ca with parser := { ca.parser with had_error := false, panic_mode := false } })).run
      cb hadv
    have h4 := (compile_declarations_reports steps cb h3).run cc hdecl
    exact (end_compiler_reports h4).run cd (func, k) hend
  obtain ⟨⟨ds, hds, hiff⟩, _⟩ := h2
  simp only [Option.some.injEq, Prod.mk.injEq] at hres
  obtain ⟨hc1, hr⟩ := hres
  subst hc1
  refine ⟨ds, by rw [hds]; exact congrArg (· ++ ds) e1, ?_, ?_⟩
  · rw [← hr]
    by_cases he : cd.parser.had_error = true
    · simp only [he, if_true, true_iff]
      simpa using hiff.1 he
    · simp only [he, Bool.false_eq_true, if_false, false_iff, reduceCtorEq, ne_eq, not_not]
      by_contra hne
      exact he (hiff.2 (Or.inr hne))
  · simpa using hiff

/-- C21: (1) every function of the recursive descent satisfies `reports`:
`had_error` is set when the function returns iff it was set before or the
function has written a report to standard error, so it is never cleared and
set by nothing but a report; (2) `error_at` sets it exactly when it reports;
(3) whenever `compile` returns, it returns null iff it has written at least one
report to standard error, and `had_error` is then set iff it has. -/
theorem compile_null_iff_error_reported (h : host) :
    (∀ n : Nat, reports_all h n) ∧
    (∀ (c : compile_state) (tok : token) (msg : List Nat) (args : List (List Nat)),
      reports c (error_at c tok msg args)) ∧
    (∀ (steps : Nat) (c c1 : compile_state) (source : List Nat) (r : Option Nat),
      compile h steps c source = some (c1, r) →
      ∃ ds, c1.stderr = c.stderr ++ ds ∧ (r = none ↔ ds ≠ []) ∧
        (c1.parser.had_error = true ↔ ds ≠ [])) :=
  ⟨reports_all_holds h, fun c tok msg args => reports_error_at (reports_refl c) tok msg args,
    fun _ _ _ _ _ hrun => compile_reports hrun⟩

/-- The source `print 1;` compiles without a report and `print ;` with one. -/
theorem compile_examples :
    ((compile_source 50 "print 1;").map (fun r => (r.2.isSome, r.1.stderr.length))
      = some (true, 0)) ∧
    ((compile_source 50 "print ;").map (fun r => (r.2.isSome, r.1.stderr.length))
      = some (false, 1)) := by
  constructor <;> decide!

theorem compile_null_iff_error_reported_witness :
    ∃ (vm : VM) (c1 : compile_state) (r : Option Nat) (ds : List diagnostic),
      init_vm host_lp64 zero_vm = some vm ∧
      compile host_lp64 50 (start_state vm) (bytes_of "print ;") = some (c1, r) ∧
      c1.stderr = (start_state vm).stderr ++ ds ∧ (r = none ↔ ds ≠ []) ∧ r = none := by
  have hex := compile_examples.2
  unfold compile_source at hex
  cases hvm : init_vm host_lp64 zero_vm with
  | none =>
    rw [hvm] at hex
    cases hex
  | some vm =>
    rw [hvm] at hex
    simp only [Option.map_eq_some'] at hex
    obtain ⟨⟨c1, r⟩, hrun, hval⟩ := hex
    obtain ⟨ds, hds, hiff, _⟩ :=
      (compile_null_iff_error_reported host_lp64).2.2 50 (start_state vm) c1 _ r hrun
    refine ⟨vm, c1, r, ds, rfl, hrun, hds, hiff, ?_⟩
    simp only [Prod.mk.injEq] at hval
    cases r with
    | none => rfl
    | some f => simp at hval

/-! ### `declare_variable` -/

/-- In panic mode the loop of `declare_variable` changes nothing. -/
theorem declare_variable_loop_panic (locals : List localvar) (sd : Int) (name : token) :
    ∀ (i : Nat) (c : compile_state), c.parser.panic_mode = true →
      declare_variable_loop locals sd name i c = c := by
  intro i
  induction i with
  | zero => intro c _; rfl
  | succ i ih =>
    intro c hp
    unfold declare_variable_loop
    cases hl : locals[i]? with
    | none => rfl
    | some l =>
      simp only
      split
      · rfl
      · have he : ∀ m a, error c m a = c := by
          intro m a
          simp only [error, error_at, hp, if_true]
        split
        · rw [he]; exact ih c hp
        · exact ih c hp

/-- The loop of `declare_variable` reports the redeclaration iff one of the
locals it is run over belongs to the current scope and has the name. -/
theorem declare_variable_loop_spec (locals : List localvar) (sd : Int) (name : token)
    (hnest : scopes_nested locals sd) :
    ∀ (i : Nat) (c : compile_state), i ≤ locals.length → c.parser.panic_mode = false →
      ((∃ (j : Nat) (l : localvar), j < i ∧ locals[j]? = some l ∧ in_scope sd l ∧
            identifiers_equal name l.name = true) →
        declare_variable_loop locals sd name i c =
          error c (bytes_of "Redeclaration of variable \x27%.*s\x27")
            [[name.len], name.start.take name.len]) ∧
      ((¬ ∃ (j : Nat) (l : localvar), j < i ∧ locals[j]? = some l ∧ in_scope sd l ∧
            identifiers_equal name l.name = true) →
        declare_variable_loop locals sd name i c = c) := by
  intro i
  induction i with
  | zero =>
    intro c _ _
    exact ⟨by rintro ⟨j, l, hj, _⟩; omega, fun _ => rfl⟩
  | succ i ih =>
    intro c hi hp
    unfold declare_variable_loop
    cases hl : locals[i]? with
    | none =>
      have h1 := (List.getElem?_eq_none_iff.1 hl)
      omega
    | some l =>
      simp only
      by_cases hout : l.depth ≠ -1 ∧ l.depth < sd
      · rw [if_pos hout]
        refine ⟨?_, fun _ => rfl⟩
        rintro ⟨j, lj, hj, hjl, hin, _⟩
        exfalso
        rcases Nat.lt_succ_iff_lt_or_eq.1 hj with hlt | heq
        · exact hnest j i lj l hlt hjl hl hin hout
        · subst heq
          rw [hl] at hjl
          cases hjl
          exact hin hout
      · rw [if_neg hout]
        by_cases hdup : identifiers_equal name l.name = true
        · rw [if_pos hdup]
          refine ⟨fun _ => ?_, fun hn => absurd ⟨i, l, Nat.lt_succ_self i, hl, hout, hdup⟩ hn⟩
          apply declare_variable_loop_panic
          simp only [error, error_at, hp, Bool.false_eq_true, if_false]
        · rw [if_neg hdup]
          obtain ⟨ih1, ih2⟩ := ih c (by omega) hp
          constructor
          · rintro ⟨j, lj, hj, hjl, hin, hd⟩
            apply ih1
            rcases Nat.lt_succ_iff_lt_or_eq.1 hj with hlt | heq
            · exact ⟨j, lj, hlt, hjl, hin, hd⟩
            · subst heq
              rw [hl] at hjl
              cases hjl
              exact absurd hd hdup
          · intro hn
            apply ih2
            rintro ⟨j, lj, hj, rest⟩
            exact hn ⟨j, lj, Nat.lt_succ_of_lt hj, rest⟩

theorem mem_iff_index {α : Type} (xs : List α) (P : α → Prop) :
    (∃ (j : Nat) (l : α), j < xs.length ∧ xs[j]? = some l ∧ P l) ↔ ∃ l ∈ xs, P l := by
  constructor
  · rintro ⟨j, l, _, hj, hP⟩
    exact ⟨l, List.mem_iff_getElem?.2 ⟨j, hj⟩, hP⟩
  · rintro ⟨l, hl, hP⟩
    obtain ⟨j, hj⟩ := List.mem_iff_getElem?.1 hl
    exact ⟨j, l, (List.getElem?_eq_some_iff.1 hj).1, hj, hP⟩

/-- Function `declare_variable` in a block, outside panic mode. -/
theorem declare_variable_spec (c : compile_state) (k : compiler_t) (rest : List compiler_t)
    (hk : c.current = k :: rest) (hdepth : k.scope_depth ≠ 0)
    (hpanic : c.parser.panic_mode = false) (hnest : scopes_nested k.locals k.scope_depth) :
    ∃ c1, declare_variable c = some c1 ∧
      ((∃ l ∈ k.locals, in_scope k.scope_depth l ∧
          identifiers_equal c.parser.previous l.name = true) ↔
        c1.stderr = c.stderr ++ [redeclaration c.parser.previous c.parser.previous]) ∧
      ((¬ ∃ l ∈ k.locals, in_scope k.scope_depth l ∧
          identifiers_equal c.parser.previous l.name = true) → k.locals.length < 256 →
        c1.stderr = c.stderr ∧ c1.parser = c.parser ∧
        c1.current = { k with locals := k.locals ++
          [{ name := c.parser.previous, depth := -1, captured := false }] } :: rest) := by
  unfold declare_variable
  simp only [hk, List.head?_cons, Option.bind_eq_bind, Option.some_bind, hdepth, if_false]
  obtain ⟨hl1, hl2⟩ := declare_variable_loop_spec k.locals k.scope_depth c.parser.previous
    hnest k.locals.length c (Nat.le_refl _) hpanic
  rw [mem_iff_index k.locals
    (fun l => in_scope k.scope_depth l ∧ identifiers_equal c.parser.previous l.name = true)]
    at hl1 hl2
  by_cases hdup : ∃ l ∈ k.locals, in_scope k.scope_depth l ∧
      identifiers_equal c.parser.previous l.name = true
  · rw [hl1 hdup]
    have herr : error c (bytes_of "Redeclaration of variable \x27%.*s\x27")
        [[c.parser.previous.len], c.parser.previous.start.take c.parser.previous.len]
        = { c with
            parser := { c.parser with panic_mode := true, had_error := true },
            stderr := c.stderr ++ [redeclaration c.parser.previous c.parser.previous] } := by
      simp only [error, error_at, hpanic, Bool.false_eq_true, if_false, redeclaration]
    rw [herr]
    unfold add_local
    simp only [hk, List.head?_cons, Option.bind_eq_bind, Option.some_bind]
    by_cases hfull : k.locals.length = 256
    · rw [if_pos hfull]
      refine ⟨_, rfl, ⟨fun _ => ?_, fun _ => hdup⟩, fun hn => absurd hdup hn⟩
      simp only [error, error_at, if_true]
    · rw [if_neg hfull]
      exact ⟨_, rfl, ⟨fun _ => rfl, fun _ => hdup⟩, fun hn => absurd hdup hn⟩
  · rw [hl2 hdup]
    unfold add_local
    simp only [hk, List.head?_cons, Option.bind_eq_bind, Option.some_bind]
    by_cases hfull : k.locals.length = 256
    · rw [if_pos hfull]
      refine ⟨_, rfl, ⟨fun h => absurd h hdup, fun h => ?_⟩, fun _ hlt => by omega⟩
      exfalso
      simp only [error, error_at, hpanic, Bool.false_eq_true, if_false, redeclaration,
        List.append_cancel_left_eq, List.cons.injEq, diagnostic.mk.injEq, and_true] at h
      exact absurd h.2.2.2.2.1 (by decide)
    · rw [if_neg hfull]
      refine ⟨_, rfl, ⟨fun h => absurd h hdup, fun h => ?_⟩, fun _ _ => ⟨rfl, rfl, ?_⟩⟩
      · exfalso
        simp only [set_compiler] at h
        have := congrArg List.length h
        simp at this
      · simp only [set_compiler, hk, List.tail_cons]

/-- The two programs of the claim: redeclaring `a` in the same block is
reported and `compile` returns null; redeclaring it in a nested block is not
and `compile` returns the function. -/
theorem redeclare_examples :
    ((compile_source 50 "\x7b var a; var a; \x7d").map
        (fun r => (r.2.isSome, r.1.stderr.map (fun d => d.format)))
      = some (false, [bytes_of "Redeclaration of variable \x27%.*s\x27"])) ∧
    ((compile_source 50 "\x7b var a; \x7b var a; \x7d \x7d").map
        (fun r => (r.2.isSome, r.1.stderr.map (fun d => d.format)))
      = some (true, [])) := by
  constructor <;> decide!

/-- C23: in a block (scope depth not 0) and outside panic mode, where the
locals of enclosing scopes come before those of the current scope,
`declare_variable` returns, and it writes the report "Redeclaration of
variable" iff a local of the current scope has the name of the declared
variable; if none has and the function has fewer than 256 locals, it reports
nothing and adds the local with depth -1.  Compiling `{ var a; var a; }` on a
fresh VM writes exactly this report and returns null; compiling
`{ var a; { var a; } }` writes no report and returns the function. -/
theorem declare_variable_reports_iff_redeclared (c : compile_state) (k : compiler_t)
    (rest : List compiler_t) (hk : c.current = k :: rest) (hdepth : k.scope_depth ≠ 0)
    (hpanic : c.parser.panic_mode = false) (hnest : scopes_nested k.locals k.scope_depth) :
    (∃ c1, declare_variable c = some c1 ∧
      ((∃ l ∈ k.locals, in_scope k.scope_depth l ∧
          identifiers_equal c.parser.previous l.name = true) ↔
        c1.stderr = c.stderr ++ [redeclaration c.parser.previous c.parser.previous]) ∧
      ((¬ ∃ l ∈ k.locals, in_scope k.scope_depth l ∧
          identifiers_equal c.parser.previous l.name = true) → k.locals.length < 256 →
        c1.stderr = c.stderr ∧ c1.parser = c.parser ∧
        c1.current = { k with locals := k.locals ++
          [{ name := c.parser.previous, depth := -1, captured := false }] } :: rest)) ∧
    ((compile_source 50 "\x7b var a; var a; \x7d").map
        (fun r => (r.2.isSome, r.1.stderr.map (fun d => d.format)))
      = some (false, [bytes_of "Redeclaration of variable \x27%.*s\x27"])) ∧
    ((compile_source 50 "\x7b var a; \x7b var a; \x7d \x7d").map
        (fun r => (r.2.isSome, r.1.stderr.map (fun d => d.format)))
      = some (true, [])) :=
  ⟨declare_variable_spec c k rest hk hdepth hpanic hnest, redeclare_examples.1,
    redeclare_examples.2⟩

theorem declare_variable_reports_iff_redeclared_witness :
    ∃ c1, declare_variable state_redeclare = some c1 ∧
      c1.stderr = [redeclaration state_redeclare.parser.previous
        state_redeclare.parser.previous] := by
  have hnest : scopes_nested
      [{ name := slot_zero_name FTYPE_SCRIPT, depth := 0, captured := false },
       { name := { type := TOKEN_IDENTIFIER, start := bytes_of "a; var a; \x7d", len := 1,
                   line := 1, column := 8 },
         depth := 1, captured := false }] 1 := by
    intro i j li lj hij hi hj _
    have hj2 : j < 2 := (List.getElem?_eq_some_iff.1 hj).1
    have hj1 : j = 1 := by omega
    subst hj1
    cases hj
    decide
  obtain ⟨⟨c1, hrun, hiff, _⟩, _⟩ :=
    declare_variable_reports_iff_redeclared state_redeclare _ [] rfl (by decide) rfl hnest
  refine ⟨c1, hrun, ?_⟩
  have h := hiff.1 ⟨_, List.mem_cons_of_mem _ (List.mem_singleton_self _), by decide, by decide⟩
  simpa [state_redeclare, start_state] using h

/-! ### The compiler's writes to the heap -/

theorem heap_step_refl (vm : VM) (ups : List Nat) (f : Option Nat) : heap_step vm vm ups f :=
  ⟨rfl, fun _ _ _ h => h, fun _ _ _ => rfl, fun _ _ h _ => h, rfl, fun _ _ => rfl, rfl⟩

theorem heap_step_reach {vm vm1 : VM} {ups : List Nat} {f : Option Nat}
    (h : heap_step vm vm1 ups f) {a : Nat} (ha : reachable vm ups a) : reachable vm1 ups a := by
  obtain ⟨r, hr, hpath⟩ := ha
  exact ⟨r, by rw [h.roots]; exact hr, h.paths r a hr hpath⟩

theorem heap_step_trans {vm1 vm2 vm3 : VM} {ups : List Nat} {f : Option Nat}
    (h12 : heap_step vm1 vm2 ups f) (h23 : heap_step vm2 vm3 ups f) :
    heap_step vm1 vm3 ups f := by
  refine ⟨by rw [h23.roots, h12.roots], ?_, ?_, ?_, by rw [h23.top, h12.top], ?_,
    by rw [h23.stdout, h12.stdout]⟩
  · intro r a hr hpath
    exact h23.paths r a (by rw [h12.roots]; exact hr) (h12.paths r a hr hpath)
  · intro x hx hne
    rw [h23.payload x (heap_step_reach h12 hx) hne, h12.payload x hx hne]
  · intro k d hk hr
    exact h23.keep k d (h12.keep k d hk hr) (heap_step_reach h12 hr)
  · intro i hi
    rw [h23.below i (by rw [h12.top]; exact hi), h12.below i hi]

/-- A step that writes to no function is a step for every function. -/
theorem heap_step_weaken {vm vm1 : VM} {ups : List Nat} (f : Option Nat)
    (h : heap_step vm vm1 ups none) : heap_step vm vm1 ups f :=
  ⟨h.roots, h.paths, fun x hx _ => h.payload x hx (by simp), h.keep, h.top, h.below, h.stdout⟩

theorem heap_step_of_intern {vm vm1 : VM} {ups : List Nat} (h : intern_step vm vm1 ups) :
    heap_step vm vm1 ups none := by
  refine ⟨h.roots, h.paths, ?_, h.keep, h.top, h.below, h.stdout⟩
  intro x hx _
  obtain ⟨o, o', ho, ho', hp⟩ := h.payload x hx
  rw [payload_at_of ho, payload_at_of ho', hp]

theorem heap_step_of_gc {vm vm1 : VM} {l1 ups : List Nat} {n : Nat}
    (h : gc_step vm vm1 ups) (hinv1 : intern_inv vm1 l1 ups n) : heap_step vm vm1 ups none :=
  heap_step_of_intern (intern_step_of_gc h hinv1)

/-- A root is allocated and so is every object reachable from it. -/
theorem reachable_alloc {vm : VM} {l ups : List Nat} (hready : gc_ready vm l ups) {a : Nat}
    (ha : reachable vm ups a) : vm.heap a ≠ none := by
  obtain ⟨r, hr, hpath⟩ := ha
  induction hpath with
  | refl => exact hready.roots_valid r hr
  | tail _ hedge _ =>
    obtain ⟨o, ho, hb⟩ := hedge
    exact hready.edges_valid _ o ho _ hb

theorem func_chunk_of_payload {vm : VM} {f ar uc : Nat} {chk : chunk} {nm : Option Nat}
    (h : payload_at vm.heap f = some (obj_payload.obj_func ar uc chk nm)) :
    func_chunk vm f = some chk := by
  obtain ⟨o, ho, hp⟩ := payload_at_some h
  unfold func_chunk
  simp only [ho, hp]

theorem set_func_chunk_of_payload {vm : VM} {f ar uc : Nat} {chk : chunk} {nm : Option Nat}
    {o : obj} (ho : vm.heap f = some o) (hp : o.payload = obj_payload.obj_func ar uc chk nm)
    (chk1 : chunk) :
    set_func_chunk vm f chk1
      = some (set_payload vm f o (obj_payload.obj_func ar uc chk1 nm)) := by
  unfold set_func_chunk
  simp only [ho, hp]
  rfl

theorem set_payload_at_eq (vm : VM) (f : Nat) (o : obj) (pl : obj_payload) :
    payload_at (set_payload vm f o pl).heap f = some pl := by
  unfold payload_at set_payload
  simp only [Function.update_same, Option.map_some']

theorem set_payload_at_ne (vm : VM) {f x : Nat} (o : obj) (pl : obj_payload) (h : x ≠ f) :
    payload_at (set_payload vm f o pl).heap x = payload_at vm.heap x := by
  unfold payload_at set_payload
  simp only [Function.update_noteq h]

/-- Paths survive a change of the heap that keeps the edges. -/
theorem rtg_edges_mono {h h1 : Nat → Option obj}
    (hsame : ∀ (x : Nat) (o : obj), h x = some o →
      ∃ o1, h1 x = some o1 ∧ ∀ b : Nat, some b ∈ obj_edges o.payload →
        some b ∈ obj_edges o1.payload)
    {r a : Nat} (hpath : Relation.ReflTransGen (heap_edge h) r a) :
    Relation.ReflTransGen (heap_edge h1) r a := by
  induction hpath with
  | refl => exact Relation.ReflTransGen.refl
  | tail _ hxy ih =>
    refine Relation.ReflTransGen.tail ih ?_
    obtain ⟨o, ho, hb⟩ := hxy
    obtain ⟨o1, ho1, he⟩ := hsame _ o ho
    exact ⟨o1, ho1, he _ hb⟩

/-- Rewriting the fields of a function object, with edges that are the old
ones or lead to reachable objects and include the old ones, keeps the intern
invariant and is a step of the compiler on the heap. -/
theorem func_rewrite_ok {vm : VM} {l ups : List Nat} {n f ar uc : Nat} {o : obj} {chk : chunk}
    {nm : Option Nat} (pl : obj_payload) (hinv : intern_inv vm l ups n)
    (ho : vm.heap f = some o) (hp : o.payload = obj_payload.obj_func ar uc chk nm)
    (hnew : ∀ b, some b ∈ obj_edges pl → vm.heap b ≠ none)
    (hold : ∀ b, some b ∈ obj_edges o.payload → some b ∈ obj_edges pl) :
    intern_inv (set_payload vm f o pl) l ups n ∧
    heap_step vm (set_payload vm f o pl) ups (some f) := by
  have hne : ∀ x, x ≠ f → (set_payload vm f o pl).heap x = vm.heap x := by
    intro x hx
    show Function.update vm.heap f _ x = _
    rw [Function.update_noteq hx]
  have hat : (set_payload vm f o pl).heap f = some { o with payload := pl } := by
    show Function.update vm.heap f _ f = _
    rw [Function.update_same]
  have hupne : ∀ u ∈ ups, u ≠ f := by
    intro u hu huf
    have hx : ∀ (us : List Nat) (p : Option Nat), is_upvalue_list vm.heap p us → u ∈ us →
        ∃ nx, upvalue_next vm.heap u = some nx := by
      intro us
      induction us with
      | nil => intro p _ hmem; cases hmem
      | cons a us ih =>
        intro p hl hmem
        obtain ⟨_, nx, hnx, hrest⟩ := hl
        rcases List.mem_cons.1 hmem with h | h
        · exact ⟨nx, by rw [h]; exact hnx⟩
        · exact ih nx hrest h
    obtain ⟨nx, hnx⟩ := hx ups _ hinv.ready.upvalues hu
    unfold upvalue_next at hnx
    rw [huf, ho] at hnx
    simp only [hp] at hnx
    cases hnx
  have hinv1 : intern_inv (set_payload vm f o pl) l ups n := by
    refine intern_inv_cells hinv rfl ?_ ?_ ?_
    · intro x
      by_cases hx : x = f
      · right
        refine ⟨o, pl, by rw [hx]; exact ho, by rw [hx]; exact hat, ?_, hnew⟩
        intro d h hd
        rw [hp] at hd
        cases hd
      · left
        exact hne x hx
    · refine is_upvalue_list_congr_next ups _ hinv.ready.upvalues ?_
      intro u hu
      unfold upvalue_next
      rw [hne u (hupne u hu)]
    · intro u hu
      exact hinv.ready.roots_valid u
        ((root_ptrs_mem_ups vm ups (some u)).2 (Or.inr (by simpa using hu)))
  refine ⟨hinv1, rfl, ?_, ?_, ?_, rfl, fun _ _ => rfl, rfl⟩
  · intro r a _ hpath
    refine rtg_edges_mono ?_ hpath
    intro y oy hy
    by_cases hyf : y = f
    · subst hyf
      rw [ho] at hy
      cases hy
      exact ⟨_, hat, hold⟩
    · exact ⟨oy, by rw [hne y hyf]; exact hy, fun b hb => hb⟩
  · intro x _ hxf
    exact set_payload_at_ne vm o pl (fun h => hxf (by rw [h]))
  · rintro k d ⟨hkey, hd⟩ _
    refine ⟨hkey, ?_⟩
    have hkf : k ≠ f := by
      intro h
      unfold string_data at hd
      rw [h, ho] at hd
      simp only [hp] at hd
      cases hd
    unfold string_data at hd ⊢
    rw [hne k hkf]
    exact hd

/-- Function `reallocate` is a step of the compiler on the heap. -/
theorem reallocate_step (sz : sizeofs) {vm : VM} {l ups : List Nat} {n fuel : Nat}
    (hinv : intern_inv vm l ups n) (hfuel : 2 ^ 32 ≤ fuel)
    (hf : l.length + ups.length < fuel) (old_size new_size : Nat) :
    ∃ (vm1 : VM) (l1 : List Nat), reallocate sz fuel vm old_size new_size = some vm1 ∧
      intern_inv vm1 l1 ups n ∧ l1.length ≤ l.length ∧ heap_step vm vm1 ups none := by
  obtain ⟨vm1, l1, hrun, hinv1, hlen, hs⟩ := intern_reallocate sz hinv hfuel hf old_size new_size
  exact ⟨vm1, l1, hrun, hinv1, hlen, heap_step_of_gc hs hinv1⟩

theorem array_write_end {α : Type} (l : List α) (x : α) :
    array_write l l.length x = some (l ++ [x]) := by
  unfold array_write
  simp

/-- The edges of a function object do not depend on its code. -/
theorem func_edges_code (ar uc ar1 uc1 : Nat) (chk chk1 : chunk) (nm : Option Nat)
    (h : chk1.consts = chk.consts) :
    obj_edges (obj_payload.obj_func ar1 uc1 chk1 nm)
      = obj_edges (obj_payload.obj_func ar uc chk nm) := by
  simp only [obj_edges, h]

/-- Function `write_chunk` on the chunk of a function that is a root appends
the byte and its line, keeps the intern invariant and is a step of the compiler
on the heap. -/
theorem write_chunk_ok (sz : sizeofs) {vm : VM} {l ups : List Nat} {n fuel f ar uc : Nat}
    {chk : chunk} {nm : Option Nat} (byte line : Nat)
    (hinv : intern_inv vm l ups n) (hfuel : 2 ^ 32 ≤ fuel)
    (hf : l.length + ups.length < fuel) (hroot : some f ∈ root_ptrs vm ups)
    (hfp : payload_at vm.heap f = some (obj_payload.obj_func ar uc chk nm))
    (hcode : chk.code.length = chk.count) (hlines : chk.lines.length = chk.count) :
    ∃ (vm1 : VM) (l1 : List Nat) (cap : Nat),
      write_chunk sz fuel vm f byte line = some vm1 ∧
      intern_inv vm1 l1 ups n ∧ l1.length ≤ l.length ∧ heap_step vm vm1 ups (some f) ∧
      payload_at vm1.heap f = some (obj_payload.obj_func ar uc
        { chk with capacity := cap, code := chk.code ++ [byte], lines := chk.lines ++ [line],
                   count := chk.count + 1 } nm) := by
  have hedge : ∀ (o1 : obj) (cap : Nat) (code lines : List Nat) (count : Nat),
      o1.payload = obj_payload.obj_func ar uc { chk with capacity := cap } nm ∨
        o1.payload = obj_payload.obj_func ar uc chk nm →
      obj_edges (obj_payload.obj_func ar uc
        { chk with capacity := cap, code := code, lines := lines, count := count } nm)
        = obj_edges o1.payload := by
    intro o1 cap code lines count h
    rcases h with h | h <;> rw [h] <;> exact func_edges_code ar uc ar uc _ _ nm rfl
  have e1 : array_write chk.code chk.count byte = some (chk.code ++ [byte]) := by
    rw [← hcode]; exact array_write_end _ _
  have e2 : array_write chk.lines chk.count line = some (chk.lines ++ [line]) := by
    rw [← hlines]; exact array_write_end _ _
  obtain ⟨o, ho, hp⟩ := payload_at_some hfp
  by_cases hc : chk.capacity < chk.count + 1
  · obtain ⟨hinv0, hs0⟩ := func_rewrite_ok
      (obj_payload.obj_func ar uc { chk with capacity := GROW_CAPACITY chk.capacity } nm)
      hinv ho hp
      (by
        intro b hb
        rw [hedge o _ chk.code chk.lines chk.count (Or.inr hp)] at hb
        exact hinv.ready.edges_valid f o ho b hb)
      (by
        intro b hb
        rw [hedge o _ chk.code chk.lines chk.count (Or.inr hp)]
        exact hb)
    have hfp0 := set_payload_at_eq vm f o
      (obj_payload.obj_func ar uc { chk with capacity := GROW_CAPACITY chk.capacity } nm)
    have hroot0 : some f ∈ root_ptrs (set_payload vm f o
        (obj_payload.obj_func ar uc { chk with capacity := GROW_CAPACITY chk.capacity } nm))
        ups := by rw [hs0.roots]; exact hroot
    obtain ⟨vm1, l1, hr1, hinv1, hlen1, hs1⟩ := reallocate_step sz hinv0 hfuel hf
      (1 * chk.capacity) (1 * GROW_CAPACITY chk.capacity)
    have hroot1 : some f ∈ root_ptrs vm1 ups := by rw [hs1.roots]; exact hroot0
    obtain ⟨vm2, l2, hr2, hinv2, hlen2, hs2⟩ := reallocate_step sz hinv1 hfuel (by omega)
      (sz.size * chk.capacity) (sz.size * GROW_CAPACITY chk.capacity)
    have hfp2 : payload_at vm2.heap f = some (obj_payload.obj_func ar uc
        { chk with capacity := GROW_CAPACITY chk.capacity } nm) := by
      rw [hs2.payload f (reachable_root hroot1) (by simp),
        hs1.payload f (reachable_root hroot0) (by simp)]
      exact hfp0
    obtain ⟨o2, ho2, hp2⟩ := payload_at_some hfp2
    obtain ⟨hinv4, hs4⟩ := func_rewrite_ok
      (obj_payload.obj_func ar uc
        { chk with capacity := GROW_CAPACITY chk.capacity, code := chk.code ++ [byte],
                   lines := chk.lines ++ [line], count := chk.count + 1 } nm)
      hinv2 ho2 hp2
      (by
        intro b hb
        rw [hedge o2 _ _ _ _ (Or.inl hp2)] at hb
        exact hinv2.ready.edges_valid f o2 ho2 b hb)
      (by
        intro b hb
        rw [hedge o2 _ _ _ _ (Or.inl hp2)]
        exact hb)
    refine ⟨_, l2, GROW_CAPACITY chk.capacity, ?_, hinv4, by omega,
      heap_step_trans hs0 (heap_step_trans (heap_step_weaken _ (heap_step_trans hs1 hs2)) hs4),
      set_payload_at_eq _ _ _ _⟩
    unfold write_chunk
    simp only [Option.bind_eq_bind, func_chunk_of_payload hfp, Option.some_bind, if_pos hc,
      set_func_chunk_of_payload ho hp, hr1, hr2, func_chunk_of_payload hfp2, e1, e2,
      set_func_chunk_of_payload ho2 hp2]
  · obtain ⟨hinv4, hs4⟩ := func_rewrite_ok
      (obj_payload.obj_func ar uc
        { chk with capacity := chk.capacity, code := chk.code ++ [byte],
                   lines := chk.lines ++ [line], count := chk.count + 1 } nm)
      hinv ho hp
      (by
        intro b hb
        rw [hedge o _ _ _ _ (Or.inr hp)] at hb
        exact hinv.ready.edges_valid f o ho b hb)
      (by
        intro b hb
        rw [hedge o _ _ _ _ (Or.inr hp)]
        exact hb)
    refine ⟨_, l, chk.capacity, ?_, hinv4, Nat.le_refl _, hs4, set_payload_at_eq _ _ _ _⟩
    unfold write_chunk
    simp only [Option.bind_eq_bind, func_chunk_of_payload hfp, Option.some_bind, if_neg hc,
      e1, e2, set_func_chunk_of_payload ho hp]

theorem pushed_roots (vm : VM) (ups : List Nat) (v : value) (p : Option Nat) :
    p ∈ root_ptrs (pushed vm v) ups ↔ (p ∈ root_ptrs vm ups ∨ p = value_ptr v) :=
  @root_ptrs_pushed vm (pushed vm v) ups v
    (by
      intro i hi
      show Function.update vm.stack vm.stack_top v i = _
      rw [Function.update_noteq (by omega)])
    (by
      show Function.update vm.stack vm.stack_top v vm.stack_top = _
      rw [Function.update_same])
    rfl rfl rfl rfl rfl rfl p

/-- Pushing a value that is no dangling pointer keeps the intern invariant. -/
theorem intern_inv_pushed {vm : VM} {l ups : List Nat} {n : Nat}
    (hinv : intern_inv vm l ups n) (v : value)
    (hv : ∀ b, value_ptr v = some b → vm.heap b ≠ none) :
    intern_inv (pushed vm v) l ups n := by
  refine intern_inv_restack hinv rfl rfl rfl rfl rfl ?_
  intro b hb
  rcases (pushed_roots vm ups v (some b)).1 hb with h | h
  · exact hinv.ready.roots_valid b h
  · exact hv b h.symm

/-- The edges of a function object after a constant has been appended. -/
theorem func_edges_append (ar uc : Nat) (chk : chunk) (nm : Option Nat) (cap : Nat)
    (val : value) (hlen : chk.consts.values.length = chk.consts.count) (p : Option Nat) :
    p ∈ obj_edges (obj_payload.obj_func ar uc
        { chk with consts := { capacity := cap, count := chk.consts.count + 1,
                               values := chk.consts.values ++ [val] } } nm) ↔
      (p ∈ obj_edges (obj_payload.obj_func ar uc chk nm) ∨ p = value_ptr val) := by
  simp only [obj_edges, List.mem_cons, List.mem_map]
  have e1 : (chk.consts.values ++ [val]).take (chk.consts.count + 1)
      = chk.consts.values ++ [val] := by
    rw [← hlen]
    exact List.take_of_length_le (by simp)
  have e2 : chk.consts.values.take chk.consts.count = chk.consts.values := by
    rw [← hlen]
    exact List.take_length _
  rw [e1, e2]
  simp only [List.mem_append, List.mem_singleton]
  constructor
  · rintro (h | ⟨a, ha | ha, rfl⟩)
    · exact Or.inl (Or.inl h)
    · exact Or.inl (Or.inr ⟨a, ha, rfl⟩)
    · exact Or.inr (by rw [ha])
  · rintro ((h | ⟨a, ha, rfl⟩) | h)
    · exact Or.inl h
    · exact Or.inr ⟨a, Or.inl ha, rfl⟩
    · exact Or.inr ⟨val, Or.inr rfl, h.symm⟩

/-- Function `write_value_array` on the constants of a function that is a
root, with a value that is reachable if it is a pointer, appends the value,
keeps the intern invariant and is a step of the compiler on the heap. -/
theorem write_value_array_ok (sz : sizeofs) {vm : VM} {l ups : List Nat}
    {n fuel f ar uc : Nat} {chk : chunk} {nm : Option Nat} (val : value)
    (hinv : intern_inv vm l ups n) (hfuel : 2 ^ 32 ≤ fuel)
    (hf : l.length + ups.length < fuel) (hroot : some f ∈ root_ptrs vm ups)
    (hfp : payload_at vm.heap f = some (obj_payload.obj_func ar uc chk nm))
    (hlen : chk.consts.values.length = chk.consts.count)
    (hv : ∀ b, value_ptr val = some b → reachable vm ups b) :
    ∃ (vm1 : VM) (l1 : List Nat) (cap : Nat),
      write_value_array sz fuel vm f val = some vm1 ∧
      intern_inv vm1 l1 ups n ∧ l1.length ≤ l.length ∧ heap_step vm vm1 ups (some f) ∧
      payload_at vm1.heap f = some (obj_payload.obj_func ar uc
        { chk with consts := { capacity := cap, count := chk.consts.count + 1,
                               values := chk.consts.values ++ [val] } } nm) := by
  have e1 : array_write chk.consts.values chk.consts.count val
      = some (chk.consts.values ++ [val]) := by
    rw [← hlen]; exact array_write_end _ _
  obtain ⟨o, ho, hp⟩ := payload_at_some hfp
  -- the last step: the write itself
  have hlast : ∀ (vm2 : VM) (l2 : List Nat) (cap : Nat) (o2 : obj),
      intern_inv vm2 l2 ups n → vm2.heap f = some o2 →
      o2.payload = obj_payload.obj_func ar uc
        { chk with consts := { chk.consts with capacity := cap } } nm →
      (∀ b, value_ptr val = some b → reachable vm2 ups b) →
      intern_inv (set_payload vm2 f o2 (obj_payload.obj_func ar uc
        { chk with consts := { capacity := cap, count := chk.consts.count + 1,
                               values := chk.consts.values ++ [val] } } nm)) l2 ups n ∧
      heap_step vm2 (set_payload vm2 f o2 (obj_payload.obj_func ar uc
        { chk with consts := { capacity := cap, count := chk.consts.count + 1,
                               values := chk.consts.values ++ [val] } } nm)) ups (some f) := by
    intro vm2 l2 cap o2 hinv2 ho2 hp2 hv2
    have hold : obj_edges o2.payload = obj_edges (obj_payload.obj_func ar uc chk nm) := by
      rw [hp2]
      simp only [obj_edges]
    refine func_rewrite_ok _ hinv2 ho2 hp2 ?_ ?_
    · intro b hb
      rcases (func_edges_append ar uc chk nm cap val hlen (some b)).1 hb with h | h
      · rw [← hold] at h
        exact hinv2.ready.edges_valid f o2 ho2 b h
      · exact reachable_alloc hinv2.ready (hv2 b h.symm)
    · intro b hb
      rw [hold] at hb
      exact (func_edges_append ar uc chk nm cap val hlen (some b)).2 (Or.inl hb)
  by_cases hc : chk.consts.capacity < chk.consts.count + 1
  · obtain ⟨hinv0, hs0⟩ := func_rewrite_ok
      (obj_payload.obj_func ar uc
        { chk with consts := { chk.consts with
                               capacity := GROW_CAPACITY chk.consts.capacity } } nm)
      hinv ho hp
      (by
        intro b hb
        have e : obj_edges (obj_payload.obj_func ar uc
            { chk with consts := { chk.consts with
                                   capacity := GROW_CAPACITY chk.consts.capacity } } nm)
            = obj_edges o.payload := by
          rw [hp]
          simp only [obj_edges]
        rw [e] at hb
        exact hinv.ready.edges_valid f o ho b hb)
      (by
        intro b hb
        rw [hp] at hb
        simpa only [obj_edges] using hb)
    have hfp0 := set_payload_at_eq vm f o
      (obj_payload.obj_func ar uc
        { chk with consts := { chk.consts with
                               capacity := GROW_CAPACITY chk.consts.capacity } } nm)
    have hroot0 : some f ∈ root_ptrs (set_payload vm f o
        (obj_payload.obj_func ar uc
          { chk with consts := { chk.consts with
                                 capacity := GROW_CAPACITY chk.consts.capacity } } nm))
        ups := by rw [hs0.roots]; exact hroot
    obtain ⟨vm1, l1, hr1, hinv1, hlen1, hs1⟩ := reallocate_step sz hinv0 hfuel hf
      (sz.value * chk.consts.capacity) (sz.value * GROW_CAPACITY chk.consts.capacity)
    have hfp1 : payload_at vm1.heap f = some (obj_payload.obj_func ar uc
        { chk with consts := { chk.consts with
                               capacity := GROW_CAPACITY chk.consts.capacity } } nm) := by
      rw [hs1.payload f (reachable_root hroot0) (by simp)]
      exact hfp0
    obtain ⟨o1, ho1, hp1⟩ := payload_at_some hfp1
    obtain ⟨hinv4, hs4⟩ := hlast vm1 l1 (GROW_CAPACITY chk.consts.capacity) o1 hinv1 ho1 hp1
      (fun b hb => heap_step_reach hs1 (heap_step_reach hs0 (hv b hb)))
    refine ⟨_, l1, GROW_CAPACITY chk.consts.capacity, ?_, hinv4, hlen1,
      heap_step_trans hs0 (heap_step_trans (heap_step_weaken _ hs1) hs4),
      set_payload_at_eq _ _ _ _⟩
    unfold write_value_array
    simp only [Option.bind_eq_bind, func_chunk_of_payload hfp, Option.some_bind, if_pos hc,
      set_func_chunk_of_payload ho hp, hr1, func_chunk_of_payload hfp1, e1,
      set_func_chunk_of_payload ho1 hp1]
  · obtain ⟨hinv4, hs4⟩ := hlast vm l chk.consts.capacity o hinv ho hp hv
    refine ⟨_, l, chk.consts.capacity, ?_, hinv4, Nat.le_refl _, hs4,
      set_payload_at_eq _ _ _ _⟩
    unfold write_value_array
    simp only [Option.bind_eq_bind, func_chunk_of_payload hfp, Option.some_bind, if_neg hc,
      e1, set_func_chunk_of_payload ho hp]

theorem error_frame (c : compile_state) (msg : List Nat) (args : List (List Nat)) :
    (error c msg args).vm = c.vm ∧ (error c msg args).current = c.current ∧
    (error c msg args).parser.previous = c.parser.previous := by
  unfold error error_at
  split <;> exact ⟨rfl, rfl, rfl⟩

/-- The conversion to `int32` keeps a value below 2^31. -/
theorem int32_of_small (n : Nat) (h : n < 2 ^ 31) : int32_of (n : Int) = (n : Int) := by
  unfold int32_of
  omega

/-- The value `(uint8) x` of a natural `x`. -/
theorem toNat_emod_256 (n : Nat) : ((n : Int) % 256).toNat = n % 256 := by
  omega

/-- The value `(x >> 8) & 0xff` of a natural `x`. -/
theorem toNat_high_byte (n : Nat) : ((n : Int) / 256 % 256).toNat = n / 256 % 256 := by
  omega

/-- Function `add_constant` on the chunk of a function that is a root, with a
value that is no dangling pointer, appends the value to the constants and
returns its index, keeps the intern invariant and is a step of the compiler on
the heap. -/
theorem add_constant_ok (sz : sizeofs) {vm : VM} {l ups : List Nat}
    {n fuel f ar uc : Nat} {chk : chunk} {nm : Option Nat} (val : value)
    (hinv : intern_inv vm l ups n) (hfuel : 2 ^ 32 ≤ fuel)
    (hf : l.length + ups.length < fuel) (hroot : some f ∈ root_ptrs vm ups)
    (hfp : payload_at vm.heap f = some (obj_payload.obj_func ar uc chk nm))
    (hlen : chk.consts.values.length = chk.consts.count)
    (hstack : vm.stack_top < STACK_MAX)
    (hv : ∀ b, value_ptr val = some b → vm.heap b ≠ none) :
    ∃ (vm1 : VM) (l1 : List Nat) (cap : Nat),
      add_constant sz fuel vm f val = some (vm1, int32_of (chk.consts.count : Int)) ∧
      intern_inv vm1 l1 ups n ∧ l1.length ≤ l.length ∧ heap_step vm vm1 ups (some f) ∧
      payload_at vm1.heap f = some (obj_payload.obj_func ar uc
        { chk with consts := { capacity := cap, count := chk.consts.count + 1,
                               values := chk.consts.values ++ [val] } } nm) ∧
      ∀ (b : Nat) (d : List Nat), value_ptr val = some b → interned vm b d →
        interned vm1 b d := by
  have hinv1 := intern_inv_pushed hinv val hv
  have hroot1 : some f ∈ root_ptrs (pushed vm val) ups :=
    (pushed_roots vm ups val _).2 (Or.inl hroot)
  obtain ⟨vm2, l2, cap, hrun2, hinv2, hlen2, hs2, hfp2⟩ :=
    @write_value_array_ok sz (pushed vm val) l ups n fuel f ar uc chk nm val hinv1 hfuel hf
      hroot1 hfp hlen
      (fun b hb => reachable_root ((pushed_roots vm ups val _).2 (Or.inr hb.symm)))
  have htop2 : vm2.stack_top = vm.stack_top + 1 := hs2.top
  have hinv3 : intern_inv { vm2 with stack_top := vm2.stack_top - 1 } l2 ups n := by
    refine intern_inv_restack hinv2 rfl rfl rfl rfl rfl ?_
    intro b hb
    exact hinv2.ready.roots_valid b
      (@root_ptrs_shrink vm2 { vm2 with stack_top := vm2.stack_top - 1 } ups (fun _ _ => rfl)
        (Nat.sub_le _ _) rfl rfl rfl rfl rfl _ hb)
  have hbelow : ∀ i, i < vm.stack_top → vm2.stack i = vm.stack i := by
    intro i hi
    rw [hs2.below i (by show i < vm.stack_top + 1; omega)]
    show Function.update vm.stack vm.stack_top val i = _
    rw [Function.update_noteq (by omega)]
  have hroots3 : root_ptrs { vm2 with stack_top := vm2.stack_top - 1 } ups
      = root_ptrs vm ups := by
    have h2 := hs2.roots
    unfold root_ptrs at h2 ⊢
    simp only [htop2, Nat.add_sub_cancel] at h2 ⊢
    have hstk : (List.range vm.stack_top).map vm2.stack
        = (List.range vm.stack_top).map vm.stack := by
      apply List.map_congr_left
      intro i hi
      exact hbelow i (List.mem_range.1 hi)
    rw [hstk]
    have hpush : (pushed vm val).stack_top = vm.stack_top + 1 := rfl
    simp only [hpush, List.range_succ, List.map_append, List.map_cons, List.map_nil,
      List.append_assoc] at h2
    have hstk2 : (List.range vm.stack_top).map (pushed vm val).stack
        = (List.range vm.stack_top).map vm.stack := by
      apply List.map_congr_left
      intro i hi
      show Function.update vm.stack vm.stack_top val i = _
      rw [Function.update_noteq (by have := List.mem_range.1 hi; omega)]
    rw [hstk, hstk2] at h2
    have h3 := List.append_cancel_left h2
    simp only [List.singleton_append, List.cons.injEq] at h3
    simp only [List.append_assoc]
    exact congrArg (List.map value_ptr (List.map vm.stack (List.range vm.stack_top)) ++ ·)
      h3.2
  refine ⟨{ vm2 with stack_top := vm2.stack_top - 1 }, l2, cap, ?_, hinv3, hlen2, ?_, hfp2,
    fun b d hb hd => hs2.keep b d hd
      (reachable_root ((pushed_roots vm ups val _).2 (Or.inr hb.symm)))⟩
  · unfold add_constant
    simp only [Option.bind_eq_bind, push_eq val hstack, Option.some_bind, hrun2, pop,
      if_pos (show 0 < vm2.stack_top by omega)]
    have e : func_chunk { vm2 with stack_top := vm2.stack_top - 1 } f = func_chunk vm2 f := rfl
    rw [e, func_chunk_of_payload hfp2]
    have e2 : ((chk.consts.count + 1 : Nat) : Int) - 1 = (chk.consts.count : Int) := by
      push_cast
      omega
    simp only [Option.some_bind, e2]
  · refine ⟨hroots3, ?_, ?_, ?_, ?_, hbelow, hs2.stdout⟩
    · intro r a hr hpath
      exact hs2.paths r a ((pushed_roots vm ups val _).2 (Or.inl hr)) hpath
    · intro x hx hne
      obtain ⟨r, hr, hpath⟩ := hx
      exact hs2.payload x ⟨r, (pushed_roots vm ups val _).2 (Or.inl hr), hpath⟩ hne
    · intro k d hk hx
      obtain ⟨r, hr, hpath⟩ := hx
      exact hs2.keep k d hk ⟨r, (pushed_roots vm ups val _).2 (Or.inl hr), hpath⟩
    · show vm2.stack_top - 1 = vm.stack_top
      omega

/-! ### The compiler on a VM that satisfies the intern invariant -/

theorem first_free_fresh : allocator_fresh first_free 1024 := by
  intro heap l hdom hlen
  unfold first_free
  cases hfind : (List.range 1024).find? (fun a => (heap (a + 1)).isNone) with
  | some a =>
    have := List.find?_some hfind
    simpa using this
  | none =>
    exfalso
    have hall : ∀ a ∈ List.range 1024, heap (a + 1) ≠ none := by
      intro a ha
      have := List.find?_eq_none.1 hfind a ha
      simpa using this
    have hsub : (List.range 1024).map (· + 1) ⊆ l := by
      intro x hx
      obtain ⟨a, ha, rfl⟩ := List.mem_map.1 hx
      exact hdom _ (hall a ha)
    have hnd : ((List.range 1024).map (· + 1)).Nodup :=
      (List.nodup_range 1024).map (fun a b hab => by simpa using hab)
    have := (hnd.subperm hsub).length_le
    simp at this
    omega

/-- The invariant of the compiler depends on the VM and the chain only. -/
theorem compile_inv_congr {h : host} {ups : List Nat} {M B : Nat} {c c1 : compile_state}
    (hinv : compile_inv h ups M B c) (hvm : c1.vm = c.vm) (hcur : c1.current = c.current) :
    compile_inv h ups M B c1 := by
  obtain ⟨h1, h2, h3, h4, h5⟩ := hinv
  refine ⟨h1, h2, ?_, ?_, ?_⟩
  · rw [hvm]; exact h3
  · rw [hvm]; exact h4
  · rw [hvm, hcur]; exact h5

theorem compile_inv_mono {h : host} {ups : List Nat} {M B B1 : Nat} {c : compile_state}
    (hinv : compile_inv h ups M B c) (hle : B1 ≤ B) : compile_inv h ups M B1 c := by
  obtain ⟨h1, h2, ⟨l, n, h3, h31, h32, h33⟩, h4, h5⟩ := hinv
  exact ⟨h1, h2, ⟨l, n, h3, by omega, by omega, by omega⟩, h4, h5⟩

/-- A step of the compiler on the heap carries the invariant of the compiler
over, given what it did to the function it has written to. -/
theorem compile_inv_step {h : host} {ups : List Nat} {M B : Nat} {c : compile_state}
    {vm1 : VM} {l1 : List Nat} {n1 : Nat} {f : Option Nat}
    (hinv : compile_inv h ups M B c) (hinv1 : intern_inv vm1 l1 ups n1)
    (hl : l1.length + ups.length + B < h.fuel) (hn : n1 + B < 2 ^ 30) (hm : l1.length + B < M)
    (hs : heap_step c.vm vm1 ups f)
    (hf : ∀ k ∈ c.current, some k.func = f →
      ∃ (ar uc : Nat) (chk : chunk) (nm : Option Nat),
        payload_at vm1.heap k.func = some (obj_payload.obj_func ar uc chk nm) ∧ chunk_ok chk) :
    compile_inv h ups M B { c with vm := vm1 } := by
  refine ⟨hinv.fuel, hinv.alloc, ⟨l1, n1, hinv1, hl, hn, hm⟩, ?_, ?_⟩
  · show vm1.stack_top < STACK_MAX
    rw [hs.top]
    exact hinv.stack
  · intro k hk
    obtain ⟨hroot, ar, uc, chk, nm, hp, hok⟩ := hinv.funcs k hk
    refine ⟨by show _ ∈ root_ptrs vm1 ups; rw [hs.roots]; exact hroot, ?_⟩
    by_cases hkf : some k.func = f
    · exact hf k hk hkf
    · refine ⟨ar, uc, chk, nm, ?_, hok⟩
      show payload_at vm1.heap k.func = _
      rw [hs.payload k.func (reachable_root hroot) hkf]
      exact hp

/-- Function `emit_byte` under the invariant of the compiler: it returns, it
changes the VM only, and it appends the byte to the code of the chunk of the
current function. -/
theorem emit_byte_ok (h : host) {ups : List Nat} {M B : Nat} {c : compile_state}
    {k : compiler_t} {rest : List compiler_t} (b : Nat)
    (hinv : compile_inv h ups M B c) (hk : c.current = k :: rest) :
    ∃ vm1 : VM, emit_byte h c b = some { c with vm := vm1 } ∧
      compile_inv h ups M B { c with vm := vm1 } ∧ heap_step c.vm vm1 ups (some k.func) ∧
      ∀ (ar uc : Nat) (chk : chunk) (nm : Option Nat),
        payload_at c.vm.heap k.func = some (obj_payload.obj_func ar uc chk nm) →
        ∃ cap, payload_at vm1.heap k.func = some (obj_payload.obj_func ar uc
          { chk with capacity := cap, code := chk.code ++ [b % 256],
                     lines := chk.lines ++ [c.parser.previous.line],
                     count := chk.count + 1 } nm) := by
  obtain ⟨l, n, hi, hl, hn, hm⟩ := hinv.heap
  obtain ⟨hroot, ar, uc, chk, nm, hp, hok⟩ := hinv.funcs k (by rw [hk]; exact List.mem_cons_self _ _)
  obtain ⟨vm1, l1, cap, hrun, hinv1, hlen1, hs1, hp1⟩ :=
    write_chunk_ok h.sz (b % 256) c.parser.previous.line hi hinv.fuel (by omega) hroot hp
      hok.1 hok.2.1
  refine ⟨vm1, ?_, ?_, hs1, ?_⟩
  · unfold emit_byte
    simp only [hk, List.head?_cons, Option.bind_eq_bind, Option.some_bind, hrun]
  · refine compile_inv_step hinv hinv1 (by omega) hn (by omega) hs1 ?_
    intro k1 _ hk1
    have e : k1.func = k.func := Option.some.inj hk1
    rw [e]
    exact ⟨ar, uc, _, nm, hp1, by simp [hok.1], by simp [hok.2.1], hok.2.2⟩
  · intro ar2 uc2 chk2 nm2 hp2
    rw [hp] at hp2
    cases hp2
    exact ⟨cap, hp1⟩

/-- Function `make_constant` after `add_constant` has returned the index `x`. -/
theorem make_constant_eq {h : host} {c : compile_state} {k : compiler_t}
    {rest : List compiler_t} {val : value} {vm1 : VM} {x : Int} (hk : c.current = k :: rest)
    (hrun : add_constant h.sz h.fuel c.vm k.func val = some (vm1, x)) :
    make_constant h c val =
      (if x > 255 then
        some (error { c with vm := vm1 }
          (bytes_of "Too many constants in one chunk! Maximum %d\n") [[255]], 0)
      else some ({ c with vm := vm1 }, (x % 256).toNat)) := by
  unfold make_constant
  rw [hk]
  simp only [List.head?_cons, Option.bind_eq_bind, Option.some_bind]
  rw [hrun]
  rfl

/-- Function `make_constant` under the invariant of the compiler: it returns,
it appends the value to the constants of the current function, and its result
is the index of the value if that is at most 255; otherwise it reports "Too
many constants in one chunk" and its result is 0. -/
theorem make_constant_ok (h : host) {ups : List Nat} {M B : Nat} {c : compile_state}
    {k : compiler_t} {rest : List compiler_t} {ar uc : Nat} {chk : chunk} {nm : Option Nat}
    (val : value) (hinv : compile_inv h ups M B c) (hk : c.current = k :: rest)
    (hp : payload_at c.vm.heap k.func = some (obj_payload.obj_func ar uc chk nm))
    (hv : ∀ b, value_ptr val = some b → c.vm.heap b ≠ none) :
    ∃ (vm1 : VM) (cap : Nat),
      (chk.consts.count ≤ 255 →
        make_constant h c val = some ({ c with vm := vm1 }, chk.consts.count)) ∧
      (255 < chk.consts.count → chk.consts.count < 2 ^ 31 →
        make_constant h c val =
          some (error { c with vm := vm1 }
            (bytes_of "Too many constants in one chunk! Maximum %d\n") [[255]], 0)) ∧
      compile_inv h ups M B { c with vm := vm1 } ∧ heap_step c.vm vm1 ups (some k.func) ∧
      payload_at vm1.heap k.func = some (obj_payload.obj_func ar uc
        { chk with consts := { capacity := cap, count := chk.consts.count + 1,
                               values := chk.consts.values ++ [val] } } nm) ∧
      (∀ (b : Nat) (d : List Nat), value_ptr val = some b → interned c.vm b d →
        interned vm1 b d) ∧
      ∃ (c2 : compile_state) (idx : Nat),
        make_constant h c val = some (c2, idx) ∧ idx < 256 ∧ c2.vm = vm1 ∧
        c2.current = c.current ∧ c2.parser.previous = c.parser.previous := by
  obtain ⟨l, n, hi, hl, hn, hm⟩ := hinv.heap
  obtain ⟨hroot, ar2, uc2, chk2, nm2, hp2, hok⟩ :=
    hinv.funcs k (by rw [hk]; exact List.mem_cons_self _ _)
  rw [hp] at hp2
  cases hp2
  obtain ⟨vm1, l1, cap, hrun, hinv1, hlen1, hs1, hp1, hkeep⟩ :=
    add_constant_ok h.sz val hi hinv.fuel (by omega) hroot hp hok.2.2 hinv.stack hv
  refine ⟨vm1, cap, ?_, ?_, ?_, hs1, hp1, hkeep, ?_⟩
  · intro hle
    rw [int32_of_small _ (by omega)] at hrun
    unfold make_constant
    simp only [hk, List.head?_cons, Option.bind_eq_bind, Option.some_bind, hrun,
      if_neg (show ¬ (chk.consts.count : Int) > 255 by omega), toNat_emod_256,
      Nat.mod_eq_of_lt (show chk.consts.count < 256 by omega)]
  · intro hgt hsize
    rw [int32_of_small _ hsize] at hrun
    unfold make_constant
    simp only [hk, List.head?_cons, Option.bind_eq_bind, Option.some_bind, hrun,
      if_pos (show (chk.consts.count : Int) > 255 by omega)]
  · refine compile_inv_step hinv hinv1 (by omega) hn (by omega) hs1 ?_
    intro k1 _ hk1
    have e : k1.func = k.func := Option.some.inj hk1
    rw [e]
    exact ⟨ar, uc, _, nm, hp1, hok.1, hok.2.1, by simp [hok.2.2]⟩
  · generalize int32_of (chk.consts.count : Int) = x at hrun
    have hmk := make_constant_eq hk hrun
    by_cases hgt : x > 255
    · rw [if_pos hgt] at hmk
      exact ⟨_, 0, hmk, by decide, (error_frame _ _ _).1, (error_frame _ _ _).2.1,
        (error_frame _ _ _).2.2⟩
    · rw [if_neg hgt] at hmk
      exact ⟨_, _, hmk, by omega, rfl, rfl, rfl⟩

/-- Function `emit_bytes` under the invariant of the compiler. -/
theorem emit_bytes_ok (h : host) {ups : List Nat} {M B : Nat} {c : compile_state}
    {k : compiler_t} {rest : List compiler_t} (b1 b2 : Nat)
    (hinv : compile_inv h ups M B c) (hk : c.current = k :: rest) :
    ∃ vm1 : VM, emit_bytes h c b1 b2 = some { c with vm := vm1 } ∧
      compile_inv h ups M B { c with vm := vm1 } ∧ heap_step c.vm vm1 ups (some k.func) ∧
      ∀ (ar uc : Nat) (chk : chunk) (nm : Option Nat),
        payload_at c.vm.heap k.func = some (obj_payload.obj_func ar uc chk nm) →
        ∃ cap, payload_at vm1.heap k.func = some (obj_payload.obj_func ar uc
          { chk with capacity := cap, code := chk.code ++ [b1 % 256, b2 % 256],
                     lines := chk.lines ++ [c.parser.previous.line, c.parser.previous.line],
                     count := chk.count + 2 } nm) := by
  obtain ⟨vm1, hr1, hinv1, hs1, hp1⟩ := emit_byte_ok h b1 hinv hk
  obtain ⟨vm2, hr2, hinv2, hs2, hp2⟩ :=
    @emit_byte_ok h ups M B { c with vm := vm1 } k rest b2 hinv1 hk
  refine ⟨vm2, ?_, hinv2, heap_step_trans hs1 hs2, ?_⟩
  · unfold emit_bytes
    simp only [Option.bind_eq_bind, hr1, Option.some_bind, hr2]
  · intro ar uc chk nm hp
    obtain ⟨cap1, hq1⟩ := hp1 ar uc chk nm hp
    obtain ⟨cap2, hq2⟩ := hp2 ar uc _ nm hq1
    refine ⟨cap2, ?_⟩
    rw [hq2]
    simp only [List.append_assoc, List.singleton_append]

/-- Writing to standard output keeps the invariant of the compiler. -/
theorem compile_inv_print_out {h : host} {ups : List Nat} {M B : Nat} {c : compile_state}
    (hinv : compile_inv h ups M B c) (items : List out_item) :
    compile_inv h ups M B (print_out c items) := by
  obtain ⟨l, n, hi, hl, hn, hm⟩ := hinv.heap
  have hroots : root_ptrs { c.vm with stdout := c.vm.stdout ++ items } ups
      = root_ptrs c.vm ups := rfl
  refine ⟨hinv.fuel, hinv.alloc, ⟨l, n, ?_, hl, hn, hm⟩, hinv.stack, hinv.funcs⟩
  refine intern_inv_restack hi rfl rfl rfl rfl rfl ?_
  intro b hb
  exact hi.ready.roots_valid b hb

/-- Function `identifier_constant` under the invariant of the compiler with
room for an allocation: it returns; the constant it adds is the interned
string with the bytes of the lexeme. -/
theorem identifier_constant_ok (h : host) {ups : List Nat} {M B : Nat} {c : compile_state}
    {k : compiler_t} {rest : List compiler_t} {ar uc : Nat} {chk : chunk} {nm : Option Nat}
    (name : token) (hinv : compile_inv h ups M (B + 1) c) (hk : c.current = k :: rest)
    (hp : payload_at c.vm.heap k.func = some (obj_payload.obj_func ar uc chk nm)) :
    ∃ (vm1 : VM) (cap s : Nat),
      (chk.consts.count ≤ 255 →
        identifier_constant h c name = some ({ c with vm := vm1 }, chk.consts.count)) ∧
      (255 < chk.consts.count → chk.consts.count < 2 ^ 31 →
        identifier_constant h c name =
          some (error { c with vm := vm1 }
            (bytes_of "Too many constants in one chunk! Maximum %d\n") [[255]], 0)) ∧
      compile_inv h ups M B { c with vm := vm1 } ∧ heap_step c.vm vm1 ups (some k.func) ∧
      interned vm1 s (name.start.take name.len) ∧
      payload_at vm1.heap k.func = some (obj_payload.obj_func ar uc
        { chk with consts := { capacity := cap, count := chk.consts.count + 1,
                               values := chk.consts.values ++ [value.obj s] } } nm) := by
  obtain ⟨l, n, hi, hl, hn, hm⟩ := hinv.heap
  obtain ⟨hroot, _⟩ := hinv.funcs k (by rw [hk]; exact List.mem_cons_self _ _)
  have ha : c.vm.heap (h.fresh c.vm.heap) = none :=
    hinv.alloc c.vm.heap l
      (fun x hx => by
        obtain ⟨o, ho⟩ := Option.ne_none_iff_exists'.1 hx
        exact hi.ready.dom x o ho)
      (by omega)
  obtain ⟨vm1, l1, s, hrun1, hinv1, hlen1, hint1, hs1, _⟩ :=
    copy_string_ok h.sz (name.start.take name.len) hi (by omega) hinv.fuel (by omega) ha
      hinv.stack
  have hcinv1 : compile_inv h ups M B { c with vm := vm1 } :=
    compile_inv_step (compile_inv_mono hinv (Nat.le_succ B)) hinv1 (by omega) (by omega)
      (by omega) (heap_step_of_intern hs1) (fun _ _ hk1 => by cases hk1)
  have hp1 : payload_at vm1.heap k.func = some (obj_payload.obj_func ar uc chk nm) := by
    rw [(heap_step_of_intern hs1).payload k.func (reachable_root hroot) (by simp)]
    exact hp
  have hs_alloc : vm1.heap s ≠ none := by
    have := hint1.2
    unfold string_data at this
    intro hnone
    rw [hnone] at this
    cases this
  obtain ⟨vm2, cap, hle, hgt, hcinv2, hs2, hp2, hkeep2, _⟩ :=
    @make_constant_ok h ups M B { c with vm := vm1 } k rest ar uc chk nm (value.obj s)
      hcinv1 hk hp1 (fun b hb => by cases hb; exact hs_alloc)
  refine ⟨vm2, cap, s, ?_, ?_, hcinv2,
    heap_step_trans (heap_step_weaken _ (heap_step_of_intern hs1)) hs2,
    hkeep2 s _ rfl hint1, hp2⟩
  · intro hc
    unfold identifier_constant
    simp only [Option.bind_eq_bind, hrun1, Option.some_bind]
    exact hle hc
  · intro hc hsize
    unfold identifier_constant
    simp only [Option.bind_eq_bind, hrun1, Option.some_bind]
    exact hgt hc hsize

theorem root_ptrs_compilers (vm : VM) (ups : List Nat) (cs : List (Option Nat))
    (p : Option Nat) :
    p ∈ root_ptrs { vm with compilers := cs } ups ↔
      (p ∈ root_ptrs { vm with compilers := [] } ups ∨ p ∈ cs) := by
  simp only [root_ptrs, List.mem_append, List.append_nil]
  tauto

theorem root_ptrs_compilers_old (vm : VM) (ups : List Nat) (p : Option Nat)
    (h : p ∈ root_ptrs { vm with compilers := [] } ups) : p ∈ root_ptrs vm ups := by
  simp only [root_ptrs, List.mem_append, List.append_nil] at h ⊢
  tauto

/-- The empty heap of the zero-initialised VM satisfies the intern invariant. -/
theorem zero_vm_inv : intern_inv zero_vm [] [] 0 := by
  refine ⟨⟨rfl, List.nodup_nil, ?_, ?_, rfl, rfl, ?_, ?_, table_wf_init _, ?_⟩, ?_, ?_,
    by decide, by decide⟩
  · intro a o h; cases h
  · intro a o h; cases h
  · intro b hb
    simp [root_ptrs, zero_vm, table_ptrs, init_table] at hb
  · intro a o h; cases h
  · intro e k he; simp [zero_vm, init_table] at he
  · intro e k he; simp [zero_vm, init_table] at he
  · rintro k1 k2 d ⟨⟨e, he, _⟩, _⟩
    simp [zero_vm, init_table] at he

/-- Function `init_compiler` for the script, under the invariant of the
compiler with room for an allocation: it returns, the new compiler is at the
head of the chain with the local of slot zero, and its function is a new
function object with an empty chunk. -/
theorem init_compiler_script_ok (h : host) {ups : List Nat} {M B : Nat} {c : compile_state}
    (hinv : compile_inv h ups M (B + 1) c) :
    ∃ (vm1 : VM) (f : Nat),
      init_compiler h c FTYPE_SCRIPT = some
        { c with
          vm := vm1,
          current := { func := f, ftype := FTYPE_SCRIPT,
                       locals := [{ name := slot_zero_name FTYPE_SCRIPT, depth := 0,
                                    captured := false }],
                       upvalues := [], scope_depth := 0 } :: c.current } ∧
      compile_inv h ups M B
        { c with
          vm := vm1,
          current := { func := f, ftype := FTYPE_SCRIPT,
                       locals := [{ name := slot_zero_name FTYPE_SCRIPT, depth := 0,
                                    captured := false }],
                       upvalues := [], scope_depth := 0 } :: c.current } ∧
      payload_at vm1.heap f = some (obj_payload.obj_func 0 0 init_chunk none) ∧
      c.vm.heap f = none := by
  obtain ⟨l, n, hi, hl, hn, hm⟩ := hinv.heap
  have ha : c.vm.heap (h.fresh c.vm.heap) = none :=
    hinv.alloc c.vm.heap l
      (fun x hx => by
        obtain ⟨o, ho⟩ := Option.ne_none_iff_exists'.1 hx
        exact hi.ready.dom x o ho)
      (by omega)
  obtain ⟨vm1, l1, hr1, hinv1, hlen1, hs1⟩ :=
    intern_reallocate h.sz hi hinv.fuel (by omega) 0 h.sz.obj_func
  have ha1 : vm1.heap (h.fresh c.vm.heap) = none := hs1.fresh _ ha
  have hstep1 := heap_step_of_gc hs1 hinv1
  have hinv2 := with_object_inv (obj_payload.obj_func 0 0 init_chunk none) hinv1 ha1
    (by
      intro b hb
      simp [obj_edges, init_chunk, init_value_array] at hb)
  have hold : ∀ x, x ≠ h.fresh c.vm.heap →
      (with_object vm1 (h.fresh c.vm.heap) (obj_payload.obj_func 0 0 init_chunk none)).heap x
        = vm1.heap x := by
    intro x hx
    show Function.update vm1.heap _ _ x = _
    rw [Function.update_noteq hx]
  have hnew : payload_at (with_object vm1 (h.fresh c.vm.heap)
      (obj_payload.obj_func 0 0 init_chunk none)).heap (h.fresh c.vm.heap)
      = some (obj_payload.obj_func 0 0 init_chunk none) := by
    unfold payload_at with_object
    simp only [Function.update_same, Option.map_some']
  -- the functions of the chain, in the new heap
  have hchain : ∀ k ∈ c.current, k.func ≠ h.fresh c.vm.heap ∧
      ∃ (ar uc : Nat) (chk : chunk) (nm : Option Nat),
        payload_at (with_object vm1 (h.fresh c.vm.heap)
          (obj_payload.obj_func 0 0 init_chunk none)).heap k.func
          = some (obj_payload.obj_func ar uc chk nm) ∧ chunk_ok chk := by
    intro k hk
    obtain ⟨hroot, ar, uc, chk, nm, hp, hok⟩ := hinv.funcs k hk
    have hne : k.func ≠ h.fresh c.vm.heap := by
      intro e
      rw [e] at hp
      unfold payload_at at hp
      rw [ha] at hp
      cases hp
    refine ⟨hne, ar, uc, chk, nm, ?_, hok⟩
    unfold payload_at
    rw [hold k.func hne]
    have := hstep1.payload k.func (reachable_root hroot) (by simp)
    unfold payload_at at this
    rw [this]
    exact hp
  have hinv3 : intern_inv
      { with_object vm1 (h.fresh c.vm.heap) (obj_payload.obj_func 0 0 init_chunk none) with
        compilers := some (h.fresh c.vm.heap) :: c.current.map (fun k => some k.func),
        stdout := vm1.stdout ++ [out_item.text (func_type_text FTYPE_SCRIPT)] }
      (h.fresh c.vm.heap :: l1) ups n := by
    refine intern_inv_restack hinv2 rfl rfl rfl rfl rfl ?_
    intro b hb
    rcases (root_ptrs_compilers _ ups _ (some b)).1 hb with hb1 | hb1
    · exact hinv2.ready.roots_valid b (root_ptrs_compilers_old _ ups _ hb1)
    · rcases List.mem_cons.1 hb1 with hb2 | hb2
      · cases hb2
        intro hnone
        have := hnew
        unfold payload_at at this
        rw [hnone] at this
        cases this
      · obtain ⟨k, hk, hkb⟩ := List.mem_map.1 hb2
        cases hkb
        obtain ⟨_, ar, uc, chk, nm, hp, _⟩ := hchain k hk
        intro hnone
        unfold payload_at at hp
        rw [hnone] at hp
        cases hp
  refine ⟨_, h.fresh c.vm.heap, ?_, ⟨hinv.fuel, hinv.alloc,
    ⟨_, n, hinv3, by simp only [List.length_cons]; omega, by omega,
      by simp only [List.length_cons]; omega⟩, ?_, ?_⟩, hnew, ha⟩
  · unfold init_compiler new_func
    rw [allocate_object_eq h.sz (obj_payload.obj_func 0 0 init_chunk none) hr1 ha1]
    simp only [Option.bind_eq_bind, Option.some_bind, ne_eq, not_true_eq_false, if_false,
      set_chain, List.head?_cons, set_compiler, List.tail_cons, List.nil_append, reduceCtorEq,
      not_false_eq_true, if_true, print_out, List.map_cons]
    rfl
  · show vm1.stack_top < STACK_MAX
    rw [hstep1.top]
    exact hinv.stack
  · intro k hk
    rcases List.mem_cons.1 hk with hk1 | hk1
    · subst hk1
      refine ⟨(root_ptrs_compilers _ ups _ _).2 (Or.inr (List.mem_cons_self _ _)),
        0, 0, init_chunk, none, hnew, rfl, rfl, rfl⟩
    · obtain ⟨_, ar, uc, chk, nm, hp, hok⟩ := hchain k hk1
      exact ⟨(root_ptrs_compilers _ ups _ _).2
        (Or.inr (List.mem_cons_of_mem _ (List.mem_map.2 ⟨k, hk1, rfl⟩))),
        ar, uc, chk, nm, hp, hok⟩

/-! ### A concrete state of the compiler -/

theorem vm_of_chunk_inv (chk : chunk)
    (hconst : ∀ v ∈ chk.consts.values, value_ptr v = none) :
    intern_inv (vm_of_chunk chk) [1] [] 0 := by
  have h1 := with_object_inv (obj_payload.obj_func 0 0 chk none) zero_vm_inv
    (show zero_vm.heap 1 = none from rfl)
    (by
      intro b hb
      simp only [obj_edges, List.mem_cons, List.mem_map] at hb
      rcases hb with hb | ⟨v, hv, hvb⟩
      · cases hb
      · rw [hconst v (List.mem_of_mem_take hv)] at hvb
        cases hvb)
  have hheap : (vm_of_chunk chk).heap
      = (with_object zero_vm 1 (obj_payload.obj_func 0 0 chk none)).heap := by
    funext a
    unfold vm_of_chunk with_object
    by_cases ha : a = 1
    · subst ha
      simp only [if_true, Function.update_same]
      rfl
    · simp only [if_neg ha, Function.update_noteq ha]
      rfl
  refine intern_inv_restack h1 hheap rfl rfl rfl rfl ?_
  intro b hb
  have hb1 : b = 1 := by
    simpa [root_ptrs, vm_of_chunk, zero_vm, table_ptrs, init_table] using hb
  rw [hb1]
  simp [with_object]

theorem state_of_chunk_inv (chk : chunk) (tok : token) (hok : chunk_ok chk)
    (hconst : ∀ v ∈ chk.consts.values, value_ptr v = none) {B : Nat} (hB : B ≤ 1000) :
    compile_inv host_lp64 [] 1024 B (state_of_chunk chk tok) := by
  refine ⟨by decide, first_free_fresh, ⟨[1], 0, vm_of_chunk_inv chk hconst, ?_, ?_, ?_⟩,
    Nat.zero_lt_succ _, ?_⟩
  · show 1 + 0 + B < 2 ^ 32
    omega
  · omega
  · show 1 + B < 1024
    omega
  · intro k hk
    have hk1 : k = script_compiler := by simpa [state_of_chunk] using hk
    subst hk1
    refine ⟨by simp [root_ptrs, state_of_chunk, start_state, vm_of_chunk, script_compiler],
      0, 0, chk, none, rfl, hok⟩

theorem state_of_chunk_payload (chk : chunk) (tok : token) :
    payload_at (state_of_chunk chk tok).vm.heap script_compiler.func
      = some (obj_payload.obj_func 0 0 chk none) := rfl

theorem filled_chunk_ok (n m : Nat) : chunk_ok (filled_chunk n m) := by
  simp [chunk_ok, filled_chunk]

theorem filled_chunk_consts (n m : Nat) :
    ∀ v ∈ (filled_chunk n m).consts.values, value_ptr v = none := by
  intro v hv
  simp only [filled_chunk, List.mem_replicate] at hv
  rw [hv.2]
  rfl

/-- What `compile` returns is null iff `had_error` is set when it returns. -/
theorem compile_null_iff_had_error {h : host} {steps : Nat} {c c1 : compile_state}
    {source : List Nat} {r : Option Nat} (hrun : compile h steps c source = some (c1, r)) :
    r = none ↔ c1.parser.had_error = true := by
  obtain ⟨ds, _, h1, h2⟩ := compile_reports hrun
  rw [h1, h2]

theorem reports_had_error {c c1 : compile_state} (h : reports c c1)
    (he : c.parser.had_error = true) : c1.parser.had_error = true := by
  obtain ⟨⟨ds, _, hiff⟩, _⟩ := h
  exact hiff.2 (Or.inl he)

/-- C25: under the invariant of the compiler, in a chunk with fewer than 2^31
constants (from there on the index, an `int32` in compiler.c, is negative or
wraps), `make_constant` returns and appends the value to the constants of the
chunk of the current function.  If the chunk held fewer than 256 constants,
the result is the index of the value, the number of constants before the call
(so the first 256 constants get the indices 0 to 255), and nothing is
reported.  If it held 256 or more,
`had_error` is set afterwards (the report "Too many constants in one chunk" is
written unless panic mode suppresses it, in which case an error has been
reported before), and it stays set in every state the compiler reaches from
there, every function of the recursive descent satisfying `reports`; and
`compile` returns null iff `had_error` is set when it returns. -/
theorem make_constant_limit (h : host) {ups : List Nat} {M B : Nat} {c : compile_state}
    {k : compiler_t} {rest : List compiler_t} {ar uc : Nat} {chk : chunk} {nm : Option Nat}
    (val : value) (hinv : compile_inv h ups M B c) (hk : c.current = k :: rest)
    (hp : payload_at c.vm.heap k.func = some (obj_payload.obj_func ar uc chk nm))
    (hv : ∀ b, value_ptr val = some b → c.vm.heap b ≠ none)
    (hpanic : c.parser.panic_mode = true → c.parser.had_error = true)
    (hsize : chk.consts.count < 2 ^ 31) :
    (∃ (c1 : compile_state) (r cap : Nat),
      make_constant h c val = some (c1, r) ∧ compile_inv h ups M B c1 ∧
      payload_at c1.vm.heap k.func = some (obj_payload.obj_func ar uc
        { chk with consts := { capacity := cap, count := chk.consts.count + 1,
                               values := chk.consts.values ++ [val] } } nm) ∧
      (chk.consts.count < 256 →
        r = chk.consts.count ∧ c1.stderr = c.stderr ∧ c1.parser = c.parser) ∧
      (256 ≤ chk.consts.count →
        r = 0 ∧ c1.parser.had_error = true ∧
        (c.parser.panic_mode = false →
          c1.stderr = c.stderr ++ [too_many_constants c.parser.previous]) ∧
        ∀ c2, reports c1 c2 → c2.parser.had_error = true)) ∧
    (∀ n : Nat, reports_all h n) ∧
    (∀ (steps : Nat) (c0 c3 : compile_state) (source : List Nat) (r : Option Nat),
      compile h steps c0 source = some (c3, r) → (r = none ↔ c3.parser.had_error = true)) := by
  refine ⟨?_, reports_all_holds h, fun _ _ _ _ _ hrun => compile_null_iff_had_error hrun⟩
  obtain ⟨vm1, cap, hle, hgt, hcinv, _, hp1, _⟩ := make_constant_ok h val hinv hk hp hv
  by_cases hc : chk.consts.count < 256
  · refine ⟨{ c with vm := vm1 }, chk.consts.count, cap, hle (by omega), hcinv, hp1,
      fun _ => ⟨rfl, rfl, rfl⟩, fun h256 => by omega⟩
  · have hinv2 : compile_inv h ups M B (error { c with vm := vm1 }
        (bytes_of "Too many constants in one chunk! Maximum %d\n") [[255]]) := by
      refine compile_inv_congr hcinv ?_ ?_
      · unfold error error_at
        split <;> rfl
      · unfold error error_at
        split <;> rfl
    have hvm : (error { c with vm := vm1 }
        (bytes_of "Too many constants in one chunk! Maximum %d\n") [[255]]).vm = vm1 := by
      unfold error error_at
      split <;> rfl
    have herr : (error { c with vm := vm1 }
        (bytes_of "Too many constants in one chunk! Maximum %d\n") [[255]]).parser.had_error
        = true := by
      by_cases hpm : c.parser.panic_mode = true
      · have := hpanic hpm
        simp only [error, error_at, hpm, if_true]
        exact this
      · simp only [error, error_at, hpm, Bool.false_eq_true, if_false]
    refine ⟨_, 0, cap, hgt (by omega) hsize, hinv2, by rw [hvm]; exact hp1,
      fun h256 => by omega,
      fun _ => ⟨rfl, herr, ?_, fun c2 h2 => reports_had_error h2 herr⟩⟩
    intro hpm
    simp only [error, error_at, hpm, Bool.false_eq_true, if_false, too_many_constants]

theorem make_constant_limit_witness :
    (∃ (c1 : compile_state) (r : Nat),
      make_constant host_lp64 (state_of_chunk (filled_chunk 0 255) zero_token)
        (value.bool true) = some (c1, r) ∧ r = 255 ∧ c1.stderr = []) ∧
    (∃ (c1 : compile_state) (r : Nat),
      make_constant host_lp64 (state_of_chunk (filled_chunk 0 256) zero_token)
        (value.bool true) = some (c1, r) ∧ r = 0 ∧ c1.parser.had_error = true ∧
      c1.stderr = [too_many_constants zero_token]) := by
  constructor
  · obtain ⟨⟨c1, r, cap, hrun, _, _, hlt, _⟩, _⟩ :=
      @make_constant_limit host_lp64 [] 1024 0 (state_of_chunk (filled_chunk 0 255) zero_token)
        script_compiler [] 0 0 (filled_chunk 0 255) none (value.bool true)
        (state_of_chunk_inv _ _ (filled_chunk_ok 0 255) (filled_chunk_consts 0 255)
          (by decide))
        rfl (state_of_chunk_payload _ _) (fun b hb => by cases hb) (fun hpm => by cases hpm)
        (by decide)
    obtain ⟨hr, herr, _⟩ := hlt (by decide)
    exact ⟨c1, r, hrun, hr, herr⟩
  · obtain ⟨⟨c1, r, cap, hrun, _, _, _, hge⟩, _⟩ :=
      @make_constant_limit host_lp64 [] 1024 0 (state_of_chunk (filled_chunk 0 256) zero_token)
        script_compiler [] 0 0 (filled_chunk 0 256) none (value.bool true)
        (state_of_chunk_inv _ _ (filled_chunk_ok 0 256) (filled_chunk_consts 0 256)
          (by decide))
        rfl (state_of_chunk_payload _ _) (fun b hb => by cases hb) (fun hpm => by cases hpm)
        (by decide)
    obtain ⟨hr, herr, hrep, _⟩ := hge (by decide)
    exact ⟨c1, r, hrun, hr, herr, hrep rfl⟩

/-! ### The limits of jumps and loops -/

/-- Function `patch_jump` under the invariant of the compiler, at an operand
that lies in the chunk, for a distance below 2^31 (which the conversion to
`int32` keeps). -/
theorem patch_jump_ok (h : host) {ups : List Nat} {M B : Nat} {c : compile_state}
    {k : compiler_t} {rest : List compiler_t} {ar uc : Nat} {chk : chunk} {nm : Option Nat}
    (offset : Nat) (hinv : compile_inv h ups M B c) (hk : c.current = k :: rest)
    (hp : payload_at c.vm.heap k.func = some (obj_payload.obj_func ar uc chk nm))
    (hoff : offset + 2 ≤ chk.count) (hsize : chk.count - offset - 2 < 2 ^ 31) :
    ∃ vm1 : VM,
      patch_jump c offset = some
        { (if chk.count - offset - 2 > 65535 then
            error c (bytes_of "Too much code to jump over! offset = %d")
              [[chk.count - offset - 2]] else c) with vm := vm1 } ∧
      compile_inv h ups M B { c with vm := vm1 } ∧
      payload_at vm1.heap k.func = some (obj_payload.obj_func ar uc
        { chk with code := (List.set
            (List.set chk.code offset (((chk.count - offset - 2) / 256) % 256))
            (offset + 1) ((chk.count - offset - 2) % 256)) } nm) := by
  obtain ⟨l, n, hi, hl, hn, hm⟩ := hinv.heap
  obtain ⟨hroot, ar1, uc1, chk1, nm1, hp1, hok⟩ :=
    hinv.funcs k (by rw [hk]; exact List.mem_cons_self _ _)
  rw [hp] at hp1
  cases hp1
  obtain ⟨o, ho, hpo⟩ := payload_at_some hp
  have hlen : offset + 1 < chk.code.length := by rw [hok.1]; omega
  have hedge : obj_edges (obj_payload.obj_func ar uc
      { chk with code := (List.set
          (List.set chk.code offset (((chk.count - offset - 2) / 256) % 256))
          (offset + 1) ((chk.count - offset - 2) % 256)) } nm) = obj_edges o.payload := by
    rw [hpo]
    exact func_edges_code ar uc ar uc chk _ nm rfl
  obtain ⟨hinv1, hs1⟩ := func_rewrite_ok
    (obj_payload.obj_func ar uc
      { chk with code := (List.set
          (List.set chk.code offset (((chk.count - offset - 2) / 256) % 256))
          (offset + 1) ((chk.count - offset - 2) % 256)) } nm)
    hi ho hpo
    (by
      intro b hb
      rw [hedge] at hb
      exact hi.ready.edges_valid k.func o ho b hb)
    (by
      intro b hb
      rw [hedge]
      exact hb)
  refine ⟨set_payload c.vm k.func o (obj_payload.obj_func ar uc
      { chk with code := (List.set
          (List.set chk.code offset (((chk.count - offset - 2) / 256) % 256))
          (offset + 1) ((chk.count - offset - 2) % 256)) } nm), ?_, ?_,
    set_payload_at_eq _ _ _ _⟩
  · have e0 : int32_of ((chk.count : Int) - (offset : Int) - 2) =
        ((chk.count - offset - 2 : Nat) : Int) := by
      rw [← int32_of_small _ hsize]
      congr 1
      omega
    have hcond : 0 ≤ (offset : Int) ∧ (offset : Int).toNat + 1 < chk.code.length :=
      ⟨by omega, by omega⟩
    unfold patch_jump
    rw [hk]
    simp only [List.head?_cons, Option.bind_eq_bind, Option.some_bind,
      func_chunk_of_payload hp]
    rw [e0, if_pos hcond]
    simp only [Int.toNat_ofNat, toNat_high_byte, toNat_emod_256]
    by_cases hj : chk.count - offset - 2 > 65535
    · rw [if_pos (show ((chk.count - offset - 2 : Nat) : Int) > 65535 by omega), if_pos hj]
      simp only [(error_frame c _ _).1, set_func_chunk_of_payload ho hpo, Option.some_bind]
    · rw [if_neg (show ¬ ((chk.count - offset - 2 : Nat) : Int) > 65535 by omega), if_neg hj]
      simp only [set_func_chunk_of_payload ho hpo, Option.some_bind]
  · refine compile_inv_step hinv hinv1 hl hn hm hs1 ?_
    intro k1 _ hk1
    have e : k1.func = k.func := Option.some.inj hk1
    rw [e]
    exact ⟨ar, uc, _, nm, set_payload_at_eq _ _ _ _, by simp [hok.1], hok.2.1, hok.2.2⟩

/-- Function `emit_loop` under the invariant of the compiler, back to a
position that is not behind the `OP_LOOP` it emits, for a distance below 2^31
(which the conversion to `int32` keeps). -/
theorem emit_loop_ok (h : host) {ups : List Nat} {M B : Nat} {c : compile_state}
    {k : compiler_t} {rest : List compiler_t} {ar uc : Nat} {chk : chunk} {nm : Option Nat}
    (loop_start : Nat) (hinv : compile_inv h ups M B c) (hk : c.current = k :: rest)
    (hp : payload_at c.vm.heap k.func = some (obj_payload.obj_func ar uc chk nm))
    (hls : loop_start ≤ chk.count + 1) (hsize : chk.count + 1 - loop_start + 2 < 2 ^ 31) :
    ∃ (vm1 : VM) (cap : Nat),
      emit_loop h c loop_start = some
        { (if chk.count + 1 - loop_start + 2 > 65535 then
            error c (bytes_of "Loop body too large! Maximum %d ops\n") [[65535]]
           else c) with vm := vm1 } ∧
      compile_inv h ups M B { c with vm := vm1 } ∧
      payload_at vm1.heap k.func = some (obj_payload.obj_func ar uc
        { chk with capacity := cap,
                   code := chk.code ++ [OP_LOOP, ((chk.count + 1 - loop_start + 2) / 256) % 256,
                                        (chk.count + 1 - loop_start + 2) % 256],
                   lines := chk.lines ++ [c.parser.previous.line, c.parser.previous.line,
                                          c.parser.previous.line],
                   count := chk.count + 3 } nm) := by
  obtain ⟨vm1, hr1, hinv1, _, hp1⟩ := emit_byte_ok h OP_LOOP hinv hk
  obtain ⟨cap1, hp1⟩ := hp1 ar uc chk nm hp
  have hchk : current_chunk { c with vm := vm1 } = some
      { chk with capacity := cap1, code := chk.code ++ [OP_LOOP % 256],
                 lines := chk.lines ++ [c.parser.previous.line], count := chk.count + 1 } := by
    unfold current_chunk
    simp only [hk, List.head?_cons]
    exact func_chunk_of_payload hp1
  -- the state after the possible report
  have hstep : ∀ c2 : compile_state, c2.vm = vm1 → c2.current = c.current →
      c2.parser.previous = c.parser.previous →
      ∃ (vm3 : VM) (cap : Nat),
        (do
          let c3 ← emit_byte h c2 (((chk.count + 1 - loop_start + 2) / 256) % 256)
          emit_byte h c3 ((chk.count + 1 - loop_start + 2) % 256)) = some { c2 with vm := vm3 } ∧
        compile_inv h ups M B { c with vm := vm3 } ∧
        payload_at vm3.heap k.func = some (obj_payload.obj_func ar uc
          { chk with capacity := cap,
                     code := chk.code ++ [OP_LOOP, ((chk.count + 1 - loop_start + 2) / 256) % 256,
                                          (chk.count + 1 - loop_start + 2) % 256],
                     lines := chk.lines ++ [c.parser.previous.line, c.parser.previous.line,
                                            c.parser.previous.line],
                     count := chk.count + 3 } nm) := by
    intro c2 hvm2 hcur2 hprev2
    have hinv2 : compile_inv h ups M B c2 := compile_inv_congr hinv1 hvm2 hcur2
    have hk2 : c2.current = k :: rest := by rw [hcur2]; exact hk
    obtain ⟨vm3, hr3, hinv3, _, hp3⟩ := emit_bytes_ok h
      (((chk.count + 1 - loop_start + 2) / 256) % 256) ((chk.count + 1 - loop_start + 2) % 256)
      hinv2 hk2
    obtain ⟨cap3, hp3⟩ := hp3 ar uc _ nm (by rw [hvm2]; exact hp1)
    refine ⟨vm3, cap3, ?_, compile_inv_congr hinv3 rfl hcur2.symm, ?_⟩
    · unfold emit_bytes at hr3
      exact hr3
    · rw [hp3, hprev2]
      simp [OP_LOOP, Nat.mod_mod]
  have e0 : int32_of (((chk.count + 1 : Nat) : Int) - (loop_start : Int) + 2) =
      ((chk.count + 1 - loop_start + 2 : Nat) : Int) := by
    rw [← int32_of_small _ hsize]
    congr 1
    omega
  unfold emit_loop
  rw [hr1]
  simp only [Option.bind_eq_bind, Option.some_bind]
  rw [hchk]
  simp only [Option.some_bind]
  rw [e0]
  simp only [toNat_high_byte, toNat_emod_256]
  by_cases hj : chk.count + 1 - loop_start + 2 > 65535
  · rw [if_pos (show ((chk.count + 1 - loop_start + 2 : Nat) : Int) > 65535 by omega)]
    simp only [if_pos hj]
    obtain ⟨vm3, cap, hr3, hinv3, hp3⟩ := hstep
      (error { c with vm := vm1 } (bytes_of "Loop body too large! Maximum %d ops\n") [[65535]])
      (error_frame _ _ _).1 (error_frame _ _ _).2.1 (error_frame _ _ _).2.2
    refine ⟨vm3, cap, ?_, hinv3, hp3⟩
    simp only [Option.bind_eq_bind] at hr3
    rw [hr3]
    unfold error error_at
    split <;> rfl
  · rw [if_neg (show ¬ ((chk.count + 1 - loop_start + 2 : Nat) : Int) > 65535 by omega)]
    simp only [if_neg hj]
    obtain ⟨vm3, cap, hr3, hinv3, hp3⟩ := hstep { c with vm := vm1 } rfl rfl rfl
    refine ⟨vm3, cap, ?_, hinv3, hp3⟩
    simp only [Option.bind_eq_bind] at hr3
    rw [hr3]

theorem current_chunk_of {c : compile_state} {k : compiler_t} {rest : List compiler_t}
    {chk : chunk} (hk : c.current = k :: rest) (hc : func_chunk c.vm k.func = some chk) :
    current_chunk c = some chk := by
  unfold current_chunk
  simp only [hk, List.head?_cons]
  exact hc

/-- Function `string` of compiler.c under the invariant of the compiler: it
returns, the string object with the bytes of the lexeme without its first byte
is interned afterwards and has been appended to the constants of the chunk. -/
theorem compiler_string_ok (h : host) {ups : List Nat} {M B : Nat} {c : compile_state}
    {k : compiler_t} {rest : List compiler_t} {ar uc : Nat} {chk : chunk} {nm : Option Nat}
    (hinv : compile_inv h ups M (B + 1) c) (hk : c.current = k :: rest)
    (hp : payload_at c.vm.heap k.func = some (obj_payload.obj_func ar uc chk nm)) :
    ∃ (c1 : compile_state) (s cap1 cap2 idx : Nat),
      compiler.string h c = some c1 ∧ compile_inv h ups M B c1 ∧
      c1.current = c.current ∧
      interned c1.vm s ((c.parser.previous.start.drop 1).take (c.parser.previous.len - 1)) ∧
      payload_at c1.vm.heap k.func = some (obj_payload.obj_func ar uc
        { capacity := cap2, count := chk.count + 2,
          code := chk.code ++ [OP_CONSTANT, idx],
          lines := chk.lines ++ [c.parser.previous.line, c.parser.previous.line],
          consts := { capacity := cap1, count := chk.consts.count + 1,
                      values := chk.consts.values ++ [value.obj s] } } nm) ∧
      (chk.consts.count ≤ 255 →
        idx = chk.consts.count ∧ c1.stderr = c.stderr ∧ c1.parser = c.parser) := by
  obtain ⟨l, n, hi, hl, hn, hm⟩ := hinv.heap
  obtain ⟨hroot, ar2, uc2, chk2, nm2, hp2, hok⟩ :=
    hinv.funcs k (by rw [hk]; exact List.mem_cons_self _ _)
  rw [hp] at hp2
  cases hp2
  have ha : c.vm.heap (h.fresh c.vm.heap) = none :=
    hinv.alloc c.vm.heap l
      (fun x hx => by
        obtain ⟨o, ho⟩ := Option.ne_none_iff_exists'.1 hx
        exact hi.ready.dom x o ho)
      (by omega)
  obtain ⟨vm1, l1, s, hrun1, hinv1, hlen1, hint1, hs1, _⟩ :=
    copy_string_ok h.sz ((c.parser.previous.start.drop 1).take (c.parser.previous.len - 1))
      hi (by omega) hinv.fuel (by omega) ha hinv.stack
  have hcinv1 : compile_inv h ups M B { c with vm := vm1 } :=
    compile_inv_step (compile_inv_mono hinv (Nat.le_succ B)) hinv1 (by omega) (by omega)
      (by omega) (heap_step_of_intern hs1) (fun _ _ hk1 => by cases hk1)
  have hp1 : payload_at vm1.heap k.func = some (obj_payload.obj_func ar uc chk nm) := by
    rw [(heap_step_of_intern hs1).payload k.func (reachable_root hroot) (by simp)]
    exact hp
  have hs_alloc : vm1.heap s ≠ none := by
    have := hint1.2
    unfold string_data at this
    intro hnone
    rw [hnone] at this
    cases this
  obtain ⟨vm2, cap1, hle, _, hcinv2, hs2, hp2, hkeep2, cm, im, hmk, him, hvmm, hcurm,
      hprevm⟩ :=
    @make_constant_ok h ups M B { c with vm := vm1 } k rest ar uc chk nm (value.obj s)
      hcinv1 hk hp1 (fun b hb => by cases hb; exact hs_alloc)
  have hint2 : interned vm2 s
      ((c.parser.previous.start.drop 1).take (c.parser.previous.len - 1)) :=
    hkeep2 s _ rfl hint1
  have hroot2 : some k.func ∈ root_ptrs vm2 ups :=
    (hcinv2.funcs k (by show k ∈ c.current; rw [hk]; exact List.mem_cons_self _ _)).1
  have hreach2 : reachable vm2 ups s := by
    obtain ⟨o2, ho2, hpo2⟩ := payload_at_some hp2
    refine reachable_edge (reachable_root hroot2) ho2 ?_
    rw [hpo2]
    exact (func_edges_append ar uc chk nm cap1 (value.obj s) hok.2.2 _).2 (Or.inr rfl)
  -- the two bytes of the instruction, from either state `make_constant` returns
  have hemit : ∀ (c2 : compile_state) (idx : Nat), idx < 256 → c2.vm = vm2 →
      c2.current = c.current → c2.parser.previous = c.parser.previous →
      ∃ (vm3 : VM) (cap2 : Nat),
        emit_bytes h c2 OP_CONSTANT idx = some { c2 with vm := vm3 } ∧
        compile_inv h ups M B { c2 with vm := vm3 } ∧
        interned vm3 s ((c.parser.previous.start.drop 1).take (c.parser.previous.len - 1)) ∧
        payload_at vm3.heap k.func = some (obj_payload.obj_func ar uc
          { capacity := cap2, count := chk.count + 2,
            code := chk.code ++ [OP_CONSTANT, idx],
            lines := chk.lines ++ [c.parser.previous.line, c.parser.previous.line],
            consts := { capacity := cap1, count := chk.consts.count + 1,
                        values := chk.consts.values ++ [value.obj s] } } nm) := by
    intro c2 idx hidx hvm hcur hprev
    have hinvc2 : compile_inv h ups M B c2 := compile_inv_congr hcinv2 hvm hcur
    obtain ⟨vm3, hr3, hinv3, hs3, hp3⟩ := emit_bytes_ok h OP_CONSTANT idx hinvc2
      (show c2.current = k :: rest by rw [hcur]; exact hk)
    obtain ⟨cap2, hp3⟩ := hp3 ar uc _ nm (by rw [hvm]; exact hp2)
    refine ⟨vm3, cap2, hr3, hinv3, ?_, ?_⟩
    · exact hs3.keep s _ (by rw [hvm]; exact hint2) (by rw [hvm]; exact hreach2)
    · rw [hp3, hprev, Nat.mod_eq_of_lt hidx]
      rfl
  by_cases hc : chk.consts.count ≤ 255
  · obtain ⟨vm3, cap2, hr3, hinv3, hint3, hp3⟩ :=
      hemit { c with vm := vm2 } chk.consts.count (by omega) rfl rfl rfl
    refine ⟨_, s, cap1, cap2, chk.consts.count, ?_, hinv3, rfl, hint3, hp3,
      fun _ => ⟨rfl, rfl, rfl⟩⟩
    unfold compiler.string emit_constant
    simp only [Option.bind_eq_bind, hrun1, Option.some_bind, hle hc]
    exact hr3
  · obtain ⟨vm3, cap2, hr3, hinv3, hint3, hp3⟩ := hemit cm im him hvmm hcurm hprevm
    refine ⟨_, s, cap1, cap2, im, ?_, hinv3, hcurm, hint3, hp3, fun h255 => absurd h255 hc⟩
    unfold compiler.string emit_constant
    simp only [Option.bind_eq_bind, hrun1, Option.some_bind, hmk]
    exact hr3

/-- C29: at a source text that continues with a double quote, the bytes `s`
(none of them a double quote or the terminating NUL) and a double quote,
`scan_token` returns a `TOKEN_STRING` whose lexeme starts at the opening quote
and whose length is `|s| + 1`, the closing quote excluded, and the scanner is
behind the closing quote.  In every state of the compiler that satisfies its
invariant and has this token as the previous one, the string rule returns, and
the constant it appends to the chunk of the current function is a string object
that is interned with exactly the bytes `s`. -/
theorem string_literal_constant (h : host) (ups : List Nat) (M B : Nat) (vm : VM)
    (sc : scanner_t) (s rest : List Nat) (hs : ∀ b ∈ s, b ≠ 34 ∧ b ≠ 0)
    (hcur : sc.current = 34 :: s ++ 34 :: rest) (hfuel : s.length < h.fuel)
    (hlen : s.length + 2 < 2 ^ 64) :
    ∃ (sc1 : scanner_t) (tok : token),
      scan_token h.sz h.fuel vm sc = some (vm, sc1, tok) ∧
      tok.type = TOKEN_STRING ∧ tok.start = 34 :: s ++ 34 :: rest ∧
      tok.len = s.length + 1 ∧ sc1.current = rest ∧
      ∀ (c : compile_state) (k : compiler_t) (others : List compiler_t) (ar uc : Nat)
        (chk : chunk) (nm : Option Nat),
        compile_inv h ups M (B + 1) c → c.current = k :: others →
        payload_at c.vm.heap k.func = some (obj_payload.obj_func ar uc chk nm) →
        c.parser.previous = tok →
        ∃ (c1 : compile_state) (str : Nat) (chk1 : chunk),
          compiler.string h c = some c1 ∧ compile_inv h ups M B c1 ∧
          interned c1.vm str s ∧ current_chunk c1 = some chk1 ∧
          chk1.consts.count = chk.consts.count + 1 ∧
          chk1.consts.values = chk.consts.values ++ [value.obj str] := by
  obtain ⟨sc1, tok, hrun, htype, hstart, hlen1, hdata, hrest⟩ :=
    scan_token_string h.sz h.fuel vm sc s rest hs hcur hfuel hlen
  refine ⟨sc1, tok, hrun, htype, hstart, hlen1, hrest, ?_⟩
  intro c k others ar uc chk nm hinv hk hp hprev
  obtain ⟨c1, str, cap1, cap2, idx, hrun1, hinv1, hcur1, hint, hp1, _⟩ :=
    compiler_string_ok h hinv hk hp
  rw [hprev, hdata] at hint
  exact ⟨c1, str, _, hrun1, hinv1, hint,
    current_chunk_of (hcur1.trans hk) (func_chunk_of_payload hp1), rfl, rfl⟩

theorem string_literal_constant_witness :
    ∃ (sc1 : scanner_t) (tok : token),
      scan_token host_lp64.sz host_lp64.fuel state_at_string.vm state_at_string.scanner
        = some (state_at_string.vm, sc1, tok) ∧
      tok.type = TOKEN_STRING ∧ tok.len = 3 ∧ sc1.current = [59] ∧
      ∃ (c1 : compile_state) (str : Nat) (chk1 : chunk),
        compiler.string host_lp64
          { state_at_string with parser := { state_at_string.parser with previous := tok } }
          = some c1 ∧
        interned c1.vm str [97, 98] ∧ current_chunk c1 = some chk1 ∧
        chk1.consts.values = [value.obj str] := by
  obtain ⟨sc1, tok, hrun, htype, _, hlen, hrest, hall⟩ :=
    string_literal_constant host_lp64 [] 1024 0 state_at_string.vm state_at_string.scanner
      [97, 98] [59] (by decide) rfl (by decide) (by decide)
  obtain ⟨c1, str, chk1, hrun1, _, hint, hchk, _, hvals⟩ :=
    hall { state_at_string with parser := { state_at_string.parser with previous := tok } }
      script_compiler [] 0 0 (filled_chunk 0 0) none
      (compile_inv_congr
        (state_of_chunk_inv (filled_chunk 0 0) zero_token (filled_chunk_ok 0 0)
          (filled_chunk_consts 0 0) (show 0 + 1 ≤ 1000 by decide)) rfl rfl)
      rfl rfl rfl
  exact ⟨sc1, tok, hrun, htype, hlen, hrest, c1, str, chk1, hrun1, hint, hchk, hvals⟩

/-! ### Tokens behind blanks -/

/-- The loop of `skip_whitespace` consumes the blanks in front of a byte that
is neither white space nor a slash. -/
theorem skip_blanks : ∀ (k : Nat) (rest : List Nat) (sc : scanner_t) (fuel : Nat),
    sc.current = List.replicate k 32 ++ rest →
    (rest.headD 0 ≠ 32 ∧ rest.headD 0 ≠ 13 ∧ rest.headD 0 ≠ 10 ∧ rest.headD 0 ≠ 9 ∧
      rest.headD 0 ≠ 47) →
    k < fuel →
    ∃ sc1, skip_whitespace fuel sc = some sc1 ∧ sc1.current = rest := by
  intro k
  induction k with
  | zero =>
    intro rest sc fuel hcur hrest hf
    obtain ⟨f, rfl⟩ : ∃ f, fuel = f + 1 := ⟨fuel - 1, by omega⟩
    have hcur1 : sc.current = rest := by simpa using hcur
    refine ⟨sc, ?_, hcur1⟩
    have hpeek : scanner.peek sc = rest.headD 0 := by
      unfold scanner.peek
      rw [hcur1]
    unfold skip_whitespace
    simp only [hpeek]
    rw [if_neg (by omega), if_neg hrest.2.2.2.2]
  | succ k ih =>
    intro rest sc fuel hcur hrest hf
    obtain ⟨f, rfl⟩ : ∃ f, fuel = f + 1 := ⟨fuel - 1, by omega⟩
    have hcur1 : sc.current = 32 :: (List.replicate k 32 ++ rest) := by
      rw [hcur, List.replicate_succ]
      rfl
    obtain ⟨sc1, hadv, hc1, _⟩ := scanner_advance_cons sc 32 _ hcur1
    obtain ⟨sc2, hrun, hc2⟩ := ih rest sc1 f hc1 hrest (by omega)
    refine ⟨sc2, ?_, hc2⟩
    have hpeek : scanner.peek sc = 32 := by
      unfold scanner.peek
      rw [hcur1]
      rfl
    unfold skip_whitespace
    simp only [hpeek, true_or, if_true, hadv]
    exact hrun

/-- The fields of the token `make_token` makes of the lexeme `body`. -/
theorem make_token_fields (sc : scanner_t) (body rest : List Nat) (type : token_type)
    (hs : sc.start = body ++ rest) (hc : sc.current = rest) (hlen : body.length < 2 ^ 64)
    (ht : type ≠ TOKEN_STRING) :
    (make_token sc type).type = type ∧ (make_token sc type).len = body.length ∧
    (make_token sc type).start.take (make_token sc type).len = body ∧
    (make_token sc type).line = sc.line ∧ (make_token sc type).column = sc.column := by
  have hl : (make_token sc type).len = body.length := by
    unfold make_token
    simp only
    rw [if_neg ht, hs, hc, List.length_append, Nat.add_sub_cancel, Nat.sub_zero,
      Nat.add_mod_right, Nat.mod_eq_of_lt hlen]
  refine ⟨rfl, hl, ?_, rfl, rfl⟩
  rw [hl]
  show sc.start.take body.length = body
  rw [hs]
  exact List.take_left body rest

/-- The start of `scan_token` at a byte `ch` behind `k` blanks: the blanks
are skipped, the scanner is not at the end, and `advance` returns `ch`. -/
theorem scan_token_head (fuel : Nat) (sc : scanner_t) (k ch : Nat) (rest : List Nat)
    (hcur : sc.current = List.replicate k 32 ++ ch :: rest)
    (hch : ch ≠ 32 ∧ ch ≠ 13 ∧ ch ≠ 10 ∧ ch ≠ 9 ∧ ch ≠ 47 ∧ ch ≠ 0) (hf : k < fuel) :
    ∃ sc1 sc2, skip_whitespace fuel sc = some sc1 ∧
      scanner.is_at_end { sc1 with start := sc1.current } = false ∧
      scanner.advance { sc1 with start := sc1.current } = some (sc2, ch) ∧
      sc2.current = rest ∧ sc2.start = ch :: rest := by
  obtain ⟨sc1, hskip, hc1⟩ := skip_blanks k (ch :: rest) sc fuel hcur
    ⟨hch.1, hch.2.1, hch.2.2.1, hch.2.2.2.1, hch.2.2.2.2.1⟩ hf
  obtain ⟨sc2, hadv, hc2, hs2⟩ :=
    scanner_advance_cons { sc1 with start := sc1.current } ch rest hc1
  refine ⟨sc1, sc2, hskip, ?_, hadv, hc2, by rw [hs2]; exact hc1⟩
  unfold scanner.is_at_end scanner.peek
  simp only [hc1, List.headD_cons, beq_eq_false_iff_ne, ne_eq]
  exact hch.2.2.2.2.2

/-- Function `scan_token` at a word behind `k` blanks: the token has the kind
`keyword_type` gives the word, and the word is its lexeme. -/
theorem scan_token_word (sz : sizeofs) (fuel : Nat) (vm : VM) (sc : scanner_t)
    (k c : Nat) (t rest : List Nat) (hc : is_alpha c = true)
    (ht : ∀ x ∈ t, is_alnum x = true) (hrest : is_alnum (rest.headD 0) = false)
    (hcur : sc.current = List.replicate k 32 ++ c :: t ++ rest)
    (hfuel : k + t.length + 1 < fuel) (hlen : t.length + 1 < 2 ^ 64) :
    ∃ (sc1 : scanner_t) (tok : token),
      scan_token sz fuel vm sc = some (vm, sc1, tok) ∧
      tok.type = keyword_type (c :: t) ∧ tok.len = t.length + 1 ∧
      tok.start.take tok.len = c :: t ∧ sc1.current = rest := by
  have hca := is_alpha_cases hc
  obtain ⟨sc1, sc2, hskip, hend, hadv, hcur2, hstart2⟩ :=
    scan_token_head fuel sc k c (t ++ rest) (by simpa using hcur)
      ⟨by omega, by omega, by omega, by omega, by omega, by omega⟩ (by omega)
  obtain ⟨sc3, hloop, hcur3, hstart3⟩ :=
    identifier_loop_run t rest sc2 fuel ht hrest hcur2 (by omega)
  have hs3 : sc3.start = (c :: t) ++ rest := by
    rw [hstart3, hstart2]
    rfl
  have htype := identifier_type_eq sc3 (c :: t) rest hs3 hcur3 (List.cons_ne_nil _ _)
  obtain ⟨_, h2, h3, _⟩ := make_token_fields sc3 (c :: t) rest (identifier_type sc3) hs3 hcur3
    (by simp only [List.length_cons]; exact hlen)
    (by rw [htype]; exact keyword_type_not_string _)
  refine ⟨sc3, make_token sc3 (identifier_type sc3), ?_, htype, h2, h3, hcur3⟩
  unfold scan_token
  simp only [hskip, hend, hadv, hc, if_true, Bool.false_eq_true, if_false]
  unfold scanner.identifier
  rw [hloop]
  rfl

/-- Function `scan_token` at the end of the source behind `k` blanks. -/
theorem scan_token_eof (sz : sizeofs) (fuel : Nat) (vm : VM) (sc : scanner_t) (k : Nat)
    (hcur : sc.current = List.replicate k 32) (hf : k < fuel) :
    ∃ (sc1 : scanner_t) (tok : token),
      scan_token sz fuel vm sc = some (vm, sc1, tok) ∧ tok.type = TOKEN_EOF ∧
      sc1.current = [] := by
  obtain ⟨sc1, hskip, hc1⟩ := skip_blanks k [] sc fuel (by simpa using hcur)
    ⟨by decide, by decide, by decide, by decide, by decide⟩ hf
  refine ⟨{ sc1 with start := sc1.current },
    make_token { sc1 with start := sc1.current } TOKEN_EOF, ?_, rfl, hc1⟩
  have hend : scanner.is_at_end { sc1 with start := sc1.current } = true := by
    unfold scanner.is_at_end scanner.peek
    simp only [hc1]
    rfl
  unfold scan_token
  simp only [hskip, hend, if_true]

/-- Function `scan_token` at one of the bytes `\x7b`, `\x7d`, `;` and `*`
behind `k` blanks. -/
theorem scan_token_punct (sz : sizeofs) (fuel : Nat) (vm : VM) (sc : scanner_t)
    (k ch : Nat) (rest : List Nat) (type : token_type)
    (hch : (ch = 123 ∧ type = TOKEN_LEFT_BRACE) ∨ (ch = 125 ∧ type = TOKEN_RIGHT_BRACE) ∨
      (ch = 59 ∧ type = TOKEN_SEMICOLON) ∨ (ch = 42 ∧ type = TOKEN_STAR))
    (hcur : sc.current = List.replicate k 32 ++ ch :: rest) (hf : k < fuel) :
    ∃ (sc1 : scanner_t) (tok : token),
      scan_token sz fuel vm sc = some (vm, sc1, tok) ∧ tok.type = type ∧ tok.len = 1 ∧
      tok.start.take tok.len = [ch] ∧ sc1.current = rest := by
  obtain ⟨sc1, sc2, hskip, hend, hadv, hcur2, hstart2⟩ :=
    scan_token_head fuel sc k ch rest hcur (by omega) hf
  have hty : type ≠ TOKEN_STRING := by
    rcases hch with h | h | h | h <;> rw [h.2] <;> decide
  obtain ⟨h1, h2, h3, _⟩ := make_token_fields sc2 [ch] rest type hstart2 hcur2
    (by simp only [List.length_singleton]; decide) hty
  refine ⟨sc2, make_token sc2 type, ?_, h1, h2, h3, hcur2⟩
  unfold scan_token
  simp only [hskip, hend, hadv, Bool.false_eq_true, if_false]
  rcases hch with h | h | h | h <;> rw [h.1, h.2] <;> rfl

/-- Function `scan_token` at an `=` behind `k` blanks that is not followed by
another `=`. -/
theorem scan_token_equal (sz : sizeofs) (fuel : Nat) (vm : VM) (sc : scanner_t)
    (k : Nat) (rest : List Nat) (hrest : rest.headD 0 ≠ 61)
    (hcur : sc.current = List.replicate k 32 ++ 61 :: rest) (hf : k < fuel) :
    ∃ (sc1 : scanner_t) (tok : token),
      scan_token sz fuel vm sc = some (vm, sc1, tok) ∧ tok.type = TOKEN_EQUAL ∧ tok.len = 1 ∧
      tok.start.take tok.len = [61] ∧ sc1.current = rest := by
  obtain ⟨sc1, sc2, hskip, hend, hadv, hcur2, hstart2⟩ :=
    scan_token_head fuel sc k 61 rest hcur (by omega) hf
  obtain ⟨h1, h2, h3, _⟩ := make_token_fields sc2 [61] rest TOKEN_EQUAL hstart2 hcur2
    (by decide) (by decide)
  have hm : scanner.match_ sc2 61 = (sc2, false) := by
    unfold scanner.match_
    by_cases he : scanner.is_at_end sc2 = true
    · rw [if_pos he]
    · have hp : scanner.peek sc2 ≠ 61 := by
        unfold scanner.peek
        rw [hcur2]
        exact hrest
      rw [if_neg he, if_pos hp]
  refine ⟨sc2, make_token sc2 TOKEN_EQUAL, ?_, h1, h2, h3, hcur2⟩
  unfold scan_token
  simp only [hskip, hend, hadv, Bool.false_eq_true, if_false]
  have e1 : is_alpha 61 = false := by decide
  have e2 : is_digit 61 = false := by decide
  simp only [e1, e2, Bool.false_eq_true, if_false, hm]
  rfl

/-! ### Steps of the parser -/

/-- Function `advance` of compiler.c when the scanner returns a token that is
not an error token. -/
theorem advance_token (h : host) (c : compile_state) (sc1 : scanner_t) (tok : token)
    (hscan : scan_token h.sz h.fuel c.vm c.scanner = some (c.vm, sc1, tok))
    (hty : tok.type ≠ TOKEN_ERROR) (hf : 0 < h.fuel) :
    advance h c = some
      { c with scanner := sc1,
               parser := { c.parser with previous := c.parser.current, current := tok } } := by
  obtain ⟨f, hfe⟩ : ∃ f, h.fuel = f + 1 := ⟨h.fuel - 1, by omega⟩
  unfold advance
  rw [hfe]
  unfold advance_loop
  dsimp only
  simp only [Option.bind_eq_bind, hscan, Option.some_bind, ne_eq, hty, not_false_eq_true,
    if_true]

theorem match_no (h : host) (c : compile_state) (type : token_type)
    (hne : c.parser.current.type ≠ type) : match_ h c type = some (c, false) := by
  unfold match_ check
  simp only [hne, decide_False, Bool.not_false, if_true]

theorem match_yes (h : host) (c c1 : compile_state) (type : token_type)
    (heq : c.parser.current.type = type) (hadv : advance h c = some c1) :
    match_ h c type = some (c1, true) := by
  unfold match_ check
  simp only [heq, decide_True, Bool.not_true, Bool.false_eq_true, if_false, hadv,
    Option.map_some']

theorem consume_yes (h : host) (c : compile_state) (type : token_type) (msg : List Nat)
    (heq : c.parser.current.type = type) : consume h c type msg = advance h c := by
  unfold consume
  rw [if_pos heq]

theorem consume_adv (h : host) (c c1 : compile_state) (type : token_type) (msg : List Nat)
    (hadv : advance h c = some c1) (heq : c.parser.current.type = type) :
    consume h c type msg = some c1 := by
  rw [consume_yes h c type msg heq, hadv]

theorem consume_no (h : host) (c : compile_state) (type : token_type) (msg : List Nat)
    (hne : c.parser.current.type ≠ type) :
    consume h c type msg = some (error_at c c.parser.current msg []) := by
  unfold consume
  rw [if_neg hne]

theorem identifiers_equal_same {a b : token} {ta tb : token_type} {w : List Nat}
    (ha : lexeme_is a ta w) (hb : lexeme_is b tb w) : identifiers_equal a b = true := by
  unfold identifiers_equal
  rw [if_neg (by rw [ha.2.1, hb.2.1]; simp)]
  have e : b.start.take a.len = w := by
    rw [ha.2.1, ← hb.2.1]
    exact hb.2.2
  simp only [ha.2.2, e, decide_True]

theorem identifiers_equal_other {a b : token} {ta tb : token_type} {w v : List Nat}
    (ha : lexeme_is a ta w) (hb : lexeme_is b tb v) (hne : w ≠ v) :
    identifiers_equal a b = false := by
  unfold identifiers_equal
  by_cases hl : a.len ≠ b.len
  · rw [if_pos hl]
  · rw [if_neg hl]
    have hl2 : a.len = b.len := not_not.1 hl
    have e : b.start.take a.len = v := by
      rw [hl2]
      exact hb.2.2
    simp only [ha.2.2, e, hne, decide_False]

theorem slot_zero_lexeme : lexeme_is (slot_zero_name FTYPE_SCRIPT) TOKEN_IDENTIFIER
    (bytes_of "this") := by
  refine ⟨rfl, rfl, rfl⟩

theorem identifier_not_this {x : List Nat} (hx : is_identifier x) : x ≠ bytes_of "this" := by
  obtain ⟨_, _, _, _, _, hk⟩ := hx
  intro he
  apply hk
  rw [he]
  decide

theorem identifier_type_of {x : List Nat} (hx : is_identifier x) :
    keyword_type x = TOKEN_IDENTIFIER := by
  obtain ⟨c, t, he, _, _, hk⟩ := hx
  rw [he] at hk ⊢
  exact (keyword_type_identifier (c :: t)).2 hk

/-- Function `advance` of compiler.c in front of an identifier behind `k`
blanks. -/
theorem advance_identifier (h : host) (c : compile_state) (k : Nat) (x rest : List Nat)
    (hx : is_identifier x) (hrest : is_alnum (rest.headD 0) = false)
    (hcur : c.scanner.current = List.replicate k 32 ++ x ++ rest)
    (hfuel : k + x.length < h.fuel) (hlen : x.length < 2 ^ 64) :
    ∃ (sc1 : scanner_t) (tok : token),
      advance h c = some
        { c with scanner := sc1,
                 parser := { c.parser with previous := c.parser.current, current := tok } } ∧
      lexeme_is tok TOKEN_IDENTIFIER x ∧ sc1.current = rest := by
  have hty := identifier_type_of hx
  obtain ⟨ch, t, he, hch, ht, _⟩ := hx
  subst he
  obtain ⟨sc1, tok, hscan, h1, h2, h3, h4⟩ :=
    scan_token_word h.sz h.fuel c.vm c.scanner k ch t rest hch ht hrest
      (by rw [hcur]) (by simp only [List.length_cons] at hfuel; omega)
      (by simp only [List.length_cons] at hlen; omega)
  rw [hty] at h1
  exact ⟨sc1, tok, advance_token h c sc1 tok hscan (by rw [h1]; decide) (by omega),
    ⟨h1, by rw [h2]; rfl, h3⟩, h4⟩

/-- Function `advance` of compiler.c in front of the keyword `var` behind `k`
blanks. -/
theorem advance_var (h : host) (c : compile_state) (k : Nat) (rest : List Nat)
    (hrest : is_alnum (rest.headD 0) = false)
    (hcur : c.scanner.current = List.replicate k 32 ++ bytes_of "var" ++ rest)
    (hfuel : k + 3 < h.fuel) :
    ∃ (sc1 : scanner_t) (tok : token),
      advance h c = some
        { c with scanner := sc1,
                 parser := { c.parser with previous := c.parser.current, current := tok } } ∧
      tok.type = TOKEN_VAR ∧ sc1.current = rest := by
  obtain ⟨sc1, tok, hscan, h1, _, _, h4⟩ :=
    scan_token_word h.sz h.fuel c.vm c.scanner k 118 [97, 114] rest (by decide) (by decide)
      hrest (by rw [hcur]; rfl) (by simp only [List.length_cons, List.length_nil]; omega)
      (by decide)
  have hty : tok.type = TOKEN_VAR := by
    rw [h1]
    decide
  exact ⟨sc1, tok, advance_token h c sc1 tok hscan (by rw [hty]; decide) (by omega), hty, h4⟩

/-- Function `advance` of compiler.c in front of one of the bytes `\x7b`,
`\x7d`, `;` and `*` behind `k` blanks. -/
theorem advance_punct (h : host) (c : compile_state) (k ch : Nat) (rest : List Nat)
    (type : token_type)
    (hch : (ch = 123 ∧ type = TOKEN_LEFT_BRACE) ∨ (ch = 125 ∧ type = TOKEN_RIGHT_BRACE) ∨
      (ch = 59 ∧ type = TOKEN_SEMICOLON) ∨ (ch = 42 ∧ type = TOKEN_STAR))
    (hcur : c.scanner.current = List.replicate k 32 ++ ch :: rest) (hf : k < h.fuel) :
    ∃ (sc1 : scanner_t) (tok : token),
      advance h c = some
        { c with scanner := sc1,
                 parser := { c.parser with previous := c.parser.current, current := tok } } ∧
      tok.type = type ∧ sc1.current = rest := by
  obtain ⟨sc1, tok, hscan, h1, _, _, h4⟩ :=
    scan_token_punct h.sz h.fuel c.vm c.scanner k ch rest type hch hcur hf
  refine ⟨sc1, tok, advance_token h c sc1 tok hscan ?_ (by omega), h1, h4⟩
  rw [h1]
  rcases hch with h | h | h | h <;> rw [h.2] <;> decide

/-- Function `advance` of compiler.c in front of an `=` behind `k` blanks that
is not followed by another `=`. -/
theorem advance_equal (h : host) (c : compile_state) (k : Nat) (rest : List Nat)
    (hrest : rest.headD 0 ≠ 61)
    (hcur : c.scanner.current = List.replicate k 32 ++ 61 :: rest) (hf : k < h.fuel) :
    ∃ (sc1 : scanner_t) (tok : token),
      advance h c = some
        { c with scanner := sc1,
                 parser := { c.parser with previous := c.parser.current, current := tok } } ∧
      tok.type = TOKEN_EQUAL ∧ sc1.current = rest := by
  obtain ⟨sc1, tok, hscan, h1, _, _, h4⟩ :=
    scan_token_equal h.sz h.fuel c.vm c.scanner k rest hrest hcur hf
  exact ⟨sc1, tok, advance_token h c sc1 tok hscan (by rw [h1]; decide) (by omega), h1, h4⟩

/-- Function `advance` of compiler.c at the end of the source behind `k`
blanks. -/
theorem advance_eof (h : host) (c : compile_state) (k : Nat)
    (hcur : c.scanner.current = List.replicate k 32) (hf : k < h.fuel) :
    ∃ (sc1 : scanner_t) (tok : token),
      advance h c = some
        { c with scanner := sc1,
                 parser := { c.parser with previous := c.parser.current, current := tok } } ∧
      tok.type = TOKEN_EOF ∧ sc1.current = [] := by
  obtain ⟨sc1, tok, hscan, h1, h4⟩ := scan_token_eof h.sz h.fuel c.vm c.scanner k hcur hf
  exact ⟨sc1, tok, advance_token h c sc1 tok hscan (by rw [h1]; decide) (by omega), h1, h4⟩

/-! ### A variable read in its own initializer -/

/-- The state `resolve_local` leaves when the last local has the name looked
for and the depth -1. -/
theorem resolve_variable_self (h : host) (vm : VM) (sc : scanner_t) (cur prev : token)
    (he : Bool) (k : compiler_t) (cc : Nat) (err : List diagnostic)
    (ls : List localvar) (l : localvar) (name : token)
    (hloc : k.locals = ls ++ [l]) (hl : l.depth = -1)
    (hname : identifiers_equal name l.name = true) :
    resolve_variable h ⟨vm, sc, ⟨cur, prev, he, false⟩, [k], cc, err⟩ name = some
      (⟨{ vm with stdout := vm.stdout ++ [out_item.text "local: ",
            out_item.bytes (l.name.start.take l.name.len), out_item.text "\n"] },
        sc, ⟨cur, prev, true, true⟩, [k], cc,
        err ++ [report_at prev
          (bytes_of "Self-referencing local variable \x27%.*s\x27 in initializer")
          [[l.name.len], l.name.start.take l.name.len]]⟩,
       OP_GET_LOCAL, OP_SET_LOCAL, (ls.length : Int)) := by
  have hget : k.locals[ls.length]? = some l := by
    rw [hloc, List.getElem?_append_right (Nat.le_refl _)]
    simp
  have hlen : k.locals.length = ls.length + 1 := by
    rw [hloc]
    simp
  unfold resolve_variable resolve_local
  simp only [List.head?_cons, Option.bind_eq_bind, Option.some_bind, hlen]
  unfold resolve_local_loop
  simp only [hget, hname, if_true, hl, Option.some_bind]
  rw [if_pos (by omega)]
  rfl

/-- Function `named_variable` for a name that is the one of the last local,
whose depth is still -1, outside panic mode and with a token ahead that is not
`=`: it returns, and the error is reported at the previous token. -/
theorem named_variable_self (h : host) {ups : List Nat} {M B : Nat} (n : Nat) (vm : VM)
    (sc : scanner_t) (cur prev : token) (he : Bool) (k : compiler_t) (cc : Nat)
    (err : List diagnostic) (ls : List localvar) (l : localvar) (name : token)
    (can_assign : Bool)
    (hinv : compile_inv h ups M B ⟨vm, sc, ⟨cur, prev, he, false⟩, [k], cc, err⟩)
    (hloc : k.locals = ls ++ [l]) (hl : l.depth = -1)
    (hname : identifiers_equal name l.name = true) (hcur : cur.type ≠ TOKEN_EQUAL) :
    ∃ vm1 : VM,
      named_variable h (n + 1) ⟨vm, sc, ⟨cur, prev, he, false⟩, [k], cc, err⟩ name can_assign
        = some ⟨vm1, sc, ⟨cur, prev, true, true⟩, [k], cc,
            err ++ [report_at prev
              (bytes_of "Self-referencing local variable \x27%.*s\x27 in initializer")
              [[l.name.len], l.name.start.take l.name.len]]⟩ ∧
      compile_inv h ups M B ⟨vm1, sc, ⟨cur, prev, true, true⟩, [k], cc,
        err ++ [report_at prev
          (bytes_of "Self-referencing local variable \x27%.*s\x27 in initializer")
          [[l.name.len], l.name.start.take l.name.len]]⟩ := by
  have hres := resolve_variable_self h vm sc cur prev he k cc err ls l name hloc hl hname
  have hinv1 : compile_inv h ups M B
      ⟨{ vm with stdout := vm.stdout ++ [out_item.text "local: ",
            out_item.bytes (l.name.start.take l.name.len), out_item.text "\n"] },
        sc, ⟨cur, prev, true, true⟩, [k], cc,
        err ++ [report_at prev
          (bytes_of "Self-referencing local variable \x27%.*s\x27 in initializer")
          [[l.name.len], l.name.start.take l.name.len]]⟩ :=
    compile_inv_congr (compile_inv_print_out hinv [out_item.text "local: ",
      out_item.bytes (l.name.start.take l.name.len), out_item.text "\n"]) rfl rfl
  obtain ⟨vm1, hrun, hinv2, _⟩ := emit_bytes_ok h OP_GET_LOCAL (Int.toNat ls.length % 256)
    hinv1 (show _ = k :: [] from rfl)
  have hm := match_no h
    ⟨{ vm with stdout := vm.stdout ++ [out_item.text "local: ",
          out_item.bytes (l.name.start.take l.name.len), out_item.text "\n"] },
      sc, ⟨cur, prev, true, true⟩, [k], cc,
      err ++ [report_at prev
        (bytes_of "Self-referencing local variable \x27%.*s\x27 in initializer")
        [[l.name.len], l.name.start.take l.name.len]]⟩ TOKEN_EQUAL hcur
  refine ⟨vm1, ?_, hinv2⟩
  unfold named_variable
  cases can_assign <;>
    simp only [Option.bind_eq_bind, hres, Option.some_bind, hm, if_true, if_false,
      Bool.false_eq_true, hrun]

/-- Function `expression` in front of an identifier that is the name of the
last local, whose depth is still -1, the identifier being followed by a
semicolon: it returns, with the error reported at the identifier. -/
theorem expression_self (h : host) {ups : List Nat} {M B : Nat} (n : Nat) (vm : VM)
    (sc : scanner_t) (cur prev : token) (he : Bool) (k : compiler_t) (cc : Nat)
    (err : List diagnostic) (ls : List localvar) (l : localvar) (x rest : List Nat) (j : Nat)
    (t1 : token_type)
    (hinv : compile_inv h ups M B ⟨vm, sc, ⟨cur, prev, he, false⟩, [k], cc, err⟩)
    (hloc : k.locals = ls ++ [l]) (hl : l.depth = -1)
    (hcur : lexeme_is cur TOKEN_IDENTIFIER x) (hname : lexeme_is l.name t1 x)
    (hsc : sc.current = List.replicate j 32 ++ 59 :: rest) (hf : j < h.fuel) :
    ∃ (vm1 : VM) (sc1 : scanner_t) (tok : token),
      expression h (n + 5) ⟨vm, sc, ⟨cur, prev, he, false⟩, [k], cc, err⟩
        = some ⟨vm1, sc1, ⟨tok, cur, true, true⟩, [k], cc,
            err ++ [report_at cur
              (bytes_of "Self-referencing local variable \x27%.*s\x27 in initializer")
              [[l.name.len], l.name.start.take l.name.len]]⟩ ∧
      compile_inv h ups M B ⟨vm1, sc1, ⟨tok, cur, true, true⟩, [k], cc,
        err ++ [report_at cur
          (bytes_of "Self-referencing local variable \x27%.*s\x27 in initializer")
          [[l.name.len], l.name.start.take l.name.len]]⟩ ∧
      tok.type = TOKEN_SEMICOLON ∧ sc1.current = rest := by
  obtain ⟨sc1, tok, hadv, hty, hsc1⟩ :=
    advance_punct h ⟨vm, sc, ⟨cur, prev, he, false⟩, [k], cc, err⟩ j 59 rest TOKEN_SEMICOLON
      (Or.inr (Or.inr (Or.inl ⟨rfl, rfl⟩))) hsc hf
  have hadv1 : advance h ⟨vm, sc, ⟨cur, prev, he, false⟩, [k], cc, err⟩
      = some ⟨vm, sc1, ⟨tok, cur, he, false⟩, [k], cc, err⟩ := hadv
  have hinv1 : compile_inv h ups M B ⟨vm, sc1, ⟨tok, cur, he, false⟩, [k], cc, err⟩ :=
    compile_inv_congr hinv rfl rfl
  obtain ⟨vm1, hnamed, hinv2⟩ :=
    named_variable_self h n vm sc1 tok cur he k cc err ls l cur true hinv1 hloc hl
      (identifiers_equal_same hcur hname) (by rw [hty]; decide)
  have hm := match_no h ⟨vm1, sc1, ⟨tok, cur, true, true⟩, [k], cc,
    err ++ [report_at cur
      (bytes_of "Self-referencing local variable \x27%.*s\x27 in initializer")
      [[l.name.len], l.name.start.take l.name.len]]⟩ TOKEN_EQUAL (by rw [hty]; decide)
  refine ⟨vm1, sc1, tok, ?_, hinv2, hty, hsc1⟩
  unfold expression parse_precedence
  simp only [Option.bind_eq_bind, hadv1, Option.some_bind, hcur.1, get_rule]
  unfold apply_rule variable_
  simp only [PREC_ASG, le_refl, decide_True, hnamed, Option.some_bind]
  unfold infix_rules
  have h10 : ¬ ((1 : Nat) ≤ 0) := by decide
  simp only [hty, get_rule, PREC_NONE, PREC_ASG, h10, if_false, if_true, hm,
    Option.some_bind, Bool.false_eq_true]

/-- Function `var_declaration` at scope depth 1, in front of the identifier
`x` followed by ` = x; \x7d`: it returns with the error reported at the second
`x`, the new local being initialised. -/
theorem var_declaration_self (h : host) {ups : List Nat} {M B : Nat} (n : Nat) (vm : VM)
    (sc : scanner_t) (cur prev : token) (he : Bool) (f : Nat) (ft : func_type)
    (l0 : localvar) (uv : List upvalue) (cc : Nat) (err : List diagnostic) (x : List Nat)
    (hinv : compile_inv h ups M B
      ⟨vm, sc, ⟨cur, prev, he, false⟩, [⟨f, ft, [l0], uv, 1⟩], cc, err⟩)
    (hl0 : l0.depth = 0) (hx : is_identifier x) (hcur : lexeme_is cur TOKEN_IDENTIFIER x)
    (hsc : sc.current = bytes_of " = " ++ x ++ bytes_of "; \x7d")
    (hf : x.length + 1 < h.fuel) (hlen : x.length < 2 ^ 64) :
    ∃ (vm1 : VM) (sc1 : scanner_t) (tokx toks tokr : token),
      var_declaration h (n + 6)
          ⟨vm, sc, ⟨cur, prev, he, false⟩, [⟨f, ft, [l0], uv, 1⟩], cc, err⟩
        = some ⟨vm1, sc1, ⟨tokr, toks, true, true⟩,
            [⟨f, ft, [l0, ⟨cur, 1, false⟩], uv, 1⟩], cc,
            err ++ [report_at tokx
              (bytes_of "Self-referencing local variable \x27%.*s\x27 in initializer")
              [[cur.len], cur.start.take cur.len]]⟩ ∧
      compile_inv h ups M B ⟨vm1, sc1, ⟨tokr, toks, true, true⟩,
        [⟨f, ft, [l0, ⟨cur, 1, false⟩], uv, 1⟩], cc,
        err ++ [report_at tokx
          (bytes_of "Self-referencing local variable \x27%.*s\x27 in initializer")
          [[cur.len], cur.start.take cur.len]]⟩ ∧
      lexeme_is tokx TOKEN_IDENTIFIER x ∧ toks.type = TOKEN_SEMICOLON ∧
      tokr.type = TOKEN_RIGHT_BRACE ∧ sc1.current = [] := by
  -- the identifier is consumed
  obtain ⟨sc1, toke, hadv1, hte, hsc1⟩ :=
    advance_equal h ⟨vm, sc, ⟨cur, prev, he, false⟩, [⟨f, ft, [l0], uv, 1⟩], cc, err⟩ 1
      (32 :: x ++ bytes_of "; \x7d") (by show (32 : Nat) ≠ 61; decide) (by rw [hsc]; rfl)
      (by omega)
  have hadv1' : advance h ⟨vm, sc, ⟨cur, prev, he, false⟩, [⟨f, ft, [l0], uv, 1⟩], cc, err⟩
      = some ⟨vm, sc1, ⟨toke, cur, he, false⟩, [⟨f, ft, [l0], uv, 1⟩], cc, err⟩ := hadv1
  -- the `=` is consumed
  obtain ⟨sc2, tokx, hadv2, htx, hsc2⟩ :=
    advance_identifier h
      ⟨vm, sc1, ⟨toke, cur, he, false⟩, [⟨f, ft, [l0, ⟨cur, -1, false⟩], uv, 1⟩], cc, err⟩
      1 x (bytes_of "; \x7d") hx (by decide) (by rw [hsc1]; rfl) (by omega) hlen
  have hadv2' : advance h
      ⟨vm, sc1, ⟨toke, cur, he, false⟩, [⟨f, ft, [l0, ⟨cur, -1, false⟩], uv, 1⟩], cc, err⟩
      = some ⟨vm, sc2, ⟨tokx, toke, he, false⟩, [⟨f, ft, [l0, ⟨cur, -1, false⟩], uv, 1⟩],
          cc, err⟩ := hadv2
  have hinv2 : compile_inv h ups M B
      ⟨vm, sc2, ⟨tokx, toke, he, false⟩, [⟨f, ft, [l0, ⟨cur, -1, false⟩], uv, 1⟩], cc, err⟩ := by
    obtain ⟨a1, a2, a3, a4, a5⟩ := hinv
    refine ⟨a1, a2, a3, a4, ?_⟩
    intro k hk
    have hk1 : k = ⟨f, ft, [l0, ⟨cur, -1, false⟩], uv, 1⟩ := by simpa using hk
    subst hk1
    exact a5 ⟨f, ft, [l0], uv, 1⟩ (List.mem_singleton.2 rfl)
  -- the initializer
  obtain ⟨vm1, sc3, toks, hexpr, hinv3, hts, hsc3⟩ :=
    expression_self h n vm sc2 tokx toke he ⟨f, ft, [l0, ⟨cur, -1, false⟩], uv, 1⟩ cc err
      [l0] ⟨cur, -1, false⟩ x (bytes_of " \x7d") 0 TOKEN_IDENTIFIER hinv2 rfl rfl htx hcur
      (by rw [hsc2]; rfl) (by omega)
  -- the semicolon is consumed
  obtain ⟨sc4, tokr, hadv4, htr, hsc4⟩ :=
    advance_punct h
      ⟨vm1, sc3, ⟨toks, tokx, true, true⟩, [⟨f, ft, [l0, ⟨cur, -1, false⟩], uv, 1⟩], cc,
        err ++ [report_at tokx
          (bytes_of "Self-referencing local variable \x27%.*s\x27 in initializer")
          [[cur.len], cur.start.take cur.len]]⟩
      1 125 [] TOKEN_RIGHT_BRACE (Or.inr (Or.inl ⟨rfl, rfl⟩)) (by rw [hsc3]; rfl) (by omega)
  have hadv4' : advance h
      ⟨vm1, sc3, ⟨toks, tokx, true, true⟩, [⟨f, ft, [l0, ⟨cur, -1, false⟩], uv, 1⟩], cc,
        err ++ [report_at tokx
          (bytes_of "Self-referencing local variable \x27%.*s\x27 in initializer")
          [[cur.len], cur.start.take cur.len]]⟩
      = some ⟨vm1, sc4, ⟨tokr, toks, true, true⟩,
          [⟨f, ft, [l0, ⟨cur, -1, false⟩], uv, 1⟩], cc,
          err ++ [report_at tokx
            (bytes_of "Self-referencing local variable \x27%.*s\x27 in initializer")
            [[cur.len], cur.start.take cur.len]]⟩ := hadv4
  refine ⟨vm1, sc4, tokx, toks, tokr, ?_, ?_, htx, hts, htr, hsc4⟩
  · have hpv : parse_variable h
        ⟨vm, sc, ⟨cur, prev, he, false⟩, [⟨f, ft, [l0], uv, 1⟩], cc, err⟩
        (bytes_of "Expected variable name")
        = some (⟨vm, sc1, ⟨toke, cur, he, false⟩,
            [⟨f, ft, [l0, ⟨cur, -1, false⟩], uv, 1⟩], cc, err⟩, 0) := by
      unfold parse_variable
      rw [consume_adv h _ _ _ _ hadv1' hcur.1]
      unfold declare_variable add_local declare_variable_loop declare_variable_loop
      simp only [Option.bind_eq_bind, Option.some_bind, List.head?_cons, List.length_singleton,
        List.getElem?_cons_zero, hl0]
      rfl
    have hm := match_yes h _ _ TOKEN_EQUAL hte hadv2'
    have hc4 := consume_adv h _ _ TOKEN_SEMICOLON
      (bytes_of "Expected \x27;\x27 to end a statement") hadv4' hts
    unfold var_declaration
    simp only [Option.bind_eq_bind, hpv, Option.some_bind, hm, if_true, hexpr, hc4]
    rfl
  · obtain ⟨a1, a2, a3, a4, a5⟩ := hinv3
    refine ⟨a1, a2, a3, a4, ?_⟩
    intro k hk
    have hk1 : k = ⟨f, ft, [l0, ⟨cur, 1, false⟩], uv, 1⟩ := by simpa using hk
    subst hk1
    exact a5 ⟨f, ft, [l0, ⟨cur, -1, false⟩], uv, 1⟩ (List.mem_singleton.2 rfl)

/-- Function `declaration` at scope depth 1, in front of `var x = x; \x7d`. -/
theorem declaration_self (h : host) {ups : List Nat} {M B : Nat} (n : Nat) (vm : VM)
    (sc : scanner_t) (cur prev : token) (he : Bool) (f : Nat) (ft : func_type)
    (l0 : localvar) (uv : List upvalue) (cc : Nat) (err : List diagnostic) (x : List Nat)
    (hinv : compile_inv h ups M B
      ⟨vm, sc, ⟨cur, prev, he, false⟩, [⟨f, ft, [l0], uv, 1⟩], cc, err⟩)
    (hl0 : l0.depth = 0) (hx : is_identifier x) (hcur : cur.type = TOKEN_VAR)
    (hsc : sc.current = 32 :: x ++ bytes_of " = " ++ x ++ bytes_of "; \x7d")
    (hf : x.length + 1 < h.fuel) (hlen : x.length < 2 ^ 64) :
    ∃ (vm1 : VM) (sc1 : scanner_t) (tok1 tokx toks tokr : token),
      declaration h (n + 7)
          ⟨vm, sc, ⟨cur, prev, he, false⟩, [⟨f, ft, [l0], uv, 1⟩], cc, err⟩
        = some ⟨vm1, sc1, ⟨tokr, toks, true, false⟩,
            [⟨f, ft, [l0, ⟨tok1, 1, false⟩], uv, 1⟩], cc,
            err ++ [report_at tokx
              (bytes_of "Self-referencing local variable \x27%.*s\x27 in initializer")
              [[x.length], x]]⟩ ∧
      compile_inv h ups M B ⟨vm1, sc1, ⟨tokr, toks, true, false⟩,
        [⟨f, ft, [l0, ⟨tok1, 1, false⟩], uv, 1⟩], cc,
        err ++ [report_at tokx
          (bytes_of "Self-referencing local variable \x27%.*s\x27 in initializer")
          [[x.length], x]]⟩ ∧
      lexeme_is tokx TOKEN_IDENTIFIER x ∧ toks.type = TOKEN_SEMICOLON ∧
      tokr.type = TOKEN_RIGHT_BRACE ∧ sc1.current = [] := by
  obtain ⟨sc1, tok1, hadv1, ht1, hsc1⟩ :=
    advance_identifier h
      ⟨vm, sc, ⟨cur, prev, he, false⟩, [⟨f, ft, [l0], uv, 1⟩], cc, err⟩ 1 x
      (bytes_of " = " ++ x ++ bytes_of "; \x7d") hx (by show is_alnum 32 = false; decide)
      (by rw [hsc]; simp [bytes_of]) (by omega) hlen
  have hadv1' : advance h
      ⟨vm, sc, ⟨cur, prev, he, false⟩, [⟨f, ft, [l0], uv, 1⟩], cc, err⟩
      = some ⟨vm, sc1, ⟨tok1, cur, he, false⟩, [⟨f, ft, [l0], uv, 1⟩], cc, err⟩ := hadv1
  obtain ⟨vm1, sc2, tokx, toks, tokr, hvar, hinv1, htx, hts, htr, hsc2⟩ :=
    var_declaration_self h n vm sc1 tok1 cur he f ft l0 uv cc err x
      (compile_inv_congr hinv rfl rfl) hl0 hx ht1 (by rw [hsc1]) hf hlen
  rw [ht1.2.2, ht1.2.1] at hvar hinv1
  refine ⟨vm1, sc2, tok1, tokx, toks, tokr, ?_, compile_inv_congr hinv1 rfl rfl, htx, hts,
    htr, hsc2⟩
  have hm1 := match_no h ⟨vm, sc, ⟨cur, prev, he, false⟩, [⟨f, ft, [l0], uv, 1⟩], cc, err⟩
    TOKEN_CLASS (by rw [hcur]; decide)
  have hm2 := match_yes h _ _ TOKEN_VAR hcur hadv1'
  obtain ⟨fl, hfl⟩ : ∃ fl, h.fuel = fl + 1 := ⟨h.fuel - 1, by omega⟩
  unfold declaration
  simp only [Option.bind_eq_bind, hm1, Option.some_bind, Bool.false_eq_true, if_false, hm2,
    if_true, hvar]
  unfold synchronize
  rw [hfl]
  unfold synchronize_loop
  simp only [htr, hts, ne_eq, if_true]
  rfl

/-- Function `block` at scope depth 1, in front of `var x = x; \x7d` and the
end of the source. -/
theorem block_self (h : host) {ups : List Nat} {M B : Nat} (n : Nat) (vm : VM)
    (sc : scanner_t) (cur prev : token) (he : Bool) (f : Nat) (ft : func_type)
    (l0 : localvar) (uv : List upvalue) (cc : Nat) (err : List diagnostic) (x : List Nat)
    (hinv : compile_inv h ups M B
      ⟨vm, sc, ⟨cur, prev, he, false⟩, [⟨f, ft, [l0], uv, 1⟩], cc, err⟩)
    (hl0 : l0.depth = 0) (hx : is_identifier x) (hcur : cur.type = TOKEN_VAR)
    (hsc : sc.current = 32 :: x ++ bytes_of " = " ++ x ++ bytes_of "; \x7d")
    (hf : x.length + 1 < h.fuel) (hlen : x.length < 2 ^ 64) :
    ∃ (vm1 : VM) (sc1 : scanner_t) (tok1 tokx tokr toke : token),
      block h (n + 9)
          ⟨vm, sc, ⟨cur, prev, he, false⟩, [⟨f, ft, [l0], uv, 1⟩], cc, err⟩
        = some ⟨vm1, sc1, ⟨toke, tokr, true, false⟩,
            [⟨f, ft, [l0, ⟨tok1, 1, false⟩], uv, 1⟩], cc,
            err ++ [report_at tokx
              (bytes_of "Self-referencing local variable \x27%.*s\x27 in initializer")
              [[x.length], x]]⟩ ∧
      compile_inv h ups M B ⟨vm1, sc1, ⟨toke, tokr, true, false⟩,
        [⟨f, ft, [l0, ⟨tok1, 1, false⟩], uv, 1⟩], cc,
        err ++ [report_at tokx
          (bytes_of "Self-referencing local variable \x27%.*s\x27 in initializer")
          [[x.length], x]]⟩ ∧
      lexeme_is tokx TOKEN_IDENTIFIER x ∧ toke.type = TOKEN_EOF ∧ sc1.current = [] := by
  obtain ⟨vm1, sc1, tok1, tokx, toks, tokr, hdecl, hinv1, htx, hts, htr, hsc1⟩ :=
    declaration_self h n vm sc cur prev he f ft l0 uv cc err x hinv hl0 hx hcur hsc hf hlen
  obtain ⟨sc2, toke, hadv, hte, hsc2⟩ :=
    advance_eof h
      ⟨vm1, sc1, ⟨tokr, toks, true, false⟩, [⟨f, ft, [l0, ⟨tok1, 1, false⟩], uv, 1⟩], cc,
        err ++ [report_at tokx
          (bytes_of "Self-referencing local variable \x27%.*s\x27 in initializer")
          [[x.length], x]]⟩ 0 (by rw [hsc1]; rfl) (by omega)
  have hadv' : advance h
      ⟨vm1, sc1, ⟨tokr, toks, true, false⟩, [⟨f, ft, [l0, ⟨tok1, 1, false⟩], uv, 1⟩], cc,
        err ++ [report_at tokx
          (bytes_of "Self-referencing local variable \x27%.*s\x27 in initializer")
          [[x.length], x]]⟩
      = some ⟨vm1, sc2, ⟨toke, tokr, true, false⟩,
          [⟨f, ft, [l0, ⟨tok1, 1, false⟩], uv, 1⟩], cc,
          err ++ [report_at tokx
            (bytes_of "Self-referencing local variable \x27%.*s\x27 in initializer")
            [[x.length], x]]⟩ := hadv
  have hc := consume_adv h _ _ TOKEN_RIGHT_BRACE
    (bytes_of "Expected \x27\x7d\x27 to end a block") hadv' htr
  refine ⟨vm1, sc2, tok1, tokx, tokr, toke, ?_, compile_inv_congr hinv1 rfl rfl, htx, hte,
    hsc2⟩
  unfold block block_declarations
  simp only [check, hcur, reduceCtorEq, decide_False, Bool.not_false, Bool.and_self, if_true,
    Option.bind_eq_bind, hdecl, Option.some_bind]
  unfold block_declarations
  simp only [check, htr, decide_True, Bool.not_true, Bool.false_and, Bool.false_eq_true,
    if_false, Option.some_bind, hc]

/-- Function `statement` at scope depth 0, in front of
`\x7b var x = x; \x7d` and the end of the source. -/
theorem statement_self (h : host) {ups : List Nat} {M B : Nat} (n : Nat) (vm : VM)
    (sc : scanner_t) (cur prev : token) (he : Bool) (f : Nat) (ft : func_type)
    (l0 : localvar) (uv : List upvalue) (cc : Nat) (err : List diagnostic) (x : List Nat)
    (hinv : compile_inv h ups M B
      ⟨vm, sc, ⟨cur, prev, he, false⟩, [⟨f, ft, [l0], uv, 0⟩], cc, err⟩)
    (hl0 : l0.depth = 0) (hx : is_identifier x) (hcur : cur.type = TOKEN_LEFT_BRACE)
    (hsc : sc.current = bytes_of " var " ++ x ++ bytes_of " = " ++ x ++ bytes_of "; \x7d")
    (hf : x.length + 4 < h.fuel) (hlen : x.length < 2 ^ 64) :
    ∃ (vm1 : VM) (sc1 : scanner_t) (tokx tokr toke : token),
      statement h (n + 10)
          ⟨vm, sc, ⟨cur, prev, he, false⟩, [⟨f, ft, [l0], uv, 0⟩], cc, err⟩
        = some ⟨vm1, sc1, ⟨toke, tokr, true, false⟩, [⟨f, ft, [l0], uv, 0⟩], cc,
            err ++ [report_at tokx
              (bytes_of "Self-referencing local variable \x27%.*s\x27 in initializer")
              [[x.length], x]]⟩ ∧
      compile_inv h ups M B ⟨vm1, sc1, ⟨toke, tokr, true, false⟩,
        [⟨f, ft, [l0], uv, 0⟩], cc,
        err ++ [report_at tokx
          (bytes_of "Self-referencing local variable \x27%.*s\x27 in initializer")
          [[x.length], x]]⟩ ∧
      lexeme_is tokx TOKEN_IDENTIFIER x ∧ toke.type = TOKEN_EOF ∧ sc1.current = [] := by
  obtain ⟨sc1, tokv, hadv1, htv, hsc1⟩ :=
    advance_var h ⟨vm, sc, ⟨cur, prev, he, false⟩, [⟨f, ft, [l0], uv, 0⟩], cc, err⟩ 1
      (32 :: x ++ bytes_of " = " ++ x ++ bytes_of "; \x7d")
      (by show is_alnum 32 = false; decide) (by rw [hsc]; rfl) (by omega)
  have hadv1' : advance h ⟨vm, sc, ⟨cur, prev, he, false⟩, [⟨f, ft, [l0], uv, 0⟩], cc, err⟩
      = some ⟨vm, sc1, ⟨tokv, cur, he, false⟩, [⟨f, ft, [l0], uv, 0⟩], cc, err⟩ := hadv1
  have hinv1 : compile_inv h ups M B
      ⟨vm, sc1, ⟨tokv, cur, he, false⟩, [⟨f, ft, [l0], uv, 1⟩], cc, err⟩ := by
    obtain ⟨a1, a2, a3, a4, a5⟩ := hinv
    refine ⟨a1, a2, a3, a4, ?_⟩
    intro k hk
    have hk1 : k = ⟨f, ft, [l0], uv, 1⟩ := by simpa using hk
    subst hk1
    exact a5 ⟨f, ft, [l0], uv, 0⟩ (List.mem_singleton.2 rfl)
  obtain ⟨vm1, sc2, tok1, tokx, tokr, toke, hblock, hinv2, htx, hte, hsc2⟩ :=
    block_self h n vm sc1 tokv cur he f ft l0 uv cc err x hinv1 hl0 hx htv hsc1
      (by omega) hlen
  have hinv3 : compile_inv h ups M B
      ⟨vm1, sc2, ⟨toke, tokr, true, false⟩, [⟨f, ft, [l0, ⟨tok1, 1, false⟩], uv, 0⟩], cc,
        err ++ [report_at tokx
          (bytes_of "Self-referencing local variable \x27%.*s\x27 in initializer")
          [[x.length], x]]⟩ := by
    obtain ⟨a1, a2, a3, a4, a5⟩ := hinv2
    refine ⟨a1, a2, a3, a4, ?_⟩
    intro k hk
    have hk1 : k = ⟨f, ft, [l0, ⟨tok1, 1, false⟩], uv, 0⟩ := by simpa using hk
    subst hk1
    exact a5 ⟨f, ft, [l0, ⟨tok1, 1, false⟩], uv, 1⟩ (List.mem_singleton.2 rfl)
  obtain ⟨vm2, hemit, hinv4, _⟩ := emit_byte_ok h OP_POP hinv3 (show _ = _ :: [] from rfl)
  have hemit' : emit_byte h
      ⟨vm1, sc2, ⟨toke, tokr, true, false⟩, [⟨f, ft, [l0, ⟨tok1, 1, false⟩], uv, 0⟩], cc,
        err ++ [report_at tokx
          (bytes_of "Self-referencing local variable \x27%.*s\x27 in initializer")
          [[x.length], x]]⟩ OP_POP
      = some ⟨vm2, sc2, ⟨toke, tokr, true, false⟩,
          [⟨f, ft, [l0, ⟨tok1, 1, false⟩], uv, 0⟩], cc,
          err ++ [report_at tokx
            (bytes_of "Self-referencing local variable \x27%.*s\x27 in initializer")
            [[x.length], x]]⟩ := hemit
  refine ⟨vm2, sc2, tokx, tokr, toke, ?_, ?_, htx, hte, hsc2⟩
  · have hm1 := match_no h ⟨vm, sc, ⟨cur, prev, he, false⟩, [⟨f, ft, [l0], uv, 0⟩], cc, err⟩
      TOKEN_PRINT (by rw [hcur]; decide)
    have hm2 := match_yes h _ _ TOKEN_LEFT_BRACE hcur hadv1'
    have hbegin : begin_scope
        ⟨vm, sc1, ⟨tokv, cur, he, false⟩, [⟨f, ft, [l0], uv, 0⟩], cc, err⟩
        = some ⟨vm, sc1, ⟨tokv, cur, he, false⟩, [⟨f, ft, [l0], uv, 1⟩], cc, err⟩ := rfl
    unfold statement
    simp only [Option.bind_eq_bind, hm1, Option.some_bind, Bool.false_eq_true, if_false, hm2,
      if_true, hbegin, hblock]
    unfold end_scope end_scope_loop
    simp only [List.head?_cons, Option.bind_eq_bind, Option.some_bind, set_compiler,
      List.tail_cons, List.getLast?_cons_cons, List.getLast?_singleton]
    rw [if_pos (by decide)]
    simp only [Bool.false_eq_true, if_false, Int.sub_self, hemit', Option.some_bind,
      List.head?_cons, List.tail_cons, List.dropLast_cons₂, List.dropLast_single]
    simp only [List.length_cons, List.length_nil, Nat.zero_add]
    unfold end_scope_loop
    simp only [List.head?_cons, Option.bind_eq_bind, Option.some_bind,
      List.getLast?_singleton, hl0]
    rfl
  · obtain ⟨a1, a2, a3, a4, a5⟩ := hinv4
    refine ⟨a1, a2, a3, a4, ?_⟩
    intro k hk
    have hk1 : k = ⟨f, ft, [l0], uv, 0⟩ := by simpa using hk
    subst hk1
    exact a5 ⟨f, ft, [l0, ⟨tok1, 1, false⟩], uv, 0⟩ (List.mem_singleton.2 rfl)

theorem c_string_of_nonzero (l : List Nat) (hl : ∀ b ∈ l, b ≠ 0) : c_string l = l := by
  unfold c_string
  rw [List.takeWhile_eq_self_iff]
  intro b hb
  simpa using hl b hb

theorem identifier_nonzero {x : List Nat} (hx : is_identifier x) : ∀ b ∈ x, b ≠ 0 := by
  obtain ⟨c, t, he, hc, ht, _⟩ := hx
  subst he
  intro b hb
  rcases List.mem_cons.1 hb with hb | hb
  · subst hb
    have := is_alpha_cases hc
    omega
  · have h1 := ht b hb
    unfold is_alnum is_digit at h1
    rcases Bool.or_eq_true_iff.1 h1 with h2 | h2
    · have := is_alpha_cases h2
      omega
    · have := of_decide_eq_true h2
      omega

/-- Function `end_compiler` for the script, with an error reported before: it
returns, and it changes the VM and the chain of compilers only. -/
theorem end_compiler_script (h : host) {ups : List Nat} {M B : Nat} (vm : VM)
    (sc : scanner_t) (p : parser_t) (f : Nat) (ls : List localvar) (uv : List upvalue)
    (sd : Int) (cc : Nat) (err : List diagnostic)
    (hinv : compile_inv h ups M B ⟨vm, sc, p, [⟨f, FTYPE_SCRIPT, ls, uv, sd⟩], cc, err⟩)
    (he : p.had_error = true) :
    ∃ vm1 : VM,
      end_compiler h ⟨vm, sc, p, [⟨f, FTYPE_SCRIPT, ls, uv, sd⟩], cc, err⟩
        = some (⟨vm1, sc, p, [], cc, err⟩, f, ⟨f, FTYPE_SCRIPT, ls, uv, sd⟩) := by
  obtain ⟨vm1, h1, hinv1, _⟩ := emit_byte_ok h OP_NIL hinv (show _ = _ :: [] from rfl)
  obtain ⟨vm2, h2, hinv2, _⟩ := emit_byte_ok h OP_NIL hinv1 (show _ = _ :: [] from rfl)
  obtain ⟨vm3, h3, hinv3, _⟩ := emit_byte_ok h OP_RETURN hinv2 (show _ = _ :: [] from rfl)
  have h1' : emit_byte h ⟨vm, sc, p, [⟨f, FTYPE_SCRIPT, ls, uv, sd⟩], cc, err⟩ OP_NIL
      = some ⟨vm1, sc, p, [⟨f, FTYPE_SCRIPT, ls, uv, sd⟩], cc, err⟩ := h1
  have h2' : emit_byte h ⟨vm1, sc, p, [⟨f, FTYPE_SCRIPT, ls, uv, sd⟩], cc, err⟩ OP_NIL
      = some ⟨vm2, sc, p, [⟨f, FTYPE_SCRIPT, ls, uv, sd⟩], cc, err⟩ := h2
  have h3' : emit_byte h ⟨vm2, sc, p, [⟨f, FTYPE_SCRIPT, ls, uv, sd⟩], cc, err⟩ OP_RETURN
      = some ⟨vm3, sc, p, [⟨f, FTYPE_SCRIPT, ls, uv, sd⟩], cc, err⟩ := h3
  refine ⟨{ vm3 with compilers := [] }, ?_⟩
  unfold end_compiler implicit_return
  simp only [List.head?_cons, Option.bind_eq_bind, Option.some_bind, reduceCtorEq, if_false,
    h1', h2', h3', he, Bool.not_true, Bool.false_eq_true]
  rfl

/-- Function `declaration` at scope depth 0, in front of
`\x7b var x = x; \x7d` and the end of the source. -/
theorem declaration_block_self (h : host) {ups : List Nat} {M B : Nat} (n : Nat) (vm : VM)
    (sc : scanner_t) (cur prev : token) (he : Bool) (f : Nat) (ft : func_type)
    (l0 : localvar) (uv : List upvalue) (cc : Nat) (err : List diagnostic) (x : List Nat)
    (hinv : compile_inv h ups M B
      ⟨vm, sc, ⟨cur, prev, he, false⟩, [⟨f, ft, [l0], uv, 0⟩], cc, err⟩)
    (hl0 : l0.depth = 0) (hx : is_identifier x) (hcur : cur.type = TOKEN_LEFT_BRACE)
    (hsc : sc.current = bytes_of " var " ++ x ++ bytes_of " = " ++ x ++ bytes_of "; \x7d")
    (hf : x.length + 4 < h.fuel) (hlen : x.length < 2 ^ 64) :
    ∃ (vm1 : VM) (sc1 : scanner_t) (tokx tokr toke : token),
      declaration h (n + 11)
          ⟨vm, sc, ⟨cur, prev, he, false⟩, [⟨f, ft, [l0], uv, 0⟩], cc, err⟩
        = some ⟨vm1, sc1, ⟨toke, tokr, true, false⟩, [⟨f, ft, [l0], uv, 0⟩], cc,
            err ++ [report_at tokx
              (bytes_of "Self-referencing local variable \x27%.*s\x27 in initializer")
              [[x.length], x]]⟩ ∧
      compile_inv h ups M B ⟨vm1, sc1, ⟨toke, tokr, true, false⟩,
        [⟨f, ft, [l0], uv, 0⟩], cc,
        err ++ [report_at tokx
          (bytes_of "Self-referencing local variable \x27%.*s\x27 in initializer")
          [[x.length], x]]⟩ ∧
      lexeme_is tokx TOKEN_IDENTIFIER x ∧ toke.type = TOKEN_EOF ∧ sc1.current = [] := by
  obtain ⟨vm1, sc1, tokx, tokr, toke, hstmt, hinv1, htx, hte, hsc1⟩ :=
    statement_self h n vm sc cur prev he f ft l0 uv cc err x hinv hl0 hx hcur hsc hf hlen
  refine ⟨vm1, sc1, tokx, tokr, toke, ?_, hinv1, htx, hte, hsc1⟩
  have hm1 := match_no h ⟨vm, sc, ⟨cur, prev, he, false⟩, [⟨f, ft, [l0], uv, 0⟩], cc, err⟩
    TOKEN_CLASS (by rw [hcur]; decide)
  have hm2 := match_no h ⟨vm, sc, ⟨cur, prev, he, false⟩, [⟨f, ft, [l0], uv, 0⟩], cc, err⟩
    TOKEN_VAR (by rw [hcur]; decide)
  have hm3 := match_no h ⟨vm, sc, ⟨cur, prev, he, false⟩, [⟨f, ft, [l0], uv, 0⟩], cc, err⟩
    TOKEN_FUN (by rw [hcur]; decide)
  unfold declaration
  simp only [Option.bind_eq_bind, hm1, hm2, hm3, Option.some_bind, Bool.false_eq_true,
    if_false, hstmt]

/-- Function `compile` on the source `\x7b var x = x; \x7d`: it returns null,
with one report, made at the second `x`. -/
theorem compile_self (h : host) {ups : List Nat} {M : Nat} (n : Nat) (c : compile_state)
    (x : List Nat) (hinv : compile_inv h ups M 1 c) (hcur : c.current = [])
    (hx : is_identifier x) (hlen : x.length + 4 < 2 ^ 32) :
    ∃ (c1 : compile_state) (tok : token),
      compile h (n + 12) c (self_initializer x) = some (c1, none) ∧
      lexeme_is tok TOKEN_IDENTIFIER x ∧
      c1.stderr = c.stderr ++ [report_at tok
        (bytes_of "Self-referencing local variable \x27%.*s\x27 in initializer")
        [[x.length], x]] ∧
      c1.parser.had_error = true := by
  obtain ⟨vm, sc, p, ks, cc, err⟩ := c
  have hks : ks = [] := hcur
  subst hks
  have hfuel := hinv.fuel
  have hsrc : c_string (self_initializer x) = self_initializer x := by
    apply c_string_of_nonzero
    intro b hb
    unfold self_initializer at hb
    simp only [List.mem_append] at hb
    have hlit : ∀ s : List Nat, s ∈ [bytes_of "\x7b var ", bytes_of " = ", bytes_of "; \x7d"] →
        ∀ b ∈ s, b ≠ 0 := by decide
    rcases hb with (((hb | hb) | hb) | hb) | hb
    · exact hlit _ (by simp) b hb
    · exact identifier_nonzero hx b hb
    · exact hlit _ (by simp) b hb
    · exact identifier_nonzero hx b hb
    · exact hlit _ (by simp) b hb
  -- `init_compiler`
  obtain ⟨vm1, f, hinit, hinv1, _, _⟩ :=
    @init_compiler_script_ok h ups M 0 ⟨vm, init_scanner (self_initializer x), p, [], cc, err⟩
      (compile_inv_congr hinv rfl rfl)
  have hinit' : init_compiler h ⟨vm, init_scanner (self_initializer x), p, [], cc, err⟩
      FTYPE_SCRIPT
      = some ⟨vm1, init_scanner (self_initializer x), p,
          [⟨f, FTYPE_SCRIPT, [⟨slot_zero_name FTYPE_SCRIPT, 0, false⟩], [], 0⟩], cc, err⟩ :=
    hinit
  -- the first token
  obtain ⟨sc1, tokb, hadv1, htb, hsc1⟩ :=
    advance_punct h
      ⟨vm1, init_scanner (self_initializer x),
        ⟨p.current, p.previous, false, false⟩,
        [⟨f, FTYPE_SCRIPT, [⟨slot_zero_name FTYPE_SCRIPT, 0, false⟩], [], 0⟩],
        cc, err⟩
      0 123 (bytes_of " var " ++ x ++ bytes_of " = " ++ x ++ bytes_of "; \x7d")
      TOKEN_LEFT_BRACE (Or.inl ⟨rfl, rfl⟩)
      (by show (init_scanner _).current = _
          unfold init_scanner
          rw [hsrc]
          simp [self_initializer, bytes_of])
      (by omega)
  have hadv1' : advance h
      ⟨vm1, init_scanner (self_initializer x),
        ⟨p.current, p.previous, false, false⟩,
        [⟨f, FTYPE_SCRIPT, [⟨slot_zero_name FTYPE_SCRIPT, 0, false⟩], [], 0⟩],
        cc, err⟩
      = some ⟨vm1, sc1, ⟨tokb, p.current, false, false⟩,
          [⟨f, FTYPE_SCRIPT, [⟨slot_zero_name FTYPE_SCRIPT, 0, false⟩], [], 0⟩],
          cc, err⟩ := hadv1
  -- the declaration
  obtain ⟨vm2, sc2, tokx, tokr, toke, hdecl, hinv2, htx, hte, hsc2⟩ :=
    declaration_block_self h n vm1 sc1 tokb p.current false f FTYPE_SCRIPT
      ⟨slot_zero_name FTYPE_SCRIPT, 0, false⟩ [] cc err x
      (compile_inv_congr hinv1 rfl rfl) rfl hx htb hsc1 (by omega) (by omega)
  -- the end of the source
  obtain ⟨sc3, tokf, hadv3, htf, hsc3⟩ :=
    advance_eof h
      ⟨vm2, sc2, ⟨toke, tokr, true, false⟩,
        [⟨f, FTYPE_SCRIPT, [⟨slot_zero_name FTYPE_SCRIPT, 0, false⟩], [], 0⟩],
        cc,
        err ++ [report_at tokx
          (bytes_of "Self-referencing local variable \x27%.*s\x27 in initializer")
          [[x.length], x]]⟩ 0 (by rw [hsc2]; rfl) (by omega)
  have hadv3' : advance h
      ⟨vm2, sc2, ⟨toke, tokr, true, false⟩,
        [⟨f, FTYPE_SCRIPT, [⟨slot_zero_name FTYPE_SCRIPT, 0, false⟩], [], 0⟩],
        cc,
        err ++ [report_at tokx
          (bytes_of "Self-referencing local variable \x27%.*s\x27 in initializer")
          [[x.length], x]]⟩
      = some ⟨vm2, sc3, ⟨tokf, toke, true, false⟩,
          [⟨f, FTYPE_SCRIPT, [⟨slot_zero_name FTYPE_SCRIPT, 0, false⟩], [], 0⟩],
          cc,
          err ++ [report_at tokx
            (bytes_of "Self-referencing local variable \x27%.*s\x27 in initializer")
            [[x.length], x]]⟩ := hadv3
  obtain ⟨vm3, hend⟩ :=
    end_compiler_script h vm2 sc3 ⟨tokf, toke, true, false⟩ f
      [⟨slot_zero_name FTYPE_SCRIPT, 0, false⟩] [] 0 cc
      (err ++ [report_at tokx
        (bytes_of "Self-referencing local variable \x27%.*s\x27 in initializer")
        [[x.length], x]])
      (compile_inv_congr hinv2 rfl rfl) rfl
  refine ⟨⟨vm3, sc3, ⟨tokf, toke, true, false⟩, [], cc,
    err ++ [report_at tokx
      (bytes_of "Self-referencing local variable \x27%.*s\x27 in initializer")
      [[x.length], x]]⟩, tokx, ?_, htx, rfl, rfl⟩
  have hm1 := match_no h
    ⟨vm1, sc1, ⟨tokb, p.current, false, false⟩,
      [⟨f, FTYPE_SCRIPT, [⟨slot_zero_name FTYPE_SCRIPT, 0, false⟩], [], 0⟩],
      cc, err⟩ TOKEN_EOF (by rw [htb]; decide)
  have hm2 := match_yes h _ _ TOKEN_EOF hte hadv3'
  unfold compile
  simp only [Option.bind_eq_bind, hinit', Option.some_bind, hadv1']
  unfold compile_declarations
  simp only [Option.bind_eq_bind, hm1, Option.some_bind, Bool.false_eq_true, if_false, hdecl]
  unfold compile_declarations
  simp only [Option.bind_eq_bind, hm2, Option.some_bind, if_true, hend]

/-- Function `resolve_local` when the last local has the name looked for and
the depth -1: the result is the slot of this local, and the error is reported
(unless panic mode suppresses it). -/
theorem resolve_local_self (c : compile_state) (k : compiler_t) (ls : List localvar)
    (l : localvar) (name : token) (hloc : k.locals = ls ++ [l]) (hl : l.depth = -1)
    (hname : identifiers_equal name l.name = true) :
    resolve_local c k name = some
      (error (print_out c [out_item.text "local: ",
          out_item.bytes (l.name.start.take l.name.len), out_item.text "\n"])
        (bytes_of "Self-referencing local variable \x27%.*s\x27 in initializer")
        [[l.name.len], l.name.start.take l.name.len], (ls.length : Int)) := by
  have hget : k.locals[ls.length]? = some l := by
    rw [hloc, List.getElem?_append_right (Nat.le_refl _)]
    simp
  have hlen : k.locals.length = ls.length + 1 := by
    rw [hloc]
    simp
  unfold resolve_local
  rw [hlen]
  unfold resolve_local_loop
  simp only [hget, hname, if_true, hl]

theorem start_state_inv {B : Nat} (hB : B ≤ 1000) :
    compile_inv host_lp64 [] 1024 B (start_state zero_vm) := by
  refine ⟨by decide, first_free_fresh, ⟨[], 0, zero_vm_inv, ?_, ?_, ?_⟩, by decide, ?_⟩
  · show 0 + 0 + B < 2 ^ 32
    omega
  · omega
  · show 0 + B < 1024
    omega
  · intro k hk
    cases hk

/-- C22: for every identifier `x`, `compile` on the source
`\x7b var x = x; \x7d`, started with the invariant of the compiler, room for
one allocation and no compiler active, returns null: the result is `none`, and
what it has written to standard error is one report, "Self-referencing local
variable ... in initializer" with the name `x`, made at the second `x`.  The
report comes from `resolve_local`: whenever the last local has the name looked
for and its depth is still -1, `resolve_local` returns the slot of this local
and reports the error. -/
theorem self_initializer_is_error (h : host) (ups : List Nat) (M n : Nat) (c : compile_state)
    (x : List Nat) (hinv : compile_inv h ups M 1 c) (hcur : c.current = [])
    (hx : is_identifier x) (hlen : x.length + 4 < 2 ^ 32) :
    (∃ (c1 : compile_state) (tok : token),
      compile h (n + 12) c (self_initializer x) = some (c1, none) ∧
      lexeme_is tok TOKEN_IDENTIFIER x ∧
      c1.stderr = c.stderr ++ [report_at tok
        (bytes_of "Self-referencing local variable \x27%.*s\x27 in initializer")
        [[x.length], x]] ∧
      c1.parser.had_error = true) ∧
    (∀ (c2 : compile_state) (k : compiler_t) (ls : List localvar) (l : localvar)
      (name : token), k.locals = ls ++ [l] → l.depth = -1 →
      identifiers_equal name l.name = true →
      resolve_local c2 k name = some
        (error (print_out c2 [out_item.text "local: ",
            out_item.bytes (l.name.start.take l.name.len), out_item.text "\n"])
          (bytes_of "Self-referencing local variable \x27%.*s\x27 in initializer")
          [[l.name.len], l.name.start.take l.name.len], (ls.length : Int))) :=
  ⟨compile_self h n c x hinv hcur hx hlen,
   fun c2 k ls l name hloc hl hname => resolve_local_self c2 k ls l name hloc hl hname⟩

theorem self_initializer_is_error_witness :
    ∃ (c1 : compile_state) (tok : token),
      compile host_lp64 12 (start_state zero_vm) (bytes_of "\x7b var a = a; \x7d")
        = some (c1, none) ∧
      lexeme_is tok TOKEN_IDENTIFIER (bytes_of "a") ∧
      c1.stderr = [report_at tok
        (bytes_of "Self-referencing local variable \x27%.*s\x27 in initializer")
        [[1], bytes_of "a"]] :=
  have hw := (self_initializer_is_error host_lp64 [] 1024 0 (start_state zero_vm) [97]
    (start_state_inv (by decide)) rfl ⟨97, [], rfl, by decide, by simp, by decide⟩
    (by decide)).1
  Exists.elim hw fun c1 hc1 => Exists.elim hc1 fun tok ht =>
    ⟨c1, tok, ht.1, ht.2.1, ht.2.2.1⟩

/-! ### An assignment to a product -/

/-- Function `named_variable` for a name that is neither a local nor an
upvalue, in the compiler of the script with the one local of slot zero, when
the token ahead is not `=` or assignment is not allowed: it returns, it adds
the name to the constants, and it changes nothing but the VM. -/
theorem named_variable_global (h : host) {ups : List Nat} {M B : Nat} (n : Nat) (vm : VM)
    (sc : scanner_t) (p : parser_t) (f : Nat) (ft : func_type) (l0 : localvar)
    (uv : List upvalue) (sd : Int) (cc : Nat) (err : List diagnostic) (name : token)
    (can_assign : Bool) (ar uc : Nat) (chk : chunk) (nm : Option Nat)
    (hinv : compile_inv h ups M (B + 1) ⟨vm, sc, p, [⟨f, ft, [l0], uv, sd⟩], cc, err⟩)
    (hp : payload_at vm.heap f = some (obj_payload.obj_func ar uc chk nm))
    (hcount : chk.consts.count ≤ 255)
    (hname : identifiers_equal name l0.name = false)
    (hcur : can_assign = true → p.current.type ≠ TOKEN_EQUAL) :
    ∃ (vm1 : VM) (chk1 : chunk),
      named_variable h (n + 1) ⟨vm, sc, p, [⟨f, ft, [l0], uv, sd⟩], cc, err⟩ name can_assign
        = some ⟨vm1, sc, p, [⟨f, ft, [l0], uv, sd⟩], cc, err⟩ ∧
      compile_inv h ups M B ⟨vm1, sc, p, [⟨f, ft, [l0], uv, sd⟩], cc, err⟩ ∧
      payload_at vm1.heap f = some (obj_payload.obj_func ar uc chk1 nm) ∧
      chk1.consts.count = chk.consts.count + 1 := by
  have hinv1 : compile_inv h ups M (B + 1)
      ⟨{ vm with stdout := vm.stdout ++ [out_item.text "local: ",
            out_item.bytes (l0.name.start.take l0.name.len), out_item.text "\n"] },
        sc, p, [⟨f, ft, [l0], uv, sd⟩], cc, err⟩ :=
    compile_inv_congr (compile_inv_print_out hinv [out_item.text "local: ",
      out_item.bytes (l0.name.start.take l0.name.len), out_item.text "\n"]) rfl rfl
  obtain ⟨vm1, cap, s, hle, _, hinv2, _, _, hp2⟩ :=
    identifier_constant_ok h name hinv1 (show _ = _ :: [] from rfl)
      (show payload_at _ f = _ from hp)
  have hic : identifier_constant h
      ⟨{ vm with stdout := vm.stdout ++ [out_item.text "local: ",
            out_item.bytes (l0.name.start.take l0.name.len), out_item.text "\n"] },
        sc, p, [⟨f, ft, [l0], uv, sd⟩], cc, err⟩ name
      = some (⟨vm1, sc, p, [⟨f, ft, [l0], uv, sd⟩], cc, err⟩, chk.consts.count) := hle hcount
  obtain ⟨vm2, hemit, hinv3, _, hp3⟩ :=
    emit_bytes_ok h OP_GET_GLOBAL (Int.toNat (chk.consts.count : Int) % 256) hinv2
      (show _ = _ :: [] from rfl)
  obtain ⟨cap3, hp3⟩ := hp3 ar uc _ nm hp2
  have hemit' : emit_bytes h ⟨vm1, sc, p, [⟨f, ft, [l0], uv, sd⟩], cc, err⟩ OP_GET_GLOBAL
      (Int.toNat (chk.consts.count : Int) % 256)
      = some ⟨vm2, sc, p, [⟨f, ft, [l0], uv, sd⟩], cc, err⟩ := hemit
  have hres : resolve_variable h ⟨vm, sc, p, [⟨f, ft, [l0], uv, sd⟩], cc, err⟩ name
      = some (⟨vm1, sc, p, [⟨f, ft, [l0], uv, sd⟩], cc, err⟩, OP_GET_GLOBAL, OP_SET_GLOBAL,
          (chk.consts.count : Int)) := by
    unfold resolve_variable resolve_local
    simp only [List.head?_cons, Option.bind_eq_bind, Option.some_bind, List.length_singleton]
    unfold resolve_local_loop resolve_local_loop
    simp only [List.getElem?_cons_zero, hname, Bool.false_eq_true, if_false, Option.some_bind,
      print_out, ne_eq, not_true_eq_false, List.length_singleton]
    unfold resolve_upvalue
    simp only [List.getElem?_cons_succ, List.getElem?_nil, Option.some_bind, ne_eq,
      not_true_eq_false, if_false, hic]
  refine ⟨vm2, _, ?_, hinv3, hp3, rfl⟩
  unfold named_variable
  cases can_assign
  · simp only [Option.bind_eq_bind, hres, Option.some_bind, Bool.false_eq_true, if_false,
      hemit']
  · have hmn := match_no h ⟨vm1, sc, p, [⟨f, ft, [l0], uv, sd⟩], cc, err⟩ TOKEN_EQUAL
      (hcur rfl)
    simp only [Option.bind_eq_bind, hres, Option.some_bind, if_true, hmn, Bool.false_eq_true,
      if_false, hemit']

theorem not_this_of_identifier {name : token} {ty : token_type} {w : List Nat}
    (hn : lexeme_is name ty w) (hw : is_identifier w) :
    identifiers_equal name (slot_zero_name FTYPE_SCRIPT) = false :=
  identifiers_equal_other hn slot_zero_lexeme (identifier_not_this hw)

/-- Function `parse_precedence` at the precedence of unary operators, in front
of the identifier `y` followed by `=`: the variable rule runs with
`can_assign = false`, and the `=` is left as the current token. -/
theorem parse_precedence_operand (h : host) {ups : List Nat} {M B : Nat} (n : Nat) (vm : VM)
    (sc : scanner_t) (cur prev : token) (he pm : Bool) (f : Nat) (ft : func_type)
    (uv : List upvalue) (sd : Int) (cc : Nat) (err : List diagnostic) (y rest : List Nat)
    (ar uc : Nat) (chk : chunk) (nm : Option Nat)
    (hinv : compile_inv h ups M (B + 1)
      ⟨vm, sc, ⟨cur, prev, he, pm⟩,
        [⟨f, ft, [⟨slot_zero_name FTYPE_SCRIPT, 0, false⟩], uv, sd⟩], cc, err⟩)
    (hp : payload_at vm.heap f = some (obj_payload.obj_func ar uc chk nm))
    (hcount : chk.consts.count ≤ 255)
    (hy : is_identifier y) (hcur : lexeme_is cur TOKEN_IDENTIFIER y)
    (hsc : sc.current = 32 :: 61 :: rest) (hrest : rest.headD 0 ≠ 61) :
    ∃ (vm1 : VM) (sc1 : scanner_t) (toke : token) (chk1 : chunk),
      parse_precedence h (n + 4)
          ⟨vm, sc, ⟨cur, prev, he, pm⟩,
            [⟨f, ft, [⟨slot_zero_name FTYPE_SCRIPT, 0, false⟩], uv, sd⟩], cc, err⟩ PREC_UNARY
        = some ⟨vm1, sc1, ⟨toke, cur, he, pm⟩,
            [⟨f, ft, [⟨slot_zero_name FTYPE_SCRIPT, 0, false⟩], uv, sd⟩], cc, err⟩ ∧
      compile_inv h ups M B ⟨vm1, sc1, ⟨toke, cur, he, pm⟩,
        [⟨f, ft, [⟨slot_zero_name FTYPE_SCRIPT, 0, false⟩], uv, sd⟩], cc, err⟩ ∧
      payload_at vm1.heap f = some (obj_payload.obj_func ar uc chk1 nm) ∧
      chk1.consts.count = chk.consts.count + 1 ∧
      toke.type = TOKEN_EQUAL ∧ sc1.current = rest := by
  have hfuel := hinv.fuel
  obtain ⟨sc1, toke, hadv, hte, hsc1⟩ :=
    advance_equal h
      ⟨vm, sc, ⟨cur, prev, he, pm⟩,
        [⟨f, ft, [⟨slot_zero_name FTYPE_SCRIPT, 0, false⟩], uv, sd⟩], cc, err⟩
      1 rest hrest (by rw [hsc]; rfl) (by omega)
  have hadv' : advance h
      ⟨vm, sc, ⟨cur, prev, he, pm⟩,
        [⟨f, ft, [⟨slot_zero_name FTYPE_SCRIPT, 0, false⟩], uv, sd⟩], cc, err⟩
      = some ⟨vm, sc1, ⟨toke, cur, he, pm⟩,
          [⟨f, ft, [⟨slot_zero_name FTYPE_SCRIPT, 0, false⟩], uv, sd⟩], cc, err⟩ := hadv
  obtain ⟨vm1, chk1, hnamed, hinv1, hp1, hc1⟩ :=
    named_variable_global h n vm sc1 ⟨toke, cur, he, pm⟩ f ft
      ⟨slot_zero_name FTYPE_SCRIPT, 0, false⟩ uv sd cc err cur false ar uc chk nm
      (compile_inv_congr hinv rfl rfl) hp hcount (not_this_of_identifier hcur hy)
      (fun hca => by cases hca)
  refine ⟨vm1, sc1, toke, chk1, ?_, hinv1, hp1, hc1, hte, hsc1⟩
  have h80 : ¬ ((8 : Nat) ≤ 0) := by decide
  have h81 : ¬ ((8 : Nat) ≤ 1) := by decide
  unfold parse_precedence
  simp only [Option.bind_eq_bind, hadv', Option.some_bind, hcur.1, get_rule]
  unfold apply_rule variable_
  simp only [PREC_UNARY, PREC_ASG, h81, decide_False, hnamed, Option.some_bind]
  unfold infix_rules
  simp only [hte, get_rule, PREC_NONE, h80, if_false, Option.some_bind, Bool.false_eq_true]

/-- Function `binary` behind a `*`, in front of the identifier `y` followed by
`=`. -/
theorem binary_operand (h : host) {ups : List Nat} {M B : Nat} (n : Nat) (vm : VM)
    (sc : scanner_t) (cur prev : token) (he pm : Bool) (f : Nat) (ft : func_type)
    (uv : List upvalue) (sd : Int) (cc : Nat) (err : List diagnostic) (y rest : List Nat)
    (ar uc : Nat) (chk : chunk) (nm : Option Nat)
    (hinv : compile_inv h ups M (B + 1)
      ⟨vm, sc, ⟨cur, prev, he, pm⟩,
        [⟨f, ft, [⟨slot_zero_name FTYPE_SCRIPT, 0, false⟩], uv, sd⟩], cc, err⟩)
    (hp : payload_at vm.heap f = some (obj_payload.obj_func ar uc chk nm))
    (hcount : chk.consts.count ≤ 255) (hprev : prev.type = TOKEN_STAR)
    (hy : is_identifier y) (hcur : lexeme_is cur TOKEN_IDENTIFIER y)
    (hsc : sc.current = 32 :: 61 :: rest) (hrest : rest.headD 0 ≠ 61) :
    ∃ (vm1 : VM) (sc1 : scanner_t) (toke : token),
      binary h (n + 5)
          ⟨vm, sc, ⟨cur, prev, he, pm⟩,
            [⟨f, ft, [⟨slot_zero_name FTYPE_SCRIPT, 0, false⟩], uv, sd⟩], cc, err⟩
        = some ⟨vm1, sc1, ⟨toke, cur, he, pm⟩,
            [⟨f, ft, [⟨slot_zero_name FTYPE_SCRIPT, 0, false⟩], uv, sd⟩], cc, err⟩ ∧
      compile_inv h ups M B ⟨vm1, sc1, ⟨toke, cur, he, pm⟩,
        [⟨f, ft, [⟨slot_zero_name FTYPE_SCRIPT, 0, false⟩], uv, sd⟩], cc, err⟩ ∧
      toke.type = TOKEN_EQUAL ∧ sc1.current = rest := by
  obtain ⟨vm1, sc1, toke, chk1, hpp, hinv1, _, _, hte, hsc1⟩ :=
    parse_precedence_operand h n vm sc cur prev he pm f ft uv sd cc err y rest ar uc chk nm
      hinv hp hcount hy hcur hsc hrest
  obtain ⟨vm2, hemit, hinv2, _⟩ := emit_byte_ok h OP_MULTIPLY hinv1 (show _ = _ :: [] from rfl)
  have hemit' : emit_byte h ⟨vm1, sc1, ⟨toke, cur, he, pm⟩,
        [⟨f, ft, [⟨slot_zero_name FTYPE_SCRIPT, 0, false⟩], uv, sd⟩], cc, err⟩ OP_MULTIPLY
      = some ⟨vm2, sc1, ⟨toke, cur, he, pm⟩,
          [⟨f, ft, [⟨slot_zero_name FTYPE_SCRIPT, 0, false⟩], uv, sd⟩], cc, err⟩ := hemit
  refine ⟨vm2, sc1, toke, ?_, hinv2, hte, hsc1⟩
  have hpp' : parse_precedence h (n + 4)
      ⟨vm, sc, ⟨cur, prev, he, pm⟩,
        [⟨f, ft, [⟨slot_zero_name FTYPE_SCRIPT, 0, false⟩], uv, sd⟩], cc, err⟩ (7 + 1)
      = some ⟨vm1, sc1, ⟨toke, cur, he, pm⟩,
          [⟨f, ft, [⟨slot_zero_name FTYPE_SCRIPT, 0, false⟩], uv, sd⟩], cc, err⟩ := hpp
  unfold binary
  simp only [Option.bind_eq_bind, hprev, get_rule, PREC_FACTOR, hpp', Option.some_bind,
    binary_emit, hemit']

/-- The loop of `parse_precedence` at assignment precedence, in front of a
`*`, the identifier `y` and an `=`: the product is compiled and the `=` is left
as the current token. -/
theorem infix_rules_product (h : host) {ups : List Nat} {M B : Nat} (n : Nat) (vm : VM)
    (sc : scanner_t) (cur prev : token) (he pm : Bool) (f : Nat) (ft : func_type)
    (uv : List upvalue) (sd : Int) (cc : Nat) (err : List diagnostic) (y rest : List Nat)
    (ar uc : Nat) (chk : chunk) (nm : Option Nat)
    (hinv : compile_inv h ups M (B + 1)
      ⟨vm, sc, ⟨cur, prev, he, pm⟩,
        [⟨f, ft, [⟨slot_zero_name FTYPE_SCRIPT, 0, false⟩], uv, sd⟩], cc, err⟩)
    (hp : payload_at vm.heap f = some (obj_payload.obj_func ar uc chk nm))
    (hcount : chk.consts.count ≤ 255) (hcur : cur.type = TOKEN_STAR)
    (hy : is_identifier y)
    (hsc : sc.current = 32 :: y ++ 32 :: 61 :: rest) (hrest : rest.headD 0 ≠ 61)
    (hlen : y.length + 1 < 2 ^ 32) :
    ∃ (vm1 : VM) (sc1 : scanner_t) (toky toke : token),
      infix_rules h (n + 7)
          ⟨vm, sc, ⟨cur, prev, he, pm⟩,
            [⟨f, ft, [⟨slot_zero_name FTYPE_SCRIPT, 0, false⟩], uv, sd⟩], cc, err⟩
          PREC_ASG true
        = some ⟨vm1, sc1, ⟨toke, toky, he, pm⟩,
            [⟨f, ft, [⟨slot_zero_name FTYPE_SCRIPT, 0, false⟩], uv, sd⟩], cc, err⟩ ∧
      compile_inv h ups M B ⟨vm1, sc1, ⟨toke, toky, he, pm⟩,
        [⟨f, ft, [⟨slot_zero_name FTYPE_SCRIPT, 0, false⟩], uv, sd⟩], cc, err⟩ ∧
      toke.type = TOKEN_EQUAL ∧ sc1.current = rest := by
  have hfuel := hinv.fuel
  obtain ⟨sc1, toky, hadv, hty, hsc1⟩ :=
    advance_identifier h
      ⟨vm, sc, ⟨cur, prev, he, pm⟩,
        [⟨f, ft, [⟨slot_zero_name FTYPE_SCRIPT, 0, false⟩], uv, sd⟩], cc, err⟩
      1 y (32 :: 61 :: rest) hy (by show is_alnum 32 = false; decide) (by rw [hsc]; rfl)
      (by omega) (by omega)
  have hadv' : advance h
      ⟨vm, sc, ⟨cur, prev, he, pm⟩,
        [⟨f, ft, [⟨slot_zero_name FTYPE_SCRIPT, 0, false⟩], uv, sd⟩], cc, err⟩
      = some ⟨vm, sc1, ⟨toky, cur, he, pm⟩,
          [⟨f, ft, [⟨slot_zero_name FTYPE_SCRIPT, 0, false⟩], uv, sd⟩], cc, err⟩ := hadv
  obtain ⟨vm1, sc2, toke, hbin, hinv1, hte, hsc2⟩ :=
    binary_operand h n vm sc1 toky cur he pm f ft uv sd cc err y rest ar uc chk nm
      (compile_inv_congr hinv rfl rfl) hp hcount hcur hy hty hsc1 hrest
  refine ⟨vm1, sc2, toky, toke, ?_, hinv1, hte, hsc2⟩
  have h17 : (1 : Nat) ≤ 7 := by decide
  have h10 : ¬ ((1 : Nat) ≤ 0) := by decide
  unfold infix_rules
  simp only [hcur, get_rule, PREC_ASG, PREC_FACTOR, h17, if_true, Option.bind_eq_bind, hadv',
    Option.some_bind]
  unfold apply_rule
  simp only [hbin, Option.some_bind]
  unfold infix_rules
  simp only [hte, get_rule, PREC_NONE, h10, if_false]

/-- Function `parse_precedence` at assignment precedence in front of
`x * y = z;`: the product is compiled, the `=` is consumed and reported. -/
theorem parse_precedence_product (h : host) {ups : List Nat} {M B : Nat} (n : Nat) (vm : VM)
    (sc : scanner_t) (cur prev : token) (he : Bool) (f : Nat) (ft : func_type)
    (uv : List upvalue) (sd : Int) (cc : Nat) (err : List diagnostic) (x y z : List Nat)
    (ar uc : Nat) (chk : chunk) (nm : Option Nat)
    (hinv : compile_inv h ups M (B + 2)
      ⟨vm, sc, ⟨cur, prev, he, false⟩,
        [⟨f, ft, [⟨slot_zero_name FTYPE_SCRIPT, 0, false⟩], uv, sd⟩], cc, err⟩)
    (hp : payload_at vm.heap f = some (obj_payload.obj_func ar uc chk nm))
    (hcount : chk.consts.count ≤ 254)
    (hx : is_identifier x) (hy : is_identifier y) (hz : is_identifier z)
    (hcur : lexeme_is cur TOKEN_IDENTIFIER x)
    (hsc : sc.current = 32 :: 42 :: 32 :: (y ++ 32 :: 61 :: 32 :: (z ++ [59])))
    (hlen : y.length + z.length + 2 < 2 ^ 32) :
    ∃ (vm1 : VM) (sc1 : scanner_t) (toke tokz : token),
      parse_precedence h (n + 8)
          ⟨vm, sc, ⟨cur, prev, he, false⟩,
            [⟨f, ft, [⟨slot_zero_name FTYPE_SCRIPT, 0, false⟩], uv, sd⟩], cc, err⟩ PREC_ASG
        = some ⟨vm1, sc1, ⟨tokz, toke, true, true⟩,
            [⟨f, ft, [⟨slot_zero_name FTYPE_SCRIPT, 0, false⟩], uv, sd⟩], cc,
            err ++ [report_at toke (bytes_of "Invalid assignment target") []]⟩ ∧
      compile_inv h ups M B ⟨vm1, sc1, ⟨tokz, toke, true, true⟩,
        [⟨f, ft, [⟨slot_zero_name FTYPE_SCRIPT, 0, false⟩], uv, sd⟩], cc,
        err ++ [report_at toke (bytes_of "Invalid assignment target") []]⟩ ∧
      toke.type = TOKEN_EQUAL ∧ lexeme_is tokz TOKEN_IDENTIFIER z ∧ sc1.current = [59] := by
  have hfuel := hinv.fuel
  obtain ⟨sc1, toks, hadv1, hts, hsc1⟩ :=
    advance_punct h
      ⟨vm, sc, ⟨cur, prev, he, false⟩,
        [⟨f, ft, [⟨slot_zero_name FTYPE_SCRIPT, 0, false⟩], uv, sd⟩], cc, err⟩
      1 42 (32 :: (y ++ 32 :: 61 :: 32 :: (z ++ [59]))) TOKEN_STAR
      (Or.inr (Or.inr (Or.inr ⟨rfl, rfl⟩))) (by rw [hsc]; rfl) (by omega)
  have hadv1' : advance h
      ⟨vm, sc, ⟨cur, prev, he, false⟩,
        [⟨f, ft, [⟨slot_zero_name FTYPE_SCRIPT, 0, false⟩], uv, sd⟩], cc, err⟩
      = some ⟨vm, sc1, ⟨toks, cur, he, false⟩,
          [⟨f, ft, [⟨slot_zero_name FTYPE_SCRIPT, 0, false⟩], uv, sd⟩], cc, err⟩ := hadv1
  obtain ⟨vm1, chk1, hnamed, hinv1, hp1, hc1⟩ :=
    named_variable_global h (n + 4) vm sc1 ⟨toks, cur, he, false⟩ f ft
      ⟨slot_zero_name FTYPE_SCRIPT, 0, false⟩ uv sd cc err cur true ar uc chk nm
      (compile_inv_congr hinv rfl rfl) hp (by omega) (not_this_of_identifier hcur hx)
      (fun _ => by show toks.type ≠ TOKEN_EQUAL; rw [hts]; decide)
  obtain ⟨vm2, sc2, toky, toke, hinfix, hinv2, hte, hsc2⟩ :=
    infix_rules_product h n vm1 sc1 toks cur he false f ft uv sd cc err y (32 :: (z ++ [59]))
      ar uc chk1 nm hinv1 hp1 (by omega) hts hy (by rw [hsc1]; rfl)
      (by show (32 : Nat) ≠ 61; decide) (by omega)
  obtain ⟨sc3, tokz, hadv3, htz, hsc3⟩ :=
    advance_identifier h
      ⟨vm2, sc2, ⟨toke, toky, he, false⟩,
        [⟨f, ft, [⟨slot_zero_name FTYPE_SCRIPT, 0, false⟩], uv, sd⟩], cc, err⟩
      1 z [59] hz (by decide) (by rw [hsc2]; rfl) (by omega) (by omega)
  have hadv3' : advance h
      ⟨vm2, sc2, ⟨toke, toky, he, false⟩,
        [⟨f, ft, [⟨slot_zero_name FTYPE_SCRIPT, 0, false⟩], uv, sd⟩], cc, err⟩
      = some ⟨vm2, sc3, ⟨tokz, toke, he, false⟩,
          [⟨f, ft, [⟨slot_zero_name FTYPE_SCRIPT, 0, false⟩], uv, sd⟩], cc, err⟩ := hadv3
  have hm := match_yes h _ _ TOKEN_EQUAL hte hadv3'
  refine ⟨vm2, sc3, toke, tokz, ?_, compile_inv_congr hinv2 rfl rfl, hte, htz, hsc3⟩
  unfold parse_precedence
  simp only [Option.bind_eq_bind, hadv1', Option.some_bind, hcur.1, get_rule]
  unfold apply_rule variable_
  simp only [PREC_ASG, le_refl, decide_True, hnamed, Option.some_bind]
  have hinfix' : infix_rules h (n + 7)
      ⟨vm1, sc1, ⟨toks, cur, he, false⟩,
        [⟨f, ft, [⟨slot_zero_name FTYPE_SCRIPT, 0, false⟩], uv, sd⟩], cc, err⟩ 1 true
      = some ⟨vm2, sc2, ⟨toke, toky, he, false⟩,
          [⟨f, ft, [⟨slot_zero_name FTYPE_SCRIPT, 0, false⟩], uv, sd⟩], cc, err⟩ := hinfix
  simp only [hinfix', Option.some_bind, if_true, hm]
  rfl

/-- Function `expression_statement` in front of `x * y = z;`. -/
theorem expression_statement_product (h : host) {ups : List Nat} {M B : Nat} (n : Nat)
    (vm : VM) (sc : scanner_t) (cur prev : token) (he : Bool) (f : Nat) (ft : func_type)
    (uv : List upvalue) (sd : Int) (cc : Nat) (err : List diagnostic) (x y z : List Nat)
    (ar uc : Nat) (chk : chunk) (nm : Option Nat)
    (hinv : compile_inv h ups M (B + 2)
      ⟨vm, sc, ⟨cur, prev, he, false⟩,
        [⟨f, ft, [⟨slot_zero_name FTYPE_SCRIPT, 0, false⟩], uv, sd⟩], cc, err⟩)
    (hp : payload_at vm.heap f = some (obj_payload.obj_func ar uc chk nm))
    (hcount : chk.consts.count ≤ 254)
    (hx : is_identifier x) (hy : is_identifier y) (hz : is_identifier z)
    (hcur : lexeme_is cur TOKEN_IDENTIFIER x)
    (hsc : sc.current = 32 :: 42 :: 32 :: (y ++ 32 :: 61 :: 32 :: (z ++ [59])))
    (hlen : y.length + z.length + 2 < 2 ^ 32) :
    ∃ (vm1 : VM) (sc1 : scanner_t) (toke tokz : token),
      expression_statement h (n + 10)
          ⟨vm, sc, ⟨cur, prev, he, false⟩,
            [⟨f, ft, [⟨slot_zero_name FTYPE_SCRIPT, 0, false⟩], uv, sd⟩], cc, err⟩
        = some ⟨vm1, sc1, ⟨tokz, toke, true, true⟩,
            [⟨f, ft, [⟨slot_zero_name FTYPE_SCRIPT, 0, false⟩], uv, sd⟩], cc,
            err ++ [report_at toke (bytes_of "Invalid assignment target") []]⟩ ∧
      compile_inv h ups M B ⟨vm1, sc1, ⟨tokz, toke, true, true⟩,
        [⟨f, ft, [⟨slot_zero_name FTYPE_SCRIPT, 0, false⟩], uv, sd⟩], cc,
        err ++ [report_at toke (bytes_of "Invalid assignment target") []]⟩ ∧
      toke.type = TOKEN_EQUAL ∧ lexeme_is tokz TOKEN_IDENTIFIER z ∧ sc1.current = [59] := by
  obtain ⟨vm1, sc1, toke, tokz, hpp, hinv1, hte, htz, hsc1⟩ :=
    parse_precedence_product h n vm sc cur prev he f ft uv sd cc err x y z ar uc chk nm
      hinv hp hcount hx hy hz hcur hsc hlen
  obtain ⟨vm2, hemit, hinv2, _⟩ := emit_byte_ok h OP_POP hinv1 (show _ = _ :: [] from rfl)
  have hemit' : emit_byte h ⟨vm1, sc1, ⟨tokz, toke, true, true⟩,
        [⟨f, ft, [⟨slot_zero_name FTYPE_SCRIPT, 0, false⟩], uv, sd⟩], cc,
        err ++ [report_at toke (bytes_of "Invalid assignment target") []]⟩ OP_POP
      = some ⟨vm2, sc1, ⟨tokz, toke, true, true⟩,
          [⟨f, ft, [⟨slot_zero_name FTYPE_SCRIPT, 0, false⟩], uv, sd⟩], cc,
          err ++ [report_at toke (bytes_of "Invalid assignment target") []]⟩ := hemit
  have hcons : consume h ⟨vm1, sc1, ⟨tokz, toke, true, true⟩,
        [⟨f, ft, [⟨slot_zero_name FTYPE_SCRIPT, 0, false⟩], uv, sd⟩], cc,
        err ++ [report_at toke (bytes_of "Invalid assignment target") []]⟩ TOKEN_SEMICOLON
        (bytes_of "Expected \x27;\x27 to end a statement")
      = some ⟨vm1, sc1, ⟨tokz, toke, true, true⟩,
          [⟨f, ft, [⟨slot_zero_name FTYPE_SCRIPT, 0, false⟩], uv, sd⟩], cc,
          err ++ [report_at toke (bytes_of "Invalid assignment target") []]⟩ := by
    rw [consume_no h _ _ _ (by show tokz.type ≠ TOKEN_SEMICOLON; rw [htz.1]; decide)]
    rfl
  refine ⟨vm2, sc1, toke, tokz, ?_, hinv2, hte, htz, hsc1⟩
  unfold expression_statement expression
  simp only [Option.bind_eq_bind, hpp, Option.some_bind, hcons, hemit']

/-- Function `declaration` in front of `x * y = z;` and the end of the
source: the statement is compiled with the report, and `synchronize` skips to
the end of the source. -/
theorem declaration_product (h : host) {ups : List Nat} {M B : Nat} (n : Nat)
    (vm : VM) (sc : scanner_t) (cur prev : token) (he : Bool) (f : Nat) (ft : func_type)
    (uv : List upvalue) (sd : Int) (cc : Nat) (err : List diagnostic) (x y z : List Nat)
    (ar uc : Nat) (chk : chunk) (nm : Option Nat)
    (hinv : compile_inv h ups M (B + 2)
      ⟨vm, sc, ⟨cur, prev, he, false⟩,
        [⟨f, ft, [⟨slot_zero_name FTYPE_SCRIPT, 0, false⟩], uv, sd⟩], cc, err⟩)
    (hp : payload_at vm.heap f = some (obj_payload.obj_func ar uc chk nm))
    (hcount : chk.consts.count ≤ 254)
    (hx : is_identifier x) (hy : is_identifier y) (hz : is_identifier z)
    (hcur : lexeme_is cur TOKEN_IDENTIFIER x)
    (hsc : sc.current = 32 :: 42 :: 32 :: (y ++ 32 :: 61 :: 32 :: (z ++ [59])))
    (hlen : y.length + z.length + 2 < 2 ^ 32) :
    ∃ (vm1 : VM) (sc1 : scanner_t) (toke toks tokf : token),
      declaration h (n + 12)
          ⟨vm, sc, ⟨cur, prev, he, false⟩,
            [⟨f, ft, [⟨slot_zero_name FTYPE_SCRIPT, 0, false⟩], uv, sd⟩], cc, err⟩
        = some ⟨vm1, sc1, ⟨tokf, toks, true, false⟩,
            [⟨f, ft, [⟨slot_zero_name FTYPE_SCRIPT, 0, false⟩], uv, sd⟩], cc,
            err ++ [report_at toke (bytes_of "Invalid assignment target") []]⟩ ∧
      compile_inv h ups M B ⟨vm1, sc1, ⟨tokf, toks, true, false⟩,
        [⟨f, ft, [⟨slot_zero_name FTYPE_SCRIPT, 0, false⟩], uv, sd⟩], cc,
        err ++ [report_at toke (bytes_of "Invalid assignment target") []]⟩ ∧
      toke.type = TOKEN_EQUAL ∧ tokf.type = TOKEN_EOF ∧ sc1.current = [] := by
  have hfuel := hinv.fuel
  obtain ⟨vm1, sc1, toke, tokz, hes, hinv1, hte, htz, hsc1⟩ :=
    expression_statement_product h n vm sc cur prev he f ft uv sd cc err x y z ar uc chk nm
      hinv hp hcount hx hy hz hcur hsc hlen
  -- `synchronize` skips `z` and the semicolon
  obtain ⟨sc2, toks, hadv2, hts, hsc2⟩ :=
    advance_punct h
      ⟨vm1, sc1, ⟨tokz, toke, true, false⟩,
        [⟨f, ft, [⟨slot_zero_name FTYPE_SCRIPT, 0, false⟩], uv, sd⟩], cc,
        err ++ [report_at toke (bytes_of "Invalid assignment target") []]⟩
      0 59 [] TOKEN_SEMICOLON (Or.inr (Or.inr (Or.inl ⟨rfl, rfl⟩))) (by rw [hsc1]; rfl)
      (by omega)
  have hadv2' : advance h
      ⟨vm1, sc1, ⟨tokz, toke, true, false⟩,
        [⟨f, ft, [⟨slot_zero_name FTYPE_SCRIPT, 0, false⟩], uv, sd⟩], cc,
        err ++ [report_at toke (bytes_of "Invalid assignment target") []]⟩
      = some ⟨vm1, sc2, ⟨toks, tokz, true, false⟩,
          [⟨f, ft, [⟨slot_zero_name FTYPE_SCRIPT, 0, false⟩], uv, sd⟩], cc,
          err ++ [report_at toke (bytes_of "Invalid assignment target") []]⟩ := hadv2
  obtain ⟨sc3, tokf, hadv3, htf, hsc3⟩ :=
    advance_eof h
      ⟨vm1, sc2, ⟨toks, tokz, true, false⟩,
        [⟨f, ft, [⟨slot_zero_name FTYPE_SCRIPT, 0, false⟩], uv, sd⟩], cc,
        err ++ [report_at toke (bytes_of "Invalid assignment target") []]⟩
      0 (by rw [hsc2]; rfl) (by omega)
  have hadv3' : advance h
      ⟨vm1, sc2, ⟨toks, tokz, true, false⟩,
        [⟨f, ft, [⟨slot_zero_name FTYPE_SCRIPT, 0, false⟩], uv, sd⟩], cc,
        err ++ [report_at toke (bytes_of "Invalid assignment target") []]⟩
      = some ⟨vm1, sc3, ⟨tokf, toks, true, false⟩,
          [⟨f, ft, [⟨slot_zero_name FTYPE_SCRIPT, 0, false⟩], uv, sd⟩], cc,
          err ++ [report_at toke (bytes_of "Invalid assignment target") []]⟩ := hadv3
  refine ⟨vm1, sc3, toke, toks, tokf, ?_, compile_inv_congr hinv1 rfl rfl, hte, htf, hsc3⟩
  have hmn : ∀ ty : token_type, ty ≠ TOKEN_IDENTIFIER →
      match_ h ⟨vm, sc, ⟨cur, prev, he, false⟩,
        [⟨f, ft, [⟨slot_zero_name FTYPE_SCRIPT, 0, false⟩], uv, sd⟩], cc, err⟩ ty
      = some (⟨vm, sc, ⟨cur, prev, he, false⟩,
        [⟨f, ft, [⟨slot_zero_name FTYPE_SCRIPT, 0, false⟩], uv, sd⟩], cc, err⟩, false) :=
    fun ty hty => match_no h _ _ (by show cur.type ≠ ty; rw [hcur.1]; exact hty.symm)
  obtain ⟨fl, hfl⟩ : ∃ fl, h.fuel = fl + 3 := ⟨h.fuel - 3, by omega⟩
  unfold declaration
  simp only [Option.bind_eq_bind, hmn TOKEN_CLASS (by decide), hmn TOKEN_VAR (by decide),
    hmn TOKEN_FUN (by decide), Option.some_bind, Bool.false_eq_true, if_false]
  unfold statement
  simp only [Option.bind_eq_bind, hmn TOKEN_PRINT (by decide),
    hmn TOKEN_LEFT_BRACE (by decide), hmn TOKEN_WHILE (by decide), hmn TOKEN_FOR (by decide),
    hmn TOKEN_IF (by decide), hmn TOKEN_RETURN (by decide), Option.some_bind,
    Bool.false_eq_true, if_false, hes, if_true]
  unfold synchronize
  rw [hfl]
  unfold synchronize_loop
  simp only [htz.1, hte, ne_eq, reduceCtorEq, not_false_eq_true, if_true, if_false, hadv2']
  unfold synchronize_loop
  simp only [hts, htz.1, ne_eq, reduceCtorEq, not_false_eq_true, if_true, if_false, hadv3']
  unfold synchronize_loop
  simp only [htf, ne_eq, not_true_eq_false, if_false]

/-- Function `compile` on the source `x * y = z;`: it returns null, with one
report, "Invalid assignment target", made at the `=`. -/
theorem compile_product (h : host) {ups : List Nat} {M : Nat} (n : Nat) (c : compile_state)
    (x y z : List Nat) (hinv : compile_inv h ups M 3 c) (hcur : c.current = [])
    (hx : is_identifier x) (hy : is_identifier y) (hz : is_identifier z)
    (hlen : x.length + y.length + z.length + 2 < 2 ^ 32) :
    ∃ (c1 : compile_state) (tok : token),
      compile h (n + 13) c (product_assignment x y z) = some (c1, none) ∧
      tok.type = TOKEN_EQUAL ∧
      c1.stderr = c.stderr ++ [report_at tok (bytes_of "Invalid assignment target") []] ∧
      c1.parser.had_error = true := by
  have hfuel := hinv.fuel
  obtain ⟨vm, sc, p, ks, cc, err⟩ := c
  have hks : ks = [] := hcur
  subst hks
  have hsrc0 : product_assignment x y z
      = x ++ 32 :: 42 :: 32 :: (y ++ 32 :: 61 :: 32 :: (z ++ [59])) := by
    simp [product_assignment, bytes_of]
  have hsrc : c_string (product_assignment x y z)
      = x ++ 32 :: 42 :: 32 :: (y ++ 32 :: 61 :: 32 :: (z ++ [59])) := by
    rw [hsrc0]
    apply c_string_of_nonzero
    intro b hb
    simp only [List.mem_append, List.mem_cons, List.mem_singleton, List.not_mem_nil,
      or_false] at hb
    rcases hb with hb | hb | hb | hb | hb | hb | hb | hb | hb | hb
    · exact identifier_nonzero hx b hb
    · omega
    · omega
    · omega
    · exact identifier_nonzero hy b hb
    · omega
    · omega
    · omega
    · exact identifier_nonzero hz b hb
    · omega
  obtain ⟨vm1, f, hinit, hinv1, hp1, _⟩ :=
    @init_compiler_script_ok h ups M 2
      ⟨vm, init_scanner (product_assignment x y z), p, [], cc, err⟩
      (compile_inv_congr hinv rfl rfl)
  have hinit' : init_compiler h ⟨vm, init_scanner (product_assignment x y z), p, [], cc, err⟩
      FTYPE_SCRIPT
      = some ⟨vm1, init_scanner (product_assignment x y z), p,
          [⟨f, FTYPE_SCRIPT, [⟨slot_zero_name FTYPE_SCRIPT, 0, false⟩], [], 0⟩], cc, err⟩ :=
    hinit
  obtain ⟨sc1, tokx, hadv1, htx, hsc1⟩ :=
    advance_identifier h
      ⟨vm1, init_scanner (product_assignment x y z), ⟨p.current, p.previous, false, false⟩,
        [⟨f, FTYPE_SCRIPT, [⟨slot_zero_name FTYPE_SCRIPT, 0, false⟩], [], 0⟩], cc, err⟩
      0 x (32 :: 42 :: 32 :: (y ++ 32 :: 61 :: 32 :: (z ++ [59]))) hx
      (by show is_alnum 32 = false; decide)
      (by show (init_scanner _).current = _
          unfold init_scanner
          rw [hsrc]
          rfl)
      (by omega) (by omega)
  have hadv1' : advance h
      ⟨vm1, init_scanner (product_assignment x y z), ⟨p.current, p.previous, false, false⟩,
        [⟨f, FTYPE_SCRIPT, [⟨slot_zero_name FTYPE_SCRIPT, 0, false⟩], [], 0⟩], cc, err⟩
      = some ⟨vm1, sc1, ⟨tokx, p.current, false, false⟩,
          [⟨f, FTYPE_SCRIPT, [⟨slot_zero_name FTYPE_SCRIPT, 0, false⟩], [], 0⟩], cc, err⟩ :=
    hadv1
  obtain ⟨vm2, sc2, toke, toks, tokf, hdecl, hinv2, hte, htf, hsc2⟩ :=
    declaration_product h n vm1 sc1 tokx p.current false f FTYPE_SCRIPT [] 0 cc err x y z
      0 0 init_chunk none (compile_inv_congr hinv1 rfl rfl) hp1 (by decide) hx hy hz htx hsc1
      (by omega)
  obtain ⟨sc3, tokg, hadv3, htg, hsc3⟩ :=
    advance_eof h
      ⟨vm2, sc2, ⟨tokf, toks, true, false⟩,
        [⟨f, FTYPE_SCRIPT, [⟨slot_zero_name FTYPE_SCRIPT, 0, false⟩], [], 0⟩], cc,
        err ++ [report_at toke (bytes_of "Invalid assignment target") []]⟩
      0 (by rw [hsc2]; rfl) (by omega)
  have hadv3' : advance h
      ⟨vm2, sc2, ⟨tokf, toks, true, false⟩,
        [⟨f, FTYPE_SCRIPT, [⟨slot_zero_name FTYPE_SCRIPT, 0, false⟩], [], 0⟩], cc,
        err ++ [report_at toke (bytes_of "Invalid assignment target") []]⟩
      = some ⟨vm2, sc3, ⟨tokg, tokf, true, false⟩,
          [⟨f, FTYPE_SCRIPT, [⟨slot_zero_name FTYPE_SCRIPT, 0, false⟩], [], 0⟩], cc,
          err ++ [report_at toke (bytes_of "Invalid assignment target") []]⟩ := hadv3
  obtain ⟨vm3, hend⟩ :=
    end_compiler_script h vm2 sc3 ⟨tokg, tokf, true, false⟩ f
      [⟨slot_zero_name FTYPE_SCRIPT, 0, false⟩] [] 0 cc
      (err ++ [report_at toke (bytes_of "Invalid assignment target") []])
      (compile_inv_congr hinv2 rfl rfl) rfl
  refine ⟨⟨vm3, sc3, ⟨tokg, tokf, true, false⟩, [], cc,
    err ++ [report_at toke (bytes_of "Invalid assignment target") []]⟩, toke, ?_, hte, rfl,
    rfl⟩
  have hm1 := match_no h
    ⟨vm1, sc1, ⟨tokx, p.current, false, false⟩,
      [⟨f, FTYPE_SCRIPT, [⟨slot_zero_name FTYPE_SCRIPT, 0, false⟩], [], 0⟩], cc, err⟩
    TOKEN_EOF (by show tokx.type ≠ TOKEN_EOF; rw [htx.1]; decide)
  have hm2 := match_yes h _ _ TOKEN_EOF htf hadv3'
  unfold compile
  simp only [Option.bind_eq_bind, hinit', Option.some_bind, hadv1']
  unfold compile_declarations
  simp only [Option.bind_eq_bind, hm1, Option.some_bind, Bool.false_eq_true, if_false, hdecl]
  unfold compile_declarations
  simp only [Option.bind_eq_bind, hm2, Option.some_bind, if_true, hend]

/-! ### The variable rule without assignment consumes no token -/

theorem keeps_tokens_refl (c : compile_state) : keeps_tokens c c := ⟨rfl, rfl, rfl⟩

theorem keeps_tokens_trans {c1 c2 c3 : compile_state} (h12 : keeps_tokens c1 c2)
    (h23 : keeps_tokens c2 c3) : keeps_tokens c1 c3 :=
  ⟨h23.1.trans h12.1, h23.2.1.trans h12.2.1, h23.2.2.trans h12.2.2⟩

theorem keeps_tokens_error_at (c : compile_state) (tok : token) (msg : List Nat)
    (args : List (List Nat)) : keeps_tokens c (error_at c tok msg args) := by
  unfold error_at
  split
  · exact keeps_tokens_refl c
  · exact ⟨rfl, rfl, rfl⟩

theorem keeps_tokens_error (c : compile_state) (msg : List Nat) (args : List (List Nat)) :
    keeps_tokens c (error c msg args) :=
  keeps_tokens_error_at c _ msg args

theorem emit_byte_keeps {h : host} {c c1 : compile_state} {b : Nat}
    (hrun : emit_byte h c b = some c1) : keeps_tokens c c1 := by
  unfold emit_byte at hrun
  cases hk : c.current.head? with
  | none => simp [hk] at hrun
  | some k =>
    simp only [hk, Option.bind_eq_bind, Option.some_bind] at hrun
    cases hw : write_chunk h.sz h.fuel c.vm k.func (b % 256) c.parser.previous.line with
    | none => simp [hw] at hrun
    | some vm1 =>
      simp only [hw, Option.some_bind, Option.some.injEq] at hrun
      subst hrun
      exact ⟨rfl, rfl, rfl⟩

theorem emit_bytes_keeps {h : host} {c c1 : compile_state} {b1 b2 : Nat}
    (hrun : emit_bytes h c b1 b2 = some c1) : keeps_tokens c c1 := by
  unfold emit_bytes at hrun
  cases h1 : emit_byte h c b1 with
  | none => simp [h1] at hrun
  | some c2 =>
    simp only [h1, Option.bind_eq_bind, Option.some_bind] at hrun
    exact keeps_tokens_trans (emit_byte_keeps h1) (emit_byte_keeps hrun)

theorem make_constant_keeps {h : host} {c c1 : compile_state} {val : value} {r : Nat}
    (hrun : make_constant h c val = some (c1, r)) : keeps_tokens c c1 := by
  unfold make_constant at hrun
  cases hk : c.current.head? with
  | none => simp [hk] at hrun
  | some k =>
    simp only [hk, Option.bind_eq_bind, Option.some_bind] at hrun
    cases ha : add_constant h.sz h.fuel c.vm k.func val with
    | none => simp [ha] at hrun
    | some r1 =>
      obtain ⟨vm1, constant⟩ := r1
      simp only [ha, Option.some_bind] at hrun
      split at hrun
      · simp only [Option.some.injEq, Prod.mk.injEq] at hrun
        rw [← hrun.1]
        exact @keeps_tokens_trans c { c with vm := vm1 } _ ⟨rfl, rfl, rfl⟩
          (keeps_tokens_error _ _ _)
      · simp only [Option.some.injEq, Prod.mk.injEq] at hrun
        rw [← hrun.1]
        exact ⟨rfl, rfl, rfl⟩

theorem identifier_constant_keeps {h : host} {c c1 : compile_state} {name : token} {r : Nat}
    (hrun : identifier_constant h c name = some (c1, r)) : keeps_tokens c c1 := by
  unfold identifier_constant at hrun
  cases hc : copy_string h.sz h.fuel c.vm (name.start.take name.len) (h.fresh c.vm.heap) with
  | none => simp [hc] at hrun
  | some r1 =>
    obtain ⟨vm1, s⟩ := r1
    simp only [hc, Option.bind_eq_bind, Option.some_bind] at hrun
    exact @keeps_tokens_trans c { c with vm := vm1 } _ ⟨rfl, rfl, rfl⟩
      (make_constant_keeps hrun)

theorem resolve_local_loop_keeps (locals : List localvar) (name : token) :
    ∀ (i : Nat) (c c1 : compile_state) (r : Int),
      resolve_local_loop locals name i c = some (c1, r) → keeps_tokens c c1 := by
  intro i
  induction i with
  | zero =>
    intro c c1 r hrun
    unfold resolve_local_loop at hrun
    simp only [Option.some.injEq, Prod.mk.injEq] at hrun
    rw [← hrun.1]
    exact keeps_tokens_refl c
  | succ i ih =>
    intro c c1 r hrun
    unfold resolve_local_loop at hrun
    cases hl : locals[i]? with
    | none => simp [hl] at hrun
    | some l =>
      simp only [hl] at hrun
      split at hrun
      · simp only [Option.some.injEq, Prod.mk.injEq] at hrun
        rw [← hrun.1]
        split
        · exact @keeps_tokens_trans c (print_out c _) _ ⟨rfl, rfl, rfl⟩
            (keeps_tokens_error _ _ _)
        · exact ⟨rfl, rfl, rfl⟩
      · exact @keeps_tokens_trans c (print_out c _) _ ⟨rfl, rfl, rfl⟩ (ih _ _ _ hrun)

theorem add_upvalue_keeps {c c1 : compile_state} {d index : Nat} {is_local : Bool} {r : Int}
    (hrun : add_upvalue c d index is_local = some (c1, r)) : keeps_tokens c c1 := by
  unfold add_upvalue at hrun
  cases hk : c.current[d]? with
  | none => simp [hk] at hrun
  | some k =>
    simp only [hk, Option.bind_eq_bind, Option.some_bind] at hrun
    cases ho : c.vm.heap k.func with
    | none => simp [ho] at hrun
    | some o =>
      simp only [ho, Option.some_bind] at hrun
      split at hrun
      · split at hrun
        · cases hrun
        · split at hrun
          · simp only [Option.some.injEq, Prod.mk.injEq] at hrun
            rw [← hrun.1]
            exact keeps_tokens_refl c
          · split at hrun
            · simp only [Option.some.injEq, Prod.mk.injEq] at hrun
              rw [← hrun.1]
              exact keeps_tokens_error _ _ _
            · simp only [Option.bind_eq_bind, Option.bind_eq_some, Option.some.injEq,
                Prod.mk.injEq] at hrun
              obtain ⟨ups, _, hrun, _⟩ := hrun
              rw [← hrun]
              exact ⟨rfl, rfl, rfl⟩
      · cases hrun

theorem resolve_upvalue_keeps (name : token) :
    ∀ (n : Nat) (c c1 : compile_state) (d : Nat) (r : Int),
      resolve_upvalue name n c d = some (c1, r) → keeps_tokens c c1 := by
  intro n
  induction n with
  | zero =>
    intro c c1 d r hrun
    unfold resolve_upvalue at hrun
    cases hrun
  | succ n ih =>
    intro c c1 d r hrun
    unfold resolve_upvalue at hrun
    cases he : c.current[d + 1]? with
    | none =>
      simp only [he, Option.some.injEq, Prod.mk.injEq] at hrun
      rw [← hrun.1]
      exact keeps_tokens_refl c
    | some enclosing =>
      simp only [he, Option.bind_eq_bind] at hrun
      cases hr : resolve_local c enclosing name with
      | none => simp [hr] at hrun
      | some r1 =>
        obtain ⟨c2, local_⟩ := r1
        have hk2 : keeps_tokens c c2 := resolve_local_loop_keeps _ _ _ _ _ _ hr
        simp only [hr, Option.some_bind] at hrun
        split at hrun
        · cases hl : enclosing.locals[local_.toNat]? with
          | none => simp [hl] at hrun
          | some l =>
            simp only [hl, Option.some_bind] at hrun
            have hk3 := add_upvalue_keeps hrun
            exact keeps_tokens_trans hk2 (show keeps_tokens c2 c1 from hk3)
        · cases hu : resolve_upvalue name n c2 (d + 1) with
          | none => simp [hu] at hrun
          | some r2 =>
            obtain ⟨c3, upvalue⟩ := r2
            have hk3 : keeps_tokens c2 c3 := ih _ _ _ _ hu
            simp only [hu, Option.some_bind] at hrun
            split at hrun
            · exact keeps_tokens_trans hk2 (keeps_tokens_trans hk3 (add_upvalue_keeps hrun))
            · simp only [Option.some.injEq, Prod.mk.injEq] at hrun
              rw [← hrun.1]
              exact keeps_tokens_trans hk2 hk3

theorem resolve_variable_keeps {h : host} {c c1 : compile_state} {name : token}
    {g s : Nat} {a : Int} (hrun : resolve_variable h c name = some (c1, g, s, a)) :
    keeps_tokens c c1 := by
  unfold resolve_variable at hrun
  cases hk : c.current.head? with
  | none => simp [hk] at hrun
  | some k =>
    simp only [hk, Option.bind_eq_bind, Option.some_bind] at hrun
    cases hr : resolve_local c k name with
    | none => simp [hr] at hrun
    | some r1 =>
      obtain ⟨c2, arg⟩ := r1
      have hk2 : keeps_tokens c c2 := resolve_local_loop_keeps _ _ _ _ _ _ hr
      simp only [hr, Option.some_bind] at hrun
      split at hrun
      · simp only [Option.some.injEq, Prod.mk.injEq] at hrun
        rw [← hrun.1]
        exact hk2
      · cases hu : resolve_upvalue name (c2.current.length + 1) c2 0 with
        | none => simp [hu] at hrun
        | some r2 =>
          obtain ⟨c3, arg2⟩ := r2
          have hk3 : keeps_tokens c2 c3 := resolve_upvalue_keeps _ _ _ _ _ _ hu
          simp only [hu, Option.some_bind] at hrun
          split at hrun
          · simp only [Option.some.injEq, Prod.mk.injEq] at hrun
            rw [← hrun.1]
            exact keeps_tokens_trans hk2 hk3
          · cases hi : identifier_constant h c3 name with
            | none => simp [hi] at hrun
            | some r3 =>
              obtain ⟨c4, arg3⟩ := r3
              simp only [hi, Option.some_bind, Option.some.injEq, Prod.mk.injEq] at hrun
              rw [← hrun.1]
              exact keeps_tokens_trans hk2
                (keeps_tokens_trans hk3 (identifier_constant_keeps hi))

/-- Function `named_variable` with `can_assign = false` consumes no token. -/
theorem named_variable_keeps {h : host} {n : Nat} {c c1 : compile_state} {name : token}
    (hrun : named_variable h n c name false = some c1) : keeps_tokens c c1 := by
  cases n with
  | zero =>
    unfold named_variable at hrun
    cases hrun
  | succ n =>
    unfold named_variable at hrun
    cases hr : resolve_variable h c name with
    | none => simp [hr] at hrun
    | some r1 =>
      obtain ⟨c2, g, s, a⟩ := r1
      simp only [hr, Option.bind_eq_bind, Option.some_bind, Bool.false_eq_true,
        if_false] at hrun
      exact keeps_tokens_trans (resolve_variable_keeps hr) (emit_bytes_keeps hrun)

/-- C24: for all identifiers `x`, `y` and `z`, `compile` on the source
`x * y = z;`, started with the invariant of the compiler, room for three
allocations and no compiler active, returns null: the result is `none`, and
what it has written to standard error is one report, "Invalid assignment
target", made at the `=`.  And the variable rule called with
`can_assign = false` (`named_variable`, and `variable` that calls it) never
consumes a token: when it returns, the scanner and the current and previous
token of the parser are what they were, so an `=` ahead is still ahead. -/
theorem product_assignment_is_error (h : host) (ups : List Nat) (M n : Nat)
    (c : compile_state) (x y z : List Nat) (hinv : compile_inv h ups M 3 c)
    (hcur : c.current = []) (hx : is_identifier x) (hy : is_identifier y)
    (hz : is_identifier z) (hlen : x.length + y.length + z.length + 2 < 2 ^ 32) :
    (∃ (c1 : compile_state) (tok : token),
      compile h (n + 13) c (product_assignment x y z) = some (c1, none) ∧
      tok.type = TOKEN_EQUAL ∧
      c1.stderr = c.stderr ++ [report_at tok (bytes_of "Invalid assignment target") []] ∧
      c1.parser.had_error = true) ∧
    (∀ (m : Nat) (c2 c3 : compile_state) (name : token),
      named_variable h m c2 name false = some c3 → keeps_tokens c2 c3) ∧
    (∀ (m : Nat) (c2 c3 : compile_state),
      variable_ h m c2 false = some c3 → keeps_tokens c2 c3) := by
  refine ⟨compile_product h n c x y z hinv hcur hx hy hz hlen,
    fun m c2 c3 name hrun => named_variable_keeps hrun, ?_⟩
  intro m c2 c3 hrun
  cases m with
  | zero =>
    unfold variable_ at hrun
    cases hrun
  | succ m =>
    unfold variable_ at hrun
    exact named_variable_keeps hrun

theorem product_assignment_is_error_witness :
    ∃ (c1 : compile_state) (tok : token),
      compile host_lp64 13 (start_state zero_vm) (bytes_of "a * b = c;") = some (c1, none) ∧
      tok.type = TOKEN_EQUAL ∧
      c1.stderr = [report_at tok (bytes_of "Invalid assignment target") []] :=
  have hw := (product_assignment_is_error host_lp64 [] 1024 0 (start_state zero_vm)
    [97] [98] [99] (start_state_inv (by decide)) rfl
    ⟨97, [], rfl, by decide, by simp, by decide⟩
    ⟨98, [], rfl, by decide, by simp, by decide⟩
    ⟨99, [], rfl, by decide, by simp, by decide⟩ (by decide)).1
  Exists.elim hw fun c1 hc1 => Exists.elim hc1 fun tok ht =>
    ⟨c1, tok, ht.1, ht.2.1, ht.2.2.1⟩

/-! ### Count, load and probing of reachable tables -/

/-! ### Invariants of the tables reachable from `init_table` -/

theorem used_is_keyed_plus_tombstones (entries : List table_entry) :
    used_slots entries = keyed_slots entries + tombstone_slots entries := by
  unfold used_slots keyed_slots tombstone_slots
  induction entries with
  | nil => rfl
  | cons e es ih =>
    simp only [List.countP_cons, ih]
    cases hk : e.key with
    | none =>
      cases hv : IS_NIL e.val <;>
        simp [table_entry.isEmpty, table_entry.isTombstone, hk, hv]
      omega
    | some k =>
      simp [table_entry.isEmpty, table_entry.isTombstone, hk]
      omega

/-- The capacity after `set_table` is the one its load test has chosen. -/
theorem set_table_capacity {hashOf : Nat → Nat} {fuel : Nat} {tab tab' : table} {key : Nat}
    {v : value} {b : Bool} (hrun : set_table hashOf fuel tab key v = some (tab', b)) :
    tab'.capacity = capacity_after_load_test tab := by
  unfold set_table at hrun
  unfold capacity_after_load_test
  have hstore : ∀ tab1 : table, set_table_store hashOf fuel tab1 key v = some (tab', b) →
      tab'.capacity = tab1.capacity := by
    intro tab1 h1
    unfold set_table_store at h1
    cases hf : find_entry hashOf fuel tab1.entries tab1.capacity key with
    | none => simp [hf] at h1
    | some i =>
      cases he : tab1.entries[i]? with
      | none => simp [hf, he] at h1
      | some e =>
        simp only [hf, he, Option.some.injEq, Prod.mk.injEq] at h1
        rw [← h1.1]
  by_cases hover : table_overloaded tab = true
  · rw [if_pos hover] at hrun ⊢
    cases hadj : adjust_capacity hashOf fuel tab (GROW_CAPACITY tab.capacity) with
    | none => simp [hadj] at hrun
    | some tab1 =>
      simp only [hadj] at hrun
      rw [hstore tab1 hrun]
      unfold adjust_capacity at hadj
      cases hl : adjust_capacity_loop hashOf fuel (GROW_CAPACITY tab.capacity)
          (tab.entries.take tab.capacity)
          (List.replicate (GROW_CAPACITY tab.capacity) { key := none, val := value.nil }) 0 with
      | none => simp [hl] at hadj
      | some r =>
        obtain ⟨es, cnt⟩ := r
        simp only [hl, Option.some.injEq] at hadj
        rw [← hadj]
  · rw [if_neg hover] at hrun ⊢
    exact hstore tab hrun

theorem grow_capacity_shape {c : Nat} (h : c = 0 ∨ ∃ k : Nat, c = 8 * 2 ^ k) :
    ∃ k : Nat, GROW_CAPACITY c = 8 * 2 ^ k := by
  unfold GROW_CAPACITY
  rcases h with h | ⟨k, hk⟩
  · exact ⟨0, by rw [h]; rfl⟩
  · have hpos : 0 < 2 ^ k := Nat.pow_pos (by decide)
    refine ⟨k + 1, ?_⟩
    rw [if_neg (by omega), hk, pow_succ]
    ring

theorem table_inv_init (hashOf : Nat → Nat) : table_inv hashOf init_table 0 :=
  ⟨table_wf_init hashOf, ⟨_, table_repr_init⟩, by simp [init_table], by simp [init_table],
    Or.inl rfl⟩

/-- Function `set_table` keeps the invariant of the table. -/
theorem set_table_inv (hashOf : Nat → Nat) {tab : table} {fuel n : Nat} (key : Nat)
    (v : value) (hinv : table_inv hashOf tab n) (hfuel : 2 ^ 32 ≤ fuel) (hn : n < 2 ^ 30) :
    ∃ (tab' : table) (b : Bool), set_table hashOf fuel tab key v = some (tab', b) ∧
      table_inv hashOf tab' (n + 1) ∧ tab'.capacity = capacity_after_load_test tab := by
  obtain ⟨m, hm⟩ := hinv.repr
  obtain ⟨tab', b, hrun, hwf, hrep, hcap, hcnt⟩ :=
    set_table_spec hashOf key v n hinv.wf hm hfuel hn hinv.cap_budget hinv.count_budget
  have hc := set_table_capacity hrun
  refine ⟨tab', b, hrun, ⟨hwf, ⟨_, hrep⟩, hcap, hcnt, ?_⟩, hc⟩
  rw [hc]
  unfold capacity_after_load_test
  split
  · exact Or.inr (grow_capacity_shape hinv.shape)
  · exact hinv.shape

/-- Function `delete_table` keeps the invariant of the table. -/
theorem delete_table_inv (hashOf : Nat → Nat) {tab : table} {fuel n : Nat} (key : Nat)
    (hinv : table_inv hashOf tab n) (hfuel : 2 ^ 32 ≤ fuel) :
    ∃ (tab' : table) (b : Bool), delete_table hashOf fuel tab key = some (tab', b) ∧
      table_inv hashOf tab' n ∧ tab'.capacity = tab.capacity ∧ tab'.count = tab.count := by
  obtain ⟨m, hm⟩ := hinv.repr
  obtain ⟨tab', b, hrun, hwf, hrep, hcap, hcnt⟩ :=
    delete_table_spec hashOf key hinv.wf hm hfuel
  exact ⟨tab', b, hrun, ⟨hwf, ⟨_, hrep⟩, by rw [hcap]; exact hinv.cap_budget,
    by rw [hcnt]; exact hinv.count_budget, by rw [hcap]; exact hinv.shape⟩, hcap, hcnt⟩

/-- Every sequence of calls keeps the invariant of the table. -/
theorem run_table_ops_inv (hashOf : Nat → Nat) {fuel : Nat} (hfuel : 2 ^ 32 ≤ fuel) :
    ∀ (ops : List table_op) (tab : table) (n : Nat),
      table_inv hashOf tab n → n + ops.length ≤ 2 ^ 30 →
      ∃ tab' : table, run_table_ops hashOf fuel tab ops = some tab' ∧
        table_inv hashOf tab' (n + ops.length) := by
  intro ops
  induction ops with
  | nil =>
    intro tab n hinv _
    exact ⟨tab, rfl, hinv⟩
  | cons op ops ih =>
    intro tab n hinv hlen
    simp only [List.length_cons] at hlen
    cases op with
    | set k v =>
      obtain ⟨tab1, b, hset, hinv1, _⟩ := set_table_inv hashOf k v hinv hfuel (by omega)
      obtain ⟨tab', hrun, hinv'⟩ := ih tab1 (n + 1) hinv1 (by omega)
      refine ⟨tab', ?_, ?_⟩
      · simp only [run_table_ops, hset]
        exact hrun
      · have e : n + (ops.length + 1) = n + 1 + ops.length := by omega
        simp only [List.length_cons]
        rw [e]
        exact hinv'
    | delete k =>
      obtain ⟨tab1, b, hdel, hinv1, _⟩ := delete_table_inv hashOf k hinv hfuel
      obtain ⟨tab', hrun, hinv'⟩ := ih tab1 n hinv1 (by omega)
      refine ⟨tab', ?_, ?_⟩
      · simp only [run_table_ops, hdel]
        exact hrun
      · simp only [List.length_cons]
        exact ⟨hinv'.wf, hinv'.repr, by have := hinv'.cap_budget; omega,
          by have := hinv'.count_budget; omega, hinv'.shape⟩

/-- A table reached by `ops` satisfies the invariant. -/
theorem table_reached_inv {hashOf : Nat → Nat} {fuel : Nat} {ops : List table_op} {tab : table}
    (hfuel : 2 ^ 32 ≤ fuel) (hr : table_reached hashOf fuel ops tab) :
    table_inv hashOf tab ops.length := by
  obtain ⟨tab', hrun, hinv⟩ :=
    run_table_ops_inv hashOf hfuel ops init_table 0 (table_inv_init hashOf) (by
      have := hr.1
      omega)
  rw [hr.2] at hrun
  cases hrun
  simpa using hinv

/-- The loop of `adjust_capacity` writes keys only: it makes no tombstone. -/
theorem adjust_capacity_loop_no_tombstone (hashOf : Nat → Nat) (fuel cap : Nat) :
    ∀ (old entries : List table_entry) (count : Nat) (entries' : List table_entry)
      (count' : Nat),
      adjust_capacity_loop hashOf fuel cap old entries count = some (entries', count') →
      (∀ e ∈ entries, e.isTombstone = false) → ∀ e ∈ entries', e.isTombstone = false := by
  intro old
  induction old with
  | nil =>
    intro entries count entries' count' hrun hno
    simp only [adjust_capacity_loop, Option.some.injEq, Prod.mk.injEq] at hrun
    rw [← hrun.1]
    exact hno
  | cons entry old ih =>
    intro entries count entries' count' hrun hno
    unfold adjust_capacity_loop at hrun
    cases hk : entry.key with
    | none =>
      simp only [hk] at hrun
      exact ih _ _ _ _ hrun hno
    | some k =>
      simp only [hk] at hrun
      cases hf : find_entry hashOf fuel entries cap k with
      | none => simp [hf] at hrun
      | some dest =>
        simp only [hf] at hrun
        refine ih _ _ _ _ hrun ?_
        intro e he
        rcases List.mem_or_eq_of_mem_set he with h | h
        · exact hno e h
        · rw [h]
          rfl

/-- Function `adjust_capacity` drops the tombstones. -/
theorem adjust_capacity_no_tombstone {hashOf : Nat → Nat} {fuel cap : Nat} {tab tab' : table}
    (hrun : adjust_capacity hashOf fuel tab cap = some tab') :
    tombstone_slots tab'.entries = 0 := by
  unfold adjust_capacity at hrun
  cases hl : adjust_capacity_loop hashOf fuel cap (tab.entries.take tab.capacity)
      (List.replicate cap { key := none, val := value.nil }) 0 with
  | none => simp [hl] at hrun
  | some r =>
    obtain ⟨es, cnt⟩ := r
    simp only [hl, Option.some.injEq] at hrun
    rw [← hrun]
    show List.countP _ es = 0
    rw [List.countP_eq_zero]
    intro e he
    have := adjust_capacity_loop_no_tombstone hashOf fuel cap _ _ _ _ _ hl
      (by
        intro e' he'
        rw [List.eq_of_mem_replicate he']
        rfl) e he
    simp [this]

/-- More fuel does not change what the loop of `find_entry` returns. -/
theorem find_entry_loop_mono (entries : List table_entry) (capacity key : Nat) :
    ∀ (f f' index : Nat) (t : Option Nat) (r : Nat), f ≤ f' →
      find_entry_loop entries capacity key f index t = some r →
      find_entry_loop entries capacity key f' index t = some r := by
  intro f
  induction f with
  | zero =>
    intro f' index t r _ h
    simp [find_entry_loop] at h
  | succ f ih =>
    intro f' index t r hle h
    obtain ⟨g, rfl⟩ : ∃ g, f' = g + 1 := ⟨f' - 1, by omega⟩
    rw [find_entry_loop_succ] at h ⊢
    cases he : entries[index]? with
    | none => simp [he] at h
    | some entry =>
      simp only [he] at h ⊢
      cases hk : entry.key with
      | none =>
        simp only [hk] at h ⊢
        by_cases hn : IS_NIL entry.val = true
        · rw [if_pos hn] at h ⊢
          exact h
        · rw [if_neg hn] at h ⊢
          exact ih _ _ _ _ (Nat.le_of_succ_le_succ hle) h
      | some k =>
        simp only [hk] at h ⊢
        by_cases hn : k = key
        · rw [if_pos hn] at h ⊢
          exact h
        · rw [if_neg hn] at h ⊢
          exact ih _ _ _ _ (Nat.le_of_succ_le_succ hle) h

theorem find_entry_mono {hashOf : Nat → Nat} {f f' : Nat} {entries : List table_entry}
    {capacity key r : Nat} (hle : f ≤ f')
    (h : find_entry hashOf f entries capacity key = some r) :
    find_entry hashOf f' entries capacity key = some r := by
  unfold find_entry at h ⊢
  by_cases hc : capacity = 0
  · rw [if_pos hc] at h
    cases h
  · rw [if_neg hc] at h ⊢
    exact find_entry_loop_mono _ _ _ _ _ _ _ _ hle h

/-- The count after the second half of `set_table`, by the slot that
`find_entry` has returned. -/
theorem set_table_store_count {hashOf : Nat → Nat} {fuel : Nat} {tab : table} {key i : Nat}
    {e : table_entry} (v : value)
    (hf : find_entry hashOf fuel tab.entries tab.capacity key = some i)
    (he : tab.entries[i]? = some e) :
    ∃ tab' : table, set_table_store hashOf fuel tab key v = some (tab', e.key.isNone) ∧
      tab'.entries = tab.entries.set i { key := some key, val := v } ∧
      (e.isEmpty = true → tab'.count = tab.count + 1) ∧
      (e.isTombstone = true → tab'.count = tab.count) ∧
      (e.key.isSome = true → tab'.count = tab.count) := by
  refine ⟨{ count := if e.key.isNone && IS_NIL e.val then tab.count + 1 else tab.count,
             capacity := tab.capacity,
             entries := tab.entries.set i { key := some key, val := v } },
    by simp only [set_table_store, hf, he], rfl, ?_, ?_, ?_⟩
  · intro h
    show (if e.key.isNone && IS_NIL e.val then tab.count + 1 else tab.count) = _
    rw [if_pos (show (e.key.isNone && IS_NIL e.val) = true from h)]
  · intro h
    show (if e.key.isNone && IS_NIL e.val then tab.count + 1 else tab.count) = _
    have : (e.key.isNone && IS_NIL e.val) = false := by
      simp only [table_entry.isTombstone, Bool.and_eq_true, Bool.not_eq_true'] at h
      simp [h.1, h.2]
    rw [this]
    rfl
  · intro h
    show (if e.key.isNone && IS_NIL e.val then tab.count + 1 else tab.count) = _
    have : (e.key.isNone && IS_NIL e.val) = false := by
      cases hk : e.key with
      | none => simp [hk] at h
      | some k => rfl
    rw [this]
    rfl

/-- The two halves of `set_table` on a table that satisfies the invariant:
the table after the load test, the slot `find_entry` returns in it, and the
result. -/
theorem set_table_phases (hashOf : Nat → Nat) {tab : table} {fuel n : Nat} (key : Nat)
    (v : value) (hinv : table_inv hashOf tab n) (hfuel : capacity_after_load_test tab ≤ fuel)
    (hn : n < 2 ^ 30) :
    ∃ (tab1 : table) (i : Nat) (e : table_entry) (tab' : table),
      (if table_overloaded tab then adjust_capacity hashOf fuel tab (GROW_CAPACITY tab.capacity)
        else some tab) = some tab1 ∧
      (table_overloaded tab = true →
        tab1.count = keyed_slots tab.entries ∧ tombstone_slots tab1.entries = 0 ∧
        keyed_slots tab1.entries = keyed_slots tab.entries) ∧
      0 < tab1.capacity ∧ tab1.capacity = capacity_after_load_test tab ∧
      find_entry hashOf tab1.capacity tab1.entries tab1.capacity key = some i ∧
      find_entry hashOf fuel tab1.entries tab1.capacity key = some i ∧
      tab1.entries[i]? = some e ∧
      set_table hashOf fuel tab key v = some (tab', e.key.isNone) ∧
      (e.isEmpty = true → tab'.count = tab1.count + 1) ∧
      (e.isTombstone = true → tab'.count = tab1.count) ∧
      (e.key.isSome = true → tab'.count = tab1.count) := by
  have hwf := hinv.wf
  have hcb := hinv.cap_budget
  have hnb := hinv.count_budget
  have hce := hwf.count_eq
  have hload := hwf.load
  have hku := keyed_le_used tab.entries
  have hgrow : GROW_CAPACITY tab.capacity
      = if tab.capacity < 8 then 8 else tab.capacity * 2 := rfl
  -- the table after the load test
  have hphase : ∃ tab1 : table,
      (if table_overloaded tab then adjust_capacity hashOf fuel tab (GROW_CAPACITY tab.capacity)
        else some tab) = some tab1 ∧
      (table_overloaded tab = true →
        tab1.count = keyed_slots tab.entries ∧ tombstone_slots tab1.entries = 0 ∧
        keyed_slots tab1.entries = keyed_slots tab.entries) ∧
      entries_wf hashOf tab1.entries tab1.capacity ∧ tab1.count = used_slots tab1.entries ∧
      4 * (tab1.count + 1) ≤ 3 * tab1.capacity ∧ tab1.capacity ≤ 2 ^ 32 ∧
      tab1.capacity = capacity_after_load_test tab := by
    by_cases hover : table_overloaded tab = true
    · have hover' : 4 * (tab.count + 1) > 3 * tab.capacity := by
        simpa [table_overloaded] using hover
      have hfg : GROW_CAPACITY tab.capacity ≤ fuel := by
        unfold capacity_after_load_test at hfuel
        rw [if_pos hover] at hfuel
        exact hfuel
      obtain ⟨tab1, hadj, hwf1, hcap1, hcnt1, hcnt1', _⟩ :=
        @adjust_capacity_spec hashOf tab (GROW_CAPACITY tab.capacity) fuel hwf.wf
          (by rw [hgrow]; split_ifs <;> omega) (by rw [hgrow]; split_ifs <;> omega) hfg
      have htomb := adjust_capacity_no_tombstone hadj
      have hsplit := used_is_keyed_plus_tombstones tab1.entries
      refine ⟨tab1, by rw [if_pos hover]; exact hadj, fun _ => ⟨hcnt1', htomb, by omega⟩,
        hwf1, hcnt1, ?_, ?_, ?_⟩
      · rw [hcap1, hgrow, hcnt1']; split_ifs <;> omega
      · rw [hcap1, hgrow]; split_ifs <;> omega
      · rw [hcap1]
        unfold capacity_after_load_test
        rw [if_pos hover]
    · have hover' : 4 * (tab.count + 1) ≤ 3 * tab.capacity := by
        simpa [table_overloaded] using hover
      refine ⟨tab, by rw [if_neg hover], fun h => absurd h hover, hwf.wf, hce, hover',
        hwf.cap_le, ?_⟩
      unfold capacity_after_load_test
      rw [if_neg hover]
  obtain ⟨tab1, hph, hres, hwf1, hcnt1, hload1, hc32, hcap1⟩ := hphase
  obtain ⟨i, e, hfind, he, _⟩ :=
    find_entry_spec hashOf hwf1 hc32 (by omega) (Nat.le_refl tab1.capacity) key
  have hfind2 : find_entry hashOf fuel tab1.entries tab1.capacity key = some i :=
    find_entry_mono (by rw [hcap1]; exact hfuel) hfind
  obtain ⟨tab', hstore, _, h1, h2, h3⟩ := set_table_store_count v hfind2 he
  refine ⟨tab1, i, e, tab', hph, hres, by omega, hcap1, hfind, hfind2, he, ?_, h1, h2, h3⟩
  unfold set_table
  rw [hph]
  exact hstore

theorem capacity_after_load_test_le {hashOf : Nat → Nat} {tab : table} {n : Nat}
    (hinv : table_inv hashOf tab n) (hn : n < 2 ^ 30) :
    capacity_after_load_test tab ≤ 2 ^ 32 := by
  have hcb := hinv.cap_budget
  have hnb := hinv.count_budget
  have hc := hinv.wf.cap_le
  unfold capacity_after_load_test
  by_cases hover : table_overloaded tab = true
  · have hover' : 4 * (tab.count + 1) > 3 * tab.capacity := by
      simpa [table_overloaded] using hover
    rw [if_pos hover]
    unfold GROW_CAPACITY
    split_ifs <;> omega
  · rw [if_neg hover]
    exact hc

/-- The probe loop of `table_find_string` returns within `n` probes when one
of the next `n` slots on its path is empty and every key is a string object. -/
theorem table_find_string_loop_returns (heap : Nat → Option obj) (entries : List table_entry)
    {cap : Nat} (data : List Nat) (hash : Nat) (hc : 0 < cap) (hc32 : cap ≤ 2 ^ 32)
    (hlen : entries.length = cap)
    (hstr : ∀ (e : table_entry) (k : Nat), e ∈ entries → e.key = some k →
      ∃ (o : obj) (kd : List Nat) (kh : Nat), heap k = some o ∧
        o.payload = obj_payload.obj_string kd kh) :
    ∀ (n d : Nat),
      (∃ d', d ≤ d' ∧ d' < d + n ∧ ∃ e : table_entry,
        entries[probe (fun _ => hash) cap 0 d']? = some e ∧ e.isEmpty = true) →
      ∃ r, table_find_string_loop heap entries cap data hash n
        (probe (fun _ => hash) cap 0 d) = some r := by
  intro n
  induction n with
  | zero =>
    rintro d ⟨d', h1, h2, _⟩
    omega
  | succ n ih =>
    rintro d ⟨d', h1, h2, e', he', hempty⟩
    have hlt : probe (fun _ => hash) cap 0 d < entries.length := by
      rw [hlen]
      exact probe_lt _ _ _ hc
    have he0 := List.getElem?_eq_getElem hlt
    have hstep := probe_succ (fun _ => hash) 0 d hc hc32
    have hnext : ¬ (entries[probe (fun _ => hash) cap 0 d]).isEmpty = true →
        ∃ r, table_find_string_loop heap entries cap data hash n
          (probe (fun _ => hash) cap 0 (d + 1)) = some r := by
      intro hne
      refine ih (d + 1) ⟨d', ?_, by omega, e', he', hempty⟩
      by_contra hlt'
      have hd : d' = d := by omega
      rw [hd, he0] at he'
      cases he'
      exact hne hempty
    rw [table_find_string_loop_succ]
    simp only [he0]
    cases hkey : (entries[probe (fun _ => hash) cap 0 d]).key with
    | none =>
      simp only
      by_cases hnil : IS_NIL (entries[probe (fun _ => hash) cap 0 d]).val = true
      · rw [if_pos hnil]
        exact ⟨none, rfl⟩
      · rw [if_neg hnil, hstep]
        exact hnext (by simp [table_entry.isEmpty, hkey, hnil])
    | some k =>
      obtain ⟨o, kd, kh, ho, hp⟩ := hstr _ k (List.getElem_mem _) hkey
      simp only [ho, hp]
      split
      · exact ⟨some k, rfl⟩
      · rw [hstep]
        exact hnext (by simp [table_entry.isEmpty, hkey])

/-- Function `table_find_string` returns within `capacity` probes on a table
that satisfies the invariant and whose keys are string objects. -/
theorem table_find_string_returns (heap : Nat → Option obj) {hashOf : Nat → Nat} {tab : table}
    {n : Nat} (hinv : table_inv hashOf tab n) (data : List Nat) (hash : Nat)
    (hstr : ∀ (e : table_entry) (k : Nat), e ∈ tab.entries → e.key = some k →
      ∃ (o : obj) (kd : List Nat) (kh : Nat), heap k = some o ∧
        o.payload = obj_payload.obj_string kd kh) :
    ∃ r, table_find_string heap tab.capacity tab data hash = some r := by
  have hwf := hinv.wf
  have hce := hwf.count_eq
  have hload := hwf.load
  unfold table_find_string
  by_cases hz : tab.count = 0
  · rw [if_pos hz]
    exact ⟨none, rfl⟩
  · have hc : 0 < tab.capacity := by omega
    rw [if_neg hz, if_neg (by omega), probe_zero (fun _ => hash) 0 hc hwf.cap_le]
    obtain ⟨i, e, hi, hempty⟩ :=
      @exists_empty_of_used_lt tab.entries (by rw [hwf.wf.len, ← hce]; omega)
    have hilt : i < tab.capacity := by
      rw [← hwf.wf.len]
      exact (List.getElem?_eq_some_iff.1 hi).1
    obtain ⟨d', hd', hp⟩ := probe_surj (fun _ => hash) 0 i hilt
    exact table_find_string_loop_returns heap tab.entries data hash hc hwf.cap_le hwf.wf.len
      hstr tab.capacity 0 ⟨d', Nat.zero_le _, by omega, e, by rw [hp]; exact hi, hempty⟩

theorem tab_tombstone_reached :
    table_reached (fun _ => 3) (2 ^ 32) ops_tombstone tab_tombstone :=
  ⟨by decide, by decide⟩

theorem tab_deleted_reached :
    table_reached (fun _ => 3) (2 ^ 32) (ops_tombstone.take 3) tab_deleted :=
  ⟨by decide, by decide⟩

/-- C36: in every table reached from `init_table` by calls of `set_table`
and `delete_table`, `count` is the number of slots that hold a key plus the
number of tombstone slots.  `delete_table` returns and leaves `count`
unchanged.  `set_table` (when fewer than 2^30 calls have been made) returns,
and with `tab1` the table after its load test and `e` the slot `find_entry`
returns in it: a resize has reset `count` to the number of live keys and has
dropped the tombstones; an empty slot raises `count` by one; a tombstone or
the slot of the key leaves it unchanged. -/
theorem table_count_is_keys_plus_tombstones (hashOf : Nat → Nat) (fuel : Nat)
    (ops : List table_op) (tab : table) (hfuel : 2 ^ 32 ≤ fuel)
    (hr : table_reached hashOf fuel ops tab) :
    tab.count = keyed_slots tab.entries + tombstone_slots tab.entries ∧
    (∀ key : Nat, ∃ (tab' : table) (b : Bool),
      delete_table hashOf fuel tab key = some (tab', b) ∧ tab'.count = tab.count) ∧
    (ops.length < 2 ^ 30 → ∀ (key : Nat) (v : value),
      ∃ (tab1 : table) (i : Nat) (e : table_entry) (tab' : table),
        (if table_overloaded tab then
            adjust_capacity hashOf fuel tab (GROW_CAPACITY tab.capacity)
          else some tab) = some tab1 ∧
        (table_overloaded tab = true →
          tab1.count = keyed_slots tab.entries ∧ tombstone_slots tab1.entries = 0 ∧
          keyed_slots tab1.entries = keyed_slots tab.entries) ∧
        find_entry hashOf fuel tab1.entries tab1.capacity key = some i ∧
        tab1.entries[i]? = some e ∧
        set_table hashOf fuel tab key v = some (tab', e.key.isNone) ∧
        (e.isEmpty = true → tab'.count = tab1.count + 1) ∧
        (e.isTombstone = true → tab'.count = tab1.count) ∧
        (e.key.isSome = true → tab'.count = tab1.count)) := by
  have hinv := table_reached_inv hfuel hr
  refine ⟨?_, ?_, ?_⟩
  · rw [hinv.wf.count_eq]
    exact used_is_keyed_plus_tombstones tab.entries
  · intro key
    obtain ⟨tab', b, hrun, _, _, hcnt⟩ := delete_table_inv hashOf key hinv hfuel
    exact ⟨tab', b, hrun, hcnt⟩
  · intro hlen key v
    have hcap := capacity_after_load_test_le hinv hlen
    obtain ⟨tab1, i, e, tab', h1, h2, _, _, _, h4, h5, h6, h7, h8, h9⟩ :=
      set_table_phases hashOf key v hinv (Nat.le_trans hcap hfuel) hlen
    exact ⟨tab1, i, e, tab', h1, h2, h4, h5, h6, h7, h8, h9⟩

theorem table_count_is_keys_plus_tombstones_witness :
    tab_tombstone.count = keyed_slots tab_tombstone.entries
      + tombstone_slots tab_tombstone.entries ∧
    keyed_slots tab_tombstone.entries = 2 ∧ tombstone_slots tab_deleted.entries = 1 ∧
    tab_deleted.count = keyed_slots tab_deleted.entries + tombstone_slots tab_deleted.entries :=
  ⟨(table_count_is_keys_plus_tombstones (fun _ => 3) (2 ^ 32) ops_tombstone tab_tombstone
      (by decide) tab_tombstone_reached).1, by decide, by decide, by decide⟩

/-- C37: in every table reached from `init_table` by calls of `set_table`
and `delete_table`, `count` is at most three quarters of `capacity`, and
`capacity` is 0 or 8 times a power of two: `delete_table` keeps it, and
`set_table` keeps it, sets it to 8 when it is 0, or doubles it.  So a table
with a slot array (in particular a table with `count > 0`) has a slot that
holds neither a key nor a tombstone. -/
theorem table_load_and_capacity (hashOf : Nat → Nat) (fuel : Nat)
    (ops : List table_op) (tab : table) (hfuel : 2 ^ 32 ≤ fuel)
    (hr : table_reached hashOf fuel ops tab) :
    4 * tab.count ≤ 3 * tab.capacity ∧
    (tab.capacity = 0 ∨ ∃ k : Nat, tab.capacity = 8 * 2 ^ k) ∧
    (0 < tab.count → 0 < tab.capacity) ∧
    (0 < tab.capacity →
      ∃ (i : Nat) (e : table_entry), tab.entries[i]? = some e ∧ e.isEmpty = true) ∧
    (∀ key : Nat, ∃ (tab' : table) (b : Bool),
      delete_table hashOf fuel tab key = some (tab', b) ∧ tab'.capacity = tab.capacity) ∧
    (ops.length < 2 ^ 30 → ∀ (key : Nat) (v : value), ∃ (tab' : table) (b : Bool),
      set_table hashOf fuel tab key v = some (tab', b) ∧
      (tab'.capacity = tab.capacity ∨ (tab.capacity = 0 ∧ tab'.capacity = 8) ∨
        (8 ≤ tab.capacity ∧ tab'.capacity = 2 * tab.capacity))) := by
  have hinv := table_reached_inv hfuel hr
  have hload := hinv.wf.load
  have hce := hinv.wf.count_eq
  refine ⟨hload, hinv.shape, fun h => by omega, ?_, ?_, ?_⟩
  · intro hc
    exact @exists_empty_of_used_lt tab.entries (by rw [hinv.wf.wf.len, ← hce]; omega)
  · intro key
    obtain ⟨tab', b, hrun, _, hcap, _⟩ := delete_table_inv hashOf key hinv hfuel
    exact ⟨tab', b, hrun, hcap⟩
  · intro hlen key v
    obtain ⟨tab', b, hrun, _, hcap⟩ := set_table_inv hashOf key v hinv hfuel hlen
    refine ⟨tab', b, hrun, ?_⟩
    rw [hcap]
    unfold capacity_after_load_test GROW_CAPACITY
    rcases hinv.shape with h0 | ⟨k, hk⟩
    · rw [h0]
      split_ifs <;> simp
    · have hpos : 0 < 2 ^ k := Nat.pow_pos (by decide)
      split_ifs
      · omega
      · exact Or.inr (Or.inr ⟨by omega, by omega⟩)
      · exact Or.inl rfl

theorem table_load_and_capacity_witness :
    4 * tab_tombstone.count ≤ 3 * tab_tombstone.capacity ∧
    (tab_tombstone.capacity = 0 ∨ ∃ k : Nat, tab_tombstone.capacity = 8 * 2 ^ k) :=
  have hw := table_load_and_capacity (fun _ => 3) (2 ^ 32) ops_tombstone tab_tombstone
    (by decide) tab_tombstone_reached
  ⟨hw.1, hw.2.1⟩

/-- C39: on every table reached from `init_table` by calls of `set_table`
and `delete_table`, each probe loop returns within `capacity` probes (the
fuel of the loops is the capacity): `find_entry` for any key, at the slot of
the key or at a slot without a key; `get_table` and `delete_table`;
`set_table` (when fewer than 2^30 calls have been made), with the capacity its
load test has chosen; and `table_find_string` when the keys are string
objects.  The capacity is not 0 where `% capacity` is evaluated: a table with
`count > 0` has a slot array, and so has `set_table` after its load test. -/
theorem table_probes_terminate (hashOf : Nat → Nat) (fuel : Nat)
    (ops : List table_op) (tab : table) (hfuel : 2 ^ 32 ≤ fuel)
    (hr : table_reached hashOf fuel ops tab) :
    (0 < tab.count → tab.capacity ≠ 0) ∧
    (∀ key : Nat, tab.capacity ≠ 0 → ∃ (i : Nat) (e : table_entry),
      find_entry hashOf tab.capacity tab.entries tab.capacity key = some i ∧
      tab.entries[i]? = some e ∧ (e.key = some key ∨ e.key = none)) ∧
    (∀ key : Nat, ∃ r, get_table hashOf tab.capacity tab key = some r) ∧
    (∀ key : Nat, ∃ r, delete_table hashOf tab.capacity tab key = some r) ∧
    (ops.length < 2 ^ 30 → capacity_after_load_test tab ≠ 0 ∧
      ∀ (key : Nat) (v : value),
        ∃ r, set_table hashOf (capacity_after_load_test tab) tab key v = some r) ∧
    (∀ (heap : Nat → Option obj) (data : List Nat) (hash : Nat),
      (∀ (e : table_entry) (k : Nat), e ∈ tab.entries → e.key = some k →
        ∃ (o : obj) (kd : List Nat) (kh : Nat), heap k = some o ∧
          o.payload = obj_payload.obj_string kd kh) →
      ∃ r, table_find_string heap tab.capacity tab data hash = some r) := by
  have hinv := table_reached_inv hfuel hr
  have hwf := hinv.wf
  have hload := hwf.load
  have hce := hwf.count_eq
  have hfind : ∀ key : Nat, tab.capacity ≠ 0 → ∃ (i : Nat) (e : table_entry),
      find_entry hashOf tab.capacity tab.entries tab.capacity key = some i ∧
      tab.entries[i]? = some e ∧ (e.key = some key ∨ e.key = none) := by
    intro key hc
    obtain ⟨i, e, hf, he, hcase⟩ :=
      find_entry_spec hashOf hwf.wf hwf.cap_le (by omega) (Nat.le_refl tab.capacity) key
    refine ⟨i, e, hf, he, ?_⟩
    rcases hcase with h | ⟨h, _⟩
    · exact Or.inl h
    · exact Or.inr h
  refine ⟨fun h => by omega, hfind, ?_, ?_, ?_, ?_⟩
  · intro key
    unfold get_table
    by_cases hz : tab.count = 0
    · rw [if_pos hz]
      exact ⟨none, rfl⟩
    · obtain ⟨i, e, hf, he, _⟩ := hfind key (by omega)
      rw [if_neg hz]
      simp only [hf, he]
      cases e.key <;> exact ⟨_, rfl⟩
  · intro key
    unfold delete_table
    by_cases hz : tab.count = 0
    · rw [if_pos hz]
      exact ⟨_, rfl⟩
    · obtain ⟨i, e, hf, he, _⟩ := hfind key (by omega)
      rw [if_neg hz]
      simp only [hf, he]
      cases e.key <;> exact ⟨_, rfl⟩
  · intro hlen
    obtain ⟨tab1, i, e, tab', _, _, hpos, hcap, _, _, _, hrun, _⟩ :=
      set_table_phases hashOf 0 value.nil hinv (Nat.le_refl (capacity_after_load_test tab)) hlen
    refine ⟨by rw [← hcap]; omega, ?_⟩
    intro key v
    obtain ⟨tab1, i, e, tab', _, _, _, _, _, _, _, hrun, _⟩ :=
      set_table_phases hashOf key v hinv (Nat.le_refl (capacity_after_load_test tab)) hlen
    exact ⟨_, hrun⟩
  · intro heap data hash hstr
    exact table_find_string_returns heap hinv data hash hstr

theorem table_probes_terminate_witness :
    (∃ r, get_table (fun _ => 3) 8 tab_tombstone 1 = some r) ∧
    (∃ r, set_table (fun _ => 3) 8 tab_tombstone 4 value.nil = some r) ∧
    (∃ r, delete_table (fun _ => 3) 8 tab_deleted 3 = some r) :=
  have hw := table_probes_terminate (fun _ => 3) (2 ^ 32) ops_tombstone tab_tombstone
    (by decide) tab_tombstone_reached
  have hd := table_probes_terminate (fun _ => 3) (2 ^ 32) (ops_tombstone.take 3) tab_deleted
    (by decide) tab_deleted_reached
  ⟨hw.2.2.1 1, (hw.2.2.2.2.1 (by decide)).2 4 value.nil, hd.2.2.2.1 3⟩

/-! ### The hash of a string -/

/-! ### The hash of strings -/

theorem foldl_is_fnv1a_from (data : List Nat) :
    ∀ h : Nat, data.foldl (fun hash c => ((hash ^^^ (c % 256)) * 16777619) % 2 ^ 32) h
      = fnv1a_from h (data.map as_uint8) := by
  induction data with
  | nil => intro h; rfl
  | cons c cs ih =>
    intro h
    rw [List.foldl_cons, ih]
    rfl

theorem fnv1a_from_lt : ∀ (bytes : List Nat) (h : Nat), h < 2 ^ 32 →
    fnv1a_from h bytes < 2 ^ 32 := by
  intro bytes
  induction bytes with
  | nil => intro h hh; exact hh
  | cons b bs ih =>
    intro h _
    exact ih _ (Nat.mod_lt _ (by decide))

/-- C38: `hash_string` is the 32-bit FNV-1a hash of the bytes, each taken as
its unsigned value 0..255: from 2166136261 on, one step
`h := ((h xor byte) × 16777619) mod 2^32` per byte, in order.  The hash of the
empty string is 2166136261, the hash of "a" is 0xE40C292C, and every hash is
a `uint32`. -/
theorem hash_string_is_fnv1a (data : List Nat) :
    hash_string data = fnv1a (data.map as_uint8) ∧
    hash_string (data.map as_uint8) = hash_string data ∧
    hash_string [] = 2166136261 ∧
    hash_string [97] = 3826002220 ∧
    hash_string data < 2 ^ 32 := by
  have h1 : hash_string data = fnv1a (data.map as_uint8) :=
    foldl_is_fnv1a_from data 2166136261
  refine ⟨h1, ?_, rfl, by decide, ?_⟩
  · have h2 : hash_string (data.map as_uint8) = fnv1a ((data.map as_uint8).map as_uint8) :=
      foldl_is_fnv1a_from (data.map as_uint8) 2166136261
    rw [h1, h2]
    congr 1
    rw [List.map_map]
    apply List.map_congr_left
    intro c _
    show c % 256 % 256 = c % 256
    exact Nat.mod_mod _ _
  · rw [h1]
    exact fnv1a_from_lt _ _ (by decide)

/-! ### Registration and resolution of upvalues -/

/-! ### Upvalues of the compiler -/

theorem func_upvalue_count_some {vm : VM} {f uc : Nat} (h : func_upvalue_count vm f = some uc) :
    ∃ (o : obj) (ar : Nat) (chk : chunk) (nm : Option Nat), vm.heap f = some o ∧
      o.payload = obj_payload.obj_func ar uc chk nm := by
  unfold func_upvalue_count at h
  cases ho : vm.heap f with
  | none => simp [ho] at h
  | some o =>
    simp only [ho] at h
    cases hp : o.payload with
    | obj_func ar uc' chk nm =>
      simp only [hp, Option.some.injEq] at h
      subst h
      exact ⟨o, ar, chk, nm, rfl, hp⟩
    | _ => simp [hp] at h

/-- Function `add_upvalue` on a pair that is registered: the result is the
index of the first entry with the pair, and the state is unchanged. -/
theorem add_upvalue_hit {c : compile_state} {d : Nat} {k : compiler_t} {uc : Nat}
    (index : Nat) (is_local : Bool) (hk : upvalues_known c d k uc) {i : Nat}
    (hi : k.upvalues.indexOf? { index := index, is_local := is_local } = some i) :
    add_upvalue c d index is_local = some (c, (i : Int)) := by
  obtain ⟨hcur, hcount, hlen⟩ := hk
  obtain ⟨o, ar, chk, nm, ho, hp⟩ := func_upvalue_count_some hcount
  have htake : k.upvalues.take uc = k.upvalues := List.take_of_length_le (by omega)
  unfold add_upvalue
  simp only [hcur, ho, Option.bind_eq_bind, Option.some_bind, hp, htake, hi,
    if_neg (by omega : ¬ k.upvalues.length < uc)]

/-- Function `add_upvalue` on a pair that is not registered, with room for
it: the pair is appended and the result is the previous `upvalue_count`. -/
theorem add_upvalue_miss {c : compile_state} {d : Nat} {k : compiler_t} {uc : Nat}
    (index : Nat) (is_local : Bool) (hk : upvalues_known c d k uc)
    (hi : k.upvalues.indexOf? { index := index, is_local := is_local } = none)
    (huc : uc < 256) :
    add_upvalue c d index is_local
      = some (with_upvalue c d k { index := index, is_local := is_local }, (uc : Int)) := by
  obtain ⟨hcur, hcount, hlen⟩ := hk
  obtain ⟨o, ar, chk, nm, ho, hp⟩ := func_upvalue_count_some hcount
  have htake : k.upvalues.take uc = k.upvalues := List.take_of_length_le (by omega)
  have hw : array_write k.upvalues uc { index := index, is_local := is_local }
      = some (k.upvalues ++ [{ index := index, is_local := is_local }]) := by
    rw [← hlen]
    exact array_write_end _ _
  unfold add_upvalue
  simp only [hcur, ho, Option.bind_eq_bind, Option.some_bind, hp, htake, hi,
    if_neg (by omega : ¬ k.upvalues.length < uc), if_neg (by omega : ¬ uc = 256), hw,
    Option.some.injEq, Prod.mk.injEq, and_true]
  simp only [with_upvalue, bump_upvalue_count, ho, hp]

theorem indexOf_at {l : List upvalue} {u : upvalue} {i : Nat} (hi : l[i]? = some u)
    (hfirst : ∀ j, j < i → l[j]? ≠ some u) : l.indexOf? u = some i := by
  obtain ⟨hlt, hget⟩ := List.getElem?_eq_some_iff.1 hi
  unfold List.indexOf?
  rw [List.findIdx?_eq_some_iff_getElem]
  refine ⟨hlt, by simp [hget], ?_⟩
  intro j hji hp
  have hj : j < l.length := by omega
  have : l[j] = u := by simpa using hp
  exact hfirst j hji (by rw [List.getElem?_eq_getElem hj, this])

theorem indexOf_none {l : List upvalue} {u : upvalue} (h : u ∉ l) : l.indexOf? u = none := by
  unfold List.indexOf?
  rw [List.findIdx?_eq_none_iff]
  intro x hx
  have : x ≠ u := fun e => h (e ▸ hx)
  simpa using this

theorem indexOf_mem {l : List upvalue} {u : upvalue} (h : u ∈ l) :
    ∃ i, l.indexOf? u = some i ∧ i < l.length ∧ l[i]? = some u := by
  cases hi : l.indexOf? u with
  | none =>
    unfold List.indexOf? at hi
    rw [List.findIdx?_eq_none_iff] at hi
    have := hi u h
    simp at this
  | some i =>
    refine ⟨i, rfl, ?_⟩
    unfold List.indexOf? at hi
    rw [List.findIdx?_eq_some_iff_getElem] at hi
    obtain ⟨hlt, hp, _⟩ := hi
    refine ⟨hlt, ?_⟩
    rw [List.getElem?_eq_getElem hlt]
    simpa using hp

theorem bump_upvalue_count_eq {vm : VM} {f uc : Nat} (h : func_upvalue_count vm f = some uc) :
    func_upvalue_count (bump_upvalue_count vm f) f = some (uc + 1) := by
  obtain ⟨o, ar, chk, nm, ho, hp⟩ := func_upvalue_count_some h
  simp [bump_upvalue_count, func_upvalue_count, ho, hp]

theorem bump_upvalue_count_other {vm : VM} {f g : Nat} (hne : g ≠ f) :
    (bump_upvalue_count vm f).heap g = vm.heap g := by
  unfold bump_upvalue_count
  cases ho : vm.heap f with
  | none => rfl
  | some o =>
    simp only
    cases hp : o.payload <;> simp [Function.update, hne]

/-- The state after `add_upvalue` has appended an upvalue: the compiler has
one more upvalue, and so has its function. -/
theorem with_upvalue_known {c : compile_state} {d : Nat} {k : compiler_t} {uc : Nat}
    (u : upvalue) (hk : upvalues_known c d k uc) :
    upvalues_known (with_upvalue c d k u) d { k with upvalues := k.upvalues ++ [u] } (uc + 1) := by
  obtain ⟨hcur, hcount, hlen⟩ := hk
  have hd : d < c.current.length := (List.getElem?_eq_some_iff.1 hcur).1
  refine ⟨?_, bump_upvalue_count_eq hcount, by simp [hlen]⟩
  show (c.current.set d _)[d]? = _
  rw [List.getElem?_set_self hd]

/-- C34: `add_upvalue` for the compiler at position `d` of the chain, whose
upvalue array holds the `upvalue_count` upvalues registered.  Called with a
pair `(index, is_local)` that is registered, it returns the index of the
first entry with that pair and changes nothing: the state is the same, so
`upvalue_count` and the array are.  Called with a pair that is not
registered, and fewer than 256 registered, it returns the previous
`upvalue_count`; the array has the pair appended and `upvalue_count` is one
more. -/
theorem add_upvalue_deduplicates (c : compile_state) (d : Nat) (k : compiler_t)
    (uc index : Nat) (is_local : Bool) (hk : upvalues_known c d k uc) :
    (∀ i : Nat, k.upvalues[i]? = some { index := index, is_local := is_local } →
      (∀ j, j < i → k.upvalues[j]? ≠ some { index := index, is_local := is_local }) →
      add_upvalue c d index is_local = some (c, (i : Int))) ∧
    (({ index := index, is_local := is_local } : upvalue) ∈ k.upvalues →
      ∃ i : Nat, i < uc ∧ k.upvalues[i]? = some { index := index, is_local := is_local } ∧
        add_upvalue c d index is_local = some (c, (i : Int))) ∧
    (({ index := index, is_local := is_local } : upvalue) ∉ k.upvalues → uc < 256 →
      add_upvalue c d index is_local
        = some (with_upvalue c d k { index := index, is_local := is_local }, (uc : Int)) ∧
      upvalues_known (with_upvalue c d k { index := index, is_local := is_local }) d
        { k with upvalues := k.upvalues ++ [{ index := index, is_local := is_local }] }
        (uc + 1) ∧
      upvalue_registered (with_upvalue c d k { index := index, is_local := is_local }) d uc
        { index := index, is_local := is_local }) := by
  refine ⟨?_, ?_, ?_⟩
  · intro i hi hfirst
    exact add_upvalue_hit index is_local hk (indexOf_at hi hfirst)
  · intro hmem
    obtain ⟨i, hi, hlt, hget⟩ := indexOf_mem hmem
    exact ⟨i, by rw [← hk.2.2]; exact hlt, hget, add_upvalue_hit index is_local hk hi⟩
  · intro hnot huc
    have hknown := with_upvalue_known { index := index, is_local := is_local } hk
    refine ⟨add_upvalue_miss index is_local hk (indexOf_none hnot) huc, hknown,
      _, _, hknown, Nat.lt_succ_self uc, ?_⟩
    show (k.upvalues ++ [_])[uc]? = _
    rw [← hk.2.2]
    simp

theorem state_of_chunk_upvalues :
    upvalues_known (state_of_chunk (filled_chunk 0 0) zero_token) 0 script_compiler 0 :=
  ⟨rfl, rfl, rfl⟩

theorem add_upvalue_deduplicates_witness :
    add_upvalue (state_of_chunk (filled_chunk 0 0) zero_token) 0 3 true
      = some (with_upvalue (state_of_chunk (filled_chunk 0 0) zero_token) 0 script_compiler
          { index := 3, is_local := true }, 0) ∧
    add_upvalue (with_upvalue (state_of_chunk (filled_chunk 0 0) zero_token) 0 script_compiler
        { index := 3, is_local := true }) 0 3 true
      = some (with_upvalue (state_of_chunk (filled_chunk 0 0) zero_token) 0 script_compiler
          { index := 3, is_local := true }, 0) :=
  ⟨((add_upvalue_deduplicates _ 0 script_compiler 0 3 true state_of_chunk_upvalues).2.2
      (by decide) (by decide)).1,
    (add_upvalue_deduplicates _ 0 _ 1 3 true
      (with_upvalue_known { index := 3, is_local := true } state_of_chunk_upvalues)).1 0 rfl
      (fun j hj => absurd hj (Nat.not_lt_zero j))⟩

/-! ### `resolve_local` and `resolve_upvalue` -/

/-- The loop of `resolve_local` returns the slot the name resolves to, and
changes neither the chain of compilers nor the heap. -/
theorem resolve_local_loop_found {locals : List localvar} {name : token} {slot : Nat}
    (hres : resolves_to locals name slot) :
    ∀ (i : Nat) (c : compile_state), slot < i → i ≤ locals.length →
      ∃ c1 : compile_state, resolve_local_loop locals name i c = some (c1, (slot : Int)) ∧
        c1.current = c.current ∧ c1.vm.heap = c.vm.heap := by
  obtain ⟨⟨l, hl, heq⟩, hlast⟩ := hres
  intro i
  induction i with
  | zero => intro c h; omega
  | succ i ih =>
    intro c hlt hle
    have hi : i < locals.length := by omega
    unfold resolve_local_loop
    rw [List.getElem?_eq_getElem hi]
    simp only
    by_cases hs : slot = i
    · subst hs
      rw [List.getElem?_eq_getElem hi] at hl
      cases hl
      rw [if_pos heq]
      refine ⟨_, rfl, ?_, ?_⟩
      · split
        · unfold error error_at
          split <;> rfl
        · rfl
      · split
        · unfold error error_at
          split <;> rfl
        · rfl
    · have hne := hlast i locals[i] (by omega) (List.getElem?_eq_getElem hi)
      rw [if_neg (by rw [hne]; decide)]
      obtain ⟨c1, hrun, h1, h2⟩ := ih (print_out c _) (by omega) (by omega)
      exact ⟨c1, hrun, h1, h2⟩

/-- The loop of `resolve_local` returns -1 when no local has the name, and
changes neither the chain of compilers nor the heap. -/
theorem resolve_local_loop_miss {locals : List localvar} {name : token}
    (hno : not_a_local locals name) :
    ∀ (i : Nat) (c : compile_state), i ≤ locals.length →
      ∃ c1 : compile_state, resolve_local_loop locals name i c = some (c1, -1) ∧
        c1.current = c.current ∧ c1.vm.heap = c.vm.heap := by
  intro i
  induction i with
  | zero => intro c _; exact ⟨c, rfl, rfl, rfl⟩
  | succ i ih =>
    intro c hle
    have hi : i < locals.length := by omega
    unfold resolve_local_loop
    rw [List.getElem?_eq_getElem hi]
    simp only
    have hne := hno i locals[i] (List.getElem?_eq_getElem hi)
    rw [if_neg (by rw [hne]; decide)]
    obtain ⟨c1, hrun, h1, h2⟩ := ih (print_out c _) (by omega)
    exact ⟨c1, hrun, h1, h2⟩

theorem func_upvalue_count_congr {vm vm1 : VM} {f : Nat} (h : vm1.heap f = vm.heap f) :
    func_upvalue_count vm1 f = func_upvalue_count vm f := by
  unfold func_upvalue_count
  rw [h]

theorem upvalues_known_congr {c c1 : compile_state} {d : Nat} {k : compiler_t} {uc : Nat}
    (hk : upvalues_known c d k uc) (hcur : c1.current[d]? = c.current[d]?)
    (hheap : c1.vm.heap k.func = c.vm.heap k.func) : upvalues_known c1 d k uc :=
  ⟨by rw [hcur]; exact hk.1, by rw [func_upvalue_count_congr hheap]; exact hk.2.1, hk.2.2⟩

/-- Function `add_upvalue` with room for one more upvalue registers the pair,
at the index it returns: the state is unchanged or has the pair appended. -/
theorem add_upvalue_registers {c : compile_state} {d : Nat} {k : compiler_t} {uc : Nat}
    (index : Nat) (is_local : Bool) (hk : upvalues_known c d k uc) (huc : uc < 256) :
    ∃ (c' : compile_state) (r : Nat),
      add_upvalue c d index is_local = some (c', (r : Int)) ∧ r < 256 ∧
      upvalue_registered c' d r { index := index, is_local := is_local } ∧
      (c' = c ∨ c' = with_upvalue c d k { index := index, is_local := is_local }) := by
  by_cases hmem : ({ index := index, is_local := is_local } : upvalue) ∈ k.upvalues
  · obtain ⟨i, hi, hlt, hget⟩ := indexOf_mem hmem
    exact ⟨c, i, add_upvalue_hit index is_local hk hi, by have := hk.2.2; omega,
      ⟨k, uc, hk, by rw [← hk.2.2]; exact hlt, hget⟩, Or.inl rfl⟩
  · have hknown := with_upvalue_known { index := index, is_local := is_local } hk
    refine ⟨_, uc, add_upvalue_miss index is_local hk (indexOf_none hmem) huc, huc,
      ⟨_, _, hknown, Nat.lt_succ_self uc, ?_⟩, Or.inr rfl⟩
    show (k.upvalues ++ [_])[uc]? = _
    rw [← hk.2.2]
    simp

/-- Function `resolve_upvalue` for a name that is a local of no enclosing
compiler returns -1 and changes neither the chain of compilers nor the
heap. -/
theorem resolve_upvalue_miss (name : token) :
    ∀ (n d : Nat) (c : compile_state), c.current.length ≤ d + n + 1 →
      (∀ (i : Nat) (k : compiler_t), d < i → c.current[i]? = some k →
        not_a_local k.locals name) →
      ∃ c1 : compile_state, resolve_upvalue name (n + 1) c d = some (c1, -1) ∧
        c1.current = c.current ∧ c1.vm.heap = c.vm.heap := by
  intro n
  induction n with
  | zero =>
    intro d c hlen _
    have hnone : c.current[d + 1]? = none := List.getElem?_eq_none (by omega)
    unfold resolve_upvalue
    rw [hnone]
    exact ⟨c, rfl, rfl, rfl⟩
  | succ n ih =>
    intro d c hlen hno
    unfold resolve_upvalue
    cases he : c.current[d + 1]? with
    | none => exact ⟨c, rfl, rfl, rfl⟩
    | some e =>
      obtain ⟨c1, hr1, hcur1, hheap1⟩ :=
        resolve_local_loop_miss (hno (d + 1) e (by omega) he) e.locals.length c (Nat.le_refl _)
      have hr1' : resolve_local c e name = some (c1, -1) := hr1
      obtain ⟨c2, hr2, hcur2, hheap2⟩ := ih (d + 1) c1 (by rw [hcur1]; omega)
        (fun i k hi hk => hno i k (by omega) (by rw [← hcur1]; exact hk))
      simp only [Option.bind_eq_bind, hr1', Option.some_bind, ne_eq, not_true_eq_false,
        if_false, hr2]
      exact ⟨c2, rfl, hcur2.trans hcur1, hheap2.trans hheap1⟩

theorem map_func_set {l : List compiler_t} {i : Nat} {k k' : compiler_t}
    (hk : l[i]? = some k) (hf : k'.func = k.func) :
    (l.set i k').map (fun k => k.func) = l.map (fun k => k.func) := by
  apply List.ext_getElem?
  intro j
  simp only [List.getElem?_map]
  by_cases hj : i = j
  · subst hj
    have hi : i < l.length := (List.getElem?_eq_some_iff.1 hk).1
    rw [List.getElem?_set_self hi, hk]
    simp [hf]
  · rw [List.getElem?_set_ne hj]

theorem funcs_apart {l : List compiler_t} (hnd : (l.map (fun k => k.func)).Nodup)
    {i j : Nat} {a b : compiler_t} (ha : l[i]? = some a) (hb : l[j]? = some b) (hij : i ≠ j) :
    a.func ≠ b.func := by
  intro hab
  have hi : i < (l.map (fun k => k.func)).length := by
    rw [List.length_map]
    exact (List.getElem?_eq_some_iff.1 ha).1
  have hj : j < (l.map (fun k => k.func)).length := by
    rw [List.length_map]
    exact (List.getElem?_eq_some_iff.1 hb).1
  have h1 : (l.map (fun k => k.func))[i]? = some a.func := by simp [ha]
  have h2 : (l.map (fun k => k.func))[j]? = some b.func := by simp [hb]
  rw [List.getElem?_eq_getElem hi] at h1
  rw [List.getElem?_eq_getElem hj] at h2
  have := (List.Nodup.getElem_inj_iff hnd).1
    ((Option.some.inj h1).trans (hab.trans (Option.some.inj h2).symm))
  exact hij this

theorem upvalue_registered_congr {c c1 : compile_state} {d r : Nat} {u : upvalue}
    (h : upvalue_registered c d r u) (hcur : c1.current[d]? = c.current[d]?)
    (hheap : ∀ k, c.current[d]? = some k → c1.vm.heap k.func = c.vm.heap k.func) :
    upvalue_registered c1 d r u := by
  obtain ⟨k, uc, hk, hr, hu⟩ := h
  exact ⟨k, uc, upvalues_known_congr hk hcur (hheap k hk.1), hr, hu⟩

/-- The upvalues registered from position `d` on stay registered when the
compilers from `d` on and their functions are kept. -/
theorem upvalue_chain_congr {c c1 : compile_state} {slot : Nat} (d0 : Nat)
    (hcur : ∀ i, d0 ≤ i → c1.current[i]? = c.current[i]?)
    (hheap : ∀ (i : Nat) (k : compiler_t), d0 ≤ i → c.current[i]? = some k →
      c1.vm.heap k.func = c.vm.heap k.func) :
    ∀ (m d r : Nat), d0 ≤ d → upvalue_chain c slot m d r → upvalue_chain c1 slot m d r := by
  intro m
  induction m with
  | zero =>
    intro d r hd ⟨hreg, e, l, he, hl, hc⟩
    exact ⟨upvalue_registered_congr hreg (hcur d hd) (fun k hk => hheap d k hd hk),
      e, l, by rw [hcur (d + 1) (by omega)]; exact he, hl, hc⟩
  | succ m ih =>
    intro d r hd ⟨r1, hreg, hrest⟩
    exact ⟨r1, upvalue_registered_congr hreg (hcur d hd) (fun k hk => hheap d k hd hk),
      ih (d + 1) r1 (by omega) hrest⟩

theorem with_upvalue_current_ne {c : compile_state} {d i : Nat} {k : compiler_t} {u : upvalue}
    (h : d ≠ i) : (with_upvalue c d k u).current[i]? = c.current[i]? := by
  show (c.current.set d _)[i]? = _
  rw [List.getElem?_set_ne h]

theorem chain_kept_of_same {c c1 : compile_state} (d : Nat) (hcur : c1.current = c.current)
    (hheap : c1.vm.heap = c.vm.heap) : chain_kept c c1 d :=
  ⟨fun _ _ => by rw [hcur], by rw [hcur], by rw [hcur], fun _ _ => by rw [hheap]⟩

theorem chain_kept_funcs {c c1 : compile_state} {i : Nat} {k1 : compiler_t}
    (hf : c1.current.map (fun k => k.func) = c.current.map (fun k => k.func))
    (hk : c1.current[i]? = some k1) : ∃ k, c.current[i]? = some k ∧ k.func = k1.func := by
  have h1 : (c1.current.map (fun k => k.func))[i]? = some k1.func := by simp [hk]
  rw [hf, List.getElem?_map] at h1
  cases hc : c.current[i]? with
  | none => simp [hc] at h1
  | some k =>
    simp only [hc, Option.map_some', Option.some.injEq] at h1
    exact ⟨k, rfl, h1⟩

theorem chain_kept_trans {c c1 c2 : compile_state} {d : Nat} (h1 : chain_kept c c1 d)
    (h2 : chain_kept c1 c2 d) : chain_kept c c2 d := by
  refine ⟨fun i hi => (h2.before i hi).trans (h1.before i hi), h2.length.trans h1.length,
    h2.funcs.trans h1.funcs, ?_⟩
  intro f hf
  rw [h2.heap f, h1.heap f hf]
  intro i k1 hi hk1
  obtain ⟨k, hk, hkf⟩ := chain_kept_funcs h1.funcs hk1
  rw [← hkf]
  exact hf i k hi hk

theorem chain_kept_mono {c c1 : compile_state} {d : Nat} (h : chain_kept c c1 (d + 1)) :
    chain_kept c c1 d :=
  ⟨fun i hi => h.before i (by omega), h.length, h.funcs,
    fun f hf => h.heap f (fun i k hi hk => hf i k (by omega) hk)⟩

theorem chain_kept_set {c : compile_state} {d j : Nat} {k k' : compiler_t} (hj : d ≤ j)
    (hk : c.current[j]? = some k) (hf : k'.func = k.func) :
    chain_kept c { c with current := c.current.set j k' } d :=
  ⟨fun i hi => by
      show (c.current.set j k')[i]? = _
      rw [List.getElem?_set_ne (by omega)],
    by show (c.current.set j k').length = _; rw [List.length_set],
    map_func_set hk hf, fun _ _ => rfl⟩

theorem chain_kept_with_upvalue {c : compile_state} {d : Nat} {k : compiler_t} {uc : Nat}
    (u : upvalue) (hk : upvalues_known c d k uc) : chain_kept c (with_upvalue c d k u) d :=
  ⟨fun i hi => with_upvalue_current_ne (by omega),
    by show (c.current.set d _).length = _; rw [List.length_set],
    map_func_set hk.1 rfl,
    fun f hf => bump_upvalue_count_other (fun e => hf d k (Nat.le_refl d) hk.1 e.symm)⟩

/-- Function `resolve_upvalue` for a name that is a local of the compiler
`m + 1` positions up the chain: it returns the index of an upvalue of the
compiler it is called for, and the upvalues registered lead to the local. -/
theorem resolve_upvalue_hit (name : token) (slot : Nat) :
    ∀ (m d : Nat) (c : compile_state), upvalue_path c name slot m d → ∀ n : Nat,
      ∃ (c' : compile_state) (r : Nat),
        resolve_upvalue name (n + m + 1) c d = some (c', (r : Int)) ∧ r < 256 ∧
        upvalue_chain c' slot m d r ∧ chain_kept c c' d := by
  intro m
  induction m with
  | zero =>
    intro d c hp n
    obtain ⟨k, uc, hk, huc⟩ := hp.known d (Nat.le_refl d) (by omega)
    obtain ⟨e, he, hres, hlen⟩ := hp.owner
    have he' : c.current[d + 1]? = some e := he
    obtain ⟨l, hl, _⟩ := hres.1
    have hslot : slot < e.locals.length := (List.getElem?_eq_some_iff.1 hl).1
    obtain ⟨c1, hr1, hcur1, hheap1⟩ :=
      resolve_local_loop_found hres e.locals.length c hslot (Nat.le_refl _)
    have hr1' : resolve_local c e name = some (c1, (slot : Int)) := hr1
    have he1 : c1.current[d + 1]? = some e := by rw [hcur1]; exact he'
    have hkept2 : chain_kept c (capture_local c1 (d + 1) e slot l) d :=
      chain_kept_trans (chain_kept_of_same d hcur1 hheap1)
        (@chain_kept_set c1 d (d + 1) e _ (by omega) he1 rfl)
    have hk2 : upvalues_known (capture_local c1 (d + 1) e slot l) d k uc :=
      upvalues_known_congr hk
        (by
          show (c1.current.set (d + 1) _)[d]? = _
          rw [List.getElem?_set_ne (by omega), hcur1])
        (by show c1.vm.heap _ = _; rw [hheap1])
    obtain ⟨c', r, hadd, hr, hreg, hcase⟩ := add_upvalue_registers slot true hk2 huc
    have hd1 : d + 1 < c1.current.length := (List.getElem?_eq_some_iff.1 he1).1
    refine ⟨c', r, ?_, hr,
      ⟨hreg, ({ e with locals := e.locals.set slot { l with captured := true } }),
        { l with captured := true }, ?_, ?_, rfl⟩, ?_⟩
    · show resolve_upvalue name (n + 1) c d = _
      unfold resolve_upvalue
      simp only [he', Option.bind_eq_bind, hr1', Option.some_bind, Int.toNat_ofNat, hl,
        Nat.mod_eq_of_lt (by omega : slot < 256)]
      rw [if_pos (by omega)]
      exact hadd
    · rcases hcase with h | h
      · rw [h]
        show (c1.current.set (d + 1) _)[d + 1]? = _
        rw [List.getElem?_set_self hd1]
      · rw [h, with_upvalue_current_ne (by omega)]
        show (c1.current.set (d + 1) _)[d + 1]? = _
        rw [List.getElem?_set_self hd1]
    · show (e.locals.set slot _)[slot]? = _
      rw [List.getElem?_set_self hslot]
    · rcases hcase with h | h
      · rw [h]
        exact hkept2
      · rw [h]
        exact chain_kept_trans hkept2 (chain_kept_with_upvalue _ hk2)
  | succ m ih =>
    intro d c hp n
    obtain ⟨k, uc, hk, huc⟩ := hp.known d (Nat.le_refl d) (by omega)
    obtain ⟨e, uce, hke, _⟩ := hp.known (d + 1) (by omega) (by omega)
    have he' : c.current[d + 1]? = some e := hke.1
    obtain ⟨c1, hr1, hcur1, hheap1⟩ :=
      resolve_local_loop_miss (hp.between (d + 1) e (by omega) (by omega) he')
        e.locals.length c (Nat.le_refl _)
    have hr1' : resolve_local c e name = some (c1, -1) := hr1
    have hp1 : upvalue_path c1 name slot m (d + 1) := by
      refine ⟨?_, by rw [hcur1]; exact hp.apart, ?_, ?_⟩
      · intro i hi1 hi2
        obtain ⟨ki, uci, hki, hlt⟩ := hp.known i (by omega) (by omega)
        exact ⟨ki, uci, upvalues_known_congr hki (by rw [hcur1]) (by rw [hheap1]), hlt⟩
      · intro i ki hi1 hi2 hki
        exact hp.between i ki (by omega) (by omega) (by rw [← hcur1]; exact hki)
      · obtain ⟨eo, heo, hres, hlen⟩ := hp.owner
        refine ⟨eo, ?_, hres, hlen⟩
        rw [hcur1]
        have e1 : d + 1 + m + 1 = d + (m + 1) + 1 := by omega
        rw [e1]
        exact heo
    obtain ⟨c2, r1, hr2, hr1lt, hchain2, hkept2⟩ := ih (d + 1) c1 hp1 n
    have hc1 : chain_kept c c1 d := chain_kept_of_same d hcur1 hheap1
    have hc2 : chain_kept c c2 d := chain_kept_trans hc1 (chain_kept_mono hkept2)
    have hk2 : upvalues_known c2 d k uc := by
      refine upvalues_known_congr hk ?_ ?_
      · rw [hkept2.before d (by omega), hcur1]
      · rw [hkept2.heap k.func, hheap1]
        intro i ki hi hki
        rw [hcur1] at hki
        exact funcs_apart hp.apart hki hk.1 (by omega)
    obtain ⟨c', r, hadd, hr, hreg, hcase⟩ := add_upvalue_registers r1 false hk2 huc
    refine ⟨c', r, ?_, hr, ⟨r1, hreg, ?_⟩, ?_⟩
    · have e1 : n + (m + 1) + 1 = (n + m + 1) + 1 := by omega
      rw [e1]
      unfold resolve_upvalue
      simp only [he', Option.bind_eq_bind, hr1', Option.some_bind, ne_eq, not_true_eq_false,
        if_false, hr2, Int.toNat_ofNat, Nat.mod_eq_of_lt hr1lt]
      rw [if_pos (by omega)]
      exact hadd
    · rcases hcase with h | h
      · rw [h]
        exact hchain2
      · rw [h]
        refine upvalue_chain_congr (d + 1) ?_ ?_ m (d + 1) r1 (Nat.le_refl _) hchain2
        · intro i hi
          exact with_upvalue_current_ne (by omega)
        · intro i ki hi hki
          refine bump_upvalue_count_other ?_
          obtain ⟨k0, hk0, hkf⟩ := chain_kept_funcs hc2.funcs hki
          rw [← hkf]
          exact funcs_apart hp.apart hk0 hk.1 (by omega)
    · rcases hcase with h | h
      · rw [h]
        exact hc2
      · rw [h]
        exact chain_kept_trans hc2 (chain_kept_with_upvalue _ hk2)

/-- C33: `resolve_upvalue` called for the compiler at position `d` of the
chain, where the compilers have function objects of their own, each counting
the upvalues its compiler holds, within the limits of 256 upvalues and 256
locals per compiler (`upvalue_path`).  For a
name that the compiler at `d + 1` resolves to its local `slot`, it marks that
local captured and returns the index of an upvalue of the compiler at `d` that
is registered as `{index = slot, is_local = true}`.  For a name that is a local
only of the compiler at `d + m + 2`, it returns the index of an upvalue of the
compiler at `d` registered as `{index = r1, is_local = false}`, where `r1` is
the index of the upvalue of the compiler at `d + 1`, and so on up to the
compiler below the owner, whose upvalue is `{index = slot, is_local = true}`,
the local being marked captured.  For a name that is a local of no enclosing
compiler it returns -1, and neither the chain of compilers nor the heap has
changed: nothing is registered. -/
theorem resolve_upvalue_registers (name : token) (c : compile_state) (d : Nat) :
    (∀ slot n : Nat, upvalue_path c name slot 0 d →
      ∃ (c' : compile_state) (r : Nat),
        resolve_upvalue name (n + 1) c d = some (c', (r : Int)) ∧
        upvalue_registered c' d r { index := slot, is_local := true } ∧
        ∃ (e : compiler_t) (l : localvar), c'.current[d + 1]? = some e ∧
          e.locals[slot]? = some l ∧ l.captured = true) ∧
    (∀ slot m n : Nat, upvalue_path c name slot (m + 1) d →
      ∃ (c' : compile_state) (r r1 : Nat),
        resolve_upvalue name (n + (m + 1) + 1) c d = some (c', (r : Int)) ∧
        upvalue_registered c' d r { index := r1, is_local := false } ∧
        upvalue_chain c' slot m (d + 1) r1) ∧
    (∀ n : Nat, c.current.length ≤ d + n + 1 →
      (∀ (i : Nat) (k : compiler_t), d < i → c.current[i]? = some k →
        not_a_local k.locals name) →
      ∃ c1 : compile_state, resolve_upvalue name (n + 1) c d = some (c1, -1) ∧
        c1.current = c.current ∧ c1.vm.heap = c.vm.heap) := by
  refine ⟨?_, ?_, ?_⟩
  · intro slot n hp
    obtain ⟨c', r, hrun, _, hchain, _⟩ := resolve_upvalue_hit name slot 0 d c hp n
    exact ⟨c', r, hrun, hchain.1, hchain.2⟩
  · intro slot m n hp
    obtain ⟨c', r, hrun, _, ⟨r1, hreg, hchain⟩, _⟩ :=
      resolve_upvalue_hit name slot (m + 1) d c hp n
    exact ⟨c', r, r1, hrun, hreg, hchain⟩
  · intro n hlen hno
    exact resolve_upvalue_miss name n d c hlen hno

theorem slot_zero_not_x : not_a_local compiler_middle.locals token_x := by
  intro j l hl
  cases j with
  | zero =>
    have : l = { name := slot_zero_name FTYPE_FUNC, depth := 0, captured := false } :=
      (Option.some.inj hl).symm
    rw [this]
    rfl
  | succ j => cases hl

theorem state_three_compilers_path : upvalue_path state_three_compilers token_x 1 1 0 := by
  refine ⟨?_, by decide, ?_, ?_⟩
  · intro i _ hi
    have hi' : i = 0 ∨ i = 1 := by omega
    rcases hi' with h | h <;> subst h
    · exact ⟨compiler_inner, 0, ⟨rfl, rfl, rfl⟩, by decide⟩
    · exact ⟨compiler_middle, 0, ⟨rfl, rfl, rfl⟩, by decide⟩
  · intro i k h1 h2 hk
    have hi' : i = 1 := by omega
    subst hi'
    have : k = compiler_middle := (Option.some.inj hk).symm
    rw [this]
    exact slot_zero_not_x
  · refine ⟨compiler_outer, rfl, ⟨⟨_, rfl, rfl⟩, ?_⟩, by decide⟩
    intro j l hj hl
    have : compiler_outer.locals[j]? = none :=
      List.getElem?_eq_none (by show 2 ≤ j; omega)
    rw [this] at hl
    cases hl

theorem resolve_upvalue_registers_witness :
    ∃ (c' : compile_state) (r r1 : Nat),
      resolve_upvalue token_x 2 state_three_compilers 0 = some (c', (r : Int)) ∧
      upvalue_registered c' 0 r { index := r1, is_local := false } ∧
      upvalue_chain c' 1 0 1 r1 :=
  (resolve_upvalue_registers token_x state_three_compilers 0).2.1 1 0 0
    state_three_compilers_path

/-! ### The end of a scope -/

theorem compile_inv_set_compiler {h : host} {ups : List Nat} {M B : Nat} {c : compile_state}
    {k : compiler_t} {rest : List compiler_t} (k1 : compiler_t)
    (hinv : compile_inv h ups M B c) (hk : c.current = k :: rest) (hf : k1.func = k.func) :
    compile_inv h ups M B (set_compiler c k1) := by
  obtain ⟨h1, h2, h3, h4, h5⟩ := hinv
  refine ⟨h1, h2, h3, h4, ?_⟩
  intro k2 hk2
  have hcur : (set_compiler c k1).current = k1 :: rest := by
    show k1 :: c.current.tail = k1 :: rest
    rw [hk]; rfl
  rw [hcur] at hk2
  rcases List.mem_cons.mp hk2 with e | e
  · rw [e, hf]
    exact h5 k (by rw [hk]; exact List.mem_cons_self _ _)
  · exact h5 k2 (by rw [hk]; exact List.mem_cons_of_mem _ e)

theorem discard_op_mod (l : localvar) : discard_op l % 256 = discard_op l := by
  unfold discard_op
  split <;> rfl

theorem end_scope_loop_ok (h : host) {ups : List Nat} {M B : Nat} (keep : List localvar)
    (rest : List compiler_t) (ar uc : Nat) (nm : Option Nat) :
    ∀ (drop : List localvar) (n : Nat) (c : compile_state) (k : compiler_t) (chk : chunk),
      compile_inv h ups M B c → c.current = k :: rest → k.locals = keep ++ drop →
      payload_at c.vm.heap k.func = some (obj_payload.obj_func ar uc chk nm) →
      (∀ l ∈ drop, l.depth > k.scope_depth) →
      (∀ l, keep.getLast? = some l → l.depth ≤ k.scope_depth) →
      drop.length < n →
      ∃ (c1 : compile_state) (cap : Nat),
        end_scope_loop h n c = some c1 ∧
        c1.current = { k with locals := keep } :: rest ∧
        c1.parser = c.parser ∧ c1.stderr = c.stderr ∧
        compile_inv h ups M B c1 ∧
        payload_at c1.vm.heap k.func = some (obj_payload.obj_func ar uc
          { chk with capacity := cap, code := chk.code ++ drop.reverse.map discard_op,
                     lines := chk.lines ++ List.replicate drop.length c.parser.previous.line,
                     count := chk.count + drop.length } nm) := by
  intro drop
  induction drop using List.reverseRecOn with
  | nil =>
    intro n c k chk hinv hk hl hp hdrop hkeep hn
    obtain ⟨n, rfl⟩ : ∃ n1, n = n1 + 1 := ⟨n - 1, by simp at hn; omega⟩
    have hl1 : k.locals = keep := by rw [hl, List.append_nil]
    have hkk : ({ k with locals := keep } : compiler_t) = k := by rw [← hl1]
    refine ⟨c, chk.capacity, ?_, by rw [hkk, hk], rfl, rfl, hinv, ?_⟩
    · unfold end_scope_loop
      simp only [hk, List.head?_cons, Option.bind_eq_bind, Option.some_bind, hl1]
      cases hg : keep.getLast? with
      | none => rfl
      | some l =>
        have := hkeep l hg
        simp only [gt_iff_lt]
        rw [if_neg (by omega)]
    · rw [hp]
      simp
  | append_singleton ds l ih =>
    intro n c k chk hinv hk hl hp hdrop hkeep hn
    obtain ⟨n, rfl⟩ : ∃ n1, n = n1 + 1 := ⟨n - 1, by omega⟩
    have hlast : k.locals.getLast? = some l := by
      rw [hl, ← List.append_assoc, List.getLast?_append, List.getLast?_singleton]
      rfl
    have hd : l.depth > k.scope_depth := hdrop l (by simp)
    obtain ⟨vm1, hrun, hinv1, _, hp1⟩ := emit_byte_ok h (discard_op l) hinv hk
    obtain ⟨cap1, hp1⟩ := hp1 ar uc chk nm hp
    have hinv2 := @compile_inv_set_compiler h ups M B { c with vm := vm1 } k rest
      ({ k with locals := k.locals.dropLast }) hinv1 hk rfl
    have hdl : k.locals.dropLast = keep ++ ds := by
      rw [hl, ← List.append_assoc, List.dropLast_concat]
    obtain ⟨c2, cap2, hrun2, hcur2, hpar2, herr2, hinv3, hp3⟩ :=
      ih n (set_compiler { c with vm := vm1 } { k with locals := k.locals.dropLast })
        { k with locals := k.locals.dropLast } _ hinv2
        (by show _ :: c.current.tail = _; rw [hk]; rfl) hdl hp1
        (fun l1 h1 => hdrop l1 (by simp [h1])) hkeep
        (by simp at hn; omega)
    refine ⟨c2, cap2, ?_, hcur2, hpar2, herr2, hinv3, ?_⟩
    · unfold end_scope_loop
      simp only [hk, List.head?_cons, Option.bind_eq_bind, Option.some_bind, hlast]
      rw [if_pos hd]
      have hrun' : emit_byte h c (if l.captured = true then OP_CLOSE_UPVALUE else OP_POP) =
          some { c with vm := vm1 } := hrun
      rw [hrun']
      simp only [Option.some_bind, hk, List.head?_cons]
      rw [← hk]
      exact hrun2
    · have hp4 : payload_at c2.vm.heap k.func = _ := hp3
      rw [hp4]
      have e1 : (set_compiler { c with vm := vm1 }
          { k with locals := k.locals.dropLast }).parser = c.parser := rfl
      simp only [e1, discard_op_mod, List.reverse_append, List.reverse_singleton,
        List.singleton_append, List.map_cons, List.append_assoc, List.length_append,
        List.length_singleton, List.replicate_succ', Nat.add_assoc, Nat.add_comm 1]
      rw [← List.replicate_succ, List.replicate_succ']

/-- C35: `end_scope` in a compiler whose locals are `keep ++ drop`, every
local of `drop` having a depth above the decremented scope depth and the last
local of `keep` (if any) not.  It returns; the scope depth is decremented; the
locals are `keep`, so exactly the locals of `drop` have been removed; the code
of the chunk has been extended by one byte per local of `drop`, from the most
recently declared backwards, `OP_CLOSE_UPVALUE` for a captured local and
`OP_POP` otherwise, so by `drop.length` bytes in all; the constants, the
parser and the diagnostics have not changed. -/
theorem end_scope_discards_locals (h : host) {ups : List Nat} {M B : Nat} {c : compile_state}
    {k : compiler_t} {rest : List compiler_t} {ar uc : Nat} {chk : chunk} {nm : Option Nat}
    (keep drop : List localvar)
    (hinv : compile_inv h ups M B c) (hk : c.current = k :: rest)
    (hp : payload_at c.vm.heap k.func = some (obj_payload.obj_func ar uc chk nm))
    (hl : k.locals = keep ++ drop)
    (hdrop : ∀ l ∈ drop, l.depth > k.scope_depth - 1)
    (hkeep : ∀ l, keep.getLast? = some l → l.depth ≤ k.scope_depth - 1) :
    ∃ (c1 : compile_state) (chk1 : chunk),
      end_scope h c = some c1 ∧
      c1.current = { k with scope_depth := k.scope_depth - 1, locals := keep } :: rest ∧
      payload_at c1.vm.heap k.func = some (obj_payload.obj_func ar uc chk1 nm) ∧
      chk1.code = chk.code ++ drop.reverse.map
        (fun l => if l.captured then OP_CLOSE_UPVALUE else OP_POP) ∧
      chk1.count = chk.count + drop.length ∧
      chk1.code.length = chk.code.length + drop.length ∧
      chk1.consts = chk.consts ∧
      c1.parser = c.parser ∧ c1.stderr = c.stderr ∧
      compile_inv h ups M B c1 := by
  have hinv1 := @compile_inv_set_compiler h ups M B c k rest
    ({ k with scope_depth := k.scope_depth - 1 }) hinv hk rfl
  obtain ⟨c1, cap, hrun, hcur, hpar, herr, hinv2, hp2⟩ :=
    end_scope_loop_ok h keep rest ar uc nm drop (k.locals.length + 1)
      (set_compiler c { k with scope_depth := k.scope_depth - 1 })
      { k with scope_depth := k.scope_depth - 1 } chk hinv1
      (by show _ :: c.current.tail = _; rw [hk]; rfl) hl hp hdrop hkeep
      (by rw [hl, List.length_append]; omega)
  refine ⟨c1, _, ?_, hcur, hp2, rfl, rfl, ?_, rfl, hpar, herr, hinv2⟩
  · unfold end_scope
    simp only [hk, List.head?_cons, Option.bind_eq_bind, Option.some_bind]
    exact hrun
  · simp

theorem state_in_block_inv : compile_inv host_lp64 [] 1024 0 state_in_block :=
  compile_inv_set_compiler block_compiler
    (state_of_chunk_inv (filled_chunk 0 0) zero_token
      ⟨rfl, rfl, rfl⟩ (by intro v hv; cases hv) (Nat.zero_le _))
    rfl rfl

theorem end_scope_discards_locals_witness :
    ∃ (c1 : compile_state) (chk1 : chunk),
      end_scope host_lp64 state_in_block = some c1 ∧
      c1.current = [block_closed] ∧
      payload_at c1.vm.heap 1 = some (obj_payload.obj_func 0 0 chk1 none) ∧
      chk1.code = [OP_CLOSE_UPVALUE, OP_POP] ∧
      chk1.count = 0 + 2 ∧
      chk1.code.length = 0 + 2 ∧
      chk1.consts = (filled_chunk 0 0).consts ∧
      c1.parser = state_in_block.parser ∧ c1.stderr = state_in_block.stderr ∧
      compile_inv host_lp64 [] 1024 0 c1 :=
  end_scope_discards_locals host_lp64 (block_compiler.locals.take 1)
    (block_compiler.locals.drop 1) state_in_block_inv rfl rfl rfl (by decide) (by decide)

/-! ### The sweep phase -/

/-- C31: `sweep` on a VM whose object list is `l` returns; the object list is
then `l` restricted to the objects that were marked, in the order of `l`;
every object of `l` that was not marked has been freed; every object that was
marked is still allocated, with the same payload and with `marked = false`.
Hence `collect_garbage`, called in a state `vm0` handed over by the mutator
(nothing marked, gray stack empty), returns a state whose object list is a
sublist of the old one, in which every object on the list and every allocated
object is unmarked, and in which the gray stack is empty. -/
theorem sweep_keeps_marked_in_order (sz : sizeofs) (fuel : Nat) (vm : VM) (l : List Nat)
    (vm0 : VM) (l0 ups : List Nat)
    (hlist : is_list vm.heap vm.objects l) (hnd : l.Nodup) (hl : l.length < fuel)
    (hready : gc_ready vm0 l0 ups) (hfuel : 2 ^ 32 ≤ fuel)
    (hf : l0.length + ups.length < fuel) :
    (∃ vm', sweep sz fuel vm = some vm' ∧
      is_list vm'.heap vm'.objects (l.filter (marked_at vm.heap)) ∧
      (∀ a ∈ l, marked_at vm.heap a = false → vm'.heap a = none) ∧
      (∀ a ∈ l, marked_at vm.heap a = true →
        ∃ o o', vm.heap a = some o ∧ vm'.heap a = some o' ∧ o'.marked = false ∧
          o'.payload = o.payload) ∧
      (∀ a ∈ l.filter (marked_at vm.heap), marked_at vm'.heap a = false) ∧
      (∀ a, a ∉ l → vm.heap a = none → vm'.heap a = none) ∧
      vm'.gray_stack = vm.gray_stack) ∧
    (∃ (vm1 : VM) (l1 : List Nat), collect_garbage sz fuel vm0 = some vm1 ∧
      is_list vm1.heap vm1.objects l1 ∧ l1.Sublist l0 ∧
      (∀ a ∈ l1, ∃ o, vm1.heap a = some o ∧ o.marked = false) ∧
      (∀ (a : Nat) (o : obj), vm1.heap a = some o → a ∈ l1 ∧ o.marked = false) ∧
      vm1.gray_stack = []) := by
  constructor
  · obtain ⟨vm', hrun, hl', hkept, hfreed, hout, _, hframe⟩ :=
      sweep_loop_ok sz l fuel vm [] vm.objects hl hlist hnd hlist
    refine ⟨vm', hrun, hl', hfreed, hkept, ?_, ?_, by rw [hframe]⟩
    · intro a ha
      obtain ⟨hal, ham⟩ := List.mem_filter.mp ha
      obtain ⟨o, o', _, ho', hm, _⟩ := hkept a hal ham
      unfold marked_at
      rw [ho']
      exact hm
    · intro a ha hn
      exact hout a (by simpa using ha) hn
  · obtain ⟨vm1, M, hrun, hc⟩ := collect_garbage_ok sz hready hfuel hf
    have hr := collected_ready hready hc
    refine ⟨vm1, l0.filter M, hrun, hc.list, List.filter_sublist _, ?_, ?_, hr.gray⟩
    · intro a ha
      obtain ⟨_, ham⟩ := List.mem_filter.mp ha
      obtain ⟨o, o', _, ho', hm, _⟩ := hc.kept a ham
      exact ⟨o', ho', hm⟩
    · intro a o ha
      exact ⟨hr.dom a o ha, hr.white a o ha⟩

theorem vm4_marked_list : is_list vm4_marked.heap vm4_marked.objects [4, 3, 2, 1] :=
  ⟨rfl, _, rfl, rfl, _, rfl, rfl, _, rfl, rfl, _, rfl, rfl⟩

theorem sweep_keeps_marked_in_order_witness :
    (∃ vm', sweep sizes_lp64 (2 ^ 32) vm4_marked = some vm' ∧
      is_list vm'.heap vm'.objects [3, 2, 1] ∧
      (∀ a ∈ [4, 3, 2, 1], marked_at vm4_marked.heap a = false → vm'.heap a = none) ∧
      (∀ a ∈ [4, 3, 2, 1], marked_at vm4_marked.heap a = true →
        ∃ o o', vm4_marked.heap a = some o ∧ vm'.heap a = some o' ∧ o'.marked = false ∧
          o'.payload = o.payload) ∧
      (∀ a ∈ [3, 2, 1], marked_at vm'.heap a = false) ∧
      (∀ a, a ∉ [4, 3, 2, 1] → vm4_marked.heap a = none → vm'.heap a = none) ∧
      vm'.gray_stack = vm4_marked.gray_stack) ∧
    (∃ (vm1 : VM) (l1 : List Nat), collect_garbage sizes_lp64 (2 ^ 32) vm4 = some vm1 ∧
      is_list vm1.heap vm1.objects l1 ∧ l1.Sublist [4, 3, 2, 1] ∧
      (∀ a ∈ l1, ∃ o, vm1.heap a = some o ∧ o.marked = false) ∧
      (∀ (a : Nat) (o : obj), vm1.heap a = some o → a ∈ l1 ∧ o.marked = false) ∧
      vm1.gray_stack = []) :=
  sweep_keeps_marked_in_order sizes_lp64 (2 ^ 32) vm4_marked [4, 3, 2, 1] vm4 [4, 3, 2, 1] []
    vm4_marked_list (by decide) (by decide) vm4_ready (Nat.le_refl _) (by decide)

/-! ### The encoding of jumps -/

theorem frame_chunk_congr {vm vm1 : VM} {frame : Nat} (hh : vm1.heap = vm.heap)
    (hc : (vm1.frames frame).closure = (vm.frames frame).closure) :
    frame_chunk vm1 frame = frame_chunk vm frame := by
  unfold frame_chunk
  rw [hh, hc]

/-- `READ_BYTE` in a frame whose chunk holds the byte `b` at `ip`. -/
theorem READ_BYTE_at {vm : VM} {frame : Nat} {chk : chunk} {b : Nat}
    (hc : frame_chunk vm frame = some chk)
    (hb : chk.code[(vm.frames frame).ip]? = some b) :
    ∃ vm1 : VM, READ_BYTE vm frame = some (vm1, b) ∧
      frame_chunk vm1 frame = some chk ∧
      (vm1.frames frame).ip = (vm.frames frame).ip + 1 ∧
      vm1.stack = vm.stack ∧ vm1.stack_top = vm.stack_top ∧ vm1.stdout = vm.stdout := by
  refine ⟨{ vm with
      frames := Function.update vm.frames frame
        { vm.frames frame with ip := (vm.frames frame).ip + 1 } }, ?_, ?_, ?_, rfl, rfl, rfl⟩
  · unfold READ_BYTE
    simp only [hc, hb]
  · rw [← hc]
    exact frame_chunk_congr rfl (by simp)
  · simp

/-- `READ_SHORT` in a frame whose chunk holds the bytes `hi` and `lo` at `ip`
and `ip + 1`. -/
theorem READ_SHORT_at {vm : VM} {frame : Nat} {chk : chunk} {hi lo : Nat}
    (hc : frame_chunk vm frame = some chk)
    (h1 : chk.code[(vm.frames frame).ip]? = some hi)
    (h2 : chk.code[(vm.frames frame).ip + 1]? = some lo) :
    ∃ vm1 : VM, READ_SHORT vm frame = some (vm1, (hi * 256 + lo) % 65536) ∧
      frame_chunk vm1 frame = some chk ∧
      (vm1.frames frame).ip = (vm.frames frame).ip + 2 ∧
      vm1.stack = vm.stack ∧ vm1.stack_top = vm.stack_top ∧ vm1.stdout = vm.stdout := by
  obtain ⟨vm1, hr1, hc1, hip1, hs1, ht1, ho1⟩ := READ_BYTE_at hc h1
  obtain ⟨vm2, hr2, hc2, hip2, hs2, ht2, ho2⟩ := READ_BYTE_at hc1 (by rw [hip1]; exact h2)
  refine ⟨vm2, ?_, hc2, by rw [hip2, hip1], by rw [hs2, hs1], by rw [ht2, ht1],
    by rw [ho2, ho1]⟩
  unfold READ_SHORT
  simp only [hr1, hr2]

theorem set_ip_ip (vm : VM) (frame ip : Nat) : ((set_ip vm frame ip).frames frame).ip = ip := by
  simp [set_ip]

theorem peek_congr {vm vm1 : VM} (hs : vm1.stack = vm.stack) (ht : vm1.stack_top = vm.stack_top)
    (dist : Nat) : peek vm1 dist = peek vm dist := by
  unfold peek
  rw [hs, ht]

/-- The cases `OP_JUMP`, `OP_JUMP_IF_FALSE` and `OP_LOOP` of `run`, for an
instruction at position `p` with the operand bytes `hi` and `lo`. -/
theorem run_step_jumps (sz : sizeofs) (fp : fpu) (fuel : Nat)
    (native : Nat → Nat → List value → value) (fresh : (Nat → Option obj) → Nat)
    {vm : VM} {frame : Nat} {chk : chunk} {p op hi lo : Nat}
    (hc : frame_chunk vm frame = some chk) (hip : (vm.frames frame).ip = p)
    (h0 : chk.code[p]? = some op) (h1 : chk.code[p + 1]? = some hi)
    (h2 : chk.code[p + 2]? = some lo) :
    (op = OP_JUMP → ∃ vm1 : VM,
      run_step sz fp fuel native fresh vm frame = some (step_result.next vm1 frame) ∧
      (vm1.frames frame).ip = p + 3 + (hi * 256 + lo) % 65536 ∧
      vm1.stack_top = vm.stack_top) ∧
    (op = OP_JUMP_IF_FALSE → ∀ v : value, peek vm 0 = some v → ∃ vm1 : VM,
      run_step sz fp fuel native fresh vm frame = some (step_result.next vm1 frame) ∧
      (vm1.frames frame).ip =
        (if is_falsey v = true then p + 3 + (hi * 256 + lo) % 65536 else p + 3) ∧
      vm1.stack_top = vm.stack_top) ∧
    (op = OP_LOOP → (hi * 256 + lo) % 65536 ≤ p + 3 → ∃ vm1 : VM,
      run_step sz fp fuel native fresh vm frame = some (step_result.next vm1 frame) ∧
      (vm1.frames frame).ip = p + 3 - (hi * 256 + lo) % 65536 ∧
      vm1.stack_top = vm.stack_top) := by
  have hct : frame_chunk { vm with stdout := vm.stdout ++ [out_item.trace] } frame = some chk := by
    rw [← hc]
    exact frame_chunk_congr rfl rfl
  obtain ⟨vma, hra, hca, hipa, hsa, hta, _⟩ :=
    @READ_BYTE_at { vm with stdout := vm.stdout ++ [out_item.trace] } frame chk op hct
      (by show chk.code[(vm.frames frame).ip]? = some op; rw [hip]; exact h0)
  have hipa' : (vma.frames frame).ip = p + 1 := by rw [hipa]; show (vm.frames frame).ip + 1 = _; rw [hip]
  obtain ⟨vmb, hrb, hcb, hipb, hsb, htb, _⟩ :=
    @READ_SHORT_at vma frame chk hi lo hca (by rw [hipa']; exact h1) (by rw [hipa']; exact h2)
  have hipb' : (vmb.frames frame).ip = p + 3 := by rw [hipb, hipa']
  have htop : vmb.stack_top = vm.stack_top := by rw [htb, hta]
  have hstk : vmb.stack = vm.stack := by rw [hsb, hsa]
  refine ⟨?_, ?_, ?_⟩
  · intro hop
    subst hop
    refine ⟨set_ip vmb frame ((vmb.frames frame).ip + (hi * 256 + lo) % 65536), ?_, ?_, htop⟩
    · unfold run_step
      simp +decide only [hra, hrb, Option.bind_eq_bind, Option.some_bind, OP_RETURN, OP_CALL,
        OP_CONSTANT,
        OP_NIL, OP_TRUE, OP_FALSE, OP_NEGATE, OP_ADD, OP_SUBTRACT, OP_MULTIPLY, OP_DIVIDE, OP_NOT,
        OP_EQUAL, OP_GREATER, OP_LESS, OP_POP, OP_DEFINE_GLOBAL, OP_GET_GLOBAL, OP_SET_GLOBAL,
        OP_GET_LOCAL, OP_SET_LOCAL, OP_JUMP_IF_FALSE, OP_JUMP, OP_LOOP, OP_PRINT, OP_CLOSURE,
        OP_GET_UPVALUE, OP_SET_UPVALUE, OP_CLOSE_UPVALUE, OP_CLASS, OP_GET_PROPERTY,
        OP_SET_PROPERTY, OP_METHOD, if_false, if_true]
    · rw [set_ip_ip, hipb']
  · intro hop v hv
    subst hop
    have hv' : peek vmb 0 = some v := by rw [peek_congr hstk htop]; exact hv
    by_cases hf : is_falsey v = true
    · refine ⟨set_ip vmb frame ((vmb.frames frame).ip + (hi * 256 + lo) % 65536), ?_, ?_, htop⟩
      · unfold run_step
        simp +decide only [hra, hrb, hv', hf, Option.bind_eq_bind, Option.some_bind, OP_RETURN,
          OP_CALL, OP_CONSTANT,
          OP_NIL, OP_TRUE, OP_FALSE, OP_NEGATE, OP_ADD, OP_SUBTRACT, OP_MULTIPLY, OP_DIVIDE, OP_NOT,
          OP_EQUAL, OP_GREATER, OP_LESS, OP_POP, OP_DEFINE_GLOBAL, OP_GET_GLOBAL, OP_SET_GLOBAL,
          OP_GET_LOCAL, OP_SET_LOCAL, OP_JUMP_IF_FALSE, OP_JUMP, OP_LOOP, OP_PRINT, OP_CLOSURE,
          OP_GET_UPVALUE, OP_SET_UPVALUE, OP_CLOSE_UPVALUE, OP_CLASS, OP_GET_PROPERTY,
          OP_SET_PROPERTY, OP_METHOD, if_false, if_true]
      · rw [set_ip_ip, hipb', if_pos hf]
    · refine ⟨vmb, ?_, ?_, htop⟩
      · unfold run_step
        simp +decide only [hra, hrb, hv', hf, Option.bind_eq_bind, Option.some_bind, OP_RETURN,
          OP_CALL, OP_CONSTANT,
          OP_NIL, OP_TRUE, OP_FALSE, OP_NEGATE, OP_ADD, OP_SUBTRACT, OP_MULTIPLY, OP_DIVIDE, OP_NOT,
          OP_EQUAL, OP_GREATER, OP_LESS, OP_POP, OP_DEFINE_GLOBAL, OP_GET_GLOBAL, OP_SET_GLOBAL,
          OP_GET_LOCAL, OP_SET_LOCAL, OP_JUMP_IF_FALSE, OP_JUMP, OP_LOOP, OP_PRINT, OP_CLOSURE,
          OP_GET_UPVALUE, OP_SET_UPVALUE, OP_CLOSE_UPVALUE, OP_CLASS, OP_GET_PROPERTY,
          OP_SET_PROPERTY, OP_METHOD, if_false, if_true]
      · rw [hipb', if_neg hf]
  · intro hop hle
    subst hop
    refine ⟨set_ip vmb frame ((vmb.frames frame).ip - (hi * 256 + lo) % 65536), ?_, ?_, htop⟩
    · unfold run_step
      have hnl : ¬ (vmb.frames frame).ip < (hi * 256 + lo) % 65536 := by rw [hipb']; omega
      simp +decide only [hra, hrb, hnl, Option.bind_eq_bind, Option.some_bind, OP_RETURN, OP_CALL,
        OP_CONSTANT,
        OP_NIL, OP_TRUE, OP_FALSE, OP_NEGATE, OP_ADD, OP_SUBTRACT, OP_MULTIPLY, OP_DIVIDE, OP_NOT,
        OP_EQUAL, OP_GREATER, OP_LESS, OP_POP, OP_DEFINE_GLOBAL, OP_GET_GLOBAL, OP_SET_GLOBAL,
        OP_GET_LOCAL, OP_SET_LOCAL, OP_JUMP_IF_FALSE, OP_JUMP, OP_LOOP, OP_PRINT, OP_CLOSURE,
        OP_GET_UPVALUE, OP_SET_UPVALUE, OP_CLOSE_UPVALUE, OP_CLASS, OP_GET_PROPERTY,
        OP_SET_PROPERTY, OP_METHOD, if_false, if_true]
    · rw [set_ip_ip, hipb']

/-- C32: under the invariant of the compiler, with `chk` the chunk of the
current function, `n` the position of a jump operand inside it and
`chk.count - n - 2` at most 65535: `patch_jump (n)` returns, the bytes at `n`
and `n + 1` are the high and the low byte of `chk.count - n - 2`, in a frame
running the patched chunk `READ_SHORT` at `n` yields that number, and one turn
of `run` at an `OP_JUMP` whose operand is at `n`, or at such an
`OP_JUMP_IF_FALSE` with a falsey value on top of the stack, leaves `ip` at
`chk.count`.  Likewise, for `m` not beyond the end of the chunk and a distance
of at most 65535, `emit_loop (m)` returns, and one turn of `run` at the
`OP_LOOP` it has emitted leaves `ip` at `m`. -/
theorem jump_encoding_round_trips (h : host) {ups : List Nat} {M B : Nat} {c : compile_state}
    {k : compiler_t} {rest : List compiler_t} {ar uc : Nat} {chk : chunk} {nm : Option Nat}
    (n m : Nat) (hinv : compile_inv h ups M B c) (hk : c.current = k :: rest)
    (hp : payload_at c.vm.heap k.func = some (obj_payload.obj_func ar uc chk nm))
    (hn : n + 2 ≤ chk.count) (hjump : chk.count - n - 2 ≤ 65535)
    (hm : m ≤ chk.count) (hloop : chk.count + 1 - m + 2 ≤ 65535) :
    (∃ (c1 : compile_state) (chk1 : chunk),
      patch_jump c n = some c1 ∧ current_chunk c1 = some chk1 ∧
      chk1.count = chk.count ∧
      chk1.code = List.set (List.set chk.code n ((chk.count - n - 2) / 256)) (n + 1)
        ((chk.count - n - 2) % 256) ∧
      chk1.code[n]? = some ((chk.count - n - 2) / 256) ∧
      chk1.code[n + 1]? = some ((chk.count - n - 2) % 256) ∧
      (chk.count - n - 2) / 256 < 256 ∧ (chk.count - n - 2) % 256 < 256 ∧
      (chk.count - n - 2) / 256 * 256 + (chk.count - n - 2) % 256 = chk.count - n - 2 ∧
      ∀ (sz : sizeofs) (fp : fpu) (fuel : Nat) (native : Nat → Nat → List value → value)
        (fresh : (Nat → Option obj) → Nat) (vm : VM) (frame : Nat),
        frame_chunk vm frame = some chk1 →
        ((vm.frames frame).ip = n →
          ∃ vm1 : VM, READ_SHORT vm frame = some (vm1, chk.count - n - 2) ∧
            (vm1.frames frame).ip = n + 2) ∧
        ((vm.frames frame).ip + 1 = n → chk1.code[(vm.frames frame).ip]? = some OP_JUMP →
          ∃ vm1 : VM,
            run_step sz fp fuel native fresh vm frame = some (step_result.next vm1 frame) ∧
            (vm1.frames frame).ip = chk.count) ∧
        ((vm.frames frame).ip + 1 = n →
          chk1.code[(vm.frames frame).ip]? = some OP_JUMP_IF_FALSE →
          ∀ v : value, peek vm 0 = some v → is_falsey v = true →
          ∃ vm1 : VM,
            run_step sz fp fuel native fresh vm frame = some (step_result.next vm1 frame) ∧
            (vm1.frames frame).ip = chk.count)) ∧
    (∃ (c1 : compile_state) (chk1 : chunk),
      emit_loop h c m = some c1 ∧ current_chunk c1 = some chk1 ∧
      chk1.count = chk.count + 3 ∧
      chk1.code = chk.code ++ [OP_LOOP, (chk.count + 1 - m + 2) / 256,
                               (chk.count + 1 - m + 2) % 256] ∧
      ∀ (sz : sizeofs) (fp : fpu) (fuel : Nat) (native : Nat → Nat → List value → value)
        (fresh : (Nat → Option obj) → Nat) (vm : VM) (frame : Nat),
        frame_chunk vm frame = some chk1 → (vm.frames frame).ip = chk.count →
        ∃ vm1 : VM,
          run_step sz fp fuel native fresh vm frame = some (step_result.next vm1 frame) ∧
          (vm1.frames frame).ip = m) := by
  obtain ⟨_, ar1, uc1, chk0, nm1, hp0, hok⟩ :=
    hinv.funcs k (by rw [hk]; exact List.mem_cons_self _ _)
  rw [hp] at hp0
  cases hp0
  have hlen : chk.code.length = chk.count := hok.1
  constructor
  · obtain ⟨vm1, hrun, hinv1, hp1⟩ := patch_jump_ok h n hinv hk hp hn (by omega)
    rw [if_neg (by omega)] at hrun
    have hdiv : (chk.count - n - 2) / 256 % 256 = (chk.count - n - 2) / 256 :=
      Nat.mod_eq_of_lt (by omega)
    rw [hdiv] at hp1
    have hbn : (List.set (List.set chk.code n ((chk.count - n - 2) / 256)) (n + 1)
        ((chk.count - n - 2) % 256))[n]? = some ((chk.count - n - 2) / 256) := by
      rw [List.getElem?_set_ne (by omega), List.getElem?_set_self (by omega)]
    have hbn1 : (List.set (List.set chk.code n ((chk.count - n - 2) / 256)) (n + 1)
        ((chk.count - n - 2) % 256))[n + 1]? = some ((chk.count - n - 2) % 256) := by
      rw [List.getElem?_set_self (by rw [List.length_set]; omega)]
    have henc : ((chk.count - n - 2) / 256 * 256 + (chk.count - n - 2) % 256) % 65536 =
        chk.count - n - 2 := by omega
    refine ⟨_, { chk with code := (List.set (List.set chk.code n ((chk.count - n - 2) / 256))
        (n + 1) ((chk.count - n - 2) % 256)) }, hrun, ?_, rfl, rfl, hbn, hbn1, by omega,
      by omega, by omega, ?_⟩
    · unfold current_chunk
      simp only [hk, List.head?_cons]
      exact func_chunk_of_payload hp1
    · intro sz fp fuel native fresh vm frame hc
      refine ⟨?_, ?_, ?_⟩
      · intro hip
        obtain ⟨vm2, hr, _, hip2, _⟩ := @READ_SHORT_at vm frame _ _ _ hc
          (by rw [hip]; exact hbn) (by rw [hip]; exact hbn1)
        rw [henc] at hr
        exact ⟨vm2, hr, by rw [hip2, hip]⟩
      · intro hip hop
        obtain ⟨vm2, hr, hip2, _⟩ := (run_step_jumps sz fp fuel native fresh hc rfl hop
          (by rw [hip]; exact hbn) (by rw [show (vm.frames frame).ip + 2 = n + 1 by omega]; exact hbn1)).1 rfl
        rw [henc] at hip2
        exact ⟨vm2, hr, by rw [hip2]; omega⟩
      · intro hip hop v hv hf
        obtain ⟨vm2, hr, hip2, _⟩ := (run_step_jumps sz fp fuel native fresh hc rfl hop
          (by rw [hip]; exact hbn) (by rw [show (vm.frames frame).ip + 2 = n + 1 by omega]; exact hbn1)).2.1 rfl v hv
        rw [if_pos hf, henc] at hip2
        exact ⟨vm2, hr, by rw [hip2]; omega⟩
  · obtain ⟨vm1, cap, hrun, hinv1, hp1⟩ :=
      emit_loop_ok h m hinv hk hp (by omega) (by omega)
    rw [if_neg (by omega)] at hrun
    have hdiv : (chk.count + 1 - m + 2) / 256 % 256 = (chk.count + 1 - m + 2) / 256 :=
      Nat.mod_eq_of_lt (by omega)
    rw [hdiv] at hp1
    have henc : ((chk.count + 1 - m + 2) / 256 * 256 + (chk.count + 1 - m + 2) % 256) % 65536 =
        chk.count + 1 - m + 2 := by omega
    obtain ⟨chk1, hp1, hcount1, hcode1⟩ : ∃ chk1 : chunk,
        payload_at vm1.heap k.func = some (obj_payload.obj_func ar uc chk1 nm) ∧
        chk1.count = chk.count + 3 ∧
        chk1.code = chk.code ++ [OP_LOOP, (chk.count + 1 - m + 2) / 256,
                                 (chk.count + 1 - m + 2) % 256] := ⟨_, hp1, rfl, rfl⟩
    refine ⟨_, chk1, hrun, ?_, hcount1, hcode1, ?_⟩
    · unfold current_chunk
      simp only [hk, List.head?_cons]
      exact func_chunk_of_payload hp1
    · intro sz fp fuel native fresh vm frame hc hip
      obtain ⟨vm2, hr, hip2, _⟩ := (@run_step_jumps sz fp fuel native fresh vm frame _
        chk.count OP_LOOP ((chk.count + 1 - m + 2) / 256) ((chk.count + 1 - m + 2) % 256)
        hc hip
        (by rw [hcode1, List.getElem?_append_right (by omega), hlen, Nat.sub_self]; rfl)
        (by rw [hcode1, List.getElem?_append_right (by omega), hlen, Nat.add_sub_cancel_left]
            rfl)
        (by rw [hcode1, List.getElem?_append_right (by omega), hlen, Nat.add_sub_cancel_left]
            rfl)).2.2
        rfl (by rw [henc]; omega)
      rw [henc] at hip2
      exact ⟨vm2, hr, by rw [hip2]; omega⟩

theorem state_with_jump_inv : compile_inv host_lp64 [] 1024 0 state_with_jump :=
  state_of_chunk_inv _ zero_token ⟨rfl, rfl, rfl⟩ (by intro v hv; cases hv) (Nat.zero_le _)

theorem jump_encoding_round_trips_witness :
    (∃ (c1 : compile_state) (chk1 : chunk),
      patch_jump state_with_jump 2 = some c1 ∧ current_chunk c1 = some chk1 ∧
      chk1.code = [OP_NIL, OP_JUMP, 0, 2, OP_NIL, OP_NIL] ∧
      ∃ vm1 : VM,
        run_step sizes_lp64 host_lp64.fp (2 ^ 32) (fun _ _ _ => value.nil) first_free
          (vm_at chk1 1) 0 = some (step_result.next vm1 0) ∧
        (vm1.frames 0).ip = 6) ∧
    (∃ (c1 : compile_state) (chk1 : chunk),
      emit_loop host_lp64 state_with_jump 4 = some c1 ∧ current_chunk c1 = some chk1 ∧
      chk1.code = [OP_NIL, OP_JUMP, 255, 255, OP_NIL, OP_NIL, OP_LOOP, 0, 5] ∧
      ∃ vm1 : VM,
        run_step sizes_lp64 host_lp64.fp (2 ^ 32) (fun _ _ _ => value.nil) first_free
          (vm_at chk1 6) 0 = some (step_result.next vm1 0) ∧
        (vm1.frames 0).ip = 4) := by
  obtain ⟨⟨c1, chk1, hr1, hc1, _, hcode1, _, _, _, _, _, hvm1⟩,
      ⟨c2, chk2, hr2, hc2, _, hcode2, hvm2⟩⟩ :=
    @jump_encoding_round_trips host_lp64 [] 1024 0 state_with_jump script_compiler [] 0 0
      (chunk_of [OP_NIL, OP_JUMP, 255, 255, OP_NIL, OP_NIL] []) none 2 4
      state_with_jump_inv rfl rfl (by decide) (by decide) (by decide) (by decide)
  refine ⟨⟨c1, chk1, hr1, hc1, hcode1, ?_⟩, ⟨c2, chk2, hr2, hc2, hcode2, ?_⟩⟩
  · exact (hvm1 sizes_lp64 host_lp64.fp (2 ^ 32) (fun _ _ _ => value.nil) first_free
      (vm_at chk1 1) 0 rfl).2.1 rfl (by rw [hcode1]; rfl)
  · exact hvm2 sizes_lp64 host_lp64.fp (2 ^ 32) (fun _ _ _ => value.nil) first_free
      (vm_at chk2 6) 0 rfl rfl

/-! ### The stack after interpret -/

/-- C40 fails on the code: `init_vm` leaves the stack empty and no frame
active; the empty program compiles to `OP_NIL, OP_NIL, OP_RETURN`, the first
`OP_NIL` being the one that `implicit_return` emits in excess; interpreting it
returns `INTERPRET_OK` with no active frame but with one slot on the stack,
which holds the closure of the script: `OP_RETURN` pops the second nil as the
result and its `pop ()` for the script closure removes the first nil instead.
The two lines `print 1;` and `print 2;`, interpreted one after the other by
`repl`, leave two slots, each holding a closure. -/
theorem interpret_leaves_script_closure :
    (init_vm host_lp64 zero_vm).map (fun vm => (vm.stack_top, vm.frame_count)) = some (0, 0) ∧
    (compile_source 50 "").map (fun r => (r.2.map (code_of r.1.vm), r.1.stderr.length)) =
      some (some (some [OP_NIL, OP_NIL, OP_RETURN]), 0) ∧
    (run_source 1000 "").map
        (fun r => (r.2, r.1.vm.stack_top, r.1.vm.frame_count, holds_closure r.1.vm 0)) =
      some (interpret_result.INTERPRET_OK, 1, 0, true) ∧
    (run_repl 1000 ["print 1;\n", "print 2;\n"]).map
        (fun r => (r.2, r.1.vm.stack_top, r.1.vm.frame_count, holds_closure r.1.vm 0,
          holds_closure r.1.vm 1)) =
      some ([interpret_result.INTERPRET_OK, interpret_result.INTERPRET_OK], 2, 0, true, true) := by
  refine ⟨?_, ?_, ?_, ?_⟩
  · decide!
  · decide!
  · decide!
  · decide!

end Aloxotl
